import Mathlib

/-!
# Verification of `tsp_optimizer` (src/paper/tsp_optimizer.cpp)

A shallow embedding of the 2-opt / 3-opt local search of `tsp_optimizer.cpp`
and of its wrapper `optimize` / `optimizeTour`.

Modelling conventions.

* `vector<int>` is `List Nat`; `v[i]` is `rd v i` and `v[i] = x` is `wr v i x`.
  City identities and array indices are natural numbers.  Where the source
  computes with `int` values that may become negative (`i--`, differences of
  positions) the model either performs the wrap test before decrementing or
  computes in `Int`.
* `double` is modelled twice.  The functions `search_succ`, .., `optimize`
  compute every gain in `ℚ` (exact arithmetic, `EPS = 1/10000`).  The functions
  with the suffix `_d` (`search_succ_d`, .., `optimize_d`) follow the same
  statements and round the result of every addition and subtraction to the
  nearest `double` (`rnd`: binary64, round to nearest, ties to even), in the
  order in which the source evaluates its expressions from left to right;
  their constant `EPS_d` is the `double` nearest to `0.0001`.  Magnitudes of
  `2^1024` and more (overflow to infinity) and NaN are outside the model.
* The random permutation `rnd.perm(n)` is a parameter `random_vector`.
* The outer `while (improvement_flag)` loop of both engines carries a fuel
  argument counting the allowed evaluations of its condition; running out of
  it yields `Err.outOfFuel`.  The bounded inner loops carry a count that is
  large enough for every state with in-range positions.
* Process termination (`exit`, `assert`, a throwing constructor) is an
  `Except.error`.
-/

namespace tsp_optimizer

/-! ## Data model -/

/-- The external distance table `instance.distance[a][b]`. -/
abbrev Oracle := Nat → Nat → ℚ

/-- Ways in which a run ends without returning normally. -/
inductive Err
  /-- The fuel of the outer `while` loop of the model is used up. -/
  | outOfFuel
  /-- A `vector` is constructed with a negative size. -/
  | lengthError
  /-- The statement `assert(false)` of `three_opt_first` is reached. -/
  | assertFalse
  /-- The branch printing "Some very strange error" is reached. -/
  | strangeError
  /-- A call of `ensure` fails in `optimizeTour`. -/
  | ensureFailed
  /-- The regression check of `optimizeTour` calls `exit(0)`. -/
  | regression
  deriving DecidableEq, Repr

/-- `v[i]` for a `vector<int>`. -/
def rd (v : List Nat) (i : Nat) : Nat := v.getD i 0

/-- `v[i] = x` for a `vector<int>`. -/
def wr (v : List Nat) (i x : Nat) : List Nat := v.set i x

/-- `dlb[i]` for the vector of don't look bits. -/
def rdB (v : List Bool) (i : Nat) : Bool := v.getD i false

/-- `dlb[i] = b` for the vector of don't look bits. -/
def wrB (v : List Bool) (i : Nat) (b : Bool) : List Bool := v.set i b

/-- `struct Tour`: the vector `nodes` contains 0 at both ends. -/
structure Tour where
  nodes : List Nat
  deriving DecidableEq, Repr

/-- `Tour(const vector<int> &v)`: push 0, the elements of `v`, and 0. -/
def Tour.ofVector (v : List Nat) : Tour := ⟨([0] ++ v) ++ [0]⟩

/-- `Tour::append`. -/
def Tour.append (t : Tour) (x : Nat) : Tour := ⟨t.nodes ++ [x]⟩

/-- `Tour::operator[]`. -/
def Tour.get (t : Tour) (x : Nat) : Nat := rd t.nodes x

/-- `Tour::length`. -/
def Tour.length (t : Tour) : Nat := t.nodes.length

/-- `Tour::calculateCost`: the loop `for (i = 1; i < size; ++i)` adding
`instance.distance[nodes[i-1]][nodes[i]]`. -/
def Tour.calculateCost (t : Tour) (inst : Oracle) : ℚ :=
  (List.range' 1 (t.nodes.length - 1)).foldl
    (fun sum i => sum + inst (rd t.nodes (i - 1)) (rd t.nodes i)) 0

/-- `struct TspProblem`: the distance submatrix and the candidate lists. -/
structure TspProblem where
  distance : List (List ℚ)
  nn_list : List (List Nat)

/-- `instance.distance[i][j]` for a `TspProblem`. -/
def TspProblem.dist (P : TspProblem) (i j : Nat) : ℚ := (P.distance.getD i []).getD j 0

/-- `instance.nn_list[i][h]` for a `TspProblem`. -/
def TspProblem.nn (P : TspProblem) (i h : Nat) : Nat := rd (P.nn_list.getD i []) h

/-- The order `operator<=` of `pair<double, int>` used by `sort`. -/
def pairLe (a b : ℚ × Nat) : Prop := a.1 < b.1 ∨ (a.1 = b.1 ∧ a.2 ≤ b.2)

instance pairLe_decidable : DecidableRel pairLe := fun a b => by
  unfold pairLe; infer_instance

/-- `TspProblem::TspProblem(instance, tour)`.  With `n = tour.length() - 1`,
the constructor `vector<int>(n - 1)` (for `n = 0`) or `vector<double>(n)`
(for `n = -1`) receives a negative size and throws. -/
def TspProblem.ofTour (inst : Oracle) (tour : Tour) : Except Err TspProblem :=
  if tour.length < 2 then .error .lengthError
  else
    let n := tour.length - 1
    let distance : List (List ℚ) :=
      (List.range n).map fun i => (List.range n).map fun j => inst (tour.get i) (tour.get j)
    let nn_list : List (List Nat) :=
      (List.range n).map fun i =>
        let tmp : List (ℚ × Nat) :=
          ((List.range n).filter fun j => j ≠ i).map fun j => ((distance.getD i []).getD j 0, j)
        let tmp := tmp.insertionSort pairLe
        (List.range (n - 1)).map fun j => (tmp.getD j (0, 0)).2
    .ok ⟨distance, nn_list⟩

/-- `static const int nn_ls = 20`. -/
def nn_ls : Nat := 20

/-- `static const double EPS = 0.0001`. -/
def EPS : ℚ := 1 / 10000

/-- `enum OptimizeMethod`. -/
inductive OptimizeMethod
  | twoOptsMethod
  | threeOptsMethod
  deriving DecidableEq, Repr

/-! ## Shared array state -/

/-- The arrays `tour`, `pos` and the help vectors `h_tour`, `hh_tour` (the
latter two exist only in `three_opt_first`). -/
structure Arrays where
  tour : List Nat
  pos : List Nat
  h_tour : List Nat
  hh_tour : List Nat
  deriving DecidableEq, Repr

/-- The statements `j++; if (j >= n) j = 0;`. -/
def incw (n j : Nat) : Nat := if j + 1 ≥ n then 0 else j + 1

/-- The statements `j--; if (j < 0) j = n-1;`. -/
def decw (n j : Nat) : Nat := if j = 0 then n - 1 else j - 1

/-- The predecessor lookup `if (pos_c > 0) p = tour[pos_c-1]; else p = tour[n-1];`. -/
def predAt (n : Nat) (tour : List Nat) (pos_c : Nat) : Nat :=
  if pos_c > 0 then rd tour (pos_c - 1) else rd tour (n - 1)

/-! ## The 2-opt exchange (lines 179-218 and, verbatim, 1213-1252) -/

/-- The body `c1 = tour[i]; c2 = tour[j]; tour[i] = c2; tour[j] = c1;
pos[c1] = j; pos[c2] = i;` of both reversal loops. -/
def swapCities (a : Arrays) (i j : Nat) : Arrays :=
  let c1 := rd a.tour i
  let c2 := rd a.tour j
  { a with tour := wr (wr a.tour i c2) j c1, pos := wr (wr a.pos c1 j) c2 i }

/-- The loop `while (i < j) { swap; i++; j--; }`; the first argument bounds
the number of iterations. -/
def reverse_inner : Nat → Arrays → Nat → Nat → Arrays
  | 0, a, _, _ => a
  | fuel + 1, a, i, j =>
    if i < j then reverse_inner fuel (swapCities a i j) (i + 1) (j - 1) else a

/-- The loop `for (h = 0; h < help; h++) { swap; i--; j++; wrap i; wrap j; }`. -/
def reverse_outer (n : Nat) : Nat → Arrays → Nat → Nat → Arrays
  | 0, a, _, _ => a
  | help + 1, a, i, j => reverse_outer n help (swapCities a i j) (decw n i) (incw n j)

/-- The two reversal branches of a 2-opt exchange (lines 183-218), entered
with `pos[h1] <= pos[h3]`. -/
def reverse_part (n : Nat) (a : Arrays) (h1 h2 h3 h4 : Nat) : Arrays :=
  if (rd a.pos h3 : Int) - (rd a.pos h2 : Int) < ((n / 2 : Nat) : Int) + 1 then
    reverse_inner n a (rd a.pos h2) (rd a.pos h3)
  else
    let i := rd a.pos h1
    let j := rd a.pos h4
    let help := if j > i then n - (j - i) + 1 else (i - j) + 1
    let b := reverse_outer n (help / 2) a i j
    { b with tour := wr b.tour n (rd b.tour 0) }

/-- The block "Now perform move" of a 2-opt exchange for the cities
`h1, h2, h3, h4`: if `pos[h3] < pos[h1]` the pairs `(h1, h2)` and `(h3, h4)`
change their roles. -/
def exchange2opt (n : Nat) (a : Arrays) (h1 h2 h3 h4 : Nat) : Arrays :=
  if rd a.pos h3 < rd a.pos h1 then reverse_part n a h3 h4 h1 h2
  else reverse_part n a h1 h2 h3 h4

/-! ## two_opt_first -/

/-- A 2-opt move found by a search: the cities `h1..h4` and its `gain`. -/
structure Move2 where
  h1 : Nat
  h2 : Nat
  h3 : Nat
  h4 : Nat
  gain : ℚ
  deriving DecidableEq, Repr

/-- First search of `two_opt_first` (lines 128-142), over the remaining
values of `h`. -/
def search_succ (P : TspProblem) (a : Arrays) (c1 s_c1 : Nat) (radius : ℚ) :
    List Nat → Option Move2
  | [] => none
  | h :: hs =>
    let c2 := P.nn c1 h
    if radius > P.dist c1 c2 then
      let s_c2 := rd a.tour (rd a.pos c2 + 1)
      let gain := - radius + P.dist c1 c2 + P.dist s_c1 s_c2 - P.dist c2 s_c2
      if gain < -EPS then some ⟨c1, s_c1, c2, s_c2, gain⟩
      else search_succ P a c1 s_c1 radius hs
    else none

/-- Second search of `two_opt_first` (lines 149-171), over the remaining
values of `h`. -/
def search_pred (P : TspProblem) (n : Nat) (a : Arrays) (c1 p_c1 : Nat) (radius : ℚ) :
    List Nat → Option Move2
  | [] => none
  | h :: hs =>
    let c2 := P.nn c1 h
    if radius > P.dist c1 c2 then
      let pos_c2 := rd a.pos c2
      let p_c2 := predAt n a.tour pos_c2
      if p_c2 = c1 then search_pred P n a c1 p_c1 radius hs
      else if p_c1 = c2 then search_pred P n a c1 p_c1 radius hs
      else
        let gain := - radius + P.dist c1 c2 + P.dist p_c1 p_c2 - P.dist p_c2 c2
        if gain < -EPS then some ⟨p_c1, c1, p_c2, c2, gain⟩
        else search_pred P n a c1 p_c1 radius hs
    else none

/-- The values of `h` of a loop `for (h = 0; h < nn_ls && h < n - 1; h++)`. -/
def candidates (n : Nat) : List Nat := List.range (min nn_ls (n - 1))

/-- The two searches for the city `c1`: the move that `goto exchange2opt`
carries, if any. -/
def find_move2 (P : TspProblem) (n : Nat) (a : Arrays) (c1 : Nat) : Option Move2 :=
  let pos_c1 := rd a.pos c1
  let s_c1 := rd a.tour (pos_c1 + 1)
  match search_succ P a c1 s_c1 (P.dist c1 s_c1) (candidates n) with
  | some m => some m
  | none =>
    let p_c1 := predAt n a.tour pos_c1
    search_pred P n a c1 p_c1 (P.dist p_c1 c1) (candidates n)

/-- The variables of an engine that live across point evaluations.
`n_exchanges` is a variable of `two_opt_first`; in `three_opt_first` it is
a counter of the passes through the label `exchange` added by the model. -/
structure State where
  arr : Arrays
  dlb : List Bool
  improvement_flag : Bool
  move_value : ℚ
  n_exchanges : Nat
  deriving DecidableEq, Repr

/-- The label `exchange2opt` of `two_opt_first` (lines 173-218). -/
def apply_move2 (n : Nat) (s : State) (m : Move2) : State :=
  { s with
    n_exchanges := s.n_exchanges + 1
    improvement_flag := true
    dlb := wrB (wrB (wrB (wrB s.dlb m.h1 false) m.h2 false) m.h3 false) m.h4 false
    arr := exchange2opt n s.arr m.h1 m.h2 m.h3 m.h4 }

/-- One iteration of `for (l = 0; l < n; l++)` in `two_opt_first`. -/
def two_opt_point (P : TspProblem) (n : Nat) (random_vector : List Nat)
    (s : State) (l : Nat) : State :=
  let c1 := rd random_vector l
  if rdB s.dlb c1 then s
  else
    match find_move2 P n s.arr c1 with
    | some m => apply_move2 n s m
    | none => { s with dlb := wrB s.dlb c1 true }

/-- One pass of the body of `while (improvement_flag)` in `two_opt_first`. -/
def two_opt_sweep (P : TspProblem) (n : Nat) (random_vector : List Nat) (s : State) : State :=
  (List.range n).foldl (two_opt_point P n random_vector) { s with improvement_flag := false }

/-- The loop `while (improvement_flag)` of `two_opt_first`. -/
def two_opt_loop (P : TspProblem) (n : Nat) (random_vector : List Nat) :
    Nat → State → Except Err State
  | 0, _ => .error .outOfFuel
  | fuel + 1, s =>
    if s.improvement_flag then
      two_opt_loop P n random_vector fuel (two_opt_sweep P n random_vector s)
    else .ok s

/-- The loop `for (i = 0; i < n; i++) { pos[tour[i]] = i; dlb[i] = false; }`
on `vector<int> pos(n)`. -/
def init_pos (n : Nat) (tour : List Nat) : List Nat :=
  (List.range n).foldl (fun pos i => wr pos (rd tour i) i) (List.replicate n 0)

/-- The state of an engine before its `while` loop. -/
def init_state (n : Nat) (tour : List Nat) (bufs : Nat) : State :=
  { arr := ⟨tour, init_pos n tour, List.replicate bufs 0, List.replicate bufs 0⟩
    dlb := List.replicate n false
    improvement_flag := true
    move_value := 0
    n_exchanges := 0 }

/-- `two_opt_first(tour, instance)`; the result state holds the final `tour`. -/
def two_opt_first (fuel : Nat) (tour : List Nat) (P : TspProblem)
    (random_vector : List Nat) : Except Err State :=
  let n := tour.length - 1
  two_opt_loop P n random_vector fuel (init_state n tour 0)

/-! ## three_opt_first: the search -/

/-- The variables that describe the move memorised while one city `c1` is
evaluated in `three_opt_first`. -/
structure Scan where
  opt2_flag : Bool
  move_flag : Nat
  h1 : Nat
  h2 : Nat
  h3 : Nat
  h4 : Nat
  h5 : Nat
  h6 : Nat
  move_value : ℚ
  improvement_flag : Bool
  deriving DecidableEq, Repr

/-- Result of the innermost `while (g < nn_ls && g < n - 1)` loop: it ends
normally, or by `goto exchange` with the memorised move, or in `assert(false)`. -/
inductive Inner
  | fallthrough
  | jump (sc : Scan)
  | failed
  deriving DecidableEq, Repr

/-- The innermost search of `three_opt_first` (lines 352-473) over the
remaining values of `g`.  The assignment `g = nn_ls + 1` followed by `g++`
ends the loop. -/
def inner_search (P : TspProblem) (n : Nat) (a : Arrays)
    (c1 s_c1 c2 s_c2 p_c2 pos_c1 pos_c2 : Nat) (radius add1 decrease_breaks : ℚ)
    (sc : Scan) : List Nat → Inner
  | [] => .fallthrough
  | g :: gs =>
    let c3 := P.nn s_c1 g
    let pos_c3 := rd a.pos c3
    let s_c3 := rd a.tour (pos_c3 + 1)
    let p_c3 := predAt n a.tour pos_c3
    if c3 = c1 then
      inner_search P n a c1 s_c1 c2 s_c2 p_c2 pos_c1 pos_c2 radius add1 decrease_breaks sc gs
    else
      let add2 := P.dist s_c1 c3
      if decrease_breaks + add1 < add2 then
        if pos_c2 = pos_c1 then .failed
        else
          let between : Bool :=
            if pos_c2 > pos_c1 then decide (pos_c3 ≤ pos_c2 ∧ pos_c3 > pos_c1)
            else decide (pos_c3 > pos_c1 ∨ pos_c3 < pos_c2)
          if between then
            let gain := decrease_breaks - P.dist c3 p_c3 + add1 + add2 + P.dist p_c3 s_c2
            if gain < sc.move_value - EPS then
              .jump { improvement_flag := true, move_value := gain, opt2_flag := false,
                      move_flag := 1,
                      h1 := c1, h2 := s_c1, h3 := c2, h4 := s_c2, h5 := p_c3, h6 := c3 }
            else
              inner_search P n a c1 s_c1 c2 s_c2 p_c2 pos_c1 pos_c2 radius add1
                decrease_breaks sc gs
          else
            let gain2 := decrease_breaks - P.dist c3 s_c3 + add1 + add2 + P.dist s_c2 s_c3
            let gain2 := if pos_c2 = pos_c3 then 20000 else gain2
            if gain2 < sc.move_value - EPS then
              .jump { improvement_flag := true, move_value := gain2, opt2_flag := false,
                      move_flag := 2,
                      h1 := c1, h2 := s_c1, h3 := c2, h4 := s_c2, h5 := c3, h6 := s_c3 }
            else
              let gain3 := - radius - P.dist p_c2 c2 - P.dist p_c3 c3 + add1 + add2
                + P.dist p_c2 p_c3
              let gain3 :=
                if c3 = c2 ∨ c2 = c1 ∨ c1 = c3 ∨ p_c2 = c1 then 2000000 else gain3
              if gain3 < sc.move_value - EPS then
                .jump { improvement_flag := true, move_value := gain3, opt2_flag := false,
                        move_flag := 3,
                        h1 := c1, h2 := s_c1, h3 := p_c2, h4 := c2, h5 := p_c3, h6 := c3 }
              else
                let gain4 := - radius - P.dist p_c2 c2 - P.dist c3 s_c3 + add1 + add2
                  + P.dist p_c2 s_c3
                if gain4 < sc.move_value - EPS then
                  .jump { improvement_flag := true, move_value := gain4, opt2_flag := false,
                          move_flag := 4,
                          h1 := c1, h2 := s_c1, h3 := p_c2, h4 := c2, h5 := c3, h6 := s_c3 }
                else
                  inner_search P n a c1 s_c1 c2 s_c2 p_c2 pos_c1 pos_c2 radius add1
                    decrease_breaks sc gs
      else .fallthrough

/-- The search `while (h < nn_ls && h < n - 1)` of `three_opt_first`
(lines 310-475) over the remaining values of `h`.  A 2-opt move is
memorised without leaving the loop. -/
def outer_search (P : TspProblem) (n : Nat) (a : Arrays) (c1 s_c1 pos_c1 : Nat) :
    List Nat → Scan → Except Err Scan
  | [], sc => .ok sc
  | h :: hs, sc =>
    let c2 := P.nn c1 h
    let pos_c2 := rd a.pos c2
    let s_c2 := rd a.tour (pos_c2 + 1)
    let p_c2 := predAt n a.tour pos_c2
    let radius := P.dist c1 s_c1
    let add1 := P.dist c1 c2
    if radius > add1 then
      let decrease_breaks := - radius - P.dist c2 s_c2
      let diffs := decrease_breaks + add1 + P.dist s_c1 s_c2
      let diffp := - radius - P.dist c2 p_c2 + P.dist c1 p_c2 + P.dist s_c1 c2
      let diffp := if p_c2 = c1 then 0 else diffp
      let sc :=
        if diffs < sc.move_value - EPS ∨ diffp < sc.move_value - EPS then
          if diffs ≤ diffp then
            { sc with improvement_flag := true, h1 := c1, h2 := s_c1, h3 := c2, h4 := s_c2,
                      move_value := diffs, opt2_flag := true, move_flag := 0 }
          else
            { sc with improvement_flag := true, h1 := c1, h2 := s_c1, h3 := p_c2, h4 := c2,
                      move_value := diffp, opt2_flag := true, move_flag := 0 }
        else sc
      match inner_search P n a c1 s_c1 c2 s_c2 p_c2 pos_c1 pos_c2 radius add1
          decrease_breaks sc (candidates n) with
      | .jump sc1 => .ok sc1
      | .failed => .error .assertFalse
      | .fallthrough => outer_search P n a c1 s_c1 pos_c1 hs sc
    else .ok sc

/-! ## three_opt_first: the segment rewriting primitives -/

/-- The loop `while (j != h) { i++; j++ or j--; wrap; buf[i] = tour[j]; n1++; }`;
returns the buffer and `n1`. -/
def copy_loop (n : Nat) (fwd : Bool) (tour : List Nat) (h : Nat) :
    Nat → List Nat → Nat → Nat → Nat → List Nat × Nat
  | 0, buf, _, _, n1 => (buf, n1)
  | fuel + 1, buf, i, j, n1 =>
    if j ≠ h then
      let i1 := i + 1
      let j1 := if fwd then incw n j else decw n j
      copy_loop n fwd tour h fuel (wr buf i1 (rd tour j1)) i1 j1 (n1 + 1)
    else (buf, n1)

/-- The statements `i = 0; buf[i] = tour[j]; n1 = 1;` followed by the copy loop. -/
def copy_segment (n : Nat) (fwd : Bool) (tour buf : List Nat) (j h : Nat) : List Nat × Nat :=
  copy_loop n fwd tour h n (wr buf 0 (rd tour j)) 0 j 1

/-- Copy a part of the tour into `h_tour`. -/
def fill_h (n : Nat) (fwd : Bool) (a : Arrays) (j h : Nat) : Arrays × Nat :=
  let r := copy_segment n fwd a.tour a.h_tour j h
  ({ a with h_tour := r.1 }, r.2)

/-- Copy a part of the tour into `hh_tour`. -/
def fill_hh (n : Nat) (fwd : Bool) (a : Arrays) (j h : Nat) : Arrays × Nat :=
  let r := copy_segment n fwd a.tour a.hh_tour j h
  ({ a with hh_tour := r.1 }, r.2)

/-- The loop `for (i = 0; i < n1; i++) { tour[j] = buf[i]; pos[buf[i]] = j;
j++; wrap; }`; the first argument is the number of remaining iterations. -/
def write_loop (n : Nat) (buf : List Nat) : Nat → Nat → Arrays → Nat → Arrays × Nat
  | 0, _, a, j => (a, j)
  | k + 1, i, a, j =>
    write_loop n buf k (i + 1)
      { a with tour := wr a.tour j (rd buf i), pos := wr a.pos (rd buf i) j } (incw n j)

/-- Write the first `n1` entries of `h_tour` from position `j` on. -/
def put_h (n : Nat) (a : Arrays) (n1 j : Nat) : Arrays × Nat :=
  write_loop n a.h_tour n1 0 a j

/-- Write the first `n2` entries of `hh_tour` from position `j` on. -/
def put_hh (n : Nat) (a : Arrays) (n2 j : Nat) : Arrays × Nat :=
  write_loop n a.hh_tour n2 0 a j

/-- The loop `while (i != stop) { i++; wrap; j++; wrap; tour[j] = tour[i];
pos[tour[i]] = j; }`. -/
def shift_loop (n stop : Nat) : Nat → Arrays → Nat → Nat → Arrays × Nat
  | 0, a, _, j => (a, j)
  | fuel + 1, a, i, j =>
    if i ≠ stop then
      let i1 := incw n i
      let j1 := incw n j
      let t := wr a.tour j1 (rd a.tour i1)
      shift_loop n stop fuel { a with tour := t, pos := wr a.pos (rd t i1) j1 } i1 j1
    else (a, j)

/-- The statements `tour[j] = tour[i]; pos[tour[i]] = j;` followed by the
shift loop. -/
def shift_segment (n : Nat) (a : Arrays) (j i stop : Nat) : Arrays × Nat :=
  let t := wr a.tour j (rd a.tour i)
  shift_loop n stop n { a with tour := t, pos := wr a.pos (rd t i) j } i j

/-- The statements `i = 0; tour[j] = h_tour[i]; pos[h_tour[i]] = j;` and the
loop `while (j != stop) { j++; wrap; i++; tour[j] = h_tour[i]; pos[h_tour[i]] = j; }`
(lines 774-784). -/
def write_until_loop (n stop : Nat) (buf : List Nat) : Nat → Nat → Arrays → Nat → Arrays
  | 0, _, a, _ => a
  | fuel + 1, i, a, j =>
    if j ≠ stop then
      let j1 := incw n j
      let i1 := i + 1
      write_until_loop n stop buf fuel i1
        { a with tour := wr a.tour j1 (rd buf i1), pos := wr a.pos (rd buf i1) j1 } j1
    else a

/-- The statement `tour[n] = tour[0]`. -/
def refresh (n : Nat) (a : Arrays) : Arrays := { a with tour := wr a.tour n (rd a.tour 0) }

/-- Index of the longest part: `h = 0; help = INT_MIN; for (g = 0; g <= 2; g++)
if (help < val[g]) { help = val[g]; h = g; }` (every `val[g]` exceeds `INT_MIN`). -/
def longest (v0 v1 v2 : Int) : Nat :=
  let r1 : Int × Nat := if v0 < v1 then (v1, 1) else (v0, 0)
  let r2 : Int × Nat := if r1.1 < v2 then (v2, 2) else r1
  r2.2

/-! ## three_opt_first: the twelve rewriting cases (lines 486-1202) -/

/-- Cases of `move_flag == 4` that store one part in `h_tour`, shift the
next part down to the position `w` and write the stored part behind it:
`(b, e)` are the positions of the first and last city of the stored part,
`i` the position of the first city of the shifted part and `stop` that of
its last city. -/
def store_shift_put (n : Nat) (a : Arrays) (fwd : Bool) (b e w i stop : Nat) : Arrays :=
  let r1 := fill_h n fwd a b e
  let r2 := shift_segment n r1.1 w i stop
  let r3 := put_h n r2.1 r1.2 (incw n r2.2)
  refresh n r3.1

/-- Cases that store two parts in `h_tour` and `hh_tour` and write back
`h_tour` first, from position `w` on. -/
def store2_put_h_hh (n : Nat) (a : Arrays) (fwd1 : Bool) (b1 e1 : Nat) (fwd2 : Bool)
    (b2 e2 w : Nat) : Arrays :=
  let r1 := fill_h n fwd1 a b1 e1
  let r2 := fill_hh n fwd2 r1.1 b2 e2
  let r3 := put_h n r2.1 r1.2 w
  let r4 := put_hh n r3.1 r2.2 r3.2
  refresh n r4.1

/-- Cases that store two parts in `h_tour` and `hh_tour` and write back
`hh_tour` first, from position `w` on. -/
def store2_put_hh_h (n : Nat) (a : Arrays) (fwd1 : Bool) (b1 e1 : Nat) (fwd2 : Bool)
    (b2 e2 w : Nat) : Arrays :=
  let r1 := fill_h n fwd1 a b1 e1
  let r2 := fill_hh n fwd2 r1.1 b2 e2
  let r3 := put_hh n r2.1 r2.2 w
  let r4 := put_h n r3.1 r1.2 r3.2
  refresh n r4.1

/-- The block `move_flag == 4` (lines 486-656). -/
def move4 (n : Nat) (a : Arrays) (h1 h2 h3 h4 h5 h6 pos_c1 pos_c2 pos_c3 : Nat) : Arrays :=
  let N : Int := n
  let p1 : Int := pos_c1
  let p2 : Int := pos_c2
  let p3 : Int := pos_c3
  let n1 : Int := if p2 > p1 then p2 - p1 else N - (p1 - p2)
  let n2 : Int := if p3 > p2 then p3 - p2 else N - (p2 - p3)
  let n3 : Int := if p1 > p3 then p1 - p3 else N - (p3 - p1)
  let h := longest n1 n2 n3
  if h = 0 then
    store_shift_put n a true (rd a.pos h4) (rd a.pos h5) (rd a.pos h4) (rd a.pos h6) pos_c1
  else if h = 1 then
    store_shift_put n a true (rd a.pos h6) (rd a.pos h1) (rd a.pos h6) (rd a.pos h2) pos_c2
  else if h = 2 then
    store_shift_put n a true (rd a.pos h2) (rd a.pos h3) (rd a.pos h2) (rd a.pos h4) pos_c3
  else a

/-- The case `h == 1` of `move_flag == 1` (lines 737-786). -/
def move1_case1 (n : Nat) (a : Arrays) (h3 h4 h6 pos_c1 : Nat) : Arrays :=
  let r1 := fill_h n false a (rd a.pos h3) (rd a.pos h6)
  let r2 := shift_segment n r1.1 (rd r1.1.pos h6) (rd r1.1.pos h4) pos_c1
  let j := incw n r2.2
  let b : Arrays :=
    { r2.1 with tour := wr r2.1.tour j (rd r2.1.h_tour 0),
                pos := wr r2.1.pos (rd r2.1.h_tour 0) j }
  refresh n (write_until_loop n pos_c1 b.h_tour n 0 b j)

/-- The block `move_flag == 1` (lines 657-839). -/
def move1 (n : Nat) (a : Arrays) (h1 h2 h3 h4 h5 h6 pos_c1 pos_c2 pos_c3 : Nat) : Arrays :=
  let N : Int := n
  let p1 : Int := pos_c1
  let p2 : Int := pos_c2
  let p3 : Int := pos_c3
  let n1 : Int := if p3 < p2 then p2 - p3 else N - (p3 - p2)
  let n2 : Int := if p3 > p1 then p3 - p1 + 1 else N - (p1 - p3 + 1)
  let n3 : Int := if p2 > p1 then N - (p2 - p1 + 1) else p1 - p2 + 1
  let h := longest n1 n2 n3
  if h = 0 then
    store2_put_hh_h n a false (rd a.pos h5) (rd a.pos h2) false (rd a.pos h1) (rd a.pos h4)
      (rd a.pos h4)
  else if h = 1 then
    move1_case1 n a h3 h4 h6 pos_c1
  else if h = 2 then
    store2_put_hh_h n a true (rd a.pos h2) (rd a.pos h5) false pos_c2 (rd a.pos h6)
      (rd a.pos h2)
  else a

/-- The block `move_flag == 2` (lines 840-1023). -/
def move2 (n : Nat) (a : Arrays) (h1 h2 h3 h4 h5 h6 pos_c1 pos_c2 pos_c3 : Nat) : Arrays :=
  let N : Int := n
  let p1 : Int := pos_c1
  let p2 : Int := pos_c2
  let p3 : Int := pos_c3
  let n1 : Int := if p3 < p1 then p1 - p3 else N - (p3 - p1)
  let n2 : Int := if p3 > p2 then p3 - p2 else N - (p2 - p3)
  let n3 : Int := if p2 > p1 then p2 - p1 else N - (p1 - p2)
  let h := longest n1 n2 n3
  if h = 0 then
    store2_put_h_hh n a false (rd a.pos h3) (rd a.pos h2) false (rd a.pos h5) (rd a.pos h4)
      (rd a.pos h2)
  else if h = 1 then
    store2_put_h_hh n a true (rd a.pos h2) (rd a.pos h3) false (rd a.pos h1) (rd a.pos h6)
      (rd a.pos h6)
  else if h = 2 then
    store2_put_h_hh n a false (rd a.pos h1) (rd a.pos h6) true (rd a.pos h4) (rd a.pos h5)
      (rd a.pos h4)
  else a

/-- The case `h == 0` of `move_flag == 3` (lines 1052-1097): the first
statement of the shift writes `h4` itself. -/
def move3_case0 (n : Nat) (a : Arrays) (h2 h3 h4 h5 : Nat) : Arrays :=
  let r1 := fill_h n false a (rd a.pos h3) (rd a.pos h2)
  let a1 := r1.1
  let j := rd a1.pos h2
  let h := rd a1.pos h5
  let i := rd a1.pos h4
  let a2 : Arrays := { a1 with tour := wr a1.tour j h4, pos := wr a1.pos h4 j }
  let r2 := shift_loop n h n a2 i j
  let r3 := put_h n r2.1 r1.2 (incw n r2.2)
  refresh n r3.1

/-- The block `move_flag == 3` (lines 1024-1202). -/
def move3 (n : Nat) (a : Arrays) (h1 h2 h3 h4 h5 h6 pos_c1 pos_c2 pos_c3 : Nat) : Arrays :=
  let N : Int := n
  let p1 : Int := pos_c1
  let p2 : Int := pos_c2
  let p3 : Int := pos_c3
  let n1 : Int := if p3 < p1 then p1 - p3 else N - (p3 - p1)
  let n2 : Int := if p3 > p2 then p3 - p2 else N - (p2 - p3)
  let n3 : Int := if p2 > p1 then p2 - p1 else N - (p1 - p2)
  let h := longest n1 n2 n3
  if h = 0 then
    move3_case0 n a h2 h3 h4 h5
  else if h = 1 then
    store2_put_h_hh n a false (rd a.pos h3) (rd a.pos h2) true (rd a.pos h6) (rd a.pos h1)
      (rd a.pos h6)
  else if h = 2 then
    store2_put_h_hh n a false (rd a.pos h5) (rd a.pos h4) false (rd a.pos h1) (rd a.pos h6)
      (rd a.pos h4)
  else a

/-- The label `exchange` of `three_opt_first` (lines 477-1253). -/
def exchange (n : Nat) (s : State) (sc : Scan) : Except Err State :=
  let s0 : State :=
    { s with move_value := 0, improvement_flag := sc.improvement_flag,
             n_exchanges := s.n_exchanges + 1 }
  let r1 : Except Err State :=
    if sc.move_flag ≠ 0 then
      let dlb := wrB (wrB (wrB (wrB (wrB (wrB s0.dlb sc.h1 false) sc.h2 false) sc.h3 false)
        sc.h4 false) sc.h5 false) sc.h6 false
      let a := s0.arr
      let pos_c1 := rd a.pos sc.h1
      let pos_c2 := rd a.pos sc.h3
      let pos_c3 := rd a.pos sc.h5
      if sc.move_flag = 4 then
        .ok { s0 with dlb := dlb,
                      arr := move4 n a sc.h1 sc.h2 sc.h3 sc.h4 sc.h5 sc.h6 pos_c1 pos_c2 pos_c3 }
      else if sc.move_flag = 1 then
        .ok { s0 with dlb := dlb,
                      arr := move1 n a sc.h1 sc.h2 sc.h3 sc.h4 sc.h5 sc.h6 pos_c1 pos_c2 pos_c3 }
      else if sc.move_flag = 2 then
        .ok { s0 with dlb := dlb,
                      arr := move2 n a sc.h1 sc.h2 sc.h3 sc.h4 sc.h5 sc.h6 pos_c1 pos_c2 pos_c3 }
      else if sc.move_flag = 3 then
        .ok { s0 with dlb := dlb,
                      arr := move3 n a sc.h1 sc.h2 sc.h3 sc.h4 sc.h5 sc.h6 pos_c1 pos_c2 pos_c3 }
      else .error .strangeError
    else .ok s0
  match r1 with
  | .error e => .error e
  | .ok s1 =>
    if sc.opt2_flag then
      .ok { s1 with
            dlb := wrB (wrB (wrB (wrB s1.dlb sc.h1 false) sc.h2 false) sc.h3 false) sc.h4 false
            arr := exchange2opt n s1.arr sc.h1 sc.h2 sc.h3 sc.h4 }
    else .ok s1

/-- One iteration of `for (l = 0; l < n; l++)` in `three_opt_first`
(lines 296-1257). -/
def three_opt_point (P : TspProblem) (n : Nat) (random_vector : List Nat)
    (s : State) (l : Nat) : Except Err State :=
  let c1 := rd random_vector l
  if rdB s.dlb c1 then .ok s
  else
    let pos_c1 := rd s.arr.pos c1
    let s_c1 := rd s.arr.tour (pos_c1 + 1)
    let sc0 : Scan :=
      { opt2_flag := false, move_flag := 0, h1 := 0, h2 := 0, h3 := 0, h4 := 0, h5 := 0,
        h6 := 0, move_value := s.move_value, improvement_flag := s.improvement_flag }
    match outer_search P n s.arr c1 s_c1 pos_c1 (candidates n) sc0 with
    | .error e => .error e
    | .ok sc =>
      if sc.move_flag ≠ 0 ∨ sc.opt2_flag = true then exchange n s sc
      else .ok { s with dlb := wrB s.dlb c1 true }

/-- The loop `for (l = 0; l < n; l++)` of `three_opt_first` over the
remaining values of `l`. -/
def three_opt_points (P : TspProblem) (n : Nat) (random_vector : List Nat) :
    List Nat → State → Except Err State
  | [], s => .ok s
  | l :: ls, s =>
    match three_opt_point P n random_vector s l with
    | .error e => .error e
    | .ok s1 => three_opt_points P n random_vector ls s1

/-- One pass of the body of `while (improvement_flag)` in `three_opt_first`. -/
def three_opt_sweep (P : TspProblem) (n : Nat) (random_vector : List Nat) (s : State) :
    Except Err State :=
  three_opt_points P n random_vector (List.range n)
    { s with move_value := 0, improvement_flag := false }

/-- The loop `while (improvement_flag)` of `three_opt_first`. -/
def three_opt_loop (P : TspProblem) (n : Nat) (random_vector : List Nat) :
    Nat → State → Except Err State
  | 0, _ => .error .outOfFuel
  | fuel + 1, s =>
    if s.improvement_flag then
      match three_opt_sweep P n random_vector s with
      | .error e => .error e
      | .ok s1 => three_opt_loop P n random_vector fuel s1
    else .ok s

/-- `three_opt_first(tour, instance)`; the result state holds the final `tour`. -/
def three_opt_first (fuel : Nat) (tour : List Nat) (P : TspProblem)
    (random_vector : List Nat) : Except Err State :=
  let n := tour.length - 1
  three_opt_loop P n random_vector fuel (init_state n tour n)

/-! ## The wrapper -/

/-- The vector `nodes` built by `optimize`: `0, 1, .., length - 2, 0`. -/
def local_nodes (len : Nat) : List Nat :=
  (List.range len).map fun i => if i + 1 < len then i else 0

/-- The statements `nodes.pop_back(); rotate(nodes.begin(), find(nodes.begin(),
nodes.end(), 0), nodes.end()); nodes.push_back(0);`. -/
def reanchor (nodes : List Nat) : List Nat :=
  let v := nodes.dropLast
  (v.rotate (v.indexOf 0)) ++ [0]

/-- `optimize(instance, originalTour, method)`. -/
def optimize (fuel : Nat) (inst : Oracle) (originalTour : Tour) (random_vector : List Nat)
    (method : OptimizeMethod) : Except Err Tour :=
  match TspProblem.ofTour inst originalTour with
  | .error e => .error e
  | .ok problem =>
    let nodes := local_nodes originalTour.length
    let r : Except Err State :=
      match method with
      | .twoOptsMethod => two_opt_first fuel nodes problem random_vector
      | .threeOptsMethod => three_opt_first fuel nodes problem random_vector
    match r with
    | .error e => .error e
    | .ok s =>
      .ok ((reanchor s.arr.tour).foldl (fun tour x => tour.append (originalTour.get x)) ⟨[]⟩)

/-! ## optimizeTour -/

/-- The tolerance `1e-9` of the regression check. -/
def tolerance : ℚ := 1 / 1000000000

/-- `optimizeTour(instance, tour, method)` on `tour.points`; the result is the
new value of `tour.points`.  The member `tigersugar::Tour::distance(instance)`
is defined outside this file and enters as the parameter `distance`, a function
of `tour.points`; `ensure` ends the run when its condition is false.  The route
handed to `optimize` is `tour.points` without its last and its first entry. -/
def optimizeTour (fuel : Nat) (inst : Oracle) (distance : List Nat → ℚ) (points : List Nat)
    (random_vector : List Nat) (method : OptimizeMethod) : Except Err (List Nat) :=
  let oldDistance := distance points
  let inner := points.dropLast.tail
  match optimize fuel inst (Tour.ofVector inner) random_vector method with
  | .error e => .error e
  | .ok tmp =>
    if tmp.nodes.length ≥ 2 ∧ rd tmp.nodes 0 = 0 ∧ rd tmp.nodes (tmp.nodes.length - 1) = 0 then
      let newDistance := distance tmp.nodes
      if newDistance > oldDistance + tolerance then .error .regression
      else if newDistance ≤ oldDistance + tolerance then .ok tmp.nodes
      else .error .ensureFailed
    else .error .ensureFailed

/-- `optimizeTour(instance, tour, method)` with the value that `tour.points`
holds when the run ends, and the way it ends (`none`: the call returns).
`tour` is a reference to the caller's object: `pop_back` and `erase` shorten
`tour.points` in place (lines 1305-1306), the assignment of line 1310 replaces
it before `newDistance` is computed, and the copy `org` is only printed. -/
def optimizeTour_points (fuel : Nat) (inst : Oracle) (distance : List Nat → ℚ)
    (points : List Nat) (random_vector : List Nat) (method : OptimizeMethod) :
    List Nat × Option Err :=
  let oldDistance := distance points
  let points1 := points.dropLast
  let points2 := points1.tail
  match optimize fuel inst (Tour.ofVector points2) random_vector method with
  | .error e => (points2, some e)
  | .ok tmp =>
    if tmp.nodes.length ≥ 2 ∧ rd tmp.nodes 0 = 0 ∧ rd tmp.nodes (tmp.nodes.length - 1) = 0 then
      let points3 := tmp.nodes
      let newDistance := distance points3
      if newDistance > oldDistance + tolerance then (points3, some .regression)
      else if newDistance ≤ oldDistance + tolerance then (points3, none)
      else (points3, some .ensureFailed)
    else (points2, some .ensureFailed)

/-! ## Definitions used by the proofs -/

/-- Position reached from `j` by `k` steps forward on the cycle of length `n`. -/
def cidx (n j k : Nat) : Nat := if j + k < n then j + k else j + k - n

/-- Position reached from `j` by `k` steps backward on the cycle of length `n`. -/
def cidxb (n j k : Nat) : Nat := if k ≤ j then j - k else j + n - k

/-- The cities found from position `b` on, going forward `len` steps. -/
def segF (n : Nat) (t : List Nat) (b len : Nat) : List Nat :=
  (List.range len).map fun k => rd t (cidx n b k)

/-- The cities found from position `b` on, going backward `len` steps. -/
def segB (n : Nat) (t : List Nat) (b len : Nat) : List Nat :=
  (List.range len).map fun k => rd t (cidxb n b k)

/-- The invariant of the arrays of both engines: `tour[0..n-1]` holds cities
below `n`, `pos` is its inverse and `tour[n]` repeats `tour[0]`. -/
structure Valid (n : Nat) (a : Arrays) : Prop where
  tour_len : a.tour.length = n + 1
  pos_len : a.pos.length = n
  tour_lt : ∀ i, i < n → rd a.tour i < n
  pos_tour : ∀ i, i < n → rd a.pos (rd a.tour i) = i
  sentinel : rd a.tour n = rd a.tour 0

/-- The invariant `Valid` without the sentinel. -/
structure Core (n : Nat) (a : Arrays) : Prop where
  tour_len : a.tour.length = n + 1
  pos_len : a.pos.length = n
  tour_lt : ∀ i, i < n → rd a.tour i < n
  pos_tour : ∀ i, i < n → rd a.pos (rd a.tour i) = i

/-- The tour `t'` is `t` with the window of `L` cells starting at `w` mirrored. -/
def RevWin (n : Nat) (t t' : List Nat) (w L : Nat) : Prop :=
  ∀ r, r < n → rd t' (cidx n w r) =
    if r < L then rd t (cidx n w (L - 1 - r)) else rd t (cidx n w r)

/-- Sum of `d` over the consecutive pairs of a list. -/
def pathL (d : Nat → Nat → ℚ) : List Nat → ℚ
  | [] => 0
  | [_] => 0
  | x :: y :: r => d x y + pathL d (y :: r)

/-- Cost of the cycle that visits the list and returns to its first entry. -/
def cycL (d : Nat → Nat → ℚ) (l : List Nat) : ℚ := pathL d (l ++ l.take 1)

/-- The cyclic tour cost: the sum over `i < n` of
`distance[tour[i]][tour[i+1]]`. -/
def cycCost (P : TspProblem) (n : Nat) (tour : List Nat) : ℚ :=
  ((List.range n).map fun i => P.dist (rd tour i) (rd tour (i + 1))).sum

/-- Candidate lists only hold other cities of the problem. -/
def WFP (n : Nat) (P : TspProblem) : Prop :=
  ∀ c, c < n → ∀ h, h < n - 1 → P.nn c h < n ∧ P.nn c h ≠ c

/-- A memorised 2-opt move removes two different tour edges `(h1, h2)` and
`(h3, h4)`, its gain is below `-EPS` and is the length of the new edges
`(h1, h3)`, `(h2, h4)` minus that of the removed ones. -/
structure Move2.Ok (P : TspProblem) (n : Nat) (a : Arrays) (m : Move2) : Prop where
  h1_lt : m.h1 < n
  h3_lt : m.h3 < n
  ne : m.h1 ≠ m.h3
  h2_eq : m.h2 = rd a.tour (rd a.pos m.h1 + 1)
  h4_eq : m.h4 = rd a.tour (rd a.pos m.h3 + 1)
  gain_lt : m.gain < -EPS
  gain_eq : m.gain = - P.dist m.h1 m.h2 - P.dist m.h3 m.h4 + P.dist m.h1 m.h3
    + P.dist m.h2 m.h4

/-- Between two states the exchange counter grew by some `k` and the cost
fell by at least `k * EPS`. -/
def Rel (P : TspProblem) (n : Nat) (s s' : State) : Prop :=
  s.n_exchanges ≤ s'.n_exchanges ∧
  cycCost P n s'.arr.tour + EPS * ((s'.n_exchanges : ℚ) - (s.n_exchanges : ℚ))
    ≤ cycCost P n s.arr.tour

/-- Perform the statements `tour[j] = x; pos[x] = j;` for a list of pairs `(j, x)`. -/
def applyWrites (a : Arrays) : List (Nat × Nat) → Arrays
  | [] => a
  | w :: ws => applyWrites { a with tour := wr a.tour w.1 w.2, pos := wr a.pos w.2 w.1 } ws

/-- The pairs `(j, x)` that write the list of cities from position `j` on, cyclically. -/
def writesAt (n : Nat) : Nat → List Nat → List (Nat × Nat)
  | _, [] => []
  | j, x :: xs => (j, x) :: writesAt n (incw n j) xs

/-- Position reached from `b` by `k` steps in the direction of a copy loop. -/
def cdir (n : Nat) (fwd : Bool) (b k : Nat) : Nat := if fwd then cidx n b k else cidxb n b k

/-- The cities found from position `b` on, going `len` steps in a direction. -/
def segD (n : Nat) (fwd : Bool) (t : List Nat) (b len : Nat) : List Nat :=
  (List.range len).map fun k => rd t (cdir n fwd b k)

/-- The invariant of the arrays of `three_opt_first`: `Valid` and help
vectors of size `n`. -/
def Valid3 (n : Nat) (a : Arrays) : Prop :=
  Valid n a ∧ a.h_tour.length = n ∧ a.hh_tour.length = n

/-- The cycle consists of three consecutive non-empty parts of lengths
`x`, `y`, `z`; the first starts at position `w`, and `a1, a2`, `b1, b2`,
`c1, c2` are the first and last cities of the parts. -/
structure Cfg (n : Nat) (a : Arrays) (w x y z a1 a2 b1 b2 c1 c2 : Nat) : Prop where
  hw : w < n
  hx : 1 ≤ x
  hy : 1 ≤ y
  hz : 1 ≤ z
  hsum : x + y + z = n
  ea1 : rd a.tour w = a1
  ea2 : rd a.tour (cidx n w (x - 1)) = a2
  eb1 : rd a.tour (cidx n w x) = b1
  eb2 : rd a.tour (cidx n w (x + y - 1)) = b2
  ec1 : rd a.tour (cidx n w (x + y)) = c1
  ec2 : rd a.tour (cidx n w (n - 1)) = c2

/-- The four ways in which a window of two parts is rewritten. -/
inductive Shape
  | RR
  | QrP
  | rQP
  | QP

/-- The new content of the window for parts `A` and `B`. -/
def Shape.apply : Shape → List Nat → List Nat → List Nat
  | .RR, A, B => A.reverse ++ B.reverse
  | .QrP, A, B => B ++ A.reverse
  | .rQP, A, B => B.reverse ++ A
  | .QP, A, B => B ++ A

/-- The result of rewriting the window made of the first two parts. -/
def Rewritten (n : Nat) (a a' : Arrays) (w x y z : Nat) (s : Shape) : Prop :=
  Valid3 n a' ∧
  segF n a'.tour w n = s.apply (segF n a.tour w x) (segF n a.tour (cidx n w x) y) ++
    segF n a.tour (cidx n w (x + y)) z

/-- Total length of the three edges that join the parts after a rewrite. -/
def Shape.newEdges (d : Nat → Nat → ℚ) (a1 a2 b1 b2 c1 c2 : Nat) : Shape → ℚ
  | .RR => d a1 b2 + d b1 c1 + d c2 a2
  | .QrP => d b2 a2 + d a1 c1 + d c2 b1
  | .rQP => d b1 a1 + d a2 c1 + d c2 b2
  | .QP => d b2 a1 + d a2 c1 + d c2 b1

/-- Number of forward steps from position `p` to position `q` on the cycle. -/
def cdist (n p q : Nat) : Nat := if p ≤ q then q - p else q + n - p

/-- A memorised 2-opt move of `three_opt_first`. -/
structure Opt2Ok (P : TspProblem) (n : Nat) (a : Arrays) (sc : Scan) : Prop where
  flag0 : sc.move_flag = 0
  opt2 : sc.opt2_flag = true
  flagged : sc.improvement_flag = true
  h1_lt : sc.h1 < n
  h3_lt : sc.h3 < n
  ne : sc.h1 ≠ sc.h3
  h2_eq : sc.h2 = rd a.tour (rd a.pos sc.h1 + 1)
  h4_eq : sc.h4 = rd a.tour (rd a.pos sc.h3 + 1)
  lt : sc.move_value < -EPS
  val : (∀ i j, P.dist i j = P.dist j i) →
    sc.move_value = - P.dist sc.h1 sc.h2 - P.dist sc.h3 sc.h4 + P.dist sc.h1 sc.h3
      + P.dist sc.h2 sc.h4

/-- A memorised 3-opt reconnection: its `move_flag` is 1, 2, 3 or 4, the
cities `h1..h6` cut the cycle into the three parts of that reconnection and
`move_value` is the length of its new edges minus that of the removed ones. -/
structure Move3Ok (P : TspProblem) (n : Nat) (a : Arrays) (sc : Scan) : Prop where
  opt2 : sc.opt2_flag = false
  flagged : sc.improvement_flag = true
  lt : sc.move_value < -EPS
  shape :
    (sc.move_flag = 1 ∧ (∃ w x y z, Cfg n a w x y z sc.h2 sc.h5 sc.h6 sc.h3 sc.h4 sc.h1) ∧
      sc.move_value = - P.dist sc.h1 sc.h2 - P.dist sc.h3 sc.h4 - P.dist sc.h6 sc.h5
        + P.dist sc.h1 sc.h3 + P.dist sc.h2 sc.h6 + P.dist sc.h5 sc.h4) ∨
    (sc.move_flag = 2 ∧ (∃ w x y z, Cfg n a w x y z sc.h2 sc.h3 sc.h4 sc.h5 sc.h6 sc.h1) ∧
      sc.move_value = - P.dist sc.h1 sc.h2 - P.dist sc.h3 sc.h4 - P.dist sc.h5 sc.h6
        + P.dist sc.h1 sc.h3 + P.dist sc.h2 sc.h5 + P.dist sc.h4 sc.h6) ∨
    (sc.move_flag = 3 ∧ (∃ w x y z, Cfg n a w x y z sc.h2 sc.h3 sc.h4 sc.h5 sc.h6 sc.h1) ∧
      sc.move_value = - P.dist sc.h1 sc.h2 - P.dist sc.h3 sc.h4 - P.dist sc.h5 sc.h6
        + P.dist sc.h1 sc.h4 + P.dist sc.h2 sc.h6 + P.dist sc.h3 sc.h5) ∨
    (sc.move_flag = 4 ∧ (∃ w x y z, Cfg n a w x y z sc.h2 sc.h3 sc.h4 sc.h5 sc.h6 sc.h1) ∧
      sc.move_value = - P.dist sc.h1 sc.h2 - P.dist sc.h3 sc.h4 - P.dist sc.h5 sc.h6
        + P.dist sc.h1 sc.h4 + P.dist sc.h2 sc.h5 + P.dist sc.h3 sc.h6)

/-- State of the memorised move during the evaluation of a city. -/
def ScanInv (P : TspProblem) (n : Nat) (a : Arrays) (sc : Scan) : Prop :=
  sc.move_value ≤ 0 ∧
  ((sc.move_flag = 0 ∧ sc.opt2_flag = false) ∨ Opt2Ok P n a sc ∨ Move3Ok P n a sc)

/-- Outcome of the innermost search: it falls through or leaves with a
3-opt reconnection. -/
def InnerOk (P : TspProblem) (n : Nat) (a : Arrays) (r : Inner) : Prop :=
  r = .fallthrough ∨ ∃ sc, r = .jump sc ∧ Move3Ok P n a sc

/-- A valid initial tour of `n` cities: `tour[0..n-1]` is a permutation of
`0..n-1` and `tour[n]` repeats `tour[0]`. -/
def ValidTour (n : Nat) (tour : List Nat) : Prop :=
  tour.length = n + 1 ∧ (∀ i, i < n → rd tour i < n) ∧
  (∀ i, i < n → ∀ j, j < n → rd tour i = rd tour j → i = j) ∧ rd tour n = rd tour 0

/-- The sum computed by `calculateCost`. -/
def sumCost (d : Nat → Nat → ℚ) (n : Nat) (l : List Nat) : ℚ :=
  ((List.range n).map fun i => d (rd l i) (rd l (i + 1))).sum

/-- The number of evaluations of the loop condition that suffice for a
cost exceeding the bound `LB` by `c - LB`. -/
def fuelFor (c LB : ℚ) : Nat := ⌊(c - LB) / EPS⌋₊ + 2

/-- The sum of the absolute values of the entries of the distance submatrix. -/
def distBound (P : TspProblem) (n : Nat) : ℚ :=
  ((List.range n).map fun i => ((List.range n).map fun j => |P.dist i j|).sum).sum

/-- The engine selected by `method`. -/
def run_method (fuel : Nat) (method : OptimizeMethod) (nodes : List Nat) (P : TspProblem)
    (rv : List Nat) : Except Err State :=
  match method with
  | .twoOptsMethod => two_opt_first fuel nodes P rv
  | .threeOptsMethod => three_opt_first fuel nodes P rv

/-- The arrays of the tour `0, 1, 0`. -/
def arrays2 (b : Nat) : Arrays := ⟨[0, 1, 0], [0, 1], List.replicate b 0, List.replicate b 0⟩

deriving instance DecidableEq for Except

/-- A symmetric oracle read off the upper triangle of a table. -/
def tableOracle (m : List (List Nat)) : Oracle :=
  fun a b => (((m.getD (min a b) []).getD (max a b) 0 : Nat) : ℚ)

/-- Manhattan distances between six points. -/
def table6 : List (List Nat) :=
  [[0, 5, 3, 8, 6, 2], [5, 0, 6, 5, 7, 3], [3, 6, 0, 7, 5, 3], [8, 5, 7, 0, 2, 6],
   [6, 7, 5, 2, 0, 4], [2, 3, 3, 6, 4, 0]]

/-- A symmetric table of distances between five points. -/
def table5 : List (List Nat) :=
  [[0, 1, 2, 3, 2], [1, 0, 1, 4, 3], [2, 1, 0, 5, 2], [3, 4, 5, 0, 3], [2, 3, 2, 3, 0]]

/-- The problem that `optimize` builds for a tour. -/
def problemOf (inst : Oracle) (T : Tour) : TspProblem :=
  match TspProblem.ofTour inst T with
  | .ok P => P
  | .error _ => ⟨[], []⟩

/-- A tour over the six points of `table6`. -/
def tour6 : Tour := ⟨[0, 5, 4, 2, 3, 1, 0]⟩

/-- A tour over the five points of `table5`. -/
def tour5 : Tour := ⟨[0, 3, 2, 1, 4, 0]⟩

/-- A distance table read as it stands, symmetric or not. -/
def matrixOracle (m : List (List Nat)) : Oracle :=
  fun a b => (((m.getD a []).getD b 0 : Nat) : ℚ)

/-- Distances between five points that depend on the direction of travel. -/
def oneway5 : List (List Nat) :=
  [[0, 1, 1, 3, 9], [7, 0, 2, 9, 4], [1, 5, 0, 2, 7], [5, 9, 7, 0, 7], [3, 2, 7, 3, 0]]

/-- The length of a route under an oracle, as a function of `tour.points`. -/
def routeLength (inst : Oracle) (points : List Nat) : ℚ := (Tour.mk points).calculateCost inst

/-- The pairs `(distance[i][j], j)`, `j != i`, that the constructor sorts for
the city `i`. -/
def nn_pairs (P : TspProblem) (n i : Nat) : List (ℚ × Nat) :=
  ((List.range n).filter fun j => j ≠ i).map fun j => (P.dist i j, j)

/-- The property `tour[0..n-1]` is a permutation of `0..n-1` and
`pos[tour[i]] == i` for all `i < n`. -/
def TourPos (n : Nat) (a : Arrays) : Prop :=
  a.tour.dropLast.Perm (List.range n) ∧ ∀ i, i < n → rd a.pos (rd a.tour i) = i

/-- The states of `two_opt_first(tour, instance)` at the start and the end of
the evaluation of a point: the state after the initialisation, the state
after `improvement_flag = false` at the head of a pass, and the state after
one iteration of `for (l = 0; l < n; l++)`. -/
inductive Reach2 (P : TspProblem) (n : Nat) (rv tour : List Nat) : State → Prop
  | init : Reach2 P n rv tour (init_state n tour 0)
  | pass (s : State) : Reach2 P n rv tour s →
      Reach2 P n rv tour { s with improvement_flag := false }
  | point (s : State) (l : Nat) : Reach2 P n rv tour s → l < n →
      Reach2 P n rv tour (two_opt_point P n rv s l)

/-- The states of `three_opt_first(tour, instance)` at the start and the end
of the evaluation of a point. -/
inductive Reach3 (P : TspProblem) (n : Nat) (rv tour : List Nat) : State → Prop
  | init : Reach3 P n rv tour (init_state n tour n)
  | pass (s : State) : Reach3 P n rv tour s →
      Reach3 P n rv tour { s with move_value := 0, improvement_flag := false }
  | point (s s1 : State) (l : Nat) : Reach3 P n rv tour s → l < n →
      three_opt_point P n rv s l = .ok s1 → Reach3 P n rv tour s1

/-- A distance table on four cities. -/
def table4 : List (List Nat) := [[0, 3, 1, 1], [3, 0, 5, 2], [1, 5, 0, 3], [1, 2, 3, 0]]

/-- The indices of `tour` that the loop `while (i < j) { swap; i++; j--; }`
writes. -/
def inner_writes : Nat → Nat → Nat → List Nat
  | 0, _, _ => []
  | fuel + 1, i, j => if i < j then i :: j :: inner_writes fuel (i + 1) (j - 1) else []

/-- The indices of `tour` written by the branch "reverse inner part" of a
2-opt exchange, which does not execute `tour[n] = tour[0]`; empty when the
other branch is taken. -/
def reverse_part_inner_writes (n : Nat) (a : Arrays) (h2 h3 : Nat) : List Nat :=
  if (rd a.pos h3 : Int) - (rd a.pos h2 : Int) < ((n / 2 : Nat) : Int) + 1 then
    inner_writes n (rd a.pos h2) (rd a.pos h3)
  else []

/-- The indices written by the inner reversal of the exchange of
`h1, h2, h3, h4`, after the change of roles for `pos[h3] < pos[h1]`. -/
def exchange2opt_inner_writes (n : Nat) (a : Arrays) (h1 h2 h3 h4 : Nat) : List Nat :=
  if rd a.pos h3 < rd a.pos h1 then reverse_part_inner_writes n a h4 h1
  else reverse_part_inner_writes n a h2 h3

/-- The scan with which the evaluation of a point starts in `three_opt_first`. -/
def scan0 (s : State) : Scan :=
  { opt2_flag := false, move_flag := 0, h1 := 0, h2 := 0, h3 := 0, h4 := 0, h5 := 0,
    h6 := 0, move_value := s.move_value, improvement_flag := s.improvement_flag }

/-- No pair of edges `(a, succ a)`, `(b, succ b)` of the cycle `tour` can be
exchanged for `(a, b)`, `(succ a, succ b)` with a decrease of the cost by more
than `EPS`. -/
def TwoOptimal (P : TspProblem) (n : Nat) (tour : List Nat) : Prop :=
  ∀ i, i < n → ∀ j, j < n → i ≠ j →
    ¬ (P.dist (rd tour i) (rd tour j) + P.dist (rd tour (i + 1)) (rd tour (j + 1))
        - P.dist (rd tour i) (rd tour (i + 1)) - P.dist (rd tour j) (rd tour (j + 1)) < -EPS)

/-- The branch "reverse inner part from pos[h2] to pos[h3]" of a 2-opt
exchange (lines 184-194). -/
def reverse_part_inner (n : Nat) (a : Arrays) (h2 h3 : Nat) : Arrays :=
  reverse_inner n a (rd a.pos h2) (rd a.pos h3)

/-- The branch "reverse outer part from pos[h4] to pos[h1]" of a 2-opt
exchange (lines 196-216). -/
def reverse_part_outer (n : Nat) (a : Arrays) (h1 h4 : Nat) : Arrays :=
  let i := rd a.pos h1
  let j := rd a.pos h4
  let help := if j > i then n - (j - i) + 1 else (i - j) + 1
  let b := reverse_outer n (help / 2) a i j
  { b with tour := wr b.tour n (rd b.tour 0) }

/-- The exchange of `h1, h2, h3, h4` carried out by the inner reversal,
whatever the length of the part is. -/
def exchange2opt_inner (n : Nat) (a : Arrays) (h1 h2 h3 h4 : Nat) : Arrays :=
  if rd a.pos h3 < rd a.pos h1 then reverse_part_inner n a h4 h1
  else reverse_part_inner n a h2 h3

/-- The exchange of `h1, h2, h3, h4` carried out by the outer reversal,
whatever the length of the part is. -/
def exchange2opt_outer (n : Nat) (a : Arrays) (h1 h2 h3 h4 : Nat) : Arrays :=
  if rd a.pos h3 < rd a.pos h1 then reverse_part_outer n a h3 h2
  else reverse_part_outer n a h1 h4

/-- The move in the words of the specification: "applying the move reverses
the tour segment strictly between the two removed edges".  The removed edges
leave the positions `i` and `j` of the cycle, `i < j`; the segment between
them holds the positions `i + 1` to `j`. -/
def spec_reverse_between (cycle : List Nat) (i j : Nat) : List Nat :=
  cycle.take (i + 1) ++ (((cycle.drop (i + 1)).take (j - i)).reverse ++ cycle.drop (j + 1))

/-- The undirected edges of the cycle `tour[0..n-1]`, with their multiplicity. -/
def edgesOf (n : Nat) (tour : List Nat) : Multiset (Sym2 Nat) :=
  Multiset.ofList ((List.range n).map fun i => Sym2.mk (rd tour i, rd tour (i + 1)))

/-- The problem on `n` cities whose distance is 1 on the edge `e` and 0
elsewhere: its tour cost counts the occurrences of `e` in a cycle. -/
def edgeProblem (n : Nat) (e : Sym2 Nat) : TspProblem :=
  { distance := (List.range n).map fun i => (List.range n).map fun j =>
      if Sym2.mk (i, j) = e then (1 : ℚ) else 0
    nn_list := [] }

/-- A symmetric distance table on six cities. -/
def table6b : List (List Nat) :=
  [[0, 3, 3, 4, 1, 1], [3, 0, 4, 3, 3, 1], [3, 4, 0, 4, 4, 2], [4, 3, 4, 0, 4, 1],
   [1, 3, 4, 4, 0, 2], [1, 1, 2, 1, 2, 0]]

/-- The gain of the successor template for the candidate number `h` of `c1`
(lines 131-133). -/
def gain_succ (P : TspProblem) (a : Arrays) (c1 s_c1 : Nat) (radius : ℚ) (h : Nat) : ℚ :=
  - radius + P.dist c1 (P.nn c1 h) + P.dist s_c1 (rd a.tour (rd a.pos (P.nn c1 h) + 1))
    - P.dist (P.nn c1 h) (rd a.tour (rd a.pos (P.nn c1 h) + 1))

/-- The gain of the predecessor template for the candidate number `h` of `c1`
(lines 161-162). -/
def gain_pred (P : TspProblem) (n : Nat) (a : Arrays) (c1 p_c1 : Nat) (radius : ℚ) (h : Nat) :
    ℚ :=
  - radius + P.dist c1 (P.nn c1 h) + P.dist p_c1 (predAt n a.tour (rd a.pos (P.nn c1 h)))
    - P.dist (predAt n a.tour (rd a.pos (P.nn c1 h))) (P.nn c1 h)

/-- The candidate number `h` is passed over by the predecessor search:
`pred(c2) == c1` or `c2 == pred(c1)`. -/
def skipped_pred (P : TspProblem) (n : Nat) (a : Arrays) (c1 p_c1 : Nat) (h : Nat) : Prop :=
  predAt n a.tour (rd a.pos (P.nn c1 h)) = c1 ∨ p_c1 = P.nn c1 h

/-- The move `m` belongs to the first candidate of the list `hs`, in its
order, such that every candidate up to and including it is nearer to `c1`
than `radius` and its gain in the successor template is below `-EPS`. -/
def FirstSucc (P : TspProblem) (a : Arrays) (c1 s_c1 : Nat) (radius : ℚ) (hs : List Nat)
    (m : Move2) : Prop :=
  ∃ pre h post, hs = pre ++ h :: post ∧
    (∀ x ∈ pre, radius > P.dist c1 (P.nn c1 x) ∧ ¬ gain_succ P a c1 s_c1 radius x < -EPS) ∧
    radius > P.dist c1 (P.nn c1 h) ∧ gain_succ P a c1 s_c1 radius h < -EPS ∧
    m = ⟨c1, s_c1, P.nn c1 h, rd a.tour (rd a.pos (P.nn c1 h) + 1), gain_succ P a c1 s_c1 radius h⟩

/-- The move `m` belongs to the first candidate of the list `hs`, in its
order, such that every candidate up to and including it is nearer to `c1`
than `radius`, it is not passed over, and its gain in the predecessor template
is below `-EPS`. -/
def FirstPred (P : TspProblem) (n : Nat) (a : Arrays) (c1 p_c1 : Nat) (radius : ℚ)
    (hs : List Nat) (m : Move2) : Prop :=
  ∃ pre h post, hs = pre ++ h :: post ∧
    (∀ x ∈ pre, radius > P.dist c1 (P.nn c1 x) ∧
      (skipped_pred P n a c1 p_c1 x ∨ ¬ gain_pred P n a c1 p_c1 radius x < -EPS)) ∧
    radius > P.dist c1 (P.nn c1 h) ∧ ¬ skipped_pred P n a c1 p_c1 h ∧
    gain_pred P n a c1 p_c1 radius h < -EPS ∧
    m = ⟨p_c1, c1, predAt n a.tour (rd a.pos (P.nn c1 h)), P.nn c1 h,
      gain_pred P n a c1 p_c1 radius h⟩

/-- A symmetric distance table on four cities that satisfies the triangle
inequality. -/
def table4m : List (List Nat) := [[0, 2, 2, 2], [2, 0, 3, 1], [2, 3, 0, 3], [2, 1, 3, 0]]

/-- The scan `sc` holds a reconnection memorised for the triple `(c1, c2, c3)`:
the assignments to `h1..h6` of lines 396-466 for its `move_flag`. -/
def Triple (n : Nat) (a : Arrays) (c1 c2 c3 : Nat) (sc : Scan) : Prop :=
  sc.h1 = c1 ∧ sc.h2 = rd a.tour (rd a.pos c1 + 1) ∧
  ((sc.move_flag = 1 ∧ sc.h3 = c2 ∧ sc.h4 = rd a.tour (rd a.pos c2 + 1) ∧
      sc.h5 = predAt n a.tour (rd a.pos c3) ∧ sc.h6 = c3) ∨
   (sc.move_flag = 2 ∧ sc.h3 = c2 ∧ sc.h4 = rd a.tour (rd a.pos c2 + 1) ∧
      sc.h5 = c3 ∧ sc.h6 = rd a.tour (rd a.pos c3 + 1)) ∨
   (sc.move_flag = 3 ∧ sc.h3 = predAt n a.tour (rd a.pos c2) ∧ sc.h4 = c2 ∧
      sc.h5 = predAt n a.tour (rd a.pos c3) ∧ sc.h6 = c3) ∨
   (sc.move_flag = 4 ∧ sc.h3 = predAt n a.tour (rd a.pos c2) ∧ sc.h4 = c2 ∧
      sc.h5 = c3 ∧ sc.h6 = rd a.tour (rd a.pos c3 + 1)))

/-- The test of the 2-opt move for the candidate `c2` (lines 336-349 of
`three_opt_first`): the scan after it.  An improving 2-opt move is memorised
in `h1..h4` with `opt2_flag = true`; the statement `goto exchange` of this
block is commented out in the source. -/
def memo2 (P : TspProblem) (n : Nat) (a : Arrays) (c1 s_c1 c2 : Nat) (sc : Scan) : Scan :=
  let s_c2 := rd a.tour (rd a.pos c2 + 1)
  let p_c2 := predAt n a.tour (rd a.pos c2)
  let diffs := - P.dist c1 s_c1 - P.dist c2 s_c2 + P.dist c1 c2 + P.dist s_c1 s_c2
  let diffp := - P.dist c1 s_c1 - P.dist c2 p_c2 + P.dist c1 p_c2 + P.dist s_c1 c2
  let diffp := if p_c2 = c1 then 0 else diffp
  if diffs < sc.move_value - EPS ∨ diffp < sc.move_value - EPS then
    if diffs ≤ diffp then
      { sc with improvement_flag := true, h1 := c1, h2 := s_c1, h3 := c2, h4 := s_c2,
                move_value := diffs, opt2_flag := true, move_flag := 0 }
    else
      { sc with improvement_flag := true, h1 := c1, h2 := s_c1, h3 := p_c2, h4 := c2,
                move_value := diffp, opt2_flag := true, move_flag := 0 }
  else sc

/-- A symmetric table of distances between seven points. -/
def table7 : List (List Nat) :=
  [[0, 5, 5, 3, 1, 5, 2], [5, 0, 2, 2, 5, 4, 3], [5, 2, 0, 3, 4, 2, 2], [3, 2, 3, 0, 3, 1, 1],
   [1, 5, 4, 3, 0, 2, 3], [5, 4, 2, 1, 2, 0, 1], [2, 3, 2, 1, 3, 1, 0]]

/-- A symmetric table of distances between five points on which the scan of the
first point ends with `move_flag == 2`. -/
def table5b : List (List Nat) :=
  [[0, 3, 2, 3, 2], [3, 0, 1, 4, 1], [2, 1, 0, 3, 3], [3, 4, 3, 0, 4], [2, 1, 3, 4, 0]]

/-- A symmetric table of distances between five points on which the scan of the
first point ends with `move_flag == 3`. -/
def table5c : List (List Nat) :=
  [[0, 3, 1, 3, 1], [3, 0, 1, 2, 1], [1, 1, 0, 2, 4], [3, 2, 2, 0, 4], [1, 1, 4, 4, 0]]

/-- A symmetric table of distances between five points on which the scan of the
first point ends with `move_flag == 4`. -/
def table5d : List (List Nat) :=
  [[0, 3, 2, 4, 4], [3, 0, 4, 1, 3], [2, 4, 0, 1, 2], [4, 1, 1, 0, 3], [4, 3, 2, 3, 0]]

/-- The values `n1`, `n2`, `n3` that the `move_flag == 1` block computes from
`pos_c1`, `pos_c2`, `pos_c3` (lines 659-682). -/
def move1_lengths (n pos_c1 pos_c2 pos_c3 : Nat) : Int × Int × Int :=
  let N : Int := n
  let p1 : Int := pos_c1
  let p2 : Int := pos_c2
  let p3 : Int := pos_c3
  (if p3 < p2 then p2 - p3 else N - (p3 - p2),
   if p3 > p1 then p3 - p1 + 1 else N - (p1 - p3 + 1),
   if p2 > p1 then N - (p2 - p1 + 1) else p1 - p2 + 1)

/-- The problem of the tour `0 1 2 3 4 5 6 0` on the distances `table7`. -/
def problem7 : TspProblem := problemOf (tableOracle table7) ⟨[0, 1, 2, 3, 4, 5, 6, 0]⟩

/-- The state of `three_opt_first` after its initialisation on the tour
`0 1 2 3 4 5 6 0`. -/
def state7 : State := init_state 7 [0, 1, 2, 3, 4, 5, 6, 0] 7

/-- The problem `problem7` with two more entries at the end of every candidate
list. -/
def problem7x : TspProblem :=
  { distance := problem7.distance, nn_list := problem7.nn_list.map fun r => r ++ [0, 0] }

/-- A distance table on six cities: the edges of the cycle `0 1 2 3 4 5` have
length 10, the pair `1, 4` is at distance 1, the pair `2, 5` at distance 25 and
every other pair at distance 15. -/
def table6c : List (List Nat) :=
  [[0, 10, 15, 15, 15, 10], [10, 0, 10, 15, 1, 15], [15, 10, 0, 10, 15, 25],
   [15, 15, 10, 0, 10, 15], [15, 1, 15, 10, 0, 10], [10, 15, 25, 15, 10, 0]]

/-- Bounds test of the access `instance.distance[i][j]`. -/
def TspProblem.dist_ok (P : TspProblem) (i j : Nat) : Prop :=
  i < P.distance.length ∧ j < (P.distance.getD i []).length

instance dist_ok_decidable (P : TspProblem) (i j : Nat) : Decidable (P.dist_ok i j) := by
  unfold TspProblem.dist_ok; infer_instance

/-- Bounds test of the access `instance.nn_list[i][h]`. -/
def TspProblem.nn_ok (P : TspProblem) (i h : Nat) : Prop :=
  i < P.nn_list.length ∧ h < (P.nn_list.getD i []).length

instance nn_ok_decidable (P : TspProblem) (i h : Nat) : Decidable (P.nn_ok i h) := by
  unfold TspProblem.nn_ok; infer_instance

/-- Bounds test of the predecessor lookup: `tour[pos_c-1]` for `pos_c > 0`,
otherwise `tour[n-1]`. -/
def predAt_ok (n : Nat) (tour : List Nat) (pos_c : Nat) : Prop :=
  if pos_c > 0 then pos_c - 1 < tour.length else 0 < n ∧ n - 1 < tour.length

instance predAt_ok_decidable (n : Nat) (tour : List Nat) (pos_c : Nat) :
    Decidable (predAt_ok n tour pos_c) := by
  unfold predAt_ok; infer_instance

/-- Bounds test of the body of a reversal loop: it reads and writes `tour[i]`
and `tour[j]` and writes `pos[c1]` and `pos[c2]`. -/
def swapCities_ok (a : Arrays) (i j : Nat) : Prop :=
  i < a.tour.length ∧ j < a.tour.length ∧ rd a.tour i < a.pos.length ∧
    rd a.tour j < a.pos.length

instance swapCities_ok_decidable (a : Arrays) (i j : Nat) : Decidable (swapCities_ok a i j) := by
  unfold swapCities_ok; infer_instance

/-- Checked `reverse_inner`.  Every function `f_chk` follows `f` statement by
statement and returns `none` as soon as a statement indexes a vector outside
its bounds. -/
def reverse_inner_chk : Nat → Arrays → Nat → Nat → Option Arrays
  | 0, a, _, _ => some a
  | fuel + 1, a, i, j =>
    if i < j then
      if swapCities_ok a i j then reverse_inner_chk fuel (swapCities a i j) (i + 1) (j - 1)
      else none
    else some a

/-- Checked `reverse_outer`. -/
def reverse_outer_chk (n : Nat) : Nat → Arrays → Nat → Nat → Option Arrays
  | 0, a, _, _ => some a
  | help + 1, a, i, j =>
    if swapCities_ok a i j then reverse_outer_chk n help (swapCities a i j) (decw n i) (incw n j)
    else none

/-- Checked `refresh`: the statement `tour[n] = tour[0]`. -/
def refresh_chk (n : Nat) (a : Arrays) : Option Arrays :=
  if n < a.tour.length ∧ 0 < a.tour.length then some (refresh n a) else none

/-- Checked `reverse_part`: the test reads `pos[h3]` and `pos[h2]`, the outer
branch reads `pos[h1]` and `pos[h4]`. -/
def reverse_part_chk (n : Nat) (a : Arrays) (h1 h2 h3 h4 : Nat) : Option Arrays :=
  if h3 < a.pos.length ∧ h2 < a.pos.length then
    if (rd a.pos h3 : Int) - (rd a.pos h2 : Int) < ((n / 2 : Nat) : Int) + 1 then
      reverse_inner_chk n a (rd a.pos h2) (rd a.pos h3)
    else
      if h1 < a.pos.length ∧ h4 < a.pos.length then
        let i := rd a.pos h1
        let j := rd a.pos h4
        let help := if j > i then n - (j - i) + 1 else (i - j) + 1
        (reverse_outer_chk n (help / 2) a i j).bind fun b =>
          if n < b.tour.length ∧ 0 < b.tour.length then
            some { b with tour := wr b.tour n (rd b.tour 0) }
          else none
      else none
  else none

/-- Checked `exchange2opt`: the test reads `pos[h3]` and `pos[h1]`. -/
def exchange2opt_chk (n : Nat) (a : Arrays) (h1 h2 h3 h4 : Nat) : Option Arrays :=
  if h3 < a.pos.length ∧ h1 < a.pos.length then
    if rd a.pos h3 < rd a.pos h1 then reverse_part_chk n a h3 h4 h1 h2
    else reverse_part_chk n a h1 h2 h3 h4
  else none

/-- Checked `search_succ`. -/
def search_succ_chk (P : TspProblem) (a : Arrays) (c1 s_c1 : Nat) (radius : ℚ) :
    List Nat → Option (Option Move2)
  | [] => some none
  | h :: hs =>
    if P.nn_ok c1 h then
      let c2 := P.nn c1 h
      if P.dist_ok c1 c2 then
        if radius > P.dist c1 c2 then
          if c2 < a.pos.length ∧ rd a.pos c2 + 1 < a.tour.length then
            let s_c2 := rd a.tour (rd a.pos c2 + 1)
            if P.dist_ok s_c1 s_c2 ∧ P.dist_ok c2 s_c2 then
              let gain := - radius + P.dist c1 c2 + P.dist s_c1 s_c2 - P.dist c2 s_c2
              if gain < -EPS then some (some ⟨c1, s_c1, c2, s_c2, gain⟩)
              else search_succ_chk P a c1 s_c1 radius hs
            else none
          else none
        else some none
      else none
    else none

/-- Checked `search_pred`. -/
def search_pred_chk (P : TspProblem) (n : Nat) (a : Arrays) (c1 p_c1 : Nat) (radius : ℚ) :
    List Nat → Option (Option Move2)
  | [] => some none
  | h :: hs =>
    if P.nn_ok c1 h then
      let c2 := P.nn c1 h
      if P.dist_ok c1 c2 then
        if radius > P.dist c1 c2 then
          if c2 < a.pos.length ∧ predAt_ok n a.tour (rd a.pos c2) then
            let pos_c2 := rd a.pos c2
            let p_c2 := predAt n a.tour pos_c2
            if p_c2 = c1 then search_pred_chk P n a c1 p_c1 radius hs
            else if p_c1 = c2 then search_pred_chk P n a c1 p_c1 radius hs
            else
              if P.dist_ok p_c1 p_c2 ∧ P.dist_ok p_c2 c2 then
                let gain := - radius + P.dist c1 c2 + P.dist p_c1 p_c2 - P.dist p_c2 c2
                if gain < -EPS then some (some ⟨p_c1, c1, p_c2, c2, gain⟩)
                else search_pred_chk P n a c1 p_c1 radius hs
              else none
          else none
        else some none
      else none
    else none

/-- Checked `find_move2`: reads `pos[c1]`, `tour[pos_c1+1]` and
`distance[c1][s_c1]`, and before the second search the predecessor of `c1`
and `distance[p_c1][c1]`. -/
def find_move2_chk (P : TspProblem) (n : Nat) (a : Arrays) (c1 : Nat) : Option (Option Move2) :=
  if c1 < a.pos.length ∧ rd a.pos c1 + 1 < a.tour.length then
    let pos_c1 := rd a.pos c1
    let s_c1 := rd a.tour (pos_c1 + 1)
    if P.dist_ok c1 s_c1 then
      (search_succ_chk P a c1 s_c1 (P.dist c1 s_c1) (candidates n)).bind fun r =>
        match r with
        | some m => some (some m)
        | none =>
          if predAt_ok n a.tour pos_c1 then
            let p_c1 := predAt n a.tour pos_c1
            if P.dist_ok p_c1 c1 then
              search_pred_chk P n a c1 p_c1 (P.dist p_c1 c1) (candidates n)
            else none
          else none
    else none
  else none

/-- Checked `apply_move2`: writes `dlb[h1]`, .., `dlb[h4]` and exchanges. -/
def apply_move2_chk (n : Nat) (s : State) (m : Move2) : Option State :=
  if m.h1 < s.dlb.length ∧ m.h2 < s.dlb.length ∧ m.h3 < s.dlb.length ∧ m.h4 < s.dlb.length then
    (exchange2opt_chk n s.arr m.h1 m.h2 m.h3 m.h4).bind fun arr =>
      some { s with
        n_exchanges := s.n_exchanges + 1
        improvement_flag := true
        dlb := wrB (wrB (wrB (wrB s.dlb m.h1 false) m.h2 false) m.h3 false) m.h4 false
        arr := arr }
  else none

/-- Checked `two_opt_point`: reads `random_vector[l]` and `dlb[c1]`; without
a move it writes `dlb[c1]`. -/
def two_opt_point_chk (P : TspProblem) (n : Nat) (random_vector : List Nat)
    (s : State) (l : Nat) : Option State :=
  if l < random_vector.length ∧ rd random_vector l < s.dlb.length then
    let c1 := rd random_vector l
    if rdB s.dlb c1 then some s
    else
      (find_move2_chk P n s.arr c1).bind fun r =>
        match r with
        | some m => apply_move2_chk n s m
        | none => some { s with dlb := wrB s.dlb c1 true }
  else none

/-- Checked loop `for (l = 0; l < n; l++)` of `two_opt_first` over the
remaining values of `l`. -/
def two_opt_points_chk (P : TspProblem) (n : Nat) (random_vector : List Nat) :
    List Nat → State → Option State
  | [], s => some s
  | l :: ls, s =>
    (two_opt_point_chk P n random_vector s l).bind fun s1 =>
      two_opt_points_chk P n random_vector ls s1

/-- Checked `two_opt_loop`. -/
def two_opt_loop_chk (P : TspProblem) (n : Nat) (random_vector : List Nat) :
    Nat → State → Option (Except Err State)
  | 0, _ => some (.error .outOfFuel)
  | fuel + 1, s =>
    if s.improvement_flag then
      (two_opt_points_chk P n random_vector (List.range n)
        { s with improvement_flag := false }).bind fun s1 =>
          two_opt_loop_chk P n random_vector fuel s1
    else some (.ok s)

/-- Checked loop `for (i = 0; i < n; i++) { pos[tour[i]] = i; dlb[i] = false; }`
over the remaining values of `i`, for a vector `dlb` of size `m`. -/
def init_pos_chk (tour : List Nat) (m : Nat) : List Nat → List Nat → Option (List Nat)
  | [], pos => some pos
  | i :: is, pos =>
    if i < tour.length ∧ rd tour i < pos.length ∧ i < m then
      init_pos_chk tour m is (wr pos (rd tour i) i)
    else none

/-- Checked `init_state`. -/
def init_state_chk (n : Nat) (tour : List Nat) (bufs : Nat) : Option State :=
  (init_pos_chk tour n (List.range n) (List.replicate n 0)).bind fun pos =>
    some { arr := ⟨tour, pos, List.replicate bufs 0, List.replicate bufs 0⟩
           dlb := List.replicate n false
           improvement_flag := true
           move_value := 0
           n_exchanges := 0 }

/-- Checked `two_opt_first`: `none` means that some vector was indexed
outside its bounds. -/
def two_opt_first_chk (fuel : Nat) (tour : List Nat) (P : TspProblem)
    (random_vector : List Nat) : Option (Except Err State) :=
  let n := tour.length - 1
  (init_state_chk n tour 0).bind fun s => two_opt_loop_chk P n random_vector fuel s

/-- Checked `inner_search`: an iteration reads `nn_list[s_c1][g]`, `pos[c3]`,
`tour[pos_c3+1]` and the predecessor of `c3`, then the distances of the gain
that it evaluates. -/
def inner_search_chk (P : TspProblem) (n : Nat) (a : Arrays)
    (c1 s_c1 c2 s_c2 p_c2 pos_c1 pos_c2 : Nat) (radius add1 decrease_breaks : ℚ)
    (sc : Scan) : List Nat → Option Inner
  | [] => some .fallthrough
  | g :: gs =>
    if P.nn_ok s_c1 g then
      let c3 := P.nn s_c1 g
      if c3 < a.pos.length ∧ rd a.pos c3 + 1 < a.tour.length ∧
          predAt_ok n a.tour (rd a.pos c3) then
        let pos_c3 := rd a.pos c3
        let s_c3 := rd a.tour (pos_c3 + 1)
        let p_c3 := predAt n a.tour pos_c3
        if c3 = c1 then
          inner_search_chk P n a c1 s_c1 c2 s_c2 p_c2 pos_c1 pos_c2 radius add1
            decrease_breaks sc gs
        else
          if P.dist_ok s_c1 c3 then
            let add2 := P.dist s_c1 c3
            if decrease_breaks + add1 < add2 then
              if pos_c2 = pos_c1 then some .failed
              else
                let between : Bool :=
                  if pos_c2 > pos_c1 then decide (pos_c3 ≤ pos_c2 ∧ pos_c3 > pos_c1)
                  else decide (pos_c3 > pos_c1 ∨ pos_c3 < pos_c2)
                if between then
                  if P.dist_ok c3 p_c3 ∧ P.dist_ok p_c3 s_c2 then
                    let gain := decrease_breaks - P.dist c3 p_c3 + add1 + add2
                      + P.dist p_c3 s_c2
                    if gain < sc.move_value - EPS then
                      some (.jump { improvement_flag := true, move_value := gain,
                                    opt2_flag := false, move_flag := 1,
                                    h1 := c1, h2 := s_c1, h3 := c2, h4 := s_c2, h5 := p_c3,
                                    h6 := c3 })
                    else
                      inner_search_chk P n a c1 s_c1 c2 s_c2 p_c2 pos_c1 pos_c2 radius add1
                        decrease_breaks sc gs
                  else none
                else
                  if P.dist_ok c3 s_c3 ∧ P.dist_ok s_c2 s_c3 then
                    let gain2 := decrease_breaks - P.dist c3 s_c3 + add1 + add2
                      + P.dist s_c2 s_c3
                    let gain2 := if pos_c2 = pos_c3 then 20000 else gain2
                    if gain2 < sc.move_value - EPS then
                      some (.jump { improvement_flag := true, move_value := gain2,
                                    opt2_flag := false, move_flag := 2,
                                    h1 := c1, h2 := s_c1, h3 := c2, h4 := s_c2, h5 := c3,
                                    h6 := s_c3 })
                    else
                      if P.dist_ok p_c2 c2 ∧ P.dist_ok p_c3 c3 ∧ P.dist_ok p_c2 p_c3 then
                        let gain3 := - radius - P.dist p_c2 c2 - P.dist p_c3 c3 + add1 + add2
                          + P.dist p_c2 p_c3
                        let gain3 :=
                          if c3 = c2 ∨ c2 = c1 ∨ c1 = c3 ∨ p_c2 = c1 then 2000000 else gain3
                        if gain3 < sc.move_value - EPS then
                          some (.jump { improvement_flag := true, move_value := gain3,
                                        opt2_flag := false, move_flag := 3,
                                        h1 := c1, h2 := s_c1, h3 := p_c2, h4 := c2, h5 := p_c3,
                                        h6 := c3 })
                        else
                          if P.dist_ok p_c2 s_c3 then
                            let gain4 := - radius - P.dist p_c2 c2 - P.dist c3 s_c3 + add1
                              + add2 + P.dist p_c2 s_c3
                            if gain4 < sc.move_value - EPS then
                              some (.jump { improvement_flag := true, move_value := gain4,
                                            opt2_flag := false, move_flag := 4,
                                            h1 := c1, h2 := s_c1, h3 := p_c2, h4 := c2,
                                            h5 := c3, h6 := s_c3 })
                            else
                              inner_search_chk P n a c1 s_c1 c2 s_c2 p_c2 pos_c1 pos_c2 radius
                                add1 decrease_breaks sc gs
                          else none
                      else none
                  else none
            else some .fallthrough
          else none
      else none
    else none

/-- Checked `outer_search`: an iteration reads `nn_list[c1][h]`, `pos[c2]`,
`tour[pos_c2+1]`, the predecessor of `c2`, `distance[c1][s_c1]` and
`distance[c1][c2]`, and inside the radius the five distances of `diffs` and
`diffp`. -/
def outer_search_chk (P : TspProblem) (n : Nat) (a : Arrays) (c1 s_c1 pos_c1 : Nat) :
    List Nat → Scan → Option (Except Err Scan)
  | [], sc => some (.ok sc)
  | h :: hs, sc =>
    if P.nn_ok c1 h then
      let c2 := P.nn c1 h
      if c2 < a.pos.length ∧ rd a.pos c2 + 1 < a.tour.length ∧
          predAt_ok n a.tour (rd a.pos c2) ∧ P.dist_ok c1 s_c1 ∧ P.dist_ok c1 c2 then
        let pos_c2 := rd a.pos c2
        let s_c2 := rd a.tour (pos_c2 + 1)
        let p_c2 := predAt n a.tour pos_c2
        let radius := P.dist c1 s_c1
        let add1 := P.dist c1 c2
        if radius > add1 then
          if P.dist_ok c2 s_c2 ∧ P.dist_ok s_c1 s_c2 ∧ P.dist_ok c2 p_c2 ∧ P.dist_ok c1 p_c2 ∧
              P.dist_ok s_c1 c2 then
            let decrease_breaks := - radius - P.dist c2 s_c2
            let diffs := decrease_breaks + add1 + P.dist s_c1 s_c2
            let diffp := - radius - P.dist c2 p_c2 + P.dist c1 p_c2 + P.dist s_c1 c2
            let diffp := if p_c2 = c1 then 0 else diffp
            let sc :=
              if diffs < sc.move_value - EPS ∨ diffp < sc.move_value - EPS then
                if diffs ≤ diffp then
                  { sc with improvement_flag := true, h1 := c1, h2 := s_c1, h3 := c2,
                            h4 := s_c2, move_value := diffs, opt2_flag := true, move_flag := 0 }
                else
                  { sc with improvement_flag := true, h1 := c1, h2 := s_c1, h3 := p_c2,
                            h4 := c2, move_value := diffp, opt2_flag := true, move_flag := 0 }
              else sc
            (inner_search_chk P n a c1 s_c1 c2 s_c2 p_c2 pos_c1 pos_c2 radius add1
                decrease_breaks sc (candidates n)).bind fun r =>
              match r with
              | .jump sc1 => some (.ok sc1)
              | .failed => some (.error .assertFalse)
              | .fallthrough => outer_search_chk P n a c1 s_c1 pos_c1 hs sc
          else none
        else some (.ok sc)
      else none
    else none

/-- Checked `copy_loop`: an iteration writes `buf[i]` and reads `tour[j]`. -/
def copy_loop_chk (n : Nat) (fwd : Bool) (tour : List Nat) (h : Nat) :
    Nat → List Nat → Nat → Nat → Nat → Option (List Nat × Nat)
  | 0, buf, _, _, n1 => some (buf, n1)
  | fuel + 1, buf, i, j, n1 =>
    if j ≠ h then
      let i1 := i + 1
      let j1 := if fwd then incw n j else decw n j
      if i1 < buf.length ∧ j1 < tour.length then
        copy_loop_chk n fwd tour h fuel (wr buf i1 (rd tour j1)) i1 j1 (n1 + 1)
      else none
    else some (buf, n1)

/-- Checked `copy_segment`. -/
def copy_segment_chk (n : Nat) (fwd : Bool) (tour buf : List Nat) (j h : Nat) :
    Option (List Nat × Nat) :=
  if 0 < buf.length ∧ j < tour.length then
    copy_loop_chk n fwd tour h n (wr buf 0 (rd tour j)) 0 j 1
  else none

/-- Checked `fill_h`. -/
def fill_h_chk (n : Nat) (fwd : Bool) (a : Arrays) (j h : Nat) : Option (Arrays × Nat) :=
  (copy_segment_chk n fwd a.tour a.h_tour j h).bind fun r => some ({ a with h_tour := r.1 }, r.2)

/-- Checked `fill_hh`. -/
def fill_hh_chk (n : Nat) (fwd : Bool) (a : Arrays) (j h : Nat) : Option (Arrays × Nat) :=
  (copy_segment_chk n fwd a.tour a.hh_tour j h).bind fun r =>
    some ({ a with hh_tour := r.1 }, r.2)

/-- Checked `write_loop`: an iteration reads `buf[i]` and writes `tour[j]` and
`pos[buf[i]]`. -/
def write_loop_chk (n : Nat) (buf : List Nat) : Nat → Nat → Arrays → Nat → Option (Arrays × Nat)
  | 0, _, a, j => some (a, j)
  | k + 1, i, a, j =>
    if i < buf.length ∧ j < a.tour.length ∧ rd buf i < a.pos.length then
      write_loop_chk n buf k (i + 1)
        { a with tour := wr a.tour j (rd buf i), pos := wr a.pos (rd buf i) j } (incw n j)
    else none

/-- Checked `put_h`. -/
def put_h_chk (n : Nat) (a : Arrays) (n1 j : Nat) : Option (Arrays × Nat) :=
  write_loop_chk n a.h_tour n1 0 a j

/-- Checked `put_hh`. -/
def put_hh_chk (n : Nat) (a : Arrays) (n2 j : Nat) : Option (Arrays × Nat) :=
  write_loop_chk n a.hh_tour n2 0 a j

/-- Checked `shift_loop`: an iteration reads `tour[i]` and writes `tour[j]`
and `pos[tour[i]]`. -/
def shift_loop_chk (n stop : Nat) : Nat → Arrays → Nat → Nat → Option (Arrays × Nat)
  | 0, a, _, j => some (a, j)
  | fuel + 1, a, i, j =>
    if i ≠ stop then
      let i1 := incw n i
      let j1 := incw n j
      if i1 < a.tour.length ∧ j1 < a.tour.length ∧
          rd (wr a.tour j1 (rd a.tour i1)) i1 < a.pos.length then
        let t := wr a.tour j1 (rd a.tour i1)
        shift_loop_chk n stop fuel { a with tour := t, pos := wr a.pos (rd t i1) j1 } i1 j1
      else none
    else some (a, j)

/-- Checked `shift_segment`. -/
def shift_segment_chk (n : Nat) (a : Arrays) (j i stop : Nat) : Option (Arrays × Nat) :=
  if i < a.tour.length ∧ j < a.tour.length ∧ rd (wr a.tour j (rd a.tour i)) i < a.pos.length then
    let t := wr a.tour j (rd a.tour i)
    shift_loop_chk n stop n { a with tour := t, pos := wr a.pos (rd t i) j } i j
  else none

/-- Checked `write_until_loop`. -/
def write_until_loop_chk (n stop : Nat) (buf : List Nat) :
    Nat → Nat → Arrays → Nat → Option Arrays
  | 0, _, a, _ => some a
  | fuel + 1, i, a, j =>
    if j ≠ stop then
      let j1 := incw n j
      let i1 := i + 1
      if i1 < buf.length ∧ j1 < a.tour.length ∧ rd buf i1 < a.pos.length then
        write_until_loop_chk n stop buf fuel i1
          { a with tour := wr a.tour j1 (rd buf i1), pos := wr a.pos (rd buf i1) j1 } j1
      else none
    else some a

/-- Checked `store_shift_put`. -/
def store_shift_put_chk (n : Nat) (a : Arrays) (fwd : Bool) (b e w i stop : Nat) :
    Option Arrays :=
  (fill_h_chk n fwd a b e).bind fun r1 =>
  (shift_segment_chk n r1.1 w i stop).bind fun r2 =>
  (put_h_chk n r2.1 r1.2 (incw n r2.2)).bind fun r3 =>
  refresh_chk n r3.1

/-- Checked `store2_put_h_hh`. -/
def store2_put_h_hh_chk (n : Nat) (a : Arrays) (fwd1 : Bool) (b1 e1 : Nat) (fwd2 : Bool)
    (b2 e2 w : Nat) : Option Arrays :=
  (fill_h_chk n fwd1 a b1 e1).bind fun r1 =>
  (fill_hh_chk n fwd2 r1.1 b2 e2).bind fun r2 =>
  (put_h_chk n r2.1 r1.2 w).bind fun r3 =>
  (put_hh_chk n r3.1 r2.2 r3.2).bind fun r4 =>
  refresh_chk n r4.1

/-- Checked `store2_put_hh_h`. -/
def store2_put_hh_h_chk (n : Nat) (a : Arrays) (fwd1 : Bool) (b1 e1 : Nat) (fwd2 : Bool)
    (b2 e2 w : Nat) : Option Arrays :=
  (fill_h_chk n fwd1 a b1 e1).bind fun r1 =>
  (fill_hh_chk n fwd2 r1.1 b2 e2).bind fun r2 =>
  (put_hh_chk n r2.1 r2.2 w).bind fun r3 =>
  (put_h_chk n r3.1 r1.2 r3.2).bind fun r4 =>
  refresh_chk n r4.1

/-- Checked `move4`: each case reads the positions of three of the cities. -/
def move4_chk (n : Nat) (a : Arrays) (h1 h2 h3 h4 h5 h6 pos_c1 pos_c2 pos_c3 : Nat) :
    Option Arrays :=
  let N : Int := n
  let p1 : Int := pos_c1
  let p2 : Int := pos_c2
  let p3 : Int := pos_c3
  let n1 : Int := if p2 > p1 then p2 - p1 else N - (p1 - p2)
  let n2 : Int := if p3 > p2 then p3 - p2 else N - (p2 - p3)
  let n3 : Int := if p1 > p3 then p1 - p3 else N - (p3 - p1)
  let h := longest n1 n2 n3
  if h = 0 then
    if h4 < a.pos.length ∧ h5 < a.pos.length ∧ h6 < a.pos.length then
      store_shift_put_chk n a true (rd a.pos h4) (rd a.pos h5) (rd a.pos h4) (rd a.pos h6) pos_c1
    else none
  else if h = 1 then
    if h6 < a.pos.length ∧ h1 < a.pos.length ∧ h2 < a.pos.length then
      store_shift_put_chk n a true (rd a.pos h6) (rd a.pos h1) (rd a.pos h6) (rd a.pos h2) pos_c2
    else none
  else if h = 2 then
    if h2 < a.pos.length ∧ h3 < a.pos.length ∧ h4 < a.pos.length then
      store_shift_put_chk n a true (rd a.pos h2) (rd a.pos h3) (rd a.pos h2) (rd a.pos h4) pos_c3
    else none
  else some a

/-- Checked `move1_case1`. -/
def move1_case1_chk (n : Nat) (a : Arrays) (h3 h4 h6 pos_c1 : Nat) : Option Arrays :=
  if h3 < a.pos.length ∧ h6 < a.pos.length ∧ h4 < a.pos.length then
    (fill_h_chk n false a (rd a.pos h3) (rd a.pos h6)).bind fun r1 =>
    (shift_segment_chk n r1.1 (rd r1.1.pos h6) (rd r1.1.pos h4) pos_c1).bind fun r2 =>
      let j := incw n r2.2
      if 0 < r2.1.h_tour.length ∧ j < r2.1.tour.length ∧
          rd r2.1.h_tour 0 < r2.1.pos.length then
        let b : Arrays :=
          { r2.1 with tour := wr r2.1.tour j (rd r2.1.h_tour 0),
                      pos := wr r2.1.pos (rd r2.1.h_tour 0) j }
        (write_until_loop_chk n pos_c1 b.h_tour n 0 b j).bind fun c => refresh_chk n c
      else none
  else none

/-- Checked `move1`. -/
def move1_chk (n : Nat) (a : Arrays) (h1 h2 h3 h4 h5 h6 pos_c1 pos_c2 pos_c3 : Nat) :
    Option Arrays :=
  let N : Int := n
  let p1 : Int := pos_c1
  let p2 : Int := pos_c2
  let p3 : Int := pos_c3
  let n1 : Int := if p3 < p2 then p2 - p3 else N - (p3 - p2)
  let n2 : Int := if p3 > p1 then p3 - p1 + 1 else N - (p1 - p3 + 1)
  let n3 : Int := if p2 > p1 then N - (p2 - p1 + 1) else p1 - p2 + 1
  let h := longest n1 n2 n3
  if h = 0 then
    if h5 < a.pos.length ∧ h2 < a.pos.length ∧ h1 < a.pos.length ∧ h4 < a.pos.length then
      store2_put_hh_h_chk n a false (rd a.pos h5) (rd a.pos h2) false (rd a.pos h1)
        (rd a.pos h4) (rd a.pos h4)
    else none
  else if h = 1 then
    move1_case1_chk n a h3 h4 h6 pos_c1
  else if h = 2 then
    if h2 < a.pos.length ∧ h5 < a.pos.length ∧ h6 < a.pos.length then
      store2_put_hh_h_chk n a true (rd a.pos h2) (rd a.pos h5) false pos_c2 (rd a.pos h6)
        (rd a.pos h2)
    else none
  else some a

/-- Checked `move2`. -/
def move2_chk (n : Nat) (a : Arrays) (h1 h2 h3 h4 h5 h6 pos_c1 pos_c2 pos_c3 : Nat) :
    Option Arrays :=
  let N : Int := n
  let p1 : Int := pos_c1
  let p2 : Int := pos_c2
  let p3 : Int := pos_c3
  let n1 : Int := if p3 < p1 then p1 - p3 else N - (p3 - p1)
  let n2 : Int := if p3 > p2 then p3 - p2 else N - (p2 - p3)
  let n3 : Int := if p2 > p1 then p2 - p1 else N - (p1 - p2)
  let h := longest n1 n2 n3
  if h = 0 then
    if h3 < a.pos.length ∧ h2 < a.pos.length ∧ h5 < a.pos.length ∧ h4 < a.pos.length then
      store2_put_h_hh_chk n a false (rd a.pos h3) (rd a.pos h2) false (rd a.pos h5)
        (rd a.pos h4) (rd a.pos h2)
    else none
  else if h = 1 then
    if h2 < a.pos.length ∧ h3 < a.pos.length ∧ h1 < a.pos.length ∧ h6 < a.pos.length then
      store2_put_h_hh_chk n a true (rd a.pos h2) (rd a.pos h3) false (rd a.pos h1)
        (rd a.pos h6) (rd a.pos h6)
    else none
  else if h = 2 then
    if h1 < a.pos.length ∧ h6 < a.pos.length ∧ h4 < a.pos.length ∧ h5 < a.pos.length then
      store2_put_h_hh_chk n a false (rd a.pos h1) (rd a.pos h6) true (rd a.pos h4)
        (rd a.pos h5) (rd a.pos h4)
    else none
  else some a

/-- Checked `move3_case0`. -/
def move3_case0_chk (n : Nat) (a : Arrays) (h2 h3 h4 h5 : Nat) : Option Arrays :=
  if h3 < a.pos.length ∧ h2 < a.pos.length ∧ h5 < a.pos.length ∧ h4 < a.pos.length then
    (fill_h_chk n false a (rd a.pos h3) (rd a.pos h2)).bind fun r1 =>
      let a1 := r1.1
      let j := rd a1.pos h2
      let h := rd a1.pos h5
      let i := rd a1.pos h4
      if j < a1.tour.length ∧ h4 < a1.pos.length then
        let a2 : Arrays := { a1 with tour := wr a1.tour j h4, pos := wr a1.pos h4 j }
        (shift_loop_chk n h n a2 i j).bind fun r2 =>
        (put_h_chk n r2.1 r1.2 (incw n r2.2)).bind fun r3 =>
        refresh_chk n r3.1
      else none
  else none

/-- Checked `move3`. -/
def move3_chk (n : Nat) (a : Arrays) (h1 h2 h3 h4 h5 h6 pos_c1 pos_c2 pos_c3 : Nat) :
    Option Arrays :=
  let N : Int := n
  let p1 : Int := pos_c1
  let p2 : Int := pos_c2
  let p3 : Int := pos_c3
  let n1 : Int := if p3 < p1 then p1 - p3 else N - (p3 - p1)
  let n2 : Int := if p3 > p2 then p3 - p2 else N - (p2 - p3)
  let n3 : Int := if p2 > p1 then p2 - p1 else N - (p1 - p2)
  let h := longest n1 n2 n3
  if h = 0 then
    move3_case0_chk n a h2 h3 h4 h5
  else if h = 1 then
    if h3 < a.pos.length ∧ h2 < a.pos.length ∧ h6 < a.pos.length ∧ h1 < a.pos.length then
      store2_put_h_hh_chk n a false (rd a.pos h3) (rd a.pos h2) true (rd a.pos h6)
        (rd a.pos h1) (rd a.pos h6)
    else none
  else if h = 2 then
    if h5 < a.pos.length ∧ h4 < a.pos.length ∧ h1 < a.pos.length ∧ h6 < a.pos.length then
      store2_put_h_hh_chk n a false (rd a.pos h5) (rd a.pos h4) false (rd a.pos h1)
        (rd a.pos h6) (rd a.pos h4)
    else none
  else some a

/-- Checked 3-opt part of `exchange`: writes `dlb[h1]`, .., `dlb[h6]`, reads
`pos[h1]`, `pos[h3]`, `pos[h5]` and rewrites the tour. -/
def exchange3_chk (n : Nat) (s0 : State) (sc : Scan) : Option (Except Err State) :=
  if sc.h1 < s0.dlb.length ∧ sc.h2 < s0.dlb.length ∧ sc.h3 < s0.dlb.length ∧
      sc.h4 < s0.dlb.length ∧ sc.h5 < s0.dlb.length ∧ sc.h6 < s0.dlb.length ∧
      sc.h1 < s0.arr.pos.length ∧ sc.h3 < s0.arr.pos.length ∧ sc.h5 < s0.arr.pos.length then
    let dlb := wrB (wrB (wrB (wrB (wrB (wrB s0.dlb sc.h1 false) sc.h2 false) sc.h3 false)
      sc.h4 false) sc.h5 false) sc.h6 false
    let a := s0.arr
    let pos_c1 := rd a.pos sc.h1
    let pos_c2 := rd a.pos sc.h3
    let pos_c3 := rd a.pos sc.h5
    if sc.move_flag = 4 then
      (move4_chk n a sc.h1 sc.h2 sc.h3 sc.h4 sc.h5 sc.h6 pos_c1 pos_c2 pos_c3).bind fun arr =>
        some (.ok { s0 with dlb := dlb, arr := arr })
    else if sc.move_flag = 1 then
      (move1_chk n a sc.h1 sc.h2 sc.h3 sc.h4 sc.h5 sc.h6 pos_c1 pos_c2 pos_c3).bind fun arr =>
        some (.ok { s0 with dlb := dlb, arr := arr })
    else if sc.move_flag = 2 then
      (move2_chk n a sc.h1 sc.h2 sc.h3 sc.h4 sc.h5 sc.h6 pos_c1 pos_c2 pos_c3).bind fun arr =>
        some (.ok { s0 with dlb := dlb, arr := arr })
    else if sc.move_flag = 3 then
      (move3_chk n a sc.h1 sc.h2 sc.h3 sc.h4 sc.h5 sc.h6 pos_c1 pos_c2 pos_c3).bind fun arr =>
        some (.ok { s0 with dlb := dlb, arr := arr })
    else some (.error .strangeError)
  else none

/-- Checked 2-opt part of `exchange`: writes `dlb[h1]`, .., `dlb[h4]` and
performs the 2-opt exchange. -/
def exchange_tail_chk (n : Nat) (sc : Scan) (s1 : State) : Option (Except Err State) :=
  if sc.opt2_flag then
    if sc.h1 < s1.dlb.length ∧ sc.h2 < s1.dlb.length ∧ sc.h3 < s1.dlb.length ∧
        sc.h4 < s1.dlb.length then
      (exchange2opt_chk n s1.arr sc.h1 sc.h2 sc.h3 sc.h4).bind fun arr =>
        some (.ok { s1 with
          dlb := wrB (wrB (wrB (wrB s1.dlb sc.h1 false) sc.h2 false) sc.h3 false) sc.h4 false
          arr := arr })
    else none
  else some (.ok s1)

/-- Checked `exchange`. -/
def exchange_chk (n : Nat) (s : State) (sc : Scan) : Option (Except Err State) :=
  let s0 : State :=
    { s with move_value := 0, improvement_flag := sc.improvement_flag,
             n_exchanges := s.n_exchanges + 1 }
  let r1 : Option (Except Err State) :=
    if sc.move_flag ≠ 0 then exchange3_chk n s0 sc else some (.ok s0)
  r1.bind fun r =>
    match r with
    | .error e => some (.error e)
    | .ok s1 => exchange_tail_chk n sc s1

/-- Checked `three_opt_point`: reads `random_vector[l]` and `dlb[c1]`, then
`pos[c1]`, `tour[pos_c1+1]` and the predecessor of `c1`; without a move it
writes `dlb[c1]`. -/
def three_opt_point_chk (P : TspProblem) (n : Nat) (random_vector : List Nat)
    (s : State) (l : Nat) : Option (Except Err State) :=
  if l < random_vector.length ∧ rd random_vector l < s.dlb.length then
    let c1 := rd random_vector l
    if rdB s.dlb c1 then some (.ok s)
    else
      if c1 < s.arr.pos.length ∧ rd s.arr.pos c1 + 1 < s.arr.tour.length ∧
          predAt_ok n s.arr.tour (rd s.arr.pos c1) then
        let pos_c1 := rd s.arr.pos c1
        let s_c1 := rd s.arr.tour (pos_c1 + 1)
        let sc0 : Scan :=
          { opt2_flag := false, move_flag := 0, h1 := 0, h2 := 0, h3 := 0, h4 := 0, h5 := 0,
            h6 := 0, move_value := s.move_value, improvement_flag := s.improvement_flag }
        (outer_search_chk P n s.arr c1 s_c1 pos_c1 (candidates n) sc0).bind fun r =>
          match r with
          | .error e => some (.error e)
          | .ok sc =>
            if sc.move_flag ≠ 0 ∨ sc.opt2_flag = true then exchange_chk n s sc
            else some (.ok { s with dlb := wrB s.dlb c1 true })
      else none
  else none

/-- Checked `three_opt_points`. -/
def three_opt_points_chk (P : TspProblem) (n : Nat) (random_vector : List Nat) :
    List Nat → State → Option (Except Err State)
  | [], s => some (.ok s)
  | l :: ls, s =>
    (three_opt_point_chk P n random_vector s l).bind fun r =>
      match r with
      | .error e => some (.error e)
      | .ok s1 => three_opt_points_chk P n random_vector ls s1

/-- Checked `three_opt_loop`. -/
def three_opt_loop_chk (P : TspProblem) (n : Nat) (random_vector : List Nat) :
    Nat → State → Option (Except Err State)
  | 0, _ => some (.error .outOfFuel)
  | fuel + 1, s =>
    if s.improvement_flag then
      (three_opt_points_chk P n random_vector (List.range n)
        { s with move_value := 0, improvement_flag := false }).bind fun r =>
          match r with
          | .error e => some (.error e)
          | .ok s1 => three_opt_loop_chk P n random_vector fuel s1
    else some (.ok s)

/-- Checked `three_opt_first`: `none` means that some vector was indexed
outside its bounds. -/
def three_opt_first_chk (fuel : Nat) (tour : List Nat) (P : TspProblem)
    (random_vector : List Nat) : Option (Except Err State) :=
  let n := tour.length - 1
  (init_state_chk n tour n).bind fun s => three_opt_loop_chk P n random_vector fuel s

/-- The arrays `tour` and `pos` have the sizes `n + 1` and `n`, and every
entry read from them is below `n`. -/
structure Bnd (n : Nat) (a : Arrays) : Prop where
  tour_len : a.tour.length = n + 1
  pos_len : a.pos.length = n
  tour_lt : ∀ i, rd a.tour i < n
  pos_lt : ∀ c, rd a.pos c < n

/-- The bounds invariant of `three_opt_first`: in addition the help vectors
have the size `n` and entries below `n`. -/
structure Bnd3 (n : Nat) (a : Arrays) : Prop where
  bnd : Bnd n a
  h_len : a.h_tour.length = n
  hh_len : a.hh_tour.length = n
  h_lt : ∀ i, rd a.h_tour i < n
  hh_lt : ∀ i, rd a.hh_tour i < n

/-- The tables of the problem have the sizes that an instance of `n` cities
has, and the candidate lists hold identities below `n`. -/
structure PBnd (n : Nat) (P : TspProblem) : Prop where
  dist_ok : ∀ i j, i < n → j < n → P.dist_ok i j
  nn_ok : ∀ i h, i < n → h < n - 1 → P.nn_ok i h
  nn_lt : ∀ i h, P.nn i h < n

/-- The four cities of a 2-opt move are below `n`. -/
def Move2.Lt (n : Nat) (m : Move2) : Prop := m.h1 < n ∧ m.h2 < n ∧ m.h3 < n ∧ m.h4 < n

/-- The bounds invariant of the state of an engine. -/
def SB (n : Nat) (s : State) : Prop := Bnd n s.arr ∧ s.dlb.length = n

/-- The six cities memorised by a scan are below `n`. -/
def Scan.Lt (n : Nat) (sc : Scan) : Prop :=
  sc.h1 < n ∧ sc.h2 < n ∧ sc.h3 < n ∧ sc.h4 < n ∧ sc.h5 < n ∧ sc.h6 < n

/-- Number of steps from position `j` to position `h` in the direction of a
copy loop. -/
def cgap (n : Nat) (fwd : Bool) (j h : Nat) : Nat := if fwd then cdist n j h else cdist n h j

/-- The bounds invariant of the state of `three_opt_first`. -/
def SB3 (n : Nat) (s : State) : Prop := Bnd3 n s.arr ∧ s.dlb.length = n

/-- The 3-opt part of `exchange` (the block `if (move_flag)`). -/
def exchange3 (n : Nat) (s0 : State) (sc : Scan) : Except Err State :=
  let dlb := wrB (wrB (wrB (wrB (wrB (wrB s0.dlb sc.h1 false) sc.h2 false) sc.h3 false)
    sc.h4 false) sc.h5 false) sc.h6 false
  let a := s0.arr
  let pos_c1 := rd a.pos sc.h1
  let pos_c2 := rd a.pos sc.h3
  let pos_c3 := rd a.pos sc.h5
  if sc.move_flag = 4 then
    .ok { s0 with dlb := dlb,
                  arr := move4 n a sc.h1 sc.h2 sc.h3 sc.h4 sc.h5 sc.h6 pos_c1 pos_c2 pos_c3 }
  else if sc.move_flag = 1 then
    .ok { s0 with dlb := dlb,
                  arr := move1 n a sc.h1 sc.h2 sc.h3 sc.h4 sc.h5 sc.h6 pos_c1 pos_c2 pos_c3 }
  else if sc.move_flag = 2 then
    .ok { s0 with dlb := dlb,
                  arr := move2 n a sc.h1 sc.h2 sc.h3 sc.h4 sc.h5 sc.h6 pos_c1 pos_c2 pos_c3 }
  else if sc.move_flag = 3 then
    .ok { s0 with dlb := dlb,
                  arr := move3 n a sc.h1 sc.h2 sc.h3 sc.h4 sc.h5 sc.h6 pos_c1 pos_c2 pos_c3 }
  else .error .strangeError

/-- The 2-opt part of `exchange` (the block `if (opt2_flag)`). -/
def exchange_tail (n : Nat) (sc : Scan) (s1 : State) : Except Err State :=
  if sc.opt2_flag then
    .ok { s1 with
          dlb := wrB (wrB (wrB (wrB s1.dlb sc.h1 false) sc.h2 false) sc.h3 false) sc.h4 false
          arr := exchange2opt n s1.arr sc.h1 sc.h2 sc.h3 sc.h4 }
  else .ok s1

/-- Round to the nearest integer, ties to the even one. -/
def rne (y : ℚ) : ℤ :=
  let f := ⌊y⌋
  let r := y - f
  if r < 1 / 2 then f else if 1 / 2 < r then f + 1 else if f % 2 = 0 then f else f + 1

/-- Number of halvings that bring `n` below 2 (the binary logarithm, rounded
down), by recursion on a bound of their number. -/
def log2f : Nat → Nat → Nat
  | 0, _ => 0
  | fuel + 1, n => if 2 ≤ n then log2f fuel (n / 2) + 1 else 0

/-- Multiplication by the power `2^e`. -/
def scale2 (x : ℚ) (e : ℤ) : ℚ :=
  if 0 ≤ e then x * ((2 ^ e.toNat : ℕ) : ℚ) else x / ((2 ^ (-e).toNat : ℕ) : ℚ)

/-- The binary logarithm of a positive rational `p / q`, rounded down. -/
def flog2 (x : ℚ) : ℤ :=
  let p := x.num.natAbs
  let q := x.den
  let k : ℤ := (log2f p p : ℤ) - (log2f q q : ℤ)
  if scale2 1 k ≤ |x| then k else k - 1

/-- The exponent of the last mantissa bit of the `double` nearest to `x`:
the mantissa has 53 bits, and the exponent is at least `-1074` (subnormal
numbers). -/
def ulpExp (x : ℚ) : ℤ := max (flog2 x - 52) (-1074)

/-- The `double` nearest to `x` (ties to the even mantissa). -/
def rnd (x : ℚ) : ℚ :=
  if x = 0 then 0 else scale2 (rne (scale2 x (- ulpExp x))) (ulpExp x)

/-- Addition of two `double` values. -/
def fadd (x y : ℚ) : ℚ := rnd (x + y)

/-- Subtraction of two `double` values. -/
def fsub (x y : ℚ) : ℚ := rnd (x - y)

/-- The constant `EPS = 0.0001` as the `double` that the source holds. -/
def EPS_d : ℚ := 7378697629483821 / 73786976294838206464

/-- First search of `two_opt_first` (lines 128-142) in `double`: the gain is
`((-radius + d(c1,c2)) + d(s_c1,s_c2)) - d(c2,s_c2)`, rounded after each
operation, and is compared with `-EPS`. -/
def search_succ_d (P : TspProblem) (a : Arrays) (c1 s_c1 : Nat) (radius : ℚ) :
    List Nat → Option Move2
  | [] => none
  | h :: hs =>
    let c2 := P.nn c1 h
    if radius > P.dist c1 c2 then
      let s_c2 := rd a.tour (rd a.pos c2 + 1)
      let gain := fsub (fadd (fadd (- radius) (P.dist c1 c2)) (P.dist s_c1 s_c2))
        (P.dist c2 s_c2)
      if gain < -EPS_d then some ⟨c1, s_c1, c2, s_c2, gain⟩
      else search_succ_d P a c1 s_c1 radius hs
    else none

/-- Second search of `two_opt_first` (lines 149-171) in `double`. -/
def search_pred_d (P : TspProblem) (n : Nat) (a : Arrays) (c1 p_c1 : Nat) (radius : ℚ) :
    List Nat → Option Move2
  | [] => none
  | h :: hs =>
    let c2 := P.nn c1 h
    if radius > P.dist c1 c2 then
      let pos_c2 := rd a.pos c2
      let p_c2 := predAt n a.tour pos_c2
      if p_c2 = c1 then search_pred_d P n a c1 p_c1 radius hs
      else if p_c1 = c2 then search_pred_d P n a c1 p_c1 radius hs
      else
        let gain := fsub (fadd (fadd (- radius) (P.dist c1 c2)) (P.dist p_c1 p_c2))
          (P.dist p_c2 c2)
        if gain < -EPS_d then some ⟨p_c1, c1, p_c2, c2, gain⟩
        else search_pred_d P n a c1 p_c1 radius hs
    else none

/-- The two searches for the city `c1` in `double`. -/
def find_move2_d (P : TspProblem) (n : Nat) (a : Arrays) (c1 : Nat) : Option Move2 :=
  let pos_c1 := rd a.pos c1
  let s_c1 := rd a.tour (pos_c1 + 1)
  match search_succ_d P a c1 s_c1 (P.dist c1 s_c1) (candidates n) with
  | some m => some m
  | none =>
    let p_c1 := predAt n a.tour pos_c1
    search_pred_d P n a c1 p_c1 (P.dist p_c1 c1) (candidates n)

/-- One iteration of `for (l = 0; l < n; l++)` in `two_opt_first`, in `double`. -/
def two_opt_point_d (P : TspProblem) (n : Nat) (random_vector : List Nat)
    (s : State) (l : Nat) : State :=
  let c1 := rd random_vector l
  if rdB s.dlb c1 then s
  else
    match find_move2_d P n s.arr c1 with
    | some m => apply_move2 n s m
    | none => { s with dlb := wrB s.dlb c1 true }

/-- One pass of the body of `while (improvement_flag)` in `two_opt_first`, in
`double`. -/
def two_opt_sweep_d (P : TspProblem) (n : Nat) (random_vector : List Nat) (s : State) : State :=
  (List.range n).foldl (two_opt_point_d P n random_vector) { s with improvement_flag := false }

/-- The loop `while (improvement_flag)` of `two_opt_first`, in `double`. -/
def two_opt_loop_d (P : TspProblem) (n : Nat) (random_vector : List Nat) :
    Nat → State → Except Err State
  | 0, _ => .error .outOfFuel
  | fuel + 1, s =>
    if s.improvement_flag then
      two_opt_loop_d P n random_vector fuel (two_opt_sweep_d P n random_vector s)
    else .ok s

/-- `two_opt_first(tour, instance)` with its gains computed in `double`. -/
def two_opt_first_d (fuel : Nat) (tour : List Nat) (P : TspProblem)
    (random_vector : List Nat) : Except Err State :=
  let n := tour.length - 1
  two_opt_loop_d P n random_vector fuel (init_state n tour 0)

/-- The innermost search of `three_opt_first` (lines 352-473) in `double`:
every sum is rounded after each operation, in the order of the source, and a
gain is compared with the rounded difference `move_value - EPS`. -/
def inner_search_d (P : TspProblem) (n : Nat) (a : Arrays)
    (c1 s_c1 c2 s_c2 p_c2 pos_c1 pos_c2 : Nat) (radius add1 decrease_breaks : ℚ)
    (sc : Scan) : List Nat → Inner
  | [] => .fallthrough
  | g :: gs =>
    let c3 := P.nn s_c1 g
    let pos_c3 := rd a.pos c3
    let s_c3 := rd a.tour (pos_c3 + 1)
    let p_c3 := predAt n a.tour pos_c3
    if c3 = c1 then
      inner_search_d P n a c1 s_c1 c2 s_c2 p_c2 pos_c1 pos_c2 radius add1 decrease_breaks sc gs
    else
      let add2 := P.dist s_c1 c3
      if fadd decrease_breaks add1 < add2 then
        if pos_c2 = pos_c1 then .failed
        else
          let between : Bool :=
            if pos_c2 > pos_c1 then decide (pos_c3 ≤ pos_c2 ∧ pos_c3 > pos_c1)
            else decide (pos_c3 > pos_c1 ∨ pos_c3 < pos_c2)
          if between then
            let gain := fadd (fadd (fadd (fsub decrease_breaks (P.dist c3 p_c3)) add1) add2)
              (P.dist p_c3 s_c2)
            if gain < fsub sc.move_value EPS_d then
              .jump { improvement_flag := true, move_value := gain, opt2_flag := false,
                      move_flag := 1,
                      h1 := c1, h2 := s_c1, h3 := c2, h4 := s_c2, h5 := p_c3, h6 := c3 }
            else
              inner_search_d P n a c1 s_c1 c2 s_c2 p_c2 pos_c1 pos_c2 radius add1
                decrease_breaks sc gs
          else
            let gain2 := fadd (fadd (fadd (fsub decrease_breaks (P.dist c3 s_c3)) add1) add2)
              (P.dist s_c2 s_c3)
            let gain2 := if pos_c2 = pos_c3 then 20000 else gain2
            if gain2 < fsub sc.move_value EPS_d then
              .jump { improvement_flag := true, move_value := gain2, opt2_flag := false,
                      move_flag := 2,
                      h1 := c1, h2 := s_c1, h3 := c2, h4 := s_c2, h5 := c3, h6 := s_c3 }
            else
              let gain3 := fadd (fadd (fadd (fsub (fsub (- radius) (P.dist p_c2 c2))
                (P.dist p_c3 c3)) add1) add2) (P.dist p_c2 p_c3)
              let gain3 :=
                if c3 = c2 ∨ c2 = c1 ∨ c1 = c3 ∨ p_c2 = c1 then 2000000 else gain3
              if gain3 < fsub sc.move_value EPS_d then
                .jump { improvement_flag := true, move_value := gain3, opt2_flag := false,
                        move_flag := 3,
                        h1 := c1, h2 := s_c1, h3 := p_c2, h4 := c2, h5 := p_c3, h6 := c3 }
              else
                let gain4 := fadd (fadd (fadd (fsub (fsub (- radius) (P.dist p_c2 c2))
                  (P.dist c3 s_c3)) add1) add2) (P.dist p_c2 s_c3)
                if gain4 < fsub sc.move_value EPS_d then
                  .jump { improvement_flag := true, move_value := gain4, opt2_flag := false,
                          move_flag := 4,
                          h1 := c1, h2 := s_c1, h3 := p_c2, h4 := c2, h5 := c3, h6 := s_c3 }
                else
                  inner_search_d P n a c1 s_c1 c2 s_c2 p_c2 pos_c1 pos_c2 radius add1
                    decrease_breaks sc gs
      else .fallthrough

/-- The search `while (h < nn_ls && h < n - 1)` of `three_opt_first`
(lines 310-475) in `double`. -/
def outer_search_d (P : TspProblem) (n : Nat) (a : Arrays) (c1 s_c1 pos_c1 : Nat) :
    List Nat → Scan → Except Err Scan
  | [], sc => .ok sc
  | h :: hs, sc =>
    let c2 := P.nn c1 h
    let pos_c2 := rd a.pos c2
    let s_c2 := rd a.tour (pos_c2 + 1)
    let p_c2 := predAt n a.tour pos_c2
    let radius := P.dist c1 s_c1
    let add1 := P.dist c1 c2
    if radius > add1 then
      let decrease_breaks := fsub (- radius) (P.dist c2 s_c2)
      let diffs := fadd (fadd decrease_breaks add1) (P.dist s_c1 s_c2)
      let diffp := fadd (fadd (fsub (- radius) (P.dist c2 p_c2)) (P.dist c1 p_c2))
        (P.dist s_c1 c2)
      let diffp := if p_c2 = c1 then 0 else diffp
      let sc :=
        if diffs < fsub sc.move_value EPS_d ∨ diffp < fsub sc.move_value EPS_d then
          if diffs ≤ diffp then
            { sc with improvement_flag := true, h1 := c1, h2 := s_c1, h3 := c2, h4 := s_c2,
                      move_value := diffs, opt2_flag := true, move_flag := 0 }
          else
            { sc with improvement_flag := true, h1 := c1, h2 := s_c1, h3 := p_c2, h4 := c2,
                      move_value := diffp, opt2_flag := true, move_flag := 0 }
        else sc
      match inner_search_d P n a c1 s_c1 c2 s_c2 p_c2 pos_c1 pos_c2 radius add1
          decrease_breaks sc (candidates n) with
      | .jump sc1 => .ok sc1
      | .failed => .error .assertFalse
      | .fallthrough => outer_search_d P n a c1 s_c1 pos_c1 hs sc
    else .ok sc

/-- One iteration of `for (l = 0; l < n; l++)` in `three_opt_first`, in
`double`. -/
def three_opt_point_d (P : TspProblem) (n : Nat) (random_vector : List Nat)
    (s : State) (l : Nat) : Except Err State :=
  let c1 := rd random_vector l
  if rdB s.dlb c1 then .ok s
  else
    let pos_c1 := rd s.arr.pos c1
    let s_c1 := rd s.arr.tour (pos_c1 + 1)
    let sc0 : Scan :=
      { opt2_flag := false, move_flag := 0, h1 := 0, h2 := 0, h3 := 0, h4 := 0, h5 := 0,
        h6 := 0, move_value := s.move_value, improvement_flag := s.improvement_flag }
    match outer_search_d P n s.arr c1 s_c1 pos_c1 (candidates n) sc0 with
    | .error e => .error e
    | .ok sc =>
      if sc.move_flag ≠ 0 ∨ sc.opt2_flag = true then exchange n s sc
      else .ok { s with dlb := wrB s.dlb c1 true }

/-- The loop `for (l = 0; l < n; l++)` of `three_opt_first` in `double`, over
the remaining values of `l`. -/
def three_opt_points_d (P : TspProblem) (n : Nat) (random_vector : List Nat) :
    List Nat → State → Except Err State
  | [], s => .ok s
  | l :: ls, s =>
    match three_opt_point_d P n random_vector s l with
    | .error e => .error e
    | .ok s1 => three_opt_points_d P n random_vector ls s1

/-- The loop `while (improvement_flag)` of `three_opt_first`, in `double`. -/
def three_opt_loop_d (P : TspProblem) (n : Nat) (random_vector : List Nat) :
    Nat → State → Except Err State
  | 0, _ => .error .outOfFuel
  | fuel + 1, s =>
    if s.improvement_flag then
      match three_opt_points_d P n random_vector (List.range n)
          { s with move_value := 0, improvement_flag := false } with
      | .error e => .error e
      | .ok s1 => three_opt_loop_d P n random_vector fuel s1
    else .ok s

/-- `three_opt_first(tour, instance)` with its gains computed in `double`. -/
def three_opt_first_d (fuel : Nat) (tour : List Nat) (P : TspProblem)
    (random_vector : List Nat) : Except Err State :=
  let n := tour.length - 1
  three_opt_loop_d P n random_vector fuel (init_state n tour n)

/-- `optimize(instance, originalTour, method)` with the gains of the engines
computed in `double`. -/
def optimize_d (fuel : Nat) (inst : Oracle) (originalTour : Tour) (random_vector : List Nat)
    (method : OptimizeMethod) : Except Err Tour :=
  match TspProblem.ofTour inst originalTour with
  | .error e => .error e
  | .ok problem =>
    let nodes := local_nodes originalTour.length
    let r : Except Err State :=
      match method with
      | .twoOptsMethod => two_opt_first_d fuel nodes problem random_vector
      | .threeOptsMethod => three_opt_first_d fuel nodes problem random_vector
    match r with
    | .error e => .error e
    | .ok s =>
      .ok ((reanchor s.arr.tour).foldl (fun tour x => tour.append (originalTour.get x)) ⟨[]⟩)

/-- The value `x` is an integer of magnitude at most `m * 2^48`. -/
def IntB (x : ℚ) (m : ℕ) : Prop := ∃ z : ℤ, x = z ∧ |z| ≤ m * 2 ^ 48

/-- Every entry of the distance table is an integer of magnitude at most
`2^48`. -/
def TspProblem.IntTable (P : TspProblem) : Prop :=
  ∀ row ∈ P.distance, ∀ d ∈ row, d.den = 1 ∧ |d| ≤ 2 ^ 48

instance intTable_decidable (P : TspProblem) : Decidable P.IntTable := by
  unfold TspProblem.IntTable; infer_instance

/-- The block of lines 322-350 of `three_opt_first` in `double`: the scan
after the 2-opt test for the candidate `c2`. -/
def memo2_d (P : TspProblem) (n : Nat) (a : Arrays) (c1 s_c1 c2 : Nat) (sc : Scan) : Scan :=
  let s_c2 := rd a.tour (rd a.pos c2 + 1)
  let p_c2 := predAt n a.tour (rd a.pos c2)
  let diffs := fadd (fadd (fsub (- P.dist c1 s_c1) (P.dist c2 s_c2)) (P.dist c1 c2))
    (P.dist s_c1 s_c2)
  let diffp := fadd (fadd (fsub (- P.dist c1 s_c1) (P.dist c2 p_c2)) (P.dist c1 p_c2))
    (P.dist s_c1 c2)
  let diffp := if p_c2 = c1 then 0 else diffp
  if diffs < fsub sc.move_value EPS_d ∨ diffp < fsub sc.move_value EPS_d then
    if diffs ≤ diffp then
      { sc with improvement_flag := true, h1 := c1, h2 := s_c1, h3 := c2, h4 := s_c2,
                move_value := diffs, opt2_flag := true, move_flag := 0 }
    else
      { sc with improvement_flag := true, h1 := c1, h2 := s_c1, h3 := p_c2, h4 := c2,
                move_value := diffp, opt2_flag := true, move_flag := 0 }
  else sc

/-- Distances between four cities: city 1 is at distance `2^54` from every
other city and all other pairs are at distance 1.  Every entry is a `double`. -/
def table4r : List (List Nat) :=
  [[0, 18014398509481984, 1, 1], [18014398509481984, 0, 18014398509481984, 18014398509481984],
   [1, 18014398509481984, 0, 1], [1, 18014398509481984, 1, 0]]

/-- The problem that the constructor builds from `table4r` for the tour
`0 1 2 3 0`. -/
def problem4r : TspProblem := problemOf (tableOracle table4r) ⟨[0, 1, 2, 3, 0]⟩

/-- `Tour::calculateCost` with the sum accumulated in `double`: every
addition of the loop is rounded. -/
def Tour.calculateCost_d (t : Tour) (inst : Oracle) : ℚ :=
  (List.range' 1 (t.nodes.length - 1)).foldl
    (fun sum i => fadd sum (inst (rd t.nodes (i - 1)) (rd t.nodes i))) 0

/-- Distances between four cities: city 1 is at distance `2^54 + 4` from the
cities 2 and 3; the other distances are 2 and 3.  Every entry is a `double`. -/
def table4s : List (List Nat) :=
  [[0, 2, 2, 3], [2, 0, 18014398509481988, 18014398509481988],
   [2, 18014398509481988, 0, 3], [3, 18014398509481988, 3, 0]]

/-! # Theorems -/

/-! ## Proof infrastructure: vectors -/

@[simp]
theorem length_wr (v : List Nat) (i x : Nat) : (wr v i x).length = v.length := by
  simp [wr]

theorem rd_wr (v : List Nat) (i x k : Nat) :
    rd (wr v i x) k = if i = k ∧ i < v.length then x else rd v k := by
  unfold rd wr
  by_cases h : i = k
  · subst h
    by_cases h2 : i < v.length
    · simp [h2, List.getD_eq_getElem?_getD]
    · have h3 : v.length ≤ i := by omega
      have h4 : (v.set i x).length ≤ i := by simpa using h3
      simp [h2, List.getD_eq_getElem?_getD, List.getElem?_eq_none h3,
        List.getElem?_eq_none h4]
  · simp [h, List.getD_eq_getElem?_getD, List.getElem?_set_ne h]

theorem rd_wr_same {v : List Nat} {i : Nat} (x : Nat) (h : i < v.length) :
    rd (wr v i x) i = x := by
  simp [rd_wr, h]

theorem rd_wr_ne {v : List Nat} {i k : Nat} (x : Nat) (h : i ≠ k) :
    rd (wr v i x) k = rd v k := by
  simp [rd_wr, h]

theorem incw_eq_cidx {n j : Nat} (h : j < n) : incw n j = cidx n j 1 := by
  unfold incw cidx
  split_ifs <;> omega

theorem decw_eq_cidxb {n j : Nat} (h : j < n) : decw n j = cidxb n j 1 := by
  unfold decw cidxb
  split_ifs <;> omega

theorem cidx_lt {n j k : Nat} (hj : j < n) (hk : k ≤ n) : cidx n j k < n := by
  unfold cidx
  split_ifs <;> omega

theorem cidxb_lt {n j k : Nat} (hj : j < n) (hk : k ≤ n) : cidxb n j k < n := by
  unfold cidxb
  split_ifs <;> omega

theorem Valid.exists_pos {n : Nat} {a : Arrays} (h : Valid n a) {c : Nat} (hc : c < n) :
    ∃ i, i < n ∧ rd a.tour i = c := by
  classical
  let f : Fin n → Fin n := fun i => ⟨rd a.tour i, h.tour_lt i i.2⟩
  have hinj : Function.Injective f := by
    intro x y hxy
    have h1 : rd a.tour x = rd a.tour y := congrArg Fin.val hxy
    have h2 := h.pos_tour x x.2
    have h3 := h.pos_tour y y.2
    rw [h1] at h2
    exact Fin.ext (h2.symm.trans h3)
  have hsurj : Function.Surjective f := Finite.surjective_of_injective hinj
  obtain ⟨i, hi⟩ := hsurj ⟨c, hc⟩
  exact ⟨i, i.2, congrArg Fin.val hi⟩

theorem Valid.pos_lt {n : Nat} {a : Arrays} (h : Valid n a) {c : Nat} (hc : c < n) :
    rd a.pos c < n := by
  obtain ⟨i, hi, rfl⟩ := h.exists_pos hc
  rw [h.pos_tour i hi]; exact hi

theorem Valid.tour_pos {n : Nat} {a : Arrays} (h : Valid n a) {c : Nat} (hc : c < n) :
    rd a.tour (rd a.pos c) = c := by
  obtain ⟨i, hi, rfl⟩ := h.exists_pos hc
  rw [h.pos_tour i hi]

theorem Valid.tour_inj {n : Nat} {a : Arrays} (h : Valid n a) {i j : Nat} (hi : i < n)
    (hj : j < n) (e : rd a.tour i = rd a.tour j) : i = j := by
  have h2 := h.pos_tour i hi
  rw [e, h.pos_tour j hj] at h2
  exact h2.symm

theorem Valid.pos_inj {n : Nat} {a : Arrays} (h : Valid n a) {c d : Nat} (hc : c < n)
    (hd : d < n) (e : rd a.pos c = rd a.pos d) : c = d := by
  have h2 := h.tour_pos hc
  rw [e, h.tour_pos hd] at h2
  exact h2.symm

/-! ## The 2-opt exchange keeps the arrays consistent -/

theorem Valid.core {n : Nat} {a : Arrays} (h : Valid n a) : Core n a :=
  ⟨h.tour_len, h.pos_len, h.tour_lt, h.pos_tour⟩

theorem Core.valid {n : Nat} {a : Arrays} (h : Core n a) (hs : rd a.tour n = rd a.tour 0) :
    Valid n a :=
  ⟨h.tour_len, h.pos_len, h.tour_lt, h.pos_tour, hs⟩

theorem Core.tour_injective {n : Nat} {a : Arrays} (h : Core n a) {i j : Nat} (hi : i < n)
    (hj : j < n) (e : rd a.tour i = rd a.tour j) : i = j := by
  have h2 := h.pos_tour i hi
  rw [e, h.pos_tour j hj] at h2
  exact h2.symm

theorem swapCities_tour (a : Arrays) (i j k : Nat) (hi : i < a.tour.length)
    (hj : j < a.tour.length) :
    rd (swapCities a i j).tour k =
      if k = j then rd a.tour i else if k = i then rd a.tour j else rd a.tour k := by
  simp only [swapCities, rd_wr, length_wr]
  split_ifs <;> first | rfl | omega

theorem swapCities_core {n : Nat} {a : Arrays} (h : Core n a) {i j : Nat} (hi : i < n)
    (hj : j < n) : Core n (swapCities a i j) := by
  have hti : i < a.tour.length := by rw [h.tour_len]; omega
  have htj : j < a.tour.length := by rw [h.tour_len]; omega
  refine ⟨by simp [swapCities, h.tour_len], by simp [swapCities, h.pos_len], ?_, ?_⟩
  · intro k hk
    rw [swapCities_tour a i j k hti htj]
    split_ifs
    · exact h.tour_lt i hi
    · exact h.tour_lt j hj
    · exact h.tour_lt k hk
  · intro k hk
    rw [swapCities_tour a i j k hti htj]
    have hci := h.tour_lt i hi
    have hcj := h.tour_lt j hj
    have hck := h.tour_lt k hk
    simp only [swapCities, rd_wr, length_wr, h.pos_len]
    by_cases hkj : k = j
    · subst hkj
      simp only [if_true]
      by_cases hij : rd a.tour k = rd a.tour i
      · have := h.tour_injective hk hi hij
        subst this; simp [hci]
      · have hne : ¬ rd a.tour i = rd a.tour k := fun e => hij e.symm
        simp [hne, hij, hci]
    · by_cases hki : k = i
      · subst hki
        simp [hkj, hcj]
      · have h1 : ¬ rd a.tour j = rd a.tour k := fun e => hkj (h.tour_injective hj hk e).symm
        have h2 : ¬ rd a.tour i = rd a.tour k := fun e => hki (h.tour_injective hi hk e).symm
        simp [hkj, hki, h1, h2, h.pos_tour k hk]

theorem swapCities_bufs (a : Arrays) (i j : Nat) :
    (swapCities a i j).h_tour = a.h_tour ∧ (swapCities a i j).hh_tour = a.hh_tour := by
  simp [swapCities]

/-- The inner reversal loop mirrors the cells between `i` and `j`. -/
theorem reverse_inner_spec {n : Nat} : ∀ (fuel : Nat) (a : Arrays) (i j : Nat),
    Core n a → j < n → j + 1 ≤ fuel + i →
    Core n (reverse_inner fuel a i j) ∧
    (reverse_inner fuel a i j).h_tour = a.h_tour ∧
    (reverse_inner fuel a i j).hh_tour = a.hh_tour ∧
    ∀ k, rd (reverse_inner fuel a i j).tour k =
      if i ≤ k ∧ k ≤ j then rd a.tour (i + j - k) else rd a.tour k := by
  intro fuel
  induction fuel with
  | zero =>
    intro a i j h hj hf
    refine ⟨h, rfl, rfl, ?_⟩
    intro k
    simp only [reverse_inner]
    split_ifs with hk
    · omega
    · rfl
  | succ f ih =>
    intro a i j h hj hf
    simp only [reverse_inner]
    by_cases hij : i < j
    · simp only [hij, if_true]
      have hi : i < n := by omega
      have hc := swapCities_core h hi hj
      obtain ⟨c1, c2, c3, c4⟩ := ih (swapCities a i j) (i + 1) (j - 1) hc (by omega) (by omega)
      refine ⟨c1, by rw [c2]; exact (swapCities_bufs a i j).1,
        by rw [c3]; exact (swapCities_bufs a i j).2, ?_⟩
      intro k
      rw [c4 k]
      have hti : i < a.tour.length := by rw [h.tour_len]; omega
      have htj : j < a.tour.length := by rw [h.tour_len]; omega
      simp only [swapCities_tour a i j _ hti htj]
      by_cases hk : i + 1 ≤ k ∧ k ≤ j - 1
      · have e1 : ¬ (i + j - k = j) := by omega
        have e2 : ¬ (i + j - k = i) := by omega
        have e3 : i ≤ k ∧ k ≤ j := by omega
        have e4 : i + 1 + (j - 1) - k = i + j - k := by omega
        simp only [hk, e1, e2, e3, e4, if_true, if_false, and_self]
      · simp only [hk, if_false]
        by_cases hkj : k = j
        · subst hkj
          have e3 : i ≤ k ∧ k ≤ k := by omega
          have e4 : i + k - k = i := by omega
          simp only [e3, e4, if_true, and_self]
        · by_cases hki : k = i
          · subst hki
            have e3 : k ≤ k ∧ k ≤ j := by omega
            have e4 : k + j - k = j := by omega
            simp only [hkj, e3, e4, if_true, if_false, and_self]
          · have e3 : ¬ (i ≤ k ∧ k ≤ j) := by omega
            simp only [hkj, hki, e3, if_false]
    · rw [if_neg hij]
      refine ⟨h, rfl, rfl, ?_⟩
      intro k
      split_ifs with hk
      · have : i + j - k = k := by omega
        rw [this]
      · rfl

/-! ## Arithmetic of cyclic positions -/

theorem cidx_zero {n j : Nat} (hj : j < n) : cidx n j 0 = j := by
  unfold cidx; split_ifs <;> omega

theorem cidx_cidx_zero_aux {n k : Nat} (hk : k < n) : cidx n 0 k = k := by
  unfold cidx; split_ifs <;> omega

theorem cidx_full {n j : Nat} (_hj : j < n) : cidx n j n = j := by
  unfold cidx; split_ifs <;> omega

theorem cidx_cidx {n j a b : Nat} (hj : j < n) (hab : a + b ≤ n) :
    cidx n (cidx n j a) b = cidx n j (a + b) := by
  unfold cidx; split_ifs <;> omega

theorem cidx_eq_iff {n j a b : Nat} (_hj : j < n) (ha : a < n) (hb : b < n) :
    cidx n j a = cidx n j b ↔ a = b := by
  unfold cidx; split_ifs <;> omega

theorem cidxb_cidx {n j a b : Nat} (hj : j < n) (ha : a ≤ n) (hb : b ≤ a) :
    cidxb n (cidx n j a) b = cidx n j (a - b) := by
  unfold cidx cidxb; split_ifs <;> omega

theorem incw_cidx {n j a : Nat} (hj : j < n) (ha : a < n) :
    incw n (cidx n j a) = cidx n j (a + 1) := by
  unfold cidx incw; split_ifs <;> omega

theorem decw_cidx {n j a : Nat} (hj : j < n) (ha : a ≤ n) (ha1 : 1 ≤ a) :
    decw n (cidx n j a) = cidx n j (a - 1) := by
  unfold cidx decw; split_ifs <;> omega

theorem exists_cidx {n w p : Nat} (hw : w < n) (hp : p < n) : ∃ r, r < n ∧ cidx n w r = p := by
  by_cases h : w ≤ p
  · exact ⟨p - w, by omega, by unfold cidx; split_ifs <;> omega⟩
  · exact ⟨p + n - w, by omega, by unfold cidx; split_ifs <;> omega⟩

/-- The outer reversal loop mirrors the window of `m` cells that starts at `w`. -/
theorem reverse_outer_spec {n w m : Nat} (hw : w < n) (hm : m ≤ n) :
    ∀ (k : Nat) (a : Arrays) (s : Nat), Core n a → 2 * (s + k) ≤ m →
    Core n (reverse_outer n k a (cidx n w (m - 1 - s)) (cidx n w s)) ∧
    (reverse_outer n k a (cidx n w (m - 1 - s)) (cidx n w s)).h_tour = a.h_tour ∧
    (reverse_outer n k a (cidx n w (m - 1 - s)) (cidx n w s)).hh_tour = a.hh_tour ∧
    rd (reverse_outer n k a (cidx n w (m - 1 - s)) (cidx n w s)).tour n = rd a.tour n ∧
    ∀ r, r < n → rd (reverse_outer n k a (cidx n w (m - 1 - s)) (cidx n w s)).tour (cidx n w r) =
      if (s ≤ r ∧ r < s + k) ∨ (m ≤ r + s + k ∧ r + s < m) then rd a.tour (cidx n w (m - 1 - r))
      else rd a.tour (cidx n w r) := by
  intro k
  induction k with
  | zero =>
    intro a s h hs
    refine ⟨h, rfl, rfl, rfl, ?_⟩
    intro r hr
    simp only [reverse_outer]
    split_ifs with hk
    · omega
    · rfl
  | succ k ih =>
    intro a s h hs
    simp only [reverse_outer]
    have hi : cidx n w (m - 1 - s) < n := cidx_lt hw (by omega)
    have hj : cidx n w s < n := cidx_lt hw (by omega)
    have hc := swapCities_core h hi hj
    have e1 : decw n (cidx n w (m - 1 - s)) = cidx n w (m - 1 - (s + 1)) := by
      rw [decw_cidx hw (by omega) (by omega)]; congr 1
    have e2 : incw n (cidx n w s) = cidx n w (s + 1) := incw_cidx hw (by omega)
    rw [e1, e2]
    obtain ⟨c1, c2, c3, c4, c5⟩ := ih (swapCities a (cidx n w (m - 1 - s)) (cidx n w s)) (s + 1) hc
      (by omega)
    have hti : cidx n w (m - 1 - s) < a.tour.length := by rw [h.tour_len]; omega
    have htj : cidx n w s < a.tour.length := by rw [h.tour_len]; omega
    refine ⟨c1, by rw [c2]; exact (swapCities_bufs _ _ _).1,
      by rw [c3]; exact (swapCities_bufs _ _ _).2, ?_, ?_⟩
    · rw [c4, swapCities_tour a _ _ _ hti htj]
      have : ¬ n = cidx n w s := by omega
      have : ¬ n = cidx n w (m - 1 - s) := by omega
      simp [*]
    · intro r hr
      rw [c5 r hr]
      simp only [swapCities_tour a _ _ _ hti htj]
      have q1 : ∀ x, x < n → (cidx n w x = cidx n w s ↔ x = s) := fun x hx =>
        cidx_eq_iff hw hx (by omega)
      have q2 : ∀ x, x < n → (cidx n w x = cidx n w (m - 1 - s) ↔ x = m - 1 - s) := fun x hx =>
        cidx_eq_iff hw hx (by omega)
      by_cases hA : (s + 1 ≤ r ∧ r < s + 1 + k) ∨ (m ≤ r + (s + 1) + k ∧ r + (s + 1) < m)
      · have hB : (s ≤ r ∧ r < s + (k + 1)) ∨ (m ≤ r + s + (k + 1) ∧ r + s < m) := by omega
        have n1 : ¬ (m - 1 - r = s) := by omega
        have n2 : ¬ (m - 1 - r = m - 1 - s) := by omega
        simp only [hA, hB, if_true, q1 (m - 1 - r) (by omega), q2 (m - 1 - r) (by omega), n1, n2,
          if_false]
      · simp only [hA, if_false, q1 r hr, q2 r hr]
        by_cases hrs : r = s
        · subst hrs
          have hB : (r ≤ r ∧ r < r + (k + 1)) ∨ (m ≤ r + r + (k + 1) ∧ r + r < m) := by omega
          simp only [hB, if_true]
        · by_cases hrm : r = m - 1 - s
          · subst hrm
            have hB : (s ≤ m - 1 - s ∧ m - 1 - s < s + (k + 1)) ∨
                (m ≤ m - 1 - s + s + (k + 1) ∧ m - 1 - s + s < m) := by omega
            have e : m - 1 - (m - 1 - s) = s := by omega
            simp only [hB, hrs, if_true, if_false, e]
          · have hB : ¬ ((s ≤ r ∧ r < s + (k + 1)) ∨ (m ≤ r + s + (k + 1) ∧ r + s < m)) := by
              omega
            simp only [hB, hrs, hrm, if_false]

theorem Valid.pos_succ {n : Nat} {a : Arrays} (h : Valid n a) {c : Nat} (hc : c < n) :
    rd a.pos (rd a.tour (rd a.pos c + 1)) = cidx n (rd a.pos c) 1 := by
  have hp := h.pos_lt hc
  by_cases hlt : rd a.pos c + 1 < n
  · rw [h.pos_tour _ hlt]; unfold cidx; split_ifs; omega
  · have e : rd a.pos c + 1 = n := by omega
    rw [e, h.sentinel, h.pos_tour 0 (by omega)]
    unfold cidx; split_ifs; omega

theorem Valid.tour_cidx_succ {n : Nat} {a : Arrays} (h : Valid n a) {p : Nat} (hp : p < n) :
    rd a.tour (cidx n p 1) = rd a.tour (p + 1) := by
  by_cases hlt : p + 1 < n
  · have : cidx n p 1 = p + 1 := by unfold cidx; split_ifs; omega
    rw [this]
  · have e : p + 1 = n := by omega
    have : cidx n p 1 = 0 := by unfold cidx; split_ifs; omega
    rw [this, e, h.sentinel]

theorem core_refresh {n : Nat} {a : Arrays} (h : Core n a) (hn : 0 < n) :
    Valid n { a with tour := wr a.tour n (rd a.tour 0) } := by
  have hl : n < a.tour.length := by rw [h.tour_len]; omega
  refine ⟨by simp [h.tour_len], h.pos_len, ?_, ?_, ?_⟩
  · intro i hi
    show rd (wr a.tour n (rd a.tour 0)) i < n
    rw [rd_wr_ne _ (by omega)]; exact h.tour_lt i hi
  · intro i hi
    show rd a.pos (rd (wr a.tour n (rd a.tour 0)) i) = i
    rw [rd_wr_ne _ (by omega)]; exact h.pos_tour i hi
  · show rd (wr a.tour n (rd a.tour 0)) n = rd (wr a.tour n (rd a.tour 0)) 0
    rw [rd_wr_same _ hl, rd_wr_ne _ (by omega)]

/-- The reversal branches of the 2-opt exchange mirror one window of the
cycle; `be, f, l, af` are the cities before the window, at its two ends and
behind it. -/
theorem reverse_part_spec {n : Nat} {a : Arrays} (hv : Valid n a) {k1 k3 : Nat}
    (hk1 : k1 < n) (hk3 : k3 < n) (hlt : rd a.pos k1 < rd a.pos k3) :
    ∃ w L, w < n ∧ 1 ≤ L ∧ L < n ∧
      Valid n (reverse_part n a k1 (rd a.tour (rd a.pos k1 + 1)) k3 (rd a.tour (rd a.pos k3 + 1))) ∧
      (reverse_part n a k1 (rd a.tour (rd a.pos k1 + 1)) k3
        (rd a.tour (rd a.pos k3 + 1))).h_tour = a.h_tour ∧
      (reverse_part n a k1 (rd a.tour (rd a.pos k1 + 1)) k3
        (rd a.tour (rd a.pos k3 + 1))).hh_tour = a.hh_tour ∧
      RevWin n a.tour (reverse_part n a k1 (rd a.tour (rd a.pos k1 + 1)) k3
        (rd a.tour (rd a.pos k3 + 1))).tour w L ∧
      ((rd a.tour (cidx n w (n - 1)) = k1 ∧ rd a.tour w = rd a.tour (rd a.pos k1 + 1) ∧
          rd a.tour (cidx n w (L - 1)) = k3 ∧
          rd a.tour (cidx n w L) = rd a.tour (rd a.pos k3 + 1)) ∨
       (rd a.tour (cidx n w (n - 1)) = k3 ∧ rd a.tour w = rd a.tour (rd a.pos k3 + 1) ∧
          rd a.tour (cidx n w (L - 1)) = k1 ∧
          rd a.tour (cidx n w L) = rd a.tour (rd a.pos k1 + 1))) := by
  have hp1 := hv.pos_lt hk1
  have hp3 := hv.pos_lt hk3
  have hpk2 : rd a.pos (rd a.tour (rd a.pos k1 + 1)) = rd a.pos k1 + 1 :=
    hv.pos_tour _ (by omega)
  have hpk4 := hv.pos_succ hk3
  have ht1 := hv.tour_pos hk1
  have ht3 := hv.tour_pos hk3
  generalize hP1 : rd a.pos k1 = p1 at *
  generalize hP3 : rd a.pos k3 = p3 at *
  unfold reverse_part
  rw [hpk2, hpk4, hP1, hP3]
  by_cases hc : (p3 : Int) - ((p1 + 1 : Nat) : Int) < ((n / 2 : Nat) : Int) + 1
  · rw [if_pos hc]
    obtain ⟨c1, c2, c3, c4⟩ := reverse_inner_spec n a (p1 + 1) p3 hv.core hp3 (by omega)
    refine ⟨p1 + 1, p3 - p1, by omega, by omega, by omega, ?_, c2, c3, ?_, Or.inl ⟨?_, rfl, ?_, ?_⟩⟩
    · refine c1.valid ?_
      rw [c4 n, c4 0, if_neg (by omega), if_neg (by omega)]
      exact hv.sentinel
    · intro r hr
      rw [c4]
      by_cases hrL : r < p3 - p1
      · have e1 : cidx n (p1 + 1) r = p1 + 1 + r := by unfold cidx; split_ifs <;> omega
        have e2 : cidx n (p1 + 1) (p3 - p1 - 1 - r) = p3 - r := by
          unfold cidx; split_ifs <;> omega
        rw [e1, e2, if_pos (by omega), if_pos hrL]
        congr 1; omega
      · rw [if_neg hrL, if_neg]
        unfold cidx; split_ifs <;> omega
    · have : cidx n (p1 + 1) (n - 1) = p1 := by unfold cidx; split_ifs <;> omega
      rw [this, ht1]
    · have : cidx n (p1 + 1) (p3 - p1 - 1) = p3 := by unfold cidx; split_ifs <;> omega
      rw [this, ht3]
    · have : cidx n (p1 + 1) (p3 - p1) = cidx n p3 1 := by unfold cidx; split_ifs <;> omega
      rw [this, hv.tour_cidx_succ hp3]
  · rw [if_neg hc]
    have hw : cidx n p3 1 < n := cidx_lt hp3 (by omega)
    generalize hW : cidx n p3 1 = w at *
    have hwv : w = p3 + 1 ∨ (w = 0 ∧ p3 + 1 = n) := by
      rw [← hW]; unfold cidx; split_ifs <;> omega
    have hm : (if w > p1 then n - (w - p1) + 1 else p1 - w + 1) = n - (p3 - p1) := by
      split_ifs <;> omega
    simp only [hm]
    have ei : p1 = cidx n w (n - (p3 - p1) - 1 - 0) := by
      unfold cidx; split_ifs <;> omega
    have ej : w = cidx n w 0 := (cidx_zero hw).symm
    obtain ⟨c1, c2, c3, c4, c5⟩ := reverse_outer_spec hw (show n - (p3 - p1) ≤ n by omega)
      ((n - (p3 - p1)) / 2) a 0 hv.core (by omega)
    rw [← ei, ← ej] at c1 c2 c3 c4 c5
    refine ⟨w, n - (p3 - p1), hw, by omega, by omega, core_refresh c1 (by omega), c2, c3, ?_,
      Or.inr ⟨?_, ?_, ?_, ?_⟩⟩
    · intro r hr
      show rd (wr _ n _) (cidx n w r) = _
      have hlt2 : cidx n w r < n := cidx_lt hw (by omega)
      rw [rd_wr_ne _ (by omega), c5 r hr]
      by_cases hrm : r < n - (p3 - p1)
      · rw [if_pos hrm]
        by_cases hmid : (0 ≤ r ∧ r < 0 + (n - (p3 - p1)) / 2) ∨
            (n - (p3 - p1) ≤ r + 0 + (n - (p3 - p1)) / 2 ∧ r + 0 < n - (p3 - p1))
        · rw [if_pos hmid]
        · rw [if_neg hmid]
          congr 2; omega
      · rw [if_neg hrm, if_neg (by omega)]
    · have : cidx n w (n - 1) = p3 := by
        rw [← hW]; unfold cidx; split_ifs <;> omega
      rw [this, ht3]
    · rcases hwv with e | ⟨e, e2⟩
      · rw [e]
      · rw [e, e2, hv.sentinel]
    · have : cidx n w (n - (p3 - p1) - 1) = p1 := by
        unfold cidx; split_ifs <;> omega
      rw [this, ht1]
    · have : cidx n w (n - (p3 - p1)) = p1 + 1 := by
        unfold cidx; split_ifs <;> omega
      rw [this]

/-! ## Costs of paths and cycles -/

theorem pathL_cons_cons (d : Nat → Nat → ℚ) (x y : Nat) (r : List Nat) :
    pathL d (x :: y :: r) = d x y + pathL d (y :: r) := rfl

theorem pathL_cons (d : Nat → Nat → ℚ) (x : Nat) {l : List Nat} (hl : l ≠ []) :
    pathL d (x :: l) = d x (l.headD 0) + pathL d l := by
  cases l with
  | nil => exact absurd rfl hl
  | cons y r => rfl

theorem pathL_append (d : Nat → Nat → ℚ) : ∀ {A B : List Nat}, A ≠ [] → B ≠ [] →
    pathL d (A ++ B) = pathL d A + d (A.getLastD 0) (B.headD 0) + pathL d B := by
  intro A
  induction A with
  | nil => intro B hA; exact absurd rfl hA
  | cons x A ih =>
    intro B _ hB
    cases A with
    | nil =>
      simp only [List.singleton_append, List.getLastD_cons, List.getLastD_nil]
      rw [pathL_cons d x hB]
      simp [pathL]
    | cons y A =>
      have := ih (B := B) (by simp) hB
      simp only [List.cons_append, pathL_cons_cons] at this ⊢
      rw [this]
      simp only [List.getLastD_cons]
      ring

theorem headD_append_of_ne {A : List Nat} (B : List Nat) (hA : A ≠ []) :
    (A ++ B).headD 0 = A.headD 0 := by
  cases A with
  | nil => exact absurd rfl hA
  | cons x A => rfl

theorem getLastD_append_of_ne (A : List Nat) {B : List Nat} (hB : B ≠ []) :
    (A ++ B).getLastD 0 = B.getLastD 0 := by
  rw [List.getLastD_eq_getLast?, List.getLastD_eq_getLast?, List.getLast?_append_of_ne_nil _ hB]

theorem headD_reverse (A : List Nat) : A.reverse.headD 0 = A.getLastD 0 := by
  rw [List.getLastD_eq_getLast?, List.headD_eq_head?_getD, List.head?_reverse]

theorem getLastD_reverse (A : List Nat) : A.reverse.getLastD 0 = A.headD 0 := by
  rw [List.getLastD_eq_getLast?, List.headD_eq_head?_getD, List.getLast?_reverse]

theorem pathL_reverse {d : Nat → Nat → ℚ} (hsym : ∀ i j, d i j = d j i) :
    ∀ A : List Nat, pathL d A.reverse = pathL d A := by
  intro A
  induction A with
  | nil => rfl
  | cons x A ih =>
    by_cases hA : A = []
    · subst hA; rfl
    · rw [List.reverse_cons, pathL_append d (by simpa using hA) (by simp), ih,
        pathL_cons d x hA, getLastD_reverse, hsym x]
      simp [pathL]
      ring

theorem cycL_append (d : Nat → Nat → ℚ) {A B : List Nat} (hA : A ≠ []) (hB : B ≠ []) :
    cycL d (A ++ B) =
      pathL d A + pathL d B + d (A.getLastD 0) (B.headD 0) + d (B.getLastD 0) (A.headD 0) := by
  unfold cycL
  have h1 : (A ++ B).take 1 = [A.headD 0] := by
    cases A with
    | nil => exact absurd rfl hA
    | cons x A => simp
  rw [h1, List.append_assoc, pathL_append d hA (by simp), pathL_append d hB (by simp),
    headD_append_of_ne _ hB]
  simp [pathL]
  ring

theorem cycL_comm (d : Nat → Nat → ℚ) (A B : List Nat) : cycL d (A ++ B) = cycL d (B ++ A) := by
  by_cases hA : A = []
  · subst hA; simp
  by_cases hB : B = []
  · subst hB; simp
  rw [cycL_append d hA hB, cycL_append d hB hA]; ring

theorem cycL_three (d : Nat → Nat → ℚ) {A B C : List Nat} (hA : A ≠ []) (hB : B ≠ [])
    (hC : C ≠ []) :
    cycL d (A ++ B ++ C) = pathL d A + pathL d B + pathL d C + d (A.getLastD 0) (B.headD 0)
      + d (B.getLastD 0) (C.headD 0) + d (C.getLastD 0) (A.headD 0) := by
  rw [cycL_append d (by simp [hA]) hC, pathL_append d hA hB, getLastD_append_of_ne _ hB,
    headD_append_of_ne _ hA]
  ring

theorem cycCost_eq_pathL (P : TspProblem) : ∀ (t : List Nat) (n : Nat), t.length = n + 1 →
    cycCost P n t = pathL P.dist t := by
  intro t
  induction t with
  | nil => intro n h; simp at h
  | cons x r ih =>
    intro n h
    cases n with
    | zero =>
      have : r = [] := by simpa using h
      subst this; simp [cycCost, pathL]
    | succ k =>
      cases r with
      | nil => simp at h
      | cons y r' =>
        have := ih k (by simpa using h)
        rw [pathL_cons_cons, ← this]
        unfold cycCost
        rw [List.range_succ_eq_map]
        simp [rd, Function.comp_def]

/-! ## Segments of the cycle as lists -/

@[simp]
theorem length_segF (n : Nat) (t : List Nat) (b len : Nat) :
    (segF n t b len).length = len := by
  simp [segF]

theorem segF_ne_nil {n : Nat} {t : List Nat} {b len : Nat} (h : 1 ≤ len) :
    segF n t b len ≠ [] := by
  intro e
  have := congrArg List.length e
  simp at this; omega

theorem getElem_segF {n : Nat} {t : List Nat} {b len k : Nat} (h : k < (segF n t b len).length) :
    (segF n t b len)[k] = rd t (cidx n b k) := by
  simp [segF]

theorem segF_add {n : Nat} (t : List Nat) {b : Nat} (hb : b < n) {p q : Nat} (h : p + q ≤ n) :
    segF n t b (p + q) = segF n t b p ++ segF n t (cidx n b p) q := by
  apply List.ext_getElem
  · simp
  · intro k h1 h2
    rw [getElem_segF]
    by_cases hk : k < p
    · rw [List.getElem_append_left (by simpa using hk), getElem_segF]
    · rw [List.getElem_append_right (by simpa using hk), getElem_segF]
      simp only [length_segF]
      simp only [length_segF] at h1
      rw [cidx_cidx hb (by omega)]
      congr 2; omega

theorem headD_segF {n : Nat} (t : List Nat) {b : Nat} (hb : b < n) {len : Nat} (h : 1 ≤ len) :
    (segF n t b len).headD 0 = rd t b := by
  obtain ⟨k, rfl⟩ : ∃ k, len = k + 1 := ⟨len - 1, by omega⟩
  simp [segF, List.range_succ_eq_map, cidx_zero hb]

theorem getLastD_segF {n : Nat} (t : List Nat) (b : Nat) {len : Nat} (h : 1 ≤ len) :
    (segF n t b len).getLastD 0 = rd t (cidx n b (len - 1)) := by
  obtain ⟨k, rfl⟩ : ∃ k, len = k + 1 := ⟨len - 1, by omega⟩
  simp [segF, List.range_succ, List.getLastD_eq_getLast?]

/-- The cyclic cost can be read off the cycle from any starting position. -/
theorem cycCost_eq_cycL (P : TspProblem) {n : Nat} {a : Arrays} (hv : Valid n a) {w : Nat}
    (hw : w < n) : cycCost P n a.tour = cycL P.dist (segF n a.tour w n) := by
  have h0 : a.tour = segF n a.tour 0 n ++ [rd a.tour 0] := by
    apply List.ext_getElem
    · simp [hv.tour_len]
    · intro k h1 h2
      by_cases hk : k < n
      · rw [List.getElem_append_left (by simpa using hk), getElem_segF,
          cidx_cidx_zero_aux hk]
        simp [rd, List.getD_eq_getElem?_getD, List.getElem?_eq_getElem h1]
      · have hkn : k = n := by rw [hv.tour_len] at h1; omega
        subst hkn
        rw [List.getElem_append_right (by simp)]
        have := hv.sentinel
        simp [rd, List.getD_eq_getElem?_getD, List.getElem?_eq_getElem h1] at this ⊢
        exact this
  have h1 : cycCost P n a.tour = cycL P.dist (segF n a.tour 0 n) := by
    rw [cycCost_eq_pathL P a.tour n hv.tour_len]
    conv_lhs => rw [h0]
    unfold cycL
    congr 2
    have hz : cidx n 0 0 = 0 := cidx_zero (by omega)
    have hl : (segF n a.tour 0 n).take 1 = [(segF n a.tour 0 n).headD 0] := by
      have hne : segF n a.tour 0 n ≠ [] := segF_ne_nil (by omega)
      cases hs : segF n a.tour 0 n with
      | nil => exact absurd hs hne
      | cons x r => simp
    rw [hl, headD_segF a.tour (by omega) (by omega)]
  rw [h1]
  have e1 : segF n a.tour 0 n = segF n a.tour 0 w ++ segF n a.tour w (n - w) := by
    have := segF_add a.tour (show 0 < n by omega) (show w + (n - w) ≤ n by omega)
    rw [show w + (n - w) = n by omega, cidx_cidx_zero_aux hw] at this
    exact this
  have e2 : segF n a.tour w n = segF n a.tour w (n - w) ++ segF n a.tour 0 w := by
    have := segF_add a.tour hw (show (n - w) + w ≤ n by omega)
    rw [show n - w + w = n by omega] at this
    rw [this]
    congr 2
    unfold cidx; split_ifs <;> omega
  rw [e1, e2, cycL_comm]

theorem RevWin.segF_eq {n : Nat} {t t' : List Nat} {w L : Nat} (h : RevWin n t t' w L)
    (hw : w < n) (hL : L ≤ n) :
    segF n t' w n = (segF n t w L).reverse ++ segF n t (cidx n w L) (n - L) := by
  apply List.ext_getElem
  · simp; omega
  · intro k h1 h2
    have hk : k < n := by simpa using h1
    rw [getElem_segF, h k hk]
    by_cases hkL : k < L
    · rw [if_pos hkL, List.getElem_append_left (by simpa using hkL), List.getElem_reverse,
        getElem_segF]
      simp
    · rw [if_neg hkL, List.getElem_append_right (by simpa using hkL), getElem_segF]
      simp only [List.length_reverse, length_segF]
      rw [cidx_cidx hw (by omega)]
      congr 2; omega

theorem cycL_reverse_window {d : Nat → Nat → ℚ} (hsym : ∀ i j, d i j = d j i) {A C : List Nat}
    (hA : A ≠ []) (hC : C ≠ []) :
    cycL d (A.reverse ++ C) = cycL d (A ++ C) + d (A.headD 0) (C.headD 0)
      + d (C.getLastD 0) (A.getLastD 0) - d (A.getLastD 0) (C.headD 0)
      - d (C.getLastD 0) (A.headD 0) := by
  rw [cycL_append d (by simpa using hA) hC, cycL_append d hA hC, pathL_reverse hsym,
    getLastD_reverse, headD_reverse]
  ring

/-- The 2-opt exchange for the tour edges `(h1, succ h1)` and `(h3, succ h3)`
keeps the arrays valid, whatever the distances are. -/
theorem exchange2opt_valid {n : Nat} {a : Arrays} (hv : Valid n a) {h1 h3 : Nat}
    (hh1 : h1 < n) (hh3 : h3 < n) (hne : h1 ≠ h3) :
    Valid n (exchange2opt n a h1 (rd a.tour (rd a.pos h1 + 1)) h3 (rd a.tour (rd a.pos h3 + 1))) ∧
    (exchange2opt n a h1 (rd a.tour (rd a.pos h1 + 1)) h3
      (rd a.tour (rd a.pos h3 + 1))).h_tour = a.h_tour ∧
    (exchange2opt n a h1 (rd a.tour (rd a.pos h1 + 1)) h3
      (rd a.tour (rd a.pos h3 + 1))).hh_tour = a.hh_tour := by
  unfold exchange2opt
  by_cases hlt : rd a.pos h3 < rd a.pos h1
  · rw [if_pos hlt]
    obtain ⟨w, L, _, _, _, c1, c2, c3, _⟩ := reverse_part_spec hv hh3 hh1 hlt
    exact ⟨c1, c2, c3⟩
  · rw [if_neg hlt]
    have hlt2 : rd a.pos h1 < rd a.pos h3 := by
      have : rd a.pos h1 ≠ rd a.pos h3 := fun e => hne (hv.pos_inj hh1 hh3 e)
      omega
    obtain ⟨w, L, _, _, _, c1, c2, c3, _⟩ := reverse_part_spec hv hh1 hh3 hlt2
    exact ⟨c1, c2, c3⟩

theorem reverse_part_cost (P : TspProblem) (hsym : ∀ i j, P.dist i j = P.dist j i) {n : Nat}
    {a : Arrays} (hv : Valid n a) {k1 k3 : Nat} (hk1 : k1 < n) (hk3 : k3 < n)
    (hlt : rd a.pos k1 < rd a.pos k3) :
    cycCost P n (reverse_part n a k1 (rd a.tour (rd a.pos k1 + 1)) k3
        (rd a.tour (rd a.pos k3 + 1))).tour =
      cycCost P n a.tour - P.dist k1 (rd a.tour (rd a.pos k1 + 1))
        - P.dist k3 (rd a.tour (rd a.pos k3 + 1)) + P.dist k1 k3
        + P.dist (rd a.tour (rd a.pos k1 + 1)) (rd a.tour (rd a.pos k3 + 1)) := by
  obtain ⟨w, L, hw, hL1, hLn, c1, _, _, c4, c5⟩ := reverse_part_spec hv hk1 hk3 hlt
  rw [cycCost_eq_cycL P c1 hw, cycCost_eq_cycL P hv hw, c4.segF_eq hw (by omega)]
  have hsplit : segF n a.tour w n = segF n a.tour w L ++ segF n a.tour (cidx n w L) (n - L) := by
    have := segF_add a.tour hw (show L + (n - L) ≤ n by omega)
    rwa [show L + (n - L) = n by omega] at this
  have hA : segF n a.tour w L ≠ [] := segF_ne_nil hL1
  have hC : segF n a.tour (cidx n w L) (n - L) ≠ [] := segF_ne_nil (by omega)
  have hwL : cidx n w L < n := cidx_lt hw (by omega)
  rw [hsplit, cycL_reverse_window hsym hA hC, headD_segF _ hw hL1, headD_segF _ hwL (by omega),
    getLastD_segF _ _ hL1, getLastD_segF _ _ (show 1 ≤ n - L by omega),
    cidx_cidx hw (by omega), show L + (n - L - 1) = n - 1 by omega]
  rcases c5 with ⟨e1, e2, e3, e4⟩ | ⟨e1, e2, e3, e4⟩
  · rw [e1, e2, e3, e4]
    ring
  · rw [e1, e2, e3, e4]
    rw [hsym k3 k1, hsym (rd a.tour (rd a.pos k3 + 1)) (rd a.tour (rd a.pos k1 + 1))]
    ring

/-- For a symmetric distance matrix the 2-opt exchange changes the cyclic
cost by the length of the two new edges minus that of the two removed ones. -/
theorem exchange2opt_cost (P : TspProblem) (hsym : ∀ i j, P.dist i j = P.dist j i) {n : Nat}
    {a : Arrays} (hv : Valid n a) {h1 h3 : Nat} (hh1 : h1 < n) (hh3 : h3 < n) (hne : h1 ≠ h3) :
    cycCost P n (exchange2opt n a h1 (rd a.tour (rd a.pos h1 + 1)) h3
        (rd a.tour (rd a.pos h3 + 1))).tour =
      cycCost P n a.tour - P.dist h1 (rd a.tour (rd a.pos h1 + 1))
        - P.dist h3 (rd a.tour (rd a.pos h3 + 1)) + P.dist h1 h3
        + P.dist (rd a.tour (rd a.pos h1 + 1)) (rd a.tour (rd a.pos h3 + 1)) := by
  unfold exchange2opt
  by_cases hlt : rd a.pos h3 < rd a.pos h1
  · rw [if_pos hlt, reverse_part_cost P hsym hv hh3 hh1 hlt, hsym h3 h1,
      hsym (rd a.tour (rd a.pos h3 + 1)) (rd a.tour (rd a.pos h1 + 1))]
    ring
  · rw [if_neg hlt]
    have hlt2 : rd a.pos h1 < rd a.pos h3 := by
      have : rd a.pos h1 ≠ rd a.pos h3 := fun e => hne (hv.pos_inj hh1 hh3 e)
      omega
    exact reverse_part_cost P hsym hv hh1 hh3 hlt2

/-! ## two_opt_first: every accepted move is a proper 2-opt exchange -/

theorem mem_candidates {n h : Nat} (hh : h ∈ candidates n) : h < n - 1 ∧ h < nn_ls := by
  simp [candidates] at hh; omega

theorem search_succ_ok {P : TspProblem} {n : Nat} {a : Arrays} (_hv : Valid n a)
    (hP : WFP n P)
    {c1 : Nat} (hc1 : c1 < n) :
    ∀ (hs : List Nat) (m : Move2), (∀ h ∈ hs, h < n - 1) →
      search_succ P a c1 (rd a.tour (rd a.pos c1 + 1))
        (P.dist c1 (rd a.tour (rd a.pos c1 + 1))) hs = some m →
      Move2.Ok P n a m := by
  intro hs
  induction hs with
  | nil => intro m _ h; simp [search_succ] at h
  | cons h hs ih =>
    intro m hall hm
    have hh := hall h (by simp)
    obtain ⟨hlt, hne⟩ := hP c1 hc1 h hh
    simp only [search_succ] at hm
    split_ifs at hm with hr hg
    · cases hm
      exact ⟨hc1, hlt, fun e => hne e.symm, rfl, rfl, hg, by ring⟩
    · exact ih m (fun x hx => hall x (by simp [hx])) hm

theorem Valid.pos_pred {n : Nat} {a : Arrays} (hv : Valid n a) {c : Nat} (hc : c < n) :
    predAt n a.tour (rd a.pos c) < n ∧
    rd a.pos (predAt n a.tour (rd a.pos c)) = cidxb n (rd a.pos c) 1 ∧
    rd a.tour (rd a.pos (predAt n a.tour (rd a.pos c)) + 1) = c := by
  have hp := hv.pos_lt hc
  have ht := hv.tour_pos hc
  unfold predAt
  by_cases h0 : rd a.pos c > 0
  · rw [if_pos h0]
    have e := hv.pos_tour (rd a.pos c - 1) (by omega)
    refine ⟨hv.tour_lt _ (by omega), ?_, ?_⟩
    · rw [e]; unfold cidxb; split_ifs <;> omega
    · rw [e, show rd a.pos c - 1 + 1 = rd a.pos c by omega, ht]
  · rw [if_neg h0]
    have e := hv.pos_tour (n - 1) (by omega)
    refine ⟨hv.tour_lt _ (by omega), ?_, ?_⟩
    · rw [e]; unfold cidxb; split_ifs <;> omega
    · rw [e, show n - 1 + 1 = n by omega, hv.sentinel]
      have : rd a.pos c = 0 := by omega
      rw [← this, ht]

theorem search_pred_ok {P : TspProblem} {n : Nat} {a : Arrays} (hv : Valid n a) (hP : WFP n P)
    {c1 : Nat} (hc1 : c1 < n) :
    ∀ (hs : List Nat) (m : Move2), (∀ h ∈ hs, h < n - 1) →
      search_pred P n a c1 (predAt n a.tour (rd a.pos c1))
        (P.dist (predAt n a.tour (rd a.pos c1)) c1) hs = some m →
      Move2.Ok P n a m := by
  intro hs
  induction hs with
  | nil => intro m _ h; simp [search_pred] at h
  | cons h hs ih =>
    intro m hall hm
    have hh := hall h (by simp)
    obtain ⟨hlt, hne⟩ := hP c1 hc1 h hh
    have hrec := ih m (fun x hx => hall x (by simp [hx]))
    simp only [search_pred] at hm
    split_ifs at hm with hr hpc hpc2 hg
    · exact hrec hm
    · exact hrec hm
    · cases hm
      obtain ⟨q1, q2, q3⟩ := hv.pos_pred hc1
      obtain ⟨r1, r2, r3⟩ := hv.pos_pred hlt
      refine ⟨q1, r1, ?_, q3.symm, r3.symm, hg, by ring⟩
      intro e
      have e2 : predAt n a.tour (rd a.pos c1) = predAt n a.tour (rd a.pos (P.nn c1 h)) := e
      apply hne
      calc P.nn c1 h = rd a.tour (rd a.pos (predAt n a.tour (rd a.pos (P.nn c1 h))) + 1) :=
            r3.symm
        _ = rd a.tour (rd a.pos (predAt n a.tour (rd a.pos c1)) + 1) := by rw [e2]
        _ = c1 := q3
    · exact hrec hm

theorem find_move2_ok {P : TspProblem} {n : Nat} {a : Arrays} (hv : Valid n a) (hP : WFP n P)
    {c1 : Nat} (hc1 : c1 < n) {m : Move2} (hm : find_move2 P n a c1 = some m) :
    Move2.Ok P n a m := by
  unfold find_move2 at hm
  simp only at hm
  split at hm
  · cases hm
    exact search_succ_ok hv hP hc1 _ _ (fun h hh => (mem_candidates hh).1) (by assumption)
  · exact search_pred_ok hv hP hc1 _ _ (fun h hh => (mem_candidates hh).1) hm

theorem Move2.Ok.valid_after {P : TspProblem} {n : Nat} {a : Arrays} {m : Move2}
    (hm : Move2.Ok P n a m) (hv : Valid n a) :
    Valid n (exchange2opt n a m.h1 m.h2 m.h3 m.h4) ∧
    (exchange2opt n a m.h1 m.h2 m.h3 m.h4).h_tour = a.h_tour ∧
    (exchange2opt n a m.h1 m.h2 m.h3 m.h4).hh_tour = a.hh_tour := by
  rw [hm.h2_eq, hm.h4_eq]
  exact exchange2opt_valid hv hm.h1_lt hm.h3_lt hm.ne

theorem Move2.Ok.cost_after {P : TspProblem} {n : Nat} {a : Arrays} {m : Move2}
    (hm : Move2.Ok P n a m) (hv : Valid n a) (hsym : ∀ i j, P.dist i j = P.dist j i) :
    cycCost P n (exchange2opt n a m.h1 m.h2 m.h3 m.h4).tour = cycCost P n a.tour + m.gain := by
  rw [hm.gain_eq]
  have := exchange2opt_cost P hsym hv hm.h1_lt hm.h3_lt hm.ne
  rw [← hm.h2_eq, ← hm.h4_eq] at this
  rw [this]; ring

/-! ## two_opt_first: invariants of a point, a sweep and the loop -/

theorem Rel.refl (P : TspProblem) (n : Nat) (s : State) : Rel P n s s := by
  constructor
  · exact le_refl _
  · simp

theorem Rel.trans {P : TspProblem} {n : Nat} {s1 s2 s3 : State} (h1 : Rel P n s1 s2)
    (h2 : Rel P n s2 s3) : Rel P n s1 s3 := by
  constructor
  · exact le_trans h1.1 h2.1
  · have a := h1.2
    have b := h2.2
    have e : EPS * ((s3.n_exchanges : ℚ) - (s1.n_exchanges : ℚ)) =
        EPS * ((s3.n_exchanges : ℚ) - (s2.n_exchanges : ℚ)) +
        EPS * ((s2.n_exchanges : ℚ) - (s1.n_exchanges : ℚ)) := by ring
    rw [e]; linarith

theorem EPS_pos : 0 < EPS := by unfold EPS; norm_num

theorem two_opt_point_valid {P : TspProblem} {n : Nat} {rv : List Nat} {s : State} {l : Nat}
    (hv : Valid n s.arr) (hP : WFP n P) (hl : rd rv l < n) :
    Valid n (two_opt_point P n rv s l).arr := by
  unfold two_opt_point
  simp only
  split_ifs
  · exact hv
  · split
    · next m hm => exact ((find_move2_ok hv hP hl hm).valid_after hv).1
    · exact hv

theorem two_opt_point_rel {P : TspProblem} {n : Nat} {rv : List Nat} {s : State} {l : Nat}
    (hv : Valid n s.arr) (hP : WFP n P) (hsym : ∀ i j, P.dist i j = P.dist j i)
    (hl : rd rv l < n) :
    Rel P n s (two_opt_point P n rv s l) := by
  unfold two_opt_point
  simp only
  split_ifs
  · exact Rel.refl P n s
  · split
    · next m hm =>
      have hok := find_move2_ok hv hP hl hm
      have hc := hok.cost_after hv hsym
      have hg := hok.gain_lt
      constructor
      · simp [apply_move2]
      · simp only [apply_move2]
        rw [hc]
        push_cast
        have : EPS * ((s.n_exchanges : ℚ) + 1 - (s.n_exchanges : ℚ)) = EPS := by ring
        rw [this]; linarith
    · exact Rel.refl P n _

theorem two_opt_point_flag {P : TspProblem} {n : Nat} {rv : List Nat} {s : State} {l : Nat} :
    ((two_opt_point P n rv s l).improvement_flag = true ↔
      s.improvement_flag = true ∨ s.n_exchanges < (two_opt_point P n rv s l).n_exchanges) ∧
    s.n_exchanges ≤ (two_opt_point P n rv s l).n_exchanges := by
  unfold two_opt_point
  simp only
  split_ifs
  · simp
  · split
    · simp [apply_move2]
    · simp

/-- What a sweep of `two_opt_first` establishes, for arbitrary distances. -/
theorem two_opt_sweep_valid {P : TspProblem} {n : Nat} {rv : List Nat} (hP : WFP n P)
    (hrv : ∀ l, l < n → rd rv l < n) {s : State} (hv : Valid n s.arr) :
    Valid n (two_opt_sweep P n rv s).arr ∧
    ((two_opt_sweep P n rv s).improvement_flag = true ↔
      s.n_exchanges < (two_opt_sweep P n rv s).n_exchanges) ∧
    s.n_exchanges ≤ (two_opt_sweep P n rv s).n_exchanges := by
  unfold two_opt_sweep
  have key : ∀ (ls : List Nat) (s1 : State), (∀ l ∈ ls, l < n) → Valid n s1.arr →
      (s1.improvement_flag = true ↔ s.n_exchanges < s1.n_exchanges) →
      s.n_exchanges ≤ s1.n_exchanges →
      Valid n (ls.foldl (two_opt_point P n rv) s1).arr ∧
      ((ls.foldl (two_opt_point P n rv) s1).improvement_flag = true ↔
        s.n_exchanges < (ls.foldl (two_opt_point P n rv) s1).n_exchanges) ∧
      s.n_exchanges ≤ (ls.foldl (two_opt_point P n rv) s1).n_exchanges := by
    intro ls
    induction ls with
    | nil => intro s1 _ h1 h2 h3; exact ⟨h1, h2, h3⟩
    | cons l ls ih =>
      intro s1 hall h1 h2 h3
      simp only [List.foldl_cons]
      have hl := hrv l (hall l (by simp))
      obtain ⟨f1, f2⟩ := @two_opt_point_flag P n rv s1 l
      refine ih _ (fun x hx => hall x (by simp [hx])) (two_opt_point_valid h1 hP hl) ?_ ?_
      · rw [f1, h2]; omega
      · omega
  exact key (List.range n) _ (fun l hl => by simpa using hl) hv (by simp) (le_refl _)

/-- What a sweep of `two_opt_first` establishes for a symmetric matrix. -/
theorem two_opt_sweep_rel {P : TspProblem} {n : Nat} {rv : List Nat} (hP : WFP n P)
    (hsym : ∀ i j, P.dist i j = P.dist j i)
    (hrv : ∀ l, l < n → rd rv l < n) {s : State} (hv : Valid n s.arr) :
    Rel P n s (two_opt_sweep P n rv s) := by
  unfold two_opt_sweep
  have key : ∀ (ls : List Nat) (s1 : State), (∀ l ∈ ls, l < n) → Valid n s1.arr →
      Rel P n s s1 → Rel P n s (ls.foldl (two_opt_point P n rv) s1) := by
    intro ls
    induction ls with
    | nil => intro s1 _ _ h2; exact h2
    | cons l ls ih =>
      intro s1 hall h1 h2
      simp only [List.foldl_cons]
      have hl := hrv l (hall l (by simp))
      exact ih _ (fun x hx => hall x (by simp [hx])) (two_opt_point_valid h1 hP hl)
        (h2.trans (two_opt_point_rel h1 hP hsym hl))
  exact key (List.range n) _ (fun l hl => by simpa using hl) hv ⟨le_refl _, by simp⟩

theorem two_opt_loop_valid {P : TspProblem} {n : Nat} {rv : List Nat} (hP : WFP n P)
    (hrv : ∀ l, l < n → rd rv l < n) :
    ∀ (fuel : Nat) (s s' : State), Valid n s.arr → two_opt_loop P n rv fuel s = .ok s' →
      Valid n s'.arr := by
  intro fuel
  induction fuel with
  | zero => intro s s' _ h; simp [two_opt_loop] at h
  | succ f ih =>
    intro s s' hv h
    simp only [two_opt_loop] at h
    split_ifs at h
    · exact ih _ _ (two_opt_sweep_valid hP hrv hv).1 h
    · cases h; exact hv

theorem two_opt_loop_rel {P : TspProblem} {n : Nat} {rv : List Nat} (hP : WFP n P)
    (hsym : ∀ i j, P.dist i j = P.dist j i) (hrv : ∀ l, l < n → rd rv l < n) :
    ∀ (fuel : Nat) (s s' : State), Valid n s.arr → two_opt_loop P n rv fuel s = .ok s' →
      Rel P n s s' := by
  intro fuel
  induction fuel with
  | zero => intro s s' _ h; simp [two_opt_loop] at h
  | succ f ih =>
    intro s s' hv h
    simp only [two_opt_loop] at h
    split_ifs at h
    · exact (two_opt_sweep_rel hP hsym hrv hv).trans
        (ih _ _ (two_opt_sweep_valid hP hrv hv).1 h)
    · cases h; exact Rel.refl P n _

theorem two_opt_loop_mono {P : TspProblem} {n : Nat} {rv : List Nat} :
    ∀ (fuel : Nat) (s s' : State), two_opt_loop P n rv fuel s = .ok s' →
      ∀ k, two_opt_loop P n rv (fuel + k) s = .ok s' := by
  intro fuel
  induction fuel with
  | zero => intro s s' h; simp [two_opt_loop] at h
  | succ f ih =>
    intro s s' h k
    rw [show f + 1 + k = (f + k) + 1 by omega]
    simp only [two_opt_loop] at h ⊢
    split_ifs at h ⊢
    · exact ih _ _ h k
    · exact h

theorem two_opt_loop_succ (P : TspProblem) (n : Nat) (rv : List Nat) (f : Nat) (s : State) :
    two_opt_loop P n rv (f + 1) s =
      if s.improvement_flag then two_opt_loop P n rv f (two_opt_sweep P n rv s) else .ok s :=
  rfl

/-- The loop of `two_opt_first` ends when the cost of every valid tour is
bounded below: `K + 2` evaluations of the loop condition suffice when the
cost exceeds the bound by less than `(K + 1) * EPS`. -/
theorem two_opt_loop_terminates {P : TspProblem} {n : Nat} {rv : List Nat} (hP : WFP n P)
    (hsym : ∀ i j, P.dist i j = P.dist j i) (hrv : ∀ l, l < n → rd rv l < n) {LB : ℚ}
    (hLB : ∀ a, Valid n a → LB ≤ cycCost P n a.tour) :
    ∀ (K : Nat) (s : State), Valid n s.arr → cycCost P n s.arr.tour - LB < (K + 1) * EPS →
      ∃ s', two_opt_loop P n rv (K + 2) s = .ok s' := by
  have step : ∀ s : State, Valid n s.arr →
      (two_opt_sweep P n rv s).improvement_flag = true →
      cycCost P n (two_opt_sweep P n rv s).arr.tour + EPS ≤ cycCost P n s.arr.tour := by
    intro s hv h2
    obtain ⟨v1, v2, v3⟩ := two_opt_sweep_valid hP hrv hv
    have r := two_opt_sweep_rel hP hsym hrv hv
    have hlt := v2.1 h2
    have r2 := r.2
    have hq : (1 : ℚ) ≤ ((two_opt_sweep P n rv s).n_exchanges : ℚ) - (s.n_exchanges : ℚ) := by
      have : (s.n_exchanges : ℚ) + 1 ≤ ((two_opt_sweep P n rv s).n_exchanges : ℚ) := by
        exact_mod_cast hlt
      linarith
    have := mul_le_mul_of_nonneg_left hq (le_of_lt EPS_pos)
    linarith
  intro K
  induction K with
  | zero =>
    intro s hv hc
    rw [show 0 + 2 = 1 + 1 by rfl, two_opt_loop_succ]
    split_ifs with h1
    · rw [two_opt_loop_succ]
      split_ifs with h2
      · exfalso
        have := step s hv h2
        have hb := hLB _ (two_opt_sweep_valid hP hrv hv).1
        have e := EPS_pos
        simp at hc
        linarith
      · exact ⟨_, rfl⟩
    · exact ⟨_, rfl⟩
  | succ K ih =>
    intro s hv hc
    rw [show K + 1 + 2 = (K + 2) + 1 by omega, two_opt_loop_succ]
    split_ifs with h1
    · have v1 := (two_opt_sweep_valid hP hrv hv).1
      by_cases h2 : (two_opt_sweep P n rv s).improvement_flag = true
      · apply ih _ v1
        have := step s hv h2
        push_cast at hc
        linarith
      · refine ⟨two_opt_sweep P n rv s, ?_⟩
        rw [show K + 2 = (K + 1) + 1 by omega, two_opt_loop_succ, if_neg h2]
    · exact ⟨_, rfl⟩

/-! ## Sequences of paired writes `tour[j] = x; pos[x] = j;` -/

theorem applyWrites_append (a : Arrays) (u v : List (Nat × Nat)) :
    applyWrites a (u ++ v) = applyWrites (applyWrites a u) v := by
  induction u generalizing a with
  | nil => rfl
  | cons w ws ih => simp only [List.cons_append, applyWrites]; exact ih _

theorem applyWrites_bufs (a : Arrays) (u : List (Nat × Nat)) :
    (applyWrites a u).h_tour = a.h_tour ∧ (applyWrites a u).hh_tour = a.hh_tour ∧
    (applyWrites a u).tour.length = a.tour.length ∧
    (applyWrites a u).pos.length = a.pos.length := by
  induction u generalizing a with
  | nil => exact ⟨rfl, rfl, rfl, rfl⟩
  | cons w ws ih =>
    simp only [applyWrites]
    obtain ⟨h1, h2, h3, h4⟩ := ih { a with tour := wr a.tour w.1 w.2, pos := wr a.pos w.2 w.1 }
    exact ⟨h1, h2, by simpa using h3, by simpa using h4⟩

theorem applyWrites_tour_other (a : Arrays) (u : List (Nat × Nat)) (j : Nat)
    (hj : ∀ p ∈ u, p.1 ≠ j) : rd (applyWrites a u).tour j = rd a.tour j := by
  induction u generalizing a with
  | nil => rfl
  | cons w ws ih =>
    simp only [applyWrites]
    rw [ih _ (fun p hp => hj p (by simp [hp]))]
    exact rd_wr_ne _ (hj w (by simp))

theorem applyWrites_pos_other (a : Arrays) (u : List (Nat × Nat)) (x : Nat)
    (hx : ∀ p ∈ u, p.2 ≠ x) : rd (applyWrites a u).pos x = rd a.pos x := by
  induction u generalizing a with
  | nil => rfl
  | cons w ws ih =>
    simp only [applyWrites]
    rw [ih _ (fun p hp => hx p (by simp [hp]))]
    exact rd_wr_ne _ (hx w (by simp))

theorem applyWrites_mem (a : Arrays) (u : List (Nat × Nat))
    (h1 : (u.map Prod.fst).Nodup) (h2 : (u.map Prod.snd).Nodup)
    (hb1 : ∀ p ∈ u, p.1 < a.tour.length) (hb2 : ∀ p ∈ u, p.2 < a.pos.length) :
    ∀ p ∈ u, rd (applyWrites a u).tour p.1 = p.2 ∧ rd (applyWrites a u).pos p.2 = p.1 := by
  induction u generalizing a with
  | nil => intro p hp; simp at hp
  | cons w ws ih =>
    intro p hp
    simp only [applyWrites]
    simp only [List.map_cons, List.nodup_cons, List.mem_map, not_exists, not_and] at h1 h2
    rcases List.mem_cons.1 hp with e | hmem
    · subst e
      rw [applyWrites_tour_other _ ws p.1 (fun q hq e => h1.1 q hq e),
        applyWrites_pos_other _ ws p.2 (fun q hq e => h2.1 q hq e)]
      exact ⟨rd_wr_same _ (hb1 p (by simp)), rd_wr_same _ (hb2 p (by simp))⟩
    · exact ih _ h1.2 h2.2 (fun q hq => by simpa using hb1 q (by simp [hq]))
        (fun q hq => by simpa using hb2 q (by simp [hq])) p hmem

theorem writesAt_append (n : Nat) (j : Nat) (hj : j < n) (X Y : List Nat) (hX : X.length ≤ n) :
    writesAt n j (X ++ Y) = writesAt n j X ++ writesAt n (cidx n j X.length) Y := by
  induction X generalizing j with
  | nil => simp [writesAt, cidx_zero hj]
  | cons x xs ih =>
    have hj1 : incw n j < n := by rw [incw_eq_cidx hj]; exact cidx_lt hj (by omega)
    have hl : xs.length + 1 ≤ n := by simpa using hX
    show (j, x) :: writesAt n (incw n j) (xs ++ Y) =
      (j, x) :: writesAt n (incw n j) xs ++ writesAt n (cidx n j (xs.length + 1)) Y
    rw [ih (incw n j) hj1 (by omega), incw_eq_cidx hj, cidx_cidx hj (by omega),
      Nat.add_comm 1]
    rfl

theorem mem_writesAt {n : Nat} {j : Nat} (hj : j < n) {X : List Nat} (hX : X.length ≤ n)
    {p : Nat × Nat} :
    p ∈ writesAt n j X ↔ ∃ k, ∃ hk : k < X.length, p = (cidx n j k, X[k]) := by
  induction X generalizing j with
  | nil => simp [writesAt]
  | cons x xs ih =>
    have hj1 : incw n j < n := by rw [incw_eq_cidx hj]; exact cidx_lt hj (by omega)
    simp only [writesAt, List.mem_cons, ih hj1 (by simp at hX; omega), List.length_cons]
    constructor
    · rintro (e | ⟨k, hk, e⟩)
      · exact ⟨0, by omega, by simp [e, cidx_zero hj]⟩
      · refine ⟨k + 1, by omega, ?_⟩
        rw [e, incw_eq_cidx hj, cidx_cidx hj (by simp at hX; omega), Nat.add_comm 1]
        simp
    · rintro ⟨k, hk, e⟩
      cases k with
      | zero => left; simp [e, cidx_zero hj]
      | succ k =>
        right
        refine ⟨k, by omega, ?_⟩
        rw [e, incw_eq_cidx hj, cidx_cidx hj (by simp at hX; omega), Nat.add_comm 1]
        simp

theorem map_fst_writesAt {n : Nat} {j : Nat} (hj : j < n) {X : List Nat} (hX : X.length ≤ n) :
    (writesAt n j X).map Prod.fst = (List.range X.length).map (cidx n j) := by
  induction X generalizing j with
  | nil => simp [writesAt]
  | cons x xs ih =>
    have hj1 : incw n j < n := by rw [incw_eq_cidx hj]; exact cidx_lt hj (by omega)
    simp only [writesAt, List.map_cons, ih hj1 (by simp at hX; omega), List.length_cons,
      List.range_succ_eq_map, List.map_map]
    congr 1
    · exact (cidx_zero hj).symm
    · apply List.map_congr_left
      intro k hk
      have hk' : k < xs.length := by simpa using hk
      simp only [Function.comp]
      rw [incw_eq_cidx hj, cidx_cidx hj (by simp at hX; omega), Nat.add_comm 1]

theorem map_snd_writesAt (n : Nat) (j : Nat) (X : List Nat) :
    (writesAt n j X).map Prod.snd = X := by
  induction X generalizing j with
  | nil => simp [writesAt]
  | cons x xs ih => simp [writesAt, ih]

theorem nodup_cidx_range {n j m : Nat} (hj : j < n) (hm : m ≤ n) :
    ((List.range m).map (cidx n j)).Nodup := by
  refine (List.nodup_map_iff_inj_on (List.nodup_range m)).2 ?_
  intro x hx y hy e
  exact (cidx_eq_iff hj (by simp at hx; omega) (by simp at hy; omega)).1 e

theorem nodup_segF {n : Nat} {a : Arrays} (hv : Valid n a) {w m : Nat} (hw : w < n)
    (hm : m ≤ n) : (segF n a.tour w m).Nodup := by
  unfold segF
  refine (List.nodup_map_iff_inj_on (List.nodup_range m)).2 ?_
  intro x hx y hy e
  have hx' : x < n := by simp at hx; omega
  have hy' : y < n := by simp at hy; omega
  exact (cidx_eq_iff hw hx' hy').1
    (hv.tour_inj (cidx_lt hw (by omega)) (cidx_lt hw (by omega)) e)

theorem mem_segF {n : Nat} {t : List Nat} {w m x : Nat} :
    x ∈ segF n t w m ↔ ∃ k, k < m ∧ rd t (cidx n w k) = x := by
  simp [segF]

/-- Writing a rearrangement `X` of the cities of a window back into that
window, followed by `tour[n] = tour[0]`, keeps the arrays valid; read from
the start of the window the new cycle is `X` followed by the untouched rest. -/
theorem window_write {n : Nat} {a : Arrays} (hv : Valid n a) {w : Nat} (hw : w < n)
    (X : List Nat) (hlen : X.length ≤ n) (hperm : X.Perm (segF n a.tour w X.length)) :
    Valid n (refresh n (applyWrites a (writesAt n w X))) ∧
    segF n (refresh n (applyWrites a (writesAt n w X))).tour w n =
      X ++ segF n a.tour (cidx n w X.length) (n - X.length) ∧
    (refresh n (applyWrites a (writesAt n w X))).h_tour = a.h_tour ∧
    (refresh n (applyWrites a (writesAt n w X))).hh_tour = a.hh_tour := by
  have hnd1 : ((writesAt n w X).map Prod.fst).Nodup := by
    rw [map_fst_writesAt hw hlen]; exact nodup_cidx_range hw hlen
  have hnd2 : ((writesAt n w X).map Prod.snd).Nodup := by
    rw [map_snd_writesAt]; exact hperm.nodup_iff.2 (nodup_segF hv hw hlen)
  have hXmem : ∀ x ∈ X, ∃ k, k < X.length ∧ rd a.tour (cidx n w k) = x := fun x hx =>
    mem_segF.1 (hperm.mem_iff.1 hx)
  have hXlt : ∀ x ∈ X, x < n := by
    intro x hx
    obtain ⟨k, hk, e⟩ := hXmem x hx
    rw [← e]; exact hv.tour_lt _ (cidx_lt hw (by omega))
  have hb1 : ∀ p ∈ writesAt n w X, p.1 < a.tour.length := by
    intro p hp
    obtain ⟨k, hk, e⟩ := (mem_writesAt hw hlen).1 hp
    rw [e, hv.tour_len]
    have := cidx_lt hw (show k ≤ n by omega)
    show cidx n w k < n + 1
    omega
  have hb2 : ∀ p ∈ writesAt n w X, p.2 < a.pos.length := by
    intro p hp
    obtain ⟨k, hk, e⟩ := (mem_writesAt hw hlen).1 hp
    rw [e, hv.pos_len]
    exact hXlt _ (List.getElem_mem _)
  have hmem := applyWrites_mem a _ hnd1 hnd2 hb1 hb2
  obtain ⟨k1, k2, k3, k4⟩ := applyWrites_bufs a (writesAt n w X)
  -- pointwise description of the arrays after the writes
  have htin : ∀ k (hk : k < X.length),
      rd (applyWrites a (writesAt n w X)).tour (cidx n w k) = X[k] ∧
      rd (applyWrites a (writesAt n w X)).pos X[k] = cidx n w k := fun k hk =>
    hmem (cidx n w k, X[k]) ((mem_writesAt hw hlen).2 ⟨k, hk, rfl⟩)
  have htout : ∀ k, X.length ≤ k → k < n →
      rd (applyWrites a (writesAt n w X)).tour (cidx n w k) = rd a.tour (cidx n w k) := by
    intro k hk1 hk2
    apply applyWrites_tour_other
    intro p hp e
    obtain ⟨k', hk', e'⟩ := (mem_writesAt hw hlen).1 hp
    rw [e'] at e
    have := (cidx_eq_iff hw (by omega) hk2).1 e
    omega
  have hpout : ∀ x, x ∉ X →
      rd (applyWrites a (writesAt n w X)).pos x = rd a.pos x := by
    intro x hx
    apply applyWrites_pos_other
    intro p hp e
    obtain ⟨k', hk', e'⟩ := (mem_writesAt hw hlen).1 hp
    rw [e'] at e
    exact hx (e ▸ List.getElem_mem _)
  have hcore : Core n (applyWrites a (writesAt n w X)) := by
    refine ⟨by rw [k3, hv.tour_len], by rw [k4, hv.pos_len], ?_, ?_⟩
    · intro i hi
      obtain ⟨k, hk, e⟩ := exists_cidx hw hi
      rw [← e]
      by_cases hkX : k < X.length
      · rw [(htin k hkX).1]; exact hXlt _ (List.getElem_mem _)
      · rw [htout k (by omega) hk]; exact hv.tour_lt _ (cidx_lt hw (by omega))
    · intro i hi
      obtain ⟨k, hk, e⟩ := exists_cidx hw hi
      rw [← e]
      by_cases hkX : k < X.length
      · rw [(htin k hkX).1]; exact (htin k hkX).2
      · rw [htout k (by omega) hk, hpout]
        · exact hv.pos_tour _ (cidx_lt hw (by omega))
        · intro hx
          obtain ⟨k', hk', e'⟩ := hXmem _ hx
          have := hv.tour_inj (cidx_lt hw (by omega)) (cidx_lt hw (by omega)) e'
          have := (cidx_eq_iff hw (by omega) hk).1 this
          omega
  have hn : 0 < n := by omega
  refine ⟨core_refresh hcore hn, ?_, k1, k2⟩
  apply List.ext_getElem
  · simp; omega
  · intro k h1 h2
    have hk : k < n := by simpa using h1
    rw [getElem_segF]
    show rd (wr _ n _) (cidx n w k) = _
    have hlt := cidx_lt hw (show k ≤ n by omega)
    rw [rd_wr_ne _ (by omega)]
    by_cases hkX : k < X.length
    · rw [(htin k hkX).1, List.getElem_append_left hkX]
    · rw [htout k (by omega) hk, List.getElem_append_right (by omega), getElem_segF,
        cidx_cidx hw (by omega)]
      congr 2; omega

/-! ## The rewriting primitives as sequences of paired writes -/

theorem cidxb_zero {n j : Nat} (_hj : j < n) : cidxb n j 0 = j := by
  unfold cidxb; split_ifs <;> omega

theorem cidxb_eq_iff {n j a b : Nat} (_hj : j < n) (ha : a < n) (hb : b < n) :
    cidxb n j a = cidxb n j b ↔ a = b := by
  unfold cidxb; split_ifs <;> omega

theorem decw_cidxb {n j a : Nat} (hj : j < n) (ha : a < n) :
    decw n (cidxb n j a) = cidxb n j (a + 1) := by
  unfold cidxb decw; split_ifs <;> omega

theorem cdir_zero {n : Nat} (fwd : Bool) {b : Nat} (hb : b < n) : cdir n fwd b 0 = b := by
  unfold cdir; split_ifs
  · exact cidx_zero hb
  · exact cidxb_zero hb

theorem cdir_step {n : Nat} (fwd : Bool) {b k : Nat} (hb : b < n) (hk : k < n) :
    (if fwd then incw n (cdir n fwd b k) else decw n (cdir n fwd b k)) = cdir n fwd b (k + 1) := by
  unfold cdir
  cases fwd
  · simp only [Bool.false_eq_true, if_false]; exact decw_cidxb hb hk
  · simp only [if_true]; exact incw_cidx hb hk

theorem cdir_eq_iff {n : Nat} (fwd : Bool) {j a b : Nat} (hj : j < n) (ha : a < n)
    (hb : b < n) : cdir n fwd j a = cdir n fwd j b ↔ a = b := by
  unfold cdir; split_ifs
  · exact cidx_eq_iff hj ha hb
  · exact cidxb_eq_iff hj ha hb

theorem copy_loop_spec {n : Nat} (fwd : Bool) (tour : List Nat) {b len : Nat} (hb : b < n)
    (hlen : len ≤ n) :
    ∀ (fuel : Nat) (buf : List Nat) (i : Nat), i + 1 ≤ len → len ≤ fuel + i + 1 →
      len ≤ buf.length →
      (copy_loop n fwd tour (cdir n fwd b (len - 1)) fuel buf i (cdir n fwd b i) (i + 1)).2 = len ∧
      (copy_loop n fwd tour (cdir n fwd b (len - 1)) fuel buf i (cdir n fwd b i) (i + 1)).1.length
        = buf.length ∧
      (∀ k, k ≤ i → rd (copy_loop n fwd tour (cdir n fwd b (len - 1)) fuel buf i
        (cdir n fwd b i) (i + 1)).1 k = rd buf k) ∧
      (∀ k, i < k → k < len → rd (copy_loop n fwd tour (cdir n fwd b (len - 1)) fuel buf i
        (cdir n fwd b i) (i + 1)).1 k = rd tour (cdir n fwd b k)) := by
  intro fuel
  induction fuel with
  | zero =>
    intro buf i h1 h2 h3
    have e : copy_loop n fwd tour (cdir n fwd b (len - 1)) 0 buf i (cdir n fwd b i) (i + 1)
        = (buf, i + 1) := rfl
    rw [e]
    exact ⟨by omega, rfl, fun _ _ => rfl, fun k hk1 hk2 => by omega⟩
  | succ f ih =>
    intro buf i h1 h2 h3
    by_cases hst : cdir n fwd b i = cdir n fwd b (len - 1)
    · have := (cdir_eq_iff fwd hb (by omega) (by omega)).1 hst
      have e : copy_loop n fwd tour (cdir n fwd b (len - 1)) (f + 1) buf i (cdir n fwd b i)
          (i + 1) = (buf, i + 1) := by
        simp [copy_loop, hst]
      rw [e]
      exact ⟨by omega, rfl, fun _ _ => rfl, fun k hk1 hk2 => by omega⟩
    · have hne : i ≠ len - 1 := fun e => hst (by rw [e])
      have e : copy_loop n fwd tour (cdir n fwd b (len - 1)) (f + 1) buf i (cdir n fwd b i)
          (i + 1) = copy_loop n fwd tour (cdir n fwd b (len - 1)) f
            (wr buf (i + 1) (rd tour (cdir n fwd b (i + 1)))) (i + 1) (cdir n fwd b (i + 1))
            (i + 1 + 1) := by
        simp only [copy_loop, ne_eq, hst, not_false_eq_true, if_true]
        rw [cdir_step fwd hb (by omega)]
      rw [e]
      obtain ⟨c1, c2, c3, c4⟩ := ih (wr buf (i + 1) (rd tour (cdir n fwd b (i + 1)))) (i + 1)
        (by omega) (by omega) (by simpa using h3)
      refine ⟨c1, by rw [c2]; simp, ?_, ?_⟩
      · intro k hk
        rw [c3 k (by omega), rd_wr_ne _ (by omega)]
      · intro k hk1 hk2
        by_cases hk : k = i + 1
        · subst hk
          rw [c3 _ (le_refl _), rd_wr_same _ (by omega)]
        · exact c4 k (by omega) hk2

theorem copy_segment_spec {n : Nat} (fwd : Bool) (tour buf : List Nat) {b len : Nat} (hb : b < n)
    (hlen1 : 1 ≤ len) (hlen : len ≤ n) (hbuf : len ≤ buf.length) :
    (copy_segment n fwd tour buf b (cdir n fwd b (len - 1))).2 = len ∧
    (copy_segment n fwd tour buf b (cdir n fwd b (len - 1))).1.length = buf.length ∧
    (List.range len).map (rd (copy_segment n fwd tour buf b (cdir n fwd b (len - 1))).1) =
      segD n fwd tour b len := by
  unfold copy_segment
  have h0 := copy_loop_spec fwd tour hb hlen n (wr buf 0 (rd tour b)) 0 hlen1 (by omega)
    (by simpa using hbuf)
  rw [cdir_zero fwd hb] at h0
  obtain ⟨c1, c2, c3, c4⟩ := h0
  refine ⟨c1, by rw [c2]; simp, ?_⟩
  unfold segD
  apply List.map_congr_left
  intro k hk
  have hk' : k < len := by simpa using hk
  by_cases hk0 : k = 0
  · subst hk0
    rw [c3 0 (le_refl _), rd_wr_same _ (by omega), cdir_zero fwd hb]
  · exact c4 k (by omega) hk'

theorem write_loop_eq {n : Nat} (buf : List Nat) :
    ∀ (k i : Nat) (a : Arrays) (j : Nat), j < n → k ≤ n →
      write_loop n buf k i a j =
        (applyWrites a (writesAt n j ((List.range k).map fun r => rd buf (i + r))),
          cidx n j k) := by
  intro k
  induction k with
  | zero => intro i a j hj _; simp [write_loop, writesAt, applyWrites, cidx_zero hj]
  | succ k ih =>
    intro i a j hj hk
    have hj1 : incw n j < n := by rw [incw_eq_cidx hj]; exact cidx_lt hj (by omega)
    simp only [write_loop]
    rw [ih (i + 1) _ (incw n j) hj1 (by omega), List.range_succ_eq_map]
    simp only [List.map_cons, List.map_map, writesAt, applyWrites, Nat.add_zero]
    rw [incw_eq_cidx hj, cidx_cidx hj (by omega), Nat.add_comm 1 k]
    congr 3
    apply List.map_congr_left
    intro r _
    simp only [Function.comp]
    congr 1; omega

theorem shift_loop_spec {n : Nat} {d : Nat} :
    ∀ (rem fuel : Nat) (a : Arrays) (i j : Nat), a.tour.length = n + 1 → i < n → j < n →
      i = cidx n j d → d + rem < n → rem ≤ fuel →
      shift_loop n (cidx n i rem) fuel a i j =
        (applyWrites a (writesAt n (incw n j)
          ((List.range rem).map fun r => rd a.tour (cidx n i (r + 1)))), cidx n j rem) := by
  intro rem
  induction rem with
  | zero =>
    intro fuel a i j _ hi hj _ _ _
    rw [cidx_zero hi, cidx_zero hj]
    cases fuel <;> simp [shift_loop, writesAt, applyWrites]
  | succ rem ih =>
    intro fuel a i j hl hi hj hij hd hf
    obtain ⟨f, rfl⟩ : ∃ f, fuel = f + 1 := ⟨fuel - 1, by omega⟩
    have hne : i ≠ cidx n i (rem + 1) := by
      intro e
      have := (cidx_eq_iff hi (show 0 < n by omega) (show rem + 1 < n by omega)).1
        (by rw [cidx_zero hi]; exact e)
      omega
    have hi1 : incw n i < n := by rw [incw_eq_cidx hi]; exact cidx_lt hi (by omega)
    have hj1 : incw n j < n := by rw [incw_eq_cidx hj]; exact cidx_lt hj (by omega)
    simp only [shift_loop, ne_eq, hne, not_false_eq_true, if_true]
    have hrd : rd (wr a.tour (incw n j) (rd a.tour (incw n i))) (incw n i) = rd a.tour (incw n i) := by
      rw [rd_wr]; split_ifs <;> rfl
    rw [hrd]
    have hstop : cidx n i (rem + 1) = cidx n (incw n i) rem := by
      rw [incw_eq_cidx hi, cidx_cidx hi (by omega), Nat.add_comm 1]
    rw [hstop, ih f _ (incw n i) (incw n j) (by simpa using hl) hi1 hj1 ?_ (by omega) (by omega)]
    · rw [List.range_succ_eq_map]
      simp only [List.map_cons, List.map_map, writesAt, applyWrites]
      have e1 : cidx n (incw n j) rem = cidx n j (rem + 1) := by
        rw [incw_eq_cidx hj, cidx_cidx hj (by omega), Nat.add_comm 1]
      have e2 : cidx n i (0 + 1) = incw n i := by rw [incw_eq_cidx hi]
      rw [e1, e2]
      congr 3
      apply List.map_congr_left
      intro r hr
      have hr' : r < rem := by simpa using hr
      simp only [Function.comp]
      have e3 : cidx n (incw n i) (r + 1) = cidx n i (r + 1 + 1) := by
        rw [incw_eq_cidx hi, cidx_cidx hi (by omega), Nat.add_comm 1]
      rw [e3]
      apply rd_wr_ne
      rw [hij, incw_eq_cidx hj, cidx_cidx hj (by omega)]
      intro e
      have := (cidx_eq_iff hj (by omega) (by omega)).1 e
      omega
    · rw [hij, incw_eq_cidx hj, incw_eq_cidx (cidx_lt hj (by omega)), cidx_cidx hj (by omega),
        cidx_cidx hj (by omega), Nat.add_comm]

theorem shift_segment_spec {n : Nat} {a : Arrays} (hl : a.tour.length = n + 1) {i j d q : Nat}
    (hi : i < n) (hj : j < n) (hij : i = cidx n j d) (hq : 1 ≤ q) (hd : d + q ≤ n) :
    shift_segment n a j i (cidx n i (q - 1)) =
      (applyWrites a (writesAt n j (segF n a.tour i q)), cidx n j (q - 1)) := by
  unfold shift_segment
  have hrd : rd (wr a.tour j (rd a.tour i)) i = rd a.tour i := by
    rw [rd_wr]; split_ifs <;> rfl
  simp only [hrd]
  rw [shift_loop_spec (q - 1) n _ i j (by simpa using hl) hi hj hij (by omega) (by omega)]
  obtain ⟨r, rfl⟩ : ∃ r, q = r + 1 := ⟨q - 1, by omega⟩
  simp only [Nat.add_sub_cancel]
  unfold segF
  rw [List.range_succ_eq_map]
  simp only [List.map_cons, List.map_map, writesAt, applyWrites, cidx_zero hi]
  congr 3
  apply List.map_congr_left
  intro k hk
  have hk' : k < r := by simpa using hk
  simp only [Function.comp]
  apply rd_wr_ne
  rw [hij, cidx_cidx hj (by omega)]
  intro e
  have := (cidx_eq_iff hj (show 0 < n by omega) (show d + (k + 1) < n by omega)).1
    (by rw [cidx_zero hj]; exact e)
  omega

theorem write_until_loop_eq {n : Nat} (buf : List Nat) :
    ∀ (rem fuel i : Nat) (a : Arrays) (j : Nat), j < n → rem < n → rem ≤ fuel →
      write_until_loop n (cidx n j rem) buf fuel i a j =
        applyWrites a (writesAt n (incw n j) ((List.range rem).map fun r => rd buf (i + 1 + r))) := by
  intro rem
  induction rem with
  | zero =>
    intro fuel i a j hj _ _
    rw [cidx_zero hj]
    cases fuel <;> simp [write_until_loop, writesAt, applyWrites]
  | succ rem ih =>
    intro fuel i a j hj hr hf
    obtain ⟨f, rfl⟩ : ∃ f, fuel = f + 1 := ⟨fuel - 1, by omega⟩
    have hne : j ≠ cidx n j (rem + 1) := by
      intro e
      have := (cidx_eq_iff hj (show 0 < n by omega) (show rem + 1 < n by omega)).1
        (by rw [cidx_zero hj]; exact e)
      omega
    have hj1 : incw n j < n := by rw [incw_eq_cidx hj]; exact cidx_lt hj (by omega)
    simp only [write_until_loop, ne_eq, hne, not_false_eq_true, if_true]
    have hstop : cidx n j (rem + 1) = cidx n (incw n j) rem := by
      rw [incw_eq_cidx hj, cidx_cidx hj (by omega), Nat.add_comm 1]
    rw [hstop, ih f (i + 1) _ (incw n j) hj1 (by omega) (by omega), List.range_succ_eq_map]
    simp only [List.map_cons, List.map_map, writesAt, applyWrites, Nat.add_zero]
    congr 2
    apply List.map_congr_left
    intro r _
    simp only [Function.comp]
    congr 1; omega

/-! ## The three ways in which `three_opt_first` rewrites a window -/

theorem Valid.with_bufs {n : Nat} {a : Arrays} (hv : Valid n a) (h hh : List Nat) :
    Valid n { a with h_tour := h, hh_tour := hh } :=
  ⟨hv.tour_len, hv.pos_len, hv.tour_lt, hv.pos_tour, hv.sentinel⟩

theorem segD_true (n : Nat) (t : List Nat) (b len : Nat) :
    segD n true t b len = segF n t b len := by
  simp [segD, segF, cdir]

theorem segD_false {n : Nat} (t : List Nat) {c len : Nat} (hc : c < n) (hl1 : 1 ≤ len)
    (hl : len ≤ n) :
    segD n false t (cidx n c (len - 1)) len = (segF n t c len).reverse := by
  apply List.ext_getElem
  · simp [segD]
  · intro k h1 h2
    have hk : k < len := by simpa [segD] using h1
    rw [List.getElem_reverse, getElem_segF]
    simp only [segD, cdir, List.getElem_map, List.getElem_range, Bool.false_eq_true, if_false,
      length_segF]
    rw [cidxb_cidx hc (by omega) (by omega)]

theorem map_rd_range_zero_add (buf : List Nat) (k : Nat) :
    ((List.range k).map fun r => rd buf (0 + r)) = (List.range k).map (rd buf) := by
  apply List.map_congr_left
  intro r _
  rw [Nat.zero_add]

theorem store2_put_h_hh_spec {n : Nat} {a : Arrays} (hv : Valid3 n a) {w : Nat} (hw : w < n)
    (fwd1 fwd2 : Bool) {b1 b2 l1 l2 : Nat} (hb1 : b1 < n) (hb2 : b2 < n) (h1 : 1 ≤ l1)
    (h2 : 1 ≤ l2) (hl : l1 + l2 ≤ n)
    (hperm : (segD n fwd1 a.tour b1 l1 ++ segD n fwd2 a.tour b2 l2).Perm
      (segF n a.tour w (l1 + l2))) :
    Valid3 n (store2_put_h_hh n a fwd1 b1 (cdir n fwd1 b1 (l1 - 1)) fwd2 b2
      (cdir n fwd2 b2 (l2 - 1)) w) ∧
    segF n (store2_put_h_hh n a fwd1 b1 (cdir n fwd1 b1 (l1 - 1)) fwd2 b2
      (cdir n fwd2 b2 (l2 - 1)) w).tour w n =
      segD n fwd1 a.tour b1 l1 ++ segD n fwd2 a.tour b2 l2 ++
        segF n a.tour (cidx n w (l1 + l2)) (n - (l1 + l2)) := by
  obtain ⟨hva, hh1, hh2⟩ := hv
  obtain ⟨c1, c2, c3⟩ := copy_segment_spec fwd1 a.tour a.h_tour hb1 h1 (by omega) (by omega)
  obtain ⟨d1, d2, d3⟩ := copy_segment_spec fwd2 a.tour a.hh_tour hb2 h2 (by omega) (by omega)
  unfold store2_put_h_hh fill_h fill_hh put_h put_hh
  simp only [c1, d1]
  rw [write_loop_eq _ l1 0 _ w hw (by omega)]
  simp only
  rw [write_loop_eq _ l2 0 _ _ (cidx_lt hw (by omega)) (by omega)]
  simp only [(applyWrites_bufs _ _).2.1, map_rd_range_zero_add, c3, d3]
  rw [← applyWrites_append]
  have hlen1 : (segD n fwd1 a.tour b1 l1).length = l1 := by simp [segD]
  have hlen2 : (segD n fwd2 a.tour b2 l2).length = l2 := by simp [segD]
  have e : writesAt n w (segD n fwd1 a.tour b1 l1) ++
      writesAt n (cidx n w l1) (segD n fwd2 a.tour b2 l2) =
      writesAt n w (segD n fwd1 a.tour b1 l1 ++ segD n fwd2 a.tour b2 l2) := by
    rw [writesAt_append n w hw _ _ (by omega), hlen1]
  rw [e]
  have hv2 := hva.with_bufs (copy_segment n fwd1 a.tour a.h_tour b1 (cdir n fwd1 b1 (l1 - 1))).1
    (copy_segment n fwd2 a.tour a.hh_tour b2 (cdir n fwd2 b2 (l2 - 1))).1
  have hXl : (segD n fwd1 a.tour b1 l1 ++ segD n fwd2 a.tour b2 l2).length = l1 + l2 := by
    simp [hlen1, hlen2]
  obtain ⟨w1, w2, w3, w4⟩ := window_write hv2 hw
    (segD n fwd1 a.tour b1 l1 ++ segD n fwd2 a.tour b2 l2) (by omega) (by rw [hXl]; exact hperm)
  rw [hXl] at w2
  exact ⟨⟨w1, by rw [w3]; exact c2.trans hh1, by rw [w4]; exact d2.trans hh2⟩, w2⟩

theorem store2_put_hh_h_spec {n : Nat} {a : Arrays} (hv : Valid3 n a) {w : Nat} (hw : w < n)
    (fwd1 fwd2 : Bool) {b1 b2 l1 l2 : Nat} (hb1 : b1 < n) (hb2 : b2 < n) (h1 : 1 ≤ l1)
    (h2 : 1 ≤ l2) (hl : l1 + l2 ≤ n)
    (hperm : (segD n fwd2 a.tour b2 l2 ++ segD n fwd1 a.tour b1 l1).Perm
      (segF n a.tour w (l2 + l1))) :
    Valid3 n (store2_put_hh_h n a fwd1 b1 (cdir n fwd1 b1 (l1 - 1)) fwd2 b2
      (cdir n fwd2 b2 (l2 - 1)) w) ∧
    segF n (store2_put_hh_h n a fwd1 b1 (cdir n fwd1 b1 (l1 - 1)) fwd2 b2
      (cdir n fwd2 b2 (l2 - 1)) w).tour w n =
      segD n fwd2 a.tour b2 l2 ++ segD n fwd1 a.tour b1 l1 ++
        segF n a.tour (cidx n w (l2 + l1)) (n - (l2 + l1)) := by
  obtain ⟨hva, hh1, hh2⟩ := hv
  obtain ⟨c1, c2, c3⟩ := copy_segment_spec fwd1 a.tour a.h_tour hb1 h1 (by omega) (by omega)
  obtain ⟨d1, d2, d3⟩ := copy_segment_spec fwd2 a.tour a.hh_tour hb2 h2 (by omega) (by omega)
  unfold store2_put_hh_h fill_h fill_hh put_h put_hh
  simp only [c1, d1]
  rw [write_loop_eq _ l2 0 _ w hw (by omega)]
  simp only
  rw [write_loop_eq _ l1 0 _ _ (cidx_lt hw (by omega)) (by omega)]
  simp only [(applyWrites_bufs _ _).1, map_rd_range_zero_add, c3, d3]
  rw [← applyWrites_append]
  have hlen1 : (segD n fwd1 a.tour b1 l1).length = l1 := by simp [segD]
  have hlen2 : (segD n fwd2 a.tour b2 l2).length = l2 := by simp [segD]
  have e : writesAt n w (segD n fwd2 a.tour b2 l2) ++
      writesAt n (cidx n w l2) (segD n fwd1 a.tour b1 l1) =
      writesAt n w (segD n fwd2 a.tour b2 l2 ++ segD n fwd1 a.tour b1 l1) := by
    rw [writesAt_append n w hw _ _ (by omega), hlen2]
  rw [e]
  have hv2 := hva.with_bufs (copy_segment n fwd1 a.tour a.h_tour b1 (cdir n fwd1 b1 (l1 - 1))).1
    (copy_segment n fwd2 a.tour a.hh_tour b2 (cdir n fwd2 b2 (l2 - 1))).1
  have hXl : (segD n fwd2 a.tour b2 l2 ++ segD n fwd1 a.tour b1 l1).length = l2 + l1 := by
    simp [hlen1, hlen2]
  obtain ⟨w1, w2, w3, w4⟩ := window_write hv2 hw
    (segD n fwd2 a.tour b2 l2 ++ segD n fwd1 a.tour b1 l1) (by omega) (by rw [hXl]; exact hperm)
  rw [hXl] at w2
  exact ⟨⟨w1, by rw [w3]; exact c2.trans hh1, by rw [w4]; exact d2.trans hh2⟩, w2⟩

theorem store_shift_put_spec {n : Nat} {a : Arrays} (hv : Valid3 n a) {w : Nat} (hw : w < n)
    (fwd : Bool) {b p q : Nat} (hb : b < n) (h1 : 1 ≤ p) (h2 : 1 ≤ q) (hl : p + q ≤ n)
    (hperm : (segF n a.tour (cidx n w p) q ++ segD n fwd a.tour b p).Perm
      (segF n a.tour w (q + p))) :
    Valid3 n (store_shift_put n a fwd b (cdir n fwd b (p - 1)) w (cidx n w p)
      (cidx n w (p + q - 1))) ∧
    segF n (store_shift_put n a fwd b (cdir n fwd b (p - 1)) w (cidx n w p)
      (cidx n w (p + q - 1))).tour w n =
      segF n a.tour (cidx n w p) q ++ segD n fwd a.tour b p ++
        segF n a.tour (cidx n w (q + p)) (n - (q + p)) := by
  obtain ⟨hva, hh1, hh2⟩ := hv
  obtain ⟨c1, c2, c3⟩ := copy_segment_spec fwd a.tour a.h_tour hb h1 (by omega) (by omega)
  unfold store_shift_put fill_h put_h
  simp only [c1]
  have hi : cidx n w p < n := cidx_lt hw (by omega)
  have hstop : cidx n w (p + q - 1) = cidx n (cidx n w p) (q - 1) := by
    rw [cidx_cidx hw (by omega)]; congr 1; omega
  rw [hstop, shift_segment_spec (a := { a with h_tour :=
      (copy_segment n fwd a.tour a.h_tour b (cdir n fwd b (p - 1))).1 }) hva.tour_len hi hw rfl h2
      (by omega)]
  simp only
  have hj : incw n (cidx n w (q - 1)) = cidx n w q := by
    rw [incw_cidx hw (by omega)]; congr 1; omega
  rw [hj, write_loop_eq _ p 0 _ _ (cidx_lt hw (by omega)) (by omega)]
  simp only [(applyWrites_bufs _ _).1, map_rd_range_zero_add, c3]
  rw [← applyWrites_append]
  have hlen1 : (segD n fwd a.tour b p).length = p := by simp [segD]
  have e : writesAt n w (segF n a.tour (cidx n w p) q) ++
      writesAt n (cidx n w q) (segD n fwd a.tour b p) =
      writesAt n w (segF n a.tour (cidx n w p) q ++ segD n fwd a.tour b p) := by
    rw [writesAt_append n w hw _ _ (by simp; omega), length_segF]
  rw [e]
  have hv2 := hva.with_bufs (copy_segment n fwd a.tour a.h_tour b (cdir n fwd b (p - 1))).1
    a.hh_tour
  have hXl : (segF n a.tour (cidx n w p) q ++ segD n fwd a.tour b p).length = q + p := by
    simp [hlen1]
  obtain ⟨w1, w2, w3, w4⟩ := window_write hv2 hw
    (segF n a.tour (cidx n w p) q ++ segD n fwd a.tour b p) (by omega) (by rw [hXl]; exact hperm)
  rw [hXl] at w2
  exact ⟨⟨w1, by rw [w3]; exact c2.trans hh1, by rw [w4]; exact hh2⟩, w2⟩

/-! ## Three consecutive parts of the cycle -/

theorem Cfg.rot {n : Nat} {a : Arrays} {w x y z a1 a2 b1 b2 c1 c2 : Nat}
    (h : Cfg n a w x y z a1 a2 b1 b2 c1 c2) :
    Cfg n a (cidx n w x) y z x b1 b2 c1 c2 a1 a2 := by
  obtain ⟨hw, hx, hy, hz, hsum, ea1, ea2, eb1, eb2, ec1, ec2⟩ := h
  have hw' : cidx n w x < n := cidx_lt hw (by omega)
  refine ⟨hw', hy, hz, hx, by omega, eb1, ?_, ?_, ?_, ?_, ?_⟩
  · rw [cidx_cidx hw (by omega), ← eb2]; congr 2; omega
  · rw [cidx_cidx hw (by omega), ← ec1]
  · rw [cidx_cidx hw (by omega), ← ec2]; congr 2; omega
  · rw [cidx_cidx hw (by omega), ← ea1]; congr 1
    rw [show x + (y + z) = n by omega]; exact cidx_full hw
  · rw [← ea2]; congr 1
    unfold cidx; split_ifs <;> omega

theorem Cfg.pos {n : Nat} {a : Arrays} {w x y z a1 a2 b1 b2 c1 c2 : Nat}
    (h : Cfg n a w x y z a1 a2 b1 b2 c1 c2) (hv : Valid n a) :
    rd a.pos a1 = w ∧ rd a.pos a2 = cidx n w (x - 1) ∧ rd a.pos b1 = cidx n w x ∧
    rd a.pos b2 = cidx n w (x + y - 1) ∧ rd a.pos c1 = cidx n w (x + y) ∧
    rd a.pos c2 = cidx n w (n - 1) := by
  obtain ⟨hw, hx, hy, hz, hsum, ea1, ea2, eb1, eb2, ec1, ec2⟩ := h
  refine ⟨?_, ?_, ?_, ?_, ?_, ?_⟩
  · rw [← ea1]; exact hv.pos_tour _ hw
  · rw [← ea2]; exact hv.pos_tour _ (cidx_lt hw (by omega))
  · rw [← eb1]; exact hv.pos_tour _ (cidx_lt hw (by omega))
  · rw [← eb2]; exact hv.pos_tour _ (cidx_lt hw (by omega))
  · rw [← ec1]; exact hv.pos_tour _ (cidx_lt hw (by omega))
  · rw [← ec2]; exact hv.pos_tour _ (cidx_lt hw (by omega))

theorem Cfg.split {n : Nat} {a : Arrays} {w x y z a1 a2 b1 b2 c1 c2 : Nat}
    (h : Cfg n a w x y z a1 a2 b1 b2 c1 c2) :
    segF n a.tour w n = segF n a.tour w x ++ segF n a.tour (cidx n w x) y ++
      segF n a.tour (cidx n w (x + y)) z ∧
    segF n a.tour w (x + y) = segF n a.tour w x ++ segF n a.tour (cidx n w x) y := by
  have e1 := segF_add a.tour h.hw (show x + y ≤ n by have := h.hsum; omega)
  have e2 := segF_add a.tour h.hw (show (x + y) + z ≤ n by have := h.hsum; omega)
  rw [h.hsum, e1] at e2
  exact ⟨e2, e1⟩

theorem cdir_false_back {n c l : Nat} (hc : c < n) (h1 : 1 ≤ l) (hl : l ≤ n) :
    cdir n false (cidx n c (l - 1)) (l - 1) = c := by
  simp only [cdir, Bool.false_eq_true, if_false]
  rw [cidxb_cidx hc (by omega) (le_refl _), Nat.sub_self, cidx_zero hc]

theorem Shape.perm (s : Shape) (A B : List Nat) : (s.apply A B).Perm (A ++ B) := by
  cases s
  · exact (List.reverse_perm A).append (List.reverse_perm B)
  · exact List.perm_append_comm.trans ((List.reverse_perm A).append_right B)
  · exact List.perm_append_comm.trans (List.Perm.append_left A (List.reverse_perm B))
  · exact List.perm_append_comm

section combos

variable {n : Nat} {a : Arrays} {w x y z a1 a2 b1 b2 c1 c2 : Nat}

theorem Cfg.facts (h : Cfg n a w x y z a1 a2 b1 b2 c1 c2) :
    cidx n w x < n ∧ cidx n w (x - 1) < n ∧ cidx n w (x + y - 1) < n ∧
    cidx n w (x + y - 1) = cidx n (cidx n w x) (y - 1) ∧
    cdir n false (cidx n w (x - 1)) (x - 1) = w ∧
    cdir n false (cidx n w (x + y - 1)) (y - 1) = cidx n w x ∧
    cdir n true w (x - 1) = cidx n w (x - 1) ∧
    cdir n true (cidx n w x) (y - 1) = cidx n w (x + y - 1) ∧
    segD n false a.tour (cidx n w (x - 1)) x = (segF n a.tour w x).reverse ∧
    segD n false a.tour (cidx n w (x + y - 1)) y = (segF n a.tour (cidx n w x) y).reverse := by
  have hw := h.hw
  have hx := h.hx
  have hy := h.hy
  have hz := h.hz
  have hsum := h.hsum
  have hwx : cidx n w x < n := cidx_lt hw (by omega)
  have e4 : cidx n w (x + y - 1) = cidx n (cidx n w x) (y - 1) := by
    rw [cidx_cidx hw (by omega)]; congr 1; omega
  refine ⟨hwx, cidx_lt hw (by omega), cidx_lt hw (by omega), e4,
    cdir_false_back hw hx (by omega), ?_, rfl, ?_, segD_false a.tour hw hx (by omega), ?_⟩
  · rw [e4]; exact cdir_false_back hwx hy (by omega)
  · rw [e4]; rfl
  · rw [e4]; exact segD_false a.tour hwx hy (by omega)

theorem combo_h_hh_RR (h : Cfg n a w x y z a1 a2 b1 b2 c1 c2) (hv : Valid3 n a) :
    Rewritten n a (store2_put_h_hh n a false (rd a.pos a2) (rd a.pos a1) false (rd a.pos b2)
      (rd a.pos b1) (rd a.pos a1)) w x y z .RR := by
  obtain ⟨q1, q2, q3, q4, q5, q6⟩ := h.pos hv.1
  obtain ⟨f1, f2, f3, f4, f5, f6, f7, f8, f9, f10⟩ := h.facts
  have hsum := h.hsum
  rw [q1, q2, q3, q4]
  have hp : (segD n false a.tour (cidx n w (x - 1)) x ++
      segD n false a.tour (cidx n w (x + y - 1)) y).Perm (segF n a.tour w (x + y)) := by
    rw [f9, f10, h.split.2]; exact Shape.perm .RR _ _
  have := store2_put_h_hh_spec hv h.hw false false f2 f3 h.hx h.hy (by omega) hp
  rw [f5, f6, f9, f10, show n - (x + y) = z by omega] at this
  exact this

theorem combo_hh_h_RR (h : Cfg n a w x y z a1 a2 b1 b2 c1 c2) (hv : Valid3 n a) :
    Rewritten n a (store2_put_hh_h n a false (rd a.pos b2) (rd a.pos b1) false (rd a.pos a2)
      (rd a.pos a1) (rd a.pos a1)) w x y z .RR := by
  obtain ⟨q1, q2, q3, q4, q5, q6⟩ := h.pos hv.1
  obtain ⟨f1, f2, f3, f4, f5, f6, f7, f8, f9, f10⟩ := h.facts
  have hsum := h.hsum
  rw [q1, q2, q3, q4]
  have hp : (segD n false a.tour (cidx n w (x - 1)) x ++
      segD n false a.tour (cidx n w (x + y - 1)) y).Perm (segF n a.tour w (x + y)) := by
    rw [f9, f10, h.split.2]; exact Shape.perm .RR _ _
  have := store2_put_hh_h_spec hv h.hw false false f3 f2 h.hy h.hx (by omega) hp
  rw [f5, f6, f9, f10, show n - (x + y) = z by omega] at this
  exact this

theorem combo_h_hh_QrP (h : Cfg n a w x y z a1 a2 b1 b2 c1 c2) (hv : Valid3 n a) :
    Rewritten n a (store2_put_h_hh n a true (rd a.pos b1) (rd a.pos b2) false (rd a.pos a2)
      (rd a.pos a1) (rd a.pos a1)) w x y z .QrP := by
  obtain ⟨q1, q2, q3, q4, q5, q6⟩ := h.pos hv.1
  obtain ⟨f1, f2, f3, f4, f5, f6, f7, f8, f9, f10⟩ := h.facts
  have hsum := h.hsum
  rw [q1, q2, q3, q4]
  have hp : (segD n true a.tour (cidx n w x) y ++
      segD n false a.tour (cidx n w (x - 1)) x).Perm (segF n a.tour w (y + x)) := by
    rw [f9, segD_true, Nat.add_comm y x, h.split.2]; exact Shape.perm .QrP _ _
  have := store2_put_h_hh_spec hv h.hw true false f1 f2 h.hy h.hx (by omega) hp
  rw [f5, f8, f9, segD_true, show n - (y + x) = z by omega, Nat.add_comm y x] at this
  exact this

theorem combo_h_hh_rQP (h : Cfg n a w x y z a1 a2 b1 b2 c1 c2) (hv : Valid3 n a) :
    Rewritten n a (store2_put_h_hh n a false (rd a.pos b2) (rd a.pos b1) true (rd a.pos a1)
      (rd a.pos a2) (rd a.pos a1)) w x y z .rQP := by
  obtain ⟨q1, q2, q3, q4, q5, q6⟩ := h.pos hv.1
  obtain ⟨f1, f2, f3, f4, f5, f6, f7, f8, f9, f10⟩ := h.facts
  have hsum := h.hsum
  rw [q1, q2, q3, q4]
  have hp : (segD n false a.tour (cidx n w (x + y - 1)) y ++
      segD n true a.tour w x).Perm (segF n a.tour w (y + x)) := by
    rw [f10, segD_true, Nat.add_comm y x, h.split.2]; exact Shape.perm .rQP _ _
  have := store2_put_h_hh_spec hv h.hw false true f3 h.hw h.hy h.hx (by omega) hp
  rw [f6, f7, f10, segD_true, show n - (y + x) = z by omega, Nat.add_comm y x] at this
  exact this

theorem combo_hh_h_rQP (h : Cfg n a w x y z a1 a2 b1 b2 c1 c2) (hv : Valid3 n a) :
    Rewritten n a (store2_put_hh_h n a true (rd a.pos a1) (rd a.pos a2) false (rd a.pos b2)
      (rd a.pos b1) (rd a.pos a1)) w x y z .rQP := by
  obtain ⟨q1, q2, q3, q4, q5, q6⟩ := h.pos hv.1
  obtain ⟨f1, f2, f3, f4, f5, f6, f7, f8, f9, f10⟩ := h.facts
  have hsum := h.hsum
  rw [q1, q2, q3, q4]
  have hp : (segD n false a.tour (cidx n w (x + y - 1)) y ++
      segD n true a.tour w x).Perm (segF n a.tour w (y + x)) := by
    rw [f10, segD_true, Nat.add_comm y x, h.split.2]; exact Shape.perm .rQP _ _
  have := store2_put_hh_h_spec hv h.hw true false h.hw f3 h.hx h.hy (by omega) hp
  rw [f6, f7, f10, segD_true, show n - (y + x) = z by omega, Nat.add_comm y x] at this
  exact this

theorem combo_ssp_QP (h : Cfg n a w x y z a1 a2 b1 b2 c1 c2) (hv : Valid3 n a) :
    Rewritten n a (store_shift_put n a true (rd a.pos a1) (rd a.pos a2) (rd a.pos a1)
      (rd a.pos b1) (rd a.pos b2)) w x y z .QP := by
  obtain ⟨q1, q2, q3, q4, q5, q6⟩ := h.pos hv.1
  obtain ⟨f1, f2, f3, f4, f5, f6, f7, f8, f9, f10⟩ := h.facts
  have hsum := h.hsum
  rw [q1, q2, q3, q4]
  have hp : (segF n a.tour (cidx n w x) y ++ segD n true a.tour w x).Perm
      (segF n a.tour w (y + x)) := by
    rw [segD_true, Nat.add_comm y x, h.split.2]; exact Shape.perm .QP _ _
  have := store_shift_put_spec hv h.hw true h.hw h.hx h.hy (by omega) hp
  rw [f7, segD_true, show n - (y + x) = z by omega, Nat.add_comm y x] at this
  exact this

theorem combo_ssp_QrP (h : Cfg n a w x y z a1 a2 b1 b2 c1 c2) (hv : Valid3 n a) :
    Rewritten n a (store_shift_put n a false (rd a.pos a2) (rd a.pos a1) (rd a.pos a1)
      (rd a.pos b1) (rd a.pos b2)) w x y z .QrP := by
  obtain ⟨q1, q2, q3, q4, q5, q6⟩ := h.pos hv.1
  obtain ⟨f1, f2, f3, f4, f5, f6, f7, f8, f9, f10⟩ := h.facts
  have hsum := h.hsum
  rw [q1, q2, q3, q4]
  have hp : (segF n a.tour (cidx n w x) y ++ segD n false a.tour (cidx n w (x - 1)) x).Perm
      (segF n a.tour w (y + x)) := by
    rw [f9, Nat.add_comm y x, h.split.2]; exact Shape.perm .QrP _ _
  have := store_shift_put_spec hv h.hw false f2 h.hx h.hy (by omega) hp
  rw [f5, f9, show n - (y + x) = z by omega, Nat.add_comm y x] at this
  exact this

end combos

/-! ## Cost of a rewritten window -/

theorem Rewritten.cost (P : TspProblem) (hsym : ∀ i j, P.dist i j = P.dist j i) {n : Nat}
    {a a' : Arrays} {w x y z a1 a2 b1 b2 c1 c2 : Nat} {s : Shape}
    (h : Cfg n a w x y z a1 a2 b1 b2 c1 c2) (hv : Valid n a) (hr : Rewritten n a a' w x y z s) :
    cycCost P n a'.tour = cycCost P n a.tour - P.dist a2 b1 - P.dist b2 c1 - P.dist c2 a1
      + s.newEdges P.dist a1 a2 b1 b2 c1 c2 := by
  obtain ⟨hw, hx, hy, hz, hsum, ea1, ea2, eb1, eb2, ec1, ec2⟩ := h
  have hcfg : Cfg n a w x y z a1 a2 b1 b2 c1 c2 :=
    ⟨hw, hx, hy, hz, hsum, ea1, ea2, eb1, eb2, ec1, ec2⟩
  have hwx : cidx n w x < n := cidx_lt hw (by omega)
  have hwxy : cidx n w (x + y) < n := cidx_lt hw (by omega)
  have hA : segF n a.tour w x ≠ [] := segF_ne_nil hx
  have hB : segF n a.tour (cidx n w x) y ≠ [] := segF_ne_nil hy
  have hC : segF n a.tour (cidx n w (x + y)) z ≠ [] := segF_ne_nil hz
  have hA' : (segF n a.tour w x).reverse ≠ [] := by simpa using hA
  have hB' : (segF n a.tour (cidx n w x) y).reverse ≠ [] := by simpa using hB
  have hdA : (segF n a.tour w x).headD 0 = a1 := by rw [headD_segF _ hw hx, ea1]
  have hlA : (segF n a.tour w x).getLastD 0 = a2 := by rw [getLastD_segF _ _ hx, ea2]
  have hdB : (segF n a.tour (cidx n w x) y).headD 0 = b1 := by rw [headD_segF _ hwx hy, eb1]
  have hlB : (segF n a.tour (cidx n w x) y).getLastD 0 = b2 := by
    rw [getLastD_segF _ _ hy, cidx_cidx hw (by omega), show x + (y - 1) = x + y - 1 by omega, eb2]
  have hdC : (segF n a.tour (cidx n w (x + y)) z).headD 0 = c1 := by
    rw [headD_segF _ hwxy hz, ec1]
  have hlC : (segF n a.tour (cidx n w (x + y)) z).getLastD 0 = c2 := by
    rw [getLastD_segF _ _ hz, cidx_cidx hw (by omega), show x + y + (z - 1) = n - 1 by omega, ec2]
  rw [cycCost_eq_cycL P hr.1.1 hw, cycCost_eq_cycL P hv hw, hr.2, hcfg.split.1,
    cycL_three P.dist hA hB hC, hdA, hlA, hdB, hlB, hdC, hlC]
  cases s
  · simp only [Shape.apply, Shape.newEdges]
    rw [cycL_three P.dist hA' hB' hC, pathL_reverse hsym, pathL_reverse hsym, headD_reverse,
      headD_reverse, getLastD_reverse, getLastD_reverse, hdA, hlA, hdB, hlB, hdC, hlC]
    ring
  · simp only [Shape.apply, Shape.newEdges]
    rw [cycL_three P.dist hB hA' hC, pathL_reverse hsym, headD_reverse,
      getLastD_reverse, hdA, hlA, hdB, hlB, hdC, hlC]
    ring
  · simp only [Shape.apply, Shape.newEdges]
    rw [cycL_three P.dist hB' hA hC, pathL_reverse hsym, headD_reverse,
      getLastD_reverse, hdA, hlA, hdB, hlB, hdC, hlC]
    ring
  · simp only [Shape.apply, Shape.newEdges]
    rw [cycL_three P.dist hB hA hC, hdA, hlA, hdB, hlB, hdC, hlC]
    ring

/-! ## The two rewriting cases with a hand-written first statement -/

section variants

variable {n : Nat} {a : Arrays} {w x y z a1 a2 b1 b2 c1 c2 : Nat}

theorem move3_case0_eq (h : Cfg n a w x y z a1 a2 b1 b2 c1 c2) (hv : Valid3 n a) :
    move3_case0 n a a1 a2 b1 b2 =
      store_shift_put n a false (rd a.pos a2) (rd a.pos a1) (rd a.pos a1) (rd a.pos b1)
        (rd a.pos b2) := by
  obtain ⟨q1, q2, q3, q4, q5, q6⟩ := h.pos hv.1
  have hw := h.hw
  have hlen : w < a.tour.length := by rw [hv.1.tour_len]; omega
  unfold move3_case0 store_shift_put shift_segment fill_h
  simp only [q1, q3, h.eb1]
  have e : rd (wr a.tour w b1) (cidx n w x) = b1 := by
    rw [rd_wr]; split_ifs
    · rfl
    · exact h.eb1
  rw [e]

theorem move1_case1_eq (h : Cfg n a w x y z a1 a2 b1 b2 c1 c2) (hv : Valid3 n a) :
    move1_case1 n a a2 b1 a1 (rd a.pos b2) =
      store_shift_put n a false (rd a.pos a2) (rd a.pos a1) (rd a.pos a1) (rd a.pos b1)
        (rd a.pos b2) := by
  obtain ⟨q1, q2, q3, q4, q5, q6⟩ := h.pos hv.1
  obtain ⟨f1, f2, f3, f4, f5, f6, f7, f8, f9, f10⟩ := h.facts
  have hw := h.hw
  have hx := h.hx
  have hy := h.hy
  have hsum := h.hsum
  obtain ⟨c1', c2', c3'⟩ := copy_segment_spec false a.tour a.h_tour f2 hx (by omega)
    (by rw [hv.2.1]; omega)
  rw [f5] at c1' c2' c3'
  unfold move1_case1 store_shift_put fill_h put_h
  simp only [q1, q2, q3, q4, c1']
  rw [f4, shift_segment_spec (a := { a with h_tour :=
      (copy_segment n false a.tour a.h_tour (cidx n w (x - 1)) w).1 }) hv.1.tour_len f1 hw rfl hy
      (by omega)]
  simp only
  have hj : incw n (cidx n w (y - 1)) = cidx n w y := by
    rw [incw_cidx hw (by omega)]; congr 1; omega
  have hjl : cidx n w y < n := cidx_lt hw (by omega)
  rw [hj, write_loop_eq _ x 0 _ _ hjl (by omega)]
  have hstop : cidx n (cidx n w x) (y - 1) = cidx n (cidx n w y) (x - 1) := by
    rw [cidx_cidx hw (by omega), cidx_cidx hw (by omega)]; congr 1; omega
  rw [hstop, write_until_loop_eq _ (x - 1) n 0 _ _ hjl (by omega) (by omega)]
  simp only [(applyWrites_bufs _ _).1]
  congr 1
  obtain ⟨r, rfl⟩ : ∃ r, x = r + 1 := ⟨x - 1, by omega⟩
  rw [List.range_succ_eq_map]
  simp only [List.map_cons, List.map_map, writesAt, applyWrites, Nat.add_sub_cancel]
  have e1 : (List.range r).map
      (fun k => rd (copy_segment n false a.tour a.h_tour (cidx n w r) w).1 (0 + 1 + k)) =
      (List.range r).map ((fun k => rd (copy_segment n false a.tour a.h_tour (cidx n w r) w).1
        (0 + k)) ∘ Nat.succ) := by
    apply List.map_congr_left
    intro k _
    simp only [Function.comp]
    congr 1; omega
  rw [e1, (applyWrites_bufs _ _).1]

theorem combo_move3_case0 (h : Cfg n a w x y z a1 a2 b1 b2 c1 c2) (hv : Valid3 n a) :
    Rewritten n a (move3_case0 n a a1 a2 b1 b2) w x y z .QrP := by
  rw [move3_case0_eq h hv]; exact combo_ssp_QrP h hv

theorem combo_move1_case1 (h : Cfg n a w x y z a1 a2 b1 b2 c1 c2) (hv : Valid3 n a) :
    Rewritten n a (move1_case1 n a a2 b1 a1 (rd a.pos b2)) w x y z .QrP := by
  rw [move1_case1_eq h hv]; exact combo_ssp_QrP h hv

end variants

/-! ## The four reconnections of `three_opt_first` -/

theorem longest_cases (v0 v1 v2 : Int) :
    longest v0 v1 v2 = 0 ∨ longest v0 v1 v2 = 1 ∨ longest v0 v1 v2 = 2 := by
  unfold longest
  simp only
  split_ifs <;> simp

section moves

variable {n : Nat} {a : Arrays} {w x y z h1 h2 h3 h4 h5 h6 : Nat}

/-- Every case of `move_flag == 4` joins the parts `[h2..h3]`, `[h4..h5]`,
`[h6..h1]` by the edges `(h1, h4)`, `(h5, h2)`, `(h3, h6)`. -/
theorem move4_spec (P : TspProblem) (h : Cfg n a w x y z h2 h3 h4 h5 h6 h1) (hv : Valid3 n a) :
    Valid3 n (move4 n a h1 h2 h3 h4 h5 h6 (rd a.pos h1) (rd a.pos h3) (rd a.pos h5)) ∧
    ((∀ i j, P.dist i j = P.dist j i) →
      cycCost P n (move4 n a h1 h2 h3 h4 h5 h6 (rd a.pos h1) (rd a.pos h3) (rd a.pos h5)).tour =
        cycCost P n a.tour - P.dist h1 h2 - P.dist h3 h4 - P.dist h5 h6
          + P.dist h1 h4 + P.dist h2 h5 + P.dist h3 h6) := by
  unfold move4
  simp only
  generalize hL : longest _ _ _ = L
  have hc : L = 0 ∨ L = 1 ∨ L = 2 := by rw [← hL]; exact longest_cases _ _ _
  rcases hc with rfl | rfl | rfl
  · simp only [if_true]
    have r := combo_ssp_QP h.rot hv
    refine ⟨r.1, fun hsym => ?_⟩
    rw [Rewritten.cost P hsym h.rot hv.1 r]
    simp only [Shape.newEdges]
    rw [hsym h5 h2]; ring
  · simp only [if_true, one_ne_zero, if_false]
    have r := combo_ssp_QP h.rot.rot hv
    refine ⟨r.1, fun hsym => ?_⟩
    rw [Rewritten.cost P hsym h.rot.rot hv.1 r]
    simp only [Shape.newEdges]
    rw [hsym h5 h2]; ring
  · simp only [if_true, OfNat.ofNat_ne_zero, OfNat.ofNat_ne_one, if_false]
    have r := combo_ssp_QP h hv
    refine ⟨r.1, fun hsym => ?_⟩
    rw [Rewritten.cost P hsym h hv.1 r]
    simp only [Shape.newEdges]
    rw [hsym h5 h2]; ring

/-- Every case of `move_flag == 1` joins the parts `[h2..h5]`, `[h6..h3]`,
`[h4..h1]` by the edges `(h1, h3)`, `(h6, h2)`, `(h5, h4)`. -/
theorem move1_spec (P : TspProblem) (h : Cfg n a w x y z h2 h5 h6 h3 h4 h1) (hv : Valid3 n a) :
    Valid3 n (move1 n a h1 h2 h3 h4 h5 h6 (rd a.pos h1) (rd a.pos h3) (rd a.pos h5)) ∧
    ((∀ i j, P.dist i j = P.dist j i) →
      cycCost P n (move1 n a h1 h2 h3 h4 h5 h6 (rd a.pos h1) (rd a.pos h3) (rd a.pos h5)).tour =
        cycCost P n a.tour - P.dist h1 h2 - P.dist h3 h4 - P.dist h6 h5
          + P.dist h1 h3 + P.dist h2 h6 + P.dist h5 h4) := by
  unfold move1
  simp only
  generalize hL : longest _ _ _ = L
  have hc : L = 0 ∨ L = 1 ∨ L = 2 := by rw [← hL]; exact longest_cases _ _ _
  rcases hc with rfl | rfl | rfl
  · simp only [if_true]
    have r := combo_hh_h_RR h.rot.rot hv
    refine ⟨r.1, fun hsym => ?_⟩
    rw [Rewritten.cost P hsym h.rot.rot hv.1 r]
    simp only [Shape.newEdges]
    rw [hsym h4 h5, hsym h3 h1, hsym h5 h6]; ring
  · simp only [if_true, one_ne_zero, if_false]
    have r := combo_move1_case1 h.rot hv
    refine ⟨r.1, fun hsym => ?_⟩
    rw [Rewritten.cost P hsym h.rot hv.1 r]
    simp only [Shape.newEdges]
    rw [hsym h6 h2, hsym h5 h6]; ring
  · simp only [if_true, OfNat.ofNat_ne_zero, OfNat.ofNat_ne_one, if_false]
    have r := combo_hh_h_rQP h hv
    refine ⟨r.1, fun hsym => ?_⟩
    rw [Rewritten.cost P hsym h hv.1 r]
    simp only [Shape.newEdges]
    rw [hsym h6 h2, hsym h5 h6]; ring

/-- Every case of `move_flag == 2` joins the parts `[h2..h3]`, `[h4..h5]`,
`[h6..h1]` by the edges `(h1, h3)`, `(h2, h5)`, `(h4, h6)`. -/
theorem move2_spec (P : TspProblem) (h : Cfg n a w x y z h2 h3 h4 h5 h6 h1) (hv : Valid3 n a) :
    Valid3 n (move2 n a h1 h2 h3 h4 h5 h6 (rd a.pos h1) (rd a.pos h3) (rd a.pos h5)) ∧
    ((∀ i j, P.dist i j = P.dist j i) →
      cycCost P n (move2 n a h1 h2 h3 h4 h5 h6 (rd a.pos h1) (rd a.pos h3) (rd a.pos h5)).tour =
        cycCost P n a.tour - P.dist h1 h2 - P.dist h3 h4 - P.dist h5 h6
          + P.dist h1 h3 + P.dist h2 h5 + P.dist h4 h6) := by
  unfold move2
  simp only
  generalize hL : longest _ _ _ = L
  have hc : L = 0 ∨ L = 1 ∨ L = 2 := by rw [← hL]; exact longest_cases _ _ _
  rcases hc with rfl | rfl | rfl
  · simp only [if_true]
    have r := combo_h_hh_RR h hv
    refine ⟨r.1, fun hsym => ?_⟩
    rw [Rewritten.cost P hsym h hv.1 r]
    simp only [Shape.newEdges]
    ring
  · simp only [if_true, one_ne_zero, if_false]
    have r := combo_h_hh_QrP h.rot.rot hv
    refine ⟨r.1, fun hsym => ?_⟩
    rw [Rewritten.cost P hsym h.rot.rot hv.1 r]
    simp only [Shape.newEdges]
    rw [hsym h3 h1, hsym h6 h4, hsym h5 h2]; ring
  · simp only [if_true, OfNat.ofNat_ne_zero, OfNat.ofNat_ne_one, if_false]
    have r := combo_h_hh_rQP h.rot hv
    refine ⟨r.1, fun hsym => ?_⟩
    rw [Rewritten.cost P hsym h.rot hv.1 r]
    simp only [Shape.newEdges]
    rw [hsym h3 h1, hsym h6 h4, hsym h5 h2]; ring

/-- Every case of `move_flag == 3` joins the parts `[h2..h3]`, `[h4..h5]`,
`[h6..h1]` by the edges `(h1, h4)`, `(h2, h6)`, `(h3, h5)`. -/
theorem move3_spec (P : TspProblem) (h : Cfg n a w x y z h2 h3 h4 h5 h6 h1) (hv : Valid3 n a) :
    Valid3 n (move3 n a h1 h2 h3 h4 h5 h6 (rd a.pos h1) (rd a.pos h3) (rd a.pos h5)) ∧
    ((∀ i j, P.dist i j = P.dist j i) →
      cycCost P n (move3 n a h1 h2 h3 h4 h5 h6 (rd a.pos h1) (rd a.pos h3) (rd a.pos h5)).tour =
        cycCost P n a.tour - P.dist h1 h2 - P.dist h3 h4 - P.dist h5 h6
          + P.dist h1 h4 + P.dist h2 h6 + P.dist h3 h5) := by
  unfold move3
  simp only
  generalize hL : longest _ _ _ = L
  have hc : L = 0 ∨ L = 1 ∨ L = 2 := by rw [← hL]; exact longest_cases _ _ _
  rcases hc with rfl | rfl | rfl
  · simp only [if_true]
    have r := combo_move3_case0 h hv
    refine ⟨r.1, fun hsym => ?_⟩
    rw [Rewritten.cost P hsym h hv.1 r]
    simp only [Shape.newEdges]
    rw [hsym h5 h3]; ring
  · simp only [if_true, one_ne_zero, if_false]
    have r := combo_h_hh_rQP h.rot.rot hv
    refine ⟨r.1, fun hsym => ?_⟩
    rw [Rewritten.cost P hsym h.rot.rot hv.1 r]
    simp only [Shape.newEdges]
    rw [hsym h5 h3]; ring
  · simp only [if_true, OfNat.ofNat_ne_zero, OfNat.ofNat_ne_one, if_false]
    have r := combo_h_hh_RR h.rot hv
    refine ⟨r.1, fun hsym => ?_⟩
    rw [Rewritten.cost P hsym h.rot hv.1 r]
    simp only [Shape.newEdges]
    rw [hsym h4 h1, hsym h6 h2]; ring

end moves

/-! ## The positions met by the search of `three_opt_first` -/

theorem Valid.predAt_eq {n : Nat} {a : Arrays} (_hv : Valid n a) {p : Nat} (_hp : p < n) :
    predAt n a.tour p = rd a.tour (cidxb n p 1) := by
  unfold predAt cidxb
  split_ifs <;> first | rfl | (congr 1; omega)

theorem Valid.succ_eq {n : Nat} {a : Arrays} (hv : Valid n a) {p : Nat} (hp : p < n) :
    rd a.tour (p + 1) = rd a.tour (cidx n p 1) := (hv.tour_cidx_succ hp).symm

/-- The test of lines 371-381 in terms of cyclic distances from `pos_c1`. -/
theorem between_iff {n p1 p2 p3 : Nat} (h1 : p1 < n) (h2 : p2 < n) (h3 : p3 < n)
    (h12 : p2 ≠ p1) (h13 : p3 ≠ p1) :
    ((if p2 > p1 then decide (p3 ≤ p2 ∧ p3 > p1) else decide (p3 > p1 ∨ p3 < p2)) = true) ↔
      (cdist n p1 p3 < cdist n p1 p2 ∨ (cdist n p1 p3 = cdist n p1 p2 ∧ p2 > p1)) := by
  unfold cdist
  split_ifs <;> simp <;> omega

theorem flag1_arith {n p1 p2 p3 : Nat} (hp1 : p1 < n) (hp2 : p2 < n) (hp3 : p3 < n)
    (_h12 : p2 ≠ p1) (h13 : p3 ≠ p1) (hs3 : p3 ≠ cidx n p1 1)
    (hord : cdist n p1 p3 ≤ cdist n p1 p2) :
    1 ≤ (cdist n p1 p3 - 1) ∧ 1 ≤ cdist n p1 p2 - cdist n p1 p3 + 1 ∧ 1 ≤ n - cdist n p1 p2 ∧ (cdist n p1 p3 - 1) + (cdist n p1 p2 - cdist n p1 p3 + 1) + (n - cdist n p1 p2) = n ∧
    cidxb n p3 1 = cidx n (cidx n p1 1) ((cdist n p1 p3 - 1) - 1) ∧
    p3 = cidx n (cidx n p1 1) ((cdist n p1 p3 - 1)) ∧
    p2 = cidx n (cidx n p1 1) ((cdist n p1 p3 - 1) + (cdist n p1 p2 - cdist n p1 p3 + 1) - 1) ∧
    cidx n p2 1 = cidx n (cidx n p1 1) ((cdist n p1 p3 - 1) + (cdist n p1 p2 - cdist n p1 p3 + 1)) ∧
    p1 = cidx n (cidx n p1 1) (n - 1) := by
  have hd2 : (p1 ≤ p2 ∧ cdist n p1 p2 = p2 - p1) ∨ (p2 < p1 ∧ cdist n p1 p2 = p2 + n - p1) := by
    unfold cdist; split_ifs <;> omega
  have hd3 : (p1 ≤ p3 ∧ cdist n p1 p3 = p3 - p1) ∨ (p3 < p1 ∧ cdist n p1 p3 = p3 + n - p1) := by
    unfold cdist; split_ifs <;> omega
  generalize cdist n p1 p2 = o2 at *
  generalize cdist n p1 p3 = o3 at *
  have hs3' : ¬ (p3 = p1 + 1 ∨ (p3 = 0 ∧ p1 + 1 = n)) := by
    unfold cidx at hs3; split_ifs at hs3 <;> omega
  clear hs3
  refine ⟨by omega, by omega, by omega, by omega, ?_, ?_, ?_, ?_, ?_⟩
  · rw [cidx_cidx hp1 (by omega)]; unfold cidx cidxb; split_ifs <;> omega
  · rw [cidx_cidx hp1 (by omega)]; unfold cidx; split_ifs <;> omega
  · rw [cidx_cidx hp1 (by omega)]; unfold cidx; split_ifs <;> omega
  · rw [cidx_cidx hp1 (by omega)]; unfold cidx; split_ifs <;> omega
  · unfold cidx; split_ifs <;> omega

theorem flag2_arith {n p1 p2 p3 : Nat} (hp1 : p1 < n) (hp2 : p2 < n) (hp3 : p3 < n)
    (h12 : p2 ≠ p1) (h13 : p3 ≠ p1)
    (hord : cdist n p1 p2 < cdist n p1 p3) :
    1 ≤ (cdist n p1 p2) ∧ 1 ≤ cdist n p1 p3 - cdist n p1 p2 ∧ 1 ≤ n - cdist n p1 p3 ∧ (cdist n p1 p2) + (cdist n p1 p3 - cdist n p1 p2) + (n - cdist n p1 p3) = n ∧
    p2 = cidx n (cidx n p1 1) ((cdist n p1 p2) - 1) ∧
    cidx n p2 1 = cidx n (cidx n p1 1) ((cdist n p1 p2)) ∧
    p3 = cidx n (cidx n p1 1) ((cdist n p1 p2) + (cdist n p1 p3 - cdist n p1 p2) - 1) ∧
    cidx n p3 1 = cidx n (cidx n p1 1) ((cdist n p1 p2) + (cdist n p1 p3 - cdist n p1 p2)) ∧
    p1 = cidx n (cidx n p1 1) (n - 1) := by
  have hd2 : (p1 ≤ p2 ∧ cdist n p1 p2 = p2 - p1) ∨ (p2 < p1 ∧ cdist n p1 p2 = p2 + n - p1) := by
    unfold cdist; split_ifs <;> omega
  have hd3 : (p1 ≤ p3 ∧ cdist n p1 p3 = p3 - p1) ∨ (p3 < p1 ∧ cdist n p1 p3 = p3 + n - p1) := by
    unfold cdist; split_ifs <;> omega
  generalize cdist n p1 p2 = o2 at *
  generalize cdist n p1 p3 = o3 at *
  refine ⟨by omega, by omega, by omega, by omega, ?_, ?_, ?_, ?_, ?_⟩
  · rw [cidx_cidx hp1 (by omega)]; unfold cidx; split_ifs <;> omega
  · rw [cidx_cidx hp1 (by omega)]; unfold cidx; split_ifs <;> omega
  · rw [cidx_cidx hp1 (by omega)]; unfold cidx; split_ifs <;> omega
  · rw [cidx_cidx hp1 (by omega)]; unfold cidx; split_ifs <;> omega
  · unfold cidx; split_ifs <;> omega

theorem flag3_arith {n p1 p2 p3 : Nat} (hp1 : p1 < n) (hp2 : p2 < n) (hp3 : p3 < n)
    (h12 : p2 ≠ p1) (h13 : p3 ≠ p1) (hs2 : p2 ≠ cidx n p1 1)
    (hord : cdist n p1 p2 < cdist n p1 p3) :
    1 ≤ (cdist n p1 p2 - 1) ∧ 1 ≤ cdist n p1 p3 - cdist n p1 p2 ∧ 1 ≤ n - cdist n p1 p3 + 1 ∧ (cdist n p1 p2 - 1) + (cdist n p1 p3 - cdist n p1 p2) + (n - cdist n p1 p3 + 1) = n ∧
    cidxb n p2 1 = cidx n (cidx n p1 1) ((cdist n p1 p2 - 1) - 1) ∧
    p2 = cidx n (cidx n p1 1) ((cdist n p1 p2 - 1)) ∧
    cidxb n p3 1 = cidx n (cidx n p1 1) ((cdist n p1 p2 - 1) + (cdist n p1 p3 - cdist n p1 p2) - 1) ∧
    p3 = cidx n (cidx n p1 1) ((cdist n p1 p2 - 1) + (cdist n p1 p3 - cdist n p1 p2)) ∧
    p1 = cidx n (cidx n p1 1) (n - 1) := by
  have hd2 : (p1 ≤ p2 ∧ cdist n p1 p2 = p2 - p1) ∨ (p2 < p1 ∧ cdist n p1 p2 = p2 + n - p1) := by
    unfold cdist; split_ifs <;> omega
  have hd3 : (p1 ≤ p3 ∧ cdist n p1 p3 = p3 - p1) ∨ (p3 < p1 ∧ cdist n p1 p3 = p3 + n - p1) := by
    unfold cdist; split_ifs <;> omega
  generalize cdist n p1 p2 = o2 at *
  generalize cdist n p1 p3 = o3 at *
  have hs2' : ¬ (p2 = p1 + 1 ∨ (p2 = 0 ∧ p1 + 1 = n)) := by
    unfold cidx at hs2; split_ifs at hs2 <;> omega
  clear hs2
  refine ⟨by omega, by omega, by omega, by omega, ?_, ?_, ?_, ?_, ?_⟩
  · rw [cidx_cidx hp1 (by omega)]; unfold cidx cidxb; split_ifs <;> omega
  · rw [cidx_cidx hp1 (by omega)]; unfold cidx; split_ifs <;> omega
  · rw [cidx_cidx hp1 (by omega)]; unfold cidx cidxb; split_ifs <;> omega
  · rw [cidx_cidx hp1 (by omega)]; unfold cidx; split_ifs <;> omega
  · unfold cidx; split_ifs <;> omega

theorem flag4_arith {n p1 p2 p3 : Nat} (hp1 : p1 < n) (hp2 : p2 < n) (hp3 : p3 < n)
    (h12 : p2 ≠ p1) (h13 : p3 ≠ p1) (hs2 : p2 ≠ cidx n p1 1)
    (hord : cdist n p1 p2 ≤ cdist n p1 p3) :
    1 ≤ (cdist n p1 p2 - 1) ∧ 1 ≤ cdist n p1 p3 - cdist n p1 p2 + 1 ∧ 1 ≤ n - cdist n p1 p3 ∧ (cdist n p1 p2 - 1) + (cdist n p1 p3 - cdist n p1 p2 + 1) + (n - cdist n p1 p3) = n ∧
    cidxb n p2 1 = cidx n (cidx n p1 1) ((cdist n p1 p2 - 1) - 1) ∧
    p2 = cidx n (cidx n p1 1) ((cdist n p1 p2 - 1)) ∧
    p3 = cidx n (cidx n p1 1) ((cdist n p1 p2 - 1) + (cdist n p1 p3 - cdist n p1 p2 + 1) - 1) ∧
    cidx n p3 1 = cidx n (cidx n p1 1) ((cdist n p1 p2 - 1) + (cdist n p1 p3 - cdist n p1 p2 + 1)) ∧
    p1 = cidx n (cidx n p1 1) (n - 1) := by
  have hd2 : (p1 ≤ p2 ∧ cdist n p1 p2 = p2 - p1) ∨ (p2 < p1 ∧ cdist n p1 p2 = p2 + n - p1) := by
    unfold cdist; split_ifs <;> omega
  have hd3 : (p1 ≤ p3 ∧ cdist n p1 p3 = p3 - p1) ∨ (p3 < p1 ∧ cdist n p1 p3 = p3 + n - p1) := by
    unfold cdist; split_ifs <;> omega
  generalize cdist n p1 p2 = o2 at *
  generalize cdist n p1 p3 = o3 at *
  have hs2' : ¬ (p2 = p1 + 1 ∨ (p2 = 0 ∧ p1 + 1 = n)) := by
    unfold cidx at hs2; split_ifs at hs2 <;> omega
  clear hs2
  refine ⟨by omega, by omega, by omega, by omega, ?_, ?_, ?_, ?_, ?_⟩
  · rw [cidx_cidx hp1 (by omega)]; unfold cidx cidxb; split_ifs <;> omega
  · rw [cidx_cidx hp1 (by omega)]; unfold cidx; split_ifs <;> omega
  · rw [cidx_cidx hp1 (by omega)]; unfold cidx; split_ifs <;> omega
  · rw [cidx_cidx hp1 (by omega)]; unfold cidx; split_ifs <;> omega
  · unfold cidx; split_ifs <;> omega

section cfgs

variable {n : Nat} {a : Arrays} {c1 c2 c3 : Nat}

/-- Parts `[s_c1..p_c3]`, `[c3..c2]`, `[s_c2..c1]` of the between move. -/
theorem cfg_flag1 (hv : Valid n a) (hc1 : c1 < n) (hc2 : c2 < n) (hc3 : c3 < n)
    (h12 : rd a.pos c2 ≠ rd a.pos c1) (h13 : rd a.pos c3 ≠ rd a.pos c1)
    (hs3 : rd a.pos c3 ≠ cidx n (rd a.pos c1) 1)
    (hord : cdist n (rd a.pos c1) (rd a.pos c3) ≤ cdist n (rd a.pos c1) (rd a.pos c2)) :
    Cfg n a (cidx n (rd a.pos c1) 1) (cdist n (rd a.pos c1) (rd a.pos c3) - 1)
      (cdist n (rd a.pos c1) (rd a.pos c2) - cdist n (rd a.pos c1) (rd a.pos c3) + 1)
      (n - cdist n (rd a.pos c1) (rd a.pos c2))
      (rd a.tour (rd a.pos c1 + 1)) (predAt n a.tour (rd a.pos c3)) c3 c2
      (rd a.tour (rd a.pos c2 + 1)) c1 := by
  have hp1 := hv.pos_lt hc1
  have hp2 := hv.pos_lt hc2
  have hp3 := hv.pos_lt hc3
  have t1 := hv.tour_pos hc1
  have t2 := hv.tour_pos hc2
  have t3 := hv.tour_pos hc3
  obtain ⟨k1, k2, k3, k4, e1, e2, e3, e4, e5⟩ := flag1_arith hp1 hp2 hp3 h12 h13 hs3 hord
  rw [hv.succ_eq hp1, hv.succ_eq hp2, hv.predAt_eq hp3]
  exact ⟨cidx_lt hp1 (by omega), k1, k2, k3, k4, rfl, by rw [← e1], by rw [← e2, t3], by rw [← e3, t2], by rw [← e4], by rw [← e5, t1]⟩

/-- Parts `[s_c1..c2]`, `[s_c2..c3]`, `[s_c3..c1]` of the move with `move_flag == 2`. -/
theorem cfg_flag2 (hv : Valid n a) (hc1 : c1 < n) (hc2 : c2 < n) (hc3 : c3 < n)
    (h12 : rd a.pos c2 ≠ rd a.pos c1) (h13 : rd a.pos c3 ≠ rd a.pos c1)
    (hord : cdist n (rd a.pos c1) (rd a.pos c2) < cdist n (rd a.pos c1) (rd a.pos c3)) :
    Cfg n a (cidx n (rd a.pos c1) 1) (cdist n (rd a.pos c1) (rd a.pos c2))
      (cdist n (rd a.pos c1) (rd a.pos c3) - cdist n (rd a.pos c1) (rd a.pos c2))
      (n - cdist n (rd a.pos c1) (rd a.pos c3))
      (rd a.tour (rd a.pos c1 + 1)) c2 (rd a.tour (rd a.pos c2 + 1)) c3
      (rd a.tour (rd a.pos c3 + 1)) c1 := by
  have hp1 := hv.pos_lt hc1
  have hp2 := hv.pos_lt hc2
  have hp3 := hv.pos_lt hc3
  have t1 := hv.tour_pos hc1
  have t2 := hv.tour_pos hc2
  have t3 := hv.tour_pos hc3
  obtain ⟨k1, k2, k3, k4, e1, e2, e3, e4, e5⟩ := flag2_arith hp1 hp2 hp3 h12 h13 hord
  rw [hv.succ_eq hp1, hv.succ_eq hp2, hv.succ_eq hp3]
  exact ⟨cidx_lt hp1 (by omega), k1, k2, k3, k4, rfl, by rw [← e1, t2], by rw [← e2], by rw [← e3, t3], by rw [← e4], by rw [← e5, t1]⟩

/-- Parts `[s_c1..p_c2]`, `[c2..p_c3]`, `[c3..c1]` of the move with `move_flag == 3`. -/
theorem cfg_flag3 (hv : Valid n a) (hc1 : c1 < n) (hc2 : c2 < n) (hc3 : c3 < n)
    (h12 : rd a.pos c2 ≠ rd a.pos c1) (h13 : rd a.pos c3 ≠ rd a.pos c1)
    (hs2 : rd a.pos c2 ≠ cidx n (rd a.pos c1) 1)
    (hord : cdist n (rd a.pos c1) (rd a.pos c2) < cdist n (rd a.pos c1) (rd a.pos c3)) :
    Cfg n a (cidx n (rd a.pos c1) 1) (cdist n (rd a.pos c1) (rd a.pos c2) - 1)
      (cdist n (rd a.pos c1) (rd a.pos c3) - cdist n (rd a.pos c1) (rd a.pos c2))
      (n - cdist n (rd a.pos c1) (rd a.pos c3) + 1)
      (rd a.tour (rd a.pos c1 + 1)) (predAt n a.tour (rd a.pos c2)) c2
      (predAt n a.tour (rd a.pos c3)) c3 c1 := by
  have hp1 := hv.pos_lt hc1
  have hp2 := hv.pos_lt hc2
  have hp3 := hv.pos_lt hc3
  have t1 := hv.tour_pos hc1
  have t2 := hv.tour_pos hc2
  have t3 := hv.tour_pos hc3
  obtain ⟨k1, k2, k3, k4, e1, e2, e3, e4, e5⟩ := flag3_arith hp1 hp2 hp3 h12 h13 hs2 hord
  rw [hv.succ_eq hp1, hv.predAt_eq hp2, hv.predAt_eq hp3]
  exact ⟨cidx_lt hp1 (by omega), k1, k2, k3, k4, rfl, by rw [← e1], by rw [← e2, t2], by rw [← e3], by rw [← e4, t3], by rw [← e5, t1]⟩

/-- Parts `[s_c1..p_c2]`, `[c2..c3]`, `[s_c3..c1]` of the cyclic move. -/
theorem cfg_flag4 (hv : Valid n a) (hc1 : c1 < n) (hc2 : c2 < n) (hc3 : c3 < n)
    (h12 : rd a.pos c2 ≠ rd a.pos c1) (h13 : rd a.pos c3 ≠ rd a.pos c1)
    (hs2 : rd a.pos c2 ≠ cidx n (rd a.pos c1) 1)
    (hord : cdist n (rd a.pos c1) (rd a.pos c2) ≤ cdist n (rd a.pos c1) (rd a.pos c3)) :
    Cfg n a (cidx n (rd a.pos c1) 1) (cdist n (rd a.pos c1) (rd a.pos c2) - 1)
      (cdist n (rd a.pos c1) (rd a.pos c3) - cdist n (rd a.pos c1) (rd a.pos c2) + 1)
      (n - cdist n (rd a.pos c1) (rd a.pos c3))
      (rd a.tour (rd a.pos c1 + 1)) (predAt n a.tour (rd a.pos c2)) c2 c3
      (rd a.tour (rd a.pos c3 + 1)) c1 := by
  have hp1 := hv.pos_lt hc1
  have hp2 := hv.pos_lt hc2
  have hp3 := hv.pos_lt hc3
  have t1 := hv.tour_pos hc1
  have t2 := hv.tour_pos hc2
  have t3 := hv.tour_pos hc3
  obtain ⟨k1, k2, k3, k4, e1, e2, e3, e4, e5⟩ := flag4_arith hp1 hp2 hp3 h12 h13 hs2 hord
  rw [hv.succ_eq hp1, hv.predAt_eq hp2, hv.succ_eq hp3]
  exact ⟨cidx_lt hp1 (by omega), k1, k2, k3, k4, rfl, by rw [← e1], by rw [← e2, t2], by rw [← e3, t3], by rw [← e4], by rw [← e5, t1]⟩

end cfgs

/-! ## three_opt_first: what the search memorises -/

theorem cdist_inj {n p1 p2 p3 : Nat} (h1 : p1 < n) (h2 : p2 < n) (h3 : p3 < n)
    (e : cdist n p1 p2 = cdist n p1 p3) : p2 = p3 := by
  unfold cdist at e; split_ifs at e <;> omega

theorem inner_search_spec {P : TspProblem} {n : Nat} {a : Arrays} (hv : Valid n a)
    (hP : WFP n P) {c1 c2 s_c1 s_c2 p_c2 pos_c1 pos_c2 : Nat} {radius add1 db : ℚ}
    (hc1 : c1 < n) (hc2 : c2 < n) (h12 : c2 ≠ c1)
    (e1 : s_c1 = rd a.tour (rd a.pos c1 + 1)) (e2 : s_c2 = rd a.tour (rd a.pos c2 + 1))
    (e3 : p_c2 = predAt n a.tour (rd a.pos c2)) (e4 : pos_c1 = rd a.pos c1)
    (e5 : pos_c2 = rd a.pos c2) (e6 : radius = P.dist c1 s_c1) (e7 : add1 = P.dist c1 c2)
    (e8 : db = - radius - P.dist c2 s_c2)
    (hs2 : c2 ≠ s_c1) (sc : Scan) (hmv : sc.move_value ≤ 0) :
    ∀ gs : List Nat, (∀ g ∈ gs, g < n - 1) →
      InnerOk P n a (inner_search P n a c1 s_c1 c2 s_c2 p_c2 pos_c1 pos_c2 radius add1 db
        sc gs) := by
  have hs1 : s_c1 < n := by
    rw [e1, hv.succ_eq (hv.pos_lt hc1)]
    exact hv.tour_lt _ (cidx_lt (hv.pos_lt hc1) (by omega))
  have hps1 : rd a.pos s_c1 = cidx n (rd a.pos c1) 1 := by rw [e1]; exact hv.pos_succ hc1
  have hp12 : rd a.pos c2 ≠ rd a.pos c1 := fun e => h12 (hv.pos_inj hc2 hc1 e)
  have hps2 : rd a.pos c2 ≠ cidx n (rd a.pos c1) 1 := by
    rw [← hps1]; exact fun e => hs2 (hv.pos_inj hc2 hs1 e)
  have he := EPS_pos
  intro gs
  induction gs with
  | nil => intro _; left; rfl
  | cons g gs ih =>
    intro hall
    have hrec := ih (fun x hx => hall x (by simp [hx]))
    obtain ⟨hc3, hc3s⟩ := hP _ hs1 g (hall g (by simp))
    generalize hc3e : P.nn s_c1 g = c3 at hc3 hc3s
    have hps3 : rd a.pos c3 ≠ cidx n (rd a.pos c1) 1 := by
      rw [← hps1]; exact fun e => hc3s (hv.pos_inj hc3 hs1 e)
    simp only [inner_search, hc3e]
    by_cases h31 : c3 = c1
    · rw [if_pos h31]; exact hrec
    rw [if_neg h31]
    have hp13 : rd a.pos c3 ≠ rd a.pos c1 :=
      fun e => h31 (hv.pos_inj hc3 hc1 e)
    have hbi := between_iff (n := n) (hv.pos_lt hc1) (hv.pos_lt hc2) (hv.pos_lt hc3) hp12 hp13
    by_cases k1 : db + add1 < P.dist s_c1 c3
    swap
    · rw [if_neg k1]; left; rfl
    rw [if_pos k1, if_neg (by rw [e4, e5]; exact hp12)]
    rw [e4, e5] at *
    generalize hb : (if rd a.pos c2 > rd a.pos c1 then
        decide (rd a.pos c3 ≤ rd a.pos c2 ∧ rd a.pos c3 > rd a.pos c1)
      else decide (rd a.pos c3 > rd a.pos c1 ∨ rd a.pos c3 < rd a.pos c2)) = between at hbi
    by_cases k3 : between = true
    · rw [if_pos k3]
      by_cases k4 : db - P.dist c3 (predAt n a.tour (rd a.pos c3)) + add1 + P.dist s_c1 c3
          + P.dist (predAt n a.tour (rd a.pos c3)) s_c2 < sc.move_value - EPS
      swap
      · rw [if_neg k4]; exact hrec
      rw [if_pos k4]
      right
      have hord : cdist n (rd a.pos c1) (rd a.pos c3) ≤ cdist n (rd a.pos c1) (rd a.pos c2) := by
        have := hbi.1 k3; omega
      have hcfg := cfg_flag1 hv hc1 hc2 hc3 hp12 hp13 hps3 hord
      subst e1 e2 e6 e7 e8
      refine ⟨_, rfl, ⟨rfl, rfl, ?_, Or.inl ⟨rfl, ⟨_, _, _, _, hcfg⟩, ?_⟩⟩⟩
      · dsimp only
        linarith
      · rfl
    rw [if_neg k3]
    have hnb : ¬ (cdist n (rd a.pos c1) (rd a.pos c3) < cdist n (rd a.pos c1) (rd a.pos c2) ∨
        cdist n (rd a.pos c1) (rd a.pos c3) = cdist n (rd a.pos c1) (rd a.pos c2) ∧
          rd a.pos c2 > rd a.pos c1) := fun hh => k3 (hbi.2 hh)
    by_cases k5 : (if rd a.pos c2 = rd a.pos c3 then (20000 : ℚ) else
        db - P.dist c3 (rd a.tour (rd a.pos c3 + 1)) + add1 + P.dist s_c1 c3
          + P.dist s_c2 (rd a.tour (rd a.pos c3 + 1))) < sc.move_value - EPS
    · rw [if_pos k5]
      right
      have hp23 : rd a.pos c2 ≠ rd a.pos c3 := by
        intro e
        rw [if_pos e] at k5
        linarith
      have hord : cdist n (rd a.pos c1) (rd a.pos c2) < cdist n (rd a.pos c1) (rd a.pos c3) := by
        have h2 : cdist n (rd a.pos c1) (rd a.pos c2) ≠ cdist n (rd a.pos c1) (rd a.pos c3) :=
          fun e => hp23 (cdist_inj (hv.pos_lt hc1) (hv.pos_lt hc2) (hv.pos_lt hc3) e)
        omega
      rw [if_neg hp23] at k5
      have hcfg := cfg_flag2 hv hc1 hc2 hc3 hp12 hp13 hord
      subst e1 e2 e6 e7 e8
      refine ⟨_, rfl, ⟨rfl, rfl, ?_, Or.inr (Or.inl ⟨rfl, ⟨_, _, _, _, hcfg⟩, ?_⟩)⟩⟩
      · dsimp only
        rw [if_neg hp23]
        linarith
      · dsimp only
        rw [if_neg hp23]
    rw [if_neg k5]
    by_cases k6 : (if c3 = c2 ∨ c2 = c1 ∨ c1 = c3 ∨ p_c2 = c1 then (2000000 : ℚ) else
        - radius - P.dist p_c2 c2 - P.dist (predAt n a.tour (rd a.pos c3)) c3 + add1
          + P.dist s_c1 c3 + P.dist p_c2 (predAt n a.tour (rd a.pos c3))) < sc.move_value - EPS
    · rw [if_pos k6]
      right
      have hcond : ¬ (c3 = c2 ∨ c2 = c1 ∨ c1 = c3 ∨ p_c2 = c1) := by
        intro e
        rw [if_pos e] at k6
        linarith
      have hp23 : rd a.pos c2 ≠ rd a.pos c3 :=
        fun e => hcond (Or.inl (hv.pos_inj hc2 hc3 e).symm)
      have hord : cdist n (rd a.pos c1) (rd a.pos c2) < cdist n (rd a.pos c1) (rd a.pos c3) := by
        have h2 : cdist n (rd a.pos c1) (rd a.pos c2) ≠ cdist n (rd a.pos c1) (rd a.pos c3) :=
          fun e => hp23 (cdist_inj (hv.pos_lt hc1) (hv.pos_lt hc2) (hv.pos_lt hc3) e)
        omega
      rw [if_neg hcond] at k6
      have hcfg := cfg_flag3 hv hc1 hc2 hc3 hp12 hp13 hps2 hord
      subst e1 e3 e6 e7
      refine ⟨_, rfl, ⟨rfl, rfl, ?_, Or.inr (Or.inr (Or.inl ⟨rfl, ⟨_, _, _, _, hcfg⟩, ?_⟩))⟩⟩
      · dsimp only
        rw [if_neg hcond]
        linarith
      · dsimp only
        rw [if_neg hcond]
    rw [if_neg k6]
    by_cases k7 : - radius - P.dist p_c2 c2 - P.dist c3 (rd a.tour (rd a.pos c3 + 1)) + add1
          + P.dist s_c1 c3 + P.dist p_c2 (rd a.tour (rd a.pos c3 + 1)) < sc.move_value - EPS
    swap
    · rw [if_neg k7]; exact hrec
    rw [if_pos k7]
    right
    have hord : cdist n (rd a.pos c1) (rd a.pos c2) ≤ cdist n (rd a.pos c1) (rd a.pos c3) := by
      omega
    have hcfg := cfg_flag4 hv hc1 hc2 hc3 hp12 hp13 hps2 hord
    subst e1 e3 e6 e7
    refine ⟨_, rfl, ⟨rfl, rfl, ?_, Or.inr (Or.inr (Or.inr ⟨rfl, ⟨_, _, _, _, hcfg⟩, ?_⟩))⟩⟩
    · dsimp only
      linarith
    · rfl

theorem outer_search_spec {P : TspProblem} {n : Nat} {a : Arrays} (hv : Valid n a)
    (hP : WFP n P) {c1 s_c1 pos_c1 : Nat} (hc1 : c1 < n)
    (e1 : s_c1 = rd a.tour (rd a.pos c1 + 1)) (e4 : pos_c1 = rd a.pos c1) :
    ∀ (hs : List Nat), (∀ h ∈ hs, h < n - 1) → ∀ sc : Scan, ScanInv P n a sc →
      ∃ sc', outer_search P n a c1 s_c1 pos_c1 hs sc = .ok sc' ∧ ScanInv P n a sc' := by
  have he := EPS_pos
  intro hs
  induction hs with
  | nil => intro _ sc hsc; exact ⟨sc, rfl, hsc⟩
  | cons h hs ih =>
    intro hall sc hsc
    have hrec := ih (fun x hx => hall x (by simp [hx]))
    obtain ⟨hc2, h12⟩ := hP c1 hc1 h (hall h (by simp))
    generalize hc2e : P.nn c1 h = c2 at hc2 h12
    simp only [outer_search, hc2e]
    by_cases hr : P.dist c1 s_c1 > P.dist c1 c2
    swap
    · rw [if_neg hr]; exact ⟨sc, rfl, hsc⟩
    rw [if_pos hr]
    have hs2 : c2 ≠ s_c1 := by
      intro e
      rw [e] at hr
      exact lt_irrefl _ hr
    obtain ⟨hp2, -, hsp⟩ := hv.pos_pred hc2
    have hpc : predAt n a.tour (rd a.pos c2) ≠ c1 := by
      intro e
      rw [e] at hsp
      exact hs2 (by rw [e1]; exact hsp.symm)
    rw [if_neg hpc]
    have key : ∀ sc1 : Scan, ScanInv P n a sc1 → ∃ sc',
        (match inner_search P n a c1 s_c1 c2 (rd a.tour (rd a.pos c2 + 1))
            (predAt n a.tour (rd a.pos c2)) pos_c1 (rd a.pos c2)
            (P.dist c1 s_c1) (P.dist c1 c2)
            (-P.dist c1 s_c1 - P.dist c2 (rd a.tour (rd a.pos c2 + 1))) sc1 (candidates n) with
          | Inner.jump sc1 => Except.ok sc1
          | Inner.failed => Except.error Err.assertFalse
          | Inner.fallthrough => outer_search P n a c1 s_c1 pos_c1 hs sc1) = .ok sc' ∧
        ScanInv P n a sc' := by
      intro sc1 hsc1
      have hin := inner_search_spec hv hP hc1 hc2 h12 e1 rfl rfl e4 rfl rfl rfl rfl hs2 sc1
        hsc1.1 (candidates n) (fun g hg => (mem_candidates hg).1)
      generalize inner_search P n a c1 s_c1 c2 (rd a.tour (rd a.pos c2 + 1))
            (predAt n a.tour (rd a.pos c2)) pos_c1 (rd a.pos c2)
            (P.dist c1 s_c1) (P.dist c1 c2)
            (-P.dist c1 s_c1 - P.dist c2 (rd a.tour (rd a.pos c2 + 1))) sc1 (candidates n) = r
        at hin
      rcases hin with rfl | ⟨sc2, rfl, h3⟩
      · exact hrec sc1 hsc1
      · exact ⟨sc2, rfl, le_of_lt (lt_trans h3.lt (by linarith)), Or.inr (Or.inr h3)⟩
    apply key
    split_ifs with k1 k2
    · refine ⟨?_, Or.inr (Or.inl ⟨rfl, rfl, rfl, hc1, hc2, h12.symm, e1, rfl, ?_, fun _ => ?_⟩)⟩
      · dsimp only
        have := hsc.1
        rcases k1 with k | k <;> linarith
      · dsimp only
        have := hsc.1
        rcases k1 with k | k <;> linarith
      · dsimp only
    · refine ⟨?_, Or.inr (Or.inl ⟨rfl, rfl, rfl, hc1, hp2, hpc.symm, e1, hsp.symm, ?_,
        fun hsym => ?_⟩)⟩
      · dsimp only
        have := hsc.1
        rcases k1 with k | k <;> linarith
      · dsimp only
        have := hsc.1
        rcases k1 with k | k <;> linarith
      · dsimp only
        rw [hsym c2 (predAt n a.tour (rd a.pos c2))]
    · exact hsc

/-! ## three_opt_first: the exchange and the loops -/

theorem exchange_spec {P : TspProblem} {n : Nat} {s : State} {sc : Scan}
    (hv : Valid3 n s.arr) (hsc : Opt2Ok P n s.arr sc ∨ Move3Ok P n s.arr sc) :
    ∃ s', exchange n s sc = .ok s' ∧ Valid3 n s'.arr ∧ s'.move_value = 0 ∧
      s'.improvement_flag = true ∧ s'.n_exchanges = s.n_exchanges + 1 ∧
      sc.move_value < -EPS ∧
      ((∀ i j, P.dist i j = P.dist j i) →
        cycCost P n s'.arr.tour = cycCost P n s.arr.tour + sc.move_value) := by
  rcases hsc with h | h
  · have e0 := h.flag0
    have e1 := h.opt2
    have e2 := h.h2_eq
    have e3 := h.h4_eq
    have e4 := h.flagged
    obtain ⟨v1, v2, v3⟩ := exchange2opt_valid hv.1 h.h1_lt h.h3_lt h.ne
    have he : exchange n s sc = .ok
        { arr := exchange2opt n s.arr sc.h1 sc.h2 sc.h3 sc.h4,
          dlb := wrB (wrB (wrB (wrB s.dlb sc.h1 false) sc.h2 false) sc.h3 false) sc.h4 false,
          improvement_flag := sc.improvement_flag, move_value := 0,
          n_exchanges := s.n_exchanges + 1 } := by
      simp only [exchange, e0, e1, ne_eq, not_true_eq_false, if_false, if_true]
    refine ⟨_, he, ?_, rfl, e4, rfl, h.lt, fun hsym => ?_⟩
    · dsimp only
      rw [e2, e3]
      exact ⟨v1, by rw [v2]; exact hv.2.1, by rw [v3]; exact hv.2.2⟩
    · dsimp only
      rw [e2, e3, exchange2opt_cost P hsym hv.1 h.h1_lt h.h3_lt h.ne, h.val hsym, e2, e3]
      ring
  · have e1 := h.opt2
    have e4 := h.flagged
    rcases h.shape with ⟨e0, ⟨w, x, y, z, hc⟩, ev⟩ | ⟨e0, ⟨w, x, y, z, hc⟩, ev⟩ |
      ⟨e0, ⟨w, x, y, z, hc⟩, ev⟩ | ⟨e0, ⟨w, x, y, z, hc⟩, ev⟩
    · obtain ⟨m1, m2⟩ := move1_spec P hc hv
      have he : exchange n s sc = .ok
          { arr := move1 n s.arr sc.h1 sc.h2 sc.h3 sc.h4 sc.h5 sc.h6 (rd s.arr.pos sc.h1)
              (rd s.arr.pos sc.h3) (rd s.arr.pos sc.h5),
            dlb := wrB (wrB (wrB (wrB (wrB (wrB s.dlb sc.h1 false) sc.h2 false) sc.h3 false)
              sc.h4 false) sc.h5 false) sc.h6 false,
            improvement_flag := sc.improvement_flag, move_value := 0,
            n_exchanges := s.n_exchanges + 1 } := by
        simp [exchange, e0, e1]
      refine ⟨_, he, m1, rfl, e4, rfl, h.lt, fun hsym => ?_⟩
      dsimp only
      rw [m2 hsym, ev]
      ring
    · obtain ⟨m1, m2⟩ := move2_spec P hc hv
      have he : exchange n s sc = .ok
          { arr := move2 n s.arr sc.h1 sc.h2 sc.h3 sc.h4 sc.h5 sc.h6 (rd s.arr.pos sc.h1)
              (rd s.arr.pos sc.h3) (rd s.arr.pos sc.h5),
            dlb := wrB (wrB (wrB (wrB (wrB (wrB s.dlb sc.h1 false) sc.h2 false) sc.h3 false)
              sc.h4 false) sc.h5 false) sc.h6 false,
            improvement_flag := sc.improvement_flag, move_value := 0,
            n_exchanges := s.n_exchanges + 1 } := by
        simp [exchange, e0, e1]
      refine ⟨_, he, m1, rfl, e4, rfl, h.lt, fun hsym => ?_⟩
      dsimp only
      rw [m2 hsym, ev]
      ring
    · obtain ⟨m1, m2⟩ := move3_spec P hc hv
      have he : exchange n s sc = .ok
          { arr := move3 n s.arr sc.h1 sc.h2 sc.h3 sc.h4 sc.h5 sc.h6 (rd s.arr.pos sc.h1)
              (rd s.arr.pos sc.h3) (rd s.arr.pos sc.h5),
            dlb := wrB (wrB (wrB (wrB (wrB (wrB s.dlb sc.h1 false) sc.h2 false) sc.h3 false)
              sc.h4 false) sc.h5 false) sc.h6 false,
            improvement_flag := sc.improvement_flag, move_value := 0,
            n_exchanges := s.n_exchanges + 1 } := by
        simp [exchange, e0, e1]
      refine ⟨_, he, m1, rfl, e4, rfl, h.lt, fun hsym => ?_⟩
      dsimp only
      rw [m2 hsym, ev]
      ring
    · obtain ⟨m1, m2⟩ := move4_spec P hc hv
      have he : exchange n s sc = .ok
          { arr := move4 n s.arr sc.h1 sc.h2 sc.h3 sc.h4 sc.h5 sc.h6 (rd s.arr.pos sc.h1)
              (rd s.arr.pos sc.h3) (rd s.arr.pos sc.h5),
            dlb := wrB (wrB (wrB (wrB (wrB (wrB s.dlb sc.h1 false) sc.h2 false) sc.h3 false)
              sc.h4 false) sc.h5 false) sc.h6 false,
            improvement_flag := sc.improvement_flag, move_value := 0,
            n_exchanges := s.n_exchanges + 1 } := by
        simp [exchange, e0, e1]
      refine ⟨_, he, m1, rfl, e4, rfl, h.lt, fun hsym => ?_⟩
      dsimp only
      rw [m2 hsym, ev]
      ring

/-- What the evaluation of one city in `three_opt_first` establishes. -/
theorem three_opt_point_spec {P : TspProblem} {n : Nat} {rv : List Nat} {s : State} {l : Nat}
    (hP : WFP n P) (hv : Valid3 n s.arr) (hmv : s.move_value = 0) (hl : rd rv l < n) :
    ∃ s', three_opt_point P n rv s l = .ok s' ∧ Valid3 n s'.arr ∧ s'.move_value = 0 ∧
      ((s'.improvement_flag = s.improvement_flag ∧ s'.n_exchanges = s.n_exchanges ∧
          s'.arr = s.arr) ∨
       (s'.improvement_flag = true ∧ s'.n_exchanges = s.n_exchanges + 1 ∧
          ((∀ i j, P.dist i j = P.dist j i) →
            cycCost P n s'.arr.tour + EPS ≤ cycCost P n s.arr.tour))) := by
  unfold three_opt_point
  simp only
  by_cases hd : rdB s.dlb (rd rv l) = true
  · rw [if_pos hd]
    exact ⟨s, rfl, hv, hmv, Or.inl ⟨rfl, rfl, rfl⟩⟩
  rw [if_neg hd]
  obtain ⟨sc, h1, h2⟩ := outer_search_spec hv.1 hP hl rfl rfl (candidates n)
    (fun h hh => (mem_candidates hh).1)
    { opt2_flag := false, move_flag := 0, h1 := 0, h2 := 0, h3 := 0, h4 := 0, h5 := 0,
      h6 := 0, move_value := s.move_value, improvement_flag := s.improvement_flag }
    ⟨le_of_eq hmv, Or.inl ⟨rfl, rfl⟩⟩
  rw [h1]
  simp only
  by_cases hm : sc.move_flag ≠ 0 ∨ sc.opt2_flag = true
  · rw [if_pos hm]
    have hsc : Opt2Ok P n s.arr sc ∨ Move3Ok P n s.arr sc := by
      rcases h2.2 with h | h | h
      · exfalso
        rcases hm with hm | hm
        · exact hm h.1
        · rw [h.2] at hm; cases hm
      · exact Or.inl h
      · exact Or.inr h
    obtain ⟨s', x1, x2, x3, x4, x5, x6, x7⟩ := exchange_spec hv hsc
    refine ⟨s', x1, x2, x3, Or.inr ⟨x4, x5, fun hsym => ?_⟩⟩
    rw [x7 hsym]
    linarith
  · rw [if_neg hm]
    exact ⟨_, rfl, hv, hmv, Or.inl ⟨rfl, rfl, rfl⟩⟩

theorem three_opt_points_spec {P : TspProblem} {n : Nat} {rv : List Nat} (hP : WFP n P)
    (hrv : ∀ l, l < n → rd rv l < n) :
    ∀ (ls : List Nat) (s : State), (∀ l ∈ ls, l < n) → Valid3 n s.arr → s.move_value = 0 →
      ∃ s', three_opt_points P n rv ls s = .ok s' ∧ Valid3 n s'.arr ∧ s'.move_value = 0 ∧
        s.n_exchanges ≤ s'.n_exchanges ∧
        (s'.improvement_flag = true ↔
          s.improvement_flag = true ∨ s.n_exchanges < s'.n_exchanges) ∧
        ((∀ i j, P.dist i j = P.dist j i) → Rel P n s s') := by
  intro ls
  induction ls with
  | nil =>
    intro s _ hv hmv
    exact ⟨s, rfl, hv, hmv, le_refl _, by simp, fun _ => Rel.refl P n s⟩
  | cons l ls ih =>
    intro s hall hv hmv
    obtain ⟨s1, p1, p2, p3, p4⟩ := three_opt_point_spec hP hv hmv (hrv l (hall l (by simp)))
    obtain ⟨s2, q1, q2, q3, q4, q5, q6⟩ := ih s1 (fun x hx => hall x (by simp [hx])) p2 p3
    refine ⟨s2, by simp only [three_opt_points, p1]; exact q1, q2, q3, ?_, ?_, fun hsym => ?_⟩
    · rcases p4 with ⟨_, h, _⟩ | ⟨_, h, _⟩ <;> omega
    · rw [q5]
      rcases p4 with ⟨h0, h, _⟩ | ⟨h0, h, _⟩
      · rw [h0, h]
      · rw [h0, h]
        simp only [true_or, true_iff]
        right; omega
    · refine Rel.trans ?_ (q6 hsym)
      rcases p4 with ⟨_, h, ha⟩ | ⟨_, h, hc⟩
      · unfold Rel
        rw [h, ha]
        simp
      · unfold Rel
        rw [h]
        refine ⟨by omega, ?_⟩
        have := hc hsym
        push_cast
        linarith

/-- What a sweep of `three_opt_first` establishes. -/
theorem three_opt_sweep_spec {P : TspProblem} {n : Nat} {rv : List Nat} (hP : WFP n P)
    (hrv : ∀ l, l < n → rd rv l < n) {s : State} (hv : Valid3 n s.arr) :
    ∃ s', three_opt_sweep P n rv s = .ok s' ∧ Valid3 n s'.arr ∧
      s.n_exchanges ≤ s'.n_exchanges ∧
      (s'.improvement_flag = true ↔ s.n_exchanges < s'.n_exchanges) ∧
      ((∀ i j, P.dist i j = P.dist j i) → Rel P n s s') := by
  obtain ⟨s', q1, q2, _, q4, q5, q6⟩ := three_opt_points_spec hP hrv (List.range n)
    { s with move_value := 0, improvement_flag := false } (fun l hl => by simpa using hl) hv rfl
  refine ⟨s', q1, q2, q4, ?_, q6⟩
  rw [q5]
  simp

theorem three_opt_loop_succ (P : TspProblem) (n : Nat) (rv : List Nat) (f : Nat) (s : State) :
    three_opt_loop P n rv (f + 1) s =
      if s.improvement_flag then
        match three_opt_sweep P n rv s with
        | .error e => .error e
        | .ok s1 => three_opt_loop P n rv f s1
      else .ok s :=
  rfl

theorem three_opt_loop_spec {P : TspProblem} {n : Nat} {rv : List Nat} (hP : WFP n P)
    (hrv : ∀ l, l < n → rd rv l < n) :
    ∀ (fuel : Nat) (s s' : State), Valid3 n s.arr → three_opt_loop P n rv fuel s = .ok s' →
      Valid3 n s'.arr ∧ ((∀ i j, P.dist i j = P.dist j i) → Rel P n s s') := by
  intro fuel
  induction fuel with
  | zero => intro s s' _ h; simp [three_opt_loop] at h
  | succ f ih =>
    intro s s' hv h
    rw [three_opt_loop_succ] at h
    split_ifs at h
    · obtain ⟨s1, q1, q2, _, _, q5⟩ := three_opt_sweep_spec hP hrv hv
      rw [q1] at h
      obtain ⟨r1, r2⟩ := ih _ _ q2 h
      exact ⟨r1, fun hsym => (q5 hsym).trans (r2 hsym)⟩
    · cases h; exact ⟨hv, fun _ => Rel.refl P n _⟩

/-- On valid arrays the loop of `three_opt_first` fails only by running out
of fuel: neither `assert(false)` nor the "strange error" exit is reached. -/
theorem three_opt_loop_error {P : TspProblem} {n : Nat} {rv : List Nat} (hP : WFP n P)
    (hrv : ∀ l, l < n → rd rv l < n) :
    ∀ (fuel : Nat) (s : State) (e : Err), Valid3 n s.arr →
      three_opt_loop P n rv fuel s = .error e → e = .outOfFuel := by
  intro fuel
  induction fuel with
  | zero => intro s e _ h; simp [three_opt_loop] at h; exact h.symm
  | succ f ih =>
    intro s e hv h
    rw [three_opt_loop_succ] at h
    split_ifs at h
    obtain ⟨s1, q1, q2, _⟩ := three_opt_sweep_spec hP hrv hv
    rw [q1] at h
    exact ih _ _ q2 h

theorem three_opt_loop_mono {P : TspProblem} {n : Nat} {rv : List Nat} :
    ∀ (fuel : Nat) (s s' : State), three_opt_loop P n rv fuel s = .ok s' →
      ∀ k, three_opt_loop P n rv (fuel + k) s = .ok s' := by
  intro fuel
  induction fuel with
  | zero => intro s s' h; simp [three_opt_loop] at h
  | succ f ih =>
    intro s s' h k
    rw [show f + 1 + k = (f + k) + 1 by omega]
    rw [three_opt_loop_succ] at h ⊢
    split_ifs at h ⊢ with h1
    · cases hs : three_opt_sweep P n rv s with
      | error e => rw [hs] at h; cases h
      | ok s1 =>
        rw [hs] at h
        exact ih _ _ h k
    · exact h

/-- The loop of `three_opt_first` ends when the cost of every valid tour is
bounded below: `K + 2` evaluations of the loop condition suffice when the
cost exceeds the bound by less than `(K + 1) * EPS`. -/
theorem three_opt_loop_terminates {P : TspProblem} {n : Nat} {rv : List Nat} (hP : WFP n P)
    (hsym : ∀ i j, P.dist i j = P.dist j i) (hrv : ∀ l, l < n → rd rv l < n) {LB : ℚ}
    (hLB : ∀ a, Valid n a → LB ≤ cycCost P n a.tour) :
    ∀ (K : Nat) (s : State), Valid3 n s.arr → cycCost P n s.arr.tour - LB < (K + 1) * EPS →
      ∃ s', three_opt_loop P n rv (K + 2) s = .ok s' := by
  have step : ∀ s s1 : State, Valid3 n s.arr → three_opt_sweep P n rv s = .ok s1 →
      s1.improvement_flag = true →
      cycCost P n s1.arr.tour + EPS ≤ cycCost P n s.arr.tour := by
    intro s s1 hv hs h2
    obtain ⟨s2, q1, q2, q3, q4, q5⟩ := three_opt_sweep_spec hP hrv hv
    rw [hs] at q1
    cases q1
    have r := q5 hsym
    have hlt := q4.1 h2
    have r2 := r.2
    have hq : (1 : ℚ) ≤ (s1.n_exchanges : ℚ) - (s.n_exchanges : ℚ) := by
      have : (s.n_exchanges : ℚ) + 1 ≤ (s1.n_exchanges : ℚ) := by
        exact_mod_cast hlt
      linarith
    have := mul_le_mul_of_nonneg_left hq (le_of_lt EPS_pos)
    linarith
  intro K
  induction K with
  | zero =>
    intro s hv hc
    rw [show 0 + 2 = 1 + 1 by rfl, three_opt_loop_succ]
    split_ifs with h1
    · obtain ⟨s1, q1, q2, _⟩ := three_opt_sweep_spec hP hrv hv
      rw [q1]
      simp only
      rw [three_opt_loop_succ]
      split_ifs with h2
      · exfalso
        have := step s s1 hv q1 h2
        have hb := hLB _ q2.1
        have e := EPS_pos
        simp at hc
        linarith
      · exact ⟨_, rfl⟩
    · exact ⟨_, rfl⟩
  | succ K ih =>
    intro s hv hc
    rw [show K + 1 + 2 = (K + 2) + 1 by omega, three_opt_loop_succ]
    split_ifs with h1
    · obtain ⟨s1, q1, q2, _⟩ := three_opt_sweep_spec hP hrv hv
      rw [q1]
      simp only
      by_cases h2 : s1.improvement_flag = true
      · apply ih _ q2
        have := step s s1 hv q1 h2
        push_cast at hc
        linarith
      · refine ⟨s1, ?_⟩
        rw [show K + 2 = (K + 1) + 1 by omega, three_opt_loop_succ, if_neg h2]
    · exact ⟨_, rfl⟩

/-! ## The initial state and the problem built by the wrapper -/

theorem init_pos_spec {n : Nat} {tour : List Nat} (h : ValidTour n tour) :
    (init_pos n tour).length = n ∧ ∀ i, i < n → rd (init_pos n tour) (rd tour i) = i := by
  obtain ⟨_, h2, h3, _⟩ := h
  have key : ∀ k, k ≤ n →
      ((List.range k).foldl (fun pos i => wr pos (rd tour i) i) (List.replicate n 0)).length = n ∧
      ∀ i, i < k →
        rd ((List.range k).foldl (fun pos i => wr pos (rd tour i) i) (List.replicate n 0))
          (rd tour i) = i := by
    intro k
    induction k with
    | zero => intro _; simp
    | succ k ih =>
      intro hk
      obtain ⟨i1, i2⟩ := ih (by omega)
      rw [List.range_succ, List.foldl_append]
      simp only [List.foldl_cons, List.foldl_nil]
      refine ⟨by rw [length_wr]; exact i1, ?_⟩
      intro i hi
      by_cases e : i = k
      · subst e
        exact rd_wr_same _ (by rw [i1]; exact h2 i (by omega))
      · rw [rd_wr_ne _ (fun e2 => e (h3 _ (by omega) _ (by omega) e2).symm)]
        exact i2 i (by omega)
  exact key n (le_refl n)

theorem init_state_valid {n : Nat} {tour : List Nat} (h : ValidTour n tour) (b : Nat) :
    Valid n (init_state n tour b).arr := by
  obtain ⟨p1, p2⟩ := init_pos_spec h
  exact ⟨h.1, p1, h.2.1, p2, h.2.2.2⟩

theorem init_state_valid3 {n : Nat} {tour : List Nat} (h : ValidTour n tour) :
    Valid3 n (init_state n tour n).arr :=
  ⟨init_state_valid h n, by simp [init_state], by simp [init_state]⟩

theorem length_local_nodes (len : Nat) : (local_nodes len).length = len := by
  simp [local_nodes]

theorem rd_local_nodes {len i : Nat} (h : i < len) :
    rd (local_nodes len) i = if i + 1 < len then i else 0 := by
  unfold rd local_nodes
  rw [List.getD_eq_getElem?_getD, List.getElem?_map, List.getElem?_range h]
  rfl

theorem local_nodes_valid {n : Nat} (hn : 1 ≤ n) : ValidTour n (local_nodes (n + 1)) := by
  refine ⟨length_local_nodes _, ?_, ?_, ?_⟩
  · intro i hi
    rw [rd_local_nodes (by omega), if_pos (by omega)]; exact hi
  · intro i hi j hj e
    rw [rd_local_nodes (by omega), rd_local_nodes (by omega), if_pos (by omega),
      if_pos (by omega)] at e
    exact e
  · rw [rd_local_nodes (by omega), rd_local_nodes (by omega), if_neg (by omega),
      if_pos (by omega)]

/-! ## The problem built by the constructor -/

theorem ofTour_ok (inst : Oracle) {T : Tour} (h : 2 ≤ T.length) :
    ∃ P, TspProblem.ofTour inst T = .ok P := by
  unfold TspProblem.ofTour
  rw [if_neg (by omega)]
  exact ⟨_, rfl⟩

theorem ofTour_error {inst : Oracle} {T : Tour} {e : Err}
    (h : TspProblem.ofTour inst T = .error e) : T.length < 2 ∧ e = .lengthError := by
  unfold TspProblem.ofTour at h
  split_ifs at h with h1
  cases h
  exact ⟨h1, rfl⟩

theorem ofTour_dist {inst : Oracle} {T : Tour} {P : TspProblem}
    (h : TspProblem.ofTour inst T = .ok P) (i j : Nat) :
    P.dist i j =
      if i < T.length - 1 ∧ j < T.length - 1 then inst (T.get i) (T.get j) else 0 := by
  unfold TspProblem.ofTour at h
  split_ifs at h with h1
  cases h
  unfold TspProblem.dist
  simp only [List.getD_eq_getElem?_getD, List.getElem?_map]
  by_cases hi : i < T.length - 1
  · rw [List.getElem?_range hi]
    by_cases hj : j < T.length - 1
    · simp [hi, hj, List.getElem?_range hj]
    · simp [hi, hj, List.getElem?_eq_none (l := List.range (T.length - 1)) (by simpa using hj)]
  · simp [hi, List.getElem?_eq_none (l := List.range (T.length - 1)) (by simpa using hi)]

theorem length_filter_ne {n c : Nat} (hc : c < n) :
    ((List.range n).filter fun j => decide (j ≠ c)).length = n - 1 := by
  have e : ((List.range n).filter fun j => decide (j ≠ c)) = (List.range n).erase c := by
    rw [(List.nodup_range n).erase_eq_filter]
    apply List.filter_congr
    intro x _
    by_cases hx : x = c <;> simp [hx]
  rw [e, List.length_erase_of_mem (by simpa using hc)]
  simp

theorem ofTour_wfp {inst : Oracle} {T : Tour} {P : TspProblem}
    (h : TspProblem.ofTour inst T = .ok P) : WFP (T.length - 1) P := by
  unfold TspProblem.ofTour at h
  split_ifs at h with h1
  cases h
  intro c hc k hk
  unfold TspProblem.nn rd
  simp only [List.getD_eq_getElem?_getD, List.getElem?_map, List.getElem?_range hc,
    List.getElem?_range hk, Option.map_some', Option.getD_some]
  generalize htmp : List.map _ (List.filter (fun j => decide (j ≠ c))
    (List.range (T.length - 1))) = tmp
  have hperm : (List.insertionSort pairLe tmp).Perm tmp := List.perm_insertionSort _ _
  have hlen : (List.insertionSort pairLe tmp).length = T.length - 1 - 1 := by
    rw [hperm.length_eq, ← htmp, List.length_map, length_filter_ne hc]
  have hk2 : k < (List.insertionSort pairLe tmp).length := by rw [hlen]; exact hk
  rw [List.getElem?_eq_getElem hk2, Option.getD_some]
  have hm : (List.insertionSort pairLe tmp)[k] ∈ List.insertionSort pairLe tmp :=
    List.getElem_mem _
  have hm2 := hperm.mem_iff.1 hm
  generalize (List.insertionSort pairLe tmp)[k] = y at hm2
  rw [← htmp] at hm2
  simp only [List.mem_map, List.mem_filter, List.mem_range, decide_eq_true_eq] at hm2
  obtain ⟨j, ⟨hj1, hj2⟩, hj3⟩ := hm2
  rw [← hj3]
  exact ⟨hj1, hj2⟩

theorem ofTour_sym {inst : Oracle} {T : Tour} {P : TspProblem}
    (h : TspProblem.ofTour inst T = .ok P) (hsym : ∀ a b, inst a b = inst b a) (i j : Nat) :
    P.dist i j = P.dist j i := by
  rw [ofTour_dist h, ofTour_dist h, hsym]
  simp only [and_comm]

theorem ofTour_nonneg {inst : Oracle} {T : Tour} {P : TspProblem}
    (h : TspProblem.ofTour inst T = .ok P) (hnn : ∀ a b, 0 ≤ inst a b) (i j : Nat) :
    0 ≤ P.dist i j := by
  rw [ofTour_dist h]
  split_ifs
  · exact hnn _ _
  · exact le_refl _

/-! ## The wrapper `optimize` -/

theorem foldl_append_nodes (T : Tour) : ∀ (l : List Nat) (t : Tour),
    (l.foldl (fun tour x => tour.append (T.get x)) t).nodes = t.nodes ++ l.map T.get := by
  intro l
  induction l with
  | nil => intro t; simp
  | cons x l ih =>
    intro t
    rw [List.foldl_cons, ih]
    simp [Tour.append]

theorem foldl_add_eq_sum (f : Nat → ℚ) : ∀ (l : List Nat) (acc : ℚ),
    l.foldl (fun s i => s + f i) acc = acc + (l.map f).sum := by
  intro l
  induction l with
  | nil => intro acc; simp
  | cons x l ih =>
    intro acc
    rw [List.foldl_cons, ih]
    simp [add_assoc]

theorem calculateCost_eq (t : Tour) (inst : Oracle) :
    t.calculateCost inst = sumCost inst (t.nodes.length - 1) t.nodes := by
  unfold Tour.calculateCost sumCost
  rw [List.range'_eq_map_range, List.foldl_map, foldl_add_eq_sum]
  simp only [zero_add]
  congr 1
  apply List.map_congr_left
  intro i _
  rw [show 1 + i - 1 = i by omega, show 1 + i = i + 1 by omega]

theorem cycCost_eq_sumCost (P : TspProblem) (n : Nat) (l : List Nat) :
    cycCost P n l = sumCost P.dist n l := rfl

theorem rd_map (g : Nat → Nat) {l : List Nat} {i : Nat} (h : i < l.length) :
    rd (l.map g) i = g (rd l i) := by
  unfold rd
  simp [List.getD_eq_getElem?_getD, List.getElem?_eq_getElem h]

/-- The oracle cost of the image of a local tour equals its cost in the
distance submatrix. -/
theorem sumCost_map {inst : Oracle} {T : Tour} {P : TspProblem}
    (h : TspProblem.ofTour inst T = .ok P) {r : List Nat} (hlen : r.length = T.length)
    (hlt : ∀ i, i < T.length → rd r i < T.length - 1) :
    sumCost inst (T.length - 1) (r.map T.get) = cycCost P (T.length - 1) r := by
  unfold sumCost cycCost
  congr 1
  apply List.map_congr_left
  intro i hi
  have hi2 : i < T.length - 1 := by simpa using hi
  rw [rd_map _ (by omega), rd_map _ (by omega), ofTour_dist h,
    if_pos ⟨hlt i (by omega), hlt (i + 1) (by omega)⟩]

theorem map_get_local_nodes {T : Tour}
    (hT : T.get 0 = T.get (T.length - 1)) :
    (local_nodes T.length).map T.get = T.nodes := by
  apply List.ext_getElem
  · simp [length_local_nodes, Tour.length]
  · intro i h1 h2
    have hi : i < T.length := h2
    have hl : i < (local_nodes T.length).length := by rw [length_local_nodes]; exact hi
    rw [List.getElem_map]
    have e : (local_nodes T.length)[i] = rd (local_nodes T.length) i := by
      unfold rd
      rw [List.getD_eq_getElem?_getD, List.getElem?_eq_getElem hl, Option.getD_some]
    have e2 : T.nodes[i] = T.get i := by
      unfold Tour.get rd
      rw [List.getD_eq_getElem?_getD, List.getElem?_eq_getElem h2, Option.getD_some]
    rw [e, e2, rd_local_nodes hi]
    split_ifs with h3
    · rfl
    · rw [hT]
      congr 1
      omega

/-! ### Putting the depot back to the start -/

theorem dropLast_eq_segF {n : Nat} {a : Arrays} (hv : Valid n a) :
    a.tour.dropLast = segF n a.tour 0 n := by
  apply List.ext_getElem
  · simp [hv.tour_len]
  · intro k h1 h2
    have hk : k < n := by simpa using h2
    rw [getElem_segF, List.getElem_dropLast]
    unfold rd cidx
    rw [if_pos (by omega), List.getD_eq_getElem?_getD,
      List.getElem?_eq_getElem (by rw [hv.tour_len]; omega), Option.getD_some]
    simp

theorem rotate_segF {n : Nat} (t : List Nat) {k : Nat} (hk : k < n) :
    (segF n t 0 n).rotate k = segF n t k n := by
  apply List.ext_getElem
  · simp
  · intro i h1 h2
    have hi : i < n := by simpa using h2
    rw [List.getElem_rotate, getElem_segF, getElem_segF]
    congr 1
    simp only [length_segF]
    unfold cidx
    by_cases h : k + i < n
    · rw [if_pos h, Nat.mod_eq_of_lt (by omega), if_pos (by omega)]
      omega
    · rw [if_neg h]
      have e : (i + k) % n = i + k - n := by
        rw [Nat.mod_eq_sub_mod (by omega), Nat.mod_eq_of_lt (by omega)]
      rw [e, if_pos (by omega)]
      omega

/-- The rotation that puts city 0 first. -/
theorem reanchor_spec {n : Nat} {a : Arrays} (hv : Valid n a) (hn : 1 ≤ n) :
    ∃ k, k < n ∧ rd a.tour k = 0 ∧ reanchor a.tour = segF n a.tour k n ++ [0] := by
  obtain ⟨i, hi, hi0⟩ := hv.exists_pos (c := 0) (by omega)
  have hmem : 0 ∈ segF n a.tour 0 n := by
    rw [mem_segF]
    exact ⟨i, hi, by rw [cidx, if_pos (by omega), Nat.zero_add]; exact hi0⟩
  have hk : List.indexOf 0 (segF n a.tour 0 n) < n := by
    have := List.indexOf_lt_length.2 hmem
    simpa using this
  refine ⟨List.indexOf 0 (segF n a.tour 0 n), hk, ?_, ?_⟩
  · have hk2 : List.indexOf 0 (segF n a.tour 0 n) < (segF n a.tour 0 n).length := by
      simpa using hk
    have h1 := List.getElem_indexOf hk2
    rw [getElem_segF, cidx, if_pos (by omega), Nat.zero_add] at h1
    exact h1
  · unfold reanchor
    simp only
    rw [dropLast_eq_segF hv, rotate_segF _ hk]

theorem segF_lt {n : Nat} {a : Arrays} (hv : Valid n a) {w : Nat} (hw : w < n) {m x : Nat}
    (hx : x ∈ segF n a.tour w m) : x < n := by
  rw [mem_segF] at hx
  obtain ⟨k, _, rfl⟩ := hx
  unfold cidx
  split_ifs with h
  · exact hv.tour_lt _ h
  · by_cases h2 : w + k - n < n
    · exact hv.tour_lt _ h2
    · by_cases h3 : w + k - n = n
      · rw [h3, hv.sentinel]
        exact hv.tour_lt _ (by omega)
      · unfold rd
        rw [List.getD_eq_getElem?_getD, List.getElem?_eq_none (by rw [hv.tour_len]; omega)]
        simp; omega

theorem segF_perm_range {n : Nat} {a : Arrays} (hv : Valid n a) {w : Nat} (hw : w < n) :
    (segF n a.tour w n).Perm (List.range n) := by
  apply List.perm_of_nodup_nodup_toFinset_eq (nodup_segF hv hw (le_refl n)) (List.nodup_range n)
  apply Finset.eq_of_subset_of_card_le
  · intro x hx
    simp only [List.mem_toFinset] at hx
    simpa using segF_lt hv hw hx
  · rw [List.toFinset_card_of_nodup (nodup_segF hv hw (le_refl n)),
      List.toFinset_card_of_nodup (List.nodup_range n)]
    simp

/-- Reading the cycle from the depot gives a list of the same cyclic cost. -/
theorem cycCost_reanchored (P : TspProblem) {n : Nat} {a : Arrays} (hv : Valid n a)
    {k : Nat} (hk : k < n) (h0 : rd a.tour k = 0) :
    cycCost P n (segF n a.tour k n ++ [0]) = cycCost P n a.tour := by
  rw [cycCost_eq_pathL P _ n (by simp), cycCost_eq_cycL P hv hk]
  unfold cycL
  congr 2
  have hne : segF n a.tour k n ≠ [] := segF_ne_nil (by omega)
  have hh := @headD_segF n a.tour k hk n (by omega)
  cases hs : segF n a.tour k n with
  | nil => exact absurd hs hne
  | cons x r =>
    rw [hs] at hh
    simp only [List.headD_cons] at hh
    simp [hh, h0]

/-! ## The engines on a valid initial tour -/

theorem two_opt_first_spec {P : TspProblem} {n : Nat} {rv tour : List Nat} (hP : WFP n P)
    (hrv : ∀ l, l < n → rd rv l < n) (ht : ValidTour n tour) {fuel : Nat} {s : State}
    (h : two_opt_first fuel tour P rv = .ok s) :
    Valid n s.arr ∧ ((∀ i j, P.dist i j = P.dist j i) →
      cycCost P n s.arr.tour + EPS * (s.n_exchanges : ℚ) ≤ cycCost P n tour) := by
  unfold two_opt_first at h
  simp only [ht.1, Nat.add_sub_cancel] at h
  refine ⟨two_opt_loop_valid hP hrv _ _ _ (init_state_valid ht 0) h, fun hsym => ?_⟩
  have r := (two_opt_loop_rel hP hsym hrv _ _ _ (init_state_valid ht 0) h).2
  simpa [init_state] using r

theorem three_opt_first_spec {P : TspProblem} {n : Nat} {rv tour : List Nat} (hP : WFP n P)
    (hrv : ∀ l, l < n → rd rv l < n) (ht : ValidTour n tour) {fuel : Nat} {s : State}
    (h : three_opt_first fuel tour P rv = .ok s) :
    Valid n s.arr ∧ ((∀ i j, P.dist i j = P.dist j i) →
      cycCost P n s.arr.tour + EPS * (s.n_exchanges : ℚ) ≤ cycCost P n tour) := by
  unfold three_opt_first at h
  simp only [ht.1, Nat.add_sub_cancel] at h
  obtain ⟨r1, r2⟩ := three_opt_loop_spec hP hrv _ _ _ (init_state_valid3 ht) h
  refine ⟨r1.1, fun hsym => ?_⟩
  have r := (r2 hsym).2
  simpa [init_state] using r

theorem three_opt_first_error {P : TspProblem} {n : Nat} {rv tour : List Nat} (hP : WFP n P)
    (hrv : ∀ l, l < n → rd rv l < n) (ht : ValidTour n tour) {fuel : Nat} {e : Err}
    (h : three_opt_first fuel tour P rv = .error e) : e = .outOfFuel := by
  unfold three_opt_first at h
  simp only [ht.1, Nat.add_sub_cancel] at h
  exact three_opt_loop_error hP hrv _ _ _ (init_state_valid3 ht) h

theorem two_opt_loop_error {P : TspProblem} {n : Nat} {rv : List Nat} :
    ∀ (fuel : Nat) (s : State) (e : Err), two_opt_loop P n rv fuel s = .error e →
      e = .outOfFuel := by
  intro fuel
  induction fuel with
  | zero => intro s e h; simp [two_opt_loop] at h; exact h.symm
  | succ f ih =>
    intro s e h
    rw [two_opt_loop_succ] at h
    split_ifs at h
    exact ih _ _ h

theorem fuelFor_spec (c LB : ℚ) : c - LB < ((⌊(c - LB) / EPS⌋₊ : ℕ) + 1 : ℚ) * EPS := by
  have h := Nat.lt_floor_add_one ((c - LB) / EPS)
  exact (div_lt_iff₀ EPS_pos).1 h

theorem two_opt_first_terminates {P : TspProblem} {n : Nat} {rv tour : List Nat}
    (hP : WFP n P) (hsym : ∀ i j, P.dist i j = P.dist j i) (hrv : ∀ l, l < n → rd rv l < n)
    (ht : ValidTour n tour) {LB : ℚ} (hLB : ∀ a, Valid n a → LB ≤ cycCost P n a.tour) :
    ∃ s, ∀ k, two_opt_first (fuelFor (cycCost P n tour) LB + k) tour P rv = .ok s := by
  obtain ⟨s, hs⟩ := two_opt_loop_terminates hP hsym hrv hLB ⌊(cycCost P n tour - LB) / EPS⌋₊
    (init_state n tour 0) (init_state_valid ht 0) (fuelFor_spec _ _)
  refine ⟨s, fun k => ?_⟩
  unfold two_opt_first
  simp only [ht.1, Nat.add_sub_cancel]
  exact two_opt_loop_mono _ _ _ hs k

theorem three_opt_first_terminates {P : TspProblem} {n : Nat} {rv tour : List Nat}
    (hP : WFP n P) (hsym : ∀ i j, P.dist i j = P.dist j i) (hrv : ∀ l, l < n → rd rv l < n)
    (ht : ValidTour n tour) {LB : ℚ} (hLB : ∀ a, Valid n a → LB ≤ cycCost P n a.tour) :
    ∃ s, ∀ k, three_opt_first (fuelFor (cycCost P n tour) LB + k) tour P rv = .ok s := by
  obtain ⟨s, hs⟩ := three_opt_loop_terminates hP hsym hrv hLB
    ⌊(cycCost P n tour - LB) / EPS⌋₊
    (init_state n tour n) (init_state_valid3 ht) (fuelFor_spec _ _)
  refine ⟨s, fun k => ?_⟩
  unfold three_opt_first
  simp only [ht.1, Nat.add_sub_cancel]
  exact three_opt_loop_mono _ _ _ hs k

/-! ### Lower bounds of the cyclic cost -/

theorem abs_le_distBound (P : TspProblem) {n i j : Nat} (hi : i < n) (hj : j < n) :
    |P.dist i j| ≤ distBound P n := by
  have h1 : |P.dist i j| ≤ ((List.range n).map fun j => |P.dist i j|).sum := by
    apply List.single_le_sum
    · intro x hx
      simp only [List.mem_map] at hx
      obtain ⟨_, _, rfl⟩ := hx
      exact abs_nonneg _
    · exact List.mem_map.2 ⟨j, by simpa using hj, rfl⟩
  have h2 : ((List.range n).map fun j => |P.dist i j|).sum ≤ distBound P n := by
    unfold distBound
    apply List.single_le_sum
    · intro x hx
      simp only [List.mem_map] at hx
      obtain ⟨i2, _, rfl⟩ := hx
      apply List.sum_nonneg
      intro y hy
      simp only [List.mem_map] at hy
      obtain ⟨_, _, rfl⟩ := hy
      exact abs_nonneg _
    · exact List.mem_map.2 ⟨i, by simpa using hi, rfl⟩
  exact h1.trans h2

theorem Valid.next_lt {n : Nat} {a : Arrays} (hv : Valid n a) {i : Nat} (hi : i < n) :
    rd a.tour (i + 1) < n := by
  by_cases h : i + 1 < n
  · exact hv.tour_lt _ h
  · rw [show i + 1 = n by omega, hv.sentinel]
    exact hv.tour_lt _ (by omega)

theorem cycCost_lower (P : TspProblem) {n : Nat} {a : Arrays} (hv : Valid n a) :
    - ((n : ℚ) * distBound P n) ≤ cycCost P n a.tour := by
  unfold cycCost
  have h : ((List.range n).map fun _ => - distBound P n).sum ≤
      ((List.range n).map fun i => P.dist (rd a.tour i) (rd a.tour (i + 1))).sum := by
    apply List.sum_le_sum
    intro i hi
    have hi2 : i < n := by simpa using hi
    have := abs_le_distBound P (hv.tour_lt i hi2) (hv.next_lt hi2)
    have := neg_abs_le (P.dist (rd a.tour i) (rd a.tour (i + 1)))
    linarith
  refine le_trans (le_of_eq ?_) h
  simp

theorem cycCost_nonneg (P : TspProblem) (hnn : ∀ i j, 0 ≤ P.dist i j) (n : Nat)
    (t : List Nat) : 0 ≤ cycCost P n t := by
  unfold cycCost
  apply List.sum_nonneg
  intro x hx
  simp only [List.mem_map] at hx
  obtain ⟨_, _, rfl⟩ := hx
  exact hnn _ _

/-! ## The wrapper `optimize`: what a returned tour looks like -/

theorem optimize_eq (fuel : Nat) (inst : Oracle) (T : Tour) (rv : List Nat)
    (m : OptimizeMethod) :
    optimize fuel inst T rv m =
      match TspProblem.ofTour inst T with
      | .error e => .error e
      | .ok P =>
        match run_method fuel m (local_nodes T.length) P rv with
        | .error e => .error e
        | .ok s => .ok ⟨(reanchor s.arr.tour).map T.get⟩ := by
  unfold optimize run_method
  have eta : ∀ t : Tour, t = ⟨t.nodes⟩ := fun _ => rfl
  cases TspProblem.ofTour inst T with
  | error e => rfl
  | ok P =>
    simp only
    cases m
    · simp only
      cases two_opt_first fuel (local_nodes T.length) P rv with
      | error e => rfl
      | ok s =>
        simp only
        rw [eta (List.foldl _ _ _), foldl_append_nodes]
        simp
    · simp only
      cases three_opt_first fuel (local_nodes T.length) P rv with
      | error e => rfl
      | ok s =>
        simp only
        rw [eta (List.foldl _ _ _), foldl_append_nodes]
        simp

theorem run_method_spec {P : TspProblem} {n : Nat} {rv tour : List Nat} (hP : WFP n P)
    (hrv : ∀ l, l < n → rd rv l < n) (ht : ValidTour n tour) {fuel : Nat} {s : State}
    {m : OptimizeMethod} (h : run_method fuel m tour P rv = .ok s) :
    Valid n s.arr ∧ ((∀ i j, P.dist i j = P.dist j i) →
      cycCost P n s.arr.tour + EPS * (s.n_exchanges : ℚ) ≤ cycCost P n tour) := by
  cases m
  · exact two_opt_first_spec hP hrv ht h
  · exact three_opt_first_spec hP hrv ht h

theorem run_method_error {P : TspProblem} {n : Nat} {rv tour : List Nat} (hP : WFP n P)
    (hrv : ∀ l, l < n → rd rv l < n) (ht : ValidTour n tour) {fuel : Nat} {e : Err}
    {m : OptimizeMethod} (h : run_method fuel m tour P rv = .error e) : e = .outOfFuel := by
  cases m
  · exact two_opt_loop_error _ _ _ h
  · exact three_opt_first_error hP hrv ht h

theorem run_method_terminates {P : TspProblem} {n : Nat} {rv tour : List Nat}
    (hP : WFP n P) (hsym : ∀ i j, P.dist i j = P.dist j i) (hrv : ∀ l, l < n → rd rv l < n)
    (ht : ValidTour n tour) {LB : ℚ} (hLB : ∀ a, Valid n a → LB ≤ cycCost P n a.tour)
    (m : OptimizeMethod) :
    ∃ s, ∀ k, run_method (fuelFor (cycCost P n tour) LB + k) m tour P rv = .ok s := by
  cases m
  · exact two_opt_first_terminates hP hsym hrv ht hLB
  · exact three_opt_first_terminates hP hsym hrv ht hLB

/-- The shape of a tour returned by `optimize`: the final cycle of the
engine read from the depot, mapped back to the point identities. -/
theorem optimize_spec {fuel : Nat} {inst : Oracle} {T : Tour} {rv : List Nat}
    {m : OptimizeMethod} {out : Tour} (hL : 2 ≤ T.length)
    (hrv : ∀ l, l < T.length - 1 → rd rv l < T.length - 1)
    (h : optimize fuel inst T rv m = .ok out) :
    ∃ P a k, TspProblem.ofTour inst T = .ok P ∧ Valid (T.length - 1) a ∧ k < T.length - 1 ∧
      rd a.tour k = 0 ∧
      out.nodes = (segF (T.length - 1) a.tour k (T.length - 1) ++ [0]).map T.get ∧
      ((∀ x y, inst x y = inst y x) →
        cycCost P (T.length - 1) a.tour ≤
          cycCost P (T.length - 1) (local_nodes T.length)) := by
  rw [optimize_eq] at h
  obtain ⟨P, hP⟩ := ofTour_ok inst hL
  rw [hP] at h
  simp only at h
  cases hr : run_method fuel m (local_nodes T.length) P rv with
  | error e => rw [hr] at h; cases h
  | ok s =>
    rw [hr] at h
    simp only [Except.ok.injEq] at h
    have ht : ValidTour (T.length - 1) (local_nodes T.length) := by
      have := local_nodes_valid (n := T.length - 1) (by omega)
      rwa [show T.length - 1 + 1 = T.length by omega] at this
    obtain ⟨v, hc⟩ := run_method_spec (ofTour_wfp hP) hrv ht hr
    obtain ⟨k, hk, h0, hre⟩ := reanchor_spec v (by omega)
    refine ⟨P, s.arr, k, hP, v, hk, h0, ?_, fun hsym => ?_⟩
    · rw [← h, hre]
    · have := hc (ofTour_sym hP hsym)
      have e := EPS_pos
      have : 0 ≤ EPS * (s.n_exchanges : ℚ) := mul_nonneg (le_of_lt e) (Nat.cast_nonneg _)
      linarith

theorem optimize_perm {fuel : Nat} {inst : Oracle} {T : Tour} {rv : List Nat}
    {m : OptimizeMethod} {out : Tour} (hL : 2 ≤ T.length)
    (hT : T.get 0 = T.get (T.length - 1))
    (hrv : ∀ l, l < T.length - 1 → rd rv l < T.length - 1)
    (h : optimize fuel inst T rv m = .ok out) : out.nodes.Perm T.nodes := by
  obtain ⟨P, a, k, _, hv, hk, _, ho, _⟩ := optimize_spec hL hrv h
  rw [ho, ← map_get_local_nodes hT]
  apply List.Perm.map
  have e : local_nodes T.length = List.range (T.length - 1) ++ [0] := by
    unfold local_nodes
    rw [show T.length = (T.length - 1) + 1 by omega, List.range_succ, List.map_append]
    simp only [Nat.add_sub_cancel, List.map_cons, List.map_nil, lt_self_iff_false, if_false]
    congr 1
    conv_rhs => rw [← List.map_id (List.range (T.length - 1))]
    apply List.map_congr_left
    intro i hi
    have : i < T.length - 1 := by simpa using hi
    simp [this]
  rw [e]
  exact List.Perm.append_right _ (segF_perm_range hv hk)

theorem optimize_cost {fuel : Nat} {inst : Oracle} {T : Tour} {rv : List Nat}
    {m : OptimizeMethod} {out : Tour} (hL : 2 ≤ T.length)
    (hT : T.get 0 = T.get (T.length - 1)) (hsym : ∀ x y, inst x y = inst y x)
    (hrv : ∀ l, l < T.length - 1 → rd rv l < T.length - 1)
    (h : optimize fuel inst T rv m = .ok out) :
    out.calculateCost inst ≤ T.calculateCost inst := by
  obtain ⟨P, a, k, hP, hv, hk, h0, ho, hc⟩ := optimize_spec hL hrv h
  have ht : ValidTour (T.length - 1) (local_nodes T.length) := by
    have := local_nodes_valid (n := T.length - 1) (by omega)
    rwa [show T.length - 1 + 1 = T.length by omega] at this
  have e1 : T.calculateCost inst = cycCost P (T.length - 1) (local_nodes T.length) := by
    rw [calculateCost_eq, ← sumCost_map hP (length_local_nodes _), map_get_local_nodes hT]
    · rfl
    · intro i hi
      rw [rd_local_nodes hi]
      split_ifs <;> omega
  have e2 : out.calculateCost inst = cycCost P (T.length - 1) a.tour := by
    rw [calculateCost_eq, ho, ← cycCost_reanchored P hv hk h0, ← sumCost_map hP]
    · simp
    · simp; omega
    · intro i hi
      by_cases h2 : i < T.length - 1
      · have hm : rd (segF (T.length - 1) a.tour k (T.length - 1) ++ [0]) i ∈
            segF (T.length - 1) a.tour k (T.length - 1) := by
          unfold rd
          rw [List.getD_eq_getElem?_getD, List.getElem?_append_left (by simpa using h2),
            List.getElem?_eq_getElem (by simpa using h2), Option.getD_some]
          exact List.getElem_mem _
        exact segF_lt hv hk hm
      · have : i = T.length - 1 := by omega
        unfold rd
        rw [List.getD_eq_getElem?_getD, List.getElem?_append_right (by simp; omega)]
        simp [this]
        omega
  rw [e1, e2]
  exact hc hsym

theorem optimize_anchored {fuel : Nat} {inst : Oracle} {T : Tour} {rv : List Nat}
    {m : OptimizeMethod} {out : Tour} (hL : 2 ≤ T.length)
    (hrv : ∀ l, l < T.length - 1 → rd rv l < T.length - 1)
    (h : optimize fuel inst T rv m = .ok out) :
    out.nodes.length = T.length ∧ out.nodes.head? = some (T.get 0) ∧
      out.nodes.getLast? = some (T.get 0) := by
  obtain ⟨P, a, k, _, hv, hk, h0, ho, _⟩ := optimize_spec hL hrv h
  rw [ho]
  refine ⟨by simp; omega, ?_, by simp⟩
  have hne : segF (T.length - 1) a.tour k (T.length - 1) ≠ [] := segF_ne_nil (by omega)
  have hh := @headD_segF (T.length - 1) a.tour k hk (T.length - 1) (by omega)
  cases hs : segF (T.length - 1) a.tour k (T.length - 1) with
  | nil => exact absurd hs hne
  | cons x r =>
    rw [hs] at hh
    simp only [List.headD_cons] at hh
    simp [hh, h0]

/-- With a symmetric oracle `optimize` returns once the fuel suffices. -/
theorem optimize_terminates (inst : Oracle) {T : Tour} (rv : List Nat) (m : OptimizeMethod)
    (hL : 2 ≤ T.length) (hsym : ∀ x y, inst x y = inst y x)
    (hrv : ∀ l, l < T.length - 1 → rd rv l < T.length - 1) :
    ∃ fuel out, ∀ k, optimize (fuel + k) inst T rv m = .ok out := by
  obtain ⟨P, hP⟩ := ofTour_ok inst hL
  have ht : ValidTour (T.length - 1) (local_nodes T.length) := by
    have := local_nodes_valid (n := T.length - 1) (by omega)
    rwa [show T.length - 1 + 1 = T.length by omega] at this
  obtain ⟨s, hs⟩ := run_method_terminates (ofTour_wfp hP) (ofTour_sym hP hsym) hrv ht
    (fun a hv => cycCost_lower P hv) m
  exact ⟨_, ⟨(reanchor s.arr.tour).map T.get⟩, fun k => by
    rw [optimize_eq, hP]
    simp only
    rw [hs k]⟩

/-! ## Runs that find no move -/

theorem two_opt_point_quiet {P : TspProblem} {n : Nat} {rv : List Nat} {s : State} {l : Nat}
    (hq : find_move2 P n s.arr (rd rv l) = none) :
    (two_opt_point P n rv s l).arr = s.arr ∧
    (two_opt_point P n rv s l).n_exchanges = s.n_exchanges ∧
    (two_opt_point P n rv s l).improvement_flag = s.improvement_flag := by
  unfold two_opt_point
  simp only [hq]
  split_ifs <;> exact ⟨rfl, rfl, rfl⟩

theorem two_opt_sweep_quiet {P : TspProblem} {n : Nat} {rv : List Nat} {A : Arrays}
    (hq : ∀ l, l < n → find_move2 P n A (rd rv l) = none) (s : State) (hs : s.arr = A) :
    (two_opt_sweep P n rv s).arr = A ∧
    (two_opt_sweep P n rv s).n_exchanges = s.n_exchanges ∧
    (two_opt_sweep P n rv s).improvement_flag = false := by
  unfold two_opt_sweep
  have key : ∀ (ls : List Nat) (s1 : State), (∀ l ∈ ls, l < n) → s1.arr = A →
      (ls.foldl (two_opt_point P n rv) s1).arr = A ∧
      (ls.foldl (two_opt_point P n rv) s1).n_exchanges = s1.n_exchanges ∧
      (ls.foldl (two_opt_point P n rv) s1).improvement_flag = s1.improvement_flag := by
    intro ls
    induction ls with
    | nil => intro s1 _ h1; exact ⟨h1, rfl, rfl⟩
    | cons l ls ih =>
      intro s1 hall h1
      simp only [List.foldl_cons]
      obtain ⟨q1, q2, q3⟩ := @two_opt_point_quiet P n rv s1 l
        (by rw [h1]; exact hq l (hall l (by simp)))
      obtain ⟨r1, r2, r3⟩ := ih (two_opt_point P n rv s1 l) (fun x hx => hall x (by simp [hx]))
        (by rw [q1, h1])
      exact ⟨r1, by rw [r2, q2], by rw [r3, q3]⟩
  exact key (List.range n) _ (fun l hl => by simpa using hl) hs

/-- When no city has an improving 2-opt move, `two_opt_first` makes one
sweep and returns the tour it was given. -/
theorem two_opt_loop_quiet {P : TspProblem} {n : Nat} {rv : List Nat} {A : Arrays}
    (hq : ∀ l, l < n → find_move2 P n A (rd rv l) = none) (s : State) (hs : s.arr = A)
    (fuel : Nat) :
    ∃ s', two_opt_loop P n rv (fuel + 2) s = .ok s' ∧ s'.arr = A ∧
      s'.n_exchanges = s.n_exchanges := by
  rw [two_opt_loop_succ]
  split_ifs with h1
  · obtain ⟨q1, q2, q3⟩ := two_opt_sweep_quiet hq s hs
    refine ⟨two_opt_sweep P n rv s, ?_, q1, q2⟩
    rw [two_opt_loop_succ, q3]
    rfl
  · exact ⟨s, rfl, hs, rfl⟩

theorem three_opt_point_quiet {P : TspProblem} {n : Nat} {rv : List Nat} {s : State} {l : Nat}
    (hq : ∀ sc : Scan, sc.move_flag = 0 → sc.opt2_flag = false →
      outer_search P n s.arr (rd rv l) (rd s.arr.tour (rd s.arr.pos (rd rv l) + 1))
        (rd s.arr.pos (rd rv l)) (candidates n) sc = .ok sc) :
    ∃ s', three_opt_point P n rv s l = .ok s' ∧ s'.arr = s.arr ∧
      s'.n_exchanges = s.n_exchanges ∧ s'.improvement_flag = s.improvement_flag := by
  unfold three_opt_point
  simp only
  split_ifs with h1
  · exact ⟨s, rfl, rfl, rfl, rfl⟩
  · rw [hq _ rfl rfl]
    simp only [ne_eq, not_true_eq_false, Bool.false_eq_true, or_self, if_false]
    exact ⟨_, rfl, rfl, rfl, rfl⟩

theorem three_opt_sweep_quiet {P : TspProblem} {n : Nat} {rv : List Nat} {A : Arrays}
    (hq : ∀ l, l < n → ∀ sc : Scan, sc.move_flag = 0 → sc.opt2_flag = false →
      outer_search P n A (rd rv l) (rd A.tour (rd A.pos (rd rv l) + 1))
        (rd A.pos (rd rv l)) (candidates n) sc = .ok sc) (s : State) (hs : s.arr = A) :
    ∃ s', three_opt_sweep P n rv s = .ok s' ∧ s'.arr = A ∧
      s'.n_exchanges = s.n_exchanges ∧ s'.improvement_flag = false := by
  unfold three_opt_sweep
  have key : ∀ (ls : List Nat) (s1 : State), (∀ l ∈ ls, l < n) → s1.arr = A →
      ∃ s', three_opt_points P n rv ls s1 = .ok s' ∧ s'.arr = A ∧
        s'.n_exchanges = s1.n_exchanges ∧ s'.improvement_flag = s1.improvement_flag := by
    intro ls
    induction ls with
    | nil => intro s1 _ h1; exact ⟨s1, rfl, h1, rfl, rfl⟩
    | cons l ls ih =>
      intro s1 hall h1
      obtain ⟨s2, q0, q1, q2, q3⟩ := @three_opt_point_quiet P n rv s1 l
        (by rw [h1]; exact hq l (hall l (by simp)))
      obtain ⟨s3, r0, r1, r2, r3⟩ := ih s2 (fun x hx => hall x (by simp [hx]))
        (by rw [q1, h1])
      refine ⟨s3, ?_, r1, by rw [r2, q2], by rw [r3, q3]⟩
      simp only [three_opt_points, q0]
      exact r0
  exact key (List.range n) _ (fun l hl => by simpa using hl) hs

/-- When no city has an improving move, `three_opt_first` makes one sweep
and returns the tour it was given. -/
theorem three_opt_loop_quiet {P : TspProblem} {n : Nat} {rv : List Nat} {A : Arrays}
    (hq : ∀ l, l < n → ∀ sc : Scan, sc.move_flag = 0 → sc.opt2_flag = false →
      outer_search P n A (rd rv l) (rd A.tour (rd A.pos (rd rv l) + 1))
        (rd A.pos (rd rv l)) (candidates n) sc = .ok sc) (s : State) (hs : s.arr = A)
    (fuel : Nat) :
    ∃ s', three_opt_loop P n rv (fuel + 2) s = .ok s' ∧ s'.arr = A ∧
      s'.n_exchanges = s.n_exchanges := by
  rw [three_opt_loop_succ]
  split_ifs with h1
  · obtain ⟨s1, q0, q1, q2, q3⟩ := three_opt_sweep_quiet hq s hs
    refine ⟨s1, ?_, q1, q2⟩
    rw [q0]
    simp only
    rw [three_opt_loop_succ, q3]
    rfl
  · exact ⟨s, rfl, hs, rfl⟩

/-! ### The tours of length 2 and 3 -/

theorem find_move2_one (P : TspProblem) (A : Arrays) (c : Nat) : find_move2 P 1 A c = none := by
  simp [find_move2, candidates, search_succ, search_pred]

theorem outer_search_one (P : TspProblem) (A : Arrays) (c s p : Nat) (sc : Scan) :
    outer_search P 1 A c s p (candidates 1) sc = .ok sc := by
  simp [candidates, outer_search]

theorem find_move2_two {P : TspProblem} (hP : WFP 2 P) (b : Nat) {c : Nat} (hc : c < 2) :
    find_move2 P 2 (arrays2 b) c = none := by
  have h0 : P.nn 0 0 = 1 := by have := hP 0 (by omega) 0 (by omega); omega
  have h1 : P.nn 1 0 = 0 := by have := hP 1 (by omega) 0 (by omega); omega
  have hc2 : c = 0 ∨ c = 1 := by omega
  rcases hc2 with rfl | rfl
  · simp [find_move2, candidates, nn_ls, search_succ, search_pred, arrays2, rd, predAt, h0]
  · simp [find_move2, candidates, nn_ls, search_succ, search_pred, arrays2, rd, predAt, h1]

theorem outer_search_two {P : TspProblem} (hP : WFP 2 P) (b : Nat) {c : Nat} (hc : c < 2)
    (sc : Scan) :
    outer_search P 2 (arrays2 b) c (rd (arrays2 b).tour (rd (arrays2 b).pos c + 1))
      (rd (arrays2 b).pos c) (candidates 2) sc = .ok sc := by
  have h0 : P.nn 0 0 = 1 := by have := hP 0 (by omega) 0 (by omega); omega
  have h1 : P.nn 1 0 = 0 := by have := hP 1 (by omega) 0 (by omega); omega
  have hc2 : c = 0 ∨ c = 1 := by omega
  rcases hc2 with rfl | rfl
  · simp [candidates, nn_ls, outer_search, arrays2, rd, h0]
  · simp [candidates, nn_ls, outer_search, arrays2, rd, h1]

/-! ## The tours of length 2 and 3 in the wrapper -/

theorem run_method_len2 (P : TspProblem) (rv : List Nat) (m : OptimizeMethod) (fuel : Nat) :
    ∃ s, run_method (fuel + 2) m (local_nodes 2) P rv = .ok s ∧ s.arr.tour = [0, 0] ∧
      s.n_exchanges = 0 := by
  cases m
  · obtain ⟨s, h1, h2, h3⟩ := @two_opt_loop_quiet P 1 rv
      (init_state 1 [0, 0] 0).arr (fun l _ => find_move2_one P _ _)
      (init_state 1 [0, 0] 0) rfl fuel
    exact ⟨s, h1, by rw [h2]; rfl, by rw [h3]; rfl⟩
  · obtain ⟨s, h1, h2, h3⟩ := @three_opt_loop_quiet P 1 rv
      (init_state 1 [0, 0] 1).arr (fun l _ sc _ _ => outer_search_one P _ _ _ _ sc)
      (init_state 1 [0, 0] 1) rfl fuel
    exact ⟨s, h1, by rw [h2]; rfl, by rw [h3]; rfl⟩

theorem run_method_len3 {P : TspProblem} (hP : WFP 2 P) {rv : List Nat}
    (hrv : ∀ l, l < 2 → rd rv l < 2) (m : OptimizeMethod) (fuel : Nat) :
    ∃ s, run_method (fuel + 2) m (local_nodes 3) P rv = .ok s ∧ s.arr.tour = [0, 1, 0] ∧
      s.n_exchanges = 0 := by
  cases m
  · obtain ⟨s, h1, h2, h3⟩ := @two_opt_loop_quiet P 2 rv
      (arrays2 0) (fun l hl => find_move2_two hP 0 (hrv l hl))
      (init_state 2 [0, 1, 0] 0) rfl fuel
    exact ⟨s, h1, by rw [h2]; rfl, by rw [h3]; rfl⟩
  · obtain ⟨s, h1, h2, h3⟩ := @three_opt_loop_quiet P 2 rv
      (arrays2 2) (fun l hl sc _ _ => outer_search_two hP 2 (hrv l hl) sc)
      (init_state 2 [0, 1, 0] 2) rfl fuel
    exact ⟨s, h1, by rw [h2]; rfl, by rw [h3]; rfl⟩

/-! ## The checks of `optimizeTour` -/

theorem optimize_ends {fuel : Nat} {inst : Oracle} {T : Tour} {rv : List Nat}
    {m : OptimizeMethod} {out : Tour} (hL : 2 ≤ T.length)
    (hrv : ∀ l, l < T.length - 1 → rd rv l < T.length - 1)
    (h : optimize fuel inst T rv m = .ok out) :
    out.nodes.length = T.length ∧ rd out.nodes 0 = T.get 0 ∧
      rd out.nodes (out.nodes.length - 1) = T.get 0 := by
  obtain ⟨h1, h2, h3⟩ := optimize_anchored hL hrv h
  refine ⟨h1, ?_, ?_⟩
  · unfold rd
    rw [List.getD_eq_getElem?_getD, ← List.head?_eq_getElem?, h2]
    rfl
  · unfold rd
    rw [List.getD_eq_getElem?_getD, ← List.getLast?_eq_getElem?, h3]
    rfl

theorem length_ofVector (v : List Nat) : (Tour.ofVector v).length = v.length + 2 := by
  simp [Tour.ofVector, Tour.length]

theorem get_zero_ofVector (v : List Nat) : (Tour.ofVector v).get 0 = 0 := rfl

theorem get_last_ofVector (v : List Nat) :
    (Tour.ofVector v).get ((Tour.ofVector v).length - 1) = 0 := by
  rw [length_ofVector]
  unfold Tour.get rd Tour.ofVector
  rw [List.getD_eq_getElem?_getD, List.getElem?_append_right (by simp)]
  simp

/-- The result of `optimizeTour` once `optimize` has returned `tmp`: the
first `ensure` passes and the regression check decides. -/
theorem optimizeTour_eq {fuel : Nat} {inst : Oracle} {distance : List Nat → ℚ}
    {points rv : List Nat} {m : OptimizeMethod} {tmp : Tour}
    (hrv : ∀ l, l < (Tour.ofVector points.dropLast.tail).length - 1 →
      rd rv l < (Tour.ofVector points.dropLast.tail).length - 1)
    (h : optimize fuel inst (Tour.ofVector points.dropLast.tail) rv m = .ok tmp) :
    optimizeTour fuel inst distance points rv m =
      if distance tmp.nodes > distance points + tolerance then .error .regression
      else .ok tmp.nodes := by
  have hL : 2 ≤ (Tour.ofVector points.dropLast.tail).length := by
    rw [length_ofVector]; omega
  obtain ⟨e1, e2, e3⟩ := optimize_ends hL hrv h
  rw [get_zero_ofVector] at e2 e3
  unfold optimizeTour
  simp only [h]
  rw [if_pos ⟨by rw [e1]; exact hL, e2, e3⟩]
  split_ifs with h1 h2
  · rfl
  · rfl
  · exact absurd (not_lt.1 h1) h2

/-! ## Concrete instances -/

theorem tableOracle_symm (m : List (List Nat)) (a b : Nat) :
    tableOracle m a b = tableOracle m b a := by
  unfold tableOracle
  rw [min_comm, max_comm]

theorem tableOracle_nonneg (m : List (List Nat)) (a b : Nat) : 0 ≤ tableOracle m a b := by
  unfold tableOracle
  exact Nat.cast_nonneg _

theorem problemOf_ok (inst : Oracle) (T : Tour) (h : 2 ≤ T.length) :
    TspProblem.ofTour inst T = .ok (problemOf inst T) := by
  obtain ⟨P, hP⟩ := ofTour_ok inst h
  unfold problemOf
  rw [hP]

theorem run6_two :
    optimize 10 (tableOracle table6) tour6 [0, 5, 1, 2, 4, 3] .twoOptsMethod =
      .ok ⟨[0, 5, 2, 4, 3, 1, 0]⟩ := by
  decide!

theorem run5_three :
    optimize 10 (tableOracle table5) tour5 [2, 0, 1, 4, 3] .threeOptsMethod =
      .ok ⟨[0, 1, 2, 3, 4, 0]⟩ := by
  decide!

/-! ## The claims of the specification -/

theorem optimize_error {fuel : Nat} {inst : Oracle} {T : Tour} {rv : List Nat}
    {m : OptimizeMethod} {e : Err} (hL : 2 ≤ T.length)
    (hrv : ∀ l, l < T.length - 1 → rd rv l < T.length - 1)
    (h : optimize fuel inst T rv m = .error e) : e = .outOfFuel := by
  rw [optimize_eq] at h
  obtain ⟨P, hP⟩ := ofTour_ok inst hL
  rw [hP] at h
  simp only at h
  have ht : ValidTour (T.length - 1) (local_nodes T.length) := by
    have := local_nodes_valid (n := T.length - 1) (by omega)
    rwa [show T.length - 1 + 1 = T.length by omega] at this
  cases hr : run_method fuel m (local_nodes T.length) P rv with
  | error e2 =>
    rw [hr] at h
    simp only [Except.error.injEq] at h
    rw [← h]
    exact run_method_error (ofTour_wfp hP) hrv ht hr
  | ok s => rw [hr] at h; cases h

/-- Claim C1: permutation invariant of `optimize`.  For every oracle, every
tour of length at least 2 whose first and last nodes are equal, every scan
order `rv` over the cities and either method: whenever `optimize` returns,
the output has the length of the input and its node sequence is a
rearrangement of the input's node sequence. -/
theorem optimize_permutation (fuel : Nat) (inst : Oracle) (T : Tour) (rv : List Nat)
    (m : OptimizeMethod) (out : Tour) (hL : 2 ≤ T.length)
    (hT : T.get 0 = T.get (T.length - 1))
    (hrv : ∀ l, l < T.length - 1 → rd rv l < T.length - 1)
    (h : optimize fuel inst T rv m = .ok out) :
    out.length = T.length ∧ out.nodes.Perm T.nodes := by
  have hp := optimize_perm hL hT hrv h
  exact ⟨hp.length_eq, hp⟩

theorem optimize_permutation_witness :
    (Tour.mk [0, 5, 2, 4, 3, 1, 0]).length = tour6.length ∧
      (Tour.mk [0, 5, 2, 4, 3, 1, 0]).nodes.Perm tour6.nodes :=
  optimize_permutation 10 (tableOracle table6) tour6 [0, 5, 1, 2, 4, 3] .twoOptsMethod
    ⟨[0, 5, 2, 4, 3, 1, 0]⟩ (by decide) (by decide) (by decide) run6_two

/-- Claim C2: non-worsening.  For every symmetric oracle (exact arithmetic),
every tour of length at least 2 with equal first and last node, every scan
order and either method, `optimize` returns once the fuel suffices, and
whenever it returns the cost of the output is at most the cost of the input,
hence at most that cost plus `1e-9`. -/
theorem optimize_non_worsening (inst : Oracle) (T : Tour) (rv : List Nat)
    (m : OptimizeMethod) (hL : 2 ≤ T.length) (hT : T.get 0 = T.get (T.length - 1))
    (hsym : ∀ x y, inst x y = inst y x)
    (hrv : ∀ l, l < T.length - 1 → rd rv l < T.length - 1) :
    (∃ fuel out, ∀ k, optimize (fuel + k) inst T rv m = .ok out) ∧
    ∀ fuel out, optimize fuel inst T rv m = .ok out →
      out.calculateCost inst ≤ T.calculateCost inst ∧
      out.calculateCost inst ≤ T.calculateCost inst + tolerance := by
  refine ⟨optimize_terminates inst rv m hL hsym hrv, fun fuel out h => ?_⟩
  have hc := optimize_cost hL hT hsym hrv h
  refine ⟨hc, hc.trans ?_⟩
  unfold tolerance
  linarith

theorem optimize_non_worsening_witness :
    (∃ fuel out, ∀ k, optimize (fuel + k) (tableOracle table5) tour5 [2, 0, 1, 4, 3]
      .threeOptsMethod = .ok out) ∧
    ∀ fuel out, optimize fuel (tableOracle table5) tour5 [2, 0, 1, 4, 3]
        .threeOptsMethod = .ok out →
      out.calculateCost (tableOracle table5) ≤ tour5.calculateCost (tableOracle table5) ∧
      out.calculateCost (tableOracle table5) ≤
        tour5.calculateCost (tableOracle table5) + tolerance :=
  optimize_non_worsening (tableOracle table5) tour5 [2, 0, 1, 4, 3] .threeOptsMethod
    (by decide) (by decide) (tableOracle_symm table5) (by decide)

/-- Claim C3: anchoring invariant.  For every oracle, every tour built by
`Tour(v)`, every scan order and either method, a tour returned by `optimize`
has at least 2 nodes and begins and ends with 0, so `optimizeTour` never
ends in its first `ensure`; with a symmetric oracle `optimize` does return
once the fuel suffices. -/
theorem optimize_anchoring (inst : Oracle) (v rv : List Nat) (m : OptimizeMethod)
    (hrv : ∀ l, l < v.length + 1 → rd rv l < v.length + 1) :
    (∀ fuel out, optimize fuel inst (Tour.ofVector v) rv m = .ok out →
      out.nodes.length ≥ 2 ∧ rd out.nodes 0 = 0 ∧ rd out.nodes (out.nodes.length - 1) = 0) ∧
    (∀ fuel distance points, points.dropLast.tail = v →
      optimizeTour fuel inst distance points rv m ≠ .error .ensureFailed) ∧
    ((∀ x y, inst x y = inst y x) →
      ∃ fuel out, ∀ k, optimize (fuel + k) inst (Tour.ofVector v) rv m = .ok out) := by
  have hL : 2 ≤ (Tour.ofVector v).length := by rw [length_ofVector]; omega
  have hrv2 : ∀ l, l < (Tour.ofVector v).length - 1 →
      rd rv l < (Tour.ofVector v).length - 1 := by
    rw [length_ofVector]; exact hrv
  refine ⟨fun fuel out h => ?_, fun fuel distance points hp => ?_,
    fun hsym => optimize_terminates inst rv m hL hsym hrv2⟩
  · obtain ⟨e1, e2, e3⟩ := optimize_ends hL hrv2 h
    rw [get_zero_ofVector] at e2 e3
    exact ⟨by rw [e1]; exact hL, e2, e3⟩
  · subst hp
    cases ho : optimize fuel inst (Tour.ofVector points.dropLast.tail) rv m with
    | error e =>
      have he := optimize_error hL hrv2 ho
      unfold optimizeTour
      simp only [ho]
      rw [he]
      intro hh
      cases hh
    | ok tmp =>
      rw [optimizeTour_eq hrv2 ho]
      split_ifs
      · intro hh; cases hh
      · intro hh; cases hh

theorem optimize_anchoring_witness :
    (∀ fuel out, optimize fuel (tableOracle table6) (Tour.ofVector [5, 4, 2, 3, 1])
        [0, 5, 1, 2, 4, 3] .twoOptsMethod = .ok out →
      out.nodes.length ≥ 2 ∧ rd out.nodes 0 = 0 ∧ rd out.nodes (out.nodes.length - 1) = 0) ∧
    (∀ fuel distance points, points.dropLast.tail = [5, 4, 2, 3, 1] →
      optimizeTour fuel (tableOracle table6) distance points [0, 5, 1, 2, 4, 3]
        .twoOptsMethod ≠ .error .ensureFailed) ∧
    ((∀ x y, tableOracle table6 x y = tableOracle table6 y x) →
      ∃ fuel out, ∀ k, optimize (fuel + k) (tableOracle table6)
        (Tour.ofVector [5, 4, 2, 3, 1]) [0, 5, 1, 2, 4, 3] .twoOptsMethod = .ok out) :=
  optimize_anchoring (tableOracle table6) [5, 4, 2, 3, 1] [0, 5, 1, 2, 4, 3] .twoOptsMethod
    (by decide)

/-- Claim C4: termination and move bound.  For a symmetric, non-negative
distance submatrix whose candidate lists hold other cities, every valid
initial tour and every scan order, `two_opt_first` and `three_opt_first`
return once the fuel suffices, and the number of moves they accept is at
most `cost(input) / EPS`. -/
theorem engines_terminate_move_bound (P : TspProblem) (n : Nat) (tour rv : List Nat)
    (hP : WFP n P) (hsym : ∀ i j, P.dist i j = P.dist j i) (hnn : ∀ i j, 0 ≤ P.dist i j)
    (ht : ValidTour n tour) (hrv : ∀ l, l < n → rd rv l < n) :
    (∃ fuel s, (∀ k, two_opt_first (fuel + k) tour P rv = .ok s) ∧
      (s.n_exchanges : ℚ) ≤ cycCost P n tour / EPS) ∧
    (∃ fuel s, (∀ k, three_opt_first (fuel + k) tour P rv = .ok s) ∧
      (s.n_exchanges : ℚ) ≤ cycCost P n tour / EPS) := by
  have hLB : ∀ a, Valid n a → (0 : ℚ) ≤ cycCost P n a.tour :=
    fun a _ => cycCost_nonneg P hnn n a.tour
  have bound : ∀ s : State, 0 ≤ cycCost P n s.arr.tour →
      cycCost P n s.arr.tour + EPS * (s.n_exchanges : ℚ) ≤ cycCost P n tour →
      (s.n_exchanges : ℚ) ≤ cycCost P n tour / EPS := by
    intro s h0 h1
    rw [le_div_iff₀ EPS_pos]
    linarith
  constructor
  · obtain ⟨s, hs⟩ := two_opt_first_terminates hP hsym hrv ht hLB
    refine ⟨_, s, hs, ?_⟩
    obtain ⟨v, hc⟩ := two_opt_first_spec hP hrv ht (hs 0)
    exact bound s (hLB _ v) (hc hsym)
  · obtain ⟨s, hs⟩ := three_opt_first_terminates hP hsym hrv ht hLB
    refine ⟨_, s, hs, ?_⟩
    obtain ⟨v, hc⟩ := three_opt_first_spec hP hrv ht (hs 0)
    exact bound s (hLB _ v) (hc hsym)

theorem engines_terminate_move_bound_witness :
    (∃ fuel s, (∀ k, two_opt_first (fuel + k) [0, 1, 2, 3, 4, 5, 0]
        (problemOf (tableOracle table6) tour6) [0, 5, 1, 2, 4, 3] = .ok s) ∧
      (s.n_exchanges : ℚ) ≤
        cycCost (problemOf (tableOracle table6) tour6) 6 [0, 1, 2, 3, 4, 5, 0] / EPS) ∧
    (∃ fuel s, (∀ k, three_opt_first (fuel + k) [0, 1, 2, 3, 4, 5, 0]
        (problemOf (tableOracle table6) tour6) [0, 5, 1, 2, 4, 3] = .ok s) ∧
      (s.n_exchanges : ℚ) ≤
        cycCost (problemOf (tableOracle table6) tour6) 6 [0, 1, 2, 3, 4, 5, 0] / EPS) :=
  engines_terminate_move_bound (problemOf (tableOracle table6) tour6) 6
    [0, 1, 2, 3, 4, 5, 0] [0, 5, 1, 2, 4, 3]
    (ofTour_wfp (problemOf_ok (tableOracle table6) tour6 (by decide)))
    (ofTour_sym (problemOf_ok (tableOracle table6) tour6 (by decide)) (tableOracle_symm table6))
    (ofTour_nonneg (problemOf_ok (tableOracle table6) tour6 (by decide))
      (tableOracle_nonneg table6))
    (by unfold ValidTour; decide) (by decide)

/-- Claim C5: monotone convergence of the 2-opt engine.  On valid arrays and
a symmetric distance submatrix, the move that the searches of
`two_opt_first` hand to `exchange2opt` for a city `c1` has a gain below
`-EPS`, and applying it changes the cyclic tour cost by exactly that gain. -/
theorem two_opt_move_gain (P : TspProblem) (n : Nat) (s : State) (c1 : Nat) (m : Move2)
    (hv : Valid n s.arr) (hP : WFP n P) (hsym : ∀ i j, P.dist i j = P.dist j i)
    (hc1 : c1 < n) (hm : find_move2 P n s.arr c1 = some m) :
    m.gain < -EPS ∧
    cycCost P n (apply_move2 n s m).arr.tour = cycCost P n s.arr.tour + m.gain := by
  have hok := find_move2_ok hv hP hc1 hm
  exact ⟨hok.gain_lt, hok.cost_after hv hsym⟩

theorem two_opt_move_gain_witness :
    (-6 : ℚ) < -EPS ∧
    cycCost (problemOf (tableOracle table6) tour6) 6
        (apply_move2 6 (init_state 6 [0, 1, 2, 3, 4, 5, 0] 0) ⟨1, 2, 3, 4, -6⟩).arr.tour =
      cycCost (problemOf (tableOracle table6) tour6) 6
        (init_state 6 [0, 1, 2, 3, 4, 5, 0] 0).arr.tour + (-6) :=
  two_opt_move_gain (problemOf (tableOracle table6) tour6) 6
    (init_state 6 [0, 1, 2, 3, 4, 5, 0] 0) 1 ⟨1, 2, 3, 4, -6⟩
    (init_state_valid (by unfold ValidTour; decide) 0)
    (ofTour_wfp (problemOf_ok (tableOracle table6) tour6 (by decide)))
    (ofTour_sym (problemOf_ok (tableOracle table6) tour6 (by decide)) (tableOracle_symm table6))
    (by decide) (by decide!)

/-- Claim C6: monotone convergence of the 3-opt engine.  On valid arrays and
a symmetric distance submatrix, when the search of `three_opt_first` for a
city `c1` ends with a memorised move (the 2-opt move, `opt2_flag`, or a
reconnection with `move_flag` 1, 2, 3 or 4), the label `exchange` applies it
without failing, the memorised `move_value` is below `-EPS`, and the cyclic
tour cost changes by exactly `move_value`. -/
theorem three_opt_move_gain (P : TspProblem) (n : Nat) (s : State) (c1 : Nat) (sc : Scan)
    (hv : Valid3 n s.arr) (hP : WFP n P) (hsym : ∀ i j, P.dist i j = P.dist j i)
    (hmv : s.move_value ≤ 0) (hc1 : c1 < n)
    (hs : outer_search P n s.arr c1 (rd s.arr.tour (rd s.arr.pos c1 + 1)) (rd s.arr.pos c1)
      (candidates n)
      { opt2_flag := false, move_flag := 0, h1 := 0, h2 := 0, h3 := 0, h4 := 0, h5 := 0,
        h6 := 0, move_value := s.move_value, improvement_flag := s.improvement_flag } = .ok sc)
    (hm : sc.move_flag ≠ 0 ∨ sc.opt2_flag = true) :
    ((sc.opt2_flag = true ∧ sc.move_flag = 0) ∨
      (sc.opt2_flag = false ∧
        (sc.move_flag = 1 ∨ sc.move_flag = 2 ∨ sc.move_flag = 3 ∨ sc.move_flag = 4))) ∧
    sc.move_value < -EPS ∧
    ∃ s', exchange n s sc = .ok s' ∧
      cycCost P n s'.arr.tour = cycCost P n s.arr.tour + sc.move_value := by
  obtain ⟨sc2, h1, h2⟩ := outer_search_spec hv.1 hP hc1 rfl rfl (candidates n)
    (fun h hh => (mem_candidates hh).1)
    { opt2_flag := false, move_flag := 0, h1 := 0, h2 := 0, h3 := 0, h4 := 0, h5 := 0,
      h6 := 0, move_value := s.move_value, improvement_flag := s.improvement_flag }
    ⟨hmv, Or.inl ⟨rfl, rfl⟩⟩
  rw [hs] at h1
  simp only [Except.ok.injEq] at h1
  subst h1
  have hsc : Opt2Ok P n s.arr sc ∨ Move3Ok P n s.arr sc := by
    rcases h2.2 with h | h | h
    · exfalso
      rcases hm with hm | hm
      · exact hm h.1
      · rw [h.2] at hm; cases hm
    · exact Or.inl h
    · exact Or.inr h
  obtain ⟨s', x1, _, _, _, _, x6, x7⟩ := exchange_spec hv hsc
  refine ⟨?_, x6, s', x1, x7 hsym⟩
  rcases hsc with h | h
  · exact Or.inl ⟨h.opt2, h.flag0⟩
  · right
    refine ⟨h.opt2, ?_⟩
    rcases h.shape with ⟨e, _⟩ | ⟨e, _⟩ | ⟨e, _⟩ | ⟨e, _⟩
    · exact Or.inl e
    · exact Or.inr (Or.inl e)
    · exact Or.inr (Or.inr (Or.inl e))
    · exact Or.inr (Or.inr (Or.inr e))

theorem three_opt_move_gain_witness :
    (((Scan.mk false 1 1 2 4 0 3 4 (-4) true).opt2_flag = true ∧
        (Scan.mk false 1 1 2 4 0 3 4 (-4) true).move_flag = 0) ∨
      ((Scan.mk false 1 1 2 4 0 3 4 (-4) true).opt2_flag = false ∧
        ((Scan.mk false 1 1 2 4 0 3 4 (-4) true).move_flag = 1 ∨
          (Scan.mk false 1 1 2 4 0 3 4 (-4) true).move_flag = 2 ∨
          (Scan.mk false 1 1 2 4 0 3 4 (-4) true).move_flag = 3 ∨
          (Scan.mk false 1 1 2 4 0 3 4 (-4) true).move_flag = 4))) ∧
    (Scan.mk false 1 1 2 4 0 3 4 (-4) true).move_value < -EPS ∧
    ∃ s', exchange 5 (init_state 5 [0, 1, 2, 3, 4, 0] 5)
        (Scan.mk false 1 1 2 4 0 3 4 (-4) true) = .ok s' ∧
      cycCost (problemOf (tableOracle table5) tour5) 5 s'.arr.tour =
        cycCost (problemOf (tableOracle table5) tour5) 5
          (init_state 5 [0, 1, 2, 3, 4, 0] 5).arr.tour +
        (Scan.mk false 1 1 2 4 0 3 4 (-4) true).move_value :=
  three_opt_move_gain (problemOf (tableOracle table5) tour5) 5
    (init_state 5 [0, 1, 2, 3, 4, 0] 5) 1 (Scan.mk false 1 1 2 4 0 3 4 (-4) true)
    (init_state_valid3 (by unfold ValidTour; decide))
    (ofTour_wfp (problemOf_ok (tableOracle table5) tour5 (by decide)))
    (ofTour_sym (problemOf_ok (tableOracle table5) tour5 (by decide)) (tableOracle_symm table5))
    (by decide!) (by decide) (by decide!) (by decide)

/-- Claim C7: the 2-opt engine is not idempotent.  With the symmetric oracle
of `table6`, `optimize` with `twoOptsMethod` turns the tour
`0 5 4 2 3 1 0` of cost 28 into `0 5 2 4 3 1 0` of cost 22; run again on that
output with the scan order `2 4 1 0 5 3` it accepts a move and returns
`0 5 1 3 4 2 0` of cost 20, so the first output was not 2-opt. -/
theorem two_opt_second_run_improves :
    optimize 10 (tableOracle table6) ⟨[0, 5, 4, 2, 3, 1, 0]⟩ [0, 5, 1, 2, 4, 3]
      .twoOptsMethod = .ok ⟨[0, 5, 2, 4, 3, 1, 0]⟩ ∧
    optimize 10 (tableOracle table6) ⟨[0, 5, 2, 4, 3, 1, 0]⟩ [2, 4, 1, 0, 5, 3]
      .twoOptsMethod = .ok ⟨[0, 5, 1, 3, 4, 2, 0]⟩ ∧
    (two_opt_first 10 (local_nodes 7)
      (problemOf (tableOracle table6) ⟨[0, 5, 2, 4, 3, 1, 0]⟩) [2, 4, 1, 0, 5, 3]).map
        (fun s => s.n_exchanges) = .ok 1 ∧
    (Tour.mk [0, 5, 2, 4, 3, 1, 0]).calculateCost (tableOracle table6) = 22 ∧
    (Tour.mk [0, 5, 1, 3, 4, 2, 0]).calculateCost (tableOracle table6) = 20 := by
  decide!

/-- Claim C8: the 3-opt engine is not idempotent.  With the symmetric oracle
of `table5`, `optimize` with `threeOptsMethod` turns the tour `0 3 2 1 4 0`
of cost 14 into `0 1 2 3 4 0` of cost 12; run again on that output with the
scan order `1 4 0 3 2` it applies a move and returns `0 3 4 2 1 0` of
cost 10. -/
theorem three_opt_second_run_improves :
    optimize 10 (tableOracle table5) ⟨[0, 3, 2, 1, 4, 0]⟩ [2, 0, 1, 4, 3]
      .threeOptsMethod = .ok ⟨[0, 1, 2, 3, 4, 0]⟩ ∧
    optimize 10 (tableOracle table5) ⟨[0, 1, 2, 3, 4, 0]⟩ [1, 4, 0, 3, 2]
      .threeOptsMethod = .ok ⟨[0, 3, 4, 2, 1, 0]⟩ ∧
    (three_opt_first 10 (local_nodes 6)
      (problemOf (tableOracle table5) ⟨[0, 1, 2, 3, 4, 0]⟩) [1, 4, 0, 3, 2]).map
        (fun s => s.n_exchanges) = .ok 1 ∧
    (Tour.mk [0, 1, 2, 3, 4, 0]).calculateCost (tableOracle table5) = 12 ∧
    (Tour.mk [0, 3, 4, 2, 1, 0]).calculateCost (tableOracle table5) = 10 := by
  decide!

/-- Claim C9: degenerate inputs.  For every oracle, every method and every
fuel of at least 2, `optimize` returns the tour `0 0` unchanged and its
engine accepts no move; the same holds for a tour `0 a 0` with every scan
order over its two cities. -/
theorem optimize_degenerate (inst : Oracle) (a : Nat) (rv : List Nat) (m : OptimizeMethod)
    (fuel : Nat) :
    (optimize (fuel + 2) inst ⟨[0, 0]⟩ rv m = .ok ⟨[0, 0]⟩ ∧
      ∃ s, run_method (fuel + 2) m (local_nodes 2) (problemOf inst ⟨[0, 0]⟩) rv = .ok s ∧
        s.n_exchanges = 0) ∧
    ((∀ l, l < 2 → rd rv l < 2) →
      optimize (fuel + 2) inst ⟨[0, a, 0]⟩ rv m = .ok ⟨[0, a, 0]⟩ ∧
      ∃ s, run_method (fuel + 2) m (local_nodes 3) (problemOf inst ⟨[0, a, 0]⟩) rv = .ok s ∧
        s.n_exchanges = 0) := by
  constructor
  · obtain ⟨s, h1, h2, h3⟩ := run_method_len2 (problemOf inst ⟨[0, 0]⟩) rv m fuel
    refine ⟨?_, s, h1, h3⟩
    rw [optimize_eq, problemOf_ok inst ⟨[0, 0]⟩ (by decide)]
    simp only
    rw [show (Tour.mk [0, 0]).length = 2 from rfl, h1]
    simp only [h2]
    rfl
  · intro hrv
    have hP : WFP 2 (problemOf inst ⟨[0, a, 0]⟩) :=
      ofTour_wfp (problemOf_ok inst ⟨[0, a, 0]⟩ (by show 2 ≤ 3; omega))
    obtain ⟨s, h1, h2, h3⟩ := run_method_len3 hP hrv m fuel
    refine ⟨?_, s, h1, h3⟩
    rw [optimize_eq, problemOf_ok inst ⟨[0, a, 0]⟩ (by show 2 ≤ 3; omega)]
    simp only
    rw [show (Tour.mk [0, a, 0]).length = 3 from rfl, h1]
    simp only [h2]
    rfl

theorem optimize_degenerate_witness :
    optimize 2 (tableOracle table6) ⟨[0, 4, 0]⟩ [1, 0] .threeOptsMethod = .ok ⟨[0, 4, 0]⟩ ∧
    ∃ s, run_method 2 .threeOptsMethod (local_nodes 3)
        (problemOf (tableOracle table6) ⟨[0, 4, 0]⟩) [1, 0] = .ok s ∧
      s.n_exchanges = 0 :=
  (optimize_degenerate (tableOracle table6) 4 [1, 0] .threeOptsMethod 0).2 (by decide)

/-- The value of `tour.points` at the end of `optimizeTour` once `optimize`
has returned `tmp`: the new route, whichever way the regression check goes. -/
theorem optimizeTour_points_eq {fuel : Nat} {inst : Oracle} {distance : List Nat → ℚ}
    {points rv : List Nat} {m : OptimizeMethod} {tmp : Tour}
    (hrv : ∀ l, l < (Tour.ofVector points.dropLast.tail).length - 1 →
      rd rv l < (Tour.ofVector points.dropLast.tail).length - 1)
    (h : optimize fuel inst (Tour.ofVector points.dropLast.tail) rv m = .ok tmp) :
    optimizeTour_points fuel inst distance points rv m =
      (tmp.nodes,
        if distance tmp.nodes > distance points + tolerance then some .regression else none) := by
  have hL : 2 ≤ (Tour.ofVector points.dropLast.tail).length := by
    rw [length_ofVector]; omega
  obtain ⟨e1, e2, e3⟩ := optimize_ends hL hrv h
  rw [get_zero_ofVector] at e2 e3
  unfold optimizeTour_points
  simp only [h]
  rw [if_pos ⟨by rw [e1]; exact hL, e2, e3⟩]
  split_ifs with h1 h2
  · rfl
  · rfl
  · exact absurd (not_lt.1 h1) h2

/-- The two models of `optimizeTour` end in the same way. -/
theorem optimizeTour_points_snd (fuel : Nat) (inst : Oracle) (distance : List Nat → ℚ)
    (points rv : List Nat) (m : OptimizeMethod) :
    optimizeTour fuel inst distance points rv m =
      match (optimizeTour_points fuel inst distance points rv m).2 with
      | some e => .error e
      | none => .ok (optimizeTour_points fuel inst distance points rv m).1 := by
  unfold optimizeTour optimizeTour_points
  simp only
  cases optimize fuel inst (Tour.ofVector points.dropLast.tail) rv m with
  | error e => rfl
  | ok tmp =>
    simp only
    split_ifs <;> rfl

/-- Claim C11, as amended: `optimizeTour` is not atomic.  When `optimize`
returns the route `tmp`, `tour.points` holds `tmp` at the end of the run both
when the call completes and when the regression check ends the process; when
the search does not return, `tour.points` is left without its first and last
entry.  The original route survives only in the copy `org`. -/
theorem optimizeTour_final_points (inst : Oracle) (distance : List Nat → ℚ)
    (points rv : List Nat) (m : OptimizeMethod) (fuel : Nat)
    (hrv : ∀ l, l < (Tour.ofVector points.dropLast.tail).length - 1 →
      rd rv l < (Tour.ofVector points.dropLast.tail).length - 1) :
    (∀ tmp, optimize fuel inst (Tour.ofVector points.dropLast.tail) rv m = .ok tmp →
      (¬ distance tmp.nodes > distance points + tolerance →
        optimizeTour_points fuel inst distance points rv m = (tmp.nodes, none)) ∧
      (distance tmp.nodes > distance points + tolerance →
        optimizeTour_points fuel inst distance points rv m = (tmp.nodes, some .regression))) ∧
    (∀ e, optimize fuel inst (Tour.ofVector points.dropLast.tail) rv m = .error e →
      optimizeTour_points fuel inst distance points rv m =
        (points.dropLast.tail, some .outOfFuel)) := by
  have hL : 2 ≤ (Tour.ofVector points.dropLast.tail).length := by
    rw [length_ofVector]; omega
  refine ⟨fun tmp h => ?_, fun e h => ?_⟩
  · rw [optimizeTour_points_eq hrv h]
    exact ⟨fun hh => by rw [if_neg hh], fun hh => by rw [if_pos hh]⟩
  · have he := optimize_error hL hrv h
    unfold optimizeTour_points
    simp only [h]
    rw [he]

theorem optimizeTour_final_points_witness :
    (∀ tmp, optimize 30 (matrixOracle oneway5) (Tour.ofVector [0, 1, 2, 3, 4, 0].dropLast.tail)
        [0, 1, 2, 3, 4] .twoOptsMethod = .ok tmp →
      (¬ routeLength (matrixOracle oneway5) tmp.nodes >
          routeLength (matrixOracle oneway5) [0, 1, 2, 3, 4, 0] + tolerance →
        optimizeTour_points 30 (matrixOracle oneway5) (routeLength (matrixOracle oneway5))
          [0, 1, 2, 3, 4, 0] [0, 1, 2, 3, 4] .twoOptsMethod = (tmp.nodes, none)) ∧
      (routeLength (matrixOracle oneway5) tmp.nodes >
          routeLength (matrixOracle oneway5) [0, 1, 2, 3, 4, 0] + tolerance →
        optimizeTour_points 30 (matrixOracle oneway5) (routeLength (matrixOracle oneway5))
          [0, 1, 2, 3, 4, 0] [0, 1, 2, 3, 4] .twoOptsMethod =
            (tmp.nodes, some .regression))) ∧
    (∀ e, optimize 30 (matrixOracle oneway5) (Tour.ofVector [0, 1, 2, 3, 4, 0].dropLast.tail)
        [0, 1, 2, 3, 4] .twoOptsMethod = .error e →
      optimizeTour_points 30 (matrixOracle oneway5) (routeLength (matrixOracle oneway5))
        [0, 1, 2, 3, 4, 0] [0, 1, 2, 3, 4] .twoOptsMethod =
          ([0, 1, 2, 3, 4, 0].dropLast.tail, some .outOfFuel)) :=
  optimizeTour_final_points (matrixOracle oneway5) (routeLength (matrixOracle oneway5))
    [0, 1, 2, 3, 4, 0] [0, 1, 2, 3, 4] .twoOptsMethod 30 (by decide)

/-- Counterexample to claim C11 as stated: with the one-way distances of
`oneway5` the 2-opt engine turns the route `0 1 2 3 4 0` of length 15 into
`0 1 4 3 2 0` of length 16, the regression check ends the run, and
`tour.points` holds the new route, not the original one. -/
theorem optimizeTour_abort_keeps_new_route :
    optimizeTour_points 30 (matrixOracle oneway5) (routeLength (matrixOracle oneway5))
        [0, 1, 2, 3, 4, 0] [0, 1, 2, 3, 4] .twoOptsMethod =
      ([0, 1, 4, 3, 2, 0], some .regression) ∧
    optimizeTour 30 (matrixOracle oneway5) (routeLength (matrixOracle oneway5))
        [0, 1, 2, 3, 4, 0] [0, 1, 2, 3, 4] .twoOptsMethod = .error .regression ∧
    routeLength (matrixOracle oneway5) [0, 1, 2, 3, 4, 0] = 15 ∧
    routeLength (matrixOracle oneway5) [0, 1, 4, 3, 2, 0] = 16 ∧
    ([0, 1, 4, 3, 2, 0] : List Nat) ≠ [0, 1, 2, 3, 4, 0] := by
  decide!

/-- Claim C12, as amended: `optimizeTour` checks no precondition.  For every
route with at least two points, whatever its first and last points are, the
call drops them and searches on `Tour(rest)`; once the search has returned
`tmp`, `tour.points` is replaced by `tmp`, a rearrangement of `0, rest, 0`
that begins and ends with 0, so a route whose first or last point is not 0 is
changed, and the only thing reported is the regression exit. -/
theorem optimizeTour_unchecked (inst : Oracle) (distance : List Nat → ℚ)
    (points rv : List Nat) (m : OptimizeMethod) (fuel : Nat) (tmp : Tour)
    (hlen : 2 ≤ points.length)
    (hrv : ∀ l, l < (Tour.ofVector points.dropLast.tail).length - 1 →
      rd rv l < (Tour.ofVector points.dropLast.tail).length - 1)
    (h : optimize fuel inst (Tour.ofVector points.dropLast.tail) rv m = .ok tmp) :
    optimizeTour_points fuel inst distance points rv m =
      (tmp.nodes,
        if distance tmp.nodes > distance points + tolerance then some .regression else none) ∧
    tmp.nodes.Perm ([0] ++ points.dropLast.tail ++ [0]) ∧
    rd tmp.nodes 0 = 0 ∧ rd tmp.nodes (tmp.nodes.length - 1) = 0 ∧
    tmp.nodes.length = points.length ∧
    (rd points 0 ≠ 0 ∨ rd points (points.length - 1) ≠ 0 → tmp.nodes ≠ points) := by
  have hL : 2 ≤ (Tour.ofVector points.dropLast.tail).length := by
    rw [length_ofVector]; omega
  obtain ⟨e1, e2, e3⟩ := optimize_ends hL hrv h
  rw [get_zero_ofVector] at e2 e3
  have hp := optimize_perm hL (by rw [get_zero_ofVector, get_last_ofVector]) hrv h
  have hlen2 : tmp.nodes.length = points.length := by
    rw [e1, length_ofVector]
    simp
    omega
  refine ⟨optimizeTour_points_eq hrv h, hp, e2, e3, hlen2, ?_⟩
  intro hne heq
  rw [heq] at e2 e3
  rcases hne with h0 | h0
  · exact h0 e2
  · exact h0 e3

theorem optimizeTour_unchecked_witness :
    optimizeTour_points 10 (tableOracle table6) (routeLength (tableOracle table6))
        [1, 2, 3, 0] [0, 1, 2] .twoOptsMethod =
      ((Tour.mk [0, 2, 3, 0]).nodes,
        if routeLength (tableOracle table6) (Tour.mk [0, 2, 3, 0]).nodes >
            routeLength (tableOracle table6) [1, 2, 3, 0] + tolerance
        then some .regression else none) ∧
    (Tour.mk [0, 2, 3, 0]).nodes.Perm ([0] ++ [1, 2, 3, 0].dropLast.tail ++ [0]) ∧
    rd (Tour.mk [0, 2, 3, 0]).nodes 0 = 0 ∧
    rd (Tour.mk [0, 2, 3, 0]).nodes ((Tour.mk [0, 2, 3, 0]).nodes.length - 1) = 0 ∧
    (Tour.mk [0, 2, 3, 0]).nodes.length = [1, 2, 3, 0].length ∧
    (rd [1, 2, 3, 0] 0 ≠ 0 ∨ rd [1, 2, 3, 0] ([1, 2, 3, 0].length - 1) ≠ 0 →
      (Tour.mk [0, 2, 3, 0]).nodes ≠ [1, 2, 3, 0]) :=
  optimizeTour_unchecked (tableOracle table6) (routeLength (tableOracle table6))
    [1, 2, 3, 0] [0, 1, 2] .twoOptsMethod 10 ⟨[0, 2, 3, 0]⟩ (by decide) (by decide)
    (by decide!)

/-- Counterexample to claim C12 as stated: the route `1 2 3 0` does not start
at the anchor, yet `optimizeTour` returns normally and has replaced
`tour.points` by `0 2 3 0`. -/
theorem optimizeTour_accepts_malformed_route :
    optimizeTour_points 10 (tableOracle table6) (routeLength (tableOracle table6))
        [1, 2, 3, 0] [0, 1, 2] .twoOptsMethod = ([0, 2, 3, 0], none) ∧
    optimizeTour 10 (tableOracle table6) (routeLength (tableOracle table6))
        [1, 2, 3, 0] [0, 1, 2] .twoOptsMethod = .ok [0, 2, 3, 0] ∧
    rd [1, 2, 3, 0] 0 ≠ 0 ∧ ([0, 2, 3, 0] : List Nat) ≠ [1, 2, 3, 0] := by
  decide!

/-! ## The problem built by the constructor: candidate lists and distances -/

theorem pairLe_total (a b : ℚ × Nat) : pairLe a b ∨ pairLe b a := by
  unfold pairLe
  rcases lt_trichotomy a.1 b.1 with h | h | h
  · exact Or.inl (Or.inl h)
  · rcases le_total a.2 b.2 with h2 | h2
    · exact Or.inl (Or.inr ⟨h, h2⟩)
    · exact Or.inr (Or.inr ⟨h.symm, h2⟩)
  · exact Or.inr (Or.inl h)

theorem pairLe_trans {a b c : ℚ × Nat} (h1 : pairLe a b) (h2 : pairLe b c) : pairLe a c := by
  unfold pairLe at *
  rcases h1 with h1 | ⟨h1, h1b⟩ <;> rcases h2 with h2 | ⟨h2, h2b⟩
  · exact Or.inl (lt_trans h1 h2)
  · exact Or.inl (by rw [← h2]; exact h1)
  · exact Or.inl (by rw [h1]; exact h2)
  · exact Or.inr ⟨h1.trans h2, le_trans h1b h2b⟩

/-- Row `i` of `nn_list` holds the second components of the sorted pairs. -/
theorem ofTour_nn_row {inst : Oracle} {T : Tour} {P : TspProblem}
    (h : TspProblem.ofTour inst T = .ok P) {i : Nat} (hi : i < T.length - 1) :
    P.nn_list.getD i [] =
      ((nn_pairs P (T.length - 1) i).insertionSort pairLe).map Prod.snd := by
  unfold TspProblem.ofTour at h
  split_ifs at h with h1
  cases h
  unfold nn_pairs TspProblem.dist
  simp only [List.getD_eq_getElem?_getD, List.getElem?_map, List.getElem?_range hi,
    Option.map_some', Option.getD_some]
  generalize hs : List.insertionSort pairLe _ = srt
  have hlen : srt.length = T.length - 1 - 1 := by
    rw [← hs, List.length_insertionSort, List.length_map, length_filter_ne hi]
  apply List.ext_getElem
  · simp [hlen]
  · intro k h1 h2
    have hk : k < srt.length := by simpa using h2
    simp [List.getElem?_eq_getElem hk]

theorem ofTour_nn_spec {inst : Oracle} {T : Tour} {P : TspProblem} {i : Nat}
    (h : TspProblem.ofTour inst T = .ok P) (hi : i < T.length - 1) :
    1 ≤ T.length - 1 ∧ P.nn_list.length = T.length - 1 ∧
    (P.nn_list.getD i []).length = T.length - 1 - 1 ∧
    (P.nn_list.getD i []).Perm ((List.range (T.length - 1)).filter fun j => j ≠ i) ∧
    ∀ j k, j < k → k < T.length - 1 - 1 →
      P.dist i (P.nn i j) ≤ P.dist i (P.nn i k) ∧
      (P.dist i (P.nn i j) = P.dist i (P.nn i k) → P.nn i j < P.nn i k) := by
  have hrow := ofTour_nn_row h hi
  have hperm : ((nn_pairs P (T.length - 1) i).insertionSort pairLe).Perm
      (nn_pairs P (T.length - 1) i) := List.perm_insertionSort _ _
  have hsnd : (nn_pairs P (T.length - 1) i).map Prod.snd =
      (List.range (T.length - 1)).filter fun j => j ≠ i := by
    unfold nn_pairs
    rw [List.map_map]
    exact List.map_id _
  have hp2 : (P.nn_list.getD i []).Perm ((List.range (T.length - 1)).filter fun j => j ≠ i) := by
    rw [hrow, ← hsnd]
    exact hperm.map _
  have hlen : (P.nn_list.getD i []).length = T.length - 1 - 1 := by
    rw [hp2.length_eq, length_filter_ne hi]
  have hnodup : (P.nn_list.getD i []).Nodup :=
    hp2.nodup_iff.2 ((List.nodup_range _).filter _)
  haveI : IsTotal (ℚ × Nat) pairLe := ⟨pairLe_total⟩
  haveI : IsTrans (ℚ × Nat) pairLe := ⟨fun _ _ _ => pairLe_trans⟩
  have hsorted := List.sorted_insertionSort pairLe (nn_pairs P (T.length - 1) i)
  have hfst : ∀ x ∈ (nn_pairs P (T.length - 1) i).insertionSort pairLe, x.1 = P.dist i x.2 := by
    intro x hx
    have hx2 := hperm.mem_iff.1 hx
    unfold nn_pairs at hx2
    simp only [List.mem_map] at hx2
    obtain ⟨j, _, rfl⟩ := hx2
    rfl
  refine ⟨?_, ?_, hlen, hp2, ?_⟩
  · omega
  · unfold TspProblem.ofTour at h
    split_ifs at h with h1
    cases h
    simp
  · intro j k hjk hk
    have hk2 : k < ((nn_pairs P (T.length - 1) i).insertionSort pairLe).length := by
      rw [List.length_insertionSort]
      unfold nn_pairs
      rw [List.length_map, length_filter_ne hi]
      exact hk
    have hj2 : j < ((nn_pairs P (T.length - 1) i).insertionSort pairLe).length := by omega
    have hrel := (List.pairwise_iff_getElem.1 hsorted) j k hj2 hk2 hjk
    have ej : P.nn i j = (((nn_pairs P (T.length - 1) i).insertionSort pairLe)[j]).2 := by
      unfold TspProblem.nn rd
      rw [hrow, List.getD_eq_getElem?_getD, List.getElem?_map,
        List.getElem?_eq_getElem hj2]
      rfl
    have ek : P.nn i k = (((nn_pairs P (T.length - 1) i).insertionSort pairLe)[k]).2 := by
      unfold TspProblem.nn rd
      rw [hrow, List.getD_eq_getElem?_getD, List.getElem?_map,
        List.getElem?_eq_getElem hk2]
      rfl
    have fj := hfst _ (List.getElem_mem hj2)
    have fk := hfst _ (List.getElem_mem hk2)
    have hnd2 : (((nn_pairs P (T.length - 1) i).insertionSort pairLe).map Prod.snd).Nodup := by
      rw [← hrow]
      exact hnodup
    rw [ej, ek]
    generalize List.insertionSort pairLe (nn_pairs P (T.length - 1) i) = srt at *
    have hne : srt[j].2 ≠ srt[k].2 := by
      intro e
      have hj3 : j < (srt.map Prod.snd).length := by simpa using hj2
      have hk3 : k < (srt.map Prod.snd).length := by simpa using hk2
      have e2 : (srt.map Prod.snd)[j] = (srt.map Prod.snd)[k] := by
        rw [List.getElem_map, List.getElem_map]
        exact e
      have := (List.Nodup.getElem_inj_iff hnd2).1 e2
      omega
    have hrel2 : srt[j].1 < srt[k].1 ∨ srt[j].1 = srt[k].1 ∧ srt[j].2 ≤ srt[k].2 := hrel
    rw [fj, fk] at hrel2
    rcases hrel2 with hlt | ⟨heq, hle⟩
    · exact ⟨le_of_lt hlt, fun e => absurd e (ne_of_lt hlt)⟩
    · exact ⟨le_of_eq heq, fun _ => lt_of_le_of_ne hle hne⟩

/-- Claim C13: candidate lists.  For every input tour with
`n = length - 1 >= 1` the constructor builds a problem whose `nn_list` has `n`
rows, and for every city `i < n` the row `nn_list[i]` has exactly `n - 1`
entries, is a rearrangement of the cities `0..n-1` other than `i`, and along
it `distance[i][.]` does not decrease, equal distances being ordered by
increasing city index. -/
theorem candidate_lists (inst : Oracle) (T : Tour) (hn : 1 ≤ T.length - 1) :
    ∃ P, TspProblem.ofTour inst T = .ok P ∧ P.nn_list.length = T.length - 1 ∧
      ∀ i, i < T.length - 1 →
        (P.nn_list.getD i []).length = T.length - 1 - 1 ∧
        (P.nn_list.getD i []).Perm ((List.range (T.length - 1)).filter fun j => j ≠ i) ∧
        ∀ j k, j < k → k < T.length - 1 - 1 →
          P.dist i (P.nn i j) ≤ P.dist i (P.nn i k) ∧
          (P.dist i (P.nn i j) = P.dist i (P.nn i k) → P.nn i j < P.nn i k) := by
  obtain ⟨P, hP⟩ := ofTour_ok inst (show 2 ≤ T.length by omega)
  exact ⟨P, hP, (@ofTour_nn_spec inst T P 0 hP (by omega)).2.1,
    fun i hi => (ofTour_nn_spec hP hi).2.2⟩

theorem candidate_lists_witness :
    ∃ P, TspProblem.ofTour (tableOracle table6) tour6 = .ok P ∧
      P.nn_list.length = tour6.length - 1 ∧
      ∀ i, i < tour6.length - 1 →
        (P.nn_list.getD i []).length = tour6.length - 1 - 1 ∧
        (P.nn_list.getD i []).Perm ((List.range (tour6.length - 1)).filter fun j => j ≠ i) ∧
        ∀ j k, j < k → k < tour6.length - 1 - 1 →
          P.dist i (P.nn i j) ≤ P.dist i (P.nn i k) ∧
          (P.dist i (P.nn i j) = P.dist i (P.nn i k) → P.nn i j < P.nn i k) :=
  candidate_lists (tableOracle table6) tour6 (by decide)

theorem ofTour_matrix {inst : Oracle} {T : Tour} {P : TspProblem}
    (h : TspProblem.ofTour inst T = .ok P) :
    P.distance.length = T.length - 1 ∧
    ∀ i, i < T.length - 1 → (P.distance.getD i []).length = T.length - 1 := by
  unfold TspProblem.ofTour at h
  split_ifs at h with h1
  cases h
  refine ⟨by simp, fun i hi => ?_⟩
  simp [List.getD_eq_getElem?_getD, List.getElem?_range hi]

/-- Claim C14: distance submatrix.  For every input tour with
`n = length - 1 >= 1` the constructor builds a problem whose `distance` has
`n` rows of `n` entries, `distance[i][j]` being the oracle distance between
the nodes `tour[i]` and `tour[j]` for all `i, j < n`; hence the submatrix is
symmetric whenever the oracle is. -/
theorem distance_submatrix (inst : Oracle) (T : Tour) (hn : 1 ≤ T.length - 1) :
    ∃ P, TspProblem.ofTour inst T = .ok P ∧ P.distance.length = T.length - 1 ∧
      (∀ i, i < T.length - 1 → (P.distance.getD i []).length = T.length - 1) ∧
      (∀ i j, i < T.length - 1 → j < T.length - 1 →
        P.dist i j = inst (T.get i) (T.get j)) ∧
      ((∀ a b, inst a b = inst b a) →
        ∀ i j, i < T.length - 1 → j < T.length - 1 → P.dist i j = P.dist j i) := by
  obtain ⟨P, hP⟩ := ofTour_ok inst (show 2 ≤ T.length by omega)
  exact ⟨P, hP, (ofTour_matrix hP).1, (ofTour_matrix hP).2,
    fun i j hi hj => by rw [ofTour_dist hP, if_pos ⟨hi, hj⟩],
    fun hsym i j _ _ => ofTour_sym hP hsym i j⟩

theorem distance_submatrix_witness :
    ∃ P, TspProblem.ofTour (tableOracle table6) tour6 = .ok P ∧
      P.distance.length = tour6.length - 1 ∧
      (∀ i, i < tour6.length - 1 → (P.distance.getD i []).length = tour6.length - 1) ∧
      (∀ i j, i < tour6.length - 1 → j < tour6.length - 1 →
        P.dist i j = tableOracle table6 (tour6.get i) (tour6.get j)) ∧
      ((∀ a b, tableOracle table6 a b = tableOracle table6 b a) →
        ∀ i j, i < tour6.length - 1 → j < tour6.length - 1 → P.dist i j = P.dist j i) :=
  distance_submatrix (tableOracle table6) tour6 (by decide)

/-- Claim C15, as amended: the constructor rejects only tours of length below
2.  With `n = length - 1 < 1` a vector is constructed with a negative size
and the constructor fails; with `n >= 1`, also for `n = 1`, it builds the
problem: `n` rows of distances and `n` candidate lists of `n - 1` entries. -/
theorem constructor_fails_only_below_two (inst : Oracle) (T : Tour) :
    (T.length < 2 → TspProblem.ofTour inst T = .error .lengthError) ∧
    (2 ≤ T.length → ∃ P, TspProblem.ofTour inst T = .ok P ∧
      P.distance.length = T.length - 1 ∧ P.nn_list.length = T.length - 1 ∧
      ∀ i, i < T.length - 1 → (P.nn_list.getD i []).length = T.length - 1 - 1) := by
  constructor
  · intro h
    unfold TspProblem.ofTour
    rw [if_pos h]
  · intro h
    obtain ⟨P, hP⟩ := ofTour_ok inst h
    refine ⟨P, hP, (ofTour_matrix hP).1, ?_, fun i hi => ?_⟩
    · exact (@ofTour_nn_spec inst T P 0 hP (by omega)).2.1
    · exact (ofTour_nn_spec hP hi).2.2.1

/-- Counterexample to claim C15 as stated: for the tour `0 0`, whose point
count is `n = 1 < 2`, the constructor does not fail; it builds a problem with
one distance and one empty candidate list. -/
theorem constructor_accepts_single_point :
    (Tour.mk [0, 0]).length - 1 < 2 ∧
    (TspProblem.ofTour (tableOracle table6) ⟨[0, 0]⟩).map
      (fun P => (P.distance, P.nn_list)) = .ok ([[0]], [[]]) := by
  decide!

/-! ## The tour/position invariant and the sentinel over a run -/

theorem validTour_of_perm {n : Nat} {tour : List Nat} (hlen : tour.length = n + 1)
    (hperm : tour.dropLast.Perm (List.range n)) (hsent : rd tour n = rd tour 0) :
    ValidTour n tour := by
  have hdl : tour.dropLast.length = n := by simp [hlen]
  have hrd : ∀ i, ∀ hi : i < n, rd tour i = tour.dropLast[i] := by
    intro i hi
    unfold rd
    rw [List.getElem_dropLast, List.getD_eq_getElem?_getD,
      List.getElem?_eq_getElem (by omega)]
    rfl
  have hnd : tour.dropLast.Nodup := hperm.nodup_iff.2 (List.nodup_range n)
  refine ⟨hlen, fun i hi => ?_, fun i hi j hj e => ?_, hsent⟩
  · rw [hrd i hi]
    have hm : tour.dropLast[i] ∈ List.range n := hperm.mem_iff.1 (List.getElem_mem _)
    simpa using hm
  · rw [hrd i hi, hrd j hj] at e
    exact (List.Nodup.getElem_inj_iff hnd).1 e

theorem Valid.tourPos {n : Nat} {a : Arrays} (hv : Valid n a) : TourPos n a := by
  refine ⟨?_, hv.pos_tour⟩
  rcases Nat.eq_zero_or_pos n with h0 | hpos
  · subst h0
    have : a.tour.dropLast = [] := by
      apply List.eq_nil_of_length_eq_zero
      simp [hv.tour_len]
    rw [this]
    exact List.Perm.refl _
  · rw [dropLast_eq_segF hv]
    exact segF_perm_range hv hpos

theorem reach2_valid {P : TspProblem} {n : Nat} {rv tour : List Nat} (hP : WFP n P)
    (hrv : ∀ l, l < n → rd rv l < n) (ht : ValidTour n tour) {s : State}
    (h : Reach2 P n rv tour s) : Valid n s.arr := by
  induction h with
  | init => exact init_state_valid ht 0
  | pass s _ ih => exact ih
  | point s l _ hl ih => exact two_opt_point_valid ih hP (hrv l hl)

theorem reach3_valid {P : TspProblem} {n : Nat} {rv tour : List Nat} (hP : WFP n P)
    (hrv : ∀ l, l < n → rd rv l < n) (ht : ValidTour n tour) {s : State}
    (h : Reach3 P n rv tour s) : Valid3 n s.arr ∧ s.move_value = 0 := by
  induction h with
  | init => exact ⟨init_state_valid3 ht, rfl⟩
  | pass s _ ih => exact ⟨ih.1, rfl⟩
  | point s s1 l _ hl hs ih =>
    obtain ⟨s2, h2, hv, hmv, _⟩ := three_opt_point_spec hP ih.1 ih.2 (hrv l hl)
    rw [hs] at h2
    cases h2
    exact ⟨hv, hmv⟩

/-- Every pass of the engines is a chain of point evaluations: the state after
a pass of `two_opt_first` is reached from the state before it. -/
theorem reach2_sweep {P : TspProblem} {n : Nat} {rv tour : List Nat} {s : State}
    (h : Reach2 P n rv tour s) : Reach2 P n rv tour (two_opt_sweep P n rv s) := by
  unfold two_opt_sweep
  have key : ∀ (ls : List Nat), (∀ l ∈ ls, l < n) → ∀ s0, Reach2 P n rv tour s0 →
      Reach2 P n rv tour (ls.foldl (two_opt_point P n rv) s0) := by
    intro ls
    induction ls with
    | nil => intro _ s0 h0; exact h0
    | cons l ls ih =>
      intro hall s0 h0
      rw [List.foldl_cons]
      exact ih (fun x hx => hall x (by simp [hx])) _
        (Reach2.point s0 l h0 (hall l (by simp)))
  exact key _ (fun l hl => by simpa using hl) _ (Reach2.pass s h)

theorem reach3_sweep {P : TspProblem} {n : Nat} {rv tour : List Nat} {s s1 : State}
    (h : Reach3 P n rv tour s) (hs : three_opt_sweep P n rv s = .ok s1) :
    Reach3 P n rv tour s1 := by
  unfold three_opt_sweep at hs
  have key : ∀ (ls : List Nat), (∀ l ∈ ls, l < n) → ∀ s0, Reach3 P n rv tour s0 →
      three_opt_points P n rv ls s0 = .ok s1 → Reach3 P n rv tour s1 := by
    intro ls
    induction ls with
    | nil =>
      intro _ s0 h0 e
      unfold three_opt_points at e
      cases e
      exact h0
    | cons l ls ih =>
      intro hall s0 h0 e
      unfold three_opt_points at e
      cases hp : three_opt_point P n rv s0 l with
      | error x => rw [hp] at e; cases e
      | ok s2 =>
        rw [hp] at e
        exact ih (fun x hx => hall x (by simp [hx])) s2
          (Reach3.point s0 s2 l h0 (hall l (by simp)) hp) e
  exact key _ (fun l hl => by simpa using hl) _ (Reach3.pass s h) hs

theorem reach2_loop {P : TspProblem} {n : Nat} {rv tour : List Nat} :
    ∀ (fuel : Nat) (s s1 : State), Reach2 P n rv tour s →
      two_opt_loop P n rv fuel s = .ok s1 → Reach2 P n rv tour s1 := by
  intro fuel
  induction fuel with
  | zero => intro s s1 _ e; unfold two_opt_loop at e; cases e
  | succ k ih =>
    intro s s1 h e
    unfold two_opt_loop at e
    split_ifs at e
    · exact ih _ _ (reach2_sweep h) e
    · cases e
      exact h

theorem reach3_loop {P : TspProblem} {n : Nat} {rv tour : List Nat} :
    ∀ (fuel : Nat) (s s1 : State), Reach3 P n rv tour s →
      three_opt_loop P n rv fuel s = .ok s1 → Reach3 P n rv tour s1 := by
  intro fuel
  induction fuel with
  | zero => intro s s1 _ e; unfold three_opt_loop at e; cases e
  | succ k ih =>
    intro s s1 h e
    unfold three_opt_loop at e
    split_ifs at e
    · cases hs : three_opt_sweep P n rv s with
      | error x => rw [hs] at e; cases e
      | ok s2 =>
        rw [hs] at e
        exact ih _ _ (reach3_sweep h hs) e
    · cases e
      exact h

theorem mem_inner_writes : ∀ (fuel i j w : Nat), w ∈ inner_writes fuel i j → i ≤ w ∧ w ≤ j := by
  intro fuel
  induction fuel with
  | zero => intro i j w h; unfold inner_writes at h; cases h
  | succ k ih =>
    intro i j w h
    unfold inner_writes at h
    split_ifs at h with hij
    · simp only [List.mem_cons] at h
      rcases h with rfl | rfl | h
      · omega
      · omega
      · have := ih _ _ _ h
        omega
    · cases h

theorem mem_exchange2opt_inner_writes {n : Nat} {a : Arrays} (hv : Valid n a) {h1 h3 : Nat}
    (hh1 : h1 < n) (hh3 : h3 < n) (hne : h1 ≠ h3) {w : Nat}
    (hw : w ∈ exchange2opt_inner_writes n a h1 (rd a.tour (rd a.pos h1 + 1)) h3
      (rd a.tour (rd a.pos h3 + 1))) : 1 ≤ w ∧ w < n := by
  have hp1 := hv.pos_lt hh1
  have hp3 := hv.pos_lt hh3
  have hne2 : rd a.pos h1 ≠ rd a.pos h3 := fun e => hne (hv.pos_inj hh1 hh3 e)
  have key : ∀ k1 k3, k1 < n → k3 < n → rd a.pos k1 < rd a.pos k3 →
      w ∈ reverse_part_inner_writes n a (rd a.tour (rd a.pos k1 + 1)) k3 → 1 ≤ w ∧ w < n := by
    intro k1 k3 hk1 hk3 hlt hm
    have q3 := hv.pos_lt hk3
    have hs := hv.pos_succ hk1
    unfold cidx at hs
    rw [if_pos (by omega)] at hs
    unfold reverse_part_inner_writes at hm
    split_ifs at hm
    · have := mem_inner_writes _ _ _ _ hm
      omega
    · cases hm
  unfold exchange2opt_inner_writes at hw
  split_ifs at hw with hlt
  · exact key h3 h1 hh3 hh1 hlt hw
  · exact key h1 h3 hh1 hh3 (by omega) hw

theorem outer_search_move_ok {P : TspProblem} {n : Nat} {s : State} (hv : Valid n s.arr)
    (hP : WFP n P) (hmv : s.move_value ≤ 0) {c1 : Nat} (hc1 : c1 < n) {sc : Scan}
    (hs : outer_search P n s.arr c1 (rd s.arr.tour (rd s.arr.pos c1 + 1)) (rd s.arr.pos c1)
      (candidates n) (scan0 s) = .ok sc)
    (hm : sc.move_flag ≠ 0 ∨ sc.opt2_flag = true) :
    Opt2Ok P n s.arr sc ∨ Move3Ok P n s.arr sc := by
  obtain ⟨sc2, h1, h2⟩ := outer_search_spec hv hP hc1 rfl rfl (candidates n)
    (fun h hh => (mem_candidates hh).1) (scan0 s) ⟨hmv, Or.inl ⟨rfl, rfl⟩⟩
  rw [hs] at h1
  simp only [Except.ok.injEq] at h1
  subst h1
  rcases h2.2 with h | h | h
  · exfalso
    rcases hm with hm | hm
    · exact hm h.1
    · rw [h.2] at hm; cases hm
  · exact Or.inl h
  · exact Or.inr h

/-- Claim C16: tour/position invariant.  The tour array of the engines has
`n + 1` entries, the last one repeating the first (`tour[n] == tour[0]`);
`optimize`, their only caller, builds it so (`local_nodes_valid`).  If on
entry `tour[0..n-1]` is a permutation of `0..n-1`, then after the
initialisation, at the start and end of every point evaluation and after
every accepted move of `two_opt_first` and of `three_opt_first` (the 2-opt
move and the reconnections with `move_flag` 1 to 4, every case of the longest
part), `tour[0..n-1]` is a permutation of `0..n-1` and `pos[tour[i]] == i`
for all `i < n`; so it is in the state an engine returns. -/
theorem tour_pos_invariant (P : TspProblem) (n : Nat) (rv tour : List Nat)
    (hP : WFP n P) (hrv : ∀ l, l < n → rd rv l < n) (hlen : tour.length = n + 1)
    (hperm : tour.dropLast.Perm (List.range n)) (hsent : rd tour n = rd tour 0) :
    (∀ s, Reach2 P n rv tour s → TourPos n s.arr ∧
      ∀ c1 m, c1 < n → find_move2 P n s.arr c1 = some m →
        TourPos n (apply_move2 n s m).arr) ∧
    (∀ s, Reach3 P n rv tour s → TourPos n s.arr ∧
      (∀ l, l < n → ∃ s1, three_opt_point P n rv s l = .ok s1) ∧
      ∀ c1 sc, c1 < n →
        outer_search P n s.arr c1 (rd s.arr.tour (rd s.arr.pos c1 + 1)) (rd s.arr.pos c1)
          (candidates n) (scan0 s) = .ok sc →
        (sc.move_flag ≠ 0 ∨ sc.opt2_flag = true) →
        ∃ s1, exchange n s sc = .ok s1 ∧ TourPos n s1.arr) ∧
    (∀ fuel s, two_opt_first fuel tour P rv = .ok s → TourPos n s.arr) ∧
    (∀ fuel s, three_opt_first fuel tour P rv = .ok s → TourPos n s.arr) := by
  have ht := validTour_of_perm hlen hperm hsent
  refine ⟨fun s hs => ?_, fun s hs => ?_, fun fuel s h => ?_, fun fuel s h => ?_⟩
  · have hv := reach2_valid hP hrv ht hs
    exact ⟨hv.tourPos, fun c1 m hc1 hm => ((find_move2_ok hv hP hc1 hm).valid_after hv).1.tourPos⟩
  · obtain ⟨hv, hmv⟩ := reach3_valid hP hrv ht hs
    refine ⟨hv.1.tourPos, fun l hl => ?_, fun c1 sc hc1 hsc hm => ?_⟩
    · obtain ⟨s1, y1, _⟩ := @three_opt_point_spec P n rv s l hP hv hmv (hrv l hl)
      exact ⟨s1, y1⟩
    obtain ⟨s1, x1, x2, _⟩ :=
      @exchange_spec P n s sc hv (outer_search_move_ok hv.1 hP (le_of_eq hmv) hc1 hsc hm)
    exact ⟨s1, x1, x2.1.tourPos⟩
  · exact (two_opt_first_spec hP hrv ht h).1.tourPos
  · exact (three_opt_first_spec hP hrv ht h).1.tourPos

theorem tour_pos_invariant_witness :
    (∀ s, Reach2 (problemOf (tableOracle table6) tour6) 6 (List.range 6) [0, 1, 2, 3, 4, 5, 0] s →
      TourPos 6 s.arr ∧
      ∀ c1 m, c1 < 6 → find_move2 (problemOf (tableOracle table6) tour6) 6 s.arr c1 = some m →
        TourPos 6 (apply_move2 6 s m).arr) ∧
    (∀ s, Reach3 (problemOf (tableOracle table6) tour6) 6 (List.range 6) [0, 1, 2, 3, 4, 5, 0] s →
      TourPos 6 s.arr ∧
      (∀ l, l < 6 → ∃ s1, three_opt_point (problemOf (tableOracle table6) tour6) 6
        (List.range 6) s l = .ok s1) ∧
      ∀ c1 sc, c1 < 6 →
        outer_search (problemOf (tableOracle table6) tour6) 6 s.arr c1
          (rd s.arr.tour (rd s.arr.pos c1 + 1)) (rd s.arr.pos c1)
          (candidates 6) (scan0 s) = .ok sc →
        (sc.move_flag ≠ 0 ∨ sc.opt2_flag = true) →
        ∃ s1, exchange 6 s sc = .ok s1 ∧ TourPos 6 s1.arr) ∧
    (∀ fuel s, two_opt_first fuel [0, 1, 2, 3, 4, 5, 0] (problemOf (tableOracle table6) tour6)
      (List.range 6) = .ok s → TourPos 6 s.arr) ∧
    (∀ fuel s, three_opt_first fuel [0, 1, 2, 3, 4, 5, 0] (problemOf (tableOracle table6) tour6)
      (List.range 6) = .ok s → TourPos 6 s.arr) :=
  tour_pos_invariant (problemOf (tableOracle table6) tour6) 6 (List.range 6)
    [0, 1, 2, 3, 4, 5, 0]
    (ofTour_wfp (problemOf_ok (tableOracle table6) tour6 (by decide)))
    (by decide) (by decide) (by decide) (by decide)

/-- Remark on the closing entry of the tour array.  The invariant of
`tour_pos_invariant` rests on `tour[n] == tour[0]`, which every array that
`optimize` hands to the engines satisfies.  An array without it is not a tour
of the model: `three_opt_first` entered with `0 1 2 3 2` on the distances of
`table4` reaches `c2 = c3 = 3` in the evaluation of the first point `c1 = 0`,
reads `s_c2 = tour[4] = 2` and memorises the reconnection `move_flag == 1`
with `h1..h6 = 0 1 3 2 2 3` and gain `-6`; the exchange (longest part
`h == 1`) leaves `tour = 0 2 3 0 0`, `pos = 0 1 1 2`. -/
theorem three_opt_move_loses_city :
    ([0, 1, 2, 3, 2] : List Nat).dropLast.Perm (List.range 4) ∧
    (outer_search (problemOf (tableOracle table4) ⟨[0, 1, 2, 3, 0]⟩) 4
      (init_state 4 [0, 1, 2, 3, 2] 4).arr 0 1 0 (candidates 4)
      (scan0 (init_state 4 [0, 1, 2, 3, 2] 4))) =
        .ok ⟨false, 1, 0, 1, 3, 2, 2, 3, -6, true⟩ ∧
    (three_opt_point (problemOf (tableOracle table4) ⟨[0, 1, 2, 3, 0]⟩) 4 [0, 1, 2, 3]
      (init_state 4 [0, 1, 2, 3, 2] 4) 0).map (fun s => (s.arr.tour, s.arr.pos, s.n_exchanges)) =
        .ok ([0, 2, 3, 0, 0], [0, 1, 1, 2], 1) ∧
    ¬ ([0, 2, 3, 0, 0] : List Nat).dropLast.Perm (List.range 4) ∧
    rd [0, 1, 1, 2] (rd [0, 2, 3, 0, 0] 3) ≠ 3 := by
  decide!

/-- Claim C17: sentinel invariant.  For a tour of the cities `0..n-1` with
`tour[n] == tour[0]` on entry, `tour[n] == tour[0]` holds at the start (and
the end) of every point evaluation in `two_opt_first` and `three_opt_first`;
and when a 2-opt move found there is carried out by the inner reversal, which
does not refresh the sentinel, every index it writes is at least 1 and below
`n`: index 0 is never written. -/
theorem sentinel_invariant (P : TspProblem) (n : Nat) (rv tour : List Nat)
    (hP : WFP n P) (hrv : ∀ l, l < n → rd rv l < n) (hlen : tour.length = n + 1)
    (hperm : tour.dropLast.Perm (List.range n)) (hsent : rd tour n = rd tour 0) :
    (∀ s, Reach2 P n rv tour s → rd s.arr.tour n = rd s.arr.tour 0 ∧
      ∀ c1 m, c1 < n → find_move2 P n s.arr c1 = some m →
        ∀ w ∈ exchange2opt_inner_writes n s.arr m.h1 m.h2 m.h3 m.h4, 1 ≤ w ∧ w < n) ∧
    (∀ s, Reach3 P n rv tour s → rd s.arr.tour n = rd s.arr.tour 0 ∧
      ∀ c1 sc, c1 < n →
        outer_search P n s.arr c1 (rd s.arr.tour (rd s.arr.pos c1 + 1)) (rd s.arr.pos c1)
          (candidates n) (scan0 s) = .ok sc → sc.opt2_flag = true →
        ∀ w ∈ exchange2opt_inner_writes n s.arr sc.h1 sc.h2 sc.h3 sc.h4, 1 ≤ w ∧ w < n) := by
  have ht := validTour_of_perm hlen hperm hsent
  refine ⟨fun s hs => ?_, fun s hs => ?_⟩
  · have hv := reach2_valid hP hrv ht hs
    refine ⟨hv.sentinel, fun c1 m hc1 hm w hw => ?_⟩
    have hok := find_move2_ok hv hP hc1 hm
    rw [hok.h2_eq, hok.h4_eq] at hw
    exact mem_exchange2opt_inner_writes hv hok.h1_lt hok.h3_lt hok.ne hw
  · obtain ⟨hv, hmv⟩ := reach3_valid hP hrv ht hs
    refine ⟨hv.1.sentinel, fun c1 sc hc1 hsc hf w hw => ?_⟩
    rcases outer_search_move_ok hv.1 hP (le_of_eq hmv) hc1 hsc (Or.inr hf) with hok | hok
    · rw [hok.h2_eq, hok.h4_eq] at hw
      exact mem_exchange2opt_inner_writes hv.1 hok.h1_lt hok.h3_lt hok.ne hw
    · rw [hok.opt2] at hf
      cases hf

theorem sentinel_invariant_witness :
    (∀ s, Reach2 (problemOf (tableOracle table5) tour5) 5 (List.range 5) [0, 1, 2, 3, 4, 0] s →
      rd s.arr.tour 5 = rd s.arr.tour 0 ∧
      ∀ c1 m, c1 < 5 → find_move2 (problemOf (tableOracle table5) tour5) 5 s.arr c1 = some m →
        ∀ w ∈ exchange2opt_inner_writes 5 s.arr m.h1 m.h2 m.h3 m.h4, 1 ≤ w ∧ w < 5) ∧
    (∀ s, Reach3 (problemOf (tableOracle table5) tour5) 5 (List.range 5) [0, 1, 2, 3, 4, 0] s →
      rd s.arr.tour 5 = rd s.arr.tour 0 ∧
      ∀ c1 sc, c1 < 5 →
        outer_search (problemOf (tableOracle table5) tour5) 5 s.arr c1
          (rd s.arr.tour (rd s.arr.pos c1 + 1)) (rd s.arr.pos c1)
          (candidates 5) (scan0 s) = .ok sc → sc.opt2_flag = true →
        ∀ w ∈ exchange2opt_inner_writes 5 s.arr sc.h1 sc.h2 sc.h3 sc.h4, 1 ≤ w ∧ w < 5) :=
  sentinel_invariant (problemOf (tableOracle table5) tour5) 5 (List.range 5)
    [0, 1, 2, 3, 4, 0]
    (ofTour_wfp (problemOf_ok (tableOracle table5) tour5 (by decide)))
    (by decide) (by decide) (by decide) (by decide)

/-! ## Tours without an improving 2-opt exchange -/

theorem find_move2_none_of_twoOptimal {P : TspProblem} {n : Nat} {a : Arrays} (hv : Valid n a)
    (hP : WFP n P) (hopt : TwoOptimal P n a.tour) {c1 : Nat} (hc1 : c1 < n) :
    find_move2 P n a c1 = none := by
  cases hm : find_move2 P n a c1 with
  | none => rfl
  | some m =>
    exfalso
    have hok := find_move2_ok hv hP hc1 hm
    have h := hopt (rd a.pos m.h1) (hv.pos_lt hok.h1_lt) (rd a.pos m.h3) (hv.pos_lt hok.h3_lt)
      (fun e => hok.ne (hv.pos_inj hok.h1_lt hok.h3_lt e))
    rw [hv.tour_pos hok.h1_lt, hv.tour_pos hok.h3_lt, ← hok.h2_eq, ← hok.h4_eq] at h
    have h1 := hok.gain_lt
    have h2 := hok.gain_eq
    apply h
    linarith

/-- Already-optimal tours are left alone by the engine in exact arithmetic.
If no pair of edges `(a, succ a)`, `(b, succ b)` of the input cycle can be
exchanged for `(a, b)`, `(succ a, succ b)` with a cost decrease of more than
`EPS`, then for every scan order `two_opt_first` returns, after two
evaluations of its loop condition, with zero accepted moves and the tour array
unchanged.  The symmetry of the distance submatrix is not needed. -/
theorem optimal_tour_untouched (P : TspProblem) (n : Nat) (rv tour : List Nat)
    (hP : WFP n P) (hrv : ∀ l, l < n → rd rv l < n) (hlen : tour.length = n + 1)
    (hperm : tour.dropLast.Perm (List.range n)) (hsent : rd tour n = rd tour 0)
    (hopt : TwoOptimal P n tour) (fuel : Nat) :
    ∃ s, two_opt_first (fuel + 2) tour P rv = .ok s ∧ s.arr.tour = tour ∧
      s.n_exchanges = 0 := by
  have ht := validTour_of_perm hlen hperm hsent
  have hv := init_state_valid ht 0
  obtain ⟨s, h1, h2, h3⟩ := two_opt_loop_quiet
    (fun l hl => find_move2_none_of_twoOptimal hv hP hopt (hrv l hl))
    (init_state n tour 0) rfl fuel
  refine ⟨s, ?_, ?_, h3⟩
  · unfold two_opt_first
    simp only [hlen, Nat.add_sub_cancel]
    exact h1
  · rw [h2]
    rfl

theorem optimal_tour_untouched_witness :
    ∃ s, two_opt_first (0 + 2) [0, 3, 1, 2, 4, 5, 0] (problemOf (tableOracle table6) tour6)
        [3, 1, 4, 0, 5, 2] = .ok s ∧
      s.arr.tour = [0, 3, 1, 2, 4, 5, 0] ∧ s.n_exchanges = 0 :=
  optimal_tour_untouched (problemOf (tableOracle table6) tour6) 6 [3, 1, 4, 0, 5, 2]
    [0, 3, 1, 2, 4, 5, 0]
    (ofTour_wfp (problemOf_ok (tableOracle table6) tour6 (by decide)))
    (by decide) (by decide) (by decide) (by decide) (by unfold TwoOptimal; decide!) 0

/-! ## Completeness of the 2-opt search on full candidate lists -/

theorem search_succ_some {P : TspProblem} {a : Arrays} {c1 s_c1 : Nat} {radius : ℚ} :
    ∀ (hs : List Nat), hs.Pairwise (fun x y => x < y) → ∀ h0, h0 ∈ hs →
      (∀ h ∈ hs, h ≤ h0 → radius > P.dist c1 (P.nn c1 h)) →
      - radius + P.dist c1 (P.nn c1 h0) + P.dist s_c1 (rd a.tour (rd a.pos (P.nn c1 h0) + 1))
        - P.dist (P.nn c1 h0) (rd a.tour (rd a.pos (P.nn c1 h0) + 1)) < -EPS →
      search_succ P a c1 s_c1 radius hs ≠ none := by
  intro hs
  induction hs with
  | nil => intro _ h0 hm; cases hm
  | cons h hs ih =>
    intro hpw h0 hmem hall hg
    rw [List.pairwise_cons] at hpw
    have hle : h ≤ h0 := by
      rcases List.mem_cons.1 hmem with e | e
      · exact le_of_eq e.symm
      · exact le_of_lt (hpw.1 h0 e)
    have hr := hall h (by simp) hle
    unfold search_succ
    simp only
    rw [if_pos hr]
    split_ifs with hgain
    · simp
    · have hmem2 : h0 ∈ hs := by
        rcases List.mem_cons.1 hmem with e | e
        · subst e
          exact absurd hg hgain
        · exact e
      exact ih hpw.2 h0 hmem2 (fun x hx hx0 => hall x (by simp [hx]) hx0) hg

theorem search_pred_some {P : TspProblem} {n : Nat} {a : Arrays} {c1 p_c1 : Nat} {radius : ℚ} :
    ∀ (hs : List Nat), hs.Pairwise (fun x y => x < y) → ∀ h0, h0 ∈ hs →
      (∀ h ∈ hs, h ≤ h0 → radius > P.dist c1 (P.nn c1 h)) →
      predAt n a.tour (rd a.pos (P.nn c1 h0)) ≠ c1 → p_c1 ≠ P.nn c1 h0 →
      - radius + P.dist c1 (P.nn c1 h0) + P.dist p_c1 (predAt n a.tour (rd a.pos (P.nn c1 h0)))
        - P.dist (predAt n a.tour (rd a.pos (P.nn c1 h0))) (P.nn c1 h0) < -EPS →
      search_pred P n a c1 p_c1 radius hs ≠ none := by
  intro hs
  induction hs with
  | nil => intro _ h0 hm; cases hm
  | cons h hs ih =>
    intro hpw h0 hmem hall hn1 hn2 hg
    rw [List.pairwise_cons] at hpw
    have hle : h ≤ h0 := by
      rcases List.mem_cons.1 hmem with e | e
      · exact le_of_eq e.symm
      · exact le_of_lt (hpw.1 h0 e)
    have hr := hall h (by simp) hle
    have hrec : h0 ∈ hs → search_pred P n a c1 p_c1 radius hs ≠ none := fun hm =>
      ih hpw.2 h0 hm (fun x hx hx0 => hall x (by simp [hx]) hx0) hn1 hn2 hg
    have hcase : h0 = h ∨ h0 ∈ hs := List.mem_cons.1 hmem
    unfold search_pred
    simp only
    rw [if_pos hr]
    split_ifs with q1 q2 hgain
    · rcases hcase with e | e
      · subst e; exact absurd q1 hn1
      · exact hrec e
    · rcases hcase with e | e
      · subst e; exact absurd q2 hn2
      · exact hrec e
    · simp
    · rcases hcase with e | e
      · subst e; exact absurd hg hgain
      · exact hrec e

theorem candidates_full {n : Nat} (hfull : n - 1 ≤ nn_ls) : candidates n = List.range (n - 1) := by
  unfold candidates
  rw [min_eq_right hfull]

theorem Valid.pred_succ {n : Nat} {a : Arrays} (hv : Valid n a) {d : Nat} (hd : d < n) :
    predAt n a.tour (rd a.pos (rd a.tour (rd a.pos d + 1))) = d := by
  have hp := hv.pos_lt hd
  rw [hv.pos_succ hd]
  unfold predAt cidx
  split_ifs with h1 h2 h2
  · rw [show rd a.pos d + 1 - 1 = rd a.pos d by omega]
    exact hv.tour_pos hd
  · omega
  · omega
  · rw [show n - 1 = rd a.pos d by omega]
    exact hv.tour_pos hd

/-- When the candidate lists hold all other cities in the order of their
distance and are scanned in full, an improving exchange of two tour edges is
found by the evaluation of one of its cities. -/
theorem find_move2_complete {P : TspProblem} {n : Nat} {a : Arrays} (hv : Valid n a)
    (hsym : ∀ i j, P.dist i j = P.dist j i) (hfull : n - 1 ≤ nn_ls)
    (hrows : ∀ c, c < n → ∀ x, x < n → x ≠ c → ∃ h, h < n - 1 ∧ P.nn c h = x)
    (hsorted : ∀ c, c < n → ∀ j k, j < k → k < n - 1 →
      P.dist c (P.nn c j) ≤ P.dist c (P.nn c k))
    {c d : Nat} (hc : c < n) (hd : d < n) (hne : c ≠ d)
    (hg : P.dist c d + P.dist (rd a.tour (rd a.pos c + 1)) (rd a.tour (rd a.pos d + 1))
      - P.dist c (rd a.tour (rd a.pos c + 1)) - P.dist d (rd a.tour (rd a.pos d + 1)) < -EPS) :
    ∃ c1, c1 < n ∧ find_move2 P n a c1 ≠ none := by
  have he := EPS_pos
  have hpc := hv.pos_lt hc
  have hpd := hv.pos_lt hd
  have hsc := hv.next_lt hpc
  have hsd := hv.next_lt hpd
  generalize hscq : rd a.tour (rd a.pos c + 1) = sc at hg hsc
  generalize hsdq : rd a.tour (rd a.pos d + 1) = sd at hg hsd
  have hall : ∀ (c1 : Nat), c1 < n → ∀ (h0 : Nat), h0 < n - 1 → ∀ (r : ℚ),
      P.dist c1 (P.nn c1 h0) < r →
      ∀ h ∈ List.range (n - 1), h ≤ h0 → r > P.dist c1 (P.nn c1 h) := by
    intro c1 hc1 h0 hh0 r hr h _ hle
    rcases Nat.lt_or_eq_of_le hle with hlt | heq
    · exact lt_of_le_of_lt (hsorted c1 hc1 h h0 hlt hh0) hr
    · rw [heq]; exact hr
  by_cases hA : P.dist c d < P.dist c sc
  · refine ⟨c, hc, ?_⟩
    obtain ⟨h0, hh0, e0⟩ := hrows c hc d hd hne.symm
    have hs := @search_succ_some P a c sc (P.dist c sc) (List.range (n - 1))
      (List.pairwise_lt_range _) h0 (List.mem_range.2 hh0)
      (hall c hc h0 hh0 _ (by rw [e0]; exact hA))
      (by rw [e0, hsdq]; linarith)
    unfold find_move2
    simp only
    rw [hscq, candidates_full hfull]
    cases hq : search_succ P a c sc (P.dist c sc) (List.range (n - 1)) with
    | none => exact absurd hq hs
    | some m => simp
  · refine ⟨sd, hsd, ?_⟩
    have hcsd : c ≠ sd := by
      intro e
      rw [← e, hsym sc c, hsym d c] at hg
      linarith
    have hdsc : d ≠ sc := by
      intro e
      rw [← e] at hg
      linarith
    have hscsd : sc ≠ sd := by
      intro e
      have e1 := hv.pos_succ hc
      have e2 := hv.pos_succ hd
      rw [hscq] at e1
      rw [hsdq, ← e, e1] at e2
      unfold cidx at e2
      have : rd a.pos c = rd a.pos d := by split_ifs at e2 <;> omega
      exact hne (hv.pos_inj hc hd this)
    have hpsd : predAt n a.tour (rd a.pos sd) = d := by rw [← hsdq]; exact hv.pred_succ hd
    have hpsc : predAt n a.tour (rd a.pos sc) = c := by rw [← hscq]; exact hv.pred_succ hc
    obtain ⟨h0, hh0, e0⟩ := hrows sd hsd sc hsc hscsd
    have hB : P.dist sd sc < P.dist d sd := by
      rw [hsym sd sc]
      linarith
    have hs := @search_pred_some P n a sd d (P.dist d sd) (List.range (n - 1))
      (List.pairwise_lt_range _) h0 (List.mem_range.2 hh0)
      (hall sd hsd h0 hh0 _ (by rw [e0]; exact hB))
      (by rw [e0, hpsc]; exact hcsd) (by rw [e0]; exact hdsc)
      (by rw [e0, hpsc, hsym sd sc, hsym d c]; linarith)
    unfold find_move2
    simp only
    rw [hpsd, candidates_full hfull]
    cases hq : search_succ P a sd (rd a.tour (rd a.pos sd + 1))
        (P.dist sd (rd a.tour (rd a.pos sd + 1))) (List.range (n - 1)) with
    | none => exact hs
    | some m => simp

/-! ## The first pass accepts a move when an improving exchange exists -/

theorem rdB_wrB_true {v : List Bool} {i k : Nat} (h : rdB (wrB v i true) k = true) :
    k = i ∨ rdB v k = true := by
  unfold rdB wrB at *
  rw [List.getD_eq_getElem?_getD, List.getElem?_set] at h
  by_cases e : i = k
  · exact Or.inl e.symm
  · rw [if_neg e] at h
    right
    rw [List.getD_eq_getElem?_getD]
    exact h

theorem rdB_replicate_false (n c : Nat) : rdB (List.replicate n false) c = false := by
  unfold rdB
  rw [List.getD_eq_getElem?_getD, List.getElem?_replicate]
  split_ifs <;> rfl

theorem two_opt_point_exch_le (P : TspProblem) (n : Nat) (rv : List Nat) (s : State) (l : Nat) :
    s.n_exchanges ≤ (two_opt_point P n rv s l).n_exchanges := by
  unfold two_opt_point
  simp only
  split_ifs
  · exact le_refl _
  · split
    · exact Nat.le_succ _
    · exact le_refl _

theorem two_opt_points_exch_le (P : TspProblem) (n : Nat) (rv : List Nat) :
    ∀ (ls : List Nat) (s : State),
      s.n_exchanges ≤ (ls.foldl (two_opt_point P n rv) s).n_exchanges := by
  intro ls
  induction ls with
  | nil => intro s; exact le_refl _
  | cons l ls ih =>
    intro s
    rw [List.foldl_cons]
    exact le_trans (two_opt_point_exch_le P n rv s l) (ih _)

theorem two_opt_points_find {P : TspProblem} {n : Nat} {rv : List Nat} :
    ∀ (ls : List Nat) (s : State),
      (∀ c, rdB s.dlb c = true → find_move2 P n s.arr c = none) →
      (∃ l ∈ ls, find_move2 P n s.arr (rd rv l) ≠ none) →
      s.n_exchanges + 1 ≤ (ls.foldl (two_opt_point P n rv) s).n_exchanges := by
  intro ls
  induction ls with
  | nil => intro s _ h; obtain ⟨l, hl, _⟩ := h; cases hl
  | cons l ls ih =>
    intro s hinv hex
    rw [List.foldl_cons]
    obtain ⟨l0, hl0, hf⟩ := hex
    by_cases hd : rdB s.dlb (rd rv l) = true
    · have e : two_opt_point P n rv s l = s := by
        unfold two_opt_point
        simp only
        rw [if_pos hd]
      rw [e]
      refine ih s hinv ⟨l0, ?_, hf⟩
      rcases List.mem_cons.1 hl0 with q | q
      · subst q
        exact absurd (hinv _ hd) hf
      · exact q
    · cases hq : find_move2 P n s.arr (rd rv l) with
      | some m =>
        have e : two_opt_point P n rv s l = apply_move2 n s m := by
          unfold two_opt_point
          simp only
          rw [if_neg hd, hq]
        rw [e]
        exact two_opt_points_exch_le P n rv ls (apply_move2 n s m)
      | none =>
        have e : two_opt_point P n rv s l = { s with dlb := wrB s.dlb (rd rv l) true } := by
          unfold two_opt_point
          simp only
          rw [if_neg hd, hq]
        rw [e]
        refine ih { s with dlb := wrB s.dlb (rd rv l) true } (fun c hc => ?_) ⟨l0, ?_, hf⟩
        · rcases rdB_wrB_true hc with q | q
          · rw [q]; exact hq
          · exact hinv c q
        · rcases List.mem_cons.1 hl0 with q | q
          · subst q
            exact absurd hq hf
          · exact q

theorem two_opt_first_exchanges {P : TspProblem} {n : Nat} {rv tour : List Nat} (hP : WFP n P)
    (hsym : ∀ i j, P.dist i j = P.dist j i) (hrv : ∀ l, l < n → rd rv l < n)
    (ht : ValidTour n tour)
    (hex : ∃ l, l < n ∧ find_move2 P n (init_state n tour 0).arr (rd rv l) ≠ none)
    {fuel : Nat} {s : State} (h : two_opt_first fuel tour P rv = .ok s) :
    1 ≤ s.n_exchanges := by
  unfold two_opt_first at h
  simp only [ht.1, Nat.add_sub_cancel] at h
  cases fuel with
  | zero => unfold two_opt_loop at h; cases h
  | succ k =>
    rw [two_opt_loop_succ] at h
    have hf : (init_state n tour 0).improvement_flag = true := rfl
    rw [if_pos hf] at h
    have hv := init_state_valid ht 0
    have h1 : 1 ≤ (two_opt_sweep P n rv (init_state n tour 0)).n_exchanges := by
      obtain ⟨l, hl, hne⟩ := hex
      have := @two_opt_points_find P n rv (List.range n)
        { init_state n tour 0 with improvement_flag := false }
        (fun c hc => by
          have : rdB (List.replicate n false) c = true := hc
          rw [rdB_replicate_false] at this
          cases this)
        ⟨l, List.mem_range.2 hl, hne⟩
      unfold two_opt_sweep
      exact le_trans (by show 1 ≤ 0 + 1; omega) this
    have h2 := (two_opt_loop_rel hP hsym hrv k _ s (two_opt_sweep_valid hP hrv hv).1 h).1
    omega

theorem optimize_run {fuel : Nat} {inst : Oracle} {T : Tour} {rv : List Nat}
    {m : OptimizeMethod} {out : Tour} (hL : 2 ≤ T.length)
    (hT : T.get 0 = T.get (T.length - 1))
    (hrv : ∀ l, l < T.length - 1 → rd rv l < T.length - 1)
    (h : optimize fuel inst T rv m = .ok out) :
    ∃ P s, TspProblem.ofTour inst T = .ok P ∧
      run_method fuel m (local_nodes T.length) P rv = .ok s ∧
      out.calculateCost inst = cycCost P (T.length - 1) s.arr.tour ∧
      T.calculateCost inst = cycCost P (T.length - 1) (local_nodes T.length) := by
  rw [optimize_eq] at h
  obtain ⟨P, hP⟩ := ofTour_ok inst hL
  rw [hP] at h
  simp only at h
  cases hr : run_method fuel m (local_nodes T.length) P rv with
  | error e => rw [hr] at h; cases h
  | ok s =>
    rw [hr] at h
    simp only [Except.ok.injEq] at h
    have ht : ValidTour (T.length - 1) (local_nodes T.length) := by
      have := local_nodes_valid (n := T.length - 1) (by omega)
      rwa [show T.length - 1 + 1 = T.length by omega] at this
    obtain ⟨hv, _⟩ := run_method_spec (ofTour_wfp hP) hrv ht hr
    obtain ⟨k, hk, h0, hre⟩ := reanchor_spec hv (by omega)
    have ho : out.nodes = (segF (T.length - 1) s.arr.tour k (T.length - 1) ++ [0]).map T.get := by
      rw [← h, hre]
    refine ⟨P, s, hP, hr, ?_, ?_⟩
    · rw [calculateCost_eq, ho, ← cycCost_reanchored P hv hk h0, ← sumCost_map hP]
      · simp
      · simp; omega
      · intro i hi
        by_cases h2 : i < T.length - 1
        · have hm : rd (segF (T.length - 1) s.arr.tour k (T.length - 1) ++ [0]) i ∈
              segF (T.length - 1) s.arr.tour k (T.length - 1) := by
            unfold rd
            rw [List.getD_eq_getElem?_getD, List.getElem?_append_left (by simpa using h2),
              List.getElem?_eq_getElem (by simpa using h2), Option.getD_some]
            exact List.getElem_mem _
          exact segF_lt hv hk hm
        · have : i = T.length - 1 := by omega
          unfold rd
          rw [List.getD_eq_getElem?_getD, List.getElem?_append_right (by simp; omega)]
          simp [this]
          omega
    · rw [calculateCost_eq, ← sumCost_map hP (length_local_nodes _), map_get_local_nodes hT]
      · rfl
      · intro i hi
        rw [rd_local_nodes hi]
        split_ifs <;> omega

theorem ofTour_rows {inst : Oracle} {T : Tour} {P : TspProblem}
    (hP : TspProblem.ofTour inst T = .ok P) :
    (∀ c, c < T.length - 1 → ∀ x, x < T.length - 1 → x ≠ c →
      ∃ h, h < T.length - 1 - 1 ∧ P.nn c h = x) ∧
    (∀ c, c < T.length - 1 → ∀ j k, j < k → k < T.length - 1 - 1 →
      P.dist c (P.nn c j) ≤ P.dist c (P.nn c k)) := by
  constructor
  · intro c hc x hx hxc
    obtain ⟨_, _, hlen, hperm, _⟩ := @ofTour_nn_spec inst T P c hP hc
    have hm : x ∈ P.nn_list.getD c [] := by
      rw [hperm.mem_iff]
      simp [hx, hxc]
    obtain ⟨h, hh, e⟩ := List.getElem_of_mem hm
    refine ⟨h, by rw [← hlen]; exact hh, ?_⟩
    unfold TspProblem.nn rd
    rw [List.getD_eq_getElem?_getD, List.getElem?_eq_getElem hh]
    exact e
  · intro c hc j k hjk hk
    exact ((@ofTour_nn_spec inst T P c hP hc).2.2.2.2 j k hjk hk).1

/-- Crossings are removed by the engine in exact arithmetic.  For a symmetric
distance oracle, a closed input tour with `n - 1 <= nn_ls = 20` (every other
city is in each scanned candidate list) and a scan order that is a
permutation of `0..n-1`:
if the input cycle has two edges `(t[i], t[i+1])`, `(t[j], t[j+1])` whose
exchange for `(t[i], t[j])`, `(t[i+1], t[j+1])` lowers the cost by more than
`EPS`, then `optimize` with `twoOptsMethod` returns, and the tour it returns
costs strictly less than the input. -/
theorem crossing_removed (inst : Oracle) (T : Tour) (rv : List Nat)
    (hT : T.get 0 = T.get (T.length - 1)) (hsym : ∀ x y, inst x y = inst y x)
    (hn : T.length - 1 - 1 ≤ nn_ls) (hrv : rv.Perm (List.range (T.length - 1)))
    (hcross : ∃ i j, i < T.length - 1 ∧ j < T.length - 1 ∧ i ≠ j ∧
      inst (T.get i) (T.get j) + inst (T.get (i + 1)) (T.get (j + 1))
        - inst (T.get i) (T.get (i + 1)) - inst (T.get j) (T.get (j + 1)) < -EPS) :
    (∃ fuel out, ∀ k, optimize (fuel + k) inst T rv .twoOptsMethod = .ok out) ∧
    ∀ fuel out, optimize fuel inst T rv .twoOptsMethod = .ok out →
      out.calculateCost inst < T.calculateCost inst := by
  obtain ⟨i, j, hi, hj, hij, hg⟩ := hcross
  have hL : 2 ≤ T.length := by omega
  have hrvlen : rv.length = T.length - 1 := by rw [hrv.length_eq, List.length_range]
  have hrv1 : ∀ l, l < T.length - 1 → rd rv l < T.length - 1 := by
    intro l hl
    have hl2 : l < rv.length := by omega
    have hm : rv[l] ∈ List.range (T.length - 1) := hrv.mem_iff.1 (List.getElem_mem _)
    unfold rd
    rw [List.getD_eq_getElem?_getD, List.getElem?_eq_getElem hl2]
    simpa using hm
  refine ⟨optimize_terminates inst rv .twoOptsMethod hL hsym hrv1, fun fuel out h => ?_⟩
  obtain ⟨P, s, hP, hr, e2, e1⟩ := optimize_run hL hT hrv1 h
  have ht : ValidTour (T.length - 1) (local_nodes T.length) := by
    have := local_nodes_valid (n := T.length - 1) (by omega)
    rwa [show T.length - 1 + 1 = T.length by omega] at this
  have hv := init_state_valid ht 0
  have hPs := ofTour_sym hP hsym
  obtain ⟨hrows, hsorted⟩ := ofTour_rows hP
  have hloc : ∀ x, x < T.length - 1 → rd (local_nodes T.length) x = x := by
    intro x hx
    rw [rd_local_nodes (by omega), if_pos (by omega)]
  have hpos : ∀ x, x < T.length - 1 → rd (init_state (T.length - 1) (local_nodes T.length) 0).arr.pos x = x := by
    intro x hx
    have := hv.pos_tour x hx
    rw [show (init_state (T.length - 1) (local_nodes T.length) 0).arr.tour =
      local_nodes T.length from rfl, hloc x hx] at this
    exact this
  have hsucc : ∀ x, x < T.length - 1 →
      rd (local_nodes T.length) (x + 1) < T.length - 1 ∧
      T.get (rd (local_nodes T.length) (x + 1)) = T.get (x + 1) := by
    intro x hx
    rw [rd_local_nodes (by omega)]
    split_ifs with q
    · exact ⟨by omega, rfl⟩
    · refine ⟨by omega, ?_⟩
      rw [hT]
      congr 1
      omega
  have hex : ∃ c1, c1 < T.length - 1 ∧
      find_move2 P (T.length - 1) (init_state (T.length - 1) (local_nodes T.length) 0).arr c1
        ≠ none := by
    refine find_move2_complete hv hPs hn hrows hsorted hi hj hij ?_
    rw [hpos i hi, hpos j hj]
    show P.dist i j + P.dist (rd (local_nodes T.length) (i + 1)) (rd (local_nodes T.length) (j + 1))
      - P.dist i (rd (local_nodes T.length) (i + 1))
      - P.dist j (rd (local_nodes T.length) (j + 1)) < -EPS
    obtain ⟨a1, a2⟩ := hsucc i hi
    obtain ⟨b1, b2⟩ := hsucc j hj
    rw [ofTour_dist hP, ofTour_dist hP, ofTour_dist hP, ofTour_dist hP, if_pos ⟨hi, hj⟩,
      if_pos ⟨a1, b1⟩, if_pos ⟨hi, a1⟩, if_pos ⟨hj, b1⟩, a2, b2]
    exact hg
  obtain ⟨c1, hc1, hf⟩ := hex
  have hm : c1 ∈ rv := hrv.mem_iff.2 (List.mem_range.2 hc1)
  obtain ⟨l, hl, el⟩ := List.getElem_of_mem hm
  have hrl : rd rv l = c1 := by
    unfold rd
    rw [List.getD_eq_getElem?_getD, List.getElem?_eq_getElem hl]
    exact el
  have hr2 : two_opt_first fuel (local_nodes T.length) P rv = .ok s := hr
  have hone := two_opt_first_exchanges (ofTour_wfp hP) hPs hrv1 ht
    ⟨l, by omega, by rw [hrl]; exact hf⟩ hr2
  have hrel := (two_opt_first_spec (ofTour_wfp hP) hrv1 ht hr2).2 hPs
  have he := EPS_pos
  have hcast : (1 : ℚ) ≤ (s.n_exchanges : ℚ) := by exact_mod_cast hone
  rw [e1, e2]
  nlinarith

theorem crossing_removed_witness :
    (∃ fuel out, ∀ k,
      optimize (fuel + k) (tableOracle table6) tour6 (List.range 6) .twoOptsMethod = .ok out) ∧
    ∀ fuel out, optimize fuel (tableOracle table6) tour6 (List.range 6) .twoOptsMethod = .ok out →
      out.calculateCost (tableOracle table6) < tour6.calculateCost (tableOracle table6) :=
  crossing_removed (tableOracle table6) tour6 (List.range 6) (by decide)
    (tableOracle_symm table6) (by decide) (List.Perm.refl _)
    ⟨1, 3, by decide, by decide, by decide, by decide!⟩

/-! ## What a 2-opt exchange does to the cycle -/

theorem reverse_part_branches (n : Nat) (a : Arrays) (h1 h2 h3 h4 : Nat) :
    reverse_part n a h1 h2 h3 h4 =
      if (rd a.pos h3 : Int) - (rd a.pos h2 : Int) < ((n / 2 : Nat) : Int) + 1 then
        reverse_part_inner n a h2 h3
      else reverse_part_outer n a h1 h4 := rfl

theorem exchange2opt_branches (n : Nat) (a : Arrays) (h1 h2 h3 h4 : Nat) :
    exchange2opt n a h1 h2 h3 h4 = exchange2opt_inner n a h1 h2 h3 h4 ∨
    exchange2opt n a h1 h2 h3 h4 = exchange2opt_outer n a h1 h2 h3 h4 := by
  unfold exchange2opt exchange2opt_inner exchange2opt_outer
  split_ifs with h
  · rw [reverse_part_branches]
    split_ifs
    · exact Or.inl rfl
    · exact Or.inr rfl
  · rw [reverse_part_branches]
    split_ifs
    · exact Or.inl rfl
    · exact Or.inr rfl

theorem reverse_part_inner_spec {n : Nat} {a : Arrays} (hv : Valid n a) {k1 k3 : Nat}
    (hk1 : k1 < n) (hk3 : k3 < n) (hlt : rd a.pos k1 < rd a.pos k3) :
    Valid n (reverse_part_inner n a (rd a.tour (rd a.pos k1 + 1)) k3) ∧
    RevWin n a.tour (reverse_part_inner n a (rd a.tour (rd a.pos k1 + 1)) k3).tour
      (rd a.pos k1 + 1) (rd a.pos k3 - rd a.pos k1) := by
  have hp3 := hv.pos_lt hk3
  have hpk2 : rd a.pos (rd a.tour (rd a.pos k1 + 1)) = rd a.pos k1 + 1 :=
    hv.pos_tour _ (by omega)
  generalize hP1 : rd a.pos k1 = p1 at *
  generalize hP3 : rd a.pos k3 = p3 at *
  unfold reverse_part_inner
  rw [hpk2, hP3]
  obtain ⟨c1, _, _, c4⟩ := reverse_inner_spec n a (p1 + 1) p3 hv.core hp3 (by omega)
  refine ⟨?_, ?_⟩
  · refine c1.valid ?_
    rw [c4 n, c4 0, if_neg (by omega), if_neg (by omega)]
    exact hv.sentinel
  · intro r hr
    rw [c4]
    by_cases hrL : r < p3 - p1
    · have e1 : cidx n (p1 + 1) r = p1 + 1 + r := by unfold cidx; split_ifs <;> omega
      have e2 : cidx n (p1 + 1) (p3 - p1 - 1 - r) = p3 - r := by
        unfold cidx; split_ifs <;> omega
      rw [e1, e2, if_pos (by omega), if_pos hrL]
      congr 1; omega
    · rw [if_neg hrL, if_neg]
      unfold cidx; split_ifs <;> omega

theorem reverse_part_outer_spec {n : Nat} {a : Arrays} (hv : Valid n a) {k1 k3 : Nat}
    (hk1 : k1 < n) (hk3 : k3 < n) (hlt : rd a.pos k1 < rd a.pos k3) :
    Valid n (reverse_part_outer n a k1 (rd a.tour (rd a.pos k3 + 1))) ∧
    RevWin n a.tour (reverse_part_outer n a k1 (rd a.tour (rd a.pos k3 + 1))).tour
      (cidx n (rd a.pos k3) 1) (n - (rd a.pos k3 - rd a.pos k1)) := by
  have hp1 := hv.pos_lt hk1
  have hp3 := hv.pos_lt hk3
  have hpk4 := hv.pos_succ hk3
  generalize hP1 : rd a.pos k1 = p1 at *
  generalize hP3 : rd a.pos k3 = p3 at *
  unfold reverse_part_outer
  rw [hpk4, hP1]
  have hw : cidx n p3 1 < n := cidx_lt hp3 (by omega)
  generalize hW : cidx n p3 1 = w at *
  have hwv : w = p3 + 1 ∨ (w = 0 ∧ p3 + 1 = n) := by
    rw [← hW]; unfold cidx; split_ifs <;> omega
  have hm : (if w > p1 then n - (w - p1) + 1 else p1 - w + 1) = n - (p3 - p1) := by
    split_ifs <;> omega
  simp only [hm]
  have ei : p1 = cidx n w (n - (p3 - p1) - 1 - 0) := by
    unfold cidx; split_ifs <;> omega
  have ej : w = cidx n w 0 := (cidx_zero hw).symm
  obtain ⟨c1, _, _, _, c5⟩ := reverse_outer_spec hw (show n - (p3 - p1) ≤ n by omega)
    ((n - (p3 - p1)) / 2) a 0 hv.core (by omega)
  rw [← ei, ← ej] at c1 c5
  refine ⟨core_refresh c1 (by omega), ?_⟩
  intro r hr
  show rd (wr _ n _) (cidx n w r) = _
  have hlt2 : cidx n w r < n := cidx_lt hw (by omega)
  rw [rd_wr_ne _ (by omega), c5 r hr]
  by_cases hrm : r < n - (p3 - p1)
  · rw [if_pos hrm]
    by_cases hmid : (0 ≤ r ∧ r < 0 + (n - (p3 - p1)) / 2) ∨
        (n - (p3 - p1) ≤ r + 0 + (n - (p3 - p1)) / 2 ∧ r + 0 < n - (p3 - p1))
    · rw [if_pos hmid]
    · rw [if_neg hmid]
      congr 2; omega
  · rw [if_neg hrm, if_neg (by omega)]

theorem segF_take_drop {n : Nat} (t : List Nat) {b len : Nat} (h : b + len ≤ n) :
    segF n t b len = ((segF n t 0 n).drop b).take len := by
  apply List.ext_getElem
  · simp; omega
  · intro k h1 h2
    have hk : k < len := by simpa using h1
    rw [getElem_segF, List.getElem_take, List.getElem_drop, getElem_segF]
    congr 1
    unfold cidx
    split_ifs <;> omega

theorem spec_reverse_between_segF {n : Nat} (t : List Nat) {i j : Nat} (hij : i < j)
    (hj : j < n) :
    spec_reverse_between (segF n t 0 n) i j =
      segF n t 0 (i + 1) ++ ((segF n t (i + 1) (j - i)).reverse ++ segF n t (j + 1) (n - 1 - j)) := by
  unfold spec_reverse_between
  rw [@segF_take_drop n t 0 (i + 1) (by omega), @segF_take_drop n t (i + 1) (j - i) (by omega),
    @segF_take_drop n t (j + 1) (n - 1 - j) (by omega), List.drop_zero]
  congr 2
  rw [List.take_of_length_le]
  simp
  omega

theorem segF_wrap {n : Nat} (t : List Nat) {i j : Nat} (hij : i < j) (hj : j < n) :
    segF n t (cidx n j 1) (n - (j - i)) = segF n t (j + 1) (n - 1 - j) ++ segF n t 0 (i + 1) := by
  by_cases h : j + 1 < n
  · have e : cidx n j 1 = j + 1 := by unfold cidx; split_ifs; omega
    rw [e, show n - (j - i) = (n - 1 - j) + (i + 1) by omega, segF_add t h (by omega)]
    congr 2
    unfold cidx; split_ifs <;> omega
  · have e : cidx n j 1 = 0 := by unfold cidx; split_ifs; omega
    have e2 : segF n t (j + 1) (n - 1 - j) = [] := by
      rw [show n - 1 - j = 0 by omega]
      rfl
    rw [e, e2, List.nil_append]
    congr 1
    omega

theorem rotate_append_len (X Y : List Nat) (k : Nat) (h : X.length = k) :
    (X ++ Y).rotate k = Y ++ X := by
  subst h
  exact List.rotate_append_length_eq X Y

/-- The tour left by the inner reversal is the cycle of the specification, up
to rotation. -/
theorem inner_isRotated {n : Nat} {a : Arrays} (hv : Valid n a) {k1 k3 : Nat}
    (hk1 : k1 < n) (hk3 : k3 < n) (hlt : rd a.pos k1 < rd a.pos k3) :
    (reverse_part_inner n a (rd a.tour (rd a.pos k1 + 1)) k3).tour.dropLast.IsRotated
      (spec_reverse_between a.tour.dropLast (rd a.pos k1) (rd a.pos k3)) := by
  obtain ⟨hv2, hw⟩ := reverse_part_inner_spec hv hk1 hk3 hlt
  have hp3 := hv.pos_lt hk3
  rw [dropLast_eq_segF hv2, dropLast_eq_segF hv, spec_reverse_between_segF _ hlt hp3]
  generalize (reverse_part_inner n a (rd a.tour (rd a.pos k1 + 1)) k3).tour = t2 at *
  generalize rd a.pos k1 = i at *
  generalize rd a.pos k3 = j at *
  have h1 : (segF n t2 0 n).rotate (i + 1) =
      (segF n a.tour (i + 1) (j - i)).reverse ++
        (segF n a.tour (j + 1) (n - 1 - j) ++ segF n a.tour 0 (i + 1)) := by
    rw [rotate_segF t2 (show i + 1 < n by omega), hw.segF_eq (by omega) (by omega)]
    congr 1
    have e : cidx n (i + 1) (j - i) = cidx n j 1 := by unfold cidx; split_ifs <;> omega
    rw [e, segF_wrap a.tour hlt hp3]
  have h2 : (segF n a.tour 0 (i + 1) ++ ((segF n a.tour (i + 1) (j - i)).reverse ++
      segF n a.tour (j + 1) (n - 1 - j))).rotate (i + 1) =
      (segF n a.tour (i + 1) (j - i)).reverse ++
        (segF n a.tour (j + 1) (n - 1 - j) ++ segF n a.tour 0 (i + 1)) := by
    rw [rotate_append_len _ _ _ (by simp), List.append_assoc]
  exact List.IsRotated.trans ⟨i + 1, h1⟩ (List.IsRotated.symm ⟨i + 1, h2⟩)

/-- The tour left by the outer reversal is the cycle of the specification read
backward, up to rotation. -/
theorem outer_isRotated {n : Nat} {a : Arrays} (hv : Valid n a) {k1 k3 : Nat}
    (hk1 : k1 < n) (hk3 : k3 < n) (hlt : rd a.pos k1 < rd a.pos k3) :
    (reverse_part_outer n a k1 (rd a.tour (rd a.pos k3 + 1))).tour.dropLast.IsRotated
      (spec_reverse_between a.tour.dropLast (rd a.pos k1) (rd a.pos k3)).reverse := by
  obtain ⟨hv2, hw⟩ := reverse_part_outer_spec hv hk1 hk3 hlt
  have hp3 := hv.pos_lt hk3
  rw [dropLast_eq_segF hv2, dropLast_eq_segF hv, spec_reverse_between_segF _ hlt hp3]
  generalize (reverse_part_outer n a k1 (rd a.tour (rd a.pos k3 + 1))).tour = t2 at *
  generalize rd a.pos k1 = i at *
  generalize rd a.pos k3 = j at *
  have hwn : cidx n j 1 < n := cidx_lt hp3 (by omega)
  have h1 : (segF n t2 0 n).rotate (cidx n j 1) =
      (segF n a.tour 0 (i + 1)).reverse ++
        ((segF n a.tour (j + 1) (n - 1 - j)).reverse ++ segF n a.tour (i + 1) (j - i)) := by
    rw [rotate_segF t2 hwn, hw.segF_eq hwn (by omega), segF_wrap a.tour hlt hp3,
      List.reverse_append, List.append_assoc]
    congr 2
    have e : cidx n (cidx n j 1) (n - (j - i)) = i + 1 := by unfold cidx; split_ifs <;> omega
    rw [e]
    congr 1
    omega
  have h2 : ((segF n a.tour 0 (i + 1)).reverse ++
      ((segF n a.tour (j + 1) (n - 1 - j)).reverse ++ segF n a.tour (i + 1) (j - i))).rotate
        (i + 1) =
      (segF n a.tour 0 (i + 1) ++ ((segF n a.tour (i + 1) (j - i)).reverse ++
        segF n a.tour (j + 1) (n - 1 - j))).reverse := by
    rw [rotate_append_len _ _ _ (by simp)]
    simp [List.reverse_append]
  exact List.IsRotated.trans ⟨_, h1⟩ ⟨i + 1, h2⟩

/-! ## The edges of the cycle before and after a 2-opt exchange -/

theorem edgeProblem_dist (n : Nat) (e : Sym2 Nat) (i j : Nat) :
    (edgeProblem n e).dist i j =
      if i < n ∧ j < n then (if Sym2.mk (i, j) = e then (1 : ℚ) else 0) else 0 := by
  unfold TspProblem.dist edgeProblem
  simp only [List.getD_eq_getElem?_getD, List.getElem?_map]
  by_cases hi : i < n
  · by_cases hj : j < n
    · simp [List.getElem?_range hi, List.getElem?_range hj, hi, hj]
    · have : (List.range n)[j]? = none := by simp; omega
      simp [List.getElem?_range hi, this, hj]
  · have : (List.range n)[i]? = none := by simp; omega
    simp [this, hi]

theorem edgeProblem_symm (n : Nat) (e : Sym2 Nat) (i j : Nat) :
    (edgeProblem n e).dist i j = (edgeProblem n e).dist j i := by
  rw [edgeProblem_dist, edgeProblem_dist, Sym2.eq_swap]
  simp only [and_comm]

theorem count_edges_eq (n : Nat) (e : Sym2 Nat) (t : List Nat) :
    ∀ (l : List Nat), (∀ i ∈ l, rd t i < n ∧ rd t (i + 1) < n) →
      (((l.map fun i => Sym2.mk (rd t i, rd t (i + 1))).count e : Nat) : ℚ) =
        (l.map fun i => (edgeProblem n e).dist (rd t i) (rd t (i + 1))).sum := by
  intro l
  induction l with
  | nil => intro _; simp
  | cons x l ih =>
    intro h
    have hx := h x (by simp)
    rw [List.map_cons, List.map_cons, List.sum_cons, List.count_cons,
      ← ih (fun i hi => h i (by simp [hi])), edgeProblem_dist, if_pos hx]
    by_cases q : Sym2.mk (rd t x, rd t (x + 1)) = e
    · simp [q, add_comm]
    · simp [q]

theorem count_edgesOf {n : Nat} {a : Arrays} (hv : Valid n a) (e : Sym2 Nat) :
    ((Multiset.count e (edgesOf n a.tour) : Nat) : ℚ) = cycCost (edgeProblem n e) n a.tour := by
  unfold edgesOf cycCost
  rw [Multiset.coe_count]
  exact count_edges_eq n e a.tour (List.range n) (fun i hi =>
    ⟨hv.tour_lt i (List.mem_range.1 hi), hv.next_lt (List.mem_range.1 hi)⟩)

theorem edges_exchange2opt {n : Nat} {a : Arrays} (hv : Valid n a) {h1 h3 : Nat}
    (hh1 : h1 < n) (hh3 : h3 < n) (hne : h1 ≠ h3) :
    edgesOf n (exchange2opt n a h1 (rd a.tour (rd a.pos h1 + 1)) h3
        (rd a.tour (rd a.pos h3 + 1))).tour +
      {Sym2.mk (h1, rd a.tour (rd a.pos h1 + 1)), Sym2.mk (h3, rd a.tour (rd a.pos h3 + 1))} =
    edgesOf n a.tour +
      {Sym2.mk (h1, h3),
        Sym2.mk (rd a.tour (rd a.pos h1 + 1), rd a.tour (rd a.pos h3 + 1))} := by
  have hv2 := (exchange2opt_valid hv hh1 hh3 hne).1
  have hh2 := hv.next_lt (hv.pos_lt hh1)
  have hh4 := hv.next_lt (hv.pos_lt hh3)
  ext e
  have hc := exchange2opt_cost (edgeProblem n e) (edgeProblem_symm n e) hv hh1 hh3 hne
  rw [← count_edgesOf hv2 e, ← count_edgesOf hv e] at hc
  generalize rd a.tour (rd a.pos h1 + 1) = h2 at *
  generalize rd a.tour (rd a.pos h3 + 1) = h4 at *
  have d12 : (edgeProblem n e).dist h1 h2 = if Sym2.mk (h1, h2) = e then 1 else 0 := by
    rw [edgeProblem_dist, if_pos ⟨hh1, hh2⟩]
  have d34 : (edgeProblem n e).dist h3 h4 = if Sym2.mk (h3, h4) = e then 1 else 0 := by
    rw [edgeProblem_dist, if_pos ⟨hh3, hh4⟩]
  have d13 : (edgeProblem n e).dist h1 h3 = if Sym2.mk (h1, h3) = e then 1 else 0 := by
    rw [edgeProblem_dist, if_pos ⟨hh1, hh3⟩]
  have d24 : (edgeProblem n e).dist h2 h4 = if Sym2.mk (h2, h4) = e then 1 else 0 := by
    rw [edgeProblem_dist, if_pos ⟨hh2, hh4⟩]
  rw [d12, d34, d13, d24] at hc
  have key : ((Multiset.count e (edgesOf n (exchange2opt n a h1 h2 h3 h4).tour) +
      ((if e = Sym2.mk (h1, h2) then 1 else 0) + (if e = Sym2.mk (h3, h4) then 1 else 0)) : Nat) : ℚ)
      = ((Multiset.count e (edgesOf n a.tour) +
      ((if e = Sym2.mk (h1, h3) then 1 else 0) + (if e = Sym2.mk (h2, h4) then 1 else 0)) : Nat) : ℚ) := by
    push_cast
    rw [hc]
    simp only [@eq_comm _ e]
    ring
  have key2 := Nat.cast_injective key
  simp only [Multiset.count_add, Multiset.insert_eq_cons, Multiset.count_cons,
    Multiset.count_singleton]
  omega

theorem edges_removed_le {n : Nat} {a : Arrays} (hv : Valid n a) {h1 h3 : Nat}
    (hh1 : h1 < n) (hh3 : h3 < n) (hne : h1 ≠ h3) :
    ({Sym2.mk (h1, rd a.tour (rd a.pos h1 + 1)), Sym2.mk (h3, rd a.tour (rd a.pos h3 + 1))} :
      Multiset (Sym2 Nat)) ≤ edgesOf n a.tour := by
  have hp1 := hv.pos_lt hh1
  have hp3 := hv.pos_lt hh3
  have hpne : rd a.pos h1 ≠ rd a.pos h3 := fun e => hne (hv.pos_inj hh1 hh3 e)
  have hsub : ({rd a.pos h1, rd a.pos h3} : Multiset Nat) ≤ Multiset.range n := by
    rw [Multiset.le_iff_subset (by simp [hpne])]
    intro x hx
    simp only [Multiset.insert_eq_cons, Multiset.mem_cons, Multiset.mem_singleton] at hx
    rw [Multiset.mem_range]
    rcases hx with e | e <;> omega
  have hm := Multiset.map_le_map (f := fun i => Sym2.mk (rd a.tour i, rd a.tour (i + 1))) hsub
  simp only [Multiset.insert_eq_cons, Multiset.map_cons, Multiset.map_singleton,
    hv.tour_pos hh1, hv.tour_pos hh3] at hm
  exact hm

/-- Claim C20: 2-opt move realisation.  In a valid state where `h2` is the
tour successor of `h1`, `h4` the successor of `h3` and `h1 != h3`, the
exchange block of `two_opt_first` leaves a tour whose undirected cyclic edge
multiset is the old one with `(h1, h2)` and `(h3, h4)` replaced by `(h1, h3)`
and `(h2, h4)`.  The block takes its inner-reversal or its outer-reversal
branch; the inner branch leaves the cycle of the specification (the segment
strictly between the two removed edges reversed) up to rotation, the outer
branch leaves the same cycle read backward, up to rotation. -/
theorem two_opt_move_realisation (n : Nat) (a : Arrays) (h1 h2 h3 h4 : Nat)
    (hv : Valid n a) (hh1 : h1 < n) (hh3 : h3 < n) (hne : h1 ≠ h3)
    (e2 : h2 = rd a.tour (rd a.pos h1 + 1)) (e4 : h4 = rd a.tour (rd a.pos h3 + 1)) :
    (({Sym2.mk (h1, h2), Sym2.mk (h3, h4)} : Multiset (Sym2 Nat)) ≤ edgesOf n a.tour ∧
      edgesOf n (exchange2opt n a h1 h2 h3 h4).tour =
        edgesOf n a.tour - {Sym2.mk (h1, h2), Sym2.mk (h3, h4)} +
          {Sym2.mk (h1, h3), Sym2.mk (h2, h4)}) ∧
    (exchange2opt n a h1 h2 h3 h4 = exchange2opt_inner n a h1 h2 h3 h4 ∨
      exchange2opt n a h1 h2 h3 h4 = exchange2opt_outer n a h1 h2 h3 h4) ∧
    (exchange2opt_inner n a h1 h2 h3 h4).tour.dropLast.IsRotated
      (spec_reverse_between a.tour.dropLast (min (rd a.pos h1) (rd a.pos h3))
        (max (rd a.pos h1) (rd a.pos h3))) ∧
    (exchange2opt_outer n a h1 h2 h3 h4).tour.dropLast.IsRotated
      (spec_reverse_between a.tour.dropLast (min (rd a.pos h1) (rd a.pos h3))
        (max (rd a.pos h1) (rd a.pos h3))).reverse := by
  subst e2 e4
  have hle := edges_removed_le hv hh1 hh3 hne
  have hadd := edges_exchange2opt hv hh1 hh3 hne
  have hpne : rd a.pos h1 ≠ rd a.pos h3 := fun e => hne (hv.pos_inj hh1 hh3 e)
  refine ⟨⟨hle, ?_⟩, exchange2opt_branches n a _ _ _ _, ?_, ?_⟩
  · apply add_right_cancel (b := ({Sym2.mk (h1, rd a.tour (rd a.pos h1 + 1)),
      Sym2.mk (h3, rd a.tour (rd a.pos h3 + 1))} : Multiset (Sym2 Nat)))
    rw [hadd, add_right_comm, tsub_add_cancel_of_le hle]
  · unfold exchange2opt_inner
    by_cases hlt : rd a.pos h3 < rd a.pos h1
    · rw [if_pos hlt, min_eq_right (le_of_lt hlt), max_eq_left (le_of_lt hlt)]
      exact inner_isRotated hv hh3 hh1 hlt
    · have hlt2 : rd a.pos h1 < rd a.pos h3 := by omega
      rw [if_neg hlt, min_eq_left (le_of_lt hlt2), max_eq_right (le_of_lt hlt2)]
      exact inner_isRotated hv hh1 hh3 hlt2
  · unfold exchange2opt_outer
    by_cases hlt : rd a.pos h3 < rd a.pos h1
    · rw [if_pos hlt, min_eq_right (le_of_lt hlt), max_eq_left (le_of_lt hlt)]
      exact outer_isRotated hv hh3 hh1 hlt
    · have hlt2 : rd a.pos h1 < rd a.pos h3 := by omega
      rw [if_neg hlt, min_eq_left (le_of_lt hlt2), max_eq_right (le_of_lt hlt2)]
      exact outer_isRotated hv hh1 hh3 hlt2

theorem two_opt_move_realisation_witness :
    (({Sym2.mk (1, 2), Sym2.mk (3, 4)} : Multiset (Sym2 Nat)) ≤
        edgesOf 6 (init_state 6 [0, 1, 2, 3, 4, 5, 0] 0).arr.tour ∧
      edgesOf 6 (exchange2opt 6 (init_state 6 [0, 1, 2, 3, 4, 5, 0] 0).arr 1 2 3 4).tour =
        edgesOf 6 (init_state 6 [0, 1, 2, 3, 4, 5, 0] 0).arr.tour -
          {Sym2.mk (1, 2), Sym2.mk (3, 4)} + {Sym2.mk (1, 3), Sym2.mk (2, 4)}) ∧
    (exchange2opt 6 (init_state 6 [0, 1, 2, 3, 4, 5, 0] 0).arr 1 2 3 4 =
        exchange2opt_inner 6 (init_state 6 [0, 1, 2, 3, 4, 5, 0] 0).arr 1 2 3 4 ∨
      exchange2opt 6 (init_state 6 [0, 1, 2, 3, 4, 5, 0] 0).arr 1 2 3 4 =
        exchange2opt_outer 6 (init_state 6 [0, 1, 2, 3, 4, 5, 0] 0).arr 1 2 3 4) ∧
    (exchange2opt_inner 6 (init_state 6 [0, 1, 2, 3, 4, 5, 0] 0).arr 1 2 3 4).tour.dropLast.IsRotated
      (spec_reverse_between (init_state 6 [0, 1, 2, 3, 4, 5, 0] 0).arr.tour.dropLast
        (min (rd (init_state 6 [0, 1, 2, 3, 4, 5, 0] 0).arr.pos 1)
          (rd (init_state 6 [0, 1, 2, 3, 4, 5, 0] 0).arr.pos 3))
        (max (rd (init_state 6 [0, 1, 2, 3, 4, 5, 0] 0).arr.pos 1)
          (rd (init_state 6 [0, 1, 2, 3, 4, 5, 0] 0).arr.pos 3))) ∧
    (exchange2opt_outer 6 (init_state 6 [0, 1, 2, 3, 4, 5, 0] 0).arr 1 2 3 4).tour.dropLast.IsRotated
      (spec_reverse_between (init_state 6 [0, 1, 2, 3, 4, 5, 0] 0).arr.tour.dropLast
        (min (rd (init_state 6 [0, 1, 2, 3, 4, 5, 0] 0).arr.pos 1)
          (rd (init_state 6 [0, 1, 2, 3, 4, 5, 0] 0).arr.pos 3))
        (max (rd (init_state 6 [0, 1, 2, 3, 4, 5, 0] 0).arr.pos 1)
          (rd (init_state 6 [0, 1, 2, 3, 4, 5, 0] 0).arr.pos 3))).reverse :=
  two_opt_move_realisation 6 (init_state 6 [0, 1, 2, 3, 4, 5, 0] 0).arr 1 2 3 4
    (init_state_valid (by unfold ValidTour; decide) 0) (by decide) (by decide) (by decide)
    (by decide) (by decide)

/-! ## Which part of the cycle a 2-opt exchange reverses -/

theorem reverse_part_policy {n : Nat} {a : Arrays} (hv : Valid n a) {k1 k3 : Nat}
    (hk1 : k1 < n) (hk3 : k3 < n) (hlt : rd a.pos k1 < rd a.pos k3) :
    (((rd a.pos k3 : Int) - ((rd a.pos k1 + 1 : Nat) : Int) < ((n / 2 : Nat) : Int) + 1) →
      reverse_part n a k1 (rd a.tour (rd a.pos k1 + 1)) k3 (rd a.tour (rd a.pos k3 + 1)) =
        reverse_part_inner n a (rd a.tour (rd a.pos k1 + 1)) k3 ∧
      RevWin n a.tour
        (reverse_part n a k1 (rd a.tour (rd a.pos k1 + 1)) k3 (rd a.tour (rd a.pos k3 + 1))).tour
        (rd a.pos k1 + 1) (rd a.pos k3 - rd a.pos k1) ∧
      rd a.pos k3 - rd a.pos k1 ≤ n / 2 + 1) ∧
    (¬ ((rd a.pos k3 : Int) - ((rd a.pos k1 + 1 : Nat) : Int) < ((n / 2 : Nat) : Int) + 1) →
      reverse_part n a k1 (rd a.tour (rd a.pos k1 + 1)) k3 (rd a.tour (rd a.pos k3 + 1)) =
        reverse_part_outer n a k1 (rd a.tour (rd a.pos k3 + 1)) ∧
      RevWin n a.tour
        (reverse_part n a k1 (rd a.tour (rd a.pos k1 + 1)) k3 (rd a.tour (rd a.pos k3 + 1))).tour
        (cidx n (rd a.pos k3) 1) (n - (rd a.pos k3 - rd a.pos k1)) ∧
      n - (rd a.pos k3 - rd a.pos k1) + 3 ≤ rd a.pos k3 - rd a.pos k1) := by
  have hp3 := hv.pos_lt hk3
  have hpk2 : rd a.pos (rd a.tour (rd a.pos k1 + 1)) = rd a.pos k1 + 1 :=
    hv.pos_tour _ (by omega)
  have hb := reverse_part_branches n a k1 (rd a.tour (rd a.pos k1 + 1)) k3
    (rd a.tour (rd a.pos k3 + 1))
  rw [hpk2] at hb
  constructor
  · intro hc
    rw [if_pos hc] at hb
    rw [hb]
    refine ⟨rfl, (reverse_part_inner_spec hv hk1 hk3 hlt).2, ?_⟩
    omega
  · intro hc
    rw [if_neg hc] at hb
    rw [hb]
    refine ⟨rfl, (reverse_part_outer_spec hv hk1 hk3 hlt).2, ?_⟩
    omega

/-- Claim C21, as amended: the part reversed by the exchange block.  For the
2-opt move of the edges `(h1, h2)`, `(h3, h4)` in a valid state, let `p < q` be
the positions of `h1` and `h3` in array order, `A` the `q - p` cells from
`p + 1` to `q` and `B` the other `n - (q - p)` cells of the cycle.  When the
test `pos[h3] - pos[h2] < n / 2 + 1` holds (after the change of roles), the
block mirrors `A` and leaves `B` in place, and `|A| <= n / 2 + 1`, so `A` may
be longer than `B` by up to two cells; otherwise it mirrors `B`, leaves `A` in
place, and `|B| + 3 <= |A|`. -/
theorem exchange_reversal_policy (n : Nat) (a : Arrays) (h1 h2 h3 h4 : Nat)
    (hv : Valid n a) (hh1 : h1 < n) (hh3 : h3 < n) (hne : h1 ≠ h3)
    (e2 : h2 = rd a.tour (rd a.pos h1 + 1)) (e4 : h4 = rd a.tour (rd a.pos h3 + 1)) :
    ((((max (rd a.pos h1) (rd a.pos h3) : Nat) : Int) -
        ((min (rd a.pos h1) (rd a.pos h3) + 1 : Nat) : Int) < ((n / 2 : Nat) : Int) + 1) →
      exchange2opt n a h1 h2 h3 h4 = exchange2opt_inner n a h1 h2 h3 h4 ∧
      RevWin n a.tour (exchange2opt n a h1 h2 h3 h4).tour
        (min (rd a.pos h1) (rd a.pos h3) + 1)
        (max (rd a.pos h1) (rd a.pos h3) - min (rd a.pos h1) (rd a.pos h3)) ∧
      max (rd a.pos h1) (rd a.pos h3) - min (rd a.pos h1) (rd a.pos h3) ≤ n / 2 + 1 ∧
      max (rd a.pos h1) (rd a.pos h3) - min (rd a.pos h1) (rd a.pos h3) ≤
        n - (max (rd a.pos h1) (rd a.pos h3) - min (rd a.pos h1) (rd a.pos h3)) + 2) ∧
    (¬ (((max (rd a.pos h1) (rd a.pos h3) : Nat) : Int) -
        ((min (rd a.pos h1) (rd a.pos h3) + 1 : Nat) : Int) < ((n / 2 : Nat) : Int) + 1) →
      exchange2opt n a h1 h2 h3 h4 = exchange2opt_outer n a h1 h2 h3 h4 ∧
      RevWin n a.tour (exchange2opt n a h1 h2 h3 h4).tour
        (cidx n (max (rd a.pos h1) (rd a.pos h3)) 1)
        (n - (max (rd a.pos h1) (rd a.pos h3) - min (rd a.pos h1) (rd a.pos h3))) ∧
      n - (max (rd a.pos h1) (rd a.pos h3) - min (rd a.pos h1) (rd a.pos h3)) + 3 ≤
        max (rd a.pos h1) (rd a.pos h3) - min (rd a.pos h1) (rd a.pos h3)) := by
  subst e2 e4
  have hp1 := hv.pos_lt hh1
  have hp3 := hv.pos_lt hh3
  have hpne : rd a.pos h1 ≠ rd a.pos h3 := fun e => hne (hv.pos_inj hh1 hh3 e)
  unfold exchange2opt exchange2opt_inner exchange2opt_outer
  by_cases hlt : rd a.pos h3 < rd a.pos h1
  · rw [if_pos hlt, if_pos hlt, if_pos hlt, min_eq_right (le_of_lt hlt),
      max_eq_left (le_of_lt hlt)]
    obtain ⟨c1, c2⟩ := reverse_part_policy hv hh3 hh1 hlt
    refine ⟨fun hc => ?_, fun hc => c2 hc⟩
    obtain ⟨x1, x2, x3⟩ := c1 hc
    exact ⟨x1, x2, x3, by omega⟩
  · have hlt2 : rd a.pos h1 < rd a.pos h3 := by omega
    rw [if_neg hlt, if_neg hlt, if_neg hlt, min_eq_left (le_of_lt hlt2),
      max_eq_right (le_of_lt hlt2)]
    obtain ⟨c1, c2⟩ := reverse_part_policy hv hh1 hh3 hlt2
    refine ⟨fun hc => ?_, fun hc => c2 hc⟩
    obtain ⟨x1, x2, x3⟩ := c1 hc
    exact ⟨x1, x2, x3, by omega⟩

theorem exchange_reversal_policy_witness :
    ((((max (rd (init_state 6 [0, 1, 2, 3, 4, 5, 0] 0).arr.pos 0) (rd (init_state 6 [0, 1, 2, 3, 4, 5, 0] 0).arr.pos 4) : Nat) : Int) -
        ((min (rd (init_state 6 [0, 1, 2, 3, 4, 5, 0] 0).arr.pos 0) (rd (init_state 6 [0, 1, 2, 3, 4, 5, 0] 0).arr.pos 4) + 1 : Nat) : Int) < ((6 / 2 : Nat) : Int) + 1) →
      exchange2opt 6 (init_state 6 [0, 1, 2, 3, 4, 5, 0] 0).arr 0 1 4 5 = exchange2opt_inner 6 (init_state 6 [0, 1, 2, 3, 4, 5, 0] 0).arr 0 1 4 5 ∧
      RevWin 6 (init_state 6 [0, 1, 2, 3, 4, 5, 0] 0).arr.tour (exchange2opt 6 (init_state 6 [0, 1, 2, 3, 4, 5, 0] 0).arr 0 1 4 5).tour
        (min (rd (init_state 6 [0, 1, 2, 3, 4, 5, 0] 0).arr.pos 0) (rd (init_state 6 [0, 1, 2, 3, 4, 5, 0] 0).arr.pos 4) + 1)
        (max (rd (init_state 6 [0, 1, 2, 3, 4, 5, 0] 0).arr.pos 0) (rd (init_state 6 [0, 1, 2, 3, 4, 5, 0] 0).arr.pos 4) - min (rd (init_state 6 [0, 1, 2, 3, 4, 5, 0] 0).arr.pos 0) (rd (init_state 6 [0, 1, 2, 3, 4, 5, 0] 0).arr.pos 4)) ∧
      max (rd (init_state 6 [0, 1, 2, 3, 4, 5, 0] 0).arr.pos 0) (rd (init_state 6 [0, 1, 2, 3, 4, 5, 0] 0).arr.pos 4) - min (rd (init_state 6 [0, 1, 2, 3, 4, 5, 0] 0).arr.pos 0) (rd (init_state 6 [0, 1, 2, 3, 4, 5, 0] 0).arr.pos 4) ≤ 6 / 2 + 1 ∧
      max (rd (init_state 6 [0, 1, 2, 3, 4, 5, 0] 0).arr.pos 0) (rd (init_state 6 [0, 1, 2, 3, 4, 5, 0] 0).arr.pos 4) - min (rd (init_state 6 [0, 1, 2, 3, 4, 5, 0] 0).arr.pos 0) (rd (init_state 6 [0, 1, 2, 3, 4, 5, 0] 0).arr.pos 4) ≤
        6 - (max (rd (init_state 6 [0, 1, 2, 3, 4, 5, 0] 0).arr.pos 0) (rd (init_state 6 [0, 1, 2, 3, 4, 5, 0] 0).arr.pos 4) - min (rd (init_state 6 [0, 1, 2, 3, 4, 5, 0] 0).arr.pos 0) (rd (init_state 6 [0, 1, 2, 3, 4, 5, 0] 0).arr.pos 4)) + 2) ∧
    (¬ (((max (rd (init_state 6 [0, 1, 2, 3, 4, 5, 0] 0).arr.pos 0) (rd (init_state 6 [0, 1, 2, 3, 4, 5, 0] 0).arr.pos 4) : Nat) : Int) -
        ((min (rd (init_state 6 [0, 1, 2, 3, 4, 5, 0] 0).arr.pos 0) (rd (init_state 6 [0, 1, 2, 3, 4, 5, 0] 0).arr.pos 4) + 1 : Nat) : Int) < ((6 / 2 : Nat) : Int) + 1) →
      exchange2opt 6 (init_state 6 [0, 1, 2, 3, 4, 5, 0] 0).arr 0 1 4 5 = exchange2opt_outer 6 (init_state 6 [0, 1, 2, 3, 4, 5, 0] 0).arr 0 1 4 5 ∧
      RevWin 6 (init_state 6 [0, 1, 2, 3, 4, 5, 0] 0).arr.tour (exchange2opt 6 (init_state 6 [0, 1, 2, 3, 4, 5, 0] 0).arr 0 1 4 5).tour
        (cidx 6 (max (rd (init_state 6 [0, 1, 2, 3, 4, 5, 0] 0).arr.pos 0) (rd (init_state 6 [0, 1, 2, 3, 4, 5, 0] 0).arr.pos 4)) 1)
        (6 - (max (rd (init_state 6 [0, 1, 2, 3, 4, 5, 0] 0).arr.pos 0) (rd (init_state 6 [0, 1, 2, 3, 4, 5, 0] 0).arr.pos 4) - min (rd (init_state 6 [0, 1, 2, 3, 4, 5, 0] 0).arr.pos 0) (rd (init_state 6 [0, 1, 2, 3, 4, 5, 0] 0).arr.pos 4))) ∧
      6 - (max (rd (init_state 6 [0, 1, 2, 3, 4, 5, 0] 0).arr.pos 0) (rd (init_state 6 [0, 1, 2, 3, 4, 5, 0] 0).arr.pos 4) - min (rd (init_state 6 [0, 1, 2, 3, 4, 5, 0] 0).arr.pos 0) (rd (init_state 6 [0, 1, 2, 3, 4, 5, 0] 0).arr.pos 4)) + 3 ≤
        max (rd (init_state 6 [0, 1, 2, 3, 4, 5, 0] 0).arr.pos 0) (rd (init_state 6 [0, 1, 2, 3, 4, 5, 0] 0).arr.pos 4) - min (rd (init_state 6 [0, 1, 2, 3, 4, 5, 0] 0).arr.pos 0) (rd (init_state 6 [0, 1, 2, 3, 4, 5, 0] 0).arr.pos 4)) :=
  exchange_reversal_policy 6 (init_state 6 [0, 1, 2, 3, 4, 5, 0] 0).arr 0 1 4 5
    (init_state_valid (by unfold ValidTour; decide) 0) (by decide) (by decide) (by decide)
    (by decide) (by decide)

/-- Counterexample to claim C21 as stated: on the distances of `table6b` and
the tour `0 1 2 3 4 5 0` the evaluation of the point 0 accepts the 2-opt move
`h1..h4 = 0 1 4 5`.  `A` is the part of four cells from `pos[h2] = 1` to
`pos[h3] = 4`, `B` the part of the two cells 5 and 0.  The test
`4 - 1 < 6 / 2 + 1` holds and the block mirrors `A`, the longer part: it writes
the cells 1, 4, 2, 3 and leaves `0 4 3 2 1 5 0`, where mirroring `B` gives
`5 1 2 3 4 0 5`. -/
theorem exchange_reverses_longer_part :
    find_move2 (problemOf (tableOracle table6b) ⟨[0, 1, 2, 3, 4, 5, 0]⟩) 6 (init_state 6 [0, 1, 2, 3, 4, 5, 0] 0).arr 0 =
      some ⟨0, 1, 4, 5, -3⟩ ∧
    (exchange2opt 6 (init_state 6 [0, 1, 2, 3, 4, 5, 0] 0).arr 0 1 4 5).tour = [0, 4, 3, 2, 1, 5, 0] ∧
    (exchange2opt_inner 6 (init_state 6 [0, 1, 2, 3, 4, 5, 0] 0).arr 0 1 4 5).tour = [0, 4, 3, 2, 1, 5, 0] ∧
    exchange2opt_inner_writes 6 (init_state 6 [0, 1, 2, 3, 4, 5, 0] 0).arr 0 1 4 5 = [1, 4, 2, 3] ∧
    (exchange2opt_outer 6 (init_state 6 [0, 1, 2, 3, 4, 5, 0] 0).arr 0 1 4 5).tour = [5, 1, 2, 3, 4, 0, 5] ∧
    rd (init_state 6 [0, 1, 2, 3, 4, 5, 0] 0).arr.pos 4 - rd (init_state 6 [0, 1, 2, 3, 4, 5, 0] 0).arr.pos 1 + 1 = 4 ∧
    6 - (rd (init_state 6 [0, 1, 2, 3, 4, 5, 0] 0).arr.pos 4 - rd (init_state 6 [0, 1, 2, 3, 4, 5, 0] 0).arr.pos 1 + 1) = 2 := by
  decide!

/-! ## First improvement in `two_opt_first` -/

theorem search_succ_iff (P : TspProblem) (a : Arrays) (c1 s_c1 : Nat) (radius : ℚ) :
    ∀ (hs : List Nat) (m : Move2),
      search_succ P a c1 s_c1 radius hs = some m ↔ FirstSucc P a c1 s_c1 radius hs m := by
  intro hs
  induction hs with
  | nil =>
    intro m
    constructor
    · intro h; unfold search_succ at h; cases h
    · rintro ⟨pre, h, post, e, _⟩
      cases pre <;> cases e
  | cons h0 hs ih =>
    intro m
    unfold search_succ
    simp only
    by_cases hr : radius > P.dist c1 (P.nn c1 h0)
    · rw [if_pos hr]
      by_cases hg : gain_succ P a c1 s_c1 radius h0 < -EPS
      · have hg2 := hg
        unfold gain_succ at hg2
        rw [if_pos hg2]
        constructor
        · intro e
          simp only [Option.some.injEq] at e
          exact ⟨[], h0, hs, rfl, fun x hx => absurd hx (List.not_mem_nil x), hr, hg, e.symm⟩
        · rintro ⟨pre, h, post, e, hpre, _, _, em⟩
          cases pre with
          | nil =>
            simp only [List.nil_append, List.cons.injEq] at e
            obtain ⟨e1, _⟩ := e
            subst e1
            rw [em]
            rfl
          | cons y pre =>
            simp only [List.cons_append, List.cons.injEq] at e
            obtain ⟨e1, _⟩ := e
            subst e1
            exact absurd hg (hpre h0 (by simp)).2
      · have hg2 := hg
        unfold gain_succ at hg2
        rw [if_neg hg2, ih m]
        constructor
        · rintro ⟨pre, h, post, e, hpre, x1, x2, x3⟩
          refine ⟨h0 :: pre, h, post, by rw [e]; rfl, ?_, x1, x2, x3⟩
          intro x hx
          rcases List.mem_cons.1 hx with q | q
          · rw [q]; exact ⟨hr, hg⟩
          · exact hpre x q
        · rintro ⟨pre, h, post, e, hpre, x1, x2, x3⟩
          cases pre with
          | nil =>
            simp only [List.nil_append, List.cons.injEq] at e
            obtain ⟨e1, _⟩ := e
            subst e1
            exact absurd x2 hg
          | cons y pre =>
            simp only [List.cons_append, List.cons.injEq] at e
            obtain ⟨_, e2⟩ := e
            exact ⟨pre, h, post, e2, fun x hx => hpre x (by simp [hx]), x1, x2, x3⟩
    · rw [if_neg hr]
      constructor
      · intro e; cases e
      · rintro ⟨pre, h, post, e, hpre, x1, _⟩
        cases pre with
        | nil =>
          simp only [List.nil_append, List.cons.injEq] at e
          obtain ⟨e1, _⟩ := e
          subst e1
          exact absurd x1 hr
        | cons y pre =>
          simp only [List.cons_append, List.cons.injEq] at e
          obtain ⟨e1, _⟩ := e
          subst e1
          exact absurd (hpre h0 (by simp)).1 hr

theorem search_pred_iff (P : TspProblem) (n : Nat) (a : Arrays) (c1 p_c1 : Nat) (radius : ℚ) :
    ∀ (hs : List Nat) (m : Move2),
      search_pred P n a c1 p_c1 radius hs = some m ↔ FirstPred P n a c1 p_c1 radius hs m := by
  intro hs
  induction hs with
  | nil =>
    intro m
    constructor
    · intro h; unfold search_pred at h; cases h
    · rintro ⟨pre, h, post, e, _⟩
      cases pre <;> cases e
  | cons h0 hs ih =>
    intro m
    have hrec : ∀ (_ : skipped_pred P n a c1 p_c1 h0 ∨ ¬ gain_pred P n a c1 p_c1 radius h0 < -EPS)
        (_ : radius > P.dist c1 (P.nn c1 h0)),
        FirstPred P n a c1 p_c1 radius hs m ↔ FirstPred P n a c1 p_c1 radius (h0 :: hs) m := by
      intro hq hr
      constructor
      · rintro ⟨pre, h, post, e, hpre, x1, x2, x3, x4⟩
        refine ⟨h0 :: pre, h, post, by rw [e]; rfl, ?_, x1, x2, x3, x4⟩
        intro x hx
        rcases List.mem_cons.1 hx with q | q
        · rw [q]; exact ⟨hr, hq⟩
        · exact hpre x q
      · rintro ⟨pre, h, post, e, hpre, x1, x2, x3, x4⟩
        cases pre with
        | nil =>
          simp only [List.nil_append, List.cons.injEq] at e
          obtain ⟨e1, _⟩ := e
          subst e1
          rcases hq with q | q
          · exact absurd q x2
          · exact absurd x3 q
        | cons y pre =>
          simp only [List.cons_append, List.cons.injEq] at e
          obtain ⟨_, e2⟩ := e
          exact ⟨pre, h, post, e2, fun x hx => hpre x (by simp [hx]), x1, x2, x3, x4⟩
    unfold search_pred
    simp only
    by_cases hr : radius > P.dist c1 (P.nn c1 h0)
    · rw [if_pos hr]
      by_cases q1 : predAt n a.tour (rd a.pos (P.nn c1 h0)) = c1
      · rw [if_pos q1, ih m]
        exact hrec (Or.inl (Or.inl q1)) hr
      · rw [if_neg q1]
        by_cases q2 : p_c1 = P.nn c1 h0
        · rw [if_pos q2, ih m]
          exact hrec (Or.inl (Or.inr q2)) hr
        · rw [if_neg q2]
          have hns : ¬ skipped_pred P n a c1 p_c1 h0 := by
            rintro (q | q)
            · exact q1 q
            · exact q2 q
          by_cases hg : gain_pred P n a c1 p_c1 radius h0 < -EPS
          · have hg2 := hg
            unfold gain_pred at hg2
            rw [if_pos hg2]
            constructor
            · intro e
              simp only [Option.some.injEq] at e
              exact ⟨[], h0, hs, rfl, fun x hx => absurd hx (List.not_mem_nil x), hr, hns, hg,
                e.symm⟩
            · rintro ⟨pre, h, post, e, hpre, _, _, _, em⟩
              cases pre with
              | nil =>
                simp only [List.nil_append, List.cons.injEq] at e
                obtain ⟨e1, _⟩ := e
                subst e1
                rw [em]
                rfl
              | cons y pre =>
                simp only [List.cons_append, List.cons.injEq] at e
                obtain ⟨e1, _⟩ := e
                subst e1
                rcases (hpre h0 (by simp)).2 with q | q
                · exact absurd q hns
                · exact absurd hg q
          · have hg2 := hg
            unfold gain_pred at hg2
            rw [if_neg hg2, ih m]
            exact hrec (Or.inr hg) hr
    · rw [if_neg hr]
      constructor
      · intro e; cases e
      · rintro ⟨pre, h, post, e, hpre, x1, _⟩
        cases pre with
        | nil =>
          simp only [List.nil_append, List.cons.injEq] at e
          obtain ⟨e1, _⟩ := e
          subst e1
          exact absurd x1 hr
        | cons y pre =>
          simp only [List.cons_append, List.cons.injEq] at e
          obtain ⟨e1, _⟩ := e
          subst e1
          exact absurd (hpre h0 (by simp)).1 hr

/-- Claim C22: first-improvement selection in `two_opt_first`.  For a point
`c1` the move found is the one of the first candidate, in the order of
`nn_list[c1]` among the first `min(20, n - 1)`, of the successor search such
that every candidate up to and including it is nearer to `c1` than `s_c1` and
its gain is below `-EPS`; if the successor search has none, the first such
candidate of the predecessor search (radius `distance[p_c1][c1]`, candidates
with `pred(c2) == c1` or `c2 == pred(c1)` passed over); when the point is
evaluated that move is applied, and if neither search has one the arrays stay
as they are and `dlb[c1]` is set. -/
theorem first_improvement_selection (P : TspProblem) (n : Nat) (rv : List Nat) (s : State)
    (l : Nat) :
    (∀ m, find_move2 P n s.arr (rd rv l) = some m ↔
      (FirstSucc P s.arr (rd rv l) (rd s.arr.tour (rd s.arr.pos (rd rv l) + 1))
          (P.dist (rd rv l) (rd s.arr.tour (rd s.arr.pos (rd rv l) + 1))) (candidates n) m ∨
        ((∀ m1, ¬ FirstSucc P s.arr (rd rv l) (rd s.arr.tour (rd s.arr.pos (rd rv l) + 1))
          (P.dist (rd rv l) (rd s.arr.tour (rd s.arr.pos (rd rv l) + 1))) (candidates n) m1) ∧
          FirstPred P n s.arr (rd rv l) (predAt n s.arr.tour (rd s.arr.pos (rd rv l)))
            (P.dist (predAt n s.arr.tour (rd s.arr.pos (rd rv l))) (rd rv l))
            (candidates n) m))) ∧
    (rdB s.dlb (rd rv l) = false →
      (∀ m, find_move2 P n s.arr (rd rv l) = some m →
        two_opt_point P n rv s l = apply_move2 n s m) ∧
      (find_move2 P n s.arr (rd rv l) = none →
        two_opt_point P n rv s l = { s with dlb := wrB s.dlb (rd rv l) true })) := by
  constructor
  · intro m
    unfold find_move2
    simp only
    cases hq : search_succ P s.arr (rd rv l) (rd s.arr.tour (rd s.arr.pos (rd rv l) + 1))
        (P.dist (rd rv l) (rd s.arr.tour (rd s.arr.pos (rd rv l) + 1))) (candidates n) with
    | some m0 =>
      have h0 := (search_succ_iff _ _ _ _ _ _ m0).1 hq
      simp only [Option.some.injEq]
      constructor
      · intro e; rw [← e]; exact Or.inl h0
      · rintro (h1 | ⟨h1, _⟩)
        · have := (search_succ_iff _ _ _ _ _ _ m).2 h1
          rw [hq] at this
          exact Option.some.inj this
        · exact absurd h0 (h1 m0)
    | none =>
      have hno : ∀ m1, ¬ FirstSucc P s.arr (rd rv l) (rd s.arr.tour (rd s.arr.pos (rd rv l) + 1))
          (P.dist (rd rv l) (rd s.arr.tour (rd s.arr.pos (rd rv l) + 1))) (candidates n) m1 := by
        intro m1 h1
        have := (search_succ_iff _ _ _ _ _ _ m1).2 h1
        rw [hq] at this
        cases this
      simp only
      rw [search_pred_iff]
      constructor
      · intro h; exact Or.inr ⟨hno, h⟩
      · rintro (h1 | ⟨_, h2⟩)
        · exact absurd h1 (hno m)
        · exact h2
  · intro hd
    have hd2 : ¬ rdB s.dlb (rd rv l) = true := by rw [hd]; simp
    constructor
    · intro m hm
      unfold two_opt_point
      simp only
      rw [if_neg hd2, hm]
    · intro hm
      unfold two_opt_point
      simp only
      rw [if_neg hd2, hm]

/-! ## Radius pruning -/

/-- Claim C23, as amended: what radius pruning cuts.  In a valid state with a
symmetric distance submatrix, let `s1` be the successor of `c1` and `s2` the
successor of `c2`.  If `dist(c1,c2) >= dist(c1,s1)` and the successor template
still has a positive gain `dist(c1,s1) + dist(c2,s2) - dist(c1,c2) -
dist(s1,s2)`, then `dist(s2,s1) < dist(c2,s2)`: for the point `s2`, whose
predecessor is `c2`, the candidate `s1`, whose predecessor is `c1`, is inside
the radius of the predecessor template, is not passed over, and has the same
gain there.  The triangle inequality is not needed. -/
theorem pruned_gain_within_other_radius (P : TspProblem) (n : Nat) (a : Arrays) (c1 c2 : Nat)
    (hv : Valid n a) (hsym : ∀ i j, P.dist i j = P.dist j i) (hc1 : c1 < n) (hc2 : c2 < n)
    (hprune : P.dist c1 c2 ≥ P.dist c1 (rd a.tour (rd a.pos c1 + 1)))
    (hgain : 0 < P.dist c1 (rd a.tour (rd a.pos c1 + 1)) + P.dist c2 (rd a.tour (rd a.pos c2 + 1))
      - P.dist c1 c2 - P.dist (rd a.tour (rd a.pos c1 + 1)) (rd a.tour (rd a.pos c2 + 1))) :
    predAt n a.tour (rd a.pos (rd a.tour (rd a.pos c2 + 1))) = c2 ∧
    predAt n a.tour (rd a.pos (rd a.tour (rd a.pos c1 + 1))) = c1 ∧
    ∀ h, P.nn (rd a.tour (rd a.pos c2 + 1)) h = rd a.tour (rd a.pos c1 + 1) →
      P.dist c2 (rd a.tour (rd a.pos c2 + 1)) >
        P.dist (rd a.tour (rd a.pos c2 + 1)) (P.nn (rd a.tour (rd a.pos c2 + 1)) h) ∧
      ¬ skipped_pred P n a (rd a.tour (rd a.pos c2 + 1)) c2 h ∧
      gain_pred P n a (rd a.tour (rd a.pos c2 + 1)) c2
          (P.dist c2 (rd a.tour (rd a.pos c2 + 1))) h =
        - (P.dist c1 (rd a.tour (rd a.pos c1 + 1)) + P.dist c2 (rd a.tour (rd a.pos c2 + 1))
          - P.dist c1 c2
          - P.dist (rd a.tour (rd a.pos c1 + 1)) (rd a.tour (rd a.pos c2 + 1))) := by
  have e1 := hv.pred_succ hc1
  have e2 := hv.pred_succ hc2
  generalize rd a.tour (rd a.pos c1 + 1) = s1 at *
  generalize rd a.tour (rd a.pos c2 + 1) = s2 at *
  refine ⟨e2, e1, fun h hh => ?_⟩
  unfold skipped_pred gain_pred
  rw [hh, e1]
  refine ⟨?_, ?_, ?_⟩
  · rw [hsym s2 s1]
    linarith
  · rintro (q | q)
    · rw [q] at hgain
      have := hsym c2 s2
      have := hsym s1 s2
      linarith
    · rw [← q] at hgain
      linarith
  · rw [hsym s2 s1, hsym c2 c1]
    ring

theorem pruned_gain_within_other_radius_witness :
    predAt 4 (init_state 4 [0, 1, 2, 3, 0] 0).arr.tour
      (rd (init_state 4 [0, 1, 2, 3, 0] 0).arr.pos
        (rd (init_state 4 [0, 1, 2, 3, 0] 0).arr.tour
          (rd (init_state 4 [0, 1, 2, 3, 0] 0).arr.pos 2 + 1))) = 2 ∧
    predAt 4 (init_state 4 [0, 1, 2, 3, 0] 0).arr.tour
      (rd (init_state 4 [0, 1, 2, 3, 0] 0).arr.pos
        (rd (init_state 4 [0, 1, 2, 3, 0] 0).arr.tour
          (rd (init_state 4 [0, 1, 2, 3, 0] 0).arr.pos 0 + 1))) = 0 ∧
    ∀ h, (problemOf (tableOracle table4m) ⟨[0, 1, 2, 3, 0]⟩).nn
        (rd (init_state 4 [0, 1, 2, 3, 0] 0).arr.tour
          (rd (init_state 4 [0, 1, 2, 3, 0] 0).arr.pos 2 + 1)) h =
        rd (init_state 4 [0, 1, 2, 3, 0] 0).arr.tour
          (rd (init_state 4 [0, 1, 2, 3, 0] 0).arr.pos 0 + 1) →
      (problemOf (tableOracle table4m) ⟨[0, 1, 2, 3, 0]⟩).dist 2
          (rd (init_state 4 [0, 1, 2, 3, 0] 0).arr.tour
            (rd (init_state 4 [0, 1, 2, 3, 0] 0).arr.pos 2 + 1)) >
        (problemOf (tableOracle table4m) ⟨[0, 1, 2, 3, 0]⟩).dist
          (rd (init_state 4 [0, 1, 2, 3, 0] 0).arr.tour
            (rd (init_state 4 [0, 1, 2, 3, 0] 0).arr.pos 2 + 1))
          ((problemOf (tableOracle table4m) ⟨[0, 1, 2, 3, 0]⟩).nn
            (rd (init_state 4 [0, 1, 2, 3, 0] 0).arr.tour
              (rd (init_state 4 [0, 1, 2, 3, 0] 0).arr.pos 2 + 1)) h) ∧
      ¬ skipped_pred (problemOf (tableOracle table4m) ⟨[0, 1, 2, 3, 0]⟩) 4
        (init_state 4 [0, 1, 2, 3, 0] 0).arr
        (rd (init_state 4 [0, 1, 2, 3, 0] 0).arr.tour
          (rd (init_state 4 [0, 1, 2, 3, 0] 0).arr.pos 2 + 1)) 2 h ∧
      gain_pred (problemOf (tableOracle table4m) ⟨[0, 1, 2, 3, 0]⟩) 4
          (init_state 4 [0, 1, 2, 3, 0] 0).arr
          (rd (init_state 4 [0, 1, 2, 3, 0] 0).arr.tour
            (rd (init_state 4 [0, 1, 2, 3, 0] 0).arr.pos 2 + 1)) 2
          ((problemOf (tableOracle table4m) ⟨[0, 1, 2, 3, 0]⟩).dist 2
            (rd (init_state 4 [0, 1, 2, 3, 0] 0).arr.tour
              (rd (init_state 4 [0, 1, 2, 3, 0] 0).arr.pos 2 + 1))) h =
        - ((problemOf (tableOracle table4m) ⟨[0, 1, 2, 3, 0]⟩).dist 0
            (rd (init_state 4 [0, 1, 2, 3, 0] 0).arr.tour
              (rd (init_state 4 [0, 1, 2, 3, 0] 0).arr.pos 0 + 1)) +
          (problemOf (tableOracle table4m) ⟨[0, 1, 2, 3, 0]⟩).dist 2
            (rd (init_state 4 [0, 1, 2, 3, 0] 0).arr.tour
              (rd (init_state 4 [0, 1, 2, 3, 0] 0).arr.pos 2 + 1))
          - (problemOf (tableOracle table4m) ⟨[0, 1, 2, 3, 0]⟩).dist 0 2
          - (problemOf (tableOracle table4m) ⟨[0, 1, 2, 3, 0]⟩).dist
            (rd (init_state 4 [0, 1, 2, 3, 0] 0).arr.tour
              (rd (init_state 4 [0, 1, 2, 3, 0] 0).arr.pos 0 + 1))
            (rd (init_state 4 [0, 1, 2, 3, 0] 0).arr.tour
              (rd (init_state 4 [0, 1, 2, 3, 0] 0).arr.pos 2 + 1))) :=
  pruned_gain_within_other_radius (problemOf (tableOracle table4m) ⟨[0, 1, 2, 3, 0]⟩) 4
    (init_state 4 [0, 1, 2, 3, 0] 0).arr 0 2
    (init_state_valid (by unfold ValidTour; decide) 0)
    (ofTour_sym (problemOf_ok (tableOracle table4m) ⟨[0, 1, 2, 3, 0]⟩ (by decide))
      (tableOracle_symm table4m))
    (by decide) (by decide) (by decide!) (by decide!)

/-- Counterexample to claim C23 as stated: the distances of `table4m` are
symmetric and satisfy the triangle inequality; in the tour `0 1 2 3 0` the
point `c1 = 0` has the successor `s1 = 1`, the candidate `c2 = 2` (successor 3)
has `dist(0,2) = 2 >= dist(0,1) = 2`, and the gain of the successor template
is `2 + 3 - 2 - 1 = 2 > 0`.  Both searches of the point 0 end at their first
candidate and find no move. -/
theorem pruned_candidate_with_positive_gain :
    (∀ i, i < 4 → ∀ j, j < 4 →
      (problemOf (tableOracle table4m) ⟨[0, 1, 2, 3, 0]⟩).dist i j =
        (problemOf (tableOracle table4m) ⟨[0, 1, 2, 3, 0]⟩).dist j i) ∧
    (∀ i, i < 4 → ∀ j, j < 4 → ∀ k, k < 4 →
      (problemOf (tableOracle table4m) ⟨[0, 1, 2, 3, 0]⟩).dist i k ≤
        (problemOf (tableOracle table4m) ⟨[0, 1, 2, 3, 0]⟩).dist i j +
          (problemOf (tableOracle table4m) ⟨[0, 1, 2, 3, 0]⟩).dist j k) ∧
    rd (init_state 4 [0, 1, 2, 3, 0] 0).arr.tour
      (rd (init_state 4 [0, 1, 2, 3, 0] 0).arr.pos 0 + 1) = 1 ∧
    rd (init_state 4 [0, 1, 2, 3, 0] 0).arr.tour
      (rd (init_state 4 [0, 1, 2, 3, 0] 0).arr.pos 2 + 1) = 3 ∧
    (problemOf (tableOracle table4m) ⟨[0, 1, 2, 3, 0]⟩).dist 0 2 ≥
      (problemOf (tableOracle table4m) ⟨[0, 1, 2, 3, 0]⟩).dist 0 1 ∧
    ¬ ((problemOf (tableOracle table4m) ⟨[0, 1, 2, 3, 0]⟩).dist 0 1 +
        (problemOf (tableOracle table4m) ⟨[0, 1, 2, 3, 0]⟩).dist 2 3 -
        (problemOf (tableOracle table4m) ⟨[0, 1, 2, 3, 0]⟩).dist 0 2 -
        (problemOf (tableOracle table4m) ⟨[0, 1, 2, 3, 0]⟩).dist 1 3 ≤ 0) ∧
    find_move2 (problemOf (tableOracle table4m) ⟨[0, 1, 2, 3, 0]⟩) 4
      (init_state 4 [0, 1, 2, 3, 0] 0).arr 0 = none := by
  decide!

/-! ## The edges of the cycle before and after a 3-opt reconnection -/

theorem multiset_replace {α : Type} [DecidableEq α] {new old R Q : Multiset α}
    (hle : R ≤ old) (hadd : new + R = old + Q) : new = old - R + Q := by
  apply add_right_cancel (b := R)
  rw [hadd, add_right_comm, tsub_add_cancel_of_le hle]

theorem edgeProblem_dist_lt {n : Nat} (e : Sym2 Nat) {i j : Nat} (hi : i < n) (hj : j < n) :
    (edgeProblem n e).dist i j = if Sym2.mk (i, j) = e then (1 : ℚ) else 0 := by
  rw [edgeProblem_dist, if_pos ⟨hi, hj⟩]

theorem edges_of_cost3 {n : Nat} {a b : Arrays} (hv : Valid n a) (hv2 : Valid n b)
    {r1 r2 r3 r4 r5 r6 q1 q2 q3 q4 q5 q6 : Nat}
    (l1 : r1 < n) (l2 : r2 < n) (l3 : r3 < n) (l4 : r4 < n) (l5 : r5 < n) (l6 : r6 < n)
    (k1 : q1 < n) (k2 : q2 < n) (k3 : q3 < n) (k4 : q4 < n) (k5 : q5 < n) (k6 : q6 < n)
    (hc : ∀ e : Sym2 Nat, cycCost (edgeProblem n e) n b.tour =
      cycCost (edgeProblem n e) n a.tour - (edgeProblem n e).dist r1 r2
        - (edgeProblem n e).dist r3 r4 - (edgeProblem n e).dist r5 r6
        + (edgeProblem n e).dist q1 q2 + (edgeProblem n e).dist q3 q4
        + (edgeProblem n e).dist q5 q6) :
    edgesOf n b.tour + {Sym2.mk (r1, r2), Sym2.mk (r3, r4), Sym2.mk (r5, r6)} =
      edgesOf n a.tour + {Sym2.mk (q1, q2), Sym2.mk (q3, q4), Sym2.mk (q5, q6)} := by
  ext e
  have h := hc e
  rw [← count_edgesOf hv2 e, ← count_edgesOf hv e, edgeProblem_dist_lt e l1 l2,
    edgeProblem_dist_lt e l3 l4, edgeProblem_dist_lt e l5 l6, edgeProblem_dist_lt e k1 k2,
    edgeProblem_dist_lt e k3 k4, edgeProblem_dist_lt e k5 k6] at h
  have key : ((Multiset.count e (edgesOf n b.tour) +
      ((if e = Sym2.mk (r1, r2) then 1 else 0) + ((if e = Sym2.mk (r3, r4) then 1 else 0) +
        (if e = Sym2.mk (r5, r6) then 1 else 0))) : Nat) : ℚ)
      = ((Multiset.count e (edgesOf n a.tour) +
      ((if e = Sym2.mk (q1, q2) then 1 else 0) + ((if e = Sym2.mk (q3, q4) then 1 else 0) +
        (if e = Sym2.mk (q5, q6) then 1 else 0))) : Nat) : ℚ) := by
    push_cast
    rw [h]
    simp only [@eq_comm _ e]
    ring
  have key2 := Nat.cast_injective key
  simp only [Multiset.count_add, Multiset.insert_eq_cons, Multiset.count_cons,
    Multiset.count_singleton]
  omega

theorem Cfg.lt {n : Nat} {a : Arrays} {w x y z a1 a2 b1 b2 c1 c2 : Nat}
    (h : Cfg n a w x y z a1 a2 b1 b2 c1 c2) (hv : Valid n a) :
    a1 < n ∧ a2 < n ∧ b1 < n ∧ b2 < n ∧ c1 < n ∧ c2 < n := by
  obtain ⟨hw, hx, hy, hz, hsum, ea1, ea2, eb1, eb2, ec1, ec2⟩ := h
  refine ⟨?_, ?_, ?_, ?_, ?_, ?_⟩
  · rw [← ea1]; exact hv.tour_lt _ hw
  · rw [← ea2]; exact hv.tour_lt _ (cidx_lt hw (by omega))
  · rw [← eb1]; exact hv.tour_lt _ (cidx_lt hw (by omega))
  · rw [← eb2]; exact hv.tour_lt _ (cidx_lt hw (by omega))
  · rw [← ec1]; exact hv.tour_lt _ (cidx_lt hw (by omega))
  · rw [← ec2]; exact hv.tour_lt _ (cidx_lt hw (by omega))

/-- The last city of each part is followed in the tour by the first city of
the next part. -/
theorem Cfg.succ {n : Nat} {a : Arrays} {w x y z a1 a2 b1 b2 c1 c2 : Nat}
    (h : Cfg n a w x y z a1 a2 b1 b2 c1 c2) (hv : Valid n a) :
    rd a.tour (rd a.pos a2 + 1) = b1 ∧ rd a.tour (rd a.pos b2 + 1) = c1 ∧
    rd a.tour (rd a.pos c2 + 1) = a1 := by
  obtain ⟨p1, p2, p3, p4, p5, p6⟩ := h.pos hv
  obtain ⟨hw, hx, hy, hz, hsum, ea1, ea2, eb1, eb2, ec1, ec2⟩ := h
  refine ⟨?_, ?_, ?_⟩
  · rw [p2, hv.succ_eq (cidx_lt hw (by omega)), cidx_cidx hw (by omega), ← eb1]
    congr 2; omega
  · rw [p4, hv.succ_eq (cidx_lt hw (by omega)), cidx_cidx hw (by omega), ← ec1]
    congr 2; omega
  · rw [p6, hv.succ_eq (cidx_lt hw (by omega)), cidx_cidx hw (by omega), ← ea1]
    congr 1
    rw [show n - 1 + 1 = n by omega]
    exact cidx_full hw

theorem Cfg.edges_le {n : Nat} {a : Arrays} {w x y z a1 a2 b1 b2 c1 c2 : Nat}
    (h : Cfg n a w x y z a1 a2 b1 b2 c1 c2) (hv : Valid n a) :
    ({Sym2.mk (a2, b1), Sym2.mk (b2, c1), Sym2.mk (c2, a1)} : Multiset (Sym2 Nat)) ≤
      edgesOf n a.tour := by
  obtain ⟨s1, s2, s3⟩ := h.succ hv
  obtain ⟨p1, p2, p3, p4, p5, p6⟩ := h.pos hv
  obtain ⟨l1, l2, l3, l4, l5, l6⟩ := h.lt hv
  have q2 := hv.pos_lt l2
  have q4 := hv.pos_lt l4
  have q6 := hv.pos_lt l6
  have hw := h.hw
  have hx := h.hx
  have hy := h.hy
  have hz := h.hz
  have hsum := h.hsum
  have n1 : rd a.pos a2 ≠ rd a.pos b2 := by
    rw [p2, p4]; unfold cidx; split_ifs <;> omega
  have n2 : rd a.pos a2 ≠ rd a.pos c2 := by
    rw [p2, p6]; unfold cidx; split_ifs <;> omega
  have n3 : rd a.pos b2 ≠ rd a.pos c2 := by
    rw [p4, p6]; unfold cidx; split_ifs <;> omega
  have hsub : ({rd a.pos a2, rd a.pos b2, rd a.pos c2} : Multiset Nat) ≤ Multiset.range n := by
    rw [Multiset.le_iff_subset (by simp [n1, n2, n3])]
    intro t ht
    simp only [Multiset.insert_eq_cons, Multiset.mem_cons, Multiset.mem_singleton] at ht
    rw [Multiset.mem_range]
    rcases ht with e | e | e <;> omega
  have hm := Multiset.map_le_map (f := fun i => Sym2.mk (rd a.tour i, rd a.tour (i + 1))) hsub
  simp only [Multiset.insert_eq_cons, Multiset.map_cons, Multiset.map_singleton,
    hv.tour_pos l2, hv.tour_pos l4, hv.tour_pos l6, s1, s2, s3] at hm
  exact hm

/-! ## The four reconnections as changes of the edge multiset -/

theorem ms3_rev (x y z : Sym2 Nat) : ({x, y, z} : Multiset (Sym2 Nat)) = {z, y, x} := by
  ext e
  simp only [Multiset.insert_eq_cons, Multiset.count_cons, Multiset.count_singleton]
  omega

/-- What the label `exchange` does with a memorised reconnection. -/
theorem exchange_reconnection {n : Nat} (s : State) {sc : Scan} (e1 : sc.opt2_flag = false)
    (hk : sc.move_flag = 1 ∨ sc.move_flag = 2 ∨ sc.move_flag = 3 ∨ sc.move_flag = 4) :
    ∃ s1, exchange n s sc = .ok s1 ∧ s1.n_exchanges = s.n_exchanges + 1 ∧
      s1.arr =
        if sc.move_flag = 4 then
          move4 n s.arr sc.h1 sc.h2 sc.h3 sc.h4 sc.h5 sc.h6 (rd s.arr.pos sc.h1)
            (rd s.arr.pos sc.h3) (rd s.arr.pos sc.h5)
        else if sc.move_flag = 1 then
          move1 n s.arr sc.h1 sc.h2 sc.h3 sc.h4 sc.h5 sc.h6 (rd s.arr.pos sc.h1)
            (rd s.arr.pos sc.h3) (rd s.arr.pos sc.h5)
        else if sc.move_flag = 2 then
          move2 n s.arr sc.h1 sc.h2 sc.h3 sc.h4 sc.h5 sc.h6 (rd s.arr.pos sc.h1)
            (rd s.arr.pos sc.h3) (rd s.arr.pos sc.h5)
        else
          move3 n s.arr sc.h1 sc.h2 sc.h3 sc.h4 sc.h5 sc.h6 (rd s.arr.pos sc.h1)
            (rd s.arr.pos sc.h3) (rd s.arr.pos sc.h5) := by
  rcases hk with e0 | e0 | e0 | e0
  · exact ⟨_, by simp [exchange, e0, e1]; rfl, rfl, by simp [e0]⟩
  · exact ⟨_, by simp [exchange, e0, e1]; rfl, rfl, by simp [e0]⟩
  · exact ⟨_, by simp [exchange, e0, e1]; rfl, rfl, by simp [e0]⟩
  · exact ⟨_, by simp [exchange, e0, e1]; rfl, rfl, by simp [e0]⟩

/-- A scan that ends with `move_flag != 0` in a valid state carries a
reconnection. -/
theorem outer_search_move3 {P : TspProblem} {n : Nat} {s : State} (hv : Valid n s.arr)
    (hP : WFP n P) (hmv : s.move_value ≤ 0) {c1 : Nat} (hc1 : c1 < n) {sc : Scan}
    (hs : outer_search P n s.arr c1 (rd s.arr.tour (rd s.arr.pos c1 + 1)) (rd s.arr.pos c1)
      (candidates n) (scan0 s) = .ok sc)
    (hf : sc.move_flag ≠ 0) : Move3Ok P n s.arr sc := by
  rcases outer_search_move_ok hv hP hmv hc1 hs (Or.inl hf) with h | h
  · exact absurd h.flag0 hf
  · exact h

/-! ## The candidate triple behind a memorised reconnection -/

theorem inner_search_triple {P : TspProblem} {n : Nat} {a : Arrays}
    {c1 c2 s_c1 pos_c1 : Nat} {radius add1 db : ℚ}
    (e1 : s_c1 = rd a.tour (rd a.pos c1 + 1)) (sc : Scan) {sc1 : Scan} :
    ∀ gs : List Nat,
      inner_search P n a c1 s_c1 c2 (rd a.tour (rd a.pos c2 + 1))
        (predAt n a.tour (rd a.pos c2)) pos_c1 (rd a.pos c2) radius add1 db sc gs
        = .jump sc1 →
      ∃ g ∈ gs, P.nn s_c1 g ≠ c1 ∧ Triple n a c1 c2 (P.nn s_c1 g) sc1 := by
  intro gs
  induction gs with
  | nil => intro h; simp [inner_search] at h
  | cons g gs ih =>
    intro h
    have lift : (∃ g1 ∈ gs, P.nn s_c1 g1 ≠ c1 ∧ Triple n a c1 c2 (P.nn s_c1 g1) sc1) →
        ∃ g1 ∈ g :: gs, P.nn s_c1 g1 ≠ c1 ∧ Triple n a c1 c2 (P.nn s_c1 g1) sc1 := by
      rintro ⟨g1, m, r⟩
      exact ⟨g1, List.mem_cons_of_mem _ m, r⟩
    simp only [inner_search] at h
    split_ifs at h with k1
    all_goals first
      | exact lift (ih h)
      | exact Inner.noConfusion h
      | (simp only [Inner.jump.injEq] at h
         subst h
         refine ⟨g, List.mem_cons_self _ _, k1, rfl, e1, ?_⟩
         first
           | exact Or.inl ⟨rfl, rfl, rfl, rfl, rfl⟩
           | exact Or.inr (Or.inl ⟨rfl, rfl, rfl, rfl, rfl⟩)
           | exact Or.inr (Or.inr (Or.inl ⟨rfl, rfl, rfl, rfl, rfl⟩))
           | exact Or.inr (Or.inr (Or.inr ⟨rfl, rfl, rfl, rfl, rfl⟩)))

/-- One round of the scan over the candidates `c2` of `c1`, in terms of
`memo2` and the innermost search. -/
theorem outer_search_cons (P : TspProblem) (n : Nat) (a : Arrays) (c1 s_c1 pos_c1 h : Nat)
    (hs : List Nat) (sc : Scan) :
    outer_search P n a c1 s_c1 pos_c1 (h :: hs) sc =
      if P.dist c1 s_c1 > P.dist c1 (P.nn c1 h) then
        match inner_search P n a c1 s_c1 (P.nn c1 h) (rd a.tour (rd a.pos (P.nn c1 h) + 1))
            (predAt n a.tour (rd a.pos (P.nn c1 h))) pos_c1 (rd a.pos (P.nn c1 h))
            (P.dist c1 s_c1) (P.dist c1 (P.nn c1 h))
            (- P.dist c1 s_c1 - P.dist (P.nn c1 h) (rd a.tour (rd a.pos (P.nn c1 h) + 1)))
            (memo2 P n a c1 s_c1 (P.nn c1 h) sc) (candidates n) with
        | .jump sc1 => .ok sc1
        | .failed => .error .assertFalse
        | .fallthrough => outer_search P n a c1 s_c1 pos_c1 hs (memo2 P n a c1 s_c1 (P.nn c1 h) sc)
      else .ok sc := rfl

theorem memo2_move_flag (P : TspProblem) (n : Nat) (a : Arrays) (c1 s_c1 c2 : Nat) (sc : Scan)
    (h0 : sc.move_flag = 0) : (memo2 P n a c1 s_c1 c2 sc).move_flag = 0 := by
  unfold memo2
  simp only
  split_ifs <;> first | rfl | exact h0

/-- A reconnection that the scan of `c1` ends with was memorised for a triple
`(c1, c2, c3)` with `c2` on the candidate list of `c1` and `c3` on the
candidate list of `s_c1`, `c3 != c1`. -/
theorem outer_search_triple {P : TspProblem} {n : Nat} {a : Arrays} {c1 s_c1 pos_c1 : Nat}
    (e1 : s_c1 = rd a.tour (rd a.pos c1 + 1)) {sc1 : Scan} (hf : sc1.move_flag ≠ 0) :
    ∀ (hs : List Nat) (sc : Scan), sc.move_flag = 0 →
      outer_search P n a c1 s_c1 pos_c1 hs sc = .ok sc1 →
      ∃ h ∈ hs, ∃ g ∈ candidates n, P.nn s_c1 g ≠ c1 ∧
        Triple n a c1 (P.nn c1 h) (P.nn s_c1 g) sc1 := by
  intro hs
  induction hs with
  | nil =>
    intro sc h0 h
    simp only [outer_search, Except.ok.injEq] at h
    subst h
    exact absurd h0 hf
  | cons h hs ih =>
    intro sc h0 hr
    rw [outer_search_cons] at hr
    split_ifs at hr with k1
    · revert hr
      split
      · rename_i scj hj
        intro hr
        simp only [Except.ok.injEq] at hr
        subst hr
        obtain ⟨g, m, r⟩ := inner_search_triple e1 _ _ hj
        exact ⟨h, List.mem_cons_self _ _, g, m, r⟩
      · intro hr; cases hr
      · intro hr
        obtain ⟨h1, m, r⟩ := ih _ (memo2_move_flag P n a c1 s_c1 _ sc h0) hr
        exact ⟨h1, List.mem_cons_of_mem _ m, r⟩
    · simp only [Except.ok.injEq] at hr
      subst hr
      exact absurd h0 hf

/-! ## The reconnections of `three_opt_first` on the edge multiset -/

theorem ms3_rot (x y z : Sym2 Nat) : ({y, z, x} : Multiset (Sym2 Nat)) = {x, y, z} := by
  ext e
  simp only [Multiset.insert_eq_cons, Multiset.count_cons, Multiset.count_singleton]
  omega

theorem move1_edges {n : Nat} {a : Arrays} {w x y z h1 h2 h3 h4 h5 h6 : Nat}
    (h : Cfg n a w x y z h2 h5 h6 h3 h4 h1) (hv : Valid3 n a) :
    Valid n (move1 n a h1 h2 h3 h4 h5 h6 (rd a.pos h1) (rd a.pos h3) (rd a.pos h5)) ∧
    ({Sym2.mk (h1, h2), Sym2.mk (h3, h4), Sym2.mk (h5, h6)} : Multiset (Sym2 Nat)) ≤
      edgesOf n a.tour ∧
    edgesOf n (move1 n a h1 h2 h3 h4 h5 h6 (rd a.pos h1) (rd a.pos h3) (rd a.pos h5)).tour =
      edgesOf n a.tour - {Sym2.mk (h1, h2), Sym2.mk (h3, h4), Sym2.mk (h5, h6)} +
        {Sym2.mk (h1, h3), Sym2.mk (h6, h2), Sym2.mk (h5, h4)} := by
  obtain ⟨l2, l5, l6, l3, l4, l1⟩ := h.lt hv.1
  have hv2 := (move1_spec (edgeProblem n (Sym2.mk (0, 0))) h hv).1.1
  have hadd := edges_of_cost3 hv.1 hv2 l1 l2 l3 l4 l6 l5 l1 l3 l2 l6 l5 l4
    (fun e => (move1_spec (edgeProblem n e) h hv).2 (edgeProblem_symm n e))
  have hle := h.edges_le hv.1
  rw [ms3_rev] at hle
  rw [show Sym2.mk (h6, h5) = Sym2.mk (h5, h6) from Sym2.eq_swap,
    show Sym2.mk (h2, h6) = Sym2.mk (h6, h2) from Sym2.eq_swap] at hadd
  exact ⟨hv2, hle, multiset_replace hle hadd⟩

theorem move2_edges {n : Nat} {a : Arrays} {w x y z h1 h2 h3 h4 h5 h6 : Nat}
    (h : Cfg n a w x y z h2 h3 h4 h5 h6 h1) (hv : Valid3 n a) :
    Valid n (move2 n a h1 h2 h3 h4 h5 h6 (rd a.pos h1) (rd a.pos h3) (rd a.pos h5)) ∧
    ({Sym2.mk (h1, h2), Sym2.mk (h3, h4), Sym2.mk (h5, h6)} : Multiset (Sym2 Nat)) ≤
      edgesOf n a.tour ∧
    edgesOf n (move2 n a h1 h2 h3 h4 h5 h6 (rd a.pos h1) (rd a.pos h3) (rd a.pos h5)).tour =
      edgesOf n a.tour - {Sym2.mk (h1, h2), Sym2.mk (h3, h4), Sym2.mk (h5, h6)} +
        {Sym2.mk (h1, h3), Sym2.mk (h2, h5), Sym2.mk (h4, h6)} := by
  obtain ⟨l2, l3, l4, l5, l6, l1⟩ := h.lt hv.1
  have hv2 := (move2_spec (edgeProblem n (Sym2.mk (0, 0))) h hv).1.1
  have hadd := edges_of_cost3 hv.1 hv2 l1 l2 l3 l4 l5 l6 l1 l3 l2 l5 l4 l6
    (fun e => (move2_spec (edgeProblem n e) h hv).2 (edgeProblem_symm n e))
  have hle := h.edges_le hv.1
  rw [ms3_rot] at hle
  exact ⟨hv2, hle, multiset_replace hle hadd⟩

theorem move3_edges {n : Nat} {a : Arrays} {w x y z h1 h2 h3 h4 h5 h6 : Nat}
    (h : Cfg n a w x y z h2 h3 h4 h5 h6 h1) (hv : Valid3 n a) :
    Valid n (move3 n a h1 h2 h3 h4 h5 h6 (rd a.pos h1) (rd a.pos h3) (rd a.pos h5)) ∧
    ({Sym2.mk (h1, h2), Sym2.mk (h3, h4), Sym2.mk (h5, h6)} : Multiset (Sym2 Nat)) ≤
      edgesOf n a.tour ∧
    edgesOf n (move3 n a h1 h2 h3 h4 h5 h6 (rd a.pos h1) (rd a.pos h3) (rd a.pos h5)).tour =
      edgesOf n a.tour - {Sym2.mk (h1, h2), Sym2.mk (h3, h4), Sym2.mk (h5, h6)} +
        {Sym2.mk (h1, h4), Sym2.mk (h2, h6), Sym2.mk (h3, h5)} := by
  obtain ⟨l2, l3, l4, l5, l6, l1⟩ := h.lt hv.1
  have hv2 := (move3_spec (edgeProblem n (Sym2.mk (0, 0))) h hv).1.1
  have hadd := edges_of_cost3 hv.1 hv2 l1 l2 l3 l4 l5 l6 l1 l4 l2 l6 l3 l5
    (fun e => (move3_spec (edgeProblem n e) h hv).2 (edgeProblem_symm n e))
  have hle := h.edges_le hv.1
  rw [ms3_rot] at hle
  exact ⟨hv2, hle, multiset_replace hle hadd⟩

theorem move4_edges {n : Nat} {a : Arrays} {w x y z h1 h2 h3 h4 h5 h6 : Nat}
    (h : Cfg n a w x y z h2 h3 h4 h5 h6 h1) (hv : Valid3 n a) :
    Valid n (move4 n a h1 h2 h3 h4 h5 h6 (rd a.pos h1) (rd a.pos h3) (rd a.pos h5)) ∧
    ({Sym2.mk (h1, h2), Sym2.mk (h3, h4), Sym2.mk (h5, h6)} : Multiset (Sym2 Nat)) ≤
      edgesOf n a.tour ∧
    edgesOf n (move4 n a h1 h2 h3 h4 h5 h6 (rd a.pos h1) (rd a.pos h3) (rd a.pos h5)).tour =
      edgesOf n a.tour - {Sym2.mk (h1, h2), Sym2.mk (h3, h4), Sym2.mk (h5, h6)} +
        {Sym2.mk (h1, h4), Sym2.mk (h5, h2), Sym2.mk (h3, h6)} := by
  obtain ⟨l2, l3, l4, l5, l6, l1⟩ := h.lt hv.1
  have hv2 := (move4_spec (edgeProblem n (Sym2.mk (0, 0))) h hv).1.1
  have hadd := edges_of_cost3 hv.1 hv2 l1 l2 l3 l4 l5 l6 l1 l4 l2 l5 l3 l6
    (fun e => (move4_spec (edgeProblem n e) h hv).2 (edgeProblem_symm n e))
  have hle := h.edges_le hv.1
  rw [ms3_rot] at hle
  rw [show Sym2.mk (h2, h5) = Sym2.mk (h5, h2) from Sym2.eq_swap] at hadd
  exact ⟨hv2, hle, multiset_replace hle hadd⟩

/-- The evaluation of a point whose scan ends with a reconnection: the
reconnection is proper, it was memorised for a candidate triple, and the
point evaluation is the exchange of that reconnection. -/
theorem reconnection_applied {P : TspProblem} {n : Nat} {rv : List Nat} {s : State} {l : Nat}
    {sc : Scan} {c1 s_c1 : Nat} (hP : WFP n P) (hv : Valid3 n s.arr) (hmv : s.move_value ≤ 0)
    (hc1 : c1 = rd rv l) (hl : c1 < n) (hd : rdB s.dlb c1 = false)
    (hs1 : s_c1 = rd s.arr.tour (rd s.arr.pos c1 + 1))
    (hs : outer_search P n s.arr c1 s_c1 (rd s.arr.pos c1) (candidates n) (scan0 s) = .ok sc)
    (hf : sc.move_flag ≠ 0) :
    Move3Ok P n s.arr sc ∧
    (∃ h ∈ candidates n, ∃ g ∈ candidates n, P.nn s_c1 g ≠ c1 ∧
      Triple n s.arr c1 (P.nn c1 h) (P.nn s_c1 g) sc) ∧
    three_opt_point P n rv s l = exchange n s sc := by
  subst hc1
  refine ⟨outer_search_move3 hv.1 hP hmv hl (hs1 ▸ hs) hf,
    outer_search_triple hs1 hf (candidates n) (scan0 s) rfl hs, ?_⟩
  subst hs1
  unfold scan0 at hs
  simp only [three_opt_point, hd, hs]
  simp [hf]

/-! ## Claims on the reconnections with `move_flag` 1, 2 and 3 -/

/-- Claim C24: between move (`move_flag == 1`).  In a state of
`three_opt_first` with valid arrays, when the scan of the point
`c1 = random_vector[l]` ends with `move_flag == 1`, the move was memorised for
a triple `(c1, c2, c3)` with `c2` on the candidate list of `c1` and `c3` on
that of `s_c1`, the point evaluation applies the rewriting of the
`move_flag == 1` block (`move1`, which holds the three cases `h = 0, 1, 2` of
the segment choice with their wrap-around loops), and the resulting arrays
hold a Hamiltonian cycle (a permutation of `0..n-1` with `pos` its inverse and
`tour[n] == tour[0]`) whose undirected edge multiset is the old one with
`(c1, s_c1)`, `(c2, s_c2)`, `(p_c3, c3)` replaced by `(c1, c2)`, `(c3, s_c1)`,
`(p_c3, s_c2)`. -/
theorem between_move_edges (P : TspProblem) (n : Nat) (rv : List Nat) (s : State) (l : Nat)
    (sc : Scan) (c1 s_c1 : Nat) (hP : WFP n P) (hv : Valid3 n s.arr) (hmv : s.move_value ≤ 0)
    (hc1 : c1 = rd rv l) (hl : c1 < n) (hd : rdB s.dlb c1 = false)
    (hs1 : s_c1 = rd s.arr.tour (rd s.arr.pos c1 + 1))
    (hs : outer_search P n s.arr c1 s_c1 (rd s.arr.pos c1) (candidates n) (scan0 s) = .ok sc)
    (hf : sc.move_flag = 1) :
    ∃ c2 c3 s1, (∃ h ∈ candidates n, c2 = P.nn c1 h) ∧ (∃ g ∈ candidates n, c3 = P.nn s_c1 g) ∧
      Triple n s.arr c1 c2 c3 sc ∧
      three_opt_point P n rv s l = .ok s1 ∧
      s1.arr = move1 n s.arr sc.h1 sc.h2 sc.h3 sc.h4 sc.h5 sc.h6 (rd s.arr.pos sc.h1)
        (rd s.arr.pos sc.h3) (rd s.arr.pos sc.h5) ∧
      TourPos n s1.arr ∧ rd s1.arr.tour n = rd s1.arr.tour 0 ∧
      ({Sym2.mk (c1, s_c1), Sym2.mk (c2, rd s.arr.tour (rd s.arr.pos c2 + 1)),
        Sym2.mk (predAt n s.arr.tour (rd s.arr.pos c3), c3)} : Multiset (Sym2 Nat)) ≤
          edgesOf n s.arr.tour ∧
      edgesOf n s1.arr.tour =
        edgesOf n s.arr.tour -
          {Sym2.mk (c1, s_c1), Sym2.mk (c2, rd s.arr.tour (rd s.arr.pos c2 + 1)),
            Sym2.mk (predAt n s.arr.tour (rd s.arr.pos c3), c3)} +
          {Sym2.mk (c1, c2), Sym2.mk (c3, s_c1),
            Sym2.mk (predAt n s.arr.tour (rd s.arr.pos c3),
              rd s.arr.tour (rd s.arr.pos c2 + 1))} := by
  obtain ⟨hm, ⟨h, hh, g, hg, -, ht⟩, hpt⟩ :=
    reconnection_applied hP hv hmv hc1 hl hd hs1 hs (by omega)
  have hcfg : ∃ w x y z, Cfg n s.arr w x y z sc.h2 sc.h5 sc.h6 sc.h3 sc.h4 sc.h1 := by
    rcases hm.shape with ⟨_, c, _⟩ | ⟨k, _⟩ | ⟨k, _⟩ | ⟨k, _⟩
    · exact c
    all_goals omega
  obtain ⟨w, x, y, z, cfg⟩ := hcfg
  obtain ⟨e1, e2, e3⟩ := move1_edges cfg hv
  obtain ⟨s1, x1, -, x3⟩ := exchange_reconnection (n := n) s hm.opt2 (Or.inl hf)
  rw [if_neg (by omega), if_pos hf] at x3
  have ht0 := ht
  obtain ⟨t1, t2, tt⟩ := ht
  have t : sc.h3 = P.nn c1 h ∧ sc.h4 = rd s.arr.tour (rd s.arr.pos (P.nn c1 h) + 1) ∧
      sc.h5 = predAt n s.arr.tour (rd s.arr.pos (P.nn s_c1 g)) ∧ sc.h6 = P.nn s_c1 g := by
    rcases tt with ⟨_, r⟩ | ⟨k, _⟩ | ⟨k, _⟩ | ⟨k, _⟩
    · exact r
    all_goals omega
  obtain ⟨t3, t4, t5, t6⟩ := t
  have t2b : sc.h2 = s_c1 := t2.trans hs1.symm
  have key := e3
  rw [← x3] at key
  rw [t1, t2b, t3, t4, t5, t6] at key e2
  refine ⟨P.nn c1 h, P.nn s_c1 g, s1, ⟨h, hh, rfl⟩, ⟨g, hg, rfl⟩, ht0, hpt.trans x1, x3,
    ?_, ?_, e2, key⟩
  · rw [x3]; exact e1.tourPos
  · rw [x3]; exact e1.sentinel

theorem between_move_edges_witness :
    ∃ c2 c3 s1,
      (∃ h ∈ candidates 7, c2 = (problemOf (tableOracle table7) ⟨[0, 1, 2, 3, 4, 5, 6, 0]⟩).nn 0 h) ∧
      (∃ g ∈ candidates 7, c3 = (problemOf (tableOracle table7) ⟨[0, 1, 2, 3, 4, 5, 6, 0]⟩).nn 1 g) ∧
      Triple 7 (init_state 7 [0, 1, 2, 3, 4, 5, 6, 0] 7).arr 0 c2 c3
        ⟨false, 1, 0, 1, 4, 5, 2, 3, -5, true⟩ ∧
      three_opt_point (problemOf (tableOracle table7) ⟨[0, 1, 2, 3, 4, 5, 6, 0]⟩) 7 (List.range 7)
        (init_state 7 [0, 1, 2, 3, 4, 5, 6, 0] 7) 0 = .ok s1 ∧
      s1.arr = move1 7 (init_state 7 [0, 1, 2, 3, 4, 5, 6, 0] 7).arr 0 1 4 5 2 3
        (rd (init_state 7 [0, 1, 2, 3, 4, 5, 6, 0] 7).arr.pos 0)
        (rd (init_state 7 [0, 1, 2, 3, 4, 5, 6, 0] 7).arr.pos 4)
        (rd (init_state 7 [0, 1, 2, 3, 4, 5, 6, 0] 7).arr.pos 2) ∧
      TourPos 7 s1.arr ∧ rd s1.arr.tour 7 = rd s1.arr.tour 0 ∧
      ({Sym2.mk (0, 1), Sym2.mk (c2, rd (init_state 7 [0, 1, 2, 3, 4, 5, 6, 0] 7).arr.tour
          (rd (init_state 7 [0, 1, 2, 3, 4, 5, 6, 0] 7).arr.pos c2 + 1)),
        Sym2.mk (predAt 7 (init_state 7 [0, 1, 2, 3, 4, 5, 6, 0] 7).arr.tour
          (rd (init_state 7 [0, 1, 2, 3, 4, 5, 6, 0] 7).arr.pos c3), c3)} :
            Multiset (Sym2 Nat)) ≤
          edgesOf 7 (init_state 7 [0, 1, 2, 3, 4, 5, 6, 0] 7).arr.tour ∧
      edgesOf 7 s1.arr.tour =
        edgesOf 7 (init_state 7 [0, 1, 2, 3, 4, 5, 6, 0] 7).arr.tour -
          {Sym2.mk (0, 1), Sym2.mk (c2, rd (init_state 7 [0, 1, 2, 3, 4, 5, 6, 0] 7).arr.tour
              (rd (init_state 7 [0, 1, 2, 3, 4, 5, 6, 0] 7).arr.pos c2 + 1)),
            Sym2.mk (predAt 7 (init_state 7 [0, 1, 2, 3, 4, 5, 6, 0] 7).arr.tour
              (rd (init_state 7 [0, 1, 2, 3, 4, 5, 6, 0] 7).arr.pos c3), c3)} +
          {Sym2.mk (0, c2), Sym2.mk (c3, 1),
            Sym2.mk (predAt 7 (init_state 7 [0, 1, 2, 3, 4, 5, 6, 0] 7).arr.tour
              (rd (init_state 7 [0, 1, 2, 3, 4, 5, 6, 0] 7).arr.pos c3),
              rd (init_state 7 [0, 1, 2, 3, 4, 5, 6, 0] 7).arr.tour
                (rd (init_state 7 [0, 1, 2, 3, 4, 5, 6, 0] 7).arr.pos c2 + 1))} :=
  between_move_edges (problemOf (tableOracle table7) ⟨[0, 1, 2, 3, 4, 5, 6, 0]⟩) 7 (List.range 7)
    (init_state 7 [0, 1, 2, 3, 4, 5, 6, 0] 7) 0 ⟨false, 1, 0, 1, 4, 5, 2, 3, -5, true⟩ 0 1
    (ofTour_wfp (problemOf_ok (tableOracle table7) ⟨[0, 1, 2, 3, 4, 5, 6, 0]⟩ (by decide)))
    (init_state_valid3 (by unfold ValidTour; decide)) (by decide!) (by decide) (by decide)
    (by decide) (by decide) (by decide!) (by decide)

/-- Claim C25: not-between successor variant (`move_flag == 2`).  In a state
of `three_opt_first` with valid arrays, when the scan of the point
`c1 = random_vector[l]` ends with `move_flag == 2`, the move was memorised for
a triple `(c1, c2, c3)` with `c2` on the candidate list of `c1` and `c3` on
that of `s_c1`, the point evaluation applies the rewriting of the
`move_flag == 2` block (`move2`, which holds the three segment cases), and the
resulting arrays hold a Hamiltonian cycle (a permutation of `0..n-1` with `pos`
its inverse and `tour[n] == tour[0]`) whose undirected edge multiset is the
old one with `(c1, s_c1)`, `(c2, s_c2)`, `(c3, s_c3)` replaced by `(c1, c2)`,
`(s_c1, c3)`, `(s_c2, s_c3)`. -/
theorem successor_variant_edges (P : TspProblem) (n : Nat) (rv : List Nat) (s : State) (l : Nat)
    (sc : Scan) (c1 s_c1 : Nat) (hP : WFP n P) (hv : Valid3 n s.arr) (hmv : s.move_value ≤ 0)
    (hc1 : c1 = rd rv l) (hl : c1 < n) (hd : rdB s.dlb c1 = false)
    (hs1 : s_c1 = rd s.arr.tour (rd s.arr.pos c1 + 1))
    (hs : outer_search P n s.arr c1 s_c1 (rd s.arr.pos c1) (candidates n) (scan0 s) = .ok sc)
    (hf : sc.move_flag = 2) :
    ∃ c2 c3 s1, (∃ h ∈ candidates n, c2 = P.nn c1 h) ∧ (∃ g ∈ candidates n, c3 = P.nn s_c1 g) ∧
      Triple n s.arr c1 c2 c3 sc ∧
      three_opt_point P n rv s l = .ok s1 ∧
      s1.arr = move2 n s.arr sc.h1 sc.h2 sc.h3 sc.h4 sc.h5 sc.h6 (rd s.arr.pos sc.h1)
        (rd s.arr.pos sc.h3) (rd s.arr.pos sc.h5) ∧
      TourPos n s1.arr ∧ rd s1.arr.tour n = rd s1.arr.tour 0 ∧
      ({Sym2.mk (c1, s_c1), Sym2.mk (c2, rd s.arr.tour (rd s.arr.pos c2 + 1)),
        Sym2.mk (c3, rd s.arr.tour (rd s.arr.pos c3 + 1))} : Multiset (Sym2 Nat)) ≤
          edgesOf n s.arr.tour ∧
      edgesOf n s1.arr.tour =
        edgesOf n s.arr.tour -
          {Sym2.mk (c1, s_c1), Sym2.mk (c2, rd s.arr.tour (rd s.arr.pos c2 + 1)),
        Sym2.mk (c3, rd s.arr.tour (rd s.arr.pos c3 + 1))} +
          {Sym2.mk (c1, c2), Sym2.mk (s_c1, c3),
            Sym2.mk (rd s.arr.tour (rd s.arr.pos c2 + 1),
              rd s.arr.tour (rd s.arr.pos c3 + 1))} := by
  obtain ⟨hm, ⟨h, hh, g, hg, -, ht⟩, hpt⟩ :=
    reconnection_applied hP hv hmv hc1 hl hd hs1 hs (by omega)
  have hcfg : ∃ w x y z, Cfg n s.arr w x y z sc.h2 sc.h3 sc.h4 sc.h5 sc.h6 sc.h1 := by
    rcases hm.shape with ⟨k, c, _⟩ | ⟨k, c, _⟩ | ⟨k, c, _⟩ | ⟨k, c, _⟩
    all_goals first
      | omega
      | exact c
  obtain ⟨w, x, y, z, cfg⟩ := hcfg
  obtain ⟨e1, e2, e3⟩ := move2_edges cfg hv
  obtain ⟨s1, x1, -, x3⟩ := exchange_reconnection (n := n) s hm.opt2 (Or.inr (Or.inl hf))
  rw [if_neg (by omega), if_neg (by omega), if_pos hf] at x3
  have ht0 := ht
  obtain ⟨t1, t2, tt⟩ := ht
  have t : sc.h3 = P.nn c1 h ∧
      sc.h4 = rd s.arr.tour (rd s.arr.pos (P.nn c1 h) + 1) ∧
      sc.h5 = P.nn s_c1 g ∧
      sc.h6 = rd s.arr.tour (rd s.arr.pos (P.nn s_c1 g) + 1) := by
    rcases tt with ⟨k, r⟩ | ⟨k, r⟩ | ⟨k, r⟩ | ⟨k, r⟩
    all_goals omega
  obtain ⟨t3, t4, t5, t6⟩ := t
  have t2b : sc.h2 = s_c1 := t2.trans hs1.symm
  have key := e3
  rw [← x3] at key
  rw [t1, t2b, t3, t4, t5, t6] at key e2
  refine ⟨P.nn c1 h, P.nn s_c1 g, s1, ⟨h, hh, rfl⟩, ⟨g, hg, rfl⟩, ht0, hpt.trans x1, x3,
    ?_, ?_, e2, key⟩
  · rw [x3]; exact e1.tourPos
  · rw [x3]; exact e1.sentinel

theorem successor_variant_edges_witness :
    ∃ c2 c3 s1,
      (∃ h ∈ candidates 5, c2 = (problemOf (tableOracle table5b) ⟨[0, 1, 2, 3, 4, 0]⟩).nn 0 h) ∧
      (∃ g ∈ candidates 5, c3 = (problemOf (tableOracle table5b) ⟨[0, 1, 2, 3, 4, 0]⟩).nn 1 g) ∧
      Triple 5 (init_state 5 [0, 1, 2, 3, 4, 0] 5).arr 0 c2 c3
        ⟨false, 2, 0, 1, 2, 3, 4, 0, -2, true⟩ ∧
      three_opt_point (problemOf (tableOracle table5b) ⟨[0, 1, 2, 3, 4, 0]⟩) 5 (List.range 5)
        (init_state 5 [0, 1, 2, 3, 4, 0] 5) 0 = .ok s1 ∧
      s1.arr = move2 5 (init_state 5 [0, 1, 2, 3, 4, 0] 5).arr 0 1 2 3 4 0
        (rd (init_state 5 [0, 1, 2, 3, 4, 0] 5).arr.pos 0)
        (rd (init_state 5 [0, 1, 2, 3, 4, 0] 5).arr.pos 2)
        (rd (init_state 5 [0, 1, 2, 3, 4, 0] 5).arr.pos 4) ∧
      TourPos 5 s1.arr ∧ rd s1.arr.tour 5 = rd s1.arr.tour 0 ∧
      ({Sym2.mk (0, 1), Sym2.mk (c2, rd (init_state 5 [0, 1, 2, 3, 4, 0] 5).arr.tour (rd (init_state 5 [0, 1, 2, 3, 4, 0] 5).arr.pos c2 + 1)),
        Sym2.mk (c3, rd (init_state 5 [0, 1, 2, 3, 4, 0] 5).arr.tour (rd (init_state 5 [0, 1, 2, 3, 4, 0] 5).arr.pos c3 + 1))} :
            Multiset (Sym2 Nat)) ≤
          edgesOf 5 (init_state 5 [0, 1, 2, 3, 4, 0] 5).arr.tour ∧
      edgesOf 5 s1.arr.tour =
        edgesOf 5 (init_state 5 [0, 1, 2, 3, 4, 0] 5).arr.tour -
          {Sym2.mk (0, 1), Sym2.mk (c2, rd (init_state 5 [0, 1, 2, 3, 4, 0] 5).arr.tour (rd (init_state 5 [0, 1, 2, 3, 4, 0] 5).arr.pos c2 + 1)),
        Sym2.mk (c3, rd (init_state 5 [0, 1, 2, 3, 4, 0] 5).arr.tour (rd (init_state 5 [0, 1, 2, 3, 4, 0] 5).arr.pos c3 + 1))} +
          {Sym2.mk (0, c2), Sym2.mk (1, c3),
            Sym2.mk (rd (init_state 5 [0, 1, 2, 3, 4, 0] 5).arr.tour (rd (init_state 5 [0, 1, 2, 3, 4, 0] 5).arr.pos c2 + 1),
              rd (init_state 5 [0, 1, 2, 3, 4, 0] 5).arr.tour (rd (init_state 5 [0, 1, 2, 3, 4, 0] 5).arr.pos c3 + 1))} :=
  successor_variant_edges (problemOf (tableOracle table5b) ⟨[0, 1, 2, 3, 4, 0]⟩) 5 (List.range 5)
    (init_state 5 [0, 1, 2, 3, 4, 0] 5) 0 ⟨false, 2, 0, 1, 2, 3, 4, 0, -2, true⟩ 0 1
    (ofTour_wfp (problemOf_ok (tableOracle table5b) ⟨[0, 1, 2, 3, 4, 0]⟩ (by decide)))
    (init_state_valid3 (by unfold ValidTour; decide)) (by decide!) (by decide) (by decide)
    (by decide) (by decide) (by decide!) (by decide)

/-- Claim C26: not-between predecessor variant (`move_flag == 3`).  In a state
of `three_opt_first` with valid arrays, when the scan of the point
`c1 = random_vector[l]` ends with `move_flag == 3`, the move was memorised for
a triple `(c1, c2, c3)` with `c2` on the candidate list of `c1` and `c3` on
that of `s_c1`, the point evaluation applies the rewriting of the
`move_flag == 3` block (`move3`, which holds the three segment cases), and the
resulting arrays hold a Hamiltonian cycle (a permutation of `0..n-1` with `pos`
its inverse and `tour[n] == tour[0]`) whose undirected edge multiset is the
old one with `(c1, s_c1)`, `(p_c2, c2)`, `(p_c3, c3)` replaced by `(c1, c2)`,
`(s_c1, c3)`, `(p_c2, p_c3)`. -/
theorem predecessor_variant_edges (P : TspProblem) (n : Nat) (rv : List Nat) (s : State) (l : Nat)
    (sc : Scan) (c1 s_c1 : Nat) (hP : WFP n P) (hv : Valid3 n s.arr) (hmv : s.move_value ≤ 0)
    (hc1 : c1 = rd rv l) (hl : c1 < n) (hd : rdB s.dlb c1 = false)
    (hs1 : s_c1 = rd s.arr.tour (rd s.arr.pos c1 + 1))
    (hs : outer_search P n s.arr c1 s_c1 (rd s.arr.pos c1) (candidates n) (scan0 s) = .ok sc)
    (hf : sc.move_flag = 3) :
    ∃ c2 c3 s1, (∃ h ∈ candidates n, c2 = P.nn c1 h) ∧ (∃ g ∈ candidates n, c3 = P.nn s_c1 g) ∧
      Triple n s.arr c1 c2 c3 sc ∧
      three_opt_point P n rv s l = .ok s1 ∧
      s1.arr = move3 n s.arr sc.h1 sc.h2 sc.h3 sc.h4 sc.h5 sc.h6 (rd s.arr.pos sc.h1)
        (rd s.arr.pos sc.h3) (rd s.arr.pos sc.h5) ∧
      TourPos n s1.arr ∧ rd s1.arr.tour n = rd s1.arr.tour 0 ∧
      ({Sym2.mk (c1, s_c1), Sym2.mk (predAt n s.arr.tour (rd s.arr.pos c2), c2),
        Sym2.mk (predAt n s.arr.tour (rd s.arr.pos c3), c3)} : Multiset (Sym2 Nat)) ≤
          edgesOf n s.arr.tour ∧
      edgesOf n s1.arr.tour =
        edgesOf n s.arr.tour -
          {Sym2.mk (c1, s_c1), Sym2.mk (predAt n s.arr.tour (rd s.arr.pos c2), c2),
        Sym2.mk (predAt n s.arr.tour (rd s.arr.pos c3), c3)} +
          {Sym2.mk (c1, c2), Sym2.mk (s_c1, c3),
            Sym2.mk (predAt n s.arr.tour (rd s.arr.pos c2),
              predAt n s.arr.tour (rd s.arr.pos c3))} := by
  obtain ⟨hm, ⟨h, hh, g, hg, -, ht⟩, hpt⟩ :=
    reconnection_applied hP hv hmv hc1 hl hd hs1 hs (by omega)
  have hcfg : ∃ w x y z, Cfg n s.arr w x y z sc.h2 sc.h3 sc.h4 sc.h5 sc.h6 sc.h1 := by
    rcases hm.shape with ⟨k, c, _⟩ | ⟨k, c, _⟩ | ⟨k, c, _⟩ | ⟨k, c, _⟩
    all_goals first
      | omega
      | exact c
  obtain ⟨w, x, y, z, cfg⟩ := hcfg
  obtain ⟨e1, e2, e3⟩ := move3_edges cfg hv
  obtain ⟨s1, x1, -, x3⟩ := exchange_reconnection (n := n) s hm.opt2 (Or.inr (Or.inr (Or.inl hf)))
  rw [if_neg (by omega), if_neg (by omega), if_neg (by omega)] at x3
  have ht0 := ht
  obtain ⟨t1, t2, tt⟩ := ht
  have t : sc.h3 = predAt n s.arr.tour (rd s.arr.pos (P.nn c1 h)) ∧
      sc.h4 = P.nn c1 h ∧
      sc.h5 = predAt n s.arr.tour (rd s.arr.pos (P.nn s_c1 g)) ∧
      sc.h6 = P.nn s_c1 g := by
    rcases tt with ⟨k, r⟩ | ⟨k, r⟩ | ⟨k, r⟩ | ⟨k, r⟩
    all_goals omega
  obtain ⟨t3, t4, t5, t6⟩ := t
  have t2b : sc.h2 = s_c1 := t2.trans hs1.symm
  have key := e3
  rw [← x3] at key
  rw [t1, t2b, t3, t4, t5, t6] at key e2
  refine ⟨P.nn c1 h, P.nn s_c1 g, s1, ⟨h, hh, rfl⟩, ⟨g, hg, rfl⟩, ht0, hpt.trans x1, x3,
    ?_, ?_, e2, key⟩
  · rw [x3]; exact e1.tourPos
  · rw [x3]; exact e1.sentinel

theorem predecessor_variant_edges_witness :
    ∃ c2 c3 s1,
      (∃ h ∈ candidates 5, c2 = (problemOf (tableOracle table5c) ⟨[0, 1, 2, 3, 4, 0]⟩).nn 0 h) ∧
      (∃ g ∈ candidates 5, c3 = (problemOf (tableOracle table5c) ⟨[0, 1, 2, 3, 4, 0]⟩).nn 1 g) ∧
      Triple 5 (init_state 5 [0, 1, 2, 3, 4, 0] 5).arr 0 c2 c3
        ⟨false, 3, 0, 1, 1, 2, 3, 4, -4, true⟩ ∧
      three_opt_point (problemOf (tableOracle table5c) ⟨[0, 1, 2, 3, 4, 0]⟩) 5 (List.range 5)
        (init_state 5 [0, 1, 2, 3, 4, 0] 5) 0 = .ok s1 ∧
      s1.arr = move3 5 (init_state 5 [0, 1, 2, 3, 4, 0] 5).arr 0 1 1 2 3 4
        (rd (init_state 5 [0, 1, 2, 3, 4, 0] 5).arr.pos 0)
        (rd (init_state 5 [0, 1, 2, 3, 4, 0] 5).arr.pos 1)
        (rd (init_state 5 [0, 1, 2, 3, 4, 0] 5).arr.pos 3) ∧
      TourPos 5 s1.arr ∧ rd s1.arr.tour 5 = rd s1.arr.tour 0 ∧
      ({Sym2.mk (0, 1), Sym2.mk (predAt 5 (init_state 5 [0, 1, 2, 3, 4, 0] 5).arr.tour (rd (init_state 5 [0, 1, 2, 3, 4, 0] 5).arr.pos c2), c2),
        Sym2.mk (predAt 5 (init_state 5 [0, 1, 2, 3, 4, 0] 5).arr.tour (rd (init_state 5 [0, 1, 2, 3, 4, 0] 5).arr.pos c3), c3)} :
            Multiset (Sym2 Nat)) ≤
          edgesOf 5 (init_state 5 [0, 1, 2, 3, 4, 0] 5).arr.tour ∧
      edgesOf 5 s1.arr.tour =
        edgesOf 5 (init_state 5 [0, 1, 2, 3, 4, 0] 5).arr.tour -
          {Sym2.mk (0, 1), Sym2.mk (predAt 5 (init_state 5 [0, 1, 2, 3, 4, 0] 5).arr.tour (rd (init_state 5 [0, 1, 2, 3, 4, 0] 5).arr.pos c2), c2),
        Sym2.mk (predAt 5 (init_state 5 [0, 1, 2, 3, 4, 0] 5).arr.tour (rd (init_state 5 [0, 1, 2, 3, 4, 0] 5).arr.pos c3), c3)} +
          {Sym2.mk (0, c2), Sym2.mk (1, c3),
            Sym2.mk (predAt 5 (init_state 5 [0, 1, 2, 3, 4, 0] 5).arr.tour (rd (init_state 5 [0, 1, 2, 3, 4, 0] 5).arr.pos c2),
              predAt 5 (init_state 5 [0, 1, 2, 3, 4, 0] 5).arr.tour (rd (init_state 5 [0, 1, 2, 3, 4, 0] 5).arr.pos c3))} :=
  predecessor_variant_edges (problemOf (tableOracle table5c) ⟨[0, 1, 2, 3, 4, 0]⟩) 5 (List.range 5)
    (init_state 5 [0, 1, 2, 3, 4, 0] 5) 0 ⟨false, 3, 0, 1, 1, 2, 3, 4, -4, true⟩ 0 1
    (ofTour_wfp (problemOf_ok (tableOracle table5c) ⟨[0, 1, 2, 3, 4, 0]⟩ (by decide)))
    (init_state_valid3 (by unfold ValidTour; decide)) (by decide!) (by decide) (by decide)
    (by decide) (by decide) (by decide!) (by decide)

/-! ## The cyclic move keeps the direction of its three segments -/

theorem Rewritten.isRotated {n : Nat} {a b : Arrays} {w x y z : Nat} {sh : Shape}
    (r : Rewritten n a b w x y z sh) (hw : w < n) :
    b.tour.dropLast.IsRotated
      (sh.apply (segF n a.tour w x) (segF n a.tour (cidx n w x) y) ++
        segF n a.tour (cidx n w (x + y)) z) :=
  ⟨w, by rw [dropLast_eq_segF r.1.1, rotate_segF _ hw, r.2]⟩

/-- Every case of the `move_flag == 4` block leaves the cycle made of the part
`[h4..h5]`, then `[h2..h3]`, then `[h6..h1]`, each read forward. -/
theorem move4_forward {n : Nat} {a : Arrays} {w x y z h1 h2 h3 h4 h5 h6 : Nat}
    (h : Cfg n a w x y z h2 h3 h4 h5 h6 h1) (hv : Valid3 n a) :
    (move4 n a h1 h2 h3 h4 h5 h6 (rd a.pos h1) (rd a.pos h3)
      (rd a.pos h5)).tour.dropLast.IsRotated
      (segF n a.tour (cidx n w x) y ++ segF n a.tour w x ++
        segF n a.tour (cidx n w (x + y)) z) := by
  have hw := h.hw
  have hx := h.hx
  have hy := h.hy
  have hz := h.hz
  have hsum := h.hsum
  have c1 : cidx n (cidx n w x) y = cidx n w (x + y) := cidx_cidx hw (by omega)
  have c2 : cidx n (cidx n w x) (y + z) = w := by
    rw [cidx_cidx hw (by omega), show x + (y + z) = n by omega, cidx_full hw]
  have c3 : cidx n (cidx n w (x + y)) z = w := by
    rw [cidx_cidx hw (by omega), hsum, cidx_full hw]
  have c4 : cidx n (cidx n w (x + y)) (z + x) = cidx n w x := by
    unfold cidx; split_ifs <;> omega
  unfold move4
  simp only
  generalize hL : longest _ _ _ = L
  have hc : L = 0 ∨ L = 1 ∨ L = 2 := by rw [← hL]; exact longest_cases _ _ _
  rcases hc with rfl | rfl | rfl
  · simp only [if_true]
    have r := (combo_ssp_QP h.rot hv).isRotated (cidx_lt hw (by omega))
    simp only [Shape.apply, c1, c2] at r
    refine r.trans ?_
    rw [List.append_assoc]
    exact List.isRotated_append
  · simp only [if_true, one_ne_zero, if_false]
    have r := (combo_ssp_QP h.rot.rot hv).isRotated (cidx_lt (cidx_lt hw (by omega)) (by omega))
    simp only [Shape.apply, c1, c3, c4] at r
    refine r.trans ?_
    rw [List.append_assoc (segF n a.tour (cidx n w x) y)]
    exact List.isRotated_append
  · simp only [if_true, OfNat.ofNat_ne_zero, OfNat.ofNat_ne_one, if_false]
    exact (combo_ssp_QP h hv).isRotated hw

/-- Claim C27: cyclic move (`move_flag == 4`).  In a state of
`three_opt_first` with valid arrays, when the scan of the point
`c1 = random_vector[l]` ends with `move_flag == 4`, the move was memorised for
a triple `(c1, c2, c3)` with `c2` on the candidate list of `c1` and `c3` on
that of `s_c1`, the point evaluation applies the rewriting of the
`move_flag == 4` block (`move4`, which holds the three segment cases), and the
resulting arrays hold a Hamiltonian cycle (a permutation of `0..n-1` with `pos`
its inverse and `tour[n] == tour[0]`) whose undirected edge multiset is the
old one with `(c1, s_c1)`, `(p_c2, c2)`, `(c3, s_c3)` replaced by `(c1, c2)`,
`(c3, s_c1)`, `(p_c2, s_c3)`.  No segment is inverted: the old cycle is made
of the three consecutive segments `s_c1..p_c2`, `c2..c3`, `s_c3..c1`, and the
new array is, up to rotation, the segment `c2..c3` followed by `s_c1..p_c2`
followed by `s_c3..c1`, each in its original forward order. -/
theorem cyclic_move_edges (P : TspProblem) (n : Nat) (rv : List Nat) (s : State) (l : Nat)
    (sc : Scan) (c1 s_c1 : Nat) (hP : WFP n P) (hv : Valid3 n s.arr) (hmv : s.move_value ≤ 0)
    (hc1 : c1 = rd rv l) (hl : c1 < n) (hd : rdB s.dlb c1 = false)
    (hs1 : s_c1 = rd s.arr.tour (rd s.arr.pos c1 + 1))
    (hs : outer_search P n s.arr c1 s_c1 (rd s.arr.pos c1) (candidates n) (scan0 s) = .ok sc)
    (hf : sc.move_flag = 4) :
    ∃ c2 c3 s1, (∃ h ∈ candidates n, c2 = P.nn c1 h) ∧ (∃ g ∈ candidates n, c3 = P.nn s_c1 g) ∧
      Triple n s.arr c1 c2 c3 sc ∧
      three_opt_point P n rv s l = .ok s1 ∧
      s1.arr = move4 n s.arr sc.h1 sc.h2 sc.h3 sc.h4 sc.h5 sc.h6 (rd s.arr.pos sc.h1)
        (rd s.arr.pos sc.h3) (rd s.arr.pos sc.h5) ∧
      TourPos n s1.arr ∧ rd s1.arr.tour n = rd s1.arr.tour 0 ∧
      ({Sym2.mk (c1, s_c1), Sym2.mk (predAt n s.arr.tour (rd s.arr.pos c2), c2),
        Sym2.mk (c3, rd s.arr.tour (rd s.arr.pos c3 + 1))} : Multiset (Sym2 Nat)) ≤
          edgesOf n s.arr.tour ∧
      edgesOf n s1.arr.tour =
        edgesOf n s.arr.tour -
          {Sym2.mk (c1, s_c1), Sym2.mk (predAt n s.arr.tour (rd s.arr.pos c2), c2),
        Sym2.mk (c3, rd s.arr.tour (rd s.arr.pos c3 + 1))} +
          {Sym2.mk (c1, c2), Sym2.mk (c3, s_c1),
            Sym2.mk (predAt n s.arr.tour (rd s.arr.pos c2),
              rd s.arr.tour (rd s.arr.pos c3 + 1))} ∧
      ∃ w x y z, Cfg n s.arr w x y z s_c1 (predAt n s.arr.tour (rd s.arr.pos c2)) c2 c3
          (rd s.arr.tour (rd s.arr.pos c3 + 1)) c1 ∧
        s1.arr.tour.dropLast.IsRotated
          (segF n s.arr.tour (cidx n w x) y ++ segF n s.arr.tour w x ++
            segF n s.arr.tour (cidx n w (x + y)) z) := by
  obtain ⟨hm, ⟨h, hh, g, hg, -, ht⟩, hpt⟩ :=
    reconnection_applied hP hv hmv hc1 hl hd hs1 hs (by omega)
  have hcfg : ∃ w x y z, Cfg n s.arr w x y z sc.h2 sc.h3 sc.h4 sc.h5 sc.h6 sc.h1 := by
    rcases hm.shape with ⟨k, c, _⟩ | ⟨k, c, _⟩ | ⟨k, c, _⟩ | ⟨k, c, _⟩
    all_goals first
      | omega
      | exact c
  obtain ⟨w, x, y, z, cfg⟩ := hcfg
  obtain ⟨e1, e2, e3⟩ := move4_edges cfg hv
  obtain ⟨s1, x1, -, x3⟩ := exchange_reconnection (n := n) s hm.opt2 (Or.inr (Or.inr (Or.inr hf)))
  rw [if_pos hf] at x3
  have ht0 := ht
  obtain ⟨t1, t2, tt⟩ := ht
  have t : sc.h3 = predAt n s.arr.tour (rd s.arr.pos (P.nn c1 h)) ∧
      sc.h4 = P.nn c1 h ∧
      sc.h5 = P.nn s_c1 g ∧
      sc.h6 = rd s.arr.tour (rd s.arr.pos (P.nn s_c1 g) + 1) := by
    rcases tt with ⟨k, r⟩ | ⟨k, r⟩ | ⟨k, r⟩ | ⟨k, r⟩
    all_goals omega
  obtain ⟨t3, t4, t5, t6⟩ := t
  have t2b : sc.h2 = s_c1 := t2.trans hs1.symm
  have key := e3
  rw [← x3] at key
  have fw := move4_forward cfg hv
  rw [← x3] at fw
  have cfg2 := cfg
  rw [t1, t2b, t3, t4, t5, t6] at key e2 cfg2
  refine ⟨P.nn c1 h, P.nn s_c1 g, s1, ⟨h, hh, rfl⟩, ⟨g, hg, rfl⟩, ht0, hpt.trans x1, x3,
    ?_, ?_, e2, key, w, x, y, z, cfg2, fw⟩
  · rw [x3]; exact e1.tourPos
  · rw [x3]; exact e1.sentinel

theorem cyclic_move_edges_witness :
    ∃ c2 c3 s1,
      (∃ h ∈ candidates 5, c2 = (problemOf (tableOracle table5d) ⟨[0, 1, 2, 3, 4, 0]⟩).nn 0 h) ∧
      (∃ g ∈ candidates 5, c3 = (problemOf (tableOracle table5d) ⟨[0, 1, 2, 3, 4, 0]⟩).nn 1 g) ∧
      Triple 5 (init_state 5 [0, 1, 2, 3, 4, 0] 5).arr 0 c2 c3
        ⟨false, 4, 0, 1, 1, 2, 3, 4, -4, true⟩ ∧
      three_opt_point (problemOf (tableOracle table5d) ⟨[0, 1, 2, 3, 4, 0]⟩) 5 (List.range 5)
        (init_state 5 [0, 1, 2, 3, 4, 0] 5) 0 = .ok s1 ∧
      s1.arr = move4 5 (init_state 5 [0, 1, 2, 3, 4, 0] 5).arr 0 1 1 2 3 4
        (rd (init_state 5 [0, 1, 2, 3, 4, 0] 5).arr.pos 0)
        (rd (init_state 5 [0, 1, 2, 3, 4, 0] 5).arr.pos 1)
        (rd (init_state 5 [0, 1, 2, 3, 4, 0] 5).arr.pos 3) ∧
      TourPos 5 s1.arr ∧ rd s1.arr.tour 5 = rd s1.arr.tour 0 ∧
      ({Sym2.mk (0, 1), Sym2.mk (predAt 5 (init_state 5 [0, 1, 2, 3, 4, 0] 5).arr.tour (rd (init_state 5 [0, 1, 2, 3, 4, 0] 5).arr.pos c2), c2),
        Sym2.mk (c3, rd (init_state 5 [0, 1, 2, 3, 4, 0] 5).arr.tour (rd (init_state 5 [0, 1, 2, 3, 4, 0] 5).arr.pos c3 + 1))} :
            Multiset (Sym2 Nat)) ≤
          edgesOf 5 (init_state 5 [0, 1, 2, 3, 4, 0] 5).arr.tour ∧
      edgesOf 5 s1.arr.tour =
        edgesOf 5 (init_state 5 [0, 1, 2, 3, 4, 0] 5).arr.tour -
          {Sym2.mk (0, 1), Sym2.mk (predAt 5 (init_state 5 [0, 1, 2, 3, 4, 0] 5).arr.tour (rd (init_state 5 [0, 1, 2, 3, 4, 0] 5).arr.pos c2), c2),
        Sym2.mk (c3, rd (init_state 5 [0, 1, 2, 3, 4, 0] 5).arr.tour (rd (init_state 5 [0, 1, 2, 3, 4, 0] 5).arr.pos c3 + 1))} +
          {Sym2.mk (0, c2), Sym2.mk (c3, 1),
            Sym2.mk (predAt 5 (init_state 5 [0, 1, 2, 3, 4, 0] 5).arr.tour (rd (init_state 5 [0, 1, 2, 3, 4, 0] 5).arr.pos c2),
              rd (init_state 5 [0, 1, 2, 3, 4, 0] 5).arr.tour (rd (init_state 5 [0, 1, 2, 3, 4, 0] 5).arr.pos c3 + 1))} ∧
      ∃ w x y z, Cfg 5 (init_state 5 [0, 1, 2, 3, 4, 0] 5).arr w x y z 1 (predAt 5 (init_state 5 [0, 1, 2, 3, 4, 0] 5).arr.tour (rd (init_state 5 [0, 1, 2, 3, 4, 0] 5).arr.pos c2)) c2 c3
          (rd (init_state 5 [0, 1, 2, 3, 4, 0] 5).arr.tour (rd (init_state 5 [0, 1, 2, 3, 4, 0] 5).arr.pos c3 + 1)) 0 ∧
        s1.arr.tour.dropLast.IsRotated
          (segF 5 (init_state 5 [0, 1, 2, 3, 4, 0] 5).arr.tour (cidx 5 w x) y ++ segF 5 (init_state 5 [0, 1, 2, 3, 4, 0] 5).arr.tour w x ++
            segF 5 (init_state 5 [0, 1, 2, 3, 4, 0] 5).arr.tour (cidx 5 w (x + y)) z) :=
  cyclic_move_edges (problemOf (tableOracle table5d) ⟨[0, 1, 2, 3, 4, 0]⟩) 5 (List.range 5)
    (init_state 5 [0, 1, 2, 3, 4, 0] 5) 0 ⟨false, 4, 0, 1, 1, 2, 3, 4, -4, true⟩ 0 1
    (ofTour_wfp (problemOf_ok (tableOracle table5d) ⟨[0, 1, 2, 3, 4, 0]⟩ (by decide)))
    (init_state_valid3 (by unfold ValidTour; decide)) (by decide!) (by decide) (by decide)
    (by decide) (by decide) (by decide!) (by decide)

/-! ## The segment lengths of the `move_flag == 1` block -/

/-- The `move_flag == 1` block takes the case given by the largest of the
values `move1_lengths`. -/
theorem move1_cases (n : Nat) (a : Arrays) (h1 h2 h3 h4 h5 h6 pos_c1 pos_c2 pos_c3 : Nat) :
    move1 n a h1 h2 h3 h4 h5 h6 pos_c1 pos_c2 pos_c3 =
      if longest (move1_lengths n pos_c1 pos_c2 pos_c3).1
          (move1_lengths n pos_c1 pos_c2 pos_c3).2.1
          (move1_lengths n pos_c1 pos_c2 pos_c3).2.2 = 0 then
        store2_put_hh_h n a false (rd a.pos h5) (rd a.pos h2) false (rd a.pos h1) (rd a.pos h4)
          (rd a.pos h4)
      else if longest (move1_lengths n pos_c1 pos_c2 pos_c3).1
          (move1_lengths n pos_c1 pos_c2 pos_c3).2.1
          (move1_lengths n pos_c1 pos_c2 pos_c3).2.2 = 1 then
        move1_case1 n a h3 h4 h6 pos_c1
      else if longest (move1_lengths n pos_c1 pos_c2 pos_c3).1
          (move1_lengths n pos_c1 pos_c2 pos_c3).2.1
          (move1_lengths n pos_c1 pos_c2 pos_c3).2.2 = 2 then
        store2_put_hh_h n a true (rd a.pos h2) (rd a.pos h5) false pos_c2 (rd a.pos h6)
          (rd a.pos h2)
      else a := rfl

/-- Claim C28 fails on the code: `three_opt_first` on the tour `0 1 2 3 4 5 6 0`
with the distances `table7`, first point `c1 = 0`.  The scan ends with the
reconnection `move_flag == 1`, `h1..h6 = 0 1 4 5 2 3`; the three segments are
`h2..h5 = 1 2`, `h6..h3 = 3 4` and `h4..h1 = 5 6 0`, of 2, 2 and 3 cities.
The block computes `n1 = 2`, `n2 = 3`, `n3 = 2` (it counts one city too many
for `h2..h5` and one too few for `h4..h1`), so it takes the case `h == 1`:
the cells 1 and 2 of the segment `1 2` keep their cities and every other
cell, the three cells of the longest segment `5 6 0` among them, gets another
city. -/
theorem longest_segment_is_rewritten :
    outer_search (problemOf (tableOracle table7) ⟨[0, 1, 2, 3, 4, 5, 6, 0]⟩) 7
      (init_state 7 [0, 1, 2, 3, 4, 5, 6, 0] 7).arr 0 1 0 (candidates 7)
      (scan0 (init_state 7 [0, 1, 2, 3, 4, 5, 6, 0] 7)) =
        .ok ⟨false, 1, 0, 1, 4, 5, 2, 3, -5, true⟩ ∧
    segF 7 [0, 1, 2, 3, 4, 5, 6, 0] 1 2 = [1, 2] ∧
    segF 7 [0, 1, 2, 3, 4, 5, 6, 0] 3 2 = [3, 4] ∧
    segF 7 [0, 1, 2, 3, 4, 5, 6, 0] 5 3 = [5, 6, 0] ∧
    move1_lengths 7 0 4 2 = (2, 3, 2) ∧ longest 2 3 2 = 1 ∧
    move1 7 (init_state 7 [0, 1, 2, 3, 4, 5, 6, 0] 7).arr 0 1 4 5 2 3 0 4 2 =
      move1_case1 7 (init_state 7 [0, 1, 2, 3, 4, 5, 6, 0] 7).arr 4 5 3 0 ∧
    (three_opt_point (problemOf (tableOracle table7) ⟨[0, 1, 2, 3, 4, 5, 6, 0]⟩) 7
      (List.range 7) (init_state 7 [0, 1, 2, 3, 4, 5, 6, 0] 7) 0).map
        (fun s => (s.arr.tour, s.n_exchanges)) = .ok ([3, 1, 2, 5, 6, 0, 4, 3], 1) ∧
    (∀ i ∈ [1, 2], rd [3, 1, 2, 5, 6, 0, 4, 3] i = rd [0, 1, 2, 3, 4, 5, 6, 0] i) ∧
    (∀ i ∈ [0, 3, 4, 5, 6], rd [3, 1, 2, 5, 6, 0, 4, 3] i ≠ rd [0, 1, 2, 3, 4, 5, 6, 0] i) := by
  decide!

/-! ## Coinciding candidates in the search of `three_opt_first` -/

theorem Cfg.ne {n : Nat} {a : Arrays} {w x y z a1 a2 b1 b2 c1 c2 : Nat}
    (h : Cfg n a w x y z a1 a2 b1 b2 c1 c2) (hv : Valid n a) : a2 ≠ b2 ∧ b1 ≠ c1 := by
  obtain ⟨p1, p2, p3, p4, p5, p6⟩ := h.pos hv
  have hw := h.hw
  have hx := h.hx
  have hy := h.hy
  have hz := h.hz
  have hsum := h.hsum
  constructor
  · intro e
    rw [e, p4] at p2
    have := (cidx_eq_iff hw (show x + y - 1 < n by omega) (show x - 1 < n by omega)).1 p2
    omega
  · intro e
    rw [e, p5] at p3
    have := (cidx_eq_iff hw (show x + y < n by omega) (show x < n by omega)).1 p3
    omega

/-- Claim C29, amended: in a state of `three_opt_first` with valid arrays, a
scan of the point `c1` that ends with a reconnection (`move_flag` 1 to 4)
memorised it for a candidate triple `(c1, c2, c3)`, the reconnection is
proper (three non-empty parts, `Move3Ok`), and for every triple it is
memorised for `c2 != c1` and `c3 != c1`; with `move_flag` 2 or 3 also
`c3 != c2`. -/
theorem selected_triple_distinct (P : TspProblem) (n : Nat) (s : State) (sc : Scan)
    (c1 s_c1 : Nat) (hP : WFP n P) (hv : Valid n s.arr) (hmv : s.move_value ≤ 0)
    (hl : c1 < n) (hs1 : s_c1 = rd s.arr.tour (rd s.arr.pos c1 + 1))
    (hs : outer_search P n s.arr c1 s_c1 (rd s.arr.pos c1) (candidates n) (scan0 s) = .ok sc)
    (hf : sc.move_flag ≠ 0) :
    Move3Ok P n s.arr sc ∧
    (∃ h ∈ candidates n, ∃ g ∈ candidates n,
      Triple n s.arr c1 (P.nn c1 h) (P.nn s_c1 g) sc) ∧
    ∀ c2 c3, Triple n s.arr c1 c2 c3 sc →
      c2 ≠ c1 ∧ c3 ≠ c1 ∧ (sc.move_flag = 2 ∨ sc.move_flag = 3 → c3 ≠ c2) := by
  have hm := outer_search_move3 hv hP hmv hl (hs1 ▸ hs) hf
  obtain ⟨h, hh, g, hg, hne, ht⟩ := outer_search_triple hs1 hf (candidates n) (scan0 s) rfl hs
  refine ⟨hm, ⟨h, hh, g, hg, ht⟩, fun c2 c3 ht2 => ?_⟩
  have h2 := (hP c1 hl h (mem_candidates hh).1).2
  obtain ⟨-, -, tt⟩ := ht
  obtain ⟨-, -, tt2⟩ := ht2
  have e2 : c2 = P.nn c1 h := by
    rcases tt with ⟨k, r⟩ | ⟨k, r⟩ | ⟨k, r⟩ | ⟨k, r⟩ <;>
      rcases tt2 with ⟨k2, r2⟩ | ⟨k2, r2⟩ | ⟨k2, r2⟩ | ⟨k2, r2⟩ <;> omega
  have e3 : c3 = P.nn s_c1 g := by
    rcases tt with ⟨k, r⟩ | ⟨k, r⟩ | ⟨k, r⟩ | ⟨k, r⟩ <;>
      rcases tt2 with ⟨k2, r2⟩ | ⟨k2, r2⟩ | ⟨k2, r2⟩ | ⟨k2, r2⟩ <;> omega
  refine ⟨by rw [e2]; exact h2, by rw [e3]; exact hne, fun hk => ?_⟩
  have hcfg : ∃ w x y z, Cfg n s.arr w x y z sc.h2 sc.h3 sc.h4 sc.h5 sc.h6 sc.h1 := by
    rcases hm.shape with ⟨k, c, _⟩ | ⟨k, c, _⟩ | ⟨k, c, _⟩ | ⟨k, c, _⟩
    all_goals first
      | omega
      | exact c
  obtain ⟨w, x, y, z, cfg⟩ := hcfg
  obtain ⟨n1, n2⟩ := cfg.ne hv
  rcases tt2 with ⟨k2, r2⟩ | ⟨k2, r2⟩ | ⟨k2, r2⟩ | ⟨k2, r2⟩ <;> omega

theorem selected_triple_distinct_witness :
    Move3Ok (problemOf (tableOracle table7) ⟨[0, 1, 2, 3, 4, 5, 6, 0]⟩) 7
      (init_state 7 [0, 1, 2, 3, 4, 5, 6, 0] 7).arr ⟨false, 1, 0, 1, 4, 5, 2, 3, -5, true⟩ ∧
    (∃ h ∈ candidates 7, ∃ g ∈ candidates 7,
      Triple 7 (init_state 7 [0, 1, 2, 3, 4, 5, 6, 0] 7).arr 0
        ((problemOf (tableOracle table7) ⟨[0, 1, 2, 3, 4, 5, 6, 0]⟩).nn 0 h)
        ((problemOf (tableOracle table7) ⟨[0, 1, 2, 3, 4, 5, 6, 0]⟩).nn 1 g)
        ⟨false, 1, 0, 1, 4, 5, 2, 3, -5, true⟩) ∧
    ∀ c2 c3, Triple 7 (init_state 7 [0, 1, 2, 3, 4, 5, 6, 0] 7).arr 0 c2 c3
        ⟨false, 1, 0, 1, 4, 5, 2, 3, -5, true⟩ →
      c2 ≠ 0 ∧ c3 ≠ 0 ∧
        ((⟨false, 1, 0, 1, 4, 5, 2, 3, -5, true⟩ : Scan).move_flag = 2 ∨
          (⟨false, 1, 0, 1, 4, 5, 2, 3, -5, true⟩ : Scan).move_flag = 3 → c3 ≠ c2) :=
  selected_triple_distinct (problemOf (tableOracle table7) ⟨[0, 1, 2, 3, 4, 5, 6, 0]⟩) 7
    (init_state 7 [0, 1, 2, 3, 4, 5, 6, 0] 7) ⟨false, 1, 0, 1, 4, 5, 2, 3, -5, true⟩ 0 1
    (ofTour_wfp (problemOf_ok (tableOracle table7) ⟨[0, 1, 2, 3, 4, 5, 6, 0]⟩ (by decide)))
    (init_state_valid (by unfold ValidTour; decide) 7) (by decide!) (by decide) (by decide)
    (by decide!) (by decide)

/-- Counterexample to claim C29 as stated: two scans of `three_opt_first` that
select a reconnection for a triple with `c3 == c2`.  On the tour
`0 1 2 3 4 5 0` with the distances `table6b`, the scan of `c1 = 0` selects
`move_flag == 1` for `c2 = c3 = 4` (`h1..h6 = 0 1 4 5 3 4`) and the point
evaluation applies it; on the tour `0 1 2 3 4 0` with the distances
`table5d`, the scan of `c1 = 4` selects `move_flag == 4` for `c2 = c3 = 2`
(`h1..h6 = 4 0 1 2 2 3`) and the point evaluation applies it. -/
theorem coinciding_candidates_selected :
    (0 ∈ candidates 6 ∧ 3 ∈ candidates 6 ∧
      (problemOf (tableOracle table6b) ⟨[0, 1, 2, 3, 4, 5, 0]⟩).nn 0 0 = 4 ∧
      (problemOf (tableOracle table6b) ⟨[0, 1, 2, 3, 4, 5, 0]⟩).nn 1 3 = 4 ∧
      outer_search (problemOf (tableOracle table6b) ⟨[0, 1, 2, 3, 4, 5, 0]⟩) 6
        (init_state 6 [0, 1, 2, 3, 4, 5, 0] 6).arr 0 1 0 (candidates 6)
        (scan0 (init_state 6 [0, 1, 2, 3, 4, 5, 0] 6)) =
          .ok ⟨false, 1, 0, 1, 4, 5, 3, 4, -4, true⟩ ∧
      Triple 6 (init_state 6 [0, 1, 2, 3, 4, 5, 0] 6).arr 0 4 4
        ⟨false, 1, 0, 1, 4, 5, 3, 4, -4, true⟩ ∧
      (three_opt_point (problemOf (tableOracle table6b) ⟨[0, 1, 2, 3, 4, 5, 0]⟩) 6
        (List.range 6) (init_state 6 [0, 1, 2, 3, 4, 5, 0] 6) 0).map
          (fun s => (s.arr.tour, s.n_exchanges)) = .ok ([4, 1, 2, 3, 5, 0, 4], 1)) ∧
    (0 ∈ candidates 5 ∧
      (problemOf (tableOracle table5d) ⟨[0, 1, 2, 3, 4, 0]⟩).nn 4 0 = 2 ∧
      (problemOf (tableOracle table5d) ⟨[0, 1, 2, 3, 4, 0]⟩).nn 0 0 = 2 ∧
      outer_search (problemOf (tableOracle table5d) ⟨[0, 1, 2, 3, 4, 0]⟩) 5
        (init_state 5 [0, 1, 2, 3, 4, 0] 5).arr 4 0 4 (candidates 5)
        (scan0 (init_state 5 [0, 1, 2, 3, 4, 0] 5)) =
          .ok ⟨false, 4, 4, 0, 1, 2, 2, 3, -4, true⟩ ∧
      Triple 5 (init_state 5 [0, 1, 2, 3, 4, 0] 5).arr 4 2 2
        ⟨false, 4, 4, 0, 1, 2, 2, 3, -4, true⟩ ∧
      (three_opt_point (problemOf (tableOracle table5d) ⟨[0, 1, 2, 3, 4, 0]⟩) 5
        (List.range 5) (init_state 5 [0, 1, 2, 3, 4, 0] 5) 4).map
          (fun s => (s.arr.tour, s.n_exchanges)) = .ok ([0, 1, 3, 4, 2, 0], 1)) := by
  refine ⟨⟨by decide, by decide, by decide, by decide, by decide!, ?_, by decide!⟩,
    ⟨by decide, by decide, by decide, by decide!, ?_, by decide!⟩⟩
  · unfold Triple; decide
  · unfold Triple; decide

/-! ## How the scan of `three_opt_first` leaves on an accepted move -/

theorem memo2_cases (P : TspProblem) (n : Nat) (a : Arrays) (c1 s_c1 c2 : Nat) (sc : Scan) :
    memo2 P n a c1 s_c1 c2 sc = sc ∨
    ((memo2 P n a c1 s_c1 c2 sc).opt2_flag = true ∧ (memo2 P n a c1 s_c1 c2 sc).move_flag = 0 ∧
      (memo2 P n a c1 s_c1 c2 sc).improvement_flag = true ∧
      (memo2 P n a c1 s_c1 c2 sc).move_value < sc.move_value - EPS ∧
      (memo2 P n a c1 s_c1 c2 sc).h1 = c1 ∧ (memo2 P n a c1 s_c1 c2 sc).h2 = s_c1 ∧
      (((memo2 P n a c1 s_c1 c2 sc).h3 = c2 ∧
          (memo2 P n a c1 s_c1 c2 sc).h4 = rd a.tour (rd a.pos c2 + 1)) ∨
        ((memo2 P n a c1 s_c1 c2 sc).h3 = predAt n a.tour (rd a.pos c2) ∧
          (memo2 P n a c1 s_c1 c2 sc).h4 = c2))) := by
  unfold memo2
  simp only
  split_ifs
  all_goals first
    | exact Or.inl rfl
    | (refine Or.inr ⟨rfl, rfl, rfl, ?_, rfl, rfl, ?_⟩
       · dsimp only
         rcases ‹_ ∨ _› with k | k <;> linarith
       · first
           | exact Or.inl ⟨rfl, rfl⟩
           | exact Or.inr ⟨rfl, rfl⟩)

theorem three_opt_point_exchange {P : TspProblem} {n : Nat} {rv : List Nat} {s : State}
    {l : Nat} {sc : Scan} (hd : rdB s.dlb (rd rv l) = false)
    (hs : outer_search P n s.arr (rd rv l) (rd s.arr.tour (rd s.arr.pos (rd rv l) + 1))
      (rd s.arr.pos (rd rv l)) (candidates n) (scan0 s) = .ok sc)
    (hm : sc.move_flag ≠ 0 ∨ sc.opt2_flag = true) :
    three_opt_point P n rv s l = exchange n s sc := by
  unfold scan0 at hs
  simp only [three_opt_point, hd, hs]
  simp [hm]

theorem inner_search_jump_flag {P : TspProblem} {n : Nat} {a : Arrays}
    {c1 c2 s_c1 s_c2 p_c2 pos_c1 pos_c2 : Nat} {radius add1 db : ℚ} (sc : Scan) {sc1 : Scan} :
    ∀ gs : List Nat,
      inner_search P n a c1 s_c1 c2 s_c2 p_c2 pos_c1 pos_c2 radius add1 db sc gs = .jump sc1 →
      sc1.move_flag ≠ 0 ∧ sc1.opt2_flag = false := by
  intro gs
  induction gs with
  | nil => intro h; simp [inner_search] at h
  | cons g gs ih =>
    intro h
    simp only [inner_search] at h
    split_ifs at h
    all_goals first
      | exact ih h
      | exact Inner.noConfusion h
      | (simp only [Inner.jump.injEq] at h
         subst h
         exact ⟨by simp, rfl⟩)

/-- Claim C30, amended: how the scan for a point `c1` in `three_opt_first`
leaves on an accepted move.  A reconnection accepted at the `c3` level ends
the scan at once, whatever candidates `c2` remain, and the scan result is that
reconnection.  A 2-opt move accepted at the `c2` level is only memorised (the
statement `goto exchange` of that block is commented out): `memo2` stores it
in `h1..h4` with `opt2_flag = true` and lowers `move_value` to its gain, and
when the search over `c3` falls through, the scan goes on with the next
candidate `c2` from that memorised state.  The move applied is the one that
the scan ends with. -/
theorem scan_exit_policy (P : TspProblem) (n : Nat) (rv : List Nat) (s : State) (l : Nat) :
    (∀ c1 s_c1 pos_c1 h hs sc sc1, P.dist c1 s_c1 > P.dist c1 (P.nn c1 h) →
        inner_search P n s.arr c1 s_c1 (P.nn c1 h)
          (rd s.arr.tour (rd s.arr.pos (P.nn c1 h) + 1))
          (predAt n s.arr.tour (rd s.arr.pos (P.nn c1 h))) pos_c1 (rd s.arr.pos (P.nn c1 h))
          (P.dist c1 s_c1) (P.dist c1 (P.nn c1 h))
          (- P.dist c1 s_c1 - P.dist (P.nn c1 h) (rd s.arr.tour (rd s.arr.pos (P.nn c1 h) + 1)))
          (memo2 P n s.arr c1 s_c1 (P.nn c1 h) sc) (candidates n) = .jump sc1 →
      outer_search P n s.arr c1 s_c1 pos_c1 (h :: hs) sc = .ok sc1 ∧ sc1.move_flag ≠ 0 ∧
        sc1.opt2_flag = false) ∧
    (∀ c1 s_c1 pos_c1 h hs sc, P.dist c1 s_c1 > P.dist c1 (P.nn c1 h) →
        inner_search P n s.arr c1 s_c1 (P.nn c1 h)
          (rd s.arr.tour (rd s.arr.pos (P.nn c1 h) + 1))
          (predAt n s.arr.tour (rd s.arr.pos (P.nn c1 h))) pos_c1 (rd s.arr.pos (P.nn c1 h))
          (P.dist c1 s_c1) (P.dist c1 (P.nn c1 h))
          (- P.dist c1 s_c1 - P.dist (P.nn c1 h) (rd s.arr.tour (rd s.arr.pos (P.nn c1 h) + 1)))
          (memo2 P n s.arr c1 s_c1 (P.nn c1 h) sc) (candidates n) = .fallthrough →
      outer_search P n s.arr c1 s_c1 pos_c1 (h :: hs) sc =
        outer_search P n s.arr c1 s_c1 pos_c1 hs (memo2 P n s.arr c1 s_c1 (P.nn c1 h) sc)) ∧
    (∀ c1 s_c1 c2 sc, memo2 P n s.arr c1 s_c1 c2 sc = sc ∨
      ((memo2 P n s.arr c1 s_c1 c2 sc).opt2_flag = true ∧
        (memo2 P n s.arr c1 s_c1 c2 sc).move_flag = 0 ∧
        (memo2 P n s.arr c1 s_c1 c2 sc).improvement_flag = true ∧
        (memo2 P n s.arr c1 s_c1 c2 sc).move_value < sc.move_value - EPS ∧
        (memo2 P n s.arr c1 s_c1 c2 sc).h1 = c1 ∧ (memo2 P n s.arr c1 s_c1 c2 sc).h2 = s_c1 ∧
        (((memo2 P n s.arr c1 s_c1 c2 sc).h3 = c2 ∧
            (memo2 P n s.arr c1 s_c1 c2 sc).h4 = rd s.arr.tour (rd s.arr.pos c2 + 1)) ∨
          ((memo2 P n s.arr c1 s_c1 c2 sc).h3 = predAt n s.arr.tour (rd s.arr.pos c2) ∧
            (memo2 P n s.arr c1 s_c1 c2 sc).h4 = c2)))) ∧
    (rdB s.dlb (rd rv l) = false → ∀ sc,
      outer_search P n s.arr (rd rv l) (rd s.arr.tour (rd s.arr.pos (rd rv l) + 1))
        (rd s.arr.pos (rd rv l)) (candidates n) (scan0 s) = .ok sc →
      (sc.move_flag ≠ 0 ∨ sc.opt2_flag = true) →
      three_opt_point P n rv s l = exchange n s sc) := by
  refine ⟨fun c1 s_c1 pos_c1 h hs sc sc1 hr hj => ?_, fun c1 s_c1 pos_c1 h hs sc hr hj => ?_,
    fun c1 s_c1 c2 sc => memo2_cases P n s.arr c1 s_c1 c2 sc,
    fun hd sc hs hm => three_opt_point_exchange hd hs hm⟩
  · rw [outer_search_cons, if_pos hr, hj]
    exact ⟨rfl, inner_search_jump_flag _ _ hj⟩
  · rw [outer_search_cons, if_pos hr, hj]

theorem scan_exit_policy_witness :
    (∀ c1 s_c1 pos_c1 h hs sc sc1, problem7.dist c1 s_c1 > problem7.dist c1 (problem7.nn c1 h) →
        inner_search problem7 7 state7.arr c1 s_c1 (problem7.nn c1 h)
          (rd state7.arr.tour (rd state7.arr.pos (problem7.nn c1 h) + 1))
          (predAt 7 state7.arr.tour (rd state7.arr.pos (problem7.nn c1 h))) pos_c1 (rd
              state7.arr.pos (problem7.nn c1 h))
          (problem7.dist c1 s_c1) (problem7.dist c1 (problem7.nn c1 h))
          (- problem7.dist c1 s_c1 - problem7.dist (problem7.nn c1 h) (rd state7.arr.tour (rd
              state7.arr.pos (problem7.nn c1 h) + 1)))
          (memo2 problem7 7 state7.arr c1 s_c1 (problem7.nn c1 h) sc) (candidates 7) = .jump sc1 →
      outer_search problem7 7 state7.arr c1 s_c1 pos_c1 (h :: hs) sc = .ok sc1 ∧ sc1.move_flag ≠ 0 ∧
        sc1.opt2_flag = false) ∧
    (∀ c1 s_c1 pos_c1 h hs sc, problem7.dist c1 s_c1 > problem7.dist c1 (problem7.nn c1 h) →
        inner_search problem7 7 state7.arr c1 s_c1 (problem7.nn c1 h)
          (rd state7.arr.tour (rd state7.arr.pos (problem7.nn c1 h) + 1))
          (predAt 7 state7.arr.tour (rd state7.arr.pos (problem7.nn c1 h))) pos_c1 (rd
              state7.arr.pos (problem7.nn c1 h))
          (problem7.dist c1 s_c1) (problem7.dist c1 (problem7.nn c1 h))
          (- problem7.dist c1 s_c1 - problem7.dist (problem7.nn c1 h) (rd state7.arr.tour (rd
              state7.arr.pos (problem7.nn c1 h) + 1)))
          (memo2 problem7 7 state7.arr c1 s_c1 (problem7.nn c1 h) sc) (candidates 7) = .fallthrough
              →
      outer_search problem7 7 state7.arr c1 s_c1 pos_c1 (h :: hs) sc =
        outer_search problem7 7 state7.arr c1 s_c1 pos_c1 hs (memo2 problem7 7 state7.arr c1 s_c1
            (problem7.nn c1 h) sc)) ∧
    (∀ c1 s_c1 c2 sc, memo2 problem7 7 state7.arr c1 s_c1 c2 sc = sc ∨
      ((memo2 problem7 7 state7.arr c1 s_c1 c2 sc).opt2_flag = true ∧
        (memo2 problem7 7 state7.arr c1 s_c1 c2 sc).move_flag = 0 ∧
        (memo2 problem7 7 state7.arr c1 s_c1 c2 sc).improvement_flag = true ∧
        (memo2 problem7 7 state7.arr c1 s_c1 c2 sc).move_value < sc.move_value - EPS ∧
        (memo2 problem7 7 state7.arr c1 s_c1 c2 sc).h1 = c1 ∧ (memo2 problem7 7 state7.arr c1 s_c1
            c2 sc).h2 = s_c1 ∧
        (((memo2 problem7 7 state7.arr c1 s_c1 c2 sc).h3 = c2 ∧
            (memo2 problem7 7 state7.arr c1 s_c1 c2 sc).h4 = rd state7.arr.tour (rd state7.arr.pos
                c2 + 1)) ∨
          ((memo2 problem7 7 state7.arr c1 s_c1 c2 sc).h3 = predAt 7 state7.arr.tour (rd
              state7.arr.pos c2) ∧
            (memo2 problem7 7 state7.arr c1 s_c1 c2 sc).h4 = c2)))) ∧
    (rdB state7.dlb (rd (List.range 7) 0) = false → ∀ sc,
      outer_search problem7 7 state7.arr (rd (List.range 7) 0) (rd state7.arr.tour (rd
          state7.arr.pos (rd (List.range 7) 0) + 1))
        (rd state7.arr.pos (rd (List.range 7) 0)) (candidates 7) (scan0 state7) = .ok sc →
      (sc.move_flag ≠ 0 ∨ sc.opt2_flag = true) →
      three_opt_point problem7 7 (List.range 7) state7 0 = exchange 7 state7 sc) :=
  scan_exit_policy problem7 7 (List.range 7) state7 0

/-- Counterexample to claim C30 as stated: `three_opt_first` on the tour
`0 1 2 3 4 5 6 0` with the distances `table7`, scan of the first point
`c1 = 0`.  For the first candidate `c2 = 4` the 2-opt move `h1..h4 = 0 1 4 5`
with gain `-2` is accepted and memorised (`opt2_flag = true`), but the scan
does not stop: it goes on to the candidates `c3`, leaves with the
reconnection `move_flag == 1`, `h1..h6 = 0 1 4 5 2 3`, gain `-5`, and the
point evaluation applies that reconnection (`tour = 3 1 2 5 6 0 4 3`), not the
accepted 2-opt move (which would leave `tour = 0 4 3 2 1 5 6 0`). -/
theorem accepted_two_opt_move_not_applied :
    problem7.nn 0 0 = 4 ∧
    problem7.dist 0 1 > problem7.dist 0 4 ∧
    memo2 problem7 7 state7.arr 0 1 4 (scan0 state7) =
      ⟨true, 0, 0, 1, 4, 5, 0, 0, -2, true⟩ ∧
    (-2 : ℚ) < (scan0 state7).move_value - EPS ∧
    outer_search problem7 7 state7.arr 0 1 0 (candidates 7)
      (scan0 state7) = .ok ⟨false, 1, 0, 1, 4, 5, 2, 3, -5, true⟩ ∧
    (three_opt_point problem7 7 (List.range 7) state7 0).map
      (fun s => (s.arr.tour, s.n_exchanges)) = .ok ([3, 1, 2, 5, 6, 0, 4, 3], 1) ∧
    (exchange 7 state7 ⟨true, 0, 0, 1, 4, 5, 0, 0, -2, true⟩).map
      (fun s => (s.arr.tour, s.n_exchanges)) = .ok ([0, 4, 3, 2, 1, 5, 6, 0], 1) ∧
    ([3, 1, 2, 5, 6, 0, 4, 3] : List Nat) ≠ [0, 4, 3, 2, 1, 5, 6, 0] := by
  decide!

theorem first_improvement_selection_witness :
    (∀ m, find_move2 (problemOf (tableOracle table6b) ⟨[0, 1, 2, 3, 4, 5, 0]⟩) 6 (init_state 6 [0,
        1, 2, 3, 4, 5, 0] 0).arr 0 = some m ↔
      (FirstSucc (problemOf (tableOracle table6b) ⟨[0, 1, 2, 3, 4, 5, 0]⟩) (init_state 6 [0, 1, 2,
          3, 4, 5, 0] 0).arr 0 (rd (init_state 6 [0, 1, 2, 3, 4, 5, 0] 0).arr.tour (rd (init_state
              6 [0, 1, 2, 3, 4, 5, 0] 0).arr.pos 0 + 1))
          ((problemOf (tableOracle table6b) ⟨[0, 1, 2, 3, 4, 5, 0]⟩).dist 0 (rd (init_state 6 [0,
              1, 2, 3, 4, 5, 0] 0).arr.tour (rd (init_state 6 [0, 1, 2, 3, 4, 5, 0] 0).arr.pos 0 +
                  1))) (candidates 6) m ∨
        ((∀ m1, ¬ FirstSucc (problemOf (tableOracle table6b) ⟨[0, 1, 2, 3, 4, 5, 0]⟩) (init_state 6
            [0, 1, 2, 3, 4, 5, 0] 0).arr 0 (rd (init_state 6 [0, 1, 2, 3, 4, 5, 0] 0).arr.tour (rd
                (init_state 6 [0, 1, 2, 3, 4, 5, 0] 0).arr.pos 0 + 1))
          ((problemOf (tableOracle table6b) ⟨[0, 1, 2, 3, 4, 5, 0]⟩).dist 0 (rd (init_state 6 [0,
              1, 2, 3, 4, 5, 0] 0).arr.tour (rd (init_state 6 [0, 1, 2, 3, 4, 5, 0] 0).arr.pos 0 +
                  1))) (candidates 6) m1) ∧
          FirstPred (problemOf (tableOracle table6b) ⟨[0, 1, 2, 3, 4, 5, 0]⟩) 6 (init_state 6 [0,
              1, 2, 3, 4, 5, 0] 0).arr 0 (predAt 6 (init_state 6 [0, 1, 2, 3, 4, 5, 0] 0).arr.tour
                  (rd (init_state 6 [0, 1, 2, 3, 4, 5, 0] 0).arr.pos 0))
            ((problemOf (tableOracle table6b) ⟨[0, 1, 2, 3, 4, 5, 0]⟩).dist (predAt 6 (init_state 6
                [0, 1, 2, 3, 4, 5, 0] 0).arr.tour (rd (init_state 6 [0, 1, 2, 3, 4, 5, 0]
                    0).arr.pos 0)) 0)
            (candidates 6) m))) ∧
    (rdB (init_state 6 [0, 1, 2, 3, 4, 5, 0] 0).dlb 0 = false →
      (∀ m, find_move2 (problemOf (tableOracle table6b) ⟨[0, 1, 2, 3, 4, 5, 0]⟩) 6 (init_state 6
          [0, 1, 2, 3, 4, 5, 0] 0).arr 0 = some m →
        two_opt_point (problemOf (tableOracle table6b) ⟨[0, 1, 2, 3, 4, 5, 0]⟩) 6
          (List.range 6) (init_state 6 [0, 1, 2, 3, 4, 5, 0] 0) 0 = apply_move2 6 (init_state 6 [0,
              1, 2, 3, 4, 5, 0] 0) m) ∧
      (find_move2 (problemOf (tableOracle table6b) ⟨[0, 1, 2, 3, 4, 5, 0]⟩) 6 (init_state 6 [0, 1,
          2, 3, 4, 5, 0] 0).arr 0 = none →
        two_opt_point (problemOf (tableOracle table6b) ⟨[0, 1, 2, 3, 4, 5, 0]⟩) 6
          (List.range 6) (init_state 6 [0, 1, 2, 3, 4, 5, 0] 0) 0 = { (init_state 6 [0, 1, 2, 3, 4,
              5, 0] 0) with
            dlb := wrB (init_state 6 [0, 1, 2, 3, 4, 5, 0] 0).dlb 0 true })) :=
  first_improvement_selection (problemOf (tableOracle table6b) ⟨[0, 1, 2, 3, 4, 5, 0]⟩) 6
      (List.range 6)
    (init_state 6 [0, 1, 2, 3, 4, 5, 0] 0) 0

/-! ## The radius test of the innermost search -/

/-- With non-negative distances, once `radius > add1` holds for `c2`, the value
`decrease_breaks + add1` is negative. -/
theorem decrease_breaks_neg {P : TspProblem} (hnn : ∀ i j, 0 ≤ P.dist i j) {c1 s_c1 c2 : Nat}
    (hr : P.dist c1 s_c1 > P.dist c1 c2) (s_c2 c3 : Nat) :
    (- P.dist c1 s_c1 - P.dist c2 s_c2) + P.dist c1 c2 < P.dist s_c1 c3 := by
  have h1 := hnn c2 s_c2
  have h2 := hnn s_c1 c3
  linarith

/-- When the radius test holds for every candidate, the innermost search over
a list of candidates followed by another list is the search over the first
list and, if that one ends without a move, the search over the second. -/
theorem inner_search_append {P : TspProblem} {n : Nat} {a : Arrays}
    {c1 s_c1 c2 s_c2 p_c2 pos_c1 pos_c2 : Nat} {radius add1 db : ℚ} (sc : Scan)
    (hdb : ∀ c3, db + add1 < P.dist s_c1 c3) (gs2 : List Nat) :
    ∀ gs1 : List Nat,
      inner_search P n a c1 s_c1 c2 s_c2 p_c2 pos_c1 pos_c2 radius add1 db sc (gs1 ++ gs2) =
        match inner_search P n a c1 s_c1 c2 s_c2 p_c2 pos_c1 pos_c2 radius add1 db sc gs1 with
        | .fallthrough =>
          inner_search P n a c1 s_c1 c2 s_c2 p_c2 pos_c1 pos_c2 radius add1 db sc gs2
        | r => r := by
  intro gs1
  induction gs1 with
  | nil => simp [inner_search]
  | cons g gs ih =>
    simp only [List.cons_append, inner_search, if_pos (hdb _)]
    split_ifs <;> first | rfl | exact ih

/-- Claim C36: the radius test of the innermost search of `three_opt_first` is
vacuous.  For non-negative distances, when `radius > add1` holds for the
candidate `c2`, the condition `decrease_breaks + add1 < add2` holds for every
candidate `c3`; hence the search over the candidates of `s_c1` is never cut
short: the search over a list followed by a second list goes on with the
second list whenever the first is exhausted without a move, and the search
ends without a move exactly when every single candidate is evaluated without
a move. -/
theorem innermost_radius_test_vacuous (P : TspProblem) (n : Nat) (a : Arrays)
    (c1 s_c1 c2 s_c2 p_c2 pos_c1 pos_c2 : Nat) (sc : Scan) (hnn : ∀ i j, 0 ≤ P.dist i j)
    (hr : P.dist c1 s_c1 > P.dist c1 c2) :
    (∀ c3, (- P.dist c1 s_c1 - P.dist c2 s_c2) + P.dist c1 c2 < P.dist s_c1 c3) ∧
    (∀ gs1 gs2,
      inner_search P n a c1 s_c1 c2 s_c2 p_c2 pos_c1 pos_c2 (P.dist c1 s_c1) (P.dist c1 c2)
          (- P.dist c1 s_c1 - P.dist c2 s_c2) sc (gs1 ++ gs2) =
        match inner_search P n a c1 s_c1 c2 s_c2 p_c2 pos_c1 pos_c2 (P.dist c1 s_c1) (P.dist c1 c2)
          (- P.dist c1 s_c1 - P.dist c2 s_c2) sc gs1 with
        | .fallthrough =>
          inner_search P n a c1 s_c1 c2 s_c2 p_c2 pos_c1 pos_c2 (P.dist c1 s_c1) (P.dist c1 c2)
          (- P.dist c1 s_c1 - P.dist c2 s_c2) sc gs2
        | r => r) ∧
    (∀ gs,
      inner_search P n a c1 s_c1 c2 s_c2 p_c2 pos_c1 pos_c2 (P.dist c1 s_c1) (P.dist c1 c2)
          (- P.dist c1 s_c1 - P.dist c2 s_c2) sc gs = .fallthrough ↔
        ∀ g ∈ gs,
          inner_search P n a c1 s_c1 c2 s_c2 p_c2 pos_c1 pos_c2 (P.dist c1 s_c1) (P.dist c1 c2)
          (- P.dist c1 s_c1 - P.dist c2 s_c2) sc [g] = .fallthrough) := by
  have hdb := decrease_breaks_neg hnn hr s_c2
  refine ⟨hdb, fun gs1 gs2 => inner_search_append sc hdb gs2 gs1, fun gs => ?_⟩
  induction gs with
  | nil => simp [inner_search]
  | cons g gs ih =>
    have e := @inner_search_append P n a c1 s_c1 c2 s_c2 p_c2 pos_c1 pos_c2 (P.dist c1 s_c1)
      (P.dist c1 c2) (- P.dist c1 s_c1 - P.dist c2 s_c2) sc hdb gs [g]
    rw [List.singleton_append] at e
    rw [e, List.forall_mem_cons, ← ih]
    cases inner_search P n a c1 s_c1 c2 s_c2 p_c2 pos_c1 pos_c2 (P.dist c1 s_c1)
      (P.dist c1 c2) (- P.dist c1 s_c1 - P.dist c2 s_c2) sc [g] <;> simp

theorem innermost_radius_test_vacuous_witness :
    (∀ c3, (- problem7.dist 0 1 - problem7.dist 4 5) + problem7.dist 0 4 < problem7.dist 1 c3) ∧
    (∀ gs1 gs2,
      inner_search problem7 7 state7.arr 0 1 4 5 3 0 4 (problem7.dist 0 1) (problem7.dist 0 4)
          (- problem7.dist 0 1 - problem7.dist 4 5) (scan0 state7) (gs1 ++ gs2) =
        match inner_search problem7 7 state7.arr 0 1 4 5 3 0 4 (problem7.dist 0 1) (problem7.dist 0 4)
          (- problem7.dist 0 1 - problem7.dist 4 5) (scan0 state7) gs1 with
        | .fallthrough =>
          inner_search problem7 7 state7.arr 0 1 4 5 3 0 4 (problem7.dist 0 1) (problem7.dist 0 4)
          (- problem7.dist 0 1 - problem7.dist 4 5) (scan0 state7) gs2
        | r => r) ∧
    (∀ gs,
      inner_search problem7 7 state7.arr 0 1 4 5 3 0 4 (problem7.dist 0 1) (problem7.dist 0 4)
          (- problem7.dist 0 1 - problem7.dist 4 5) (scan0 state7) gs = .fallthrough ↔
        ∀ g ∈ gs,
          inner_search problem7 7 state7.arr 0 1 4 5 3 0 4 (problem7.dist 0 1) (problem7.dist 0 4)
          (- problem7.dist 0 1 - problem7.dist 4 5) (scan0 state7) [g] = .fallthrough) :=
  innermost_radius_test_vacuous problem7 7 state7.arr 0 1 4 5 3 0 4 (scan0 state7)
    (ofTour_nonneg (problemOf_ok (tableOracle table7) ⟨[0, 1, 2, 3, 4, 5, 6, 0]⟩ (by decide))
      (fun x y => tableOracle_nonneg table7 x y))
    (by decide!)

/-! ## The internal-error branches of `three_opt_first` -/

/-- The innermost search ends in `assert(false)` only with `pos_c2 == pos_c1`. -/
theorem inner_search_not_failed {P : TspProblem} {n : Nat} {a : Arrays}
    {c1 s_c1 c2 s_c2 p_c2 pos_c1 pos_c2 : Nat} {radius add1 db : ℚ} (sc : Scan)
    (hne : pos_c2 ≠ pos_c1) :
    ∀ gs : List Nat,
      inner_search P n a c1 s_c1 c2 s_c2 p_c2 pos_c1 pos_c2 radius add1 db sc gs ≠ .failed := by
  intro gs
  induction gs with
  | nil => simp [inner_search]
  | cons g gs ih =>
    simp only [inner_search, if_neg hne]
    split_ifs <;> first | exact ih | exact Inner.noConfusion

theorem ScanInv.flag_le {P : TspProblem} {n : Nat} {a : Arrays} {sc : Scan}
    (h : ScanInv P n a sc) : sc.move_flag ≤ 4 := by
  rcases h.2 with h | h | h
  · omega
  · have := h.flag0; omega
  · rcases h.shape with ⟨k, _⟩ | ⟨k, _⟩ | ⟨k, _⟩ | ⟨k, _⟩ <;> omega

/-- Claim C35: the internal-error branches of `three_opt_first` are unreachable.
For a tour of the cities `0..n-1` with `tour[n] == tour[0]`, candidate lists
that hold other cities of the problem and a scan order within `0..n-1`: a run
of `three_opt_first` never ends in `assert(false)` or in the branch "Some
very strange error" (the model can only run out of the fuel of its outer
loop); and in every state at the start of a point evaluation the candidate
`c2` of a point `c1` has `pos_c2 != pos_c1`, so the innermost search never
ends in `assert(false)`, the scan returns with a `move_flag` that is 0, 1, 2,
3 or 4, the exchange of a memorised move returns, and so does the point
evaluation. -/
theorem error_branches_unreachable (P : TspProblem) (n : Nat) (rv tour : List Nat)
    (hP : WFP n P) (hrv : ∀ l, l < n → rd rv l < n) (hlen : tour.length = n + 1)
    (hperm : tour.dropLast.Perm (List.range n)) (hsent : rd tour n = rd tour 0) :
    (∀ fuel, three_opt_first fuel tour P rv ≠ .error .assertFalse ∧
      three_opt_first fuel tour P rv ≠ .error .strangeError) ∧
    (∀ s, Reach3 P n rv tour s → ∀ l, l < n →
      (∀ h ∈ candidates n, rd s.arr.pos (P.nn (rd rv l) h) ≠ rd s.arr.pos (rd rv l) ∧
        ∀ (s_c1 s_c2 p_c2 : Nat) (radius add1 db : ℚ) (sc : Scan) (gs : List Nat),
          inner_search P n s.arr (rd rv l) s_c1 (P.nn (rd rv l) h) s_c2 p_c2
            (rd s.arr.pos (rd rv l)) (rd s.arr.pos (P.nn (rd rv l) h)) radius add1 db sc gs
              ≠ .failed) ∧
      (∃ sc, outer_search P n s.arr (rd rv l) (rd s.arr.tour (rd s.arr.pos (rd rv l) + 1))
          (rd s.arr.pos (rd rv l)) (candidates n) (scan0 s) = .ok sc ∧
        (sc.move_flag = 0 ∨ sc.move_flag = 1 ∨ sc.move_flag = 2 ∨ sc.move_flag = 3 ∨
          sc.move_flag = 4) ∧
        ((sc.move_flag ≠ 0 ∨ sc.opt2_flag = true) → ∃ s1, exchange n s sc = .ok s1)) ∧
      ∃ s1, three_opt_point P n rv s l = .ok s1) := by
  have ht := validTour_of_perm hlen hperm hsent
  refine ⟨fun fuel => ⟨fun h => ?_, fun h => ?_⟩, fun s hs l hl => ?_⟩
  · exact absurd (three_opt_first_error hP hrv ht h) (by decide)
  · exact absurd (three_opt_first_error hP hrv ht h) (by decide)
  obtain ⟨hv, hmv⟩ := reach3_valid hP hrv ht hs
  refine ⟨fun h hh => ?_, ?_, ?_⟩
  · obtain ⟨hc2, h12⟩ := hP (rd rv l) (hrv l hl) h (mem_candidates hh).1
    have hne : rd s.arr.pos (P.nn (rd rv l) h) ≠ rd s.arr.pos (rd rv l) :=
      fun e => h12 (hv.1.pos_inj hc2 (hrv l hl) e)
    exact ⟨hne, fun _ _ _ _ _ _ sc gs => inner_search_not_failed sc hne gs⟩
  · obtain ⟨sc, h1, h2⟩ := outer_search_spec hv.1 hP (hrv l hl) rfl rfl (candidates n)
      (fun h hh => (mem_candidates hh).1) (scan0 s) ⟨le_of_eq hmv, Or.inl ⟨rfl, rfl⟩⟩
    refine ⟨sc, h1, ?_, fun hm => ?_⟩
    · have := h2.flag_le
      omega
    · obtain ⟨s1, x1, _⟩ :=
        @exchange_spec P n s sc hv (outer_search_move_ok hv.1 hP (le_of_eq hmv) (hrv l hl) h1 hm)
      exact ⟨s1, x1⟩
  · obtain ⟨s1, y1, _⟩ := @three_opt_point_spec P n rv s l hP hv hmv (hrv l hl)
    exact ⟨s1, y1⟩

theorem error_branches_unreachable_witness :
    (∀ fuel, three_opt_first fuel [0, 1, 2, 3, 4, 5, 6, 0] problem7 (List.range 7) ≠
        .error .assertFalse ∧
      three_opt_first fuel [0, 1, 2, 3, 4, 5, 6, 0] problem7 (List.range 7) ≠
        .error .strangeError) ∧
    (∀ s, Reach3 problem7 7 (List.range 7) [0, 1, 2, 3, 4, 5, 6, 0] s → ∀ l, l < 7 →
      (∀ h ∈ candidates 7,
        rd s.arr.pos (problem7.nn (rd (List.range 7) l) h) ≠ rd s.arr.pos (rd (List.range 7) l) ∧
        ∀ (s_c1 s_c2 p_c2 : Nat) (radius add1 db : ℚ) (sc : Scan) (gs : List Nat),
          inner_search problem7 7 s.arr (rd (List.range 7) l) s_c1
            (problem7.nn (rd (List.range 7) l) h) s_c2 p_c2
            (rd s.arr.pos (rd (List.range 7) l))
            (rd s.arr.pos (problem7.nn (rd (List.range 7) l) h)) radius add1 db sc gs
              ≠ .failed) ∧
      (∃ sc, outer_search problem7 7 s.arr (rd (List.range 7) l)
          (rd s.arr.tour (rd s.arr.pos (rd (List.range 7) l) + 1))
          (rd s.arr.pos (rd (List.range 7) l)) (candidates 7) (scan0 s) = .ok sc ∧
        (sc.move_flag = 0 ∨ sc.move_flag = 1 ∨ sc.move_flag = 2 ∨ sc.move_flag = 3 ∨
          sc.move_flag = 4) ∧
        ((sc.move_flag ≠ 0 ∨ sc.opt2_flag = true) → ∃ s1, exchange 7 s sc = .ok s1)) ∧
      ∃ s1, three_opt_point problem7 7 (List.range 7) s l = .ok s1) :=
  error_branches_unreachable problem7 7 (List.range 7) [0, 1, 2, 3, 4, 5, 6, 0]
    (ofTour_wfp (problemOf_ok (tableOracle table7) ⟨[0, 1, 2, 3, 4, 5, 6, 0]⟩ (by decide)))
    (by decide) (by decide) (by decide) (by decide)

/-! ## The wrapper keeps the cost of the engine's tour -/

@[simp]
theorem length_wrB (v : List Bool) (i : Nat) (b : Bool) :
    (wrB v i b).length = v.length := by
  simp [wrB]

theorem rdB_wrB (v : List Bool) (i : Nat) (b : Bool) (k : Nat) :
    rdB (wrB v i b) k = if k = i ∧ i < v.length then b else rdB v k := by
  unfold rdB wrB
  rw [List.getD_eq_getElem?_getD, List.getD_eq_getElem?_getD, List.getElem?_set]
  by_cases e : i = k
  · subst e
    by_cases hl : i < v.length
    · simp [hl]
    · simp [hl, List.getElem?_eq_none (Nat.le_of_not_lt hl)]
  · have e2 : ¬ k = i := fun h => e h.symm
    simp [e, e2]

theorem rdB_clear4 (v : List Bool) {h1 h2 h3 h4 : Nat} (l1 : h1 < v.length)
    (l2 : h2 < v.length) (l3 : h3 < v.length) (l4 : h4 < v.length) (c : Nat) :
    rdB (wrB (wrB (wrB (wrB v h1 false) h2 false) h3 false) h4 false) c =
      if c = h1 ∨ c = h2 ∨ c = h3 ∨ c = h4 then false else rdB v c := by
  simp only [rdB_wrB, length_wrB, l1, l2, l3, l4, and_true]
  split_ifs <;> simp_all

theorem rdB_clear6 (v : List Bool) {h1 h2 h3 h4 h5 h6 : Nat} (l1 : h1 < v.length)
    (l2 : h2 < v.length) (l3 : h3 < v.length) (l4 : h4 < v.length) (l5 : h5 < v.length)
    (l6 : h6 < v.length) (c : Nat) :
    rdB (wrB (wrB (wrB (wrB (wrB (wrB v h1 false) h2 false) h3 false) h4 false) h5 false)
      h6 false) c =
      if c = h1 ∨ c = h2 ∨ c = h3 ∨ c = h4 ∨ c = h5 ∨ c = h6 then false else rdB v c := by
  simp only [rdB_wrB, length_wrB, l1, l2, l3, l4, l5, l6, and_true]
  split_ifs <;> simp_all

theorem two_opt_point_dlb_length (P : TspProblem) (n : Nat) (rv : List Nat) (s : State)
    (l : Nat) : (two_opt_point P n rv s l).dlb.length = s.dlb.length := by
  unfold two_opt_point
  simp only
  split_ifs
  · rfl
  · split <;> simp [apply_move2]

theorem exchange_dlb_length {n : Nat} {s s1 : State} {sc : Scan}
    (h : exchange n s sc = .ok s1) : s1.dlb.length = s.dlb.length := by
  unfold exchange at h
  simp only at h
  split_ifs at h <;>
    (simp only [Except.ok.injEq] at h
     subst h
     simp)

theorem three_opt_point_dlb_length {P : TspProblem} {n : Nat} {rv : List Nat} {s s1 : State}
    {l : Nat} (h : three_opt_point P n rv s l = .ok s1) : s1.dlb.length = s.dlb.length := by
  unfold three_opt_point at h
  simp only at h
  split_ifs at h with hd
  · cases h
    rfl
  · revert h
    split
    · intro h; cases h
    · split_ifs
      · exact exchange_dlb_length
      · intro h
        cases h
        simp

theorem reach2_dlb_length {P : TspProblem} {n : Nat} {rv tour : List Nat} {s : State}
    (h : Reach2 P n rv tour s) : s.dlb.length = n := by
  induction h with
  | init => simp [init_state]
  | pass s _ ih => exact ih
  | point s l _ _ ih => rw [two_opt_point_dlb_length]; exact ih

theorem reach3_dlb_length {P : TspProblem} {n : Nat} {rv tour : List Nat} {s : State}
    (h : Reach3 P n rv tour s) : s.dlb.length = n := by
  induction h with
  | init => simp [init_state]
  | pass s _ ih => exact ih
  | point s s1 l _ _ hs ih => rw [three_opt_point_dlb_length hs]; exact ih

/-- The bits after the label `exchange` of `three_opt_first` for a memorised
2-opt move. -/
theorem exchange_dlb_opt2 {n : Nat} {s s1 : State} {sc : Scan} (e0 : sc.move_flag = 0)
    (e1 : sc.opt2_flag = true) (h : exchange n s sc = .ok s1) :
    s1.dlb = wrB (wrB (wrB (wrB s.dlb sc.h1 false) sc.h2 false) sc.h3 false) sc.h4 false := by
  simp only [exchange, e0, e1, ne_eq, not_true_eq_false, if_false, if_true,
    Except.ok.injEq] at h
  subst h
  rfl

/-- The bits after the label `exchange` of `three_opt_first` for a memorised
reconnection. -/
theorem exchange_dlb_move3 {n : Nat} {s s1 : State} {sc : Scan} (e0 : sc.move_flag ≠ 0)
    (e1 : sc.opt2_flag = false) (h : exchange n s sc = .ok s1) :
    s1.dlb = wrB (wrB (wrB (wrB (wrB (wrB s.dlb sc.h1 false) sc.h2 false) sc.h3 false)
      sc.h4 false) sc.h5 false) sc.h6 false := by
  simp only [exchange, e0, e1, ne_eq, not_false_eq_true, if_true, Bool.false_eq_true,
    if_false] at h
  split_ifs at h <;>
    (simp only [Except.ok.injEq] at h
     subst h
     rfl)

/-! ## Claim on the discipline of the don't look bits -/

/-- Claim C32: don't-look-bit discipline.  For a tour of the cities `0..n-1`
with `tour[n] == tour[0]`, candidate lists that hold other cities and a scan
order within `0..n-1`: every bit is false after the initialisation of either
engine; in every state at the start of a point evaluation, a point whose bit
is set is passed over; the evaluation of a point `c1` that accepts no move
sets `dlb[c1]` and changes no other bit; an accepted 2-opt move (of
`two_opt_first`, or the memorised 2-opt move of `three_opt_first`) clears
the bits of `h1..h4` and changes no other bit; an accepted reconnection of
`three_opt_first` clears the bits of `h1..h6` and changes no other bit. -/
theorem dlb_discipline (P : TspProblem) (n : Nat) (rv tour : List Nat)
    (hP : WFP n P) (hrv : ∀ l, l < n → rd rv l < n) (hlen : tour.length = n + 1)
    (hperm : tour.dropLast.Perm (List.range n)) (hsent : rd tour n = rd tour 0) :
    (∀ b c, rdB (init_state n tour b).dlb c = false) ∧
    (∀ s, Reach2 P n rv tour s → ∀ l, l < n →
      (rdB s.dlb (rd rv l) = true → two_opt_point P n rv s l = s) ∧
      (rdB s.dlb (rd rv l) = false →
        (find_move2 P n s.arr (rd rv l) = none →
          ∀ c, rdB (two_opt_point P n rv s l).dlb c =
            if c = rd rv l then true else rdB s.dlb c) ∧
        (∀ m, find_move2 P n s.arr (rd rv l) = some m →
          ∀ c, rdB (two_opt_point P n rv s l).dlb c =
            if c = m.h1 ∨ c = m.h2 ∨ c = m.h3 ∨ c = m.h4 then false else rdB s.dlb c))) ∧
    (∀ s, Reach3 P n rv tour s → ∀ l, l < n →
      (rdB s.dlb (rd rv l) = true → three_opt_point P n rv s l = .ok s) ∧
      (rdB s.dlb (rd rv l) = false →
        ∃ sc s1, outer_search P n s.arr (rd rv l) (rd s.arr.tour (rd s.arr.pos (rd rv l) + 1))
            (rd s.arr.pos (rd rv l)) (candidates n) (scan0 s) = .ok sc ∧
          three_opt_point P n rv s l = .ok s1 ∧
          (sc.move_flag = 0 ∧ sc.opt2_flag = false →
            ∀ c, rdB s1.dlb c = if c = rd rv l then true else rdB s.dlb c) ∧
          (sc.move_flag = 0 ∧ sc.opt2_flag = true →
            ∀ c, rdB s1.dlb c =
              if c = sc.h1 ∨ c = sc.h2 ∨ c = sc.h3 ∨ c = sc.h4 then false else rdB s.dlb c) ∧
          (sc.move_flag ≠ 0 →
            ∀ c, rdB s1.dlb c =
              if c = sc.h1 ∨ c = sc.h2 ∨ c = sc.h3 ∨ c = sc.h4 ∨ c = sc.h5 ∨ c = sc.h6
              then false else rdB s.dlb c))) := by
  have ht := validTour_of_perm hlen hperm hsent
  refine ⟨fun b c => by simp [init_state, rdB_replicate_false], fun s hs l hl => ?_,
    fun s hs l hl => ?_⟩
  · have hv := reach2_valid hP hrv ht hs
    have hdl := reach2_dlb_length hs
    have hc1 := hrv l hl
    refine ⟨fun hd => by simp [two_opt_point, hd], fun hd => ⟨fun hnone c => ?_, fun m hm c => ?_⟩⟩
    · simp only [two_opt_point, hd, hnone, Bool.false_eq_true, if_false]
      rw [rdB_wrB, hdl]
      simp [hc1]
    · have hok := find_move2_ok hv hP hc1 hm
      simp only [two_opt_point, hd, hm, Bool.false_eq_true, if_false, apply_move2]
      have l2 : m.h2 < n := by rw [hok.h2_eq]; exact hv.next_lt (hv.pos_lt hok.h1_lt)
      have l4 : m.h4 < n := by rw [hok.h4_eq]; exact hv.next_lt (hv.pos_lt hok.h3_lt)
      exact rdB_clear4 s.dlb (by rw [hdl]; exact hok.h1_lt) (by rw [hdl]; exact l2)
        (by rw [hdl]; exact hok.h3_lt) (by rw [hdl]; exact l4) c
  · obtain ⟨hv, hmv⟩ := reach3_valid hP hrv ht hs
    have hdl := reach3_dlb_length hs
    have hc1 := hrv l hl
    refine ⟨fun hd => by simp [three_opt_point, hd], fun hd => ?_⟩
    obtain ⟨sc, h1, h2⟩ := outer_search_spec hv.1 hP hc1 rfl rfl (candidates n)
      (fun h hh => (mem_candidates hh).1) (scan0 s) ⟨le_of_eq hmv, Or.inl ⟨rfl, rfl⟩⟩
    by_cases hm : sc.move_flag ≠ 0 ∨ sc.opt2_flag = true
    · have hok := outer_search_move_ok hv.1 hP (le_of_eq hmv) hc1 h1 hm
      obtain ⟨s1, x1, _⟩ := @exchange_spec P n s sc hv hok
      have hpt : three_opt_point P n rv s l = .ok s1 :=
        (three_opt_point_exchange hd h1 hm).trans x1
      refine ⟨sc, s1, h1, hpt, fun hq => ?_, fun hq c => ?_, fun hq c => ?_⟩
      · rcases hm with hm | hm
        · exact absurd hq.1 hm
        · rw [hq.2] at hm; cases hm
      · rcases hok with ho | ho
        · rw [exchange_dlb_opt2 hq.1 hq.2 x1]
          have l2 : sc.h2 < n := by rw [ho.h2_eq]; exact hv.1.next_lt (hv.1.pos_lt ho.h1_lt)
          have l4 : sc.h4 < n := by rw [ho.h4_eq]; exact hv.1.next_lt (hv.1.pos_lt ho.h3_lt)
          exact rdB_clear4 s.dlb (by rw [hdl]; exact ho.h1_lt) (by rw [hdl]; exact l2)
            (by rw [hdl]; exact ho.h3_lt) (by rw [hdl]; exact l4) c
        · have := ho.opt2
          rw [hq.2] at this
          cases this
      · rcases hok with ho | ho
        · exact absurd ho.flag0 hq
        · rw [exchange_dlb_move3 hq ho.opt2 x1]
          have hlt : sc.h1 < n ∧ sc.h2 < n ∧ sc.h3 < n ∧ sc.h4 < n ∧ sc.h5 < n ∧ sc.h6 < n := by
            rcases ho.shape with ⟨_, ⟨w, x, y, z, c⟩, _⟩ | ⟨_, ⟨w, x, y, z, c⟩, _⟩ |
              ⟨_, ⟨w, x, y, z, c⟩, _⟩ | ⟨_, ⟨w, x, y, z, c⟩, _⟩ <;>
              (have hc := c.lt hv.1; omega)
          obtain ⟨l1, l2, l3, l4, l5, l6⟩ := hlt
          exact rdB_clear6 s.dlb (by rw [hdl]; exact l1) (by rw [hdl]; exact l2)
            (by rw [hdl]; exact l3) (by rw [hdl]; exact l4) (by rw [hdl]; exact l5)
            (by rw [hdl]; exact l6) c
    · have hpt : three_opt_point P n rv s l = .ok { s with dlb := wrB s.dlb (rd rv l) true } := by
        have h1b := h1
        unfold scan0 at h1b
        simp only [three_opt_point, hd, h1b]
        simp [hm]
      refine ⟨sc, _, h1, hpt, fun _ c => ?_, fun hq => ?_, fun hq => ?_⟩
      · show rdB (wrB s.dlb (rd rv l) true) c = _
        rw [rdB_wrB, hdl]
        simp [hc1]
      · exact absurd (Or.inr hq.2) hm
      · exact absurd (Or.inl hq) hm

theorem dlb_discipline_witness :
    (∀ b c, rdB (init_state 7 [0, 1, 2, 3, 4, 5, 6, 0] b).dlb c = false) ∧
    (∀ s, Reach2 problem7 7 (List.range 7) [0, 1, 2, 3, 4, 5, 6, 0] s → ∀ l, l < 7 →
      (rdB s.dlb (rd (List.range 7) l) = true → two_opt_point problem7 7 (List.range 7) s l = s) ∧
      (rdB s.dlb (rd (List.range 7) l) = false →
        (find_move2 problem7 7 s.arr (rd (List.range 7) l) = none →
          ∀ c, rdB (two_opt_point problem7 7 (List.range 7) s l).dlb c =
            if c = rd (List.range 7) l then true else rdB s.dlb c) ∧
        (∀ m, find_move2 problem7 7 s.arr (rd (List.range 7) l) = some m →
          ∀ c, rdB (two_opt_point problem7 7 (List.range 7) s l).dlb c =
            if c = m.h1 ∨ c = m.h2 ∨ c = m.h3 ∨ c = m.h4 then false else rdB s.dlb c))) ∧
    (∀ s, Reach3 problem7 7 (List.range 7) [0, 1, 2, 3, 4, 5, 6, 0] s → ∀ l, l < 7 →
      (rdB s.dlb (rd (List.range 7) l) = true → three_opt_point problem7 7 (List.range 7) s l = .ok s) ∧
      (rdB s.dlb (rd (List.range 7) l) = false →
        ∃ sc s1, outer_search problem7 7 s.arr (rd (List.range 7) l) (rd s.arr.tour (rd s.arr.pos (rd (List.range 7) l) + 1))
            (rd s.arr.pos (rd (List.range 7) l)) (candidates 7) (scan0 s) = .ok sc ∧
          three_opt_point problem7 7 (List.range 7) s l = .ok s1 ∧
          (sc.move_flag = 0 ∧ sc.opt2_flag = false →
            ∀ c, rdB s1.dlb c = if c = rd (List.range 7) l then true else rdB s.dlb c) ∧
          (sc.move_flag = 0 ∧ sc.opt2_flag = true →
            ∀ c, rdB s1.dlb c =
              if c = sc.h1 ∨ c = sc.h2 ∨ c = sc.h3 ∨ c = sc.h4 then false else rdB s.dlb c) ∧
          (sc.move_flag ≠ 0 →
            ∀ c, rdB s1.dlb c =
              if c = sc.h1 ∨ c = sc.h2 ∨ c = sc.h3 ∨ c = sc.h4 ∨ c = sc.h5 ∨ c = sc.h6
              then false else rdB s.dlb c))) :=
  dlb_discipline problem7 7 (List.range 7) [0, 1, 2, 3, 4, 5, 6, 0]
    (ofTour_wfp (problemOf_ok (tableOracle table7) ⟨[0, 1, 2, 3, 4, 5, 6, 0]⟩ (by decide)))
    (by decide) (by decide) (by decide) (by decide)

/-! ## The don't look bits when an engine returns -/

theorem rdB_wrB_self {v : List Bool} {i : Nat} (h : i < v.length) (b : Bool) :
    rdB (wrB v i b) i = b := by
  rw [rdB_wrB]
  simp [h]

theorem rdB_wrB_keep {v : List Bool} {i c : Nat} (h : rdB v c = true) :
    rdB (wrB v i true) c = true := by
  rw [rdB_wrB]
  split_ifs
  · rfl
  · exact h

theorem perm_range_covers {n : Nat} {rv : List Nat} (hrv : rv.Perm (List.range n)) :
    (∀ l, l < n → rd rv l < n) ∧ ∀ c, c < n → ∃ l, l < n ∧ rd rv l = c := by
  have hlen : rv.length = n := by rw [hrv.length_eq, List.length_range]
  constructor
  · intro l hl
    have hl2 : l < rv.length := by omega
    have hm : rv[l] ∈ List.range n := hrv.mem_iff.1 (List.getElem_mem _)
    unfold rd
    rw [List.getD_eq_getElem?_getD, List.getElem?_eq_getElem hl2]
    simpa using hm
  · intro c hc
    have hm : c ∈ rv := hrv.mem_iff.2 (List.mem_range.2 hc)
    obtain ⟨l, hl, e⟩ := List.getElem_of_mem hm
    refine ⟨l, by omega, ?_⟩
    unfold rd
    rw [List.getD_eq_getElem?_getD, List.getElem?_eq_getElem hl]
    exact e

/-- A point evaluation of `two_opt_first` that leaves `improvement_flag` unset
has set the bit of its point and cleared none. -/
theorem two_opt_point_unflagged {P : TspProblem} {n : Nat} {rv : List Nat} {s : State} {l : Nat}
    (hl : rd rv l < s.dlb.length)
    (hf : (two_opt_point P n rv s l).improvement_flag = false) :
    s.improvement_flag = false ∧ rdB (two_opt_point P n rv s l).dlb (rd rv l) = true ∧
    ∀ c, rdB s.dlb c = true → rdB (two_opt_point P n rv s l).dlb c = true := by
  unfold two_opt_point at hf ⊢
  simp only at hf ⊢
  by_cases hd : rdB s.dlb (rd rv l) = true
  · rw [if_pos hd] at hf ⊢
    exact ⟨hf, hd, fun c hc => hc⟩
  · rw [if_neg hd] at hf ⊢
    cases hm : find_move2 P n s.arr (rd rv l) with
    | some m => rw [hm] at hf; simp [apply_move2] at hf
    | none =>
      rw [hm] at hf
      exact ⟨hf, rdB_wrB_self hl true, fun c hc => rdB_wrB_keep hc⟩

theorem two_opt_points_unflagged {P : TspProblem} {n : Nat} {rv : List Nat} :
    ∀ (ls : List Nat) (s : State), (∀ l ∈ ls, rd rv l < s.dlb.length) →
      (ls.foldl (two_opt_point P n rv) s).improvement_flag = false →
      (∀ l ∈ ls, rdB (ls.foldl (two_opt_point P n rv) s).dlb (rd rv l) = true) ∧
      ∀ c, rdB s.dlb c = true → rdB (ls.foldl (two_opt_point P n rv) s).dlb c = true := by
  intro ls
  induction ls with
  | nil => intro s _ _; exact ⟨fun l hl => absurd hl (List.not_mem_nil l), fun c hc => hc⟩
  | cons l ls ih =>
    intro s hall hf
    rw [List.foldl_cons] at hf ⊢
    have hlen := two_opt_point_dlb_length P n rv s l
    obtain ⟨r1, r2⟩ := ih (two_opt_point P n rv s l)
      (fun x hx => by rw [hlen]; exact hall x (List.mem_cons_of_mem _ hx)) hf
    have hf1 : (two_opt_point P n rv s l).improvement_flag = false := by
      by_contra hne
      have ht : (two_opt_point P n rv s l).improvement_flag = true := by
        cases h : (two_opt_point P n rv s l).improvement_flag
        · exact absurd h hne
        · rfl
      have : ∀ (xs : List Nat) (t : State), t.improvement_flag = true →
          (xs.foldl (two_opt_point P n rv) t).improvement_flag = true := by
        intro xs
        induction xs with
        | nil => intro t h; exact h
        | cons x xs ih2 =>
          intro t h
          rw [List.foldl_cons]
          exact ih2 _ ((@two_opt_point_flag P n rv t x).1.2 (Or.inl h))
      rw [this ls _ ht] at hf
      cases hf
    obtain ⟨_, q2, q3⟩ := two_opt_point_unflagged (hall l (List.mem_cons_self _ _)) hf1
    refine ⟨fun x hx => ?_, fun c hc => r2 c (q3 c hc)⟩
    rcases List.mem_cons.1 hx with e | e
    · rw [e]; exact r2 _ q2
    · exact r1 x e

theorem two_opt_sweep_dlb_length (P : TspProblem) (n : Nat) (rv : List Nat) (s : State) :
    (two_opt_sweep P n rv s).dlb.length = s.dlb.length := by
  unfold two_opt_sweep
  have : ∀ (xs : List Nat) (t : State),
      (xs.foldl (two_opt_point P n rv) t).dlb.length = t.dlb.length := by
    intro xs
    induction xs with
    | nil => intro t; rfl
    | cons x xs ih => intro t; rw [List.foldl_cons, ih, two_opt_point_dlb_length]
  rw [this]

/-- The state that the loop of `two_opt_first` returns has `improvement_flag`
unset and, when the loop was entered with the flag set, is the result of a
pass. -/
theorem two_opt_loop_last {P : TspProblem} {n : Nat} {rv : List Nat} :
    ∀ (fuel : Nat) (s s1 : State), two_opt_loop P n rv fuel s = .ok s1 →
      s1.improvement_flag = false ∧
      (s.improvement_flag = true →
        ∃ s0, s0.dlb.length = s.dlb.length ∧ s1 = two_opt_sweep P n rv s0) := by
  intro fuel
  induction fuel with
  | zero => intro s s1 h; simp [two_opt_loop] at h
  | succ f ih =>
    intro s s1 h
    rw [two_opt_loop_succ] at h
    by_cases hf : s.improvement_flag = true
    · rw [if_pos hf] at h
      obtain ⟨r1, r2⟩ := ih _ _ h
      refine ⟨r1, fun _ => ?_⟩
      by_cases hf2 : (two_opt_sweep P n rv s).improvement_flag = true
      · obtain ⟨s0, e1, e2⟩ := r2 hf2
        exact ⟨s0, by rw [e1, two_opt_sweep_dlb_length], e2⟩
      · cases f with
        | zero => simp [two_opt_loop] at h
        | succ g =>
          rw [two_opt_loop_succ, if_neg hf2] at h
          cases h
          exact ⟨s, rfl, rfl⟩
    · rw [if_neg hf] at h
      cases h
      refine ⟨?_, fun h => absurd h hf⟩
      cases hb : s.improvement_flag
      · rfl
      · exact absurd hb hf

theorem two_opt_first_dlb {P : TspProblem} {rv tour : List Nat}
    (hrv : rv.Perm (List.range (tour.length - 1))) {fuel : Nat} {s : State}
    (h : two_opt_first fuel tour P rv = .ok s) :
    ∀ c, c < tour.length - 1 → rdB s.dlb c = true := by
  obtain ⟨hr1, hr2⟩ := perm_range_covers hrv
  unfold two_opt_first at h
  simp only at h
  obtain ⟨hf, hs⟩ := two_opt_loop_last _ _ _ h
  obtain ⟨s0, e1, e2⟩ := hs rfl
  have e3 : s0.dlb.length = tour.length - 1 := by rw [e1]; simp [init_state]
  intro c hc
  obtain ⟨l, hl, e⟩ := hr2 c hc
  rw [e2] at hf ⊢
  unfold two_opt_sweep at hf ⊢
  rw [← e]
  exact (two_opt_points_unflagged (List.range (tour.length - 1))
    { s0 with improvement_flag := false }
    (fun x hx => by rw [e3]; exact hr1 x (List.mem_range.1 hx)) hf).1 l (List.mem_range.2 hl)

theorem inner_search_jump_improves {P : TspProblem} {n : Nat} {a : Arrays}
    {c1 c2 s_c1 s_c2 p_c2 pos_c1 pos_c2 : Nat} {radius add1 db : ℚ} (sc : Scan) {sc1 : Scan} :
    ∀ gs : List Nat,
      inner_search P n a c1 s_c1 c2 s_c2 p_c2 pos_c1 pos_c2 radius add1 db sc gs = .jump sc1 →
      sc1.improvement_flag = true := by
  intro gs
  induction gs with
  | nil => intro h; simp [inner_search] at h
  | cons g gs ih =>
    intro h
    simp only [inner_search] at h
    split_ifs at h
    all_goals first
      | exact ih h
      | exact Inner.noConfusion h
      | (simp only [Inner.jump.injEq] at h
         subst h
         rfl)

/-- The scan of a point returns the scan state it was entered with or one with
`improvement_flag` set. -/
theorem outer_search_same_or_flagged {P : TspProblem} {n : Nat} {a : Arrays}
    {c1 s_c1 pos_c1 : Nat} {sc1 : Scan} :
    ∀ (hs : List Nat) (sc : Scan), outer_search P n a c1 s_c1 pos_c1 hs sc = .ok sc1 →
      sc1 = sc ∨ sc1.improvement_flag = true := by
  intro hs
  induction hs with
  | nil =>
    intro sc h
    simp only [outer_search, Except.ok.injEq] at h
    exact Or.inl h.symm
  | cons h hs ih =>
    intro sc hr
    rw [outer_search_cons] at hr
    split_ifs at hr
    · revert hr
      split
      · rename_i scj hj
        intro hr
        simp only [Except.ok.injEq] at hr
        subst hr
        exact Or.inr (inner_search_jump_improves _ _ hj)
      · intro hr; cases hr
      · intro hr
        rcases ih _ hr with e | e
        · rcases memo2_cases P n a c1 s_c1 (P.nn c1 h) sc with m | m
          · exact Or.inl (e.trans m)
          · exact Or.inr (by rw [e]; exact m.2.2.1)
        · exact Or.inr e
    · simp only [Except.ok.injEq] at hr
      exact Or.inl hr.symm

theorem exchange_flag {n : Nat} {s s1 : State} {sc : Scan}
    (h : exchange n s sc = .ok s1) : s1.improvement_flag = sc.improvement_flag := by
  unfold exchange at h
  simp only at h
  split_ifs at h <;>
    (simp only [Except.ok.injEq] at h
     subst h
     rfl)

/-- A point evaluation of `three_opt_first` that leaves `improvement_flag`
unset has set the bit of its point and cleared none. -/
theorem three_opt_point_unflagged {P : TspProblem} {n : Nat} {rv : List Nat} {s s1 : State}
    {l : Nat} (hl : rd rv l < s.dlb.length) (h : three_opt_point P n rv s l = .ok s1)
    (hf : s1.improvement_flag = false) :
    s.improvement_flag = false ∧ rdB s1.dlb (rd rv l) = true ∧
    ∀ c, rdB s.dlb c = true → rdB s1.dlb c = true := by
  unfold three_opt_point at h
  simp only at h
  by_cases hd : rdB s.dlb (rd rv l) = true
  · rw [if_pos hd] at h
    cases h
    exact ⟨hf, hd, fun c hc => hc⟩
  · rw [if_neg hd] at h
    revert h
    split
    · intro h; cases h
    · rename_i sc hsc
      intro h
      by_cases hm : sc.move_flag ≠ 0 ∨ sc.opt2_flag = true
      · rw [if_pos hm] at h
        have e := exchange_flag h
        rcases outer_search_same_or_flagged _ _ hsc with q | q
        · rw [q] at hm
          simp at hm
        · rw [hf, q] at e
          cases e
      · rw [if_neg hm] at h
        cases h
        exact ⟨hf, rdB_wrB_self hl true, fun c hc => rdB_wrB_keep hc⟩

/-- A point evaluation of `three_opt_first` keeps a set `improvement_flag`. -/
theorem three_opt_point_keeps_flag {P : TspProblem} {n : Nat} {rv : List Nat} {s s1 : State}
    {l : Nat} (h : three_opt_point P n rv s l = .ok s1) (hf : s.improvement_flag = true) :
    s1.improvement_flag = true := by
  unfold three_opt_point at h
  simp only at h
  split_ifs at h with hd
  · cases h; exact hf
  · revert h
    split
    · intro h; cases h
    · rename_i sc hsc
      intro h
      split_ifs at h with hm
      · rw [exchange_flag h]
        rcases outer_search_same_or_flagged _ _ hsc with q | q
        · rw [q]; exact hf
        · exact q
      · cases h
        exact hf

theorem three_opt_points_keeps_flag {P : TspProblem} {n : Nat} {rv : List Nat} :
    ∀ (ls : List Nat) (s s1 : State), three_opt_points P n rv ls s = .ok s1 →
      s.improvement_flag = true → s1.improvement_flag = true := by
  intro ls
  induction ls with
  | nil => intro s s1 h hf; simp only [three_opt_points, Except.ok.injEq] at h; rw [← h]; exact hf
  | cons l ls ih =>
    intro s s1 h hf
    simp only [three_opt_points] at h
    revert h
    split
    · intro h; cases h
    · rename_i s2 h2
      intro h
      exact ih _ _ h (three_opt_point_keeps_flag h2 hf)

theorem three_opt_points_unflagged {P : TspProblem} {n : Nat} {rv : List Nat} :
    ∀ (ls : List Nat) (s s1 : State), (∀ l ∈ ls, rd rv l < s.dlb.length) →
      three_opt_points P n rv ls s = .ok s1 → s1.improvement_flag = false →
      s1.dlb.length = s.dlb.length ∧ (∀ l ∈ ls, rdB s1.dlb (rd rv l) = true) ∧
      ∀ c, rdB s.dlb c = true → rdB s1.dlb c = true := by
  intro ls
  induction ls with
  | nil =>
    intro s s1 _ h _
    simp only [three_opt_points, Except.ok.injEq] at h
    subst h
    exact ⟨rfl, fun l hl => absurd hl (List.not_mem_nil l), fun c hc => hc⟩
  | cons l ls ih =>
    intro s s1 hall h hf
    simp only [three_opt_points] at h
    revert h
    split
    · intro h; cases h
    · rename_i s2 h2
      intro h
      have hlen := three_opt_point_dlb_length h2
      obtain ⟨r0, r1, r2⟩ := ih s2 s1
        (fun x hx => by rw [hlen]; exact hall x (List.mem_cons_of_mem _ hx)) h hf
      have hf2 : s2.improvement_flag = false := by
        cases hb : s2.improvement_flag
        · rfl
        · rw [three_opt_points_keeps_flag ls _ _ h hb] at hf
          cases hf
      obtain ⟨_, q2, q3⟩ := three_opt_point_unflagged (hall l (List.mem_cons_self _ _)) h2 hf2
      refine ⟨by rw [r0, hlen], fun x hx => ?_, fun c hc => r2 c (q3 c hc)⟩
      rcases List.mem_cons.1 hx with e | e
      · rw [e]; exact r2 _ q2
      · exact r1 x e

/-- The state that the loop of `three_opt_first` returns has `improvement_flag`
unset and, when the loop was entered with the flag set, is the result of a
pass. -/
theorem three_opt_loop_last {P : TspProblem} {n : Nat} {rv : List Nat} :
    ∀ (fuel : Nat) (s s1 : State), three_opt_loop P n rv fuel s = .ok s1 →
      s1.improvement_flag = false ∧
      (s.improvement_flag = true → (∀ l, l < n → rd rv l < s.dlb.length) →
        ∃ s0, s0.dlb.length = s.dlb.length ∧ three_opt_sweep P n rv s0 = .ok s1) := by
  intro fuel
  induction fuel with
  | zero => intro s s1 h; simp [three_opt_loop] at h
  | succ f ih =>
    intro s s1 h
    rw [three_opt_loop_succ] at h
    by_cases hf : s.improvement_flag = true
    · rw [if_pos hf] at h
      revert h
      split
      · intro h; cases h
      · rename_i s2 h2
        intro h
        obtain ⟨r1, r2⟩ := ih _ _ h
        refine ⟨r1, fun _ hall => ?_⟩
        by_cases hf2 : s2.improvement_flag = true
        · have hlen : s2.dlb.length = s.dlb.length := by
            unfold three_opt_sweep at h2
            have : ∀ (xs : List Nat) (t t1 : State), three_opt_points P n rv xs t = .ok t1 →
                t1.dlb.length = t.dlb.length := by
              intro xs
              induction xs with
              | nil =>
                intro t t1 ht
                simp only [three_opt_points, Except.ok.injEq] at ht
                rw [ht]
              | cons x xs ihx =>
                intro t t1 ht
                simp only [three_opt_points] at ht
                revert ht
                split
                · intro ht; cases ht
                · rename_i t2 ht2
                  intro ht
                  rw [ihx _ _ ht, three_opt_point_dlb_length ht2]
            exact this _ { s with move_value := 0, improvement_flag := false } _ h2
          obtain ⟨s0, e1, e2⟩ := r2 hf2 (fun l hl => by rw [hlen]; exact hall l hl)
          exact ⟨s0, by rw [e1, hlen], e2⟩
        · cases f with
          | zero => simp [three_opt_loop] at h
          | succ g =>
            rw [three_opt_loop_succ, if_neg hf2] at h
            cases h
            exact ⟨s, rfl, h2⟩
    · rw [if_neg hf] at h
      cases h
      refine ⟨?_, fun h => absurd h hf⟩
      cases hb : s.improvement_flag
      · rfl
      · exact absurd hb hf

theorem three_opt_first_dlb {P : TspProblem} {rv tour : List Nat}
    (hrv : rv.Perm (List.range (tour.length - 1))) {fuel : Nat} {s : State}
    (h : three_opt_first fuel tour P rv = .ok s) :
    ∀ c, c < tour.length - 1 → rdB s.dlb c = true := by
  obtain ⟨hr1, hr2⟩ := perm_range_covers hrv
  unfold three_opt_first at h
  simp only at h
  obtain ⟨hf, hs⟩ := three_opt_loop_last _ _ _ h
  obtain ⟨s0, e1, e2⟩ := hs rfl (fun l hl => by simpa [init_state] using hr1 l hl)
  have e3 : s0.dlb.length = tour.length - 1 := by rw [e1]; simp [init_state]
  intro c hc
  obtain ⟨l, hl, e⟩ := hr2 c hc
  unfold three_opt_sweep at e2
  rw [← e]
  exact (three_opt_points_unflagged (List.range (tour.length - 1)) _ _
    (fun x hx => by
      show rd rv x < s0.dlb.length
      rw [e3]; exact hr1 x (List.mem_range.1 hx)) e2 hf).2.1 l (List.mem_range.2 hl)

/-- Claim C38: exit state of the don't look bits.  For a scan order that is a
permutation of `0..n-1`, with `n = tour.length - 1`: whenever `two_opt_first`
or `three_opt_first` returns, `dlb[c]` is true for every point `c` in
`0..n-1`. -/
theorem dlb_all_set_on_return (P : TspProblem) (rv tour : List Nat)
    (hrv : rv.Perm (List.range (tour.length - 1))) :
    (∀ fuel s, two_opt_first fuel tour P rv = .ok s →
      ∀ c, c < tour.length - 1 → rdB s.dlb c = true) ∧
    (∀ fuel s, three_opt_first fuel tour P rv = .ok s →
      ∀ c, c < tour.length - 1 → rdB s.dlb c = true) :=
  ⟨fun _ _ h => two_opt_first_dlb hrv h, fun _ _ h => three_opt_first_dlb hrv h⟩

theorem dlb_all_set_on_return_witness :
    (two_opt_first 10 [0, 1, 2, 3, 4, 5, 6, 0] problem7 [3, 0, 6, 1, 5, 2, 4]).toOption.isSome
      = true ∧
    (three_opt_first 10 [0, 1, 2, 3, 4, 5, 6, 0] problem7 [3, 0, 6, 1, 5, 2, 4]).toOption.isSome
      = true ∧
    (∀ fuel s, two_opt_first fuel [0, 1, 2, 3, 4, 5, 6, 0] problem7 [3, 0, 6, 1, 5, 2, 4] = .ok s →
      ∀ c, c < [0, 1, 2, 3, 4, 5, 6, 0].length - 1 → rdB s.dlb c = true) ∧
    (∀ fuel s,
      three_opt_first fuel [0, 1, 2, 3, 4, 5, 6, 0] problem7 [3, 0, 6, 1, 5, 2, 4] = .ok s →
      ∀ c, c < [0, 1, 2, 3, 4, 5, 6, 0].length - 1 → rdB s.dlb c = true) :=
  ⟨by decide!, by decide!,
    dlb_all_set_on_return problem7 [3, 0, 6, 1, 5, 2, 4] [0, 1, 2, 3, 4, 5, 6, 0] (by decide)⟩

/-! ## Only the first `min(nn_ls, n - 1)` entries of a candidate list are read -/

section congr

variable {P Q : TspProblem} {n : Nat}

theorem dist_congr (hd : P.distance = Q.distance) (i j : Nat) : P.dist i j = Q.dist i j := by
  unfold TspProblem.dist
  rw [hd]

theorem search_succ_congr (hd : ∀ i j, P.dist i j = Q.dist i j) (a : Arrays) (c1 s_c1 : Nat)
    (radius : ℚ) :
    ∀ hs : List Nat, (∀ h ∈ hs, P.nn c1 h = Q.nn c1 h) →
      search_succ P a c1 s_c1 radius hs = search_succ Q a c1 s_c1 radius hs := by
  intro hs
  induction hs with
  | nil => intro _; rfl
  | cons h hs ih =>
    intro hall
    simp only [search_succ, hd, hall h (List.mem_cons_self _ _),
      ih (fun x hx => hall x (List.mem_cons_of_mem _ hx))]

theorem search_pred_congr (hd : ∀ i j, P.dist i j = Q.dist i j) (a : Arrays) (c1 p_c1 : Nat)
    (radius : ℚ) :
    ∀ hs : List Nat, (∀ h ∈ hs, P.nn c1 h = Q.nn c1 h) →
      search_pred P n a c1 p_c1 radius hs = search_pred Q n a c1 p_c1 radius hs := by
  intro hs
  induction hs with
  | nil => intro _; rfl
  | cons h hs ih =>
    intro hall
    simp only [search_pred, hd, hall h (List.mem_cons_self _ _),
      ih (fun x hx => hall x (List.mem_cons_of_mem _ hx))]

theorem find_move2_congr (hd : ∀ i j, P.dist i j = Q.dist i j)
    (hnn : ∀ c h, h ∈ candidates n → P.nn c h = Q.nn c h) (a : Arrays) (c1 : Nat) :
    find_move2 P n a c1 = find_move2 Q n a c1 := by
  unfold find_move2
  simp only [hd, search_succ_congr hd a c1 _ _ (candidates n) (fun h hh => hnn c1 h hh),
    @search_pred_congr P Q n hd a c1 _ _ (candidates n) (fun h hh => hnn c1 h hh)]

theorem two_opt_point_congr (hd : ∀ i j, P.dist i j = Q.dist i j)
    (hnn : ∀ c h, h ∈ candidates n → P.nn c h = Q.nn c h) (rv : List Nat) (s : State) (l : Nat) :
    two_opt_point P n rv s l = two_opt_point Q n rv s l := by
  unfold two_opt_point
  simp only [find_move2_congr hd hnn]

theorem two_opt_loop_congr (hd : ∀ i j, P.dist i j = Q.dist i j)
    (hnn : ∀ c h, h ∈ candidates n → P.nn c h = Q.nn c h) (rv : List Nat) :
    ∀ (fuel : Nat) (s : State), two_opt_loop P n rv fuel s = two_opt_loop Q n rv fuel s := by
  have hp : two_opt_point P n rv = two_opt_point Q n rv := by
    funext s l
    exact two_opt_point_congr hd hnn rv s l
  intro fuel
  induction fuel with
  | zero => intro s; rfl
  | succ f ih =>
    intro s
    simp only [two_opt_loop, two_opt_sweep, hp, ih]

theorem inner_search_congr (hd : ∀ i j, P.dist i j = Q.dist i j) (a : Arrays)
    (c1 s_c1 c2 s_c2 p_c2 pos_c1 pos_c2 : Nat) (radius add1 db : ℚ) (sc : Scan) :
    ∀ gs : List Nat, (∀ g ∈ gs, P.nn s_c1 g = Q.nn s_c1 g) →
      inner_search P n a c1 s_c1 c2 s_c2 p_c2 pos_c1 pos_c2 radius add1 db sc gs =
        inner_search Q n a c1 s_c1 c2 s_c2 p_c2 pos_c1 pos_c2 radius add1 db sc gs := by
  intro gs
  induction gs with
  | nil => intro _; rfl
  | cons g gs ih =>
    intro hall
    simp only [inner_search, hd, hall g (List.mem_cons_self _ _),
      ih (fun x hx => hall x (List.mem_cons_of_mem _ hx))]

theorem outer_search_congr (hd : ∀ i j, P.dist i j = Q.dist i j)
    (hnn : ∀ c h, h ∈ candidates n → P.nn c h = Q.nn c h) (a : Arrays) (c1 s_c1 pos_c1 : Nat) :
    ∀ (hs : List Nat) (sc : Scan), (∀ h ∈ hs, h ∈ candidates n) →
      outer_search P n a c1 s_c1 pos_c1 hs sc = outer_search Q n a c1 s_c1 pos_c1 hs sc := by
  intro hs
  induction hs with
  | nil => intro _ _; rfl
  | cons h hs ih =>
    intro sc hall
    simp only [outer_search, hd, hnn c1 h (hall h (List.mem_cons_self _ _)),
      fun sc1 => ih sc1 (fun x hx => hall x (List.mem_cons_of_mem _ hx)),
      fun c2 s_c2 p_c2 pos_c2 radius add1 db sc1 =>
        @inner_search_congr P Q n hd a c1 s_c1 c2 s_c2 p_c2 pos_c1 pos_c2 radius add1 db sc1
          (candidates n) (fun g hg => hnn s_c1 g hg)]

theorem three_opt_point_congr (hd : ∀ i j, P.dist i j = Q.dist i j)
    (hnn : ∀ c h, h ∈ candidates n → P.nn c h = Q.nn c h) (rv : List Nat) (s : State) (l : Nat) :
    three_opt_point P n rv s l = three_opt_point Q n rv s l := by
  unfold three_opt_point
  simp only [outer_search_congr hd hnn _ _ _ _ (candidates n) _ (fun _ h => h)]

theorem three_opt_loop_congr (hd : ∀ i j, P.dist i j = Q.dist i j)
    (hnn : ∀ c h, h ∈ candidates n → P.nn c h = Q.nn c h) (rv : List Nat) :
    ∀ (fuel : Nat) (s : State),
      three_opt_loop P n rv fuel s = three_opt_loop Q n rv fuel s := by
  have hp : ∀ (ls : List Nat) (s : State),
      three_opt_points P n rv ls s = three_opt_points Q n rv ls s := by
    intro ls
    induction ls with
    | nil => intro s; rfl
    | cons l ls ih =>
      intro s
      simp only [three_opt_points, three_opt_point_congr hd hnn, ih]
  intro fuel
  induction fuel with
  | zero => intro s; rfl
  | succ f ih =>
    intro s
    simp only [three_opt_loop, three_opt_sweep, hp, ih]

end congr

theorem problem7x_agrees :
    ∀ c h, h < min nn_ls ([0, 1, 2, 3, 4, 5, 6, 0].length - 1 - 1) →
      problem7.nn c h = problem7x.nn c h := by
  intro c h hh
  have hh6 : h < 6 := by
    have : min nn_ls ([0, 1, 2, 3, 4, 5, 6, 0].length - 1 - 1) = 6 := by decide
    omega
  by_cases hc : c < 7
  · interval_cases c <;> interval_cases h <;> decide!
  · have e1 : problem7.nn_list.length = 7 := by decide!
    have e2 : problem7x.nn_list.length = 7 := by decide!
    unfold TspProblem.nn
    rw [List.getD_eq_getElem?_getD, List.getD_eq_getElem?_getD,
      List.getElem?_eq_none (by omega), List.getElem?_eq_none (by omega)]

/-- Claim C33: only the first `min(nn_ls, n - 1)` candidates matter.  Two
problems with the same distance matrix whose candidate lists agree on the
entries `h < min(20, n - 1)` of every row give, for the same tour, scan
order and fuel, the same result of `two_opt_first` and of `three_opt_first`
(the same final state, hence the same final tour, or the same failure). -/
theorem first_candidates_only (P Q : TspProblem) (tour rv : List Nat)
    (hd : P.distance = Q.distance)
    (hnn : ∀ c h, h < min nn_ls (tour.length - 1 - 1) → P.nn c h = Q.nn c h) :
    (∀ fuel, two_opt_first fuel tour P rv = two_opt_first fuel tour Q rv) ∧
    (∀ fuel, three_opt_first fuel tour P rv = three_opt_first fuel tour Q rv) := by
  have hd2 := dist_congr hd
  have hnn2 : ∀ c h, h ∈ candidates (tour.length - 1) → P.nn c h = Q.nn c h := by
    intro c h hh
    unfold candidates at hh
    exact hnn c h (List.mem_range.1 hh)
  exact ⟨fun fuel => two_opt_loop_congr hd2 hnn2 rv fuel _,
    fun fuel => three_opt_loop_congr hd2 hnn2 rv fuel _⟩

theorem first_candidates_only_witness :
    problem7.nn_list ≠ problem7x.nn_list ∧
    (∀ fuel, two_opt_first fuel [0, 1, 2, 3, 4, 5, 6, 0] problem7 (List.range 7) =
      two_opt_first fuel [0, 1, 2, 3, 4, 5, 6, 0] problem7x (List.range 7)) ∧
    (∀ fuel, three_opt_first fuel [0, 1, 2, 3, 4, 5, 6, 0] problem7 (List.range 7) =
      three_opt_first fuel [0, 1, 2, 3, 4, 5, 6, 0] problem7x (List.range 7)) :=
  ⟨by decide!, first_candidates_only problem7 problem7x [0, 1, 2, 3, 4, 5, 6, 0] (List.range 7)
    rfl problem7x_agrees⟩

/-! ## The 2-opt fallback of `three_opt_first` and the searches of `two_opt_first` -/

theorem memo2_accepts (P : TspProblem) (n : Nat) (a : Arrays) (c1 s_c1 c2 : Nat) (sc : Scan)
    (h : - P.dist c1 s_c1 - P.dist c2 (rd a.tour (rd a.pos c2 + 1)) + P.dist c1 c2
      + P.dist s_c1 (rd a.tour (rd a.pos c2 + 1)) < sc.move_value - EPS) :
    (memo2 P n a c1 s_c1 c2 sc).opt2_flag = true := by
  unfold memo2
  simp only
  rw [if_pos (Or.inl h)]
  split_ifs <;> rfl

theorem outer_search_keeps_move {P : TspProblem} {n : Nat} {a : Arrays}
    {c1 s_c1 pos_c1 : Nat} {sc1 : Scan} :
    ∀ (hs : List Nat) (sc : Scan), (sc.move_flag ≠ 0 ∨ sc.opt2_flag = true) →
      outer_search P n a c1 s_c1 pos_c1 hs sc = .ok sc1 →
      sc1.move_flag ≠ 0 ∨ sc1.opt2_flag = true := by
  intro hs
  induction hs with
  | nil =>
    intro sc hg h
    simp only [outer_search, Except.ok.injEq] at h
    rw [← h]; exact hg
  | cons h hs ih =>
    intro sc hg hr
    rw [outer_search_cons] at hr
    split_ifs at hr
    · revert hr
      split
      · rename_i scj hj
        intro hr
        simp only [Except.ok.injEq] at hr
        subst hr
        exact Or.inl (inner_search_jump_flag _ _ hj).1
      · intro hr; cases hr
      · intro hr
        refine ih _ ?_ hr
        rcases memo2_cases P n a c1 s_c1 (P.nn c1 h) sc with m | m
        · rw [m]; exact hg
        · exact Or.inr m.1
    · simp only [Except.ok.injEq] at hr
      rw [← hr]; exact hg

/-- When the successor search of `two_opt_first` finds a move for `c1`, a scan
of `three_opt_first` for `c1` that is entered with no move memorised and
`move_value = 0` ends with a memorised move. -/
theorem outer_search_covers_succ {P : TspProblem} {n : Nat} {a : Arrays}
    {c1 s_c1 pos_c1 : Nat} {sc1 : Scan} {m : Move2} :
    ∀ (hs : List Nat) (sc : Scan),
      ((sc.move_flag ≠ 0 ∨ sc.opt2_flag = true) ∨ sc.move_value = 0) →
      search_succ P a c1 s_c1 (P.dist c1 s_c1) hs = some m →
      outer_search P n a c1 s_c1 pos_c1 hs sc = .ok sc1 →
      sc1.move_flag ≠ 0 ∨ sc1.opt2_flag = true := by
  intro hs
  induction hs with
  | nil => intro sc _ h; simp [search_succ] at h
  | cons h hs ih =>
    intro sc hj hfind hr
    simp only [search_succ] at hfind
    split_ifs at hfind with k1 k2
    · -- the candidate `h` is the improving one
      rw [outer_search_cons, if_pos k1] at hr
      have hM : (memo2 P n a c1 s_c1 (P.nn c1 h) sc).move_flag ≠ 0 ∨
          (memo2 P n a c1 s_c1 (P.nn c1 h) sc).opt2_flag = true := by
        rcases hj with hg | h0
        · rcases memo2_cases P n a c1 s_c1 (P.nn c1 h) sc with q | q
          · rw [q]; exact hg
          · exact Or.inr q.1
        · exact Or.inr (memo2_accepts P n a c1 s_c1 _ sc (by rw [h0]; linarith))
      revert hr
      split
      · rename_i scj hjump
        intro hr
        simp only [Except.ok.injEq] at hr
        subst hr
        exact Or.inl (inner_search_jump_flag _ _ hjump).1
      · intro hr; cases hr
      · intro hr
        exact outer_search_keeps_move hs _ hM hr
    · rw [outer_search_cons, if_pos k1] at hr
      have hM : ((memo2 P n a c1 s_c1 (P.nn c1 h) sc).move_flag ≠ 0 ∨
          (memo2 P n a c1 s_c1 (P.nn c1 h) sc).opt2_flag = true) ∨
          (memo2 P n a c1 s_c1 (P.nn c1 h) sc).move_value = 0 := by
        rcases memo2_cases P n a c1 s_c1 (P.nn c1 h) sc with q | q
        · rw [q]; exact hj
        · exact Or.inl (Or.inr q.1)
      revert hr
      split
      · rename_i scj hjump
        intro hr
        simp only [Except.ok.injEq] at hr
        subst hr
        exact Or.inl (inner_search_jump_flag _ _ hjump).1
      · intro hr; cases hr
      · intro hr
        exact ih _ hM hfind hr

theorem search_succ_bufs (P : TspProblem) {a b : Arrays} (ht : a.tour = b.tour)
    (hp : a.pos = b.pos) (c1 s_c1 : Nat) (radius : ℚ) :
    ∀ hs : List Nat, search_succ P a c1 s_c1 radius hs = search_succ P b c1 s_c1 radius hs := by
  intro hs
  induction hs with
  | nil => rfl
  | cons h hs ih => simp only [search_succ, ht, hp, ih]

/-- The first pass of `three_opt_first` over arrays `A`: as long as no move was
accepted the arrays are `A` and no point with a set bit is one for which the
successor search of `two_opt_first` finds a move; so a pass that meets such a
point accepts a move. -/
theorem three_opt_points_hit {P : TspProblem} {n : Nat} {rv : List Nat} (hP : WFP n P)
    (hrv : ∀ l, l < n → rd rv l < n) {A : Arrays} :
    ∀ (ls : List Nat) (s s1 : State), (∀ l ∈ ls, l < n) → Valid3 n s.arr →
      s.move_value = 0 → s.arr = A →
      (∀ c, rdB s.dlb c = true → ∀ m, search_succ P A c (rd A.tour (rd A.pos c + 1))
        (P.dist c (rd A.tour (rd A.pos c + 1))) (candidates n) ≠ some m) →
      (∃ l ∈ ls, ∃ m, search_succ P A (rd rv l) (rd A.tour (rd A.pos (rd rv l) + 1))
        (P.dist (rd rv l) (rd A.tour (rd A.pos (rd rv l) + 1))) (candidates n) = some m) →
      three_opt_points P n rv ls s = .ok s1 → s.n_exchanges < s1.n_exchanges := by
  intro ls
  induction ls with
  | nil => intro s s1 _ _ _ _ _ hex _; obtain ⟨l, hl, _⟩ := hex; cases hl
  | cons l ls ih =>
    intro s s1 hall hv hmv hA hinv hex h
    have hl := hall l (List.mem_cons_self _ _)
    have hall2 : ∀ x ∈ ls, x < n := fun x hx => hall x (List.mem_cons_of_mem _ hx)
    simp only [three_opt_points] at h
    revert h
    split
    · intro h; cases h
    rename_i s2 h2
    intro h
    by_cases hd : rdB s.dlb (rd rv l) = true
    · have e : s2 = s := by
        simp only [three_opt_point, hd, if_true, Except.ok.injEq] at h2
        exact h2.symm
      subst e
      refine ih _ _ hall2 hv hmv hA hinv ?_ h
      obtain ⟨x, hx, m, hm⟩ := hex
      rcases List.mem_cons.1 hx with e | e
      · rw [e] at hm
        exact absurd hm (hinv _ hd m)
      · exact ⟨x, e, m, hm⟩
    · have hd2 : rdB s.dlb (rd rv l) = false := by
        cases hb : rdB s.dlb (rd rv l)
        · rfl
        · exact absurd hb hd
      obtain ⟨sc, hs1, hs2⟩ := outer_search_spec hv.1 hP (hrv l hl) rfl rfl (candidates n)
        (fun h hh => (mem_candidates hh).1) (scan0 s) ⟨le_of_eq hmv, Or.inl ⟨rfl, rfl⟩⟩
      by_cases hm : sc.move_flag ≠ 0 ∨ sc.opt2_flag = true
      · have hok := outer_search_move_ok hv.1 hP (le_of_eq hmv) (hrv l hl) hs1 hm
        obtain ⟨s3, x1, x2, x3, _, x5, _⟩ := @exchange_spec P n s sc hv hok
        have e : s2 = s3 := by
          have := (three_opt_point_exchange hd2 hs1 hm).trans x1
          rw [h2] at this
          exact Except.ok.inj this
        subst e
        obtain ⟨s4, y1, _, _, y4, _⟩ := three_opt_points_spec hP hrv ls s2 hall2 x2 x3
        rw [h] at y1
        cases y1
        omega
      · have e : s2 = { s with dlb := wrB s.dlb (rd rv l) true } := by
          have hs1b := hs1
          unfold scan0 at hs1b
          simp only [three_opt_point, hd2, hs1b] at h2
          simp only [hm, if_false, Bool.false_eq_true, Except.ok.injEq] at h2
          exact h2.symm
        subst e
        have hnot : ∀ m, search_succ P A (rd rv l) (rd A.tour (rd A.pos (rd rv l) + 1))
            (P.dist (rd rv l) (rd A.tour (rd A.pos (rd rv l) + 1))) (candidates n) ≠ some m := by
          intro m hfind
          rw [← hA] at hfind
          exact hm (outer_search_covers_succ (candidates n) (scan0 s) (Or.inr hmv) hfind hs1)
        refine ih { s with dlb := wrB s.dlb (rd rv l) true } s1 hall2 hv hmv hA
          (fun c hc => ?_) ?_ h
        · rcases rdB_wrB_true hc with e | e
          · rw [e]; exact hnot
          · exact hinv c e
        · obtain ⟨x, hx, m, hfind⟩ := hex
          rcases List.mem_cons.1 hx with e | e
          · rw [e] at hfind
            exact absurd hfind (hnot m)
          · exact ⟨x, e, m, hfind⟩

theorem three_opt_first_exchanges {P : TspProblem} {n : Nat} {rv tour : List Nat} (hP : WFP n P)
    (hsym : ∀ i j, P.dist i j = P.dist j i) (hrv : ∀ l, l < n → rd rv l < n)
    (ht : ValidTour n tour)
    (hex : ∃ l, l < n ∧ ∃ m, search_succ P (init_state n tour n).arr (rd rv l)
      (rd tour (rd (init_state n tour n).arr.pos (rd rv l) + 1))
      (P.dist (rd rv l) (rd tour (rd (init_state n tour n).arr.pos (rd rv l) + 1)))
      (candidates n) = some m)
    {fuel : Nat} {s : State} (h : three_opt_first fuel tour P rv = .ok s) :
    1 ≤ s.n_exchanges := by
  unfold three_opt_first at h
  simp only [ht.1, Nat.add_sub_cancel] at h
  cases fuel with
  | zero => unfold three_opt_loop at h; cases h
  | succ k =>
    rw [three_opt_loop_succ] at h
    have hf : (init_state n tour n).improvement_flag = true := rfl
    rw [if_pos hf] at h
    have hv := init_state_valid3 ht
    obtain ⟨s1, q1, q2, _⟩ := three_opt_sweep_spec hP hrv hv
    rw [q1] at h
    simp only at h
    obtain ⟨l, hl, m, hm⟩ := hex
    have h1 : (init_state n tour n).n_exchanges < s1.n_exchanges := by
      unfold three_opt_sweep at q1
      refine three_opt_points_hit hP hrv (List.range n)
        { init_state n tour n with move_value := 0, improvement_flag := false } s1
        (fun x hx => List.mem_range.1 hx) hv rfl rfl (fun c hc => ?_) ⟨l, List.mem_range.2 hl, m, hm⟩ q1
      have : rdB (List.replicate n false) c = true := hc
      rw [rdB_replicate_false] at this
      cases this
    have h2 := ((three_opt_loop_spec hP hrv k s1 s q2 h).2 hsym).1
    omega

/-- In exact arithmetic the 2-opt fallback of `three_opt_first` covers the
successor search of `two_opt_first`.  For symmetric distances, a tour of the
cities `0..n-1` with `tour[n] == tour[0]`, candidate lists that hold other
cities and a scan order within `0..n-1`: if for some scanned point the
successor search of `two_opt_first` finds a move on the entry tour, then both
engines return (with enough fuel for the outer loop of the model), and every
run of `two_opt_first` and every run of `three_opt_first` that returns has
accepted at least one move. -/
theorem successor_search_covered (P : TspProblem) (n : Nat) (rv tour : List Nat)
    (hP : WFP n P) (hsym : ∀ i j, P.dist i j = P.dist j i) (hrv : ∀ l, l < n → rd rv l < n)
    (hlen : tour.length = n + 1) (hperm : tour.dropLast.Perm (List.range n))
    (hsent : rd tour n = rd tour 0)
    (hhit : ∃ l, l < n ∧ ∃ m, search_succ P (init_state n tour 0).arr (rd rv l)
      (rd tour (rd (init_state n tour 0).arr.pos (rd rv l) + 1))
      (P.dist (rd rv l) (rd tour (rd (init_state n tour 0).arr.pos (rd rv l) + 1)))
      (candidates n) = some m) :
    (∃ fuel s2 s3, (∀ k, two_opt_first (fuel + k) tour P rv = .ok s2) ∧
      ∀ k, three_opt_first (fuel + k) tour P rv = .ok s3) ∧
    (∀ fuel s, two_opt_first fuel tour P rv = .ok s → 1 ≤ s.n_exchanges) ∧
    (∀ fuel s, three_opt_first fuel tour P rv = .ok s → 1 ≤ s.n_exchanges) := by
  have ht := validTour_of_perm hlen hperm hsent
  obtain ⟨l, hl, m, hm⟩ := hhit
  refine ⟨?_, fun fuel s h => ?_, fun fuel s h => ?_⟩
  · obtain ⟨s2, h2⟩ := two_opt_first_terminates hP hsym hrv ht
      (fun a hv => cycCost_lower P hv)
    obtain ⟨s3, h3⟩ := three_opt_first_terminates hP hsym hrv ht
      (fun a hv => cycCost_lower P hv)
    exact ⟨_, s2, s3, h2, h3⟩
  · refine two_opt_first_exchanges hP hsym hrv ht ⟨l, hl, ?_⟩ h
    unfold find_move2
    simp only
    have hm2 : search_succ P (init_state n tour 0).arr (rd rv l)
        (rd (init_state n tour 0).arr.tour (rd (init_state n tour 0).arr.pos (rd rv l) + 1))
        (P.dist (rd rv l)
          (rd (init_state n tour 0).arr.tour (rd (init_state n tour 0).arr.pos (rd rv l) + 1)))
        (candidates n) = some m := hm
    rw [hm2]
    simp
  · refine three_opt_first_exchanges hP hsym hrv ht ⟨l, hl, m, ?_⟩ h
    rw [← hm]
    exact @search_succ_bufs P (init_state n tour n).arr (init_state n tour 0).arr rfl rfl
      _ _ _ _

theorem successor_search_covered_witness :
    (∃ fuel s2 s3, (∀ k, two_opt_first (fuel + k) [0, 1, 2, 3, 4, 5, 6, 0] problem7
        (List.range 7) = .ok s2) ∧
      ∀ k, three_opt_first (fuel + k) [0, 1, 2, 3, 4, 5, 6, 0] problem7 (List.range 7) = .ok s3) ∧
    (∀ fuel s, two_opt_first fuel [0, 1, 2, 3, 4, 5, 6, 0] problem7 (List.range 7) = .ok s →
      1 ≤ s.n_exchanges) ∧
    (∀ fuel s, three_opt_first fuel [0, 1, 2, 3, 4, 5, 6, 0] problem7 (List.range 7) = .ok s →
      1 ≤ s.n_exchanges) :=
  successor_search_covered problem7 7 (List.range 7) [0, 1, 2, 3, 4, 5, 6, 0]
    (ofTour_wfp (problemOf_ok (tableOracle table7) ⟨[0, 1, 2, 3, 4, 5, 6, 0]⟩ (by decide)))
    (ofTour_sym (problemOf_ok (tableOracle table7) ⟨[0, 1, 2, 3, 4, 5, 6, 0]⟩ (by decide))
      (tableOracle_symm table7))
    (by decide) (by decide) (by decide) (by decide)
    ⟨0, by decide, ⟨0, 1, 4, 5, -2⟩, by decide!⟩

/-- Counterexample to claim C31 as stated: the tour `0 1 2 3 4 5 0` with the
symmetric distances `table6c` and the scan order `0, 1, .., 5`.  For the point
`c1 = 1` the successor search of `two_opt_first` finds nothing and its
predecessor search (radius `distance[0][1] = 10`, candidate `c2 = 4`) finds
the move `h1..h4 = 0 1 3 4` with gain `-4`; `two_opt_first` accepts it and
returns the tour `0 3 2 1 4 5 0`.  `three_opt_first`, whose 2-opt fallback is
evaluated only for candidates within the radius `distance[c1][s_c1]`, accepts
no move and returns the tour unchanged. -/
theorem predecessor_move_not_covered :
    (∀ i, i < 6 → ∀ j, j < 6 → (problemOf (tableOracle table6c) ⟨[0, 1, 2, 3, 4, 5, 0]⟩).dist i j = (problemOf (tableOracle table6c) ⟨[0, 1, 2, 3, 4, 5, 0]⟩).dist j i) ∧
    ([0, 1, 2, 3, 4, 5, 0] : List Nat).dropLast.Perm (List.range 6) ∧
    (List.range 6).Perm (List.range 6) ∧
    search_succ (problemOf (tableOracle table6c) ⟨[0, 1, 2, 3, 4, 5, 0]⟩) (init_state 6 [0, 1, 2, 3, 4, 5, 0] 0).arr 1 2 ((problemOf (tableOracle table6c) ⟨[0, 1, 2, 3, 4, 5, 0]⟩).dist 1 2) (candidates 6) = none ∧
    find_move2 (problemOf (tableOracle table6c) ⟨[0, 1, 2, 3, 4, 5, 0]⟩) 6 (init_state 6 [0, 1, 2, 3, 4, 5, 0] 0).arr 1 = some ⟨0, 1, 3, 4, -4⟩ ∧
    (two_opt_first 10 [0, 1, 2, 3, 4, 5, 0] (problemOf (tableOracle table6c) ⟨[0, 1, 2, 3, 4, 5, 0]⟩) (List.range 6)).map (fun s => (s.arr.tour, s.n_exchanges)) =
      .ok ([0, 3, 2, 1, 4, 5, 0], 1) ∧
    (three_opt_first 10 [0, 1, 2, 3, 4, 5, 0] (problemOf (tableOracle table6c) ⟨[0, 1, 2, 3, 4, 5, 0]⟩) (List.range 6)).map (fun s => (s.arr.tour, s.n_exchanges)) =
      .ok ([0, 1, 2, 3, 4, 5, 0], 0) := by
  refine ⟨by decide!, by decide, by decide, by decide!, by decide!, by decide!, by decide!⟩

/-! ## Index safety: the bounds invariant -/

theorem rd_wr_lt {n : Nat} {v : List Nat} (hv : ∀ i, rd v i < n) (i : Nat) {x : Nat}
    (hx : x < n) : ∀ k, rd (wr v i x) k < n := by
  intro k
  rw [rd_wr]
  split_ifs
  · exact hx
  · exact hv k

theorem Bnd.size_pos {n : Nat} {a : Arrays} (h : Bnd n a) : 0 < n :=
  Nat.lt_of_le_of_lt (Nat.zero_le _) (h.tour_lt 0)

theorem incw_lt_of_pos {n : Nat} (hn : 0 < n) (j : Nat) : incw n j < n := by
  unfold incw; split_ifs <;> omega

theorem decw_lt_of_lt {n j : Nat} (hj : j < n) : decw n j < n := by
  unfold decw; split_ifs <;> omega

theorem predAt_lt {n : Nat} {tour : List Nat} (ht : ∀ i, rd tour i < n) (p : Nat) :
    predAt n tour p < n := by
  unfold predAt; split_ifs <;> exact ht _

theorem predAt_ok_of {n : Nat} {tour : List Nat} (hl : tour.length = n + 1) (hn : 0 < n)
    {p : Nat} (hp : p < n) : predAt_ok n tour p := by
  unfold predAt_ok; split_ifs <;> omega

theorem swapCities_bnd {n : Nat} {a : Arrays} (h : Bnd n a) (i j : Nat) (hi : i < n)
    (hj : j < n) : Bnd n (swapCities a i j) := by
  refine ⟨by simp [swapCities, h.tour_len], by simp [swapCities, h.pos_len], ?_, ?_⟩
  · exact rd_wr_lt (rd_wr_lt h.tour_lt _ (h.tour_lt _)) _ (h.tour_lt _)
  · exact rd_wr_lt (rd_wr_lt h.pos_lt _ hj) _ hi

theorem swapCities_ok_of {n : Nat} {a : Arrays} (h : Bnd n a) {i j : Nat} (hi : i < n)
    (hj : j < n) : swapCities_ok a i j := by
  refine ⟨by rw [h.tour_len]; omega, by rw [h.tour_len]; omega, ?_, ?_⟩
  · rw [h.pos_len]; exact h.tour_lt _
  · rw [h.pos_len]; exact h.tour_lt _

theorem reverse_inner_chk_eq {n : Nat} : ∀ (fuel : Nat) (a : Arrays) (i j : Nat),
    Bnd n a → j < n →
    reverse_inner_chk fuel a i j = some (reverse_inner fuel a i j) ∧
      Bnd n (reverse_inner fuel a i j) := by
  intro fuel
  induction fuel with
  | zero => intro a i j h _; exact ⟨rfl, h⟩
  | succ f ih =>
    intro a i j h hj
    simp only [reverse_inner_chk, reverse_inner]
    by_cases hij : i < j
    · rw [if_pos hij, if_pos hij, if_pos (swapCities_ok_of h (by omega) hj)]
      exact ih _ _ _ (swapCities_bnd h i j (by omega) hj) (by omega)
    · rw [if_neg hij, if_neg hij]
      exact ⟨rfl, h⟩

theorem reverse_outer_chk_eq {n : Nat} : ∀ (help : Nat) (a : Arrays) (i j : Nat),
    Bnd n a → i < n → j < n →
    reverse_outer_chk n help a i j = some (reverse_outer n help a i j) ∧
      Bnd n (reverse_outer n help a i j) := by
  intro help
  induction help with
  | zero => intro a i j h _ _; exact ⟨rfl, h⟩
  | succ f ih =>
    intro a i j h hi hj
    simp only [reverse_outer_chk, reverse_outer]
    rw [if_pos (swapCities_ok_of h hi hj)]
    exact ih _ _ _ (swapCities_bnd h i j hi hj) (decw_lt_of_lt hi) (incw_lt_of_pos h.size_pos _)

theorem refresh_bnd {n : Nat} {a : Arrays} (h : Bnd n a) : Bnd n (refresh n a) :=
  ⟨by simp [refresh, h.tour_len], h.pos_len, rd_wr_lt h.tour_lt _ (h.tour_lt _), h.pos_lt⟩

theorem refresh_chk_eq {n : Nat} {a : Arrays} (h : Bnd n a) :
    refresh_chk n a = some (refresh n a) := by
  unfold refresh_chk
  rw [if_pos]
  rw [h.tour_len]; omega

theorem reverse_part_chk_eq {n : Nat} {a : Arrays} (h : Bnd n a) {h1 h2 h3 h4 : Nat}
    (k1 : h1 < n) (k2 : h2 < n) (k3 : h3 < n) (k4 : h4 < n) :
    reverse_part_chk n a h1 h2 h3 h4 = some (reverse_part n a h1 h2 h3 h4) ∧
      Bnd n (reverse_part n a h1 h2 h3 h4) := by
  have g1 : h3 < a.pos.length ∧ h2 < a.pos.length := by rw [h.pos_len]; exact ⟨k3, k2⟩
  have g2 : h1 < a.pos.length ∧ h4 < a.pos.length := by rw [h.pos_len]; exact ⟨k1, k4⟩
  unfold reverse_part_chk reverse_part
  rw [if_pos g1, if_pos g2]
  split_ifs with c
  · exact reverse_inner_chk_eq n a _ _ h (h.pos_lt _)
  · dsimp only
    obtain ⟨e, hb⟩ := @reverse_outer_chk_eq n
      ((if rd a.pos h4 > rd a.pos h1 then n - (rd a.pos h4 - rd a.pos h1) + 1
        else rd a.pos h1 - rd a.pos h4 + 1) / 2) a (rd a.pos h1) (rd a.pos h4) h
      (h.pos_lt _) (h.pos_lt _)
    simp only [e, Option.some_bind]
    rw [if_pos (by rw [hb.tour_len]; omega)]
    exact ⟨rfl, refresh_bnd hb⟩

theorem exchange2opt_chk_eq {n : Nat} {a : Arrays} (h : Bnd n a) {h1 h2 h3 h4 : Nat}
    (k1 : h1 < n) (k2 : h2 < n) (k3 : h3 < n) (k4 : h4 < n) :
    exchange2opt_chk n a h1 h2 h3 h4 = some (exchange2opt n a h1 h2 h3 h4) ∧
      Bnd n (exchange2opt n a h1 h2 h3 h4) := by
  unfold exchange2opt_chk exchange2opt
  rw [if_pos (by rw [h.pos_len]; exact ⟨k3, k1⟩)]
  split_ifs
  · exact reverse_part_chk_eq h k3 k4 k1 k2
  · exact reverse_part_chk_eq h k1 k2 k3 k4

theorem reverse_inner_bufs : ∀ (fuel : Nat) (a : Arrays) (i j : Nat),
    (reverse_inner fuel a i j).h_tour = a.h_tour ∧
      (reverse_inner fuel a i j).hh_tour = a.hh_tour := by
  intro fuel
  induction fuel with
  | zero => intro a i j; exact ⟨rfl, rfl⟩
  | succ f ih =>
    intro a i j
    simp only [reverse_inner]
    split_ifs
    · exact ih _ _ _
    · exact ⟨rfl, rfl⟩

theorem reverse_outer_bufs (n : Nat) : ∀ (help : Nat) (a : Arrays) (i j : Nat),
    (reverse_outer n help a i j).h_tour = a.h_tour ∧
      (reverse_outer n help a i j).hh_tour = a.hh_tour := by
  intro help
  induction help with
  | zero => intro a i j; exact ⟨rfl, rfl⟩
  | succ f ih =>
    intro a i j
    simp only [reverse_outer]
    exact ih _ _ _

theorem exchange2opt_bufs (n : Nat) (a : Arrays) (h1 h2 h3 h4 : Nat) :
    (exchange2opt n a h1 h2 h3 h4).h_tour = a.h_tour ∧
      (exchange2opt n a h1 h2 h3 h4).hh_tour = a.hh_tour := by
  unfold exchange2opt reverse_part
  split_ifs
  · exact reverse_inner_bufs _ _ _ _
  · exact reverse_outer_bufs _ _ _ _ _
  · exact reverse_inner_bufs _ _ _ _
  · exact reverse_outer_bufs _ _ _ _ _

/-! ## Index safety of `two_opt_first` -/

theorem search_succ_chk_eq {P : TspProblem} {n : Nat} {a : Arrays} (hP : PBnd n P)
    (h : Bnd n a) {c1 s_c1 : Nat} (k1 : c1 < n) (k2 : s_c1 < n) (radius : ℚ) :
    ∀ hs : List Nat, (∀ x ∈ hs, x < n - 1) →
      search_succ_chk P a c1 s_c1 radius hs = some (search_succ P a c1 s_c1 radius hs) ∧
      ∀ m, search_succ P a c1 s_c1 radius hs = some m → m.Lt n := by
  intro hs
  induction hs with
  | nil => intro _; exact ⟨rfl, fun m hm => by simp [search_succ] at hm⟩
  | cons x hs ih =>
    intro hall
    obtain ⟨i1, i2⟩ := ih (fun y hy => hall y (List.mem_cons_of_mem _ hy))
    have g1 := hP.nn_ok c1 x k1 (hall x (List.mem_cons_self _ _))
    have c2 : P.nn c1 x < n := hP.nn_lt _ _
    have g2 := hP.dist_ok _ _ k1 c2
    have g3 : P.nn c1 x < a.pos.length ∧ rd a.pos (P.nn c1 x) + 1 < a.tour.length := by
      rw [h.pos_len, h.tour_len]
      exact ⟨c2, Nat.succ_lt_succ (h.pos_lt _)⟩
    have g4 := hP.dist_ok _ _ k2 (h.tour_lt (rd a.pos (P.nn c1 x) + 1))
    have g5 := hP.dist_ok _ _ c2 (h.tour_lt (rd a.pos (P.nn c1 x) + 1))
    simp only [search_succ_chk, search_succ, g1, g2, g3, g4, g5, and_self, if_true, i1]
    refine ⟨by split_ifs <;> rfl, fun m hm => ?_⟩
    split_ifs at hm with r1 r2
    · simp only [Option.some.injEq] at hm
      subst hm
      exact ⟨k1, k2, c2, h.tour_lt _⟩
    · exact i2 m hm

theorem search_pred_chk_eq {P : TspProblem} {n : Nat} {a : Arrays} (hP : PBnd n P)
    (h : Bnd n a) {c1 p_c1 : Nat} (k1 : c1 < n) (k2 : p_c1 < n) (radius : ℚ) :
    ∀ hs : List Nat, (∀ x ∈ hs, x < n - 1) →
      search_pred_chk P n a c1 p_c1 radius hs = some (search_pred P n a c1 p_c1 radius hs) ∧
      ∀ m, search_pred P n a c1 p_c1 radius hs = some m → m.Lt n := by
  intro hs
  induction hs with
  | nil => intro _; exact ⟨rfl, fun m hm => by simp [search_pred] at hm⟩
  | cons x hs ih =>
    intro hall
    obtain ⟨i1, i2⟩ := ih (fun y hy => hall y (List.mem_cons_of_mem _ hy))
    have g1 := hP.nn_ok c1 x k1 (hall x (List.mem_cons_self _ _))
    have c2 : P.nn c1 x < n := hP.nn_lt _ _
    have g2 := hP.dist_ok _ _ k1 c2
    have g3 : P.nn c1 x < a.pos.length := by rw [h.pos_len]; exact c2
    have g3b := @predAt_ok_of n a.tour h.tour_len h.size_pos _ (h.pos_lt (P.nn c1 x))
    have pl := @predAt_lt n a.tour h.tour_lt (rd a.pos (P.nn c1 x))
    have g4 := hP.dist_ok _ _ k2 pl
    have g5 := hP.dist_ok _ _ pl c2
    simp only [search_pred_chk, search_pred, g1, g2, g3, g3b, g4, g5, and_self, if_true, i1]
    refine ⟨by split_ifs <;> rfl, fun m hm => ?_⟩
    split_ifs at hm with r1 r2 r3 r4
    · exact i2 m hm
    · exact i2 m hm
    · simp only [Option.some.injEq] at hm
      subst hm
      exact ⟨k2, k1, pl, c2⟩
    · exact i2 m hm

theorem mem_candidates_lt {n h : Nat} (hh : h ∈ candidates n) : h < n - 1 :=
  (mem_candidates hh).1

theorem find_move2_chk_eq {P : TspProblem} {n : Nat} {a : Arrays} (hP : PBnd n P)
    (h : Bnd n a) {c1 : Nat} (k1 : c1 < n) :
    find_move2_chk P n a c1 = some (find_move2 P n a c1) ∧
      ∀ m, find_move2 P n a c1 = some m → m.Lt n := by
  have g1 : c1 < a.pos.length ∧ rd a.pos c1 + 1 < a.tour.length := by
    rw [h.pos_len, h.tour_len]
    exact ⟨k1, Nat.succ_lt_succ (h.pos_lt _)⟩
  have s1 : rd a.tour (rd a.pos c1 + 1) < n := h.tour_lt _
  have g2 := hP.dist_ok _ _ k1 s1
  have g3 := @predAt_ok_of n a.tour h.tour_len h.size_pos _ (h.pos_lt c1)
  have pl := @predAt_lt n a.tour h.tour_lt (rd a.pos c1)
  have g4 := hP.dist_ok _ _ pl k1
  obtain ⟨e1, b1⟩ := search_succ_chk_eq hP h k1 s1 (P.dist c1 (rd a.tour (rd a.pos c1 + 1)))
    (candidates n) (fun _ => mem_candidates_lt)
  obtain ⟨e2, b2⟩ := search_pred_chk_eq hP h k1 pl (P.dist (predAt n a.tour (rd a.pos c1)) c1)
    (candidates n) (fun _ => mem_candidates_lt)
  simp only [find_move2_chk, find_move2, g1, g2, g3, g4, and_self, if_true, e1,
    Option.some_bind]
  cases hs : search_succ P a c1 (rd a.tour (rd a.pos c1 + 1))
      (P.dist c1 (rd a.tour (rd a.pos c1 + 1))) (candidates n) with
  | none => exact ⟨e2, b2⟩
  | some m0 =>
    refine ⟨rfl, fun m hm => ?_⟩
    simp only [Option.some.injEq] at hm
    subst hm
    exact b1 _ hs

theorem two_opt_point_chk_eq {P : TspProblem} {n : Nat} {rv : List Nat} (hP : PBnd n P)
    (hrl : rv.length = n) (hrv : ∀ l, rd rv l < n) {s : State} (hs : SB n s) {l : Nat}
    (hl : l < n) :
    two_opt_point_chk P n rv s l = some (two_opt_point P n rv s l) ∧
      SB n (two_opt_point P n rv s l) := by
  obtain ⟨hb, hd⟩ := hs
  have g1 : l < rv.length ∧ rd rv l < s.dlb.length := by
    rw [hrl, hd]; exact ⟨hl, hrv l⟩
  obtain ⟨e1, b1⟩ := find_move2_chk_eq hP hb (hrv l)
  simp only [two_opt_point_chk, two_opt_point, g1, and_self, if_true, e1, Option.some_bind]
  split_ifs with c
  · exact ⟨rfl, hb, hd⟩
  · cases hm : find_move2 P n s.arr (rd rv l) with
    | none => exact ⟨rfl, hb, by simp [hd]⟩
    | some m =>
      obtain ⟨m1, m2, m3, m4⟩ := b1 m hm
      obtain ⟨e2, b2⟩ := exchange2opt_chk_eq hb m1 m2 m3 m4
      have g2 : m.h1 < s.dlb.length ∧ m.h2 < s.dlb.length ∧ m.h3 < s.dlb.length ∧
          m.h4 < s.dlb.length := by rw [hd]; exact ⟨m1, m2, m3, m4⟩
      simp only [apply_move2_chk, apply_move2, g2, and_self, if_true, e2, Option.some_bind]
      exact ⟨trivial, b2, by simp [hd]⟩

theorem two_opt_points_chk_eq {P : TspProblem} {n : Nat} {rv : List Nat} (hP : PBnd n P)
    (hrl : rv.length = n) (hrv : ∀ l, rd rv l < n) :
    ∀ (ls : List Nat) (s : State), (∀ l ∈ ls, l < n) → SB n s →
      two_opt_points_chk P n rv ls s = some (ls.foldl (two_opt_point P n rv) s) ∧
        SB n (ls.foldl (two_opt_point P n rv) s) := by
  intro ls
  induction ls with
  | nil => intro s _ hs; exact ⟨rfl, hs⟩
  | cons l ls ih =>
    intro s hall hs
    obtain ⟨e1, b1⟩ := two_opt_point_chk_eq hP hrl hrv hs (hall l (List.mem_cons_self _ _))
    simp only [two_opt_points_chk, e1, Option.some_bind, List.foldl_cons]
    exact ih _ (fun x hx => hall x (List.mem_cons_of_mem _ hx)) b1

theorem two_opt_loop_chk_eq {P : TspProblem} {n : Nat} {rv : List Nat} (hP : PBnd n P)
    (hrl : rv.length = n) (hrv : ∀ l, rd rv l < n) :
    ∀ (fuel : Nat) (s : State), SB n s →
      two_opt_loop_chk P n rv fuel s = some (two_opt_loop P n rv fuel s) := by
  intro fuel
  induction fuel with
  | zero => intro s _; rfl
  | succ f ih =>
    intro s hs
    simp only [two_opt_loop_chk, two_opt_loop, two_opt_sweep]
    split_ifs with c
    · obtain ⟨e1, b1⟩ := two_opt_points_chk_eq hP hrl hrv (List.range n)
        { s with improvement_flag := false } (fun l hl => List.mem_range.mp hl) hs
      simp only [e1, Option.some_bind]
      exact ih _ b1
    · rfl

/-! ## Index safety of the search of `three_opt_first` -/

theorem inner_search_lt {P : TspProblem} {n : Nat} {a : Arrays} (hP : PBnd n P)
    (h : Bnd n a) {c1 s_c1 c2 s_c2 p_c2 : Nat} (k1 : c1 < n) (k2 : s_c1 < n) (k3 : c2 < n)
    (k4 : s_c2 < n) (k5 : p_c2 < n) (pos_c1 pos_c2 : Nat) (radius add1 db : ℚ) (sc : Scan) :
    ∀ (gs : List Nat) (sc1 : Scan),
      inner_search P n a c1 s_c1 c2 s_c2 p_c2 pos_c1 pos_c2 radius add1 db sc gs = .jump sc1 →
      sc1.Lt n := by
  intro gs
  induction gs with
  | nil => intro sc1 hm; exact Inner.noConfusion hm
  | cons g gs ih =>
    intro sc1 hm
    have c3 : P.nn s_c1 g < n := hP.nn_lt _ _
    have s3 : rd a.tour (rd a.pos (P.nn s_c1 g) + 1) < n := h.tour_lt _
    have p3 := @predAt_lt n a.tour h.tour_lt (rd a.pos (P.nn s_c1 g))
    simp only [inner_search] at hm
    split_ifs at hm
    all_goals first
      | exact ih sc1 hm
      | exact Inner.noConfusion hm
      | (simp only [Inner.jump.injEq] at hm
         subst hm
         exact ⟨k1, k2, by assumption, by assumption, by assumption, by assumption⟩)

theorem inner_search_chk_eq {P : TspProblem} {n : Nat} {a : Arrays} (hP : PBnd n P)
    (h : Bnd n a) (c1 : Nat) {s_c1 c2 s_c2 p_c2 : Nat} (k2 : s_c1 < n) (k3 : c2 < n)
    (k4 : s_c2 < n) (k5 : p_c2 < n) (pos_c1 pos_c2 : Nat) (radius add1 db : ℚ) (sc : Scan) :
    ∀ gs : List Nat, (∀ x ∈ gs, x < n - 1) →
      inner_search_chk P n a c1 s_c1 c2 s_c2 p_c2 pos_c1 pos_c2 radius add1 db sc gs =
        some (inner_search P n a c1 s_c1 c2 s_c2 p_c2 pos_c1 pos_c2 radius add1 db sc gs) := by
  intro gs
  induction gs with
  | nil => intro _; rfl
  | cons g gs ih =>
    intro hall
    have i1 := ih (fun y hy => hall y (List.mem_cons_of_mem _ hy))
    have g1 := hP.nn_ok s_c1 g k2 (hall g (List.mem_cons_self _ _))
    have c3 : P.nn s_c1 g < n := hP.nn_lt _ _
    have s3 : rd a.tour (rd a.pos (P.nn s_c1 g) + 1) < n := h.tour_lt _
    have p3 := @predAt_lt n a.tour h.tour_lt (rd a.pos (P.nn s_c1 g))
    have g2 : P.nn s_c1 g < a.pos.length ∧ rd a.pos (P.nn s_c1 g) + 1 < a.tour.length := by
      rw [h.pos_len, h.tour_len]
      exact ⟨c3, Nat.succ_lt_succ (h.pos_lt _)⟩
    have g3 := @predAt_ok_of n a.tour h.tour_len h.size_pos _ (h.pos_lt (P.nn s_c1 g))
    have d1 := hP.dist_ok _ _ k2 c3
    have d2 := hP.dist_ok _ _ c3 p3
    have d3 := hP.dist_ok _ _ p3 k4
    have d4 := hP.dist_ok _ _ c3 s3
    have d5 := hP.dist_ok _ _ k4 s3
    have d6 := hP.dist_ok _ _ k5 k3
    have d7 := hP.dist_ok _ _ p3 c3
    have d8 := hP.dist_ok _ _ k5 p3
    have d9 := hP.dist_ok _ _ k5 s3
    simp only [inner_search_chk, inner_search, g1, g2, g3, d1, d2, d3, d4, d5, d6, d7, d8, d9,
      and_self, if_true, i1, apply_ite (some : Inner → Option Inner)]

theorem memo2_lt {P : TspProblem} {n : Nat} {a : Arrays} (h : Bnd n a) {c1 s_c1 c2 : Nat}
    (k1 : c1 < n) (k2 : s_c1 < n) (k3 : c2 < n) {sc : Scan} (hsc : sc.Lt n) :
    (memo2 P n a c1 s_c1 c2 sc).Lt n := by
  obtain ⟨a1, a2, a3, a4, a5, a6⟩ := hsc
  unfold memo2
  simp only
  split_ifs
  all_goals first
    | exact ⟨k1, k2, k3, h.tour_lt _, a5, a6⟩
    | exact ⟨k1, k2, predAt_lt h.tour_lt _, k3, a5, a6⟩
    | exact ⟨a1, a2, a3, a4, a5, a6⟩

theorem outer_search_chk_cons {P : TspProblem} {n : Nat} {a : Arrays} (hP : PBnd n P)
    (h : Bnd n a) {c1 s_c1 : Nat} (k1 : c1 < n) (k2 : s_c1 < n) (pos_c1 : Nat) {x : Nat}
    (hx : x < n - 1) (hs : List Nat) (sc : Scan) :
    outer_search_chk P n a c1 s_c1 pos_c1 (x :: hs) sc =
      if P.dist c1 s_c1 > P.dist c1 (P.nn c1 x) then
        (inner_search_chk P n a c1 s_c1 (P.nn c1 x) (rd a.tour (rd a.pos (P.nn c1 x) + 1))
            (predAt n a.tour (rd a.pos (P.nn c1 x))) pos_c1 (rd a.pos (P.nn c1 x))
            (P.dist c1 s_c1) (P.dist c1 (P.nn c1 x))
            (- P.dist c1 s_c1 - P.dist (P.nn c1 x) (rd a.tour (rd a.pos (P.nn c1 x) + 1)))
            (memo2 P n a c1 s_c1 (P.nn c1 x) sc) (candidates n)).bind fun r =>
          match r with
          | .jump sc1 => some (.ok sc1)
          | .failed => some (.error .assertFalse)
          | .fallthrough =>
            outer_search_chk P n a c1 s_c1 pos_c1 hs (memo2 P n a c1 s_c1 (P.nn c1 x) sc)
      else some (.ok sc) := by
  have g1 := hP.nn_ok c1 x k1 hx
  have c2 : P.nn c1 x < n := hP.nn_lt _ _
  have s2 : rd a.tour (rd a.pos (P.nn c1 x) + 1) < n := h.tour_lt _
  have p2 := @predAt_lt n a.tour h.tour_lt (rd a.pos (P.nn c1 x))
  have g2 : P.nn c1 x < a.pos.length ∧ rd a.pos (P.nn c1 x) + 1 < a.tour.length := by
    rw [h.pos_len, h.tour_len]
    exact ⟨c2, Nat.succ_lt_succ (h.pos_lt _)⟩
  have g3 := @predAt_ok_of n a.tour h.tour_len h.size_pos _ (h.pos_lt (P.nn c1 x))
  have d1 := hP.dist_ok _ _ k1 k2
  have d2 := hP.dist_ok _ _ k1 c2
  have d3 := hP.dist_ok _ _ c2 s2
  have d4 := hP.dist_ok _ _ k2 s2
  have d5 := hP.dist_ok _ _ c2 p2
  have d6 := hP.dist_ok _ _ k1 p2
  have d7 := hP.dist_ok _ _ k2 c2
  simp only [outer_search_chk, g1, g2, g3, d1, d2, d3, d4, d5, d6, d7, and_self, if_true]
  rfl

theorem outer_search_chk_eq {P : TspProblem} {n : Nat} {a : Arrays} (hP : PBnd n P)
    (h : Bnd n a) {c1 s_c1 : Nat} (k1 : c1 < n) (k2 : s_c1 < n) (pos_c1 : Nat) :
    ∀ (hs : List Nat) (sc : Scan), (∀ x ∈ hs, x < n - 1) → sc.Lt n →
      outer_search_chk P n a c1 s_c1 pos_c1 hs sc =
        some (outer_search P n a c1 s_c1 pos_c1 hs sc) ∧
      ∀ sc1, outer_search P n a c1 s_c1 pos_c1 hs sc = .ok sc1 → sc1.Lt n := by
  intro hs
  induction hs with
  | nil =>
    intro sc _ hsc
    refine ⟨rfl, fun sc1 hm => ?_⟩
    simp only [outer_search, Except.ok.injEq] at hm
    subst hm
    exact hsc
  | cons x hs ih =>
    intro sc hall hsc
    have c2 : P.nn c1 x < n := hP.nn_lt _ _
    have s2 : rd a.tour (rd a.pos (P.nn c1 x) + 1) < n := h.tour_lt _
    have p2 := @predAt_lt n a.tour h.tour_lt (rd a.pos (P.nn c1 x))
    have hl2 := @memo2_lt P n a h c1 s_c1 (P.nn c1 x) k1 k2 c2 sc hsc
    have ie := inner_search_chk_eq hP h c1 k2 c2 s2 p2 pos_c1
      (rd a.pos (P.nn c1 x)) (P.dist c1 s_c1) (P.dist c1 (P.nn c1 x))
      (- P.dist c1 s_c1 - P.dist (P.nn c1 x) (rd a.tour (rd a.pos (P.nn c1 x) + 1)))
      (memo2 P n a c1 s_c1 (P.nn c1 x) sc) (candidates n) (fun _ => mem_candidates_lt)
    have il := inner_search_lt hP h k1 k2 c2 s2 p2 pos_c1
      (rd a.pos (P.nn c1 x)) (P.dist c1 s_c1) (P.dist c1 (P.nn c1 x))
      (- P.dist c1 s_c1 - P.dist (P.nn c1 x) (rd a.tour (rd a.pos (P.nn c1 x) + 1)))
      (memo2 P n a c1 s_c1 (P.nn c1 x) sc) (candidates n)
    obtain ⟨j1, j2⟩ := ih (memo2 P n a c1 s_c1 (P.nn c1 x) sc)
      (fun y hy => hall y (List.mem_cons_of_mem _ hy)) hl2
    rw [outer_search_chk_cons hP h k1 k2 pos_c1 (hall x (List.mem_cons_self _ _)),
      outer_search_cons]
    by_cases r : P.dist c1 s_c1 > P.dist c1 (P.nn c1 x)
    · rw [if_pos r, if_pos r, ie, Option.some_bind]
      cases hi : inner_search P n a c1 s_c1 (P.nn c1 x)
          (rd a.tour (rd a.pos (P.nn c1 x) + 1)) (predAt n a.tour (rd a.pos (P.nn c1 x)))
          pos_c1 (rd a.pos (P.nn c1 x)) (P.dist c1 s_c1) (P.dist c1 (P.nn c1 x))
          (- P.dist c1 s_c1 - P.dist (P.nn c1 x) (rd a.tour (rd a.pos (P.nn c1 x) + 1)))
          (memo2 P n a c1 s_c1 (P.nn c1 x) sc) (candidates n) with
      | fallthrough => exact ⟨j1, j2⟩
      | failed => exact ⟨rfl, fun sc1 hm => Except.noConfusion hm⟩
      | jump sc3 =>
        refine ⟨rfl, fun sc1 hm => ?_⟩
        simp only [Except.ok.injEq] at hm
        subst hm
        exact il _ hi
    · rw [if_neg r, if_neg r]
      refine ⟨rfl, fun sc1 hm => ?_⟩
      simp only [Except.ok.injEq] at hm
      subst hm
      exact hsc

/-! ## Index safety of the rewriting loops of `three_opt_first` -/

theorem cgap_lt {n : Nat} (fwd : Bool) {j h : Nat} (hj : j < n) (hh : h < n) :
    cgap n fwd j h < n := by
  unfold cgap cdist
  split_ifs <;> omega

theorem cgap_step {n : Nat} (fwd : Bool) {j h : Nat} (hj : j < n) (hh : h < n) (hne : j ≠ h) :
    cgap n fwd (if fwd then incw n j else decw n j) h + 1 = cgap n fwd j h := by
  unfold cgap cdist incw decw
  cases fwd
  · simp only [Bool.false_eq_true, if_false]
    split_ifs <;> omega
  · simp only [if_true]
    split_ifs <;> omega

theorem Bnd3.set_tour {n : Nat} {a : Arrays} (h : Bnd3 n a) (j : Nat) {x : Nat} (hx : x < n) :
    Bnd3 n { a with tour := wr a.tour j x } :=
  ⟨⟨by simp [h.bnd.tour_len], h.bnd.pos_len, rd_wr_lt h.bnd.tour_lt _ hx, h.bnd.pos_lt⟩,
    h.h_len, h.hh_len, h.h_lt, h.hh_lt⟩

theorem Bnd3.set_pos {n : Nat} {a : Arrays} (h : Bnd3 n a) (c : Nat) {j : Nat} (hj : j < n) :
    Bnd3 n { a with pos := wr a.pos c j } :=
  ⟨⟨h.bnd.tour_len, by simp [h.bnd.pos_len], h.bnd.tour_lt, rd_wr_lt h.bnd.pos_lt _ hj⟩,
    h.h_len, h.hh_len, h.h_lt, h.hh_lt⟩

theorem Bnd3.put {n : Nat} {a : Arrays} (h : Bnd3 n a) {j x : Nat} (hj : j < n) (hx : x < n) :
    Bnd3 n { a with tour := wr a.tour j x, pos := wr a.pos x j } :=
  (h.set_tour j hx).set_pos x hj

theorem Bnd3.count_pos {n : Nat} {a : Arrays} (h : Bnd3 n a) : 0 < n := h.bnd.size_pos

theorem copy_loop_chk_eq {n : Nat} (fwd : Bool) {tour : List Nat} (hl : tour.length = n + 1)
    (ht : ∀ k, rd tour k < n) {h : Nat} (hh : h < n) :
    ∀ (fuel : Nat) (buf : List Nat) (i j n1 : Nat), buf.length = n → (∀ k, rd buf k < n) →
      j < n → i + cgap n fwd j h < n → n1 ≤ i + 1 →
      copy_loop_chk n fwd tour h fuel buf i j n1 = some (copy_loop n fwd tour h fuel buf i j n1) ∧
      (copy_loop n fwd tour h fuel buf i j n1).1.length = n ∧
      (∀ k, rd (copy_loop n fwd tour h fuel buf i j n1).1 k < n) ∧
      (copy_loop n fwd tour h fuel buf i j n1).2 ≤ n := by
  intro fuel
  induction fuel with
  | zero => intro buf i j n1 hb hbl _ hm hn1; exact ⟨rfl, hb, hbl, by simp only [copy_loop]; omega⟩
  | succ f ih =>
    intro buf i j n1 hb hbl hj hm hn1
    simp only [copy_loop_chk, copy_loop]
    by_cases c : j = h
    · simp only [c, ne_eq, not_true_eq_false, if_false]
      exact ⟨trivial, hb, hbl, by omega⟩
    · have hs := cgap_step fwd hj hh c
      have hj1 : (if fwd then incw n j else decw n j) < n := by
        cases fwd
        · simp only [Bool.false_eq_true, if_false]; exact decw_lt_of_lt hj
        · simp only [if_true]; exact incw_lt_of_pos (by omega) _
      have g : i + 1 < buf.length ∧ (if fwd then incw n j else decw n j) < tour.length := by
        rw [hb, hl]; exact ⟨by omega, by omega⟩
      simp only [ne_eq, c, not_false_eq_true, if_true, g, and_self]
      exact ih _ _ _ _ (by simp [hb]) (rd_wr_lt hbl _ (ht _)) hj1 (by omega) (by omega)

theorem copy_segment_chk_eq {n : Nat} (fwd : Bool) {tour buf : List Nat}
    (hl : tour.length = n + 1) (ht : ∀ k, rd tour k < n) (hb : buf.length = n)
    (hbl : ∀ k, rd buf k < n) {j h : Nat} (hj : j < n) (hh : h < n) :
    copy_segment_chk n fwd tour buf j h = some (copy_segment n fwd tour buf j h) ∧
      (copy_segment n fwd tour buf j h).1.length = n ∧
      (∀ k, rd (copy_segment n fwd tour buf j h).1 k < n) ∧
      (copy_segment n fwd tour buf j h).2 ≤ n := by
  unfold copy_segment_chk copy_segment
  rw [if_pos (by rw [hb, hl]; exact ⟨by omega, by omega⟩)]
  exact copy_loop_chk_eq fwd hl ht hh n _ 0 j 1 (by simp [hb]) (rd_wr_lt hbl _ (ht _)) hj
    (by have := cgap_lt fwd hj hh; omega) (le_refl _)

theorem fill_h_chk_eq {n : Nat} (fwd : Bool) {a : Arrays} (h : Bnd3 n a) {j e : Nat}
    (hj : j < n) (he : e < n) :
    fill_h_chk n fwd a j e = some (fill_h n fwd a j e) ∧ Bnd3 n (fill_h n fwd a j e).1 ∧
      (fill_h n fwd a j e).2 ≤ n ∧ (fill_h n fwd a j e).1.pos = a.pos := by
  obtain ⟨e1, e2, e3, e4⟩ := copy_segment_chk_eq fwd h.bnd.tour_len h.bnd.tour_lt h.h_len
    h.h_lt hj he
  simp only [fill_h_chk, fill_h, e1, Option.some_bind]
  exact ⟨trivial, ⟨⟨h.bnd.tour_len, h.bnd.pos_len, h.bnd.tour_lt, h.bnd.pos_lt⟩, e2, h.hh_len,
    e3, h.hh_lt⟩, e4, trivial⟩

theorem fill_hh_chk_eq {n : Nat} (fwd : Bool) {a : Arrays} (h : Bnd3 n a) {j e : Nat}
    (hj : j < n) (he : e < n) :
    fill_hh_chk n fwd a j e = some (fill_hh n fwd a j e) ∧ Bnd3 n (fill_hh n fwd a j e).1 ∧
      (fill_hh n fwd a j e).2 ≤ n ∧ (fill_hh n fwd a j e).1.pos = a.pos := by
  obtain ⟨e1, e2, e3, e4⟩ := copy_segment_chk_eq fwd h.bnd.tour_len h.bnd.tour_lt h.hh_len
    h.hh_lt hj he
  simp only [fill_hh_chk, fill_hh, e1, Option.some_bind]
  exact ⟨trivial, ⟨⟨h.bnd.tour_len, h.bnd.pos_len, h.bnd.tour_lt, h.bnd.pos_lt⟩, h.h_len, e2,
    h.h_lt, e3⟩, e4, trivial⟩

theorem write_loop_chk_eq {n : Nat} {buf : List Nat} (hb : buf.length = n)
    (hbl : ∀ k, rd buf k < n) :
    ∀ (k i : Nat) (a : Arrays) (j : Nat), Bnd3 n a → j < n → i + k ≤ n →
      write_loop_chk n buf k i a j = some (write_loop n buf k i a j) ∧
      Bnd3 n (write_loop n buf k i a j).1 ∧ (write_loop n buf k i a j).2 < n ∧
      (write_loop n buf k i a j).1.h_tour = a.h_tour ∧
      (write_loop n buf k i a j).1.hh_tour = a.hh_tour := by
  intro k
  induction k with
  | zero => intro i a j h hj _; exact ⟨rfl, h, hj, rfl, rfl⟩
  | succ k ih =>
    intro i a j h hj hik
    have g : i < buf.length ∧ j < a.tour.length ∧ rd buf i < a.pos.length := by
      rw [hb, h.bnd.tour_len, h.bnd.pos_len]; exact ⟨by omega, by omega, hbl _⟩
    simp only [write_loop_chk, write_loop, g, and_self, if_true]
    exact ih (i + 1) _ (incw n j) (h.put hj (hbl i)) (incw_lt_of_pos h.count_pos _) (by omega)

theorem put_h_chk_eq {n : Nat} {a : Arrays} (h : Bnd3 n a) {n1 j : Nat} (h1 : n1 ≤ n)
    (hj : j < n) :
    put_h_chk n a n1 j = some (put_h n a n1 j) ∧ Bnd3 n (put_h n a n1 j).1 ∧
      (put_h n a n1 j).2 < n ∧ (put_h n a n1 j).1.h_tour = a.h_tour ∧
      (put_h n a n1 j).1.hh_tour = a.hh_tour :=
  write_loop_chk_eq h.h_len h.h_lt n1 0 a j h hj (by omega)

theorem put_hh_chk_eq {n : Nat} {a : Arrays} (h : Bnd3 n a) {n1 j : Nat} (h1 : n1 ≤ n)
    (hj : j < n) :
    put_hh_chk n a n1 j = some (put_hh n a n1 j) ∧ Bnd3 n (put_hh n a n1 j).1 ∧
      (put_hh n a n1 j).2 < n ∧ (put_hh n a n1 j).1.h_tour = a.h_tour ∧
      (put_hh n a n1 j).1.hh_tour = a.hh_tour :=
  write_loop_chk_eq h.hh_len h.hh_lt n1 0 a j h hj (by omega)

theorem shift_loop_chk_eq {n : Nat} (stop : Nat) :
    ∀ (fuel : Nat) (a : Arrays) (i j : Nat), Bnd3 n a → j < n →
      shift_loop_chk n stop fuel a i j = some (shift_loop n stop fuel a i j) ∧
      Bnd3 n (shift_loop n stop fuel a i j).1 ∧ (shift_loop n stop fuel a i j).2 < n := by
  intro fuel
  induction fuel with
  | zero => intro a i j h hj; exact ⟨rfl, h, hj⟩
  | succ f ih =>
    intro a i j h hj
    simp only [shift_loop_chk, shift_loop]
    by_cases c : i = stop
    · simp only [c, ne_eq, not_true_eq_false, if_false]
      exact ⟨trivial, h, hj⟩
    · have i1 := incw_lt_of_pos h.count_pos i
      have j1 := incw_lt_of_pos h.count_pos j
      have b1 := h.set_tour (incw n j) (h.bnd.tour_lt (incw n i))
      have g : incw n i < a.tour.length ∧ incw n j < a.tour.length ∧
          rd (wr a.tour (incw n j) (rd a.tour (incw n i))) (incw n i) < a.pos.length := by
        rw [h.bnd.tour_len, h.bnd.pos_len]
        exact ⟨by omega, by omega, b1.bnd.tour_lt _⟩
      simp only [ne_eq, c, not_false_eq_true, if_true, g, and_self]
      exact ih _ _ _ (b1.set_pos _ j1) j1

theorem shift_segment_chk_eq {n : Nat} {a : Arrays} (h : Bnd3 n a) {j i : Nat} (hj : j < n)
    (hi : i < n) (stop : Nat) :
    shift_segment_chk n a j i stop = some (shift_segment n a j i stop) ∧
      Bnd3 n (shift_segment n a j i stop).1 ∧ (shift_segment n a j i stop).2 < n := by
  have b1 := h.set_tour j (h.bnd.tour_lt i)
  have g : i < a.tour.length ∧ j < a.tour.length ∧
      rd (wr a.tour j (rd a.tour i)) i < a.pos.length := by
    rw [h.bnd.tour_len, h.bnd.pos_len]
    exact ⟨by omega, by omega, b1.bnd.tour_lt _⟩
  simp only [shift_segment_chk, shift_segment, g, and_self, if_true]
  exact shift_loop_chk_eq stop n _ i j (b1.set_pos _ hj) hj

theorem write_until_loop_chk_eq {n : Nat} {buf : List Nat} (hb : buf.length = n)
    (hbl : ∀ k, rd buf k < n) {stop : Nat} (hs : stop < n) :
    ∀ (fuel i : Nat) (a : Arrays) (j : Nat), Bnd3 n a → j < n → i + cdist n j stop < n →
      write_until_loop_chk n stop buf fuel i a j = some (write_until_loop n stop buf fuel i a j) ∧
      Bnd3 n (write_until_loop n stop buf fuel i a j) := by
  intro fuel
  induction fuel with
  | zero => intro i a j h _ _; exact ⟨rfl, h⟩
  | succ f ih =>
    intro i a j h hj hm
    simp only [write_until_loop_chk, write_until_loop]
    by_cases c : j = stop
    · simp only [c, ne_eq, not_true_eq_false, if_false]
      exact ⟨trivial, h⟩
    · have j1 := incw_lt_of_pos h.count_pos j
      have hst := cgap_step true hj hs c
      simp only [cgap, if_true] at hst
      have g : i + 1 < buf.length ∧ incw n j < a.tour.length ∧ rd buf (i + 1) < a.pos.length := by
        rw [hb, h.bnd.tour_len, h.bnd.pos_len]
        exact ⟨by omega, by omega, hbl _⟩
      simp only [ne_eq, c, not_false_eq_true, if_true, g, and_self]
      exact ih _ _ _ (h.put j1 (hbl _)) j1 (by omega)

theorem refresh_bnd3 {n : Nat} {a : Arrays} (h : Bnd3 n a) : Bnd3 n (refresh n a) :=
  h.set_tour n (h.bnd.tour_lt 0)

/-! ## Index safety of the twelve rewriting cases -/

theorem store_shift_put_chk_eq {n : Nat} {a : Arrays} (h : Bnd3 n a) (fwd : Bool)
    {b e w i : Nat} (kb : b < n) (ke : e < n) (kw : w < n) (ki : i < n) (stop : Nat) :
    store_shift_put_chk n a fwd b e w i stop = some (store_shift_put n a fwd b e w i stop) ∧
      Bnd3 n (store_shift_put n a fwd b e w i stop) := by
  obtain ⟨e1, b1, l1, _⟩ := fill_h_chk_eq fwd h kb ke
  obtain ⟨e2, b2, j2⟩ := shift_segment_chk_eq b1 kw ki stop
  obtain ⟨e3, b3, _⟩ := put_h_chk_eq b2 l1 (incw_lt_of_pos h.count_pos (shift_segment n
    (fill_h n fwd a b e).1 w i stop).2)
  simp only [store_shift_put_chk, store_shift_put, e1, e2, e3, Option.some_bind,
    refresh_chk_eq b3.bnd]
  exact ⟨trivial, refresh_bnd3 b3⟩

theorem store2_put_h_hh_chk_eq {n : Nat} {a : Arrays} (h : Bnd3 n a) (fwd1 fwd2 : Bool)
    {b1 e1 b2 e2 w : Nat} (k1 : b1 < n) (k2 : e1 < n) (k3 : b2 < n) (k4 : e2 < n)
    (kw : w < n) :
    store2_put_h_hh_chk n a fwd1 b1 e1 fwd2 b2 e2 w =
        some (store2_put_h_hh n a fwd1 b1 e1 fwd2 b2 e2 w) ∧
      Bnd3 n (store2_put_h_hh n a fwd1 b1 e1 fwd2 b2 e2 w) := by
  obtain ⟨x1, y1, l1, _⟩ := fill_h_chk_eq fwd1 h k1 k2
  obtain ⟨x2, y2, l2, _⟩ := fill_hh_chk_eq fwd2 y1 k3 k4
  obtain ⟨x3, y3, j3, _⟩ := put_h_chk_eq y2 l1 kw
  obtain ⟨x4, y4, _⟩ := put_hh_chk_eq y3 l2 j3
  simp only [store2_put_h_hh_chk, store2_put_h_hh, x1, x2, x3, x4, Option.some_bind,
    refresh_chk_eq y4.bnd]
  exact ⟨trivial, refresh_bnd3 y4⟩

theorem store2_put_hh_h_chk_eq {n : Nat} {a : Arrays} (h : Bnd3 n a) (fwd1 fwd2 : Bool)
    {b1 e1 b2 e2 w : Nat} (k1 : b1 < n) (k2 : e1 < n) (k3 : b2 < n) (k4 : e2 < n)
    (kw : w < n) :
    store2_put_hh_h_chk n a fwd1 b1 e1 fwd2 b2 e2 w =
        some (store2_put_hh_h n a fwd1 b1 e1 fwd2 b2 e2 w) ∧
      Bnd3 n (store2_put_hh_h n a fwd1 b1 e1 fwd2 b2 e2 w) := by
  obtain ⟨x1, y1, l1, _⟩ := fill_h_chk_eq fwd1 h k1 k2
  obtain ⟨x2, y2, l2, _⟩ := fill_hh_chk_eq fwd2 y1 k3 k4
  obtain ⟨x3, y3, j3, _⟩ := put_hh_chk_eq y2 l2 kw
  obtain ⟨x4, y4, _⟩ := put_h_chk_eq y3 l1 j3
  simp only [store2_put_hh_h_chk, store2_put_hh_h, x1, x2, x3, x4, Option.some_bind,
    refresh_chk_eq y4.bnd]
  exact ⟨trivial, refresh_bnd3 y4⟩

theorem move4_chk_eq {n : Nat} {a : Arrays} (h : Bnd3 n a) {h1 h2 h3 h4 h5 h6 : Nat}
    (k1 : h1 < n) (k2 : h2 < n) (k3 : h3 < n) (k4 : h4 < n) (k5 : h5 < n) (k6 : h6 < n)
    (p1 p2 p3 : Nat) :
    move4_chk n a h1 h2 h3 h4 h5 h6 p1 p2 p3 = some (move4 n a h1 h2 h3 h4 h5 h6 p1 p2 p3) ∧
      Bnd3 n (move4 n a h1 h2 h3 h4 h5 h6 p1 p2 p3) := by
  have hp := h.bnd.pos_lt
  simp only [move4_chk, move4, h.bnd.pos_len, k1, k2, k3, k4, k5, k6, and_self, if_true]
  generalize longest _ _ _ = g
  split_ifs
  · exact store_shift_put_chk_eq h true (hp _) (hp _) (hp _) (hp _) _
  · exact store_shift_put_chk_eq h true (hp _) (hp _) (hp _) (hp _) _
  · exact store_shift_put_chk_eq h true (hp _) (hp _) (hp _) (hp _) _
  · exact ⟨rfl, h⟩

theorem move2_chk_eq {n : Nat} {a : Arrays} (h : Bnd3 n a) {h1 h2 h3 h4 h5 h6 : Nat}
    (k1 : h1 < n) (k2 : h2 < n) (k3 : h3 < n) (k4 : h4 < n) (k5 : h5 < n) (k6 : h6 < n)
    (p1 p2 p3 : Nat) :
    move2_chk n a h1 h2 h3 h4 h5 h6 p1 p2 p3 = some (move2 n a h1 h2 h3 h4 h5 h6 p1 p2 p3) ∧
      Bnd3 n (move2 n a h1 h2 h3 h4 h5 h6 p1 p2 p3) := by
  have hp := h.bnd.pos_lt
  simp only [move2_chk, move2, h.bnd.pos_len, k1, k2, k3, k4, k5, k6, and_self, if_true]
  generalize longest _ _ _ = g
  split_ifs
  · exact store2_put_h_hh_chk_eq h _ _ (hp _) (hp _) (hp _) (hp _) (hp _)
  · exact store2_put_h_hh_chk_eq h _ _ (hp _) (hp _) (hp _) (hp _) (hp _)
  · exact store2_put_h_hh_chk_eq h _ _ (hp _) (hp _) (hp _) (hp _) (hp _)
  · exact ⟨rfl, h⟩

theorem move1_case1_chk_eq {n : Nat} {a : Arrays} (h : Bnd3 n a) {h3 h4 h6 p1 : Nat}
    (k3 : h3 < n) (k4 : h4 < n) (k6 : h6 < n) (kp : p1 < n) :
    move1_case1_chk n a h3 h4 h6 p1 = some (move1_case1 n a h3 h4 h6 p1) ∧
      Bnd3 n (move1_case1 n a h3 h4 h6 p1) := by
  have hp := h.bnd.pos_lt
  obtain ⟨x1, y1, _, _⟩ := fill_h_chk_eq false h (hp h3) (hp h6)
  simp only [move1_case1_chk, move1_case1, h.bnd.pos_len, k3, k4, k6, and_self, if_true, x1,
    Option.some_bind]
  generalize (fill_h n false a (rd a.pos h3) (rd a.pos h6)).1 = a1 at y1 ⊢
  obtain ⟨x2, y2, j2⟩ := shift_segment_chk_eq y1 (y1.bnd.pos_lt h6) (y1.bnd.pos_lt h4) p1
  simp only [x2, Option.some_bind]
  generalize shift_segment n a1 (rd a1.pos h6) (rd a1.pos h4) p1 = r2 at y2 j2 ⊢
  have j3 := incw_lt_of_pos h.count_pos r2.2
  have y3 := y2.put j3 (y2.h_lt 0)
  obtain ⟨x4, y4⟩ := write_until_loop_chk_eq y3.h_len y3.h_lt kp n 0 _ _ y3 j3
    (by have : cdist n (incw n r2.2) p1 < n := cgap_lt true j3 kp
        omega)
  have g : 0 < r2.1.h_tour.length ∧ incw n r2.2 < r2.1.tour.length ∧
      rd r2.1.h_tour 0 < r2.1.pos.length := by
    rw [y2.h_len, y2.bnd.tour_len, y2.bnd.pos_len]
    exact ⟨h.count_pos, by omega, y2.h_lt 0⟩
  simp only [g, and_self, if_true, x4, Option.some_bind, refresh_chk_eq y4.bnd]
  exact ⟨trivial, refresh_bnd3 y4⟩

theorem move1_chk_eq {n : Nat} {a : Arrays} (h : Bnd3 n a) {h1 h2 h3 h4 h5 h6 : Nat}
    (k1 : h1 < n) (k2 : h2 < n) (k3 : h3 < n) (k4 : h4 < n) (k5 : h5 < n) (k6 : h6 < n)
    {p1 p2 : Nat} (kp1 : p1 < n) (kp2 : p2 < n) (p3 : Nat) :
    move1_chk n a h1 h2 h3 h4 h5 h6 p1 p2 p3 = some (move1 n a h1 h2 h3 h4 h5 h6 p1 p2 p3) ∧
      Bnd3 n (move1 n a h1 h2 h3 h4 h5 h6 p1 p2 p3) := by
  have hp := h.bnd.pos_lt
  simp only [move1_chk, move1, h.bnd.pos_len, k1, k2, k3, k4, k5, k6, and_self, if_true]
  generalize longest _ _ _ = g
  split_ifs
  · exact store2_put_hh_h_chk_eq h _ _ (hp _) (hp _) (hp _) (hp _) (hp _)
  · exact move1_case1_chk_eq h k3 k4 k6 kp1
  · exact store2_put_hh_h_chk_eq h _ _ (hp _) (hp _) kp2 (hp _) (hp _)
  · exact ⟨rfl, h⟩

theorem move3_case0_chk_eq {n : Nat} {a : Arrays} (h : Bnd3 n a) {h2 h3 h4 h5 : Nat}
    (k2 : h2 < n) (k3 : h3 < n) (k4 : h4 < n) (k5 : h5 < n) :
    move3_case0_chk n a h2 h3 h4 h5 = some (move3_case0 n a h2 h3 h4 h5) ∧
      Bnd3 n (move3_case0 n a h2 h3 h4 h5) := by
  have hp := h.bnd.pos_lt
  obtain ⟨x1, y1, l1, _⟩ := fill_h_chk_eq false h (hp h3) (hp h2)
  simp only [move3_case0_chk, move3_case0, h.bnd.pos_len, k2, k3, k4, k5, and_self, if_true,
    x1, Option.some_bind]
  generalize fill_h n false a (rd a.pos h3) (rd a.pos h2) = r1 at y1 l1 ⊢
  have j1 := y1.bnd.pos_lt h2
  have y2 := y1.put j1 k4
  have g : rd r1.1.pos h2 < r1.1.tour.length ∧ h4 < r1.1.pos.length := by
    rw [y1.bnd.tour_len, y1.bnd.pos_len]
    exact ⟨by omega, k4⟩
  obtain ⟨x3, y3, j3⟩ := shift_loop_chk_eq (rd r1.1.pos h5) n _ (rd r1.1.pos h4) _ y2 j1
  simp only [g, and_self, if_true, x3, Option.some_bind]
  generalize shift_loop n (rd r1.1.pos h5) n _ (rd r1.1.pos h4) (rd r1.1.pos h2) = r2
    at y3 j3 ⊢
  obtain ⟨x4, y4, _⟩ := put_h_chk_eq y3 l1 (incw_lt_of_pos h.count_pos r2.2)
  simp only [x4, Option.some_bind, refresh_chk_eq y4.bnd]
  exact ⟨trivial, refresh_bnd3 y4⟩

theorem move3_chk_eq {n : Nat} {a : Arrays} (h : Bnd3 n a) {h1 h2 h3 h4 h5 h6 : Nat}
    (k1 : h1 < n) (k2 : h2 < n) (k3 : h3 < n) (k4 : h4 < n) (k5 : h5 < n) (k6 : h6 < n)
    (p1 p2 p3 : Nat) :
    move3_chk n a h1 h2 h3 h4 h5 h6 p1 p2 p3 = some (move3 n a h1 h2 h3 h4 h5 h6 p1 p2 p3) ∧
      Bnd3 n (move3 n a h1 h2 h3 h4 h5 h6 p1 p2 p3) := by
  have hp := h.bnd.pos_lt
  simp only [move3_chk, move3, h.bnd.pos_len, k1, k2, k3, k4, k5, k6, and_self, if_true]
  generalize longest _ _ _ = g
  split_ifs
  · exact move3_case0_chk_eq h k2 k3 k4 k5
  · exact store2_put_h_hh_chk_eq h _ _ (hp _) (hp _) (hp _) (hp _) (hp _)
  · exact store2_put_h_hh_chk_eq h _ _ (hp _) (hp _) (hp _) (hp _) (hp _)
  · exact ⟨rfl, h⟩

/-! ## Index safety of the engines -/

theorem exchange_split (n : Nat) (s : State) (sc : Scan) :
    exchange n s sc =
      match (if sc.move_flag ≠ 0 then
          exchange3 n { s with move_value := 0, improvement_flag := sc.improvement_flag,
                               n_exchanges := s.n_exchanges + 1 } sc
        else .ok { s with move_value := 0, improvement_flag := sc.improvement_flag,
                          n_exchanges := s.n_exchanges + 1 }) with
      | .error e => .error e
      | .ok s1 => exchange_tail n sc s1 := rfl

theorem rd_of_le {v : List Nat} {i : Nat} (h : v.length ≤ i) : rd v i = 0 := by
  unfold rd
  rw [List.getD_eq_getElem?_getD, List.getElem?_eq_none h]
  rfl

theorem exchange3_chk_eq {n : Nat} {s0 : State} (hs : SB3 n s0) {sc : Scan} (hsc : sc.Lt n) :
    exchange3_chk n s0 sc = some (exchange3 n s0 sc) ∧
      ∀ s1, exchange3 n s0 sc = .ok s1 → SB3 n s1 := by
  obtain ⟨hb, hd⟩ := hs
  obtain ⟨k1, k2, k3, k4, k5, k6⟩ := hsc
  have hp := hb.bnd.pos_lt
  obtain ⟨e4, b4⟩ := move4_chk_eq hb k1 k2 k3 k4 k5 k6 (rd s0.arr.pos sc.h1)
    (rd s0.arr.pos sc.h3) (rd s0.arr.pos sc.h5)
  obtain ⟨e1, b1⟩ := move1_chk_eq hb k1 k2 k3 k4 k5 k6 (hp sc.h1) (hp sc.h3)
    (rd s0.arr.pos sc.h5)
  obtain ⟨e2, b2⟩ := move2_chk_eq hb k1 k2 k3 k4 k5 k6 (rd s0.arr.pos sc.h1)
    (rd s0.arr.pos sc.h3) (rd s0.arr.pos sc.h5)
  obtain ⟨e3, b3⟩ := move3_chk_eq hb k1 k2 k3 k4 k5 k6 (rd s0.arr.pos sc.h1)
    (rd s0.arr.pos sc.h3) (rd s0.arr.pos sc.h5)
  simp only [exchange3_chk, exchange3, hd, hb.bnd.pos_len, k1, k2, k3, k4, k5, k6, and_self,
    if_true, e4, e1, e2, e3, Option.some_bind]
  have hdl : ∀ d : List Bool, d.length = n →
      (wrB (wrB (wrB (wrB (wrB (wrB d sc.h1 false) sc.h2 false) sc.h3 false) sc.h4 false)
        sc.h5 false) sc.h6 false).length = n := by
    intro d hd; simp [hd]
  split_ifs
  all_goals
    refine ⟨rfl, fun s1 hs1 => ?_⟩
    cases hs1 <;> first
      | exact ⟨b4, hdl _ hd⟩
      | exact ⟨b1, hdl _ hd⟩
      | exact ⟨b2, hdl _ hd⟩
      | exact ⟨b3, hdl _ hd⟩

theorem exchange2opt_bnd3 {n : Nat} {a : Arrays} (h : Bnd3 n a) {h1 h2 h3 h4 : Nat}
    (k1 : h1 < n) (k2 : h2 < n) (k3 : h3 < n) (k4 : h4 < n) :
    exchange2opt_chk n a h1 h2 h3 h4 = some (exchange2opt n a h1 h2 h3 h4) ∧
      Bnd3 n (exchange2opt n a h1 h2 h3 h4) := by
  obtain ⟨e, b⟩ := exchange2opt_chk_eq h.bnd k1 k2 k3 k4
  obtain ⟨u1, u2⟩ := exchange2opt_bufs n a h1 h2 h3 h4
  refine ⟨e, b, ?_, ?_, ?_, ?_⟩
  · rw [u1]; exact h.h_len
  · rw [u2]; exact h.hh_len
  · rw [u1]; exact h.h_lt
  · rw [u2]; exact h.hh_lt

theorem exchange_tail_chk_eq {n : Nat} {s1 : State} (hs : SB3 n s1) {sc : Scan}
    (hsc : sc.Lt n) :
    exchange_tail_chk n sc s1 = some (exchange_tail n sc s1) ∧
      ∀ s2, exchange_tail n sc s1 = .ok s2 → SB3 n s2 := by
  obtain ⟨hb, hd⟩ := hs
  obtain ⟨k1, k2, k3, k4, _, _⟩ := hsc
  obtain ⟨e, b⟩ := exchange2opt_bnd3 hb k1 k2 k3 k4
  simp only [exchange_tail_chk, exchange_tail, hd, k1, k2, k3, k4, and_self, if_true, e,
    Option.some_bind]
  split_ifs
  · refine ⟨rfl, fun s2 h2 => ?_⟩
    simp only [Except.ok.injEq] at h2
    subst h2
    exact ⟨b, by simp [hd]⟩
  · refine ⟨rfl, fun s2 h2 => ?_⟩
    simp only [Except.ok.injEq] at h2
    subst h2
    exact ⟨hb, hd⟩

theorem exchange_chk_eq {n : Nat} {s : State} (hs : SB3 n s) {sc : Scan} (hsc : sc.Lt n) :
    exchange_chk n s sc = some (exchange n s sc) ∧
      ∀ s1, exchange n s sc = .ok s1 → SB3 n s1 := by
  have hs0 : SB3 n { s with move_value := 0, improvement_flag := sc.improvement_flag,
                            n_exchanges := s.n_exchanges + 1 } := hs
  obtain ⟨e3, b3⟩ := exchange3_chk_eq hs0 hsc
  rw [exchange_split]
  unfold exchange_chk
  by_cases c : sc.move_flag ≠ 0
  · simp only [if_pos c, e3, Option.some_bind]
    cases hx : exchange3 n { s with move_value := 0, improvement_flag := sc.improvement_flag,
                                    n_exchanges := s.n_exchanges + 1 } sc with
    | error e => exact ⟨rfl, fun s1 h1 => Except.noConfusion h1⟩
    | ok s1 => exact exchange_tail_chk_eq (b3 s1 hx) hsc
  · simp only [if_neg c, Option.some_bind]
    exact exchange_tail_chk_eq hs0 hsc

theorem three_opt_point_chk_eq {P : TspProblem} {n : Nat} {rv : List Nat} (hP : PBnd n P)
    (hrl : rv.length = n) (hrv : ∀ l, rd rv l < n) {s : State} (hs : SB3 n s) {l : Nat}
    (hl : l < n) :
    three_opt_point_chk P n rv s l = some (three_opt_point P n rv s l) ∧
      ∀ s1, three_opt_point P n rv s l = .ok s1 → SB3 n s1 := by
  obtain ⟨hb, hd⟩ := hs
  have c1 := hrv l
  have g1 : l < rv.length ∧ rd rv l < s.dlb.length := by
    rw [hrl, hd]; exact ⟨hl, c1⟩
  have g2 : rd rv l < s.arr.pos.length ∧ rd s.arr.pos (rd rv l) + 1 < s.arr.tour.length := by
    rw [hb.bnd.pos_len, hb.bnd.tour_len]
    exact ⟨c1, Nat.succ_lt_succ (hb.bnd.pos_lt _)⟩
  have g3 := @predAt_ok_of n s.arr.tour hb.bnd.tour_len hb.count_pos _ (hb.bnd.pos_lt (rd rv l))
  have h0 : (⟨false, 0, 0, 0, 0, 0, 0, 0, s.move_value, s.improvement_flag⟩ : Scan).Lt n :=
    ⟨hb.count_pos, hb.count_pos, hb.count_pos, hb.count_pos, hb.count_pos, hb.count_pos⟩
  obtain ⟨e1, b1⟩ := outer_search_chk_eq hP hb.bnd c1 (hb.bnd.tour_lt (rd s.arr.pos (rd rv l) + 1))
    (rd s.arr.pos (rd rv l)) (candidates n) _ (fun _ => mem_candidates_lt) h0
  simp only [three_opt_point_chk, three_opt_point, g1, g2, g3, and_self, if_true, e1,
    Option.some_bind]
  split_ifs with c
  · refine ⟨rfl, fun s1 h1 => ?_⟩
    simp only [Except.ok.injEq] at h1
    subst h1
    exact ⟨hb, hd⟩
  · cases hx : outer_search P n s.arr (rd rv l) (rd s.arr.tour (rd s.arr.pos (rd rv l) + 1))
        (rd s.arr.pos (rd rv l)) (candidates n)
        ⟨false, 0, 0, 0, 0, 0, 0, 0, s.move_value, s.improvement_flag⟩ with
    | error e => exact ⟨rfl, fun s1 h1 => Except.noConfusion h1⟩
    | ok sc =>
      dsimp only
      split_ifs with m
      · exact exchange_chk_eq ⟨hb, hd⟩ (b1 sc hx)
      · refine ⟨rfl, fun s1 h1 => ?_⟩
        simp only [Except.ok.injEq] at h1
        subst h1
        exact ⟨hb, by simp [hd]⟩

theorem three_opt_points_chk_eq {P : TspProblem} {n : Nat} {rv : List Nat} (hP : PBnd n P)
    (hrl : rv.length = n) (hrv : ∀ l, rd rv l < n) :
    ∀ (ls : List Nat) (s : State), (∀ l ∈ ls, l < n) → SB3 n s →
      three_opt_points_chk P n rv ls s = some (three_opt_points P n rv ls s) ∧
      ∀ s1, three_opt_points P n rv ls s = .ok s1 → SB3 n s1 := by
  intro ls
  induction ls with
  | nil =>
    intro s _ hs
    refine ⟨rfl, fun s1 h1 => ?_⟩
    simp only [three_opt_points, Except.ok.injEq] at h1
    subst h1
    exact hs
  | cons l ls ih =>
    intro s hall hs
    obtain ⟨e1, b1⟩ := three_opt_point_chk_eq hP hrl hrv hs (hall l (List.mem_cons_self _ _))
    simp only [three_opt_points_chk, three_opt_points, e1, Option.some_bind]
    cases hx : three_opt_point P n rv s l with
    | error e => exact ⟨rfl, fun s1 h1 => Except.noConfusion h1⟩
    | ok s1 => exact ih s1 (fun x hx => hall x (List.mem_cons_of_mem _ hx)) (b1 s1 hx)

theorem three_opt_loop_chk_eq {P : TspProblem} {n : Nat} {rv : List Nat} (hP : PBnd n P)
    (hrl : rv.length = n) (hrv : ∀ l, rd rv l < n) :
    ∀ (fuel : Nat) (s : State), SB3 n s →
      three_opt_loop_chk P n rv fuel s = some (three_opt_loop P n rv fuel s) := by
  intro fuel
  induction fuel with
  | zero => intro s _; rfl
  | succ f ih =>
    intro s hs
    simp only [three_opt_loop_chk, three_opt_loop, three_opt_sweep]
    split_ifs with c
    · obtain ⟨e1, b1⟩ := three_opt_points_chk_eq hP hrl hrv (List.range n)
        { s with move_value := 0, improvement_flag := false }
        (fun l hl => List.mem_range.mp hl) hs
      simp only [e1, Option.some_bind]
      cases hx : three_opt_points P n rv (List.range n)
          { s with move_value := 0, improvement_flag := false } with
      | error e => rfl
      | ok s1 => exact ih s1 (b1 s1 hx)
    · rfl

/-! ## Index safety: the initialisation and the engines -/

theorem rd_replicate_zero (m k : Nat) : rd (List.replicate m 0) k = 0 := by
  by_cases h : k < m
  · unfold rd
    rw [List.getD_eq_getElem?_getD, List.getElem?_eq_getElem (by simpa using h)]
    simp
  · exact rd_of_le (by simpa using h)

theorem init_pos_chk_eq {n : Nat} {tour : List Nat} (hl : tour.length = n + 1)
    (ht : ∀ i, rd tour i < n) :
    ∀ (is pos : List Nat), pos.length = n → (∀ c, rd pos c < n) → (∀ i ∈ is, i < n) →
      init_pos_chk tour n is pos = some (is.foldl (fun pos i => wr pos (rd tour i) i) pos) ∧
      (is.foldl (fun pos i => wr pos (rd tour i) i) pos).length = n ∧
      ∀ c, rd (is.foldl (fun pos i => wr pos (rd tour i) i) pos) c < n := by
  intro is
  induction is with
  | nil => intro pos hp hpl _; exact ⟨rfl, hp, hpl⟩
  | cons i is ih =>
    intro pos hp hpl hall
    have hi := hall i (List.mem_cons_self _ _)
    have g : i < tour.length ∧ rd tour i < pos.length ∧ i < n := by
      rw [hl, hp]; exact ⟨by omega, ht i, hi⟩
    simp only [init_pos_chk, g, and_self, if_true, List.foldl_cons]
    exact ih _ (by simp [hp]) (rd_wr_lt hpl _ hi) (fun x hx => hall x (List.mem_cons_of_mem _ hx))

theorem init_state_chk_eq {n : Nat} {tour : List Nat} (hl : tour.length = n + 1)
    (ht : ∀ i, rd tour i < n) (b : Nat) :
    init_state_chk n tour b = some (init_state n tour b) ∧ SB n (init_state n tour b) ∧
      (b = n → SB3 n (init_state n tour b)) := by
  have hn : 0 < n := Nat.lt_of_le_of_lt (Nat.zero_le _) (ht 0)
  obtain ⟨e, l, v⟩ := init_pos_chk_eq hl ht (List.range n) (List.replicate n 0) (by simp)
    (fun c => by rw [rd_replicate_zero]; exact hn) (fun i hi => List.mem_range.mp hi)
  have hb : Bnd n (init_state n tour b).arr := ⟨hl, l, ht, v⟩
  refine ⟨?_, ⟨hb, by simp [init_state]⟩, fun hbn => ⟨⟨hb, ?_, ?_, ?_, ?_⟩, by simp [init_state]⟩⟩
  · simp only [init_state_chk, e, Option.some_bind]
    rfl
  · simp [init_state, hbn]
  · simp [init_state, hbn]
  · intro i; show rd (List.replicate b 0) i < n; rw [rd_replicate_zero]; exact hn
  · intro i; show rd (List.replicate b 0) i < n; rw [rd_replicate_zero]; exact hn

theorem two_opt_loop_chk_zero (P : TspProblem) (rv : List Nat) :
    ∀ (fuel : Nat) (s : State),
      two_opt_loop_chk P 0 rv fuel s = some (two_opt_loop P 0 rv fuel s) := by
  intro fuel
  induction fuel with
  | zero => intro s; rfl
  | succ f ih =>
    intro s
    simp only [two_opt_loop_chk, two_opt_loop, two_opt_sweep, List.range_zero,
      two_opt_points_chk, Option.some_bind, List.foldl_nil, ih]
    split_ifs <;> rfl

theorem three_opt_loop_chk_zero (P : TspProblem) (rv : List Nat) :
    ∀ (fuel : Nat) (s : State),
      three_opt_loop_chk P 0 rv fuel s = some (three_opt_loop P 0 rv fuel s) := by
  intro fuel
  induction fuel with
  | zero => intro s; rfl
  | succ f ih =>
    intro s
    simp only [three_opt_loop_chk, three_opt_loop, three_opt_sweep, List.range_zero,
      three_opt_points_chk, three_opt_points, Option.some_bind, ih]
    split_ifs <;> rfl

theorem pbnd_of_sizes {P : TspProblem} {n : Nat} (hn : 0 < n) (hdl : P.distance.length = n)
    (hdr : ∀ i, i < n → (P.distance.getD i []).length = n) (hnl : P.nn_list.length = n)
    (hnr : ∀ i, i < n → (P.nn_list.getD i []).length = n - 1)
    (hnv : ∀ i, i < n → ∀ h, h < n - 1 → P.nn i h < n) : PBnd n P := by
  refine ⟨fun i j hi hj => ⟨by omega, by rw [hdr i hi]; exact hj⟩,
    fun i h hi hh => ⟨by omega, by rw [hnr i hi]; exact hh⟩, fun i h => ?_⟩
  by_cases hi : i < n
  · by_cases hh : h < n - 1
    · exact hnv i hi h hh
    · unfold TspProblem.nn
      rw [rd_of_le (by rw [hnr i hi]; omega)]
      exact hn
  · unfold TspProblem.nn
    rw [List.getD_eq_getElem?_getD, List.getElem?_eq_none (by omega)]
    exact hn

theorem engines_index_safe {P : TspProblem} {n : Nat} {rv tour : List Nat}
    (hlen : tour.length = n + 1) (hperm : tour.dropLast.Perm (List.range n))
    (hsent : rd tour n = rd tour 0) (hdl : P.distance.length = n)
    (hdr : ∀ i, i < n → (P.distance.getD i []).length = n) (hnl : P.nn_list.length = n)
    (hnr : ∀ i, i < n → (P.nn_list.getD i []).length = n - 1)
    (hnv : ∀ i, i < n → ∀ h, h < n - 1 → P.nn i h < n) (hrv : rv.Perm (List.range n))
    (fuel : Nat) :
    two_opt_first_chk fuel tour P rv = some (two_opt_first fuel tour P rv) ∧
      three_opt_first_chk fuel tour P rv = some (three_opt_first fuel tour P rv) := by
  have hn1 : tour.length - 1 = n := by omega
  simp only [two_opt_first_chk, two_opt_first, three_opt_first_chk, three_opt_first, hn1]
  rcases Nat.eq_zero_or_pos n with h0 | hn
  · subst h0
    exact ⟨by simpa [init_state_chk, init_pos_chk] using two_opt_loop_chk_zero P rv fuel _,
      by simpa [init_state_chk, init_pos_chk] using three_opt_loop_chk_zero P rv fuel _⟩
  · obtain ⟨_, v1, _, v3⟩ := validTour_of_perm hlen hperm hsent
    have ht : ∀ i, rd tour i < n := by
      intro i
      by_cases hi : i < n
      · exact v1 i hi
      · by_cases hi2 : i = n
        · rw [hi2, v3]; exact v1 0 hn
        · rw [rd_of_le (by omega)]; exact hn
    have hrl : rv.length = n := by rw [hrv.length_eq, List.length_range]
    have hrv2 : ∀ l, rd rv l < n := by
      intro l
      by_cases hl : l < n
      · exact (perm_range_covers hrv).1 l hl
      · rw [rd_of_le (by omega)]; exact hn
    have hP := pbnd_of_sizes hn hdl hdr hnl hnr hnv
    obtain ⟨e2, s2, _⟩ := init_state_chk_eq hlen ht 0
    obtain ⟨e3, _, s3⟩ := init_state_chk_eq hlen ht n
    simp only [e2, e3, Option.some_bind]
    exact ⟨two_opt_loop_chk_eq hP hrl hrv2 fuel _ s2,
      three_opt_loop_chk_eq hP hrl hrv2 fuel _ (s3 rfl)⟩

/-- Claim C37: index safety.  The checked engines `two_opt_first_chk` and
`three_opt_first_chk` execute the same statements as the engines and return
`none` as soon as one of them indexes `tour`, `pos`, `dlb`, `random_vector`,
`distance`, `nn_list`, `h_tour` or `hh_tour` outside its bounds.  For a tour
of size `n + 1` whose first `n` entries are a permutation of `0..n-1` and
whose last entry repeats the first, a distance table of `n` rows of `n`
entries, candidate lists of `n` rows of `n - 1` entries below `n`, and a scan
order that is a permutation of `0..n-1`, the checked engines return, for every
amount of fuel, exactly what the engines return: no access is out of
bounds. -/
theorem index_safety (P : TspProblem) (n : Nat) (rv tour : List Nat)
    (hlen : tour.length = n + 1) (hperm : tour.dropLast.Perm (List.range n))
    (hsent : rd tour n = rd tour 0) (hdl : P.distance.length = n)
    (hdr : ∀ i, i < n → (P.distance.getD i []).length = n) (hnl : P.nn_list.length = n)
    (hnr : ∀ i, i < n → (P.nn_list.getD i []).length = n - 1)
    (hnv : ∀ i, i < n → ∀ h, h < n - 1 → P.nn i h < n) (hrv : rv.Perm (List.range n)) :
    ∀ fuel, two_opt_first_chk fuel tour P rv = some (two_opt_first fuel tour P rv) ∧
      three_opt_first_chk fuel tour P rv = some (three_opt_first fuel tour P rv) :=
  fun fuel => engines_index_safe hlen hperm hsent hdl hdr hnl hnr hnv hrv fuel

theorem index_safety_witness :
    two_opt_first_chk 10 [0, 1, 2, 3, 4, 5, 6, 0] problem7 [3, 0, 6, 1, 5, 2, 4] =
        some (two_opt_first 10 [0, 1, 2, 3, 4, 5, 6, 0] problem7 [3, 0, 6, 1, 5, 2, 4]) ∧
      three_opt_first_chk 10 [0, 1, 2, 3, 4, 5, 6, 0] problem7 [3, 0, 6, 1, 5, 2, 4] =
        some (three_opt_first 10 [0, 1, 2, 3, 4, 5, 6, 0] problem7 [3, 0, 6, 1, 5, 2, 4]) :=
  index_safety problem7 7 [3, 0, 6, 1, 5, 2, 4] [0, 1, 2, 3, 4, 5, 6, 0] (by decide) (by decide)
    (by decide) (by decide!) (by decide!) (by decide!) (by decide!) (by decide!) (by decide) 10

/-- The checked engines do reject inputs that are not well formed: a tour
naming a city `7` among seven cities, a scan order naming it, and candidate
lists that are too short. -/
theorem checked_engines_reject :
    two_opt_first_chk 10 [0, 1, 2, 3, 4, 5, 7, 0] problem7 (List.range 7) = none ∧
    three_opt_first_chk 10 [0, 1, 2, 3, 4, 5, 6, 0] problem7 [0, 1, 2, 3, 4, 5, 7] = none ∧
    three_opt_first_chk 10 [0, 1, 2, 3, 4, 5, 6, 0]
      ⟨problem7.distance, problem7.nn_list.map fun r => r.take 2⟩ (List.range 7) = none := by
  decide!

/-! ## Rounding to `double`: where it is exact -/

theorem pow_log2f_le : ∀ (fuel n : Nat), 1 ≤ n → 2 ^ log2f fuel n ≤ n := by
  intro fuel
  induction fuel with
  | zero => intro n h; simpa [log2f] using h
  | succ f ih =>
    intro n h
    simp only [log2f]
    split_ifs with c
    · have := ih (n / 2) (by omega)
      rw [pow_succ]
      omega
    · simpa using h

theorem lt_pow_log2f : ∀ (fuel n : Nat), n ≤ fuel → n < 2 ^ (log2f fuel n + 1) := by
  intro fuel
  induction fuel with
  | zero => intro n h; simp [log2f]; omega
  | succ f ih =>
    intro n h
    simp only [log2f]
    split_ifs with c
    · have := ih (n / 2) (by omega)
      rw [pow_succ]
      omega
    · simp; omega

theorem scale2_eq (x : ℚ) (e : ℤ) : scale2 x e = x * (2 : ℚ) ^ e := by
  unfold scale2
  split_ifs with h
  · lift e to ℕ using h
    simp [zpow_natCast]
  · obtain ⟨k, rfl⟩ : ∃ k : ℕ, e = -(k : ℤ) := ⟨(-e).toNat, by omega⟩
    simp [zpow_neg, div_eq_mul_inv]

theorem abs_eq_natAbs_div (x : ℚ) : |x| = (x.num.natAbs : ℚ) / (x.den : ℚ) := by
  conv_lhs => rw [← Rat.num_div_den x]
  rw [abs_div, Nat.abs_cast, Nat.cast_natAbs, Int.cast_abs]

theorem two_zpow_flog2_le {x : ℚ} (hx : x ≠ 0) : (2 : ℚ) ^ flog2 x ≤ |x| := by
  unfold flog2
  simp only
  split_ifs with h
  · rwa [scale2_eq, one_mul] at h
  · have hp : 1 ≤ x.num.natAbs := by
      have : x.num ≠ 0 := Rat.num_ne_zero.mpr hx
      omega
    have h1 : ((2 ^ log2f x.num.natAbs x.num.natAbs : ℕ) : ℚ) ≤ (x.num.natAbs : ℚ) := by
      exact_mod_cast pow_log2f_le _ _ hp
    have h2 : (x.den : ℚ) ≤ ((2 ^ (log2f x.den x.den + 1) : ℕ) : ℚ) := by
      exact_mod_cast (lt_pow_log2f x.den x.den (le_refl _)).le
    have hq : (0 : ℚ) < x.den := by exact_mod_cast x.den_pos
    rw [abs_eq_natAbs_div, le_div_iff₀ hq]
    have e : (2 : ℚ) ^ ((log2f x.num.natAbs x.num.natAbs : ℤ) - (log2f x.den x.den : ℤ) - 1) =
        (2 : ℚ) ^ log2f x.num.natAbs x.num.natAbs / (2 : ℚ) ^ (log2f x.den x.den + 1) := by
      rw [sub_sub, zpow_sub₀ (by norm_num), zpow_natCast]
      congr 1
      exact_mod_cast zpow_natCast (2 : ℚ) (log2f x.den x.den + 1)
    rw [e, div_mul_eq_mul_div, div_le_iff₀ (by positivity)]
    push_cast at h1 h2
    calc (2 : ℚ) ^ log2f x.num.natAbs x.num.natAbs * (x.den : ℚ)
        ≤ (x.num.natAbs : ℚ) * (x.den : ℚ) := by
          exact mul_le_mul_of_nonneg_right h1 hq.le
      _ ≤ (x.num.natAbs : ℚ) * (2 : ℚ) ^ (log2f x.den x.den + 1) := by
          exact mul_le_mul_of_nonneg_left h2 (by positivity)

theorem ulpExp_nonpos {x : ℚ} (hx : x ≠ 0) (hb : |x| < 2 ^ 53) : ulpExp x ≤ 0 := by
  have h1 := two_zpow_flog2_le hx
  have h2 : (2 : ℚ) ^ flog2 x < (2 : ℚ) ^ (53 : ℤ) := by
    refine lt_of_le_of_lt h1 ?_
    exact_mod_cast hb
  have h3 : flog2 x < 53 := (zpow_lt_zpow_iff_right₀ (by norm_num : (1 : ℚ) < 2)).1 h2
  unfold ulpExp
  omega

theorem rne_intCast (m : ℤ) : rne (m : ℚ) = m := by
  unfold rne
  simp

theorem sub_half_le_rne (y : ℚ) : y - 1 / 2 ≤ (rne y : ℚ) := by
  unfold rne
  simp only
  have h1 : (⌊y⌋ : ℚ) ≤ y := Int.floor_le y
  have h2 : y < ⌊y⌋ + 1 := Int.lt_floor_add_one y
  split_ifs with a b c
  · linarith
  · push_cast; linarith
  · linarith
  · push_cast; linarith

theorem rne_le_of_le {y : ℚ} {M : ℤ} (h : y ≤ M) : rne y ≤ M := by
  unfold rne
  simp only
  have h1 : ⌊y⌋ ≤ M := Int.floor_le_iff.2 (by linarith [Int.floor_le y])
  have key : y - ⌊y⌋ ≠ 0 → ⌊y⌋ + 1 ≤ M := by
    intro hne
    have h3 : (⌊y⌋ : ℚ) < y := lt_of_le_of_ne (Int.floor_le y) (fun e => hne (by linarith))
    have h4 : (⌊y⌋ : ℚ) < M := lt_of_lt_of_le h3 h
    exact_mod_cast h4
  split_ifs with a b c
  · exact h1
  · exact key (by linarith)
  · exact h1
  · exact key (by push_neg at a b; linarith)

/-- Below `2^53` the last mantissa bit of a `double` weighs at most 1. -/
theorem rnd_small {x : ℚ} (hb : |x| < 2 ^ 53) :
    ∃ k : ℕ, rnd x = (rne (x * 2 ^ k) : ℚ) / 2 ^ k := by
  by_cases hx : x = 0
  · refine ⟨0, ?_⟩
    subst hx
    simp [rnd, rne]
  · have he := ulpExp_nonpos hx hb
    obtain ⟨k, hk⟩ : ∃ k : ℕ, ulpExp x = -(k : ℤ) := ⟨(-ulpExp x).toNat, by omega⟩
    refine ⟨k, ?_⟩
    unfold rnd
    rw [if_neg hx, hk, scale2_eq, scale2_eq]
    simp [zpow_neg, div_eq_mul_inv]

theorem rnd_intCast {z : ℤ} (hb : |z| < 2 ^ 53) : rnd (z : ℚ) = z := by
  obtain ⟨k, hk⟩ := @rnd_small (z : ℚ) (by exact_mod_cast hb)
  rw [hk]
  have e : (z : ℚ) * 2 ^ k = ((z * 2 ^ k : ℤ) : ℚ) := by push_cast; rfl
  rw [e, rne_intCast]
  push_cast
  field_simp

theorem rnd_le_int {x : ℚ} (hb : |x| < 2 ^ 53) {M : ℤ} (h : x ≤ M) : rnd x ≤ M := by
  obtain ⟨k, hk⟩ := rnd_small hb
  rw [hk, div_le_iff₀ (by positivity)]
  have h1 : x * 2 ^ k ≤ ((M * 2 ^ k : ℤ) : ℚ) := by
    push_cast
    exact mul_le_mul_of_nonneg_right h (by positivity)
  have h2 := rne_le_of_le h1
  exact_mod_cast h2

theorem sub_half_le_rnd {x : ℚ} (hb : |x| < 2 ^ 53) : x - 1 / 2 ≤ rnd x := by
  obtain ⟨k, hk⟩ := rnd_small hb
  rw [hk, le_div_iff₀ (by positivity)]
  have h1 := sub_half_le_rne (x * 2 ^ k)
  have h2 : (1 : ℚ) ≤ 2 ^ k := one_le_pow₀ (by norm_num)
  nlinarith

/-! ## Integer distances: the `double` sums of the engines are exact -/

theorem IntB.neg {x : ℚ} {m : ℕ} (h : IntB x m) : IntB (-x) m := by
  obtain ⟨z, rfl, hz⟩ := h
  exact ⟨-z, by push_cast; rfl, by rwa [abs_neg]⟩

theorem IntB.add {x y : ℚ} {m k : ℕ} (hx : IntB x m) (hy : IntB y k) : IntB (x + y) (m + k) := by
  obtain ⟨a, rfl, ha⟩ := hx
  obtain ⟨b, rfl, hb⟩ := hy
  refine ⟨a + b, by push_cast; rfl, ?_⟩
  have := abs_add a b
  push_cast
  linarith

theorem IntB.sub {x y : ℚ} {m k : ℕ} (hx : IntB x m) (hy : IntB y k) : IntB (x - y) (m + k) := by
  rw [sub_eq_add_neg]
  exact hx.add hy.neg

theorem IntB.mono {x : ℚ} {m k : ℕ} (h : IntB x m) (hmk : m ≤ k) : IntB x k := by
  obtain ⟨z, rfl, hz⟩ := h
  refine ⟨z, rfl, hz.trans ?_⟩
  have : (m : ℤ) ≤ k := by exact_mod_cast hmk
  nlinarith

theorem intB_zero (m : ℕ) : IntB 0 m :=
  ⟨0, by simp, by simp⟩

theorem intB_natCast {c : ℕ} (hc : c ≤ 2 ^ 48) : IntB (c : ℚ) 1 :=
  ⟨c, by simp, by
    rw [abs_of_nonneg (by positivity)]
    have : (c : ℤ) ≤ 2 ^ 48 := by exact_mod_cast hc
    simpa using this⟩

theorem IntB.rnd_eq {x : ℚ} {m : ℕ} (h : IntB x m) (hm : m ≤ 31) : rnd x = x := by
  obtain ⟨z, rfl, hz⟩ := h
  refine rnd_intCast (lt_of_le_of_lt hz ?_)
  have : (m : ℤ) ≤ 31 := by exact_mod_cast hm
  norm_num
  nlinarith

theorem fadd_eq {x y : ℚ} {m k : ℕ} (hx : IntB x m) (hy : IntB y k) (h : m + k ≤ 31) :
    fadd x y = x + y :=
  (hx.add hy).rnd_eq h

theorem fsub_eq {x y : ℚ} {m k : ℕ} (hx : IntB x m) (hy : IntB y k) (h : m + k ≤ 31) :
    fsub x y = x - y :=
  (hx.sub hy).rnd_eq h

theorem EPS_d_pos : 0 < EPS_d := by norm_num [EPS_d]

theorem EPS_d_lt_half : EPS_d < 1 / 2 := by norm_num [EPS_d]

theorem EPS_lt_EPS_d : EPS < EPS_d := by norm_num [EPS, EPS_d]

theorem int_lt_iff_of_small {g v : ℤ} {r : ℚ} (h1 : (v : ℚ) - 1 < r) (h2 : r ≤ v) :
    (g : ℚ) < r ↔ g < v := by
  constructor
  · intro h
    have : (g : ℚ) < v := lt_of_lt_of_le h h2
    exact_mod_cast this
  · intro h
    have : (g : ℚ) ≤ v - 1 := by
      have : g ≤ v - 1 := by omega
      exact_mod_cast this
    linarith

theorem lt_neg_eps_iff {g : ℚ} {m : ℕ} (hg : IntB g m) : g < -EPS_d ↔ g < -EPS := by
  obtain ⟨z, rfl, _⟩ := hg
  have a := @int_lt_iff_of_small z 0 (-EPS_d) (by have := EPS_d_lt_half; push_cast; linarith)
    (by have := EPS_d_pos; push_cast; linarith)
  have b := @int_lt_iff_of_small z 0 (-EPS) (by norm_num [EPS]) (by norm_num [EPS])
  rw [a, b]

theorem lt_sub_eps_iff {g v : ℚ} {m k : ℕ} (hg : IntB g m) (hv : IntB v k) (hk : k ≤ 15) :
    g < fsub v EPS_d ↔ g < v - EPS := by
  obtain ⟨z, rfl, _⟩ := hg
  obtain ⟨w, rfl, hw⟩ := hv
  have hb : |(w : ℚ) - EPS_d| < 2 ^ 53 := by
    have h1 : |(w : ℚ) - EPS_d| ≤ |(w : ℚ)| + |EPS_d| := abs_sub _ _
    have h2 : |EPS_d| = EPS_d := abs_of_pos EPS_d_pos
    have h3 : |(w : ℚ)| ≤ k * 2 ^ 48 := by exact_mod_cast hw
    have h4 : (k : ℚ) ≤ 15 := by exact_mod_cast hk
    have := EPS_d_lt_half
    rw [h2] at h1
    norm_num at h3 ⊢
    nlinarith
  have a := @int_lt_iff_of_small z w (fsub (w : ℚ) EPS_d)
    (by have := sub_half_le_rnd hb; have := EPS_d_lt_half; unfold fsub; linarith)
    (rnd_le_int hb (by have := EPS_d_pos; linarith))
  have b := @int_lt_iff_of_small z w ((w : ℚ) - EPS) (by norm_num [EPS]) (by norm_num [EPS])
  rw [a, b]

theorem getD_mem_or_default {α : Type} (l : List α) (i : Nat) (d : α) :
    l.getD i d ∈ l ∨ l.getD i d = d := by
  by_cases hi : i < l.length
  · left
    rw [List.getD_eq_getElem?_getD, List.getElem?_eq_getElem hi, Option.getD_some]
    exact List.getElem_mem hi
  · right
    rw [List.getD_eq_getElem?_getD, List.getElem?_eq_none (by omega)]
    rfl

theorem TspProblem.IntTable.dist {P : TspProblem} (h : P.IntTable) (i j : Nat) :
    IntB (P.dist i j) 1 := by
  unfold TspProblem.dist
  rcases getD_mem_or_default (P.distance.getD i []) j 0 with hd | hd
  · rcases getD_mem_or_default P.distance i [] with hr | hr
    · obtain ⟨h1, h2⟩ := h _ hr _ hd
      generalize (P.distance.getD i []).getD j 0 = d at h1 h2
      refine ⟨d.num, (Rat.coe_int_num_of_den_eq_one h1).symm, ?_⟩
      have h3 : |(d.num : ℚ)| ≤ 2 ^ 48 := by rwa [Rat.coe_int_num_of_den_eq_one h1]
      have h4 : |d.num| ≤ 2 ^ 48 := by exact_mod_cast h3
      simpa using h4
    · rw [hr] at hd
      cases hd
  · rw [hd]
    exact intB_zero 1

/-- The gain of a 2-opt move is computed without rounding. -/
theorem gain2_eq {a b c d : ℚ} (ha : IntB a 1) (hb : IntB b 1) (hc : IntB c 1) (hd : IntB d 1) :
    fsub (fadd (fadd (-a) b) c) d = -a + b + c - d ∧ IntB (-a + b + c - d) 4 := by
  have e1 : fadd (-a) b = -a + b := fadd_eq ha.neg hb (Nat.le_of_ble_eq_true rfl)
  have e2 : fadd (-a + b) c = -a + b + c :=
    fadd_eq (ha.neg.add hb) hc (Nat.le_of_ble_eq_true rfl)
  have e3 : fsub (-a + b + c) d = -a + b + c - d :=
    fsub_eq ((ha.neg.add hb).add hc) hd (Nat.le_of_ble_eq_true rfl)
  rw [e1, e2, e3]
  exact ⟨rfl, (((ha.neg.add hb).add hc).sub hd).mono (Nat.le_of_ble_eq_true rfl)⟩

theorem search_succ_d_eq {P : TspProblem} (hP : P.IntTable) (a : Arrays) (c1 s_c1 : Nat)
    {radius : ℚ} (hr : IntB radius 1) (hs : List Nat) :
    search_succ_d P a c1 s_c1 radius hs = search_succ P a c1 s_c1 radius hs := by
  induction hs with
  | nil => rfl
  | cons h hs ih =>
    have g := gain2_eq hr (hP.dist c1 (P.nn c1 h))
      (hP.dist s_c1 (rd a.tour (rd a.pos (P.nn c1 h) + 1)))
      (hP.dist (P.nn c1 h) (rd a.tour (rd a.pos (P.nn c1 h) + 1)))
    simp only [search_succ_d, search_succ, g.1, lt_neg_eps_iff g.2, ih]

theorem search_pred_d_eq {P : TspProblem} (hP : P.IntTable) (n : Nat) (a : Arrays)
    (c1 p_c1 : Nat) {radius : ℚ} (hr : IntB radius 1) (hs : List Nat) :
    search_pred_d P n a c1 p_c1 radius hs = search_pred P n a c1 p_c1 radius hs := by
  induction hs with
  | nil => rfl
  | cons h hs ih =>
    have g := gain2_eq hr (hP.dist c1 (P.nn c1 h))
      (hP.dist p_c1 (predAt n a.tour (rd a.pos (P.nn c1 h))))
      (hP.dist (predAt n a.tour (rd a.pos (P.nn c1 h))) (P.nn c1 h))
    simp only [search_pred_d, search_pred, g.1, lt_neg_eps_iff g.2, ih]

theorem find_move2_d_eq {P : TspProblem} (hP : P.IntTable) (n : Nat) (a : Arrays) (c1 : Nat) :
    find_move2_d P n a c1 = find_move2 P n a c1 := by
  simp only [find_move2_d, find_move2, search_succ_d_eq hP _ _ _ (hP.dist _ _),
    search_pred_d_eq hP _ _ _ _ (hP.dist _ _)]

theorem two_opt_point_d_eq {P : TspProblem} (hP : P.IntTable) (n : Nat) (rv : List Nat) :
    two_opt_point_d P n rv = two_opt_point P n rv := by
  funext s l
  simp only [two_opt_point_d, two_opt_point, find_move2_d_eq hP]

theorem two_opt_sweep_d_eq {P : TspProblem} (hP : P.IntTable) (n : Nat) (rv : List Nat)
    (s : State) : two_opt_sweep_d P n rv s = two_opt_sweep P n rv s := by
  simp only [two_opt_sweep_d, two_opt_sweep, two_opt_point_d_eq hP]

theorem two_opt_loop_d_eq {P : TspProblem} (hP : P.IntTable) (n : Nat) (rv : List Nat)
    (fuel : Nat) (s : State) : two_opt_loop_d P n rv fuel s = two_opt_loop P n rv fuel s := by
  induction fuel generalizing s with
  | zero => rfl
  | succ fuel ih => simp only [two_opt_loop_d, two_opt_loop, two_opt_sweep_d_eq hP, ih]

/-- On a table of integers of magnitude at most `2^48` no gain of the 2-opt
engine is rounded: the engine in `double` is the engine in exact
arithmetic. -/
theorem two_opt_first_d_eq {P : TspProblem} (hP : P.IntTable) (fuel : Nat) (tour rv : List Nat) :
    two_opt_first_d fuel tour P rv = two_opt_first fuel tour P rv := by
  simp only [two_opt_first_d, two_opt_first, two_opt_loop_d_eq hP]

theorem outer_search_d_cons (P : TspProblem) (n : Nat) (a : Arrays) (c1 s_c1 pos_c1 h : Nat)
    (hs : List Nat) (sc : Scan) :
    outer_search_d P n a c1 s_c1 pos_c1 (h :: hs) sc =
      if P.dist c1 s_c1 > P.dist c1 (P.nn c1 h) then
        match inner_search_d P n a c1 s_c1 (P.nn c1 h) (rd a.tour (rd a.pos (P.nn c1 h) + 1))
            (predAt n a.tour (rd a.pos (P.nn c1 h))) pos_c1 (rd a.pos (P.nn c1 h))
            (P.dist c1 s_c1) (P.dist c1 (P.nn c1 h))
            (fsub (- P.dist c1 s_c1) (P.dist (P.nn c1 h) (rd a.tour (rd a.pos (P.nn c1 h) + 1))))
            (memo2_d P n a c1 s_c1 (P.nn c1 h) sc) (candidates n) with
        | .jump sc1 => .ok sc1
        | .failed => .error .assertFalse
        | .fallthrough =>
          outer_search_d P n a c1 s_c1 pos_c1 hs (memo2_d P n a c1 s_c1 (P.nn c1 h) sc)
      else .ok sc := rfl

theorem breaks_eq {a b : ℚ} (ha : IntB a 1) (hb : IntB b 1) :
    fsub (-a) b = -a - b ∧ IntB (-a - b) 2 :=
  ⟨fsub_eq ha.neg hb (Nat.le_of_ble_eq_true rfl), (ha.neg.sub hb).mono (Nat.le_of_ble_eq_true rfl)⟩

theorem diff_eq {a b c d : ℚ} (ha : IntB a 1) (hb : IntB b 1) (hc : IntB c 1) (hd : IntB d 1) :
    fadd (fadd (fsub (-a) b) c) d = -a - b + c + d ∧ IntB (-a - b + c + d) 6 := by
  have e1 : fsub (-a) b = -a - b := (breaks_eq ha hb).1
  have i1 : IntB (-a - b) 2 := (breaks_eq ha hb).2
  have e2 : fadd (-a - b) c = -a - b + c := fadd_eq i1 hc (Nat.le_of_ble_eq_true rfl)
  have i2 : IntB (-a - b + c) 3 := (i1.add hc).mono (Nat.le_of_ble_eq_true rfl)
  have e3 : fadd (-a - b + c) d = -a - b + c + d := fadd_eq i2 hd (Nat.le_of_ble_eq_true rfl)
  have i3 : IntB (-a - b + c + d) 4 := (i2.add hd).mono (Nat.le_of_ble_eq_true rfl)
  rw [e1, e2, e3]
  exact ⟨rfl, i3.mono (Nat.le_of_ble_eq_true rfl)⟩

theorem gainA_eq {db x a1 a2 y : ℚ} (hdb : IntB db 2) (hx : IntB x 1) (h1 : IntB a1 1)
    (h2 : IntB a2 1) (hy : IntB y 1) :
    fadd (fadd (fadd (fsub db x) a1) a2) y = db - x + a1 + a2 + y ∧
      IntB (db - x + a1 + a2 + y) 6 := by
  have e1 : fsub db x = db - x := fsub_eq hdb hx (Nat.le_of_ble_eq_true rfl)
  have i1 : IntB (db - x) 3 := (hdb.sub hx).mono (Nat.le_of_ble_eq_true rfl)
  have e2 : fadd (db - x) a1 = db - x + a1 := fadd_eq i1 h1 (Nat.le_of_ble_eq_true rfl)
  have i2 : IntB (db - x + a1) 4 := (i1.add h1).mono (Nat.le_of_ble_eq_true rfl)
  have e3 : fadd (db - x + a1) a2 = db - x + a1 + a2 :=
    fadd_eq i2 h2 (Nat.le_of_ble_eq_true rfl)
  have i3 : IntB (db - x + a1 + a2) 5 := (i2.add h2).mono (Nat.le_of_ble_eq_true rfl)
  have e4 : fadd (db - x + a1 + a2) y = db - x + a1 + a2 + y :=
    fadd_eq i3 hy (Nat.le_of_ble_eq_true rfl)
  have i4 : IntB (db - x + a1 + a2 + y) 6 := (i3.add hy).mono (Nat.le_of_ble_eq_true rfl)
  rw [e1, e2, e3, e4]
  exact ⟨rfl, i4⟩

theorem gainB_eq {r x y a1 a2 z : ℚ} (hr : IntB r 1) (hx : IntB x 1) (hy : IntB y 1)
    (h1 : IntB a1 1) (h2 : IntB a2 1) (hz : IntB z 1) :
    fadd (fadd (fadd (fsub (fsub (-r) x) y) a1) a2) z = -r - x - y + a1 + a2 + z ∧
      IntB (-r - x - y + a1 + a2 + z) 6 := by
  have e0 := breaks_eq hr hx
  have e1 := gainA_eq e0.2 hy h1 h2 hz
  rw [e0.1]
  exact e1

theorem intB_ite {c : Prop} [Decidable c] {x y : ℚ} {m : ℕ} (hx : IntB x m) (hy : IntB y m) :
    IntB (if c then x else y) m := by
  split_ifs
  · exact hx
  · exact hy

theorem intB_20000 : IntB 20000 6 :=
  ⟨20000, by norm_num, by norm_num⟩

theorem intB_2000000 : IntB 2000000 6 :=
  ⟨2000000, by norm_num, by norm_num⟩

theorem memo2_d_eq {P : TspProblem} (hP : P.IntTable) (n : Nat) (a : Arrays) (c1 s_c1 c2 : Nat)
    {sc : Scan} (hsc : IntB sc.move_value 6) :
    memo2_d P n a c1 s_c1 c2 sc = memo2 P n a c1 s_c1 c2 sc := by
  have ds := diff_eq (hP.dist c1 s_c1) (hP.dist c2 (rd a.tour (rd a.pos c2 + 1)))
    (hP.dist c1 c2) (hP.dist s_c1 (rd a.tour (rd a.pos c2 + 1)))
  have dp := diff_eq (hP.dist c1 s_c1) (hP.dist c2 (predAt n a.tour (rd a.pos c2)))
    (hP.dist c1 (predAt n a.tour (rd a.pos c2))) (hP.dist s_c1 c2)
  have dp2 : IntB (if predAt n a.tour (rd a.pos c2) = c1 then 0
      else - P.dist c1 s_c1 - P.dist c2 (predAt n a.tour (rd a.pos c2))
        + P.dist c1 (predAt n a.tour (rd a.pos c2)) + P.dist s_c1 c2) 6 :=
    intB_ite (intB_zero 6) dp.2
  simp only [memo2_d, memo2, ds.1, dp.1,
    lt_sub_eps_iff ds.2 hsc (Nat.le_of_ble_eq_true rfl),
    lt_sub_eps_iff dp2 hsc (Nat.le_of_ble_eq_true rfl)]

theorem memo2_intB {P : TspProblem} (hP : P.IntTable) (n : Nat) (a : Arrays) (c1 s_c1 c2 : Nat)
    {sc : Scan} (hsc : IntB sc.move_value 6) :
    IntB (memo2 P n a c1 s_c1 c2 sc).move_value 6 := by
  have ds := diff_eq (hP.dist c1 s_c1) (hP.dist c2 (rd a.tour (rd a.pos c2 + 1)))
    (hP.dist c1 c2) (hP.dist s_c1 (rd a.tour (rd a.pos c2 + 1)))
  have dp := diff_eq (hP.dist c1 s_c1) (hP.dist c2 (predAt n a.tour (rd a.pos c2)))
    (hP.dist c1 (predAt n a.tour (rd a.pos c2))) (hP.dist s_c1 c2)
  have dp2 : IntB (if predAt n a.tour (rd a.pos c2) = c1 then 0
      else - P.dist c1 s_c1 - P.dist c2 (predAt n a.tour (rd a.pos c2))
        + P.dist c1 (predAt n a.tour (rd a.pos c2)) + P.dist s_c1 c2) 6 :=
    intB_ite (intB_zero 6) dp.2
  unfold memo2
  simp only
  split_ifs <;> first | exact ds.2 | exact dp.2 | exact intB_zero 6 | exact hsc

theorem inner_search_d_eq {P : TspProblem} (hP : P.IntTable) (n : Nat) (a : Arrays)
    (c1 s_c1 c2 s_c2 p_c2 pos_c1 pos_c2 : Nat) {radius add1 db : ℚ} (hr : IntB radius 1)
    (h1 : IntB add1 1) (hdb : IntB db 2) {sc : Scan} (hsc : IntB sc.move_value 6)
    (gs : List Nat) :
    inner_search_d P n a c1 s_c1 c2 s_c2 p_c2 pos_c1 pos_c2 radius add1 db sc gs =
      inner_search P n a c1 s_c1 c2 s_c2 p_c2 pos_c1 pos_c2 radius add1 db sc gs := by
  induction gs with
  | nil => rfl
  | cons g gs ih =>
    have k : 6 ≤ 15 := Nat.le_of_ble_eq_true rfl
    have e0 : fadd db add1 = db + add1 := fadd_eq hdb h1 (Nat.le_of_ble_eq_true rfl)
    have h2 := hP.dist s_c1 (P.nn s_c1 g)
    have g1 := gainA_eq hdb
      (hP.dist (P.nn s_c1 g) (predAt n a.tour (rd a.pos (P.nn s_c1 g)))) h1 h2
      (hP.dist (predAt n a.tour (rd a.pos (P.nn s_c1 g))) s_c2)
    have g2 := gainA_eq hdb
      (hP.dist (P.nn s_c1 g) (rd a.tour (rd a.pos (P.nn s_c1 g) + 1))) h1 h2
      (hP.dist s_c2 (rd a.tour (rd a.pos (P.nn s_c1 g) + 1)))
    have g2i : IntB (if pos_c2 = rd a.pos (P.nn s_c1 g) then 20000
        else db - P.dist (P.nn s_c1 g) (rd a.tour (rd a.pos (P.nn s_c1 g) + 1)) + add1
          + P.dist s_c1 (P.nn s_c1 g)
          + P.dist s_c2 (rd a.tour (rd a.pos (P.nn s_c1 g) + 1))) 6 :=
      intB_ite intB_20000 g2.2
    have g3 := gainB_eq hr (hP.dist p_c2 c2)
      (hP.dist (predAt n a.tour (rd a.pos (P.nn s_c1 g))) (P.nn s_c1 g)) h1 h2
      (hP.dist p_c2 (predAt n a.tour (rd a.pos (P.nn s_c1 g))))
    have g3i : IntB (if P.nn s_c1 g = c2 ∨ c2 = c1 ∨ c1 = P.nn s_c1 g ∨ p_c2 = c1 then 2000000
        else - radius - P.dist p_c2 c2
          - P.dist (predAt n a.tour (rd a.pos (P.nn s_c1 g))) (P.nn s_c1 g) + add1
          + P.dist s_c1 (P.nn s_c1 g)
          + P.dist p_c2 (predAt n a.tour (rd a.pos (P.nn s_c1 g)))) 6 :=
      intB_ite intB_2000000 g3.2
    have g4 := gainB_eq hr (hP.dist p_c2 c2)
      (hP.dist (P.nn s_c1 g) (rd a.tour (rd a.pos (P.nn s_c1 g) + 1))) h1 h2
      (hP.dist p_c2 (rd a.tour (rd a.pos (P.nn s_c1 g) + 1)))
    simp only [inner_search_d, inner_search, e0, g1.1, g2.1, g3.1, g4.1,
      lt_sub_eps_iff g1.2 hsc k, lt_sub_eps_iff g2i hsc k, lt_sub_eps_iff g3i hsc k,
      lt_sub_eps_iff g4.2 hsc k, ih]

theorem outer_search_d_eq {P : TspProblem} (hP : P.IntTable) (n : Nat) (a : Arrays)
    (c1 s_c1 pos_c1 : Nat) (hs : List Nat) {sc : Scan} (hsc : IntB sc.move_value 6) :
    outer_search_d P n a c1 s_c1 pos_c1 hs sc = outer_search P n a c1 s_c1 pos_c1 hs sc := by
  induction hs generalizing sc with
  | nil => rfl
  | cons h hs ih =>
    have hb := breaks_eq (hP.dist c1 s_c1)
      (hP.dist (P.nn c1 h) (rd a.tour (rd a.pos (P.nn c1 h) + 1)))
    have hm := memo2_intB hP n a c1 s_c1 (P.nn c1 h) hsc
    rw [outer_search_d_cons, outer_search_cons, memo2_d_eq hP n a c1 s_c1 (P.nn c1 h) hsc, hb.1,
      inner_search_d_eq hP n a c1 s_c1 _ _ _ pos_c1 _ (hP.dist c1 s_c1) (hP.dist c1 (P.nn c1 h))
        hb.2 hm, ih hm]

theorem exchange_move_value {n : Nat} {s s1 : State} {sc : Scan}
    (h : exchange n s sc = .ok s1) : s1.move_value = 0 := by
  unfold exchange at h
  simp only at h
  split_ifs at h <;> (simp only [Except.ok.injEq] at h; subst h; rfl)

theorem three_opt_point_d_eq {P : TspProblem} (hP : P.IntTable) (n : Nat) (rv : List Nat)
    {s : State} (hs : s.move_value = 0) (l : Nat) :
    three_opt_point_d P n rv s l = three_opt_point P n rv s l := by
  have hsc : IntB s.move_value 6 := hs ▸ intB_zero 6
  unfold three_opt_point_d three_opt_point
  simp only
  rw [outer_search_d_eq hP n s.arr _ _ _ _ hsc]

theorem three_opt_point_move_value {P : TspProblem} {n : Nat} {rv : List Nat} {s s1 : State}
    {l : Nat} (hs : s.move_value = 0) (h : three_opt_point P n rv s l = .ok s1) :
    s1.move_value = 0 := by
  unfold three_opt_point at h
  simp only at h
  split_ifs at h with hd
  · cases h
    exact hs
  · split at h
    · cases h
    · split_ifs at h
      · exact exchange_move_value h
      · cases h
        exact hs

theorem three_opt_points_d_eq {P : TspProblem} (hP : P.IntTable) (n : Nat) (rv : List Nat)
    (ls : List Nat) {s : State} (hs : s.move_value = 0) :
    three_opt_points_d P n rv ls s = three_opt_points P n rv ls s := by
  induction ls generalizing s with
  | nil => rfl
  | cons l ls ih =>
    unfold three_opt_points_d three_opt_points
    rw [three_opt_point_d_eq hP n rv hs l]
    cases hp : three_opt_point P n rv s l with
    | error e => rfl
    | ok s1 => exact ih (three_opt_point_move_value hs hp)

theorem three_opt_loop_d_eq {P : TspProblem} (hP : P.IntTable) (n : Nat) (rv : List Nat)
    (fuel : Nat) (s : State) :
    three_opt_loop_d P n rv fuel s = three_opt_loop P n rv fuel s := by
  induction fuel generalizing s with
  | zero => rfl
  | succ fuel ih =>
    unfold three_opt_loop_d three_opt_loop three_opt_sweep
    rw [three_opt_points_d_eq hP n rv _ rfl]
    simp only [ih]

/-- On a table of integers of magnitude at most `2^48` no gain of the 3-opt
engine is rounded: the engine in `double` is the engine in exact
arithmetic. -/
theorem three_opt_first_d_eq {P : TspProblem} (hP : P.IntTable) (fuel : Nat)
    (tour rv : List Nat) :
    three_opt_first_d fuel tour P rv = three_opt_first fuel tour P rv := by
  simp only [three_opt_first_d, three_opt_first, three_opt_loop_d_eq hP]

/-- The constructor copies the oracle's distances: when these are integers of
magnitude at most `2^48` on the cities of the tour, so is the table. -/
theorem ofTour_intTable {inst : Oracle} {T : Tour} {P : TspProblem}
    (h : TspProblem.ofTour inst T = .ok P)
    (hint : ∀ i, i < T.length - 1 → ∀ j, j < T.length - 1 →
      (inst (T.get i) (T.get j)).den = 1 ∧ |inst (T.get i) (T.get j)| ≤ 2 ^ 48) :
    P.IntTable := by
  unfold TspProblem.ofTour at h
  split_ifs at h with h1
  cases h
  intro row hrow d hd
  simp only [List.mem_map, List.mem_range] at hrow
  obtain ⟨i, hi, rfl⟩ := hrow
  simp only [List.mem_map, List.mem_range] at hd
  obtain ⟨j, hj, rfl⟩ := hd
  exact hint i hi j hj

/-- On an oracle of integers of magnitude at most `2^48` no gain is rounded:
`optimize` with the engines in `double` is `optimize` with the engines in
exact arithmetic. -/
theorem optimize_d_eq (fuel : Nat) {inst : Oracle} {T : Tour} (rv : List Nat)
    (m : OptimizeMethod)
    (hint : ∀ i, i < T.length - 1 → ∀ j, j < T.length - 1 →
      (inst (T.get i) (T.get j)).den = 1 ∧ |inst (T.get i) (T.get j)| ≤ 2 ^ 48) :
    optimize_d fuel inst T rv m = optimize fuel inst T rv m := by
  unfold optimize_d optimize
  cases hP : TspProblem.ofTour inst T with
  | error e => rfl
  | ok P =>
    have hI := ofTour_intTable hP hint
    cases m with
    | twoOptsMethod =>
      simp only [two_opt_first_d_eq hI]
    | threeOptsMethod =>
      simp only [three_opt_first_d_eq hI]

theorem two_opt_point_d_exchanges (P : TspProblem) (n : Nat) (rv : List Nat) (s : State)
    (l : Nat) : s.n_exchanges ≤ (two_opt_point_d P n rv s l).n_exchanges := by
  unfold two_opt_point_d
  simp only
  split_ifs
  · exact le_refl _
  · split
    · exact Nat.le_succ _
    · exact le_refl _

theorem two_opt_points_d_exchanges (P : TspProblem) (n : Nat) (rv : List Nat) (ls : List Nat)
    (s : State) : s.n_exchanges ≤ (ls.foldl (two_opt_point_d P n rv) s).n_exchanges := by
  induction ls generalizing s with
  | nil => exact le_refl _
  | cons l ls ih =>
    rw [List.foldl_cons]
    exact (two_opt_point_d_exchanges P n rv s l).trans (ih _)

theorem two_opt_loop_d_exchanges (P : TspProblem) (n : Nat) (rv : List Nat) :
    ∀ (fuel : Nat) (s s1 : State), two_opt_loop_d P n rv fuel s = .ok s1 →
      s.n_exchanges ≤ s1.n_exchanges := by
  intro fuel
  induction fuel with
  | zero => intro s s1 h; cases h
  | succ f ih =>
    intro s s1 h
    unfold two_opt_loop_d at h
    split_ifs at h with hf
    · have h1 := ih _ _ h
      have h2 : s.n_exchanges ≤ (two_opt_sweep_d P n rv s).n_exchanges :=
        two_opt_points_d_exchanges P n rv (List.range n) { s with improvement_flag := false }
      exact h2.trans h1
    · cases h
      exact le_refl _

theorem two_opt_loop_d_mono (P : TspProblem) (n : Nat) (rv : List Nat) :
    ∀ (fuel : Nat) (s s1 : State), two_opt_loop_d P n rv fuel s = .ok s1 →
      ∀ k, two_opt_loop_d P n rv (fuel + k) s = .ok s1 := by
  intro fuel
  induction fuel with
  | zero => intro s s1 h; cases h
  | succ f ih =>
    intro s s1 h k
    rw [Nat.add_right_comm]
    unfold two_opt_loop_d at h ⊢
    split_ifs at h ⊢ with hf
    · exact ih _ _ h k
    · exact h

theorem optimize_d_mono {fuel : Nat} {inst : Oracle} {T : Tour} {rv : List Nat} {out : Tour}
    (h : optimize_d fuel inst T rv .twoOptsMethod = .ok out) (k : Nat) :
    optimize_d (fuel + k) inst T rv .twoOptsMethod = .ok out := by
  unfold optimize_d at h ⊢
  cases hP : TspProblem.ofTour inst T with
  | error e => rw [hP] at h; cases h
  | ok P =>
    rw [hP] at h
    simp only at h ⊢
    unfold two_opt_first_d at h ⊢
    simp only at h ⊢
    cases hl : two_opt_loop_d P ((local_nodes T.length).length - 1) rv fuel
        (init_state ((local_nodes T.length).length - 1) (local_nodes T.length) 0) with
    | error e => rw [hl] at h; cases h
    | ok s =>
      rw [hl] at h
      rw [two_opt_loop_d_mono P _ rv fuel _ s hl k]
      exact h

/-- Counterexample to claim C18 as stated: the tour `0 1 2 3 0` with the
symmetric distances `table4r` (all of them `double` values) and the scan order
`0, 1, 2, 3`.  No exchange of two tour edges lowers the cost by more than
`EPS`, and in exact arithmetic the two searches for `c1 = 0` find no move.
For `c1 = 0`, `c2 = 2` the source computes the gain
`((-2^54 + 1) + 2^54) - 1` in `double`: the first sum is rounded to `-2^54`,
the result is `-1 < -EPS`, and the move `h1..h4 = 0 1 2 3` is accepted; the
tour becomes `0 2 1 3 0`.  The first pass of `two_opt_first` accepts three
moves, the loop has not ended after 40 passes, and every run that returns has
accepted at least three moves. -/
theorem rounded_gain_moves_optimal_tour :
    (∀ i, i < 4 → ∀ j, j < 4 → problem4r.dist i j = problem4r.dist j i) ∧
    (∀ i, i < 4 → ∀ j, j < 4 → rnd (problem4r.dist i j) = problem4r.dist i j) ∧
    ([0, 1, 2, 3, 0] : List Nat).dropLast.Perm (List.range 4) ∧
    ([0, 1, 2, 3] : List Nat).Perm (List.range 4) ∧
    TwoOptimal problem4r 4 [0, 1, 2, 3, 0] ∧
    find_move2 problem4r 4 (init_state 4 [0, 1, 2, 3, 0] 0).arr 0 = none ∧
    find_move2_d problem4r 4 (init_state 4 [0, 1, 2, 3, 0] 0).arr 0 = some ⟨0, 1, 2, 3, -1⟩ ∧
    (two_opt_point_d problem4r 4 [0, 1, 2, 3] (init_state 4 [0, 1, 2, 3, 0] 0) 0).arr.tour =
      [0, 2, 1, 3, 0] ∧
    (two_opt_sweep_d problem4r 4 [0, 1, 2, 3] (init_state 4 [0, 1, 2, 3, 0] 0)).n_exchanges = 3 ∧
    two_opt_first_d 40 [0, 1, 2, 3, 0] problem4r [0, 1, 2, 3] = .error .outOfFuel ∧
    ∀ fuel s, two_opt_first_d fuel [0, 1, 2, 3, 0] problem4r [0, 1, 2, 3] = .ok s →
      3 ≤ s.n_exchanges := by
  have h3 : (two_opt_sweep_d problem4r 4 [0, 1, 2, 3]
      (init_state 4 [0, 1, 2, 3, 0] 0)).n_exchanges = 3 := by decide!
  refine ⟨by decide!, by decide!, by decide, by decide, by unfold TwoOptimal; decide!,
    by decide!, by decide!, by decide!, h3, by decide!, fun fuel s h => ?_⟩
  cases fuel with
  | zero => cases h
  | succ f =>
    have h1 : two_opt_loop_d problem4r 4 [0, 1, 2, 3] f
        (two_opt_sweep_d problem4r 4 [0, 1, 2, 3] (init_state 4 [0, 1, 2, 3, 0] 0)) = .ok s := h
    have h2 := two_opt_loop_d_exchanges problem4r 4 [0, 1, 2, 3] f _ s h1
    rw [h3] at h2
    exact h2

/-- Claim C18, amended: already-optimal tours are left alone when no gain is
rounded.  For a tour of the cities `0..n-1` with `tour[n] == tour[0]`,
candidate lists that hold other cities and a scan order within `0..n-1`: if
no pair of edges `(a, succ a)`, `(b, succ b)` of the input cycle can be
exchanged for `(a, b)`, `(succ a, succ b)` with a cost decrease of more than
`EPS`, then `two_opt_first` returns, after two evaluations of its loop
condition, with zero accepted moves and the tour array unchanged.  This holds
for the engine in exact arithmetic on every distance table, and for the
engine in `double` on every table of integers of magnitude at most `2^48`,
where each gain is computed without rounding.  The symmetry of the distance
submatrix is not needed. -/
theorem optimal_tour_untouched_unrounded (P : TspProblem) (n : Nat) (rv tour : List Nat)
    (hP : WFP n P) (hrv : ∀ l, l < n → rd rv l < n) (hlen : tour.length = n + 1)
    (hperm : tour.dropLast.Perm (List.range n)) (hsent : rd tour n = rd tour 0)
    (hopt : TwoOptimal P n tour) (fuel : Nat) :
    (∃ s, two_opt_first (fuel + 2) tour P rv = .ok s ∧ s.arr.tour = tour ∧
      s.n_exchanges = 0) ∧
    (P.IntTable →
      ∃ s, two_opt_first_d (fuel + 2) tour P rv = .ok s ∧ s.arr.tour = tour ∧
        s.n_exchanges = 0) := by
  have h := optimal_tour_untouched P n rv tour hP hrv hlen hperm hsent hopt fuel
  refine ⟨h, fun hI => ?_⟩
  rw [two_opt_first_d_eq hI]
  exact h

theorem optimal_tour_untouched_unrounded_witness :
    (problemOf (tableOracle table6) tour6).IntTable ∧
    (∃ s, two_opt_first (0 + 2) [0, 3, 1, 2, 4, 5, 0] (problemOf (tableOracle table6) tour6)
        [3, 1, 4, 0, 5, 2] = .ok s ∧
      s.arr.tour = [0, 3, 1, 2, 4, 5, 0] ∧ s.n_exchanges = 0) ∧
    ∃ s, two_opt_first_d (0 + 2) [0, 3, 1, 2, 4, 5, 0] (problemOf (tableOracle table6) tour6)
        [3, 1, 4, 0, 5, 2] = .ok s ∧
      s.arr.tour = [0, 3, 1, 2, 4, 5, 0] ∧ s.n_exchanges = 0 :=
  ⟨by decide!,
    (optimal_tour_untouched_unrounded (problemOf (tableOracle table6) tour6) 6
      [3, 1, 4, 0, 5, 2] [0, 3, 1, 2, 4, 5, 0]
      (ofTour_wfp (problemOf_ok (tableOracle table6) tour6 (by decide)))
      (by decide) (by decide) (by decide) (by decide) (by unfold TwoOptimal; decide!) 0).1,
    (optimal_tour_untouched_unrounded (problemOf (tableOracle table6) tour6) 6
      [3, 1, 4, 0, 5, 2] [0, 3, 1, 2, 4, 5, 0]
      (ofTour_wfp (problemOf_ok (tableOracle table6) tour6 (by decide)))
      (by decide) (by decide) (by decide) (by decide) (by unfold TwoOptimal; decide!) 0).2
      (by decide!)⟩

theorem foldl_fadd_eq (f : Nat → ℚ) :
    ∀ (l : List Nat) (acc : ℚ) (m : Nat), (∀ i ∈ l, IntB (f i) 1) → IntB acc m →
      m + l.length ≤ 31 →
      l.foldl (fun s i => fadd s (f i)) acc = l.foldl (fun s i => s + f i) acc := by
  intro l
  induction l with
  | nil => intro acc m _ _ _; rfl
  | cons x l ih =>
    intro acc m hf ha hm
    rw [List.length_cons] at hm
    have hx := hf x (List.mem_cons_self _ _)
    rw [List.foldl_cons, List.foldl_cons, fadd_eq ha hx (by omega)]
    exact ih _ (m + 1) (fun i hi => hf i (List.mem_cons_of_mem _ hi)) (ha.add hx) (by omega)

theorem rd_mem {l : List Nat} {i : Nat} (h : i < l.length) : rd l i ∈ l := by
  unfold rd
  rw [List.getD_eq_getElem?_getD, List.getElem?_eq_getElem h, Option.getD_some]
  exact List.getElem_mem _

/-- The sum of at most 31 integers of magnitude at most `2^48` is not rounded:
on such a tour `calculateCost` yields the same value in `double` and in exact
arithmetic. -/
theorem calculateCost_d_eq (t : Tour) (inst : Oracle)
    (hint : ∀ x ∈ t.nodes, ∀ y ∈ t.nodes, IntB (inst x y) 1) (hlen : t.nodes.length - 1 ≤ 31) :
    t.calculateCost_d inst = t.calculateCost inst := by
  unfold Tour.calculateCost_d Tour.calculateCost
  refine foldl_fadd_eq (fun i => inst (rd t.nodes (i - 1)) (rd t.nodes i)) _ 0 0 ?_
    (intB_zero 0) (by rw [List.length_range']; omega)
  intro i hi
  rw [List.mem_range'_1] at hi
  exact hint _ (rd_mem (by omega)) _ (rd_mem (by omega))

theorem intB_of_den {d : ℚ} (h : d.den = 1 ∧ |d| ≤ 2 ^ 48) : IntB d 1 := by
  obtain ⟨h1, h2⟩ := h
  refine ⟨d.num, ?_, ?_⟩
  · exact (Rat.coe_int_num_of_den_eq_one h1).symm
  · have e : (d : ℚ) = (d.num : ℚ) := (Rat.coe_int_num_of_den_eq_one h1).symm
    rw [e] at h2
    have : ((|d.num| : ℤ) : ℚ) ≤ ((2 ^ 48 : ℤ) : ℚ) := by
      push_cast
      exact h2
    have h3 : |d.num| ≤ (2 : ℤ) ^ 48 := by exact_mod_cast this
    simpa using h3

/-- The nodes of a closed tour are its entries `0..n-1`. -/
theorem mem_nodes_get {T : Tour} (hL : 2 ≤ T.length) (hT : T.get 0 = T.get (T.length - 1))
    {x : Nat} (hx : x ∈ T.nodes) : ∃ i, i < T.length - 1 ∧ x = T.get i := by
  obtain ⟨i, hi, rfl⟩ := List.getElem_of_mem hx
  have hi2 : i < T.length := hi
  have e : T.get i = T.nodes[i] := by
    unfold Tour.get rd
    rw [List.getD_eq_getElem?_getD, List.getElem?_eq_getElem hi, Option.getD_some]
  by_cases h : i < T.length - 1
  · exact ⟨i, h, e.symm⟩
  · have hi3 : i = T.length - 1 := by omega
    refine ⟨0, by omega, ?_⟩
    rw [hT, ← hi3]
    exact e.symm

/-- With integer distances of magnitude at most `2^48` between the cities of
a closed tour of at most 32 nodes, the costs of the input and of the tour that
`optimize` returns are the same in `double` and in exact arithmetic. -/
theorem optimize_cost_d {fuel : Nat} {inst : Oracle} {T : Tour} {rv : List Nat}
    {m : OptimizeMethod} {out : Tour} (hL : 2 ≤ T.length)
    (hT : T.get 0 = T.get (T.length - 1))
    (hrv : ∀ l, l < T.length - 1 → rd rv l < T.length - 1) (hlen : T.length - 1 ≤ 31)
    (hint : ∀ i, i < T.length - 1 → ∀ j, j < T.length - 1 →
      (inst (T.get i) (T.get j)).den = 1 ∧ |inst (T.get i) (T.get j)| ≤ 2 ^ 48)
    (h : optimize fuel inst T rv m = .ok out) :
    out.calculateCost_d inst = out.calculateCost inst ∧
      T.calculateCost_d inst = T.calculateCost inst := by
  have hp := optimize_perm hL hT hrv h
  have hall : ∀ x ∈ T.nodes, ∀ y ∈ T.nodes, IntB (inst x y) 1 := by
    intro x hx y hy
    obtain ⟨i, hi, rfl⟩ := mem_nodes_get hL hT hx
    obtain ⟨j, hj, rfl⟩ := mem_nodes_get hL hT hy
    exact intB_of_den (hint i hi j hj)
  refine ⟨calculateCost_d_eq out inst (fun x hx y hy =>
    hall x (hp.mem_iff.1 hx) y (hp.mem_iff.1 hy)) ?_, calculateCost_d_eq T inst hall hlen⟩
  rw [hp.length_eq]
  exact hlen

/-- Counterexample to claim C19 as stated: the tour `0 1 2 3 0` with the
symmetric distances `table4s` (all of them `double` values), `n - 1 = 3` and
the scan order `0, 1, 2, 3`.  The exchange of the edges `(1, 2)`, `(3, 0)` for
`(1, 3)`, `(2, 0)` lowers the cost by 1, and `optimize` with the engine in
exact arithmetic returns the tour `0 1 3 2 0`.  With the gains computed in
`double` the sums that contain `2^54 + 4` are rounded to multiples of 4, no
computed gain is below `-EPS`, and every run of `optimize` with
`twoOptsMethod` that returns (a run with 10 passes does) returns the input
tour, whose cost (summed exactly or in `double`) is not lower than the
input's. -/
theorem rounded_crossing_kept :
    (∀ a b, tableOracle table4s a b = tableOracle table4s b a) ∧
    (∀ i, i < 4 → ∀ j, j < 4 → rnd (tableOracle table4s i j) = tableOracle table4s i j) ∧
    (⟨[0, 1, 2, 3, 0]⟩ : Tour).get 0 = (⟨[0, 1, 2, 3, 0]⟩ : Tour).get 4 ∧
    (⟨[0, 1, 2, 3, 0]⟩ : Tour).length - 1 - 1 ≤ nn_ls ∧
    ([0, 1, 2, 3] : List Nat).Perm (List.range 4) ∧
    tableOracle table4s ((⟨[0, 1, 2, 3, 0]⟩ : Tour).get 1) ((⟨[0, 1, 2, 3, 0]⟩ : Tour).get 3)
      + tableOracle table4s ((⟨[0, 1, 2, 3, 0]⟩ : Tour).get 2) ((⟨[0, 1, 2, 3, 0]⟩ : Tour).get 4)
      - tableOracle table4s ((⟨[0, 1, 2, 3, 0]⟩ : Tour).get 1) ((⟨[0, 1, 2, 3, 0]⟩ : Tour).get 2)
      - tableOracle table4s ((⟨[0, 1, 2, 3, 0]⟩ : Tour).get 3) ((⟨[0, 1, 2, 3, 0]⟩ : Tour).get 4)
      = -1 ∧
    optimize 10 (tableOracle table4s) ⟨[0, 1, 2, 3, 0]⟩ [0, 1, 2, 3] .twoOptsMethod =
      .ok ⟨[0, 1, 3, 2, 0]⟩ ∧
    optimize_d 10 (tableOracle table4s) ⟨[0, 1, 2, 3, 0]⟩ [0, 1, 2, 3] .twoOptsMethod =
      .ok ⟨[0, 1, 2, 3, 0]⟩ ∧
    ∀ fuel out,
      optimize_d fuel (tableOracle table4s) ⟨[0, 1, 2, 3, 0]⟩ [0, 1, 2, 3] .twoOptsMethod =
        .ok out →
      out = ⟨[0, 1, 2, 3, 0]⟩ ∧
      ¬ out.calculateCost (tableOracle table4s) <
        (⟨[0, 1, 2, 3, 0]⟩ : Tour).calculateCost (tableOracle table4s) ∧
      ¬ out.calculateCost_d (tableOracle table4s) <
        (⟨[0, 1, 2, 3, 0]⟩ : Tour).calculateCost_d (tableOracle table4s) := by
  have h10 : optimize_d 10 (tableOracle table4s) ⟨[0, 1, 2, 3, 0]⟩ [0, 1, 2, 3]
      .twoOptsMethod = .ok ⟨[0, 1, 2, 3, 0]⟩ := by decide!
  refine ⟨tableOracle_symm table4s, by decide!, by decide, by decide, by decide, by decide!,
    by decide!, h10, fun fuel out h => ?_⟩
  have e1 := optimize_d_mono h 10
  have e2 := optimize_d_mono h10 fuel
  rw [Nat.add_comm] at e1
  rw [e1] at e2
  have e : out = ⟨[0, 1, 2, 3, 0]⟩ := Except.ok.inj e2
  subst e
  exact ⟨rfl, lt_irrefl _, lt_irrefl _⟩

/-- Claim C19, amended: crossings are removed when no gain is rounded.  For a
symmetric distance oracle, a closed input tour with `n - 1 <= nn_ls = 20`
(every other city is in each scanned candidate list) and a scan order that is
a permutation of `0..n-1`: if the input cycle has two edges `(t[i], t[i+1])`,
`(t[j], t[j+1])` whose exchange for `(t[i], t[j])`, `(t[i+1], t[j+1])` lowers
the cost by more than `EPS`, then `optimize` with `twoOptsMethod` returns, and
the tour it returns costs strictly less than the input.  This holds for the
engine in exact arithmetic on every oracle, and for the engine in `double` on
every oracle whose distances between the cities of the tour are integers of
magnitude at most `2^48`, where each gain is computed without rounding; there
the cost is strictly lower both as `calculateCost` sums it in `double` and as
an exact sum. -/
theorem crossing_removed_unrounded (inst : Oracle) (T : Tour) (rv : List Nat)
    (hT : T.get 0 = T.get (T.length - 1)) (hsym : ∀ x y, inst x y = inst y x)
    (hn : T.length - 1 - 1 ≤ nn_ls) (hrv : rv.Perm (List.range (T.length - 1)))
    (hcross : ∃ i j, i < T.length - 1 ∧ j < T.length - 1 ∧ i ≠ j ∧
      inst (T.get i) (T.get j) + inst (T.get (i + 1)) (T.get (j + 1))
        - inst (T.get i) (T.get (i + 1)) - inst (T.get j) (T.get (j + 1)) < -EPS) :
    ((∃ fuel out, ∀ k, optimize (fuel + k) inst T rv .twoOptsMethod = .ok out) ∧
      ∀ fuel out, optimize fuel inst T rv .twoOptsMethod = .ok out →
        out.calculateCost inst < T.calculateCost inst) ∧
    ((∀ i, i < T.length - 1 → ∀ j, j < T.length - 1 →
        (inst (T.get i) (T.get j)).den = 1 ∧ |inst (T.get i) (T.get j)| ≤ 2 ^ 48) →
      (∃ fuel out, ∀ k, optimize_d (fuel + k) inst T rv .twoOptsMethod = .ok out) ∧
      ∀ fuel out, optimize_d fuel inst T rv .twoOptsMethod = .ok out →
        out.calculateCost_d inst < T.calculateCost_d inst ∧
        out.calculateCost inst < T.calculateCost inst) := by
  have h := crossing_removed inst T rv hT hsym hn hrv hcross
  refine ⟨h, fun hint => ?_⟩
  simp only [optimize_d_eq _ rv _ hint]
  refine ⟨h.1, fun fuel out ho => ?_⟩
  have hL : 2 ≤ T.length := by
    obtain ⟨i, _, hi, _⟩ := hcross
    omega
  have hrvlen : rv.length = T.length - 1 := by rw [hrv.length_eq, List.length_range]
  have hrv1 : ∀ l, l < T.length - 1 → rd rv l < T.length - 1 := by
    intro l hl
    have hl2 : l < rv.length := by omega
    have hm : rv[l] ∈ List.range (T.length - 1) := hrv.mem_iff.1 (List.getElem_mem _)
    unfold rd
    rw [List.getD_eq_getElem?_getD, List.getElem?_eq_getElem hl2]
    simpa using hm
  have hlen : T.length - 1 ≤ 31 := by
    have : nn_ls = 20 := rfl
    omega
  obtain ⟨e1, e2⟩ := optimize_cost_d hL hT hrv1 hlen hint ho
  rw [e1, e2]
  exact ⟨h.2 fuel out ho, h.2 fuel out ho⟩

theorem crossing_removed_unrounded_witness :
    (∀ i, i < tour6.length - 1 → ∀ j, j < tour6.length - 1 →
      (tableOracle table6 (tour6.get i) (tour6.get j)).den = 1 ∧
        |tableOracle table6 (tour6.get i) (tour6.get j)| ≤ 2 ^ 48) ∧
    ((∃ fuel out, ∀ k,
        optimize (fuel + k) (tableOracle table6) tour6 (List.range 6) .twoOptsMethod = .ok out) ∧
      ∀ fuel out,
        optimize fuel (tableOracle table6) tour6 (List.range 6) .twoOptsMethod = .ok out →
        out.calculateCost (tableOracle table6) < tour6.calculateCost (tableOracle table6)) ∧
    (∃ fuel out, ∀ k,
        optimize_d (fuel + k) (tableOracle table6) tour6 (List.range 6) .twoOptsMethod =
          .ok out) ∧
      ∀ fuel out,
        optimize_d fuel (tableOracle table6) tour6 (List.range 6) .twoOptsMethod = .ok out →
        out.calculateCost_d (tableOracle table6) < tour6.calculateCost_d (tableOracle table6) ∧
        out.calculateCost (tableOracle table6) < tour6.calculateCost (tableOracle table6) :=
  ⟨by decide!,
    (crossing_removed_unrounded (tableOracle table6) tour6 (List.range 6) (by decide)
      (tableOracle_symm table6) (by decide) (List.Perm.refl _)
      ⟨1, 3, by decide, by decide, by decide, by decide!⟩).1,
    (crossing_removed_unrounded (tableOracle table6) tour6 (List.range 6) (by decide)
      (tableOracle_symm table6) (by decide) (List.Perm.refl _)
      ⟨1, 3, by decide, by decide, by decide, by decide!⟩).2 (by decide!)⟩

/-- Rounding alone separates the two engines: the tour `0 1 2 3 0` with the
symmetric distances `table4r` and the scan order `0, 1, 2, 3`.  For `c1 = 0`,
`c2 = 2` the successor search of `two_opt_first` computes the gain
`((-2^54 + 1) + 2^54) - 1 = -1` in `double` and finds the move
`h1..h4 = 0 1 2 3`.  The 2-opt fallback of `three_opt_first` adds the same
distances in another order, `((-2^54 - 1) + 1) + 2^54 = 0`, and
`three_opt_first` returns the tour unchanged with no accepted move. -/
theorem rounded_successor_move_not_covered :
    (∀ i, i < 4 → ∀ j, j < 4 → problem4r.dist i j = problem4r.dist j i) ∧
    (∀ i, i < 4 → ∀ j, j < 4 → rnd (problem4r.dist i j) = problem4r.dist i j) ∧
    search_succ_d problem4r (init_state 4 [0, 1, 2, 3, 0] 0).arr 0 1 (problem4r.dist 0 1)
      (candidates 4) = some ⟨0, 1, 2, 3, -1⟩ ∧
    (three_opt_first_d 40 [0, 1, 2, 3, 0] problem4r [0, 1, 2, 3]).map
      (fun s => (s.arr.tour, s.n_exchanges)) = .ok ([0, 1, 2, 3, 0], 0) := by
  refine ⟨by decide!, by decide!, by decide!, by decide!⟩

/-- The tour `0 1 2 3 4 5 0` with the distances `table6c` (integers below
`2^48`) and the scan order `0, 1, .., 5`, with the gains computed in `double`:
as in exact arithmetic, the successor search for `c1 = 1` finds nothing, the
predecessor search finds the move `h1..h4 = 0 1 3 4` with gain `-4`,
`two_opt_first` accepts one move and returns `0 3 2 1 4 5 0`, and
`three_opt_first` accepts no move and returns the tour unchanged. -/
theorem predecessor_move_not_covered_in_double :
    (problemOf (tableOracle table6c) ⟨[0, 1, 2, 3, 4, 5, 0]⟩).IntTable ∧
    search_succ_d (problemOf (tableOracle table6c) ⟨[0, 1, 2, 3, 4, 5, 0]⟩)
      (init_state 6 [0, 1, 2, 3, 4, 5, 0] 0).arr 1 2
      ((problemOf (tableOracle table6c) ⟨[0, 1, 2, 3, 4, 5, 0]⟩).dist 1 2) (candidates 6) = none ∧
    find_move2_d (problemOf (tableOracle table6c) ⟨[0, 1, 2, 3, 4, 5, 0]⟩) 6
      (init_state 6 [0, 1, 2, 3, 4, 5, 0] 0).arr 1 = some ⟨0, 1, 3, 4, -4⟩ ∧
    (two_opt_first_d 10 [0, 1, 2, 3, 4, 5, 0]
      (problemOf (tableOracle table6c) ⟨[0, 1, 2, 3, 4, 5, 0]⟩) (List.range 6)).map
        (fun s => (s.arr.tour, s.n_exchanges)) = .ok ([0, 3, 2, 1, 4, 5, 0], 1) ∧
    (three_opt_first_d 10 [0, 1, 2, 3, 4, 5, 0]
      (problemOf (tableOracle table6c) ⟨[0, 1, 2, 3, 4, 5, 0]⟩) (List.range 6)).map
        (fun s => (s.arr.tour, s.n_exchanges)) = .ok ([0, 1, 2, 3, 4, 5, 0], 0) := by
  refine ⟨by decide!, by decide!, by decide!, by decide!, by decide!⟩

/-- Claim C31, amended: the 2-opt fallback of `three_opt_first` covers the
successor search of `two_opt_first` when no gain is rounded.  For symmetric
distances, a tour of the cities `0..n-1` with `tour[n] == tour[0]`, candidate
lists that hold other cities and a scan order within `0..n-1`: if for some
scanned point the successor search of `two_opt_first` finds a move on the
entry tour, then both engines return (with enough fuel for the outer loop of
the model), and every run of `two_opt_first` and every run of
`three_opt_first` that returns has accepted at least one move.  This holds
for the engines in exact arithmetic on every distance table, and for the
engines in `double` on every table of integers of magnitude at most `2^48`,
where each gain is computed without rounding. -/
theorem successor_search_covered_unrounded (P : TspProblem) (n : Nat) (rv tour : List Nat)
    (hP : WFP n P) (hsym : ∀ i j, P.dist i j = P.dist j i) (hrv : ∀ l, l < n → rd rv l < n)
    (hlen : tour.length = n + 1) (hperm : tour.dropLast.Perm (List.range n))
    (hsent : rd tour n = rd tour 0) :
    ((∃ l, l < n ∧ ∃ m, search_succ P (init_state n tour 0).arr (rd rv l)
        (rd tour (rd (init_state n tour 0).arr.pos (rd rv l) + 1))
        (P.dist (rd rv l) (rd tour (rd (init_state n tour 0).arr.pos (rd rv l) + 1)))
        (candidates n) = some m) →
      (∃ fuel s2 s3, (∀ k, two_opt_first (fuel + k) tour P rv = .ok s2) ∧
        ∀ k, three_opt_first (fuel + k) tour P rv = .ok s3) ∧
      (∀ fuel s, two_opt_first fuel tour P rv = .ok s → 1 ≤ s.n_exchanges) ∧
      (∀ fuel s, three_opt_first fuel tour P rv = .ok s → 1 ≤ s.n_exchanges)) ∧
    (P.IntTable →
      (∃ l, l < n ∧ ∃ m, search_succ_d P (init_state n tour 0).arr (rd rv l)
        (rd tour (rd (init_state n tour 0).arr.pos (rd rv l) + 1))
        (P.dist (rd rv l) (rd tour (rd (init_state n tour 0).arr.pos (rd rv l) + 1)))
        (candidates n) = some m) →
      (∃ fuel s2 s3, (∀ k, two_opt_first_d (fuel + k) tour P rv = .ok s2) ∧
        ∀ k, three_opt_first_d (fuel + k) tour P rv = .ok s3) ∧
      (∀ fuel s, two_opt_first_d fuel tour P rv = .ok s → 1 ≤ s.n_exchanges) ∧
      (∀ fuel s, three_opt_first_d fuel tour P rv = .ok s → 1 ≤ s.n_exchanges)) := by
  refine ⟨fun hhit => successor_search_covered P n rv tour hP hsym hrv hlen hperm hsent hhit,
    fun hI hhit => ?_⟩
  simp only [two_opt_first_d_eq hI, three_opt_first_d_eq hI]
  refine successor_search_covered P n rv tour hP hsym hrv hlen hperm hsent ?_
  obtain ⟨l, hl, m, hm⟩ := hhit
  rw [search_succ_d_eq hI _ _ _ (hI.dist _ _)] at hm
  exact ⟨l, hl, m, hm⟩

theorem successor_search_covered_unrounded_witness :
    problem7.IntTable ∧
    ((∃ fuel s2 s3, (∀ k, two_opt_first (fuel + k) [0, 1, 2, 3, 4, 5, 6, 0] problem7
          (List.range 7) = .ok s2) ∧
        ∀ k, three_opt_first (fuel + k) [0, 1, 2, 3, 4, 5, 6, 0] problem7 (List.range 7) =
          .ok s3) ∧
      (∀ fuel s, two_opt_first fuel [0, 1, 2, 3, 4, 5, 6, 0] problem7 (List.range 7) = .ok s →
        1 ≤ s.n_exchanges) ∧
      (∀ fuel s, three_opt_first fuel [0, 1, 2, 3, 4, 5, 6, 0] problem7 (List.range 7) = .ok s →
        1 ≤ s.n_exchanges)) ∧
    ((∃ fuel s2 s3, (∀ k, two_opt_first_d (fuel + k) [0, 1, 2, 3, 4, 5, 6, 0] problem7
          (List.range 7) = .ok s2) ∧
        ∀ k, three_opt_first_d (fuel + k) [0, 1, 2, 3, 4, 5, 6, 0] problem7 (List.range 7) =
          .ok s3) ∧
      (∀ fuel s, two_opt_first_d fuel [0, 1, 2, 3, 4, 5, 6, 0] problem7 (List.range 7) = .ok s →
        1 ≤ s.n_exchanges) ∧
      (∀ fuel s, three_opt_first_d fuel [0, 1, 2, 3, 4, 5, 6, 0] problem7 (List.range 7) = .ok s →
        1 ≤ s.n_exchanges)) :=
  ⟨by decide!,
    (successor_search_covered_unrounded problem7 7 (List.range 7) [0, 1, 2, 3, 4, 5, 6, 0]
      (ofTour_wfp (problemOf_ok (tableOracle table7) ⟨[0, 1, 2, 3, 4, 5, 6, 0]⟩ (by decide)))
      (ofTour_sym (problemOf_ok (tableOracle table7) ⟨[0, 1, 2, 3, 4, 5, 6, 0]⟩ (by decide))
        (tableOracle_symm table7))
      (by decide) (by decide) (by decide) (by decide)).1
      ⟨0, by decide, ⟨0, 1, 4, 5, -2⟩, by decide!⟩,
    (successor_search_covered_unrounded problem7 7 (List.range 7) [0, 1, 2, 3, 4, 5, 6, 0]
      (ofTour_wfp (problemOf_ok (tableOracle table7) ⟨[0, 1, 2, 3, 4, 5, 6, 0]⟩ (by decide)))
      (ofTour_sym (problemOf_ok (tableOracle table7) ⟨[0, 1, 2, 3, 4, 5, 6, 0]⟩ (by decide))
        (tableOracle_symm table7))
      (by decide) (by decide) (by decide) (by decide)).2
      (by decide!) ⟨0, by decide, ⟨0, 1, 4, 5, -2⟩, by decide!⟩⟩

end tsp_optimizer
